import Mathlib


/-!
# jnstl: red-black tree engine and sort engine

A shallow embedding of `src/src/red_black_tree.cpp`, `include/JNSTL/red_black_tree.h`,
`include/JNSTL/bits/sort.h`, `include/JNSTL/bits/heap.h` and the sorting entry points of
`include/JNSTL/algorithm.h`.

Memory is explicit.  A pointer is a natural number, `0` is `nullptr`.  The link fields of
every `rbtree_node_base` object (the header included) live in a map `Mem`; payloads live in
a second map.  Every dereference of a null pointer makes the operation return `none`
(undefined behaviour in the source).  Loops take a fuel argument; running out of fuel is
`none` as well.
-/

set_option autoImplicit false

/-! ## Node primitives (`red_black_tree.h`, lines 19-62) -/

/-- The colour tag `enum rbtree_color { mRed, mBlack }`. -/
inductive rbtree_color where
  | mRed
  | mBlack
  deriving DecidableEq, Repr

/-- Addresses of node objects; `0` is `nullptr`. -/
abbrev Ptr := Nat

/-- The struct `rbtree_node_base`: three links and a colour. -/
structure rbtree_node_base where
  mRight : Ptr
  mLeft : Ptr
  mParent : Ptr
  mColor : rbtree_color
  deriving DecidableEq, Repr

/-- The link fields of every node object, by address. -/
abbrev Mem := Ptr → rbtree_node_base

/-- Dereference `p` for reading; `none` on `nullptr`. -/
def rd (m : Mem) (p : Ptr) : Option rbtree_node_base :=
  if p = 0 then none else some (m p)

/-- The assignment `p->mRight = v`. -/
def setRight (m : Mem) (p v : Ptr) : Option Mem :=
  if p = 0 then none else some (Function.update m p { m p with mRight := v })

/-- The assignment `p->mLeft = v`. -/
def setLeft (m : Mem) (p v : Ptr) : Option Mem :=
  if p = 0 then none else some (Function.update m p { m p with mLeft := v })

/-- The assignment `p->mParent = v`. -/
def setParent (m : Mem) (p v : Ptr) : Option Mem :=
  if p = 0 then none else some (Function.update m p { m p with mParent := v })

/-- The assignment `p->mColor = c`. -/
def setColor (m : Mem) (p : Ptr) (c : rbtree_color) : Option Mem :=
  if p = 0 then none else some (Function.update m p { m p with mColor := c })

/-! ## `red_black_tree.cpp` -/

/-- `rbtree_is_left_child`: `x == x->mParent->mLeft`. -/
def rbtree_is_left_child (m : Mem) (x : Ptr) : Option Bool := do
  let nx ← rd m x
  let np ← rd m nx.mParent
  pure (decide (x = np.mLeft))

/-- `node_is_rbtree_header`: `x->mParent->mParent == x && x->mColor == mRed`. -/
def node_is_rbtree_header (m : Mem) (x : Ptr) : Option Bool := do
  let nx ← rd m x
  let np ← rd m nx.mParent
  pure (decide (np.mParent = x) && decide (nx.mColor = rbtree_color.mRed))

/-- `rbtree_min`: `while (x->mLeft != nullptr) x = x->mLeft;`. -/
def rbtree_min (m : Mem) : Nat → Ptr → Option Ptr
  | 0, _ => none
  | fuel + 1, x => do
    let nx ← rd m x
    if nx.mLeft ≠ 0 then rbtree_min m fuel nx.mLeft else pure x

/-- `rbtree_max`: `while (x->mRight != nullptr) x = x->mRight;`. -/
def rbtree_max (m : Mem) : Nat → Ptr → Option Ptr
  | 0, _ => none
  | fuel + 1, x => do
    let nx ← rd m x
    if nx.mRight ≠ 0 then rbtree_max m fuel nx.mRight else pure x

/-- `rbtree_rotate_left(x, root)`; `root` is the reference `header->mParent`. -/
def rbtree_rotate_left (m : Mem) (x hdr : Ptr) : Option Mem := do
  let y := (← rd m x).mRight
  let m ← setRight m x (← rd m y).mLeft
  let yl := (← rd m y).mLeft
  let m ← if yl ≠ 0 then setParent m yl x else pure m
  let m ← setParent m y (← rd m x).mParent
  let root := (← rd m hdr).mParent
  let m ←
    if x = root then setParent m hdr y
    else do
      if (← rbtree_is_left_child m x) then setLeft m (← rd m x).mParent y
      else setRight m (← rd m x).mParent y
  let m ← setLeft m y x
  setParent m x y

/-- `rbtree_rotate_right(x, root)`; `root` is the reference `header->mParent`. -/
def rbtree_rotate_right (m : Mem) (x hdr : Ptr) : Option Mem := do
  let y := (← rd m x).mLeft
  let m ← setLeft m x (← rd m y).mRight
  let yr := (← rd m y).mRight
  let m ← if yr ≠ 0 then setParent m yr x else pure m
  let m ← setParent m y (← rd m x).mParent
  let root := (← rd m hdr).mParent
  let m ←
    if x = root then setParent m hdr y
    else do
      if !(← rbtree_is_left_child m x) then setRight m (← rd m x).mParent y
      else setLeft m (← rd m x).mParent y
  let m ← setRight m y x
  setParent m x y

/-- The first statement of `rbtree_transplant(u, v, header)` (lines 81-86): the link to
`u` becomes a link to `v`. -/
def rbtree_transplant_link (m : Mem) (u v hdr : Ptr) : Option Mem := do
  let root := (← rd m hdr).mParent
  if u = root then setParent m hdr v
  else do
    if (← rbtree_is_left_child m u) then setLeft m (← rd m u).mParent v
    else setRight m (← rd m u).mParent v

/-- `rbtree_transplant(u, v, header)`. -/
def rbtree_transplant (m : Mem) (u v hdr : Ptr) : Option Mem := do
  let m ← rbtree_transplant_link m u v hdr
  if v ≠ 0 then setParent m v (← rd m u).mParent else pure m

/-- The test `p == nullptr || p->mColor == mBlack`. -/
def nullOrBlack (m : Mem) (p : Ptr) : Bool :=
  decide (p = 0) || decide ((m p).mColor = rbtree_color.mBlack)

/-- The end of a pass through the loop of `rbtree_delete_fixup` in the case
`x == y->mLeft` (lines 119-127): the recolouring and the rotation at `y` before `break`. -/
def delete_fixup_left_case4 (hdr : Ptr) (m : Mem) (y w : Ptr) :
    Option (Mem × Option Ptr) := do
  let m ← setColor m w (← rd m y).mColor
  let m ← setColor m y rbtree_color.mBlack
  let wr := (← rd m w).mRight
  let m ← if wr ≠ 0 then setColor m wr rbtree_color.mBlack else pure m
  let m ← rbtree_rotate_left m y hdr
  pure (m, none)

/-- A pass through the loop of `rbtree_delete_fixup` in the case `x == y->mLeft` from the
test of the children of the sibling `w` on (lines 108-127). -/
def delete_fixup_left_tail (hdr : Ptr) (m : Mem) (y w : Ptr) :
    Option (Mem × Option Ptr) := do
  let nw ← rd m w
  if nullOrBlack m nw.mLeft = true ∧ nullOrBlack m nw.mRight = true then do
    let m ← setColor m w rbtree_color.mRed
    pure (m, some (← rd m y).mParent)
  else do
    let (m, w) ←
      if nullOrBlack m nw.mRight = true then do
        let m ← setColor m nw.mLeft rbtree_color.mBlack
        let m ← setColor m w rbtree_color.mRed
        let m ← rbtree_rotate_right m w hdr
        pure (m, (← rd m y).mRight)
      else pure (m, w)
    delete_fixup_left_case4 hdr m y w

/-- One pass through the body of the loop of `rbtree_delete_fixup` in the case
`x == y->mLeft` (lines 100-128).  The result `some y2` stands for the assignments
`x = y; y = y->mParent` (with `y2` the new `y`), the result `none` for the `break`. -/
def delete_fixup_left (hdr : Ptr) (m : Mem) (y : Ptr) : Option (Mem × Option Ptr) := do
  let w := (← rd m y).mRight
  let (m, w) ←
    if (← rd m w).mColor = rbtree_color.mRed then do
      let m ← setColor m w rbtree_color.mBlack
      let m ← setColor m y rbtree_color.mRed
      let m ← rbtree_rotate_left m y hdr
      pure (m, (← rd m y).mRight)
    else pure (m, w)
  delete_fixup_left_tail hdr m y w

/-- The end of a pass through the loop of `rbtree_delete_fixup` in the case
`x != y->mLeft` (lines 149-157): the recolouring and the rotation at `y` before `break`. -/
def delete_fixup_right_case4 (hdr : Ptr) (m : Mem) (y w : Ptr) :
    Option (Mem × Option Ptr) := do
  let m ← setColor m w (← rd m y).mColor
  let m ← setColor m y rbtree_color.mBlack
  let wl := (← rd m w).mLeft
  let m ← if wl ≠ 0 then setColor m wl rbtree_color.mBlack else pure m
  let m ← rbtree_rotate_right m y hdr
  pure (m, none)

/-- A pass through the loop of `rbtree_delete_fixup` in the case `x != y->mLeft` from the
test of the children of the sibling `w` on (lines 138-157). -/
def delete_fixup_right_tail (hdr : Ptr) (m : Mem) (y w : Ptr) :
    Option (Mem × Option Ptr) := do
  let nw ← rd m w
  if nullOrBlack m nw.mLeft = true ∧ nullOrBlack m nw.mRight = true then do
    let m ← setColor m w rbtree_color.mRed
    pure (m, some (← rd m y).mParent)
  else do
    let (m, w) ←
      if nullOrBlack m nw.mLeft = true then do
        let m ← setColor m nw.mRight rbtree_color.mBlack
        let m ← setColor m w rbtree_color.mRed
        let m ← rbtree_rotate_left m w hdr
        pure (m, (← rd m y).mLeft)
      else pure (m, w)
    delete_fixup_right_case4 hdr m y w

/-- One pass through the body of the loop of `rbtree_delete_fixup` in the case
`x != y->mLeft` (lines 130-158); results as for `delete_fixup_left`. -/
def delete_fixup_right (hdr : Ptr) (m : Mem) (y : Ptr) : Option (Mem × Option Ptr) := do
  let w := (← rd m y).mLeft
  let (m, w) ←
    if (← rd m w).mColor = rbtree_color.mRed then do
      let m ← setColor m w rbtree_color.mBlack
      let m ← setColor m y rbtree_color.mRed
      let m ← rbtree_rotate_right m y hdr
      pure (m, (← rd m y).mLeft)
    else pure (m, w)
  delete_fixup_right_tail hdr m y w

/-- The tail of `rbtree_delete_fixup`: `if (x != nullptr) x->mColor = mBlack;`. -/
def delete_fixup_finish (m : Mem) (x : Ptr) : Option Mem :=
  if x ≠ 0 then setColor m x rbtree_color.mBlack else some m

/-- `rbtree_delete_fixup(x, y, header)`. -/
def rbtree_delete_fixup (hdr : Ptr) : Nat → Mem → Ptr → Ptr → Option Mem
  | 0, _, _, _ => none
  | fuel + 1, m, x, y => do
    let root := (← rd m hdr).mParent
    if x ≠ root ∧ nullOrBlack m x = true then
      let (m, next) ←
        if x = (← rd m y).mLeft then delete_fixup_left hdr m y
        else delete_fixup_right hdr m y
      match next with
      | some y2 => rbtree_delete_fixup hdr fuel m y y2
      | none => delete_fixup_finish m x
    else delete_fixup_finish m x

/-- The climbing loop of `RBTreeIncrement`:
`while (x == y->mRight) { x = y; y = y->mParent; }`. -/
def incClimb (m : Mem) : Nat → Ptr → Ptr → Option (Ptr × Ptr)
  | 0, _, _ => none
  | fuel + 1, x, y => do
    let ny ← rd m y
    if x = ny.mRight then incClimb m fuel y ny.mParent else pure (x, y)

/-- `RBTreeIncrement`. -/
def RBTreeIncrement (m : Mem) (fuel : Nat) (x : Ptr) : Option Ptr := do
  let nx ← rd m x
  if nx.mRight ≠ 0 then rbtree_min m fuel nx.mRight
  else do
    let (x, y) ← incClimb m fuel x nx.mParent
    if (← rd m x).mRight ≠ y then pure y else pure x

/-- The climbing loop of `RBTreeDecrement`:
`while (x == y->mLeft) { x = y; y = y->mParent; }`. -/
def decClimb (m : Mem) : Nat → Ptr → Ptr → Option (Ptr × Ptr)
  | 0, _, _ => none
  | fuel + 1, x, y => do
    let ny ← rd m y
    if x = ny.mLeft then decClimb m fuel y ny.mParent else pure (x, y)

/-- `RBTreeDecrement`. -/
def RBTreeDecrement (m : Mem) (fuel : Nat) (x : Ptr) : Option Ptr := do
  if (← node_is_rbtree_header m x) then pure (← rd m x).mRight
  else
    let nx ← rd m x
    if nx.mLeft ≠ 0 then rbtree_max m fuel nx.mLeft
    else do
      let (_, y) ← decClimb m fuel x nx.mParent
      pure y

/-- `RBTreeBlackCount(pTop, pBottom)`; the accumulator is `nCount`. -/
def RBTreeBlackCount (m : Mem) (pTop : Ptr) : Nat → Ptr → Nat → Option Nat
  | 0, _, _ => none
  | fuel + 1, pBottom, nCount =>
    if pBottom = 0 then some nCount
    else
      let nCount := if (m pBottom).mColor = rbtree_color.mBlack then nCount + 1 else nCount
      if pBottom = pTop then some nCount
      else RBTreeBlackCount m pTop fuel (m pBottom).mParent nCount

/-- The body of the loop of `RBTreeInsert` when `pNew->mParent` is a left child
(lines 251-266); returns the memory and the new `pNew`. -/
def insert_fixup_left (hdr : Ptr) (m : Mem) (pNew pParentParent : Ptr) :
    Option (Mem × Ptr) := do
  let pTemp := (← rd m pParentParent).mRight
  if pTemp ≠ 0 ∧ (m pTemp).mColor = rbtree_color.mRed then do
    let m ← setColor m (← rd m pNew).mParent rbtree_color.mBlack
    let m ← setColor m pTemp rbtree_color.mBlack
    let m ← setColor m pParentParent rbtree_color.mRed
    pure (m, pParentParent)
  else do
    let (m, pNew) ←
      if !(← rbtree_is_left_child m pNew) then do
        let pNew := (← rd m pNew).mParent
        let m ← rbtree_rotate_left m pNew hdr
        pure (m, pNew)
      else pure (m, pNew)
    let m ← setColor m (← rd m pNew).mParent rbtree_color.mBlack
    let m ← setColor m pParentParent rbtree_color.mRed
    let m ← rbtree_rotate_right m pParentParent hdr
    pure (m, pNew)

/-- The body of the loop of `RBTreeInsert` when `pNew->mParent` is not a left child
(lines 268-283); returns the memory and the new `pNew`. -/
def insert_fixup_right (hdr : Ptr) (m : Mem) (pNew pParentParent : Ptr) :
    Option (Mem × Ptr) := do
  let pTemp := (← rd m pParentParent).mLeft
  if pTemp ≠ 0 ∧ (m pTemp).mColor = rbtree_color.mRed then do
    let m ← setColor m (← rd m pNew).mParent rbtree_color.mBlack
    let m ← setColor m pTemp rbtree_color.mBlack
    let m ← setColor m pParentParent rbtree_color.mRed
    pure (m, pParentParent)
  else do
    let (m, pNew) ←
      if (← rbtree_is_left_child m pNew) then do
        let pNew := (← rd m pNew).mParent
        let m ← rbtree_rotate_right m pNew hdr
        pure (m, pNew)
      else pure (m, pNew)
    let m ← setColor m (← rd m pNew).mParent rbtree_color.mBlack
    let m ← setColor m pParentParent rbtree_color.mRed
    let m ← rbtree_rotate_left m pParentParent hdr
    pure (m, pNew)

/-- The rebalancing loop of `RBTreeInsert` (lines 247-285):
`while (pNew != pRoot && pNew->mParent->mColor == mRed)`. -/
def RBTreeInsert_loop (hdr : Ptr) : Nat → Mem → Ptr → Option Mem
  | 0, _, _ => none
  | fuel + 1, m, pNew => do
    let pRoot := (← rd m hdr).mParent
    if pNew = pRoot then pure m
    else
      let nParent ← rd m (← rd m pNew).mParent
      if nParent.mColor ≠ rbtree_color.mRed then pure m
      else
        let pParentParent := nParent.mParent
        let (m, pNew) ←
          if (← rbtree_is_left_child m (← rd m pNew).mParent) then
            insert_fixup_left hdr m pNew pParentParent
          else insert_fixup_right hdr m pNew pParentParent
        RBTreeInsert_loop hdr fuel m pNew

/-- The linking part of `RBTreeInsert` (lines 226-244): initialise `pNew`, attach it below
`pParent` and update the cached root, leftmost and rightmost links of the header. -/
def RBTreeInsert_link (m : Mem) (pNew pParent pHeader : Ptr) (insert_left : Bool) :
    Option Mem := do
  if pNew = 0 then none
  let m := Function.update m pNew
    { mRight := 0, mLeft := 0, mParent := pParent, mColor := rbtree_color.mRed }
  if insert_left then do
    let m ← setLeft m pParent pNew
    if pParent = pHeader then do
      let m ← setParent m pHeader pNew
      setRight m pHeader pNew
    else if pParent = (← rd m pHeader).mLeft then setLeft m pHeader pNew
    else pure m
  else do
    let m ← setRight m pParent pNew
    if pParent = (← rd m pHeader).mRight then setRight m pHeader pNew else pure m

/-- `RBTreeInsert(pNew, pParent, pHeader, insert_left)`. -/
def RBTreeInsert (m : Mem) (fuel : Nat) (pNew pParent pHeader : Ptr) (insert_left : Bool) :
    Option Mem := do
  let m ← RBTreeInsert_link m pNew pParent pHeader insert_left
  let pRoot := (← rd m pHeader).mParent
  let m ← setColor m pNew (if pNew = pRoot then rbtree_color.mBlack else rbtree_color.mRed)
  let m ← RBTreeInsert_loop pHeader fuel m pNew
  setColor m (← rd m pHeader).mParent rbtree_color.mBlack

/-- The end of the two-children case of `RBTreeErase` (lines 328-331): `y` takes the
place, the left subtree and the colour of `z`. -/
def RBTreeErase_replace (m : Mem) (z y pHeader : Ptr) : Option Mem := do
  let m ← rbtree_transplant m z y pHeader
  let m ← setLeft m y (← rd m z).mLeft
  let m ← setParent m (← rd m y).mLeft y
  setColor m y (← rd m z).mColor

/-- The unlinking of the successor `y` of `z` in the two-children case of `RBTreeErase`
(lines 314-327), with `x = y->mRight`: the memory afterwards and `xparent`. -/
def RBTreeErase_detach (m : Mem) (z y x pHeader : Ptr) : Option (Mem × Ptr) := do
  let ny ← rd m y
  if ny.mParent = z then do
    let m ← if x ≠ 0 then setParent m x y else pure m
    pure (m, y)
  else do
    let xparent := ny.mParent
    let m ← rbtree_transplant m y ny.mRight pHeader
    let m ← setRight m y (← rd m z).mRight
    let m ← setParent m (← rd m y).mRight y
    pure (m, xparent)

/-- The unlinking of `z` in `RBTreeErase` (lines 300-332): the memory afterwards, `x`,
`xparent` and `yColor`. -/
def RBTreeErase_relink (m : Mem) (fuel : Nat) (z pHeader : Ptr) :
    Option (Mem × Ptr × Ptr × rbtree_color) := do
  let nz ← rd m z
  if nz.mLeft = 0 then do
    let m ← rbtree_transplant m z nz.mRight pHeader
    pure (m, nz.mRight, nz.mParent, nz.mColor)
  else if nz.mRight = 0 then do
    let m ← rbtree_transplant m z nz.mLeft pHeader
    pure (m, nz.mLeft, nz.mParent, nz.mColor)
  else do
    let y ← rbtree_min m fuel nz.mRight
    let ny ← rd m y
    let yColor := ny.mColor
    let x := ny.mRight
    let (m, xparent) ← RBTreeErase_detach m z y x pHeader
    let m ← RBTreeErase_replace m z y pHeader
    pure (m, x, xparent, yColor)

/-- The update of the leftmost link of the header in `RBTreeErase` (lines 335-340). -/
def RBTreeErase_leftmost (m : Mem) (fuel : Nat) (z pHeader : Ptr) : Option Mem := do
  if z = (← rd m pHeader).mLeft then do
    if (← rd m z).mRight ≠ 0 then
      setLeft m pHeader (← rbtree_min m fuel (← rd m z).mRight)
    else setLeft m pHeader (← rd m z).mParent
  else pure m

/-- The update of the rightmost link of the header in `RBTreeErase` (lines 341-346). -/
def RBTreeErase_rightmost (m : Mem) (fuel : Nat) (z pHeader : Ptr) : Option Mem := do
  if z = (← rd m pHeader).mRight then do
    if (← rd m z).mLeft ≠ 0 then
      setRight m pHeader (← rbtree_max m fuel (← rd m z).mLeft)
    else setRight m pHeader (← rd m z).mParent
  else pure m

/-- `RBTreeErase(z, pHeader)`. -/
def RBTreeErase (m : Mem) (fuel : Nat) (z pHeader : Ptr) : Option Mem := do
  let (m, x, xparent, yColor) ← RBTreeErase_relink m fuel z pHeader
  let m ← RBTreeErase_leftmost m fuel z pHeader
  let m ← RBTreeErase_rightmost m fuel z pHeader
  if yColor = rbtree_color.mBlack then rbtree_delete_fixup pHeader fuel m x xparent
  else pure m

/-! ## The class `rbtree` (`red_black_tree.h`) -/

/-- The state of one `rbtree<Key, T, KeyOfT, Compare, Allocator>` object together with the
memory it lives in.  `mHeader` is the address of `mImpl.mHeader`, `mSize` is `mImpl.mSize`.
`mValue` holds the payload `mValue` of the node objects that have a constructed payload
(the header has none).  `brk` and `oom` model `malloc`: it hands out the fresh address
`brk`, or `nullptr` when `oom` is set. -/
structure rbtree (α : Type) where
  mem : Mem
  mValue : Ptr → Option α
  mHeader : Ptr
  mSize : Nat
  brk : Ptr
  oom : Bool

section rbtree_ops

variable {α κ : Type} (KeyOfT : α → κ) (KeyCompare : κ → κ → Bool)

/-- The default constructor: `rbtree_impl()` followed by `DoInit()`.  The header object is
placed at address `1`. -/
def rbtree.init : rbtree α where
  mem := Function.update
    (fun _ => { mRight := 0, mLeft := 0, mParent := 0, mColor := rbtree_color.mRed }) 1
    { mRight := 1, mLeft := 1, mParent := 0, mColor := rbtree_color.mRed }
  mValue := fun _ => none
  mHeader := 1
  mSize := 0
  brk := 2
  oom := false

/-- `mRoot()` and `mBegin()`: `mImpl.mHeader.mParent`. -/
def rbtree.mRoot (t : rbtree α) : Ptr := (t.mem t.mHeader).mParent

/-- `mLeftMost()`, the node of `begin()`: `mImpl.mHeader.mLeft`. -/
def rbtree.mLeftMost (t : rbtree α) : Ptr := (t.mem t.mHeader).mLeft

/-- `mRightMost()`: `mImpl.mHeader.mRight`. -/
def rbtree.mRightMost (t : rbtree α) : Ptr := (t.mem t.mHeader).mRight

/-- `mEnd()`, the node of `end()`: `&mImpl.mHeader`. -/
def rbtree.mEnd (t : rbtree α) : Ptr := t.mHeader

/-- `begin()`. -/
def rbtree.begin (t : rbtree α) : Ptr := t.mLeftMost

/-- `size()`. -/
def rbtree.size (t : rbtree α) : Nat := t.mSize

/-- `sValue(x)`: `x->mValue`; `none` when `x` is null or has no payload. -/
def sValue (t : rbtree α) (x : Ptr) : Option α :=
  if x = 0 then none else t.mValue x

/-- `sKey(x)`: `KeyOfT()(sValue(x))`. -/
def sKey (t : rbtree α) (x : Ptr) : Option κ :=
  (sValue t x).map KeyOfT

/-- `sLeft(x)`. -/
def sLeft (t : rbtree α) (x : Ptr) : Option Ptr := (rd t.mem x).map (·.mLeft)

/-- `sRight(x)`. -/
def sRight (t : rbtree α) (x : Ptr) : Option Ptr := (rd t.mem x).map (·.mRight)

/-- `LowerBound(x, y, key)`. -/
def LowerBound (t : rbtree α) : Nat → Ptr → Ptr → κ → Option Ptr
  | 0, _, _, _ => none
  | fuel + 1, x, y, key =>
    if x = 0 then some y
    else do
      if !KeyCompare (← sKey KeyOfT t x) key then
        LowerBound t fuel (← sLeft t x) x key
      else
        LowerBound t fuel (← sRight t x) y key

/-- `UpperBound(x, y, key)`. -/
def UpperBound (t : rbtree α) : Nat → Ptr → Ptr → κ → Option Ptr
  | 0, _, _, _ => none
  | fuel + 1, x, y, key =>
    if x = 0 then some y
    else do
      if KeyCompare key (← sKey KeyOfT t x) then
        UpperBound t fuel (← sLeft t x) x key
      else
        UpperBound t fuel (← sRight t x) y key

/-- `lower_bound(key)`. -/
def rbtree.lower_bound (t : rbtree α) (fuel : Nat) (key : κ) : Option Ptr :=
  LowerBound KeyOfT KeyCompare t fuel t.mRoot t.mEnd key

/-- `upper_bound(key)`. -/
def rbtree.upper_bound (t : rbtree α) (fuel : Nat) (key : κ) : Option Ptr :=
  UpperBound KeyOfT KeyCompare t fuel t.mRoot t.mEnd key

/-- `find(key)`. -/
def rbtree.find (t : rbtree α) (fuel : Nat) (key : κ) : Option Ptr := do
  let x ← LowerBound KeyOfT KeyCompare t fuel t.mRoot t.mEnd key
  if x = t.mEnd then pure t.mEnd
  else if KeyCompare key (← sKey KeyOfT t x) then pure t.mEnd
  else pure x

/-- The loop of `equal_range(key)` (lines 838-855). -/
def equal_range_loop (t : rbtree α) : Nat → Ptr → Ptr → κ → Option (Ptr × Ptr)
  | 0, _, _, _ => none
  | fuel + 1, x, y, key =>
    if x = 0 then some (y, y)
    else do
      let k ← sKey KeyOfT t x
      if KeyCompare k key then
        equal_range_loop t fuel (← sRight t x) y key
      else if KeyCompare key k then
        equal_range_loop t fuel (← sLeft t x) x key
      else do
        let lo ← LowerBound KeyOfT KeyCompare t fuel (← sLeft t x) x key
        let hi ← UpperBound KeyOfT KeyCompare t fuel (← sRight t x) y key
        pure (lo, hi)

/-- `equal_range(key)`. -/
def rbtree.equal_range (t : rbtree α) (fuel : Nat) (key : κ) : Option (Ptr × Ptr) :=
  equal_range_loop KeyOfT KeyCompare t fuel t.mRoot t.mEnd key

/-- `DoAllocateNode()`: the address `malloc` returns, and the state of the allocator
afterwards. -/
def DoAllocateNode (t : rbtree α) : Ptr × rbtree α :=
  if t.oom then (0, t) else (t.brk, { t with brk := t.brk + 1 })

/-- `DoCreateNode(value)`: allocate, then construct the payload in place. -/
def DoCreateNode (t : rbtree α) (value : α) : Option (Ptr × rbtree α) :=
  let (pNew, t) := DoAllocateNode t
  if pNew = 0 then none
  else some (pNew, { t with mValue := Function.update t.mValue pNew (some value) })

/-- `DoDestroyNode(pNode)`: destroy the payload and free the node. -/
def DoDestroyNode (t : rbtree α) (pNode : Ptr) : Option (rbtree α) :=
  if pNode = 0 then none
  else some { t with mValue := Function.update t.mValue pNode none }

/-- `DoInsert(pParent, x, value)`. -/
def DoInsert (t : rbtree α) (fuel : Nat) (pParent x : Ptr) (value : α) :
    Option (Ptr × rbtree α) := do
  let insert_left ←
    if x ≠ 0 ∨ pParent = t.mEnd then pure true
    else do pure (KeyCompare (KeyOfT value) (← sKey KeyOfT t pParent))
  let (pNew, t) ← DoCreateNode t value
  let m ← RBTreeInsert t.mem fuel pNew pParent t.mHeader insert_left
  pure (pNew, { t with mem := m, mSize := t.mSize + 1 })

/-- The descent loop of `FindEqual(pParent, key)` (lines 1108-1112); returns `pParent` and
`leftside` at loop exit (`child` is then null). -/
def FindEqual_loop (t : rbtree α) : Nat → Ptr → Ptr → Bool → κ → Option (Ptr × Bool)
  | 0, _, _, _, _ => none
  | fuel + 1, child, pParent, leftside, key =>
    if child = 0 then some (pParent, leftside)
    else do
      let leftside := KeyCompare key (← sKey KeyOfT t child)
      FindEqual_loop t fuel (← if leftside then sLeft t child else sRight t child)
        child leftside key

/-- `FindEqual(pParent, key)`: returns the node returned by the source and the value left
in the reference argument `pParent`. -/
def FindEqual (t : rbtree α) (fuel : Nat) (key : κ) : Option (Ptr × Ptr) := do
  let (pParent, leftside) ← FindEqual_loop KeyOfT KeyCompare t fuel t.mRoot t.mEnd true key
  let child : Ptr := 0
  let y ←
    if leftside then
      if pParent = t.mLeftMost then pure none
      else do pure (some (← RBTreeDecrement t.mem fuel pParent))
    else pure (some pParent)
  match y with
  | none => pure (child, pParent)
  | some y =>
    if KeyCompare (← sKey KeyOfT t y) key then pure (child, pParent)
    else pure (y, 0)

/-- The descent loop of `FindMulti` (lines 1150-1156); returns `y` at loop exit. -/
def FindMulti_loop (t : rbtree α) : Nat → Ptr → Ptr → κ → Option Ptr
  | 0, _, _, _ => none
  | fuel + 1, child, y, key =>
    if child = 0 then some y
    else do
      if KeyCompare key (← sKey KeyOfT t child) then
        FindMulti_loop t fuel (← sLeft t child) child key
      else
        FindMulti_loop t fuel (← sRight t child) child key

/-- `FindMulti(pParent, key)`: the returned leaf (always null) and `pParent`. -/
def FindMulti (t : rbtree α) (fuel : Nat) (key : κ) : Option (Ptr × Ptr) := do
  let y ← FindMulti_loop KeyOfT KeyCompare t fuel t.mRoot t.mEnd key
  pure (0, y)

/-- The descent loop of `FindLeafLow` (lines 1246-1252); returns `y` at loop exit. -/
def FindLeafLow_loop (t : rbtree α) : Nat → Ptr → Ptr → κ → Option Ptr
  | 0, _, _, _ => none
  | fuel + 1, child, y, key =>
    if child = 0 then some y
    else do
      if KeyCompare (← sKey KeyOfT t child) key then
        FindLeafLow_loop t fuel (← sRight t child) child key
      else
        FindLeafLow_loop t fuel (← sLeft t child) child key

/-- `FindLeafLow(pParent, key)`: the returned leaf (always null) and `pParent`. -/
def FindLeafLow (t : rbtree α) (fuel : Nat) (key : κ) : Option (Ptr × Ptr) := do
  let y ← FindLeafLow_loop KeyOfT KeyCompare t fuel t.mRoot t.mEnd key
  pure (0, y)

/-- `FindLeaf(hint, pParent, key)`: the returned child pointer and `pParent`. -/
def FindLeaf (t : rbtree α) (fuel : Nat) (hint : Ptr) (key : κ) : Option (Ptr × Ptr) := do
  let c1 ← if hint = t.mEnd then pure true
           else do pure (!KeyCompare (← sKey KeyOfT t hint) key)
  if c1 then
    let (c2, prior) ←
      if hint = t.begin then pure (true, hint)
      else do
        let prior ← RBTreeDecrement t.mem fuel hint
        pure (!KeyCompare key (← sKey KeyOfT t prior), prior)
    if c2 then
      if (← rd t.mem hint).mLeft = 0 then
        pure ((← rd t.mem hint).mLeft, hint)
      else
        pure ((← rd t.mem prior).mRight, prior)
    else FindMulti KeyOfT KeyCompare t fuel key
  else FindLeafLow KeyOfT KeyCompare t fuel key

/-- `FindEqual(hint, pParent, dummy, key)`: the returned node and `pParent`. -/
def FindEqual_hint (t : rbtree α) (fuel : Nat) (hint : Ptr) (key : κ) :
    Option (Ptr × Ptr) := do
  if hint = t.mEnd then
    let c ← if t.size > 0 then do pure (KeyCompare (← sKey KeyOfT t t.mRightMost) key)
            else pure false
    if c then pure (0, t.mRightMost)
    else FindEqual KeyOfT KeyCompare t fuel key
  else if KeyCompare key (← sKey KeyOfT t hint) then
    let (c, prior) ←
      if hint = t.begin then pure (true, hint)
      else do
        let prior ← RBTreeDecrement t.mem fuel hint
        pure (KeyCompare (← sKey KeyOfT t prior) key, prior)
    if c then
      if (← rd t.mem hint).mLeft = 0 then
        pure ((← rd t.mem hint).mLeft, hint)
      else
        pure ((← rd t.mem prior).mRight, prior)
    else FindEqual KeyOfT KeyCompare t fuel key
  else if KeyCompare (← sKey KeyOfT t hint) key then
    let next ← RBTreeIncrement t.mem fuel hint
    let c ← if next = t.mEnd then pure true
            else do pure (KeyCompare key (← sKey KeyOfT t next))
    if c then
      if (← rd t.mem hint).mRight = 0 then
        pure ((← rd t.mem hint).mRight, hint)
      else
        pure ((← rd t.mem next).mLeft, next)
    else FindEqual KeyOfT KeyCompare t fuel key
  else pure (hint, hint)

/-- `DoInsertUnique(value)`: the pair `(iterator, inserted)` and the tree afterwards. -/
def rbtree.DoInsertUnique (t : rbtree α) (fuel : Nat) (value : α) :
    Option ((Ptr × Bool) × rbtree α) := do
  let (child, parent) ← FindEqual KeyOfT KeyCompare t fuel (KeyOfT value)
  if child = 0 then
    let (it, t) ← DoInsert KeyOfT KeyCompare t fuel parent child value
    pure ((it, true), t)
  else pure ((child, false), t)

/-- `DoInsertUnique(position, value)`. -/
def rbtree.DoInsertUnique_hint (t : rbtree α) (fuel : Nat) (position : Ptr) (value : α) :
    Option (Ptr × rbtree α) := do
  let (child, parent) ← FindEqual_hint KeyOfT KeyCompare t fuel position (KeyOfT value)
  if child = 0 then DoInsert KeyOfT KeyCompare t fuel parent child value
  else pure (child, t)

/-- `DoInsertMulti(value)`. -/
def rbtree.DoInsertMulti (t : rbtree α) (fuel : Nat) (value : α) :
    Option (Ptr × rbtree α) := do
  let (child, parent) ← FindMulti KeyOfT KeyCompare t fuel (KeyOfT value)
  DoInsert KeyOfT KeyCompare t fuel parent child value

/-- `DoInsertMulti(position, value)`. -/
def rbtree.DoInsertMulti_hint (t : rbtree α) (fuel : Nat) (position : Ptr) (value : α) :
    Option (Ptr × rbtree α) := do
  let (child, parent) ← FindLeaf KeyOfT KeyCompare t fuel position (KeyOfT value)
  DoInsert KeyOfT KeyCompare t fuel parent child value

/-- `erase(const_iterator position)`: the returned iterator and the tree afterwards. -/
def rbtree.erase (t : rbtree α) (fuel : Nat) (position : Ptr) : Option (Ptr × rbtree α) := do
  let it_erase := position
  let position ← RBTreeIncrement t.mem fuel position
  let m ← RBTreeErase t.mem fuel it_erase t.mHeader
  let t ← DoDestroyNode { t with mem := m } it_erase
  pure (position, { t with mSize := t.mSize - 1 })

/-- `erase(const_iterator first, const_iterator last)`:
`while (first != last) first = erase(first);`.  `fuel0` is the fuel of each `erase`. -/
def rbtree.erase_range (fuel0 : Nat) : Nat → rbtree α → Ptr → Ptr → Option (Ptr × rbtree α)
  | 0, _, _, _ => none
  | fuel + 1, t, first, last =>
    if first = last then some (first, t)
    else do
      let (first, t) ← t.erase fuel0 first
      rbtree.erase_range fuel0 fuel t first last

/-- `erase(const key_type& key)`: the number of erased elements and the tree afterwards. -/
def rbtree.erase_key (t : rbtree α) (fuel : Nat) (key : κ) : Option (Nat × rbtree α) := do
  let p ← t.equal_range KeyOfT KeyCompare fuel key
  let old_size := t.size
  let (_, t) ← rbtree.erase_range fuel fuel t p.1 p.2
  pure (old_size - t.size, t)

/-- The traversal `for (it = begin(); it != end(); ++it)` collecting the visited nodes.
`fuel0` is the fuel of each increment. -/
def rbtree.nodes_from (t : rbtree α) (fuel0 : Nat) : Nat → Ptr → Option (List Ptr)
  | 0, _ => none
  | fuel + 1, it =>
    if it = t.mEnd then some []
    else do
      let rest ← rbtree.nodes_from t fuel0 fuel (← RBTreeIncrement t.mem fuel0 it)
      pure (it :: rest)

/-- The nodes visited from `begin()` to `end()`. -/
def rbtree.nodes (t : rbtree α) (fuel : Nat) : Option (List Ptr) :=
  t.nodes_from fuel fuel t.begin

/-- The values `*it` of a list of iterators. -/
def rbtree.values (t : rbtree α) : List Ptr → Option (List α)
  | [] => some []
  | it :: rest => do
    let v ← sValue t it
    let vs ← rbtree.values t rest
    pure (v :: vs)

/-- The values `*it` read while iterating from `begin()` to `end()`. -/
def rbtree.toList (t : rbtree α) (fuel : Nat) : Option (List α) := do
  t.values (← t.nodes fuel)

/-- `rbtree_node_base::sMinimum`: the same loop as `rbtree_min`. -/
def sMinimum (m : Mem) (fuel : Nat) (x : Ptr) : Option Ptr := rbtree_min m fuel x

/-- `rbtree_node_base::sMaximum`: the same loop as `rbtree_max`. -/
def sMaximum (m : Mem) (fuel : Nat) (x : Ptr) : Option Ptr := rbtree_max m fuel x

/-- The comparison `mImpl.KeyCompare(sKey(a), sKey(b))` of two nodes. -/
def compareNodes (t : rbtree α) (a b : Ptr) : Option Bool := do
  pure (KeyCompare (← sKey KeyOfT t a) (← sKey KeyOfT t b))

/-- The body of the loop of `validate()` (lines 914-957) for the node `pNode`: `false`
when one of its checks executes `return false`. -/
def validate_node (t : rbtree α) (fuel : Nat) (nBlackCount : Nat) (pNode : Ptr) :
    Option Bool := do
  let n ← rd t.mem pNode
  let pNodeRight := n.mRight
  let pNodeLeft := n.mLeft
  let c1 ← if pNodeRight ≠ 0 then do
      pure ((← compareNodes KeyOfT KeyCompare t pNodeRight pNode)
        && (← compareNodes KeyOfT KeyCompare t pNode pNodeRight))
    else pure false
  if c1 then pure false else
  let c2 ← if pNodeLeft ≠ 0 then do
      pure ((← compareNodes KeyOfT KeyCompare t pNodeLeft pNode)
        && (← compareNodes KeyOfT KeyCompare t pNode pNodeLeft))
    else pure false
  if c2 then pure false else
  if n.mColor ≠ rbtree_color.mRed ∧ n.mColor ≠ rbtree_color.mBlack then pure false else
  if n.mColor = rbtree_color.mRed ∧
      ((pNodeRight ≠ 0 ∧ (t.mem pNodeRight).mColor = rbtree_color.mRed) ∨
       (pNodeLeft ≠ 0 ∧ (t.mem pNodeLeft).mColor = rbtree_color.mRed)) then pure false else
  let c5 ← if pNodeRight ≠ 0 then compareNodes KeyOfT KeyCompare t pNodeRight pNode
    else pure false
  if c5 then pure false else
  let c6 ← if pNodeLeft ≠ 0 then compareNodes KeyOfT KeyCompare t pNode pNodeLeft
    else pure false
  if c6 then pure false else
  if pNodeRight = 0 ∧ pNodeLeft = 0 then do
    pure (decide ((← RBTreeBlackCount t.mem t.mRoot fuel pNode 0) = nBlackCount))
  else pure true

/-- The loop of `validate()` (line 912): `none` when a check returned `false`, otherwise
`nIteratedSize` at loop exit. -/
def validate_loop (t : rbtree α) (fuel0 : Nat) (nBlackCount : Nat) :
    Nat → Ptr → Nat → Option (Option Nat)
  | 0, _, _ => none
  | fuel + 1, it, nIteratedSize =>
    if it = t.mEnd then some (some nIteratedSize)
    else do
      if !(← validate_node KeyOfT KeyCompare t fuel0 nBlackCount it) then pure none
      else
        validate_loop t fuel0 nBlackCount fuel (← RBTreeIncrement t.mem fuel0 it)
          (nIteratedSize + 1)

/-- `validate()`. -/
def rbtree.validate (t : rbtree α) (fuel : Nat) : Option Bool := do
  if t.mSize ≠ 0 then
    if t.mLeftMost ≠ (← sMinimum t.mem fuel t.mRoot) then pure false
    else if t.mRightMost ≠ (← sMaximum t.mem fuel t.mRoot) then pure false
    else
      let nBlackCount ← RBTreeBlackCount t.mem t.mRoot fuel t.mLeftMost 0
      if (← RBTreeBlackCount t.mem t.mRoot fuel t.mRightMost 0) ≠ nBlackCount then pure false
      else
        match (← validate_loop KeyOfT KeyCompare t fuel nBlackCount fuel t.begin 0) with
        | none => pure false
        | some nIteratedSize => pure (decide (nIteratedSize = t.mSize))
  else
    if t.mLeftMost ≠ t.mHeader ∨ t.mRightMost ≠ t.mHeader then pure false
    else pure true

end rbtree_ops


/-! ## Specification vocabulary for the tree engine

The abstract shape of a tree in memory, used to state which memories hold a well-formed
tree and what the operations do to it. -/

/-- A strict weak order given as a Boolean comparator: irreflexive, transitive, and with
a transitive incomparability relation (the glossary's definition). -/
structure StrictWeakOrder {κ : Type} (comp : κ → κ → Bool) : Prop where
  irrefl : ∀ a, comp a a = false
  trans : ∀ a b c, comp a b = true → comp b c = true → comp a c = true
  incomp_trans : ∀ a b c, comp a b = false → comp b a = false → comp b c = false →
    comp c b = false → comp a c = false ∧ comp c a = false

/-- The shape of a tree in memory: `nil` for a null link, otherwise the colour, the left
subtree, the address and payload of the node, and the right subtree. -/
inductive Tr (α : Type) where
  | nil : Tr α
  | node (c : rbtree_color) (l : Tr α) (p : Ptr) (v : α) (r : Tr α) : Tr α

namespace Tr

variable {α : Type}

/-- The address of the root of a shape (`nullptr` for the empty shape). -/
def ptr : Tr α → Ptr
  | nil => 0
  | node _ _ p _ _ => p

/-- The addresses of the nodes in in-order. -/
def ptrs : Tr α → List Ptr
  | nil => []
  | node _ l p _ r => l.ptrs ++ p :: r.ptrs

/-- The payloads in in-order. -/
def vals : Tr α → List α
  | nil => []
  | node _ l _ v r => l.vals ++ v :: r.vals

/-- The nodes in in-order, each with its payload. -/
def elems : Tr α → List (Ptr × α)
  | nil => []
  | node _ l p v r => l.elems ++ (p, v) :: r.elems

/-- The colour of the root; a null link counts as black. -/
def color : Tr α → rbtree_color
  | nil => rbtree_color.mBlack
  | node c _ _ _ _ => c

/-- No red node has a red child. -/
def noRedRed : Tr α → Prop
  | nil => True
  | node c l _ _ r =>
    (c = rbtree_color.mRed → l.color = rbtree_color.mBlack ∧ r.color = rbtree_color.mBlack)
      ∧ l.noRedRed ∧ r.noRedRed

/-- Every path from the root of the shape to a null link passes through exactly `n` black
nodes. -/
def blackHeight : Tr α → Nat → Prop
  | nil, n => n = 0
  | node rbtree_color.mRed l _ _ r, n => l.blackHeight n ∧ r.blackHeight n
  | node rbtree_color.mBlack _ _ _ _, 0 => False
  | node rbtree_color.mBlack l _ _ r, n + 1 => l.blackHeight n ∧ r.blackHeight n

end Tr

/-- The memory `m` (with payloads `val`) holds the shape below a node or header `par`:
every node has a non-null address, its three links and colour are as the shape says, with
`par` the parent of the root. -/
def TreeAt {α : Type} (m : Mem) (val : Ptr → Option α) : Tr α → Ptr → Prop
  | Tr.nil, _ => True
  | Tr.node c l p v r, par =>
    p ≠ 0 ∧ m p = { mRight := r.ptr, mLeft := l.ptr, mParent := par, mColor := c } ∧
    val p = some v ∧ TreeAt m val l p ∧ TreeAt m val r p

/-- The first element of a list, or `d` when the list is empty. -/
def firstD {β : Type} : List β → β → β
  | [], d => d
  | a :: _, _ => a

/-- The last element of a list, or `d` when the list is empty. -/
def lastD {β : Type} : List β → β → β
  | [], d => d
  | a :: l, _ => lastD l a

/-- The memory holds the shape `T` as a whole tree below the header at `hdr`: the nodes are
laid out as `T` says, no address occurs twice and none is the header, the header is red and
caches the root, the first and the last node (itself when the tree is empty). -/
structure MemHolds {α : Type} (m : Mem) (val : Ptr → Option α) (hdr : Ptr) (T : Tr α) :
    Prop where
  hdr_ne : hdr ≠ 0
  tree : TreeAt m val T hdr
  nodup : T.ptrs.Nodup
  hdr_notin : hdr ∉ T.ptrs
  hdr : m hdr =
    { mRight := lastD T.ptrs hdr, mLeft := firstD T.ptrs hdr,
      mParent := T.ptr, mColor := rbtree_color.mRed }

/-- The tree object `t` is well formed and holds the shape `T`: its memory holds `T` below
its header, the header has no payload, `mSize` counts the nodes, and the allocator will
hand out an address that is not in use. -/
structure rbtree.Holds {α : Type} (t : rbtree α) (T : Tr α) : Prop where
  mem : MemHolds t.mem t.mValue t.mHeader T
  hdr_val : t.mValue t.mHeader = none
  size : t.mSize = T.ptrs.length
  fresh : ∀ p ∈ T.ptrs, p < t.brk
  hdr_lt : t.mHeader < t.brk
  oom : t.oom = false

/-- The payloads of a shape are in non-decreasing order of their keys: no element is
followed, anywhere later in in-order, by one with a smaller key. -/
def Ordered {α κ : Type} (KeyOfT : α → κ) (KeyCompare : κ → κ → Bool) (l : List α) : Prop :=
  l.Pairwise (fun a b => KeyCompare (KeyOfT b) (KeyOfT a) = false)

/-- The red-black colour invariants of a whole tree: black root, no red node with a red
child, the same number of black nodes on every path from the root to a null link. -/
def RedBlack {α : Type} (T : Tr α) : Prop :=
  T.color = rbtree_color.mBlack ∧ T.noRedRed ∧ ∃ n, T.blackHeight n

/-- A valid tree: a well-formed memory layout of some shape whose payloads are in key
order and whose colours satisfy the red-black invariants. -/
def rbtree.Valid {α κ : Type} (KeyOfT : α → κ) (KeyCompare : κ → κ → Bool)
    (t : rbtree α) : Prop :=
  ∃ T : Tr α, t.Holds T ∧ Ordered KeyOfT KeyCompare T.vals ∧ RedBlack T

/-- One level of the path from a node up to the root: the node `p` above, its colour and
payload, and the sibling subtree; `L` when the path comes up from the left child of `p`,
`R` when it comes up from the right child. -/
inductive Frame (α : Type) where
  | L (c : rbtree_color) (p : Ptr) (v : α) (r : Tr α) : Frame α
  | R (c : rbtree_color) (l : Tr α) (p : Ptr) (v : α) : Frame α

namespace Frame

variable {α : Type}

/-- The shape obtained by putting `t` into the hole of the frame. -/
def fill : Frame α → Tr α → Tr α
  | L c p v r, t => Tr.node c t p v r
  | R c l p v, t => Tr.node c l p v t

/-- The address of the node of the frame. -/
def ptr : Frame α → Ptr
  | L _ p _ _ => p
  | R _ _ p _ => p

end Frame

/-- The shape obtained by putting `t` into the hole of a path; the innermost frame comes
first. -/
def plug {α : Type} : List (Frame α) → Tr α → Tr α
  | [], t => t
  | f :: ctx, t => plug ctx (f.fill t)

/-- The address of the parent of the hole of a path below the header `hdr`. -/
def ctxParent {α : Type} (hdr : Ptr) : List (Frame α) → Ptr
  | [] => hdr
  | f :: _ => f.ptr

/-- The in-order addresses that precede the hole of a path. -/
def ctxBefore {α : Type} : List (Frame α) → List Ptr
  | [] => []
  | Frame.L _ _ _ _ :: ctx => ctxBefore ctx
  | Frame.R _ l p _ :: ctx => ctxBefore ctx ++ (l.ptrs ++ [p])

/-- The in-order addresses that follow the hole of a path. -/
def ctxAfter {α : Type} : List (Frame α) → List Ptr
  | [] => []
  | Frame.L _ p _ r :: ctx => p :: r.ptrs ++ ctxAfter ctx
  | Frame.R _ _ _ _ :: ctx => ctxAfter ctx

/-- The memory holds the path `ctx` above a hole whose link is `hole`: every node of the
path has a non-null address, the link on the side of the hole is `hole`, the other links,
colour and payload are as the frame says, and the sibling subtrees are laid out. -/
def CtxAt {α : Type} (m : Mem) (val : Ptr → Option α) (hdr : Ptr) :
    List (Frame α) → Ptr → Prop
  | [], _ => True
  | Frame.L c p v r :: ctx, hole =>
    p ≠ 0 ∧
    m p = { mRight := r.ptr, mLeft := hole, mParent := ctxParent hdr ctx, mColor := c } ∧
    val p = some v ∧ TreeAt m val r p ∧ CtxAt m val hdr ctx p
  | Frame.R c l p v :: ctx, hole =>
    p ≠ 0 ∧
    m p = { mRight := hole, mLeft := l.ptr, mParent := ctxParent hdr ctx, mColor := c } ∧
    val p = some v ∧ TreeAt m val l p ∧ CtxAt m val hdr ctx p

/-! ### The shape computed by the rebalancing loop of `RBTreeInsert` -/

/-- The colour of the node of a frame. -/
def Frame.color {α : Type} : Frame α → rbtree_color
  | Frame.L c _ _ _ => c
  | Frame.R c _ _ _ => c

/-- The frame with the colour of its node replaced. -/
def Frame.setColor {α : Type} (c : rbtree_color) : Frame α → Frame α
  | Frame.L _ p v r => Frame.L c p v r
  | Frame.R _ l p v => Frame.R c l p v

/-- The shape with the colour of its root replaced. -/
def Tr.setColor {α : Type} (c : rbtree_color) : Tr α → Tr α
  | Tr.nil => Tr.nil
  | Tr.node _ l p v r => Tr.node c l p v r

/-- The whole shape after the loop of `RBTreeInsert` started at a node whose subtree is `s`
and whose path to the root is `ctx`: while the parent is red, either the uncle is red (both
are recoloured black, the grandparent red, and the loop goes on from the grandparent), or
the one or two rotations of the source are applied and the loop ends. -/
def insFix {α : Type} : List (Frame α) → Tr α → Tr α
  | [], s => s
  | [f], s => plug [f] s
  | fP :: fG :: rest, s =>
    match fP.color with
    | rbtree_color.mBlack => plug (fP :: fG :: rest) s
    | rbtree_color.mRed =>
      match fG with
      | Frame.L _ g vg (Tr.node rbtree_color.mRed ua u vu ub) =>
        insFix rest (Tr.node rbtree_color.mRed
          ((fP.setColor rbtree_color.mBlack).fill s) g vg
          (Tr.node rbtree_color.mBlack ua u vu ub))
      | Frame.L _ g vg U =>
        match fP, s with
        | Frame.L _ p vp pr, s =>
          plug rest (Tr.node rbtree_color.mBlack s p vp (Tr.node rbtree_color.mRed pr g vg U))
        | Frame.R cp pl p vp, Tr.node _ a n v b =>
          plug rest (Tr.node rbtree_color.mBlack (Tr.node cp pl p vp a) n v
            (Tr.node rbtree_color.mRed b g vg U))
        | Frame.R _ _ _ _, Tr.nil => plug (fP :: fG :: rest) s
      | Frame.R _ (Tr.node rbtree_color.mRed ua u vu ub) g vg =>
        insFix rest (Tr.node rbtree_color.mRed
          (Tr.node rbtree_color.mBlack ua u vu ub) g vg
          ((fP.setColor rbtree_color.mBlack).fill s))
      | Frame.R _ U g vg =>
        match fP, s with
        | Frame.R _ pl p vp, s =>
          plug rest (Tr.node rbtree_color.mBlack (Tr.node rbtree_color.mRed U g vg pl) p vp s)
        | Frame.L cp p vp pr, Tr.node _ a n v b =>
          plug rest (Tr.node rbtree_color.mBlack (Tr.node rbtree_color.mRed U g vg a) n v
            (Tr.node cp b p vp pr))
        | Frame.L _ _ _ _, Tr.nil => plug (fP :: fG :: rest) s

/-- The root of a path (the node of its last frame) is black; an empty path counts. -/
def ctxRootBlack {α : Type} : List (Frame α) → Prop
  | [] => True
  | [f] => f.color = rbtree_color.mBlack
  | _ :: g :: rest => ctxRootBlack (g :: rest)

/-- The hole of a path is a left link (the link of the header for the empty path). -/
def holeIsLeft {α : Type} : List (Frame α) → Bool
  | [] => true
  | Frame.L _ _ _ _ :: _ => true
  | Frame.R _ _ _ _ :: _ => false

/-- The payload of the node of a frame. -/
def Frame.val {α : Type} : Frame α → α
  | Frame.L _ _ v _ => v
  | Frame.R _ _ _ v => v

/-- The in-order nodes (with payloads) that precede the hole of a path. -/
def ctxBeforeE {α : Type} : List (Frame α) → List (Ptr × α)
  | [] => []
  | Frame.L _ _ _ _ :: ctx => ctxBeforeE ctx
  | Frame.R _ l p v :: ctx => ctxBeforeE ctx ++ (l.elems ++ [(p, v)])

/-- The in-order nodes (with payloads) that follow the hole of a path. -/
def ctxAfterE {α : Type} : List (Frame α) → List (Ptr × α)
  | [] => []
  | Frame.L _ p v r :: ctx => (p, v) :: r.elems ++ ctxAfterE ctx
  | Frame.R _ _ _ _ :: ctx => ctxAfterE ctx

/-- The path from the root of `T` (itself below the path `ctx`) down to the null link that
a descent reaches when it goes left at the payloads for which `goLeft` holds and right at
the others. -/
def descend {α : Type} (goLeft : α → Bool) : Tr α → List (Frame α) → List (Frame α)
  | Tr.nil, ctx => ctx
  | Tr.node c l p v r, ctx =>
    if goLeft v then descend goLeft l (Frame.L c p v r :: ctx)
    else descend goLeft r (Frame.R c l p v :: ctx)

/-- The colour of the parent of the hole of a path; the header counts as black. -/
def ctxColor {α : Type} : List (Frame α) → rbtree_color
  | [] => rbtree_color.mBlack
  | f :: _ => f.color

/-- The colour invariants of a path above a hole whose subtree has `k` black nodes on every
path: every sibling subtree has no red node with a red child and the black height that
balances the hole, and a red node of the path has a black sibling and a black parent. -/
def CtxRB {α : Type} : List (Frame α) → Nat → Prop
  | [], _ => True
  | Frame.L c _ _ r :: rest, k =>
    r.noRedRed ∧ r.blackHeight k ∧
    (c = rbtree_color.mRed → r.color = rbtree_color.mBlack ∧ ctxColor rest = rbtree_color.mBlack) ∧
    CtxRB rest (if c = rbtree_color.mBlack then k + 1 else k)
  | Frame.R c l _ _ :: rest, k =>
    l.noRedRed ∧ l.blackHeight k ∧
    (c = rbtree_color.mRed → l.color = rbtree_color.mBlack ∧ ctxColor rest = rbtree_color.mBlack) ∧
    CtxRB rest (if c = rbtree_color.mBlack then k + 1 else k)

/-! ### A concrete tree used to instantiate the statements -/

/-- The order `<` on natural numbers as a Boolean comparator (`std::less<unsigned>`). -/
def natLess : Nat → Nat → Bool := fun a b => decide (a < b)

/-- The tree obtained from the empty tree by `DoInsertUnique` of the elements of `l`, in
turn, as a set of numbers (`KeyOfT` the identity), with fuel 40 for every loop. -/
def treeOfList (l : List Nat) : rbtree Nat :=
  l.foldl (fun t v => match t.DoInsertUnique id natLess 40 v with
    | some (_, t2) => t2
    | none => t) rbtree.init

/-- The shape of `treeOfList [2, 1, 3]`: the black root 2 at address 2 with the red children
1 at address 3 and 3 at address 4. -/
def shape213 : Tr Nat :=
  Tr.node rbtree_color.mBlack (Tr.node rbtree_color.mRed Tr.nil 3 1 Tr.nil) 2 2
    (Tr.node rbtree_color.mRed Tr.nil 4 3 Tr.nil)


/-! ## Sequences of insertions -/

section sequences

variable {α κ : Type} (KeyOfT : α → κ) (KeyCompare : κ → κ → Bool)

/-- One insertion of a sequence: `DoInsertUnique(value)` when the flag is set and
`DoInsertMulti(value)` otherwise; the tree afterwards. -/
def insertStep (fuel : Nat) (t : rbtree α) (op : Bool × α) : Option (rbtree α) :=
  if op.1 then (t.DoInsertUnique KeyOfT KeyCompare fuel op.2).map Prod.snd
  else (t.DoInsertMulti KeyOfT KeyCompare fuel op.2).map Prod.snd

/-- A sequence of insertions, one at a time. -/
def insertSeq (fuel : Nat) : List (Bool × α) → rbtree α → Option (rbtree α)
  | [], t => some t
  | op :: ops, t => (insertStep KeyOfT KeyCompare fuel t op).bind (insertSeq fuel ops)

/-- The values accepted so far after one more insertion: a unique insertion of a value
whose key is equivalent to the key of an accepted value is refused. -/
def acceptStep (acc : List α) (op : Bool × α) : List α :=
  if op.1 && acc.any (fun e => !KeyCompare (KeyOfT op.2) (KeyOfT e) &&
      !KeyCompare (KeyOfT e) (KeyOfT op.2)) then acc
  else acc ++ [op.2]

/-- The values accepted by a sequence of insertions, in the order of their insertion. -/
def accepted : List (Bool × α) → List α → List α
  | [], acc => acc
  | op :: ops, acc => accepted ops (acceptStep KeyOfT KeyCompare acc op)

end sequences


/-! ## A constructed tree state with unequal black heights -/

/-- A constructed state of five black nodes below the header at address 1: the root 4
(address 2) with the left child 2 (address 3), whose only child is the left child 1
(address 4), and the right child 9 (address 5), whose only child is the right child 10
(address 6).  The null right link of the node 2 and the null left link of the node 9 are
reached through two black nodes, the null links of the nodes 1 and 10 through three. -/
def skewedTree : rbtree Nat where
  mem := fun p =>
    match p with
    | 1 => { mRight := 6, mLeft := 4, mParent := 2, mColor := rbtree_color.mRed }
    | 2 => { mRight := 5, mLeft := 3, mParent := 1, mColor := rbtree_color.mBlack }
    | 3 => { mRight := 0, mLeft := 4, mParent := 2, mColor := rbtree_color.mBlack }
    | 4 => { mRight := 0, mLeft := 0, mParent := 3, mColor := rbtree_color.mBlack }
    | 5 => { mRight := 6, mLeft := 0, mParent := 2, mColor := rbtree_color.mBlack }
    | 6 => { mRight := 0, mLeft := 0, mParent := 5, mColor := rbtree_color.mBlack }
    | _ => { mRight := 0, mLeft := 0, mParent := 0, mColor := rbtree_color.mRed }
  mValue := fun p =>
    match p with
    | 2 => some 4
    | 3 => some 2
    | 4 => some 1
    | 5 => some 9
    | 6 => some 10
    | _ => none
  mHeader := 1
  mSize := 5
  brk := 7
  oom := false

/-- The shape that `skewedTree` holds. -/
def skewedShape : Tr Nat :=
  Tr.node rbtree_color.mBlack
    (Tr.node rbtree_color.mBlack (Tr.node rbtree_color.mBlack Tr.nil 4 1 Tr.nil) 3 2 Tr.nil)
    2 4
    (Tr.node rbtree_color.mBlack Tr.nil 5 9 (Tr.node rbtree_color.mBlack Tr.nil 6 10 Tr.nil))


/-! ## The heap engine (`bits/heap.h` and the heap functions of `algorithm.h`)

A range `[first, last)` of random-access iterators is a list `a`; `*(first + i)` is `a[i]?`
and reading or writing outside the list fails.  `Distance` is a natural number: the index
arithmetic of the source stays far below the width of `difference_type` for every range
that fits in memory.  Every loop is run with the number of turns that its bound allows, so
the functions fail only on an access outside the list. -/

section heap

variable {α : Type} (comp : α → α → Bool)

/-- The assignment `*(first + i) = v`. -/
def wr (a : List α) (i : Nat) (v : α) : Option (List α) :=
  if i < a.length then some (a.set i v) else none

/-- The loop of `promote_heap` (lines 15-19) and the final store (line 20). -/
def promote_heap_loop : Nat → List α → Nat → Nat → α → Option (List α)
  | 0, _, _, _, _ => none
  | fuel + 1, a, Idx, topIdx, val =>
    let parentIdx := (Idx - 1) / 2
    if Idx > topIdx then do
      let p ← a[parentIdx]?
      if comp p val then do
        promote_heap_loop fuel (← wr a Idx p) parentIdx topIdx val
      else wr a Idx val
    else wr a Idx val

/-- `promote_heap(first, Idx, topIdx, val, comp)`. -/
def promote_heap (a : List α) (Idx topIdx : Nat) (val : α) : Option (List α) :=
  promote_heap_loop comp (Idx + 1) a Idx topIdx val

/-- The loop of `adjust_heap` (lines 37-49): the hole moves down to the larger child while
there is a right child; returns the range and `Idx`. -/
def adjust_heap_loop : Nat → List α → Nat → Nat → Option (List α × Nat)
  | 0, _, _, _ => none
  | fuel + 1, a, Idx, heapSize =>
    let rIdx := 2 * Idx + 2
    let lIdx := rIdx - 1
    if rIdx < heapSize then do
      let r ← a[rIdx]?
      let l ← a[lIdx]?
      if comp r l then do
        adjust_heap_loop fuel (← wr a Idx l) lIdx heapSize
      else do
        adjust_heap_loop fuel (← wr a Idx r) rIdx heapSize
    else some (a, Idx)

/-- `adjust_heap(first, Idx, heapSize, val, comp)`. -/
def adjust_heap (a : List α) (Idx heapSize : Nat) (val : α) : Option (List α) := do
  let topIdx := Idx
  let (a, Idx) ← adjust_heap_loop comp (heapSize + 1) a Idx heapSize
  let rIdx := 2 * Idx + 2
  let lIdx := rIdx - 1
  let (a, Idx) ←
    if rIdx = heapSize then do
      let a ← wr a Idx (← a[lIdx]?)
      pure (a, lIdx)
    else pure (a, Idx)
  promote_heap comp a Idx topIdx val

/-- `pop_heap_impl(first, last, result, comp)` with `heapSize = last - first` and `result`
the index of `result`. -/
def pop_heap_impl (a : List α) (heapSize result : Nat) : Option (List α) := do
  let val ← a[result]?
  let a ← wr a result (← a[0]?)
  adjust_heap comp a 0 heapSize val

/-- The loop of `make_heap_impl` (lines 94-99), `while (parentIdx >= 0)`; the first argument
is `parentIdx + 1`. -/
def make_heap_loop : Nat → List α → Nat → Option (List α)
  | 0, a, _ => some a
  | parentIdx + 1, a, heapSize => do
    let val ← a[parentIdx]?
    let a ← adjust_heap comp a parentIdx heapSize val
    make_heap_loop parentIdx a heapSize

/-- `make_heap_impl(first, last, comp)` with `heapSize = last - first`. -/
def make_heap_impl (a : List α) (heapSize : Nat) : Option (List α) :=
  if heapSize > 1 then
    let firstLeafIdx := (heapSize - 1) / 2 + 1
    make_heap_loop comp firstLeafIdx a heapSize
  else some a

/-- `make_heap(first, last, comp)` on the whole list. -/
def make_heap (a : List α) : Option (List α) := make_heap_impl comp a a.length

/-- The loop of `is_heap_until` (lines 469-475); returns the index of the result. -/
def is_heap_until_loop : Nat → List α → Nat → Nat → Option Nat
  | 0, _, _, _ => none
  | fuel + 1, a, parentIdx, childIdx =>
    if childIdx < a.length then do
      if comp (← a[parentIdx]?) (← a[childIdx]?) then pure childIdx
      else
        is_heap_until_loop fuel a (if childIdx % 2 = 0 then parentIdx + 1 else parentIdx)
          (childIdx + 1)
    else pure a.length

/-- `is_heap_until(first, last, comp)` on the whole list: the index of the result. -/
def is_heap_until (a : List α) : Option Nat := is_heap_until_loop comp (a.length + 1) a 0 1

/-- `is_heap(first, last, comp)` on the whole list. -/
def is_heap (a : List α) : Option Bool := (is_heap_until comp a).map (fun it => it == a.length)

/-- `push_heap(first, last, comp)` on the whole list. -/
def push_heap (a : List α) : Option (List α) := do
  let val ← a[a.length - 1]?
  promote_heap comp a (a.length - 1) 0 val

/-- `pop_heap(first, last, comp)` on the whole list. -/
def pop_heap (a : List α) : Option (List α) :=
  if a.length ≠ 0 then pop_heap_impl comp a (a.length - 1) (a.length - 1) else some a

/-- `sort_heap(first, last, comp)`; the first argument is `last - first`. -/
def sort_heap : Nat → List α → Option (List α)
  | 0, a => some a
  | n + 1, a =>
    if n + 1 > 1 then do
      sort_heap n (← pop_heap_impl comp a n n)
    else some a

/-- The loop of `heap_select` (lines 106-109) from the index `it` on, with `fuel` turns;
`middle` is the index of `middle`. -/
def heap_select_loop : Nat → List α → Nat → Nat → Option (List α)
  | 0, a, _, _ => some a
  | fuel + 1, a, middle, it =>
    if it ≠ a.length then do
      let a ← if comp (← a[it]?) (← a[0]?) then pop_heap_impl comp a middle it else pure a
      heap_select_loop fuel a middle (it + 1)
    else some a

/-- `heap_select(first, middle, last, comp)` on the whole list, `middle` an index. -/
def heap_select (a : List α) (middle : Nat) : Option (List α) := do
  let a ← make_heap_impl comp a middle
  heap_select_loop comp (a.length - middle) a middle middle

/-- `partial_sort_impl` and `partial_sort(first, middle, last, comp)` on the whole list. -/
def partial_sort (a : List α) (middle : Nat) : Option (List α) := do
  let a ← heap_select comp a middle
  sort_heap comp middle a

end heap

/-- A prefix of a list is a max-heap: no element with index `i` in `[1, n)` is greater than
its parent, the element with index `(i - 1) / 2`. -/
def IsHeapUpTo {α : Type} (comp : α → α → Bool) (a : List α) (n : Nat) : Prop :=
  ∀ i x y, 0 < i → i < n → a[(i - 1) / 2]? = some x → a[i]? = some y → comp x y = false

/-- The index `i` lies in the subtree of the index `k` of the implicit binary tree of a
heap, in which `(i - 1) / 2` is the parent of `i > 0`. -/
inductive Desc (k : Nat) : Nat → Prop where
  | refl : Desc k k
  | child (i : Nat) : 0 < i → Desc k ((i - 1) / 2) → Desc k i

/-- The element of index `i`, or `d` outside the list. -/
def gv {α : Type} (d : α) (a : List α) (i : Nat) : α := (a[i]?).getD d

/-- The invariant of the first loop of `adjust_heap`: the range is a heap below `k` except
for the pairs of the hole `Idx` and its children, and the children of the hole are not
greater than its parent. -/
structure SiftInv {α : Type} (comp : α → α → Bool) (d : α) (k n : Nat) (a : List α) (Idx : Nat) : Prop where
  lt : Idx < n
  len : n ≤ a.length
  desc : Desc k Idx
  heap : ∀ i, 0 < i → i < n → k ≤ (i - 1) / 2 → (i - 1) / 2 ≠ Idx →
    comp (gv d a ((i - 1) / 2)) (gv d a i) = false
  up : Idx ≠ k → ∀ c, 0 < c → c < n → (c - 1) / 2 = Idx →
    comp (gv d a ((Idx - 1) / 2)) (gv d a c) = false


/-! ## The shape computed by `RBTreeErase`

As for insertion, the effect of the erasure on the shape of the tree is described on paths:
the unlinking leaves a hole holding the subtree `X` of `x` below the path of `xparent`, and
the loop of `rbtree_delete_fixup` moves the hole up that path. -/

section erase_shape

variable {α : Type}

/-- One turn of the loop of `rbtree_delete_fixup` for a left hole below the node `p` (of
colour `cp`) once the sibling `w` is not red (lines 109-127): the subtree put in the place
of `p`, and whether the loop goes on from `p`. -/
def delBalL (cp : rbtree_color) (X : Tr α) (p : Ptr) (vp : α) : Tr α → Tr α × Bool
  | Tr.nil => (Tr.node cp X p vp Tr.nil, false)
  | Tr.node cw wl w vw wr =>
    if wl.color = rbtree_color.mBlack ∧ wr.color = rbtree_color.mBlack then
      (Tr.node cp X p vp (Tr.node rbtree_color.mRed wl w vw wr), true)
    else if wr.color = rbtree_color.mBlack then
      match wl with
      | Tr.nil => (Tr.node cp X p vp (Tr.node cw wl w vw wr), false)
      | Tr.node _ wla wlp vwl wlb =>
        (Tr.node cp (Tr.node rbtree_color.mBlack X p vp wla) wlp vwl
          (Tr.node rbtree_color.mBlack wlb w vw wr), false)
    else
      (Tr.node cp (Tr.node rbtree_color.mBlack X p vp wl) w vw
        (wr.setColor rbtree_color.mBlack), false)

/-- One turn of the loop of `rbtree_delete_fixup` for a right hole below the node `p` once
the sibling `w` is not red (lines 137-157); results as for `delBalL`. -/
def delBalR (cp : rbtree_color) (X : Tr α) (p : Ptr) (vp : α) : Tr α → Tr α × Bool
  | Tr.nil => (Tr.node cp Tr.nil p vp X, false)
  | Tr.node cw wl w vw wr =>
    if wl.color = rbtree_color.mBlack ∧ wr.color = rbtree_color.mBlack then
      (Tr.node cp (Tr.node rbtree_color.mRed wl w vw wr) p vp X, true)
    else if wl.color = rbtree_color.mBlack then
      match wr with
      | Tr.nil => (Tr.node cp (Tr.node cw wl w vw wr) p vp X, false)
      | Tr.node _ wra wrp vwr wrb =>
        (Tr.node cp (Tr.node rbtree_color.mBlack wl w vw wra) wrp vwr
          (Tr.node rbtree_color.mBlack wrb p vp X), false)
    else
      (Tr.node cp (wl.setColor rbtree_color.mBlack) w vw
        (Tr.node rbtree_color.mBlack wr p vp X), false)

/-- The passes through the loop of `rbtree_delete_fixup` that start with the hole below
the node of the frame `f`: with a red sibling, the rotation that makes the sibling black
followed by the pass with the new sibling (after which the loop ends: by `break`, or
because `x` is then the red node `p`, which the tail of the function colours black);
otherwise the pass with the sibling.  The result is the subtree put in the place of the
node of `f`, and whether the loop goes on from there. -/
def delStep (f : Frame α) (X : Tr α) : Tr α × Bool :=
  match f with
  | Frame.L cp p vp W =>
    match W with
    | Tr.node rbtree_color.mRed wl w vw wr =>
      let r := delBalL rbtree_color.mRed X p vp wl
      (Tr.node rbtree_color.mBlack (if r.2 then r.1.setColor rbtree_color.mBlack else r.1)
        w vw wr, false)
    | W => delBalL cp X p vp W
  | Frame.R cp W p vp =>
    match W with
    | Tr.node rbtree_color.mRed wl w vw wr =>
      let r := delBalR rbtree_color.mRed X p vp wr
      (Tr.node rbtree_color.mBlack wl w vw
        (if r.2 then r.1.setColor rbtree_color.mBlack else r.1), false)
    | W => delBalR cp X p vp W

/-- The whole shape after `rbtree_delete_fixup(x, xparent, header)` started with the
subtree `X` of `x` in the hole of the path `ctx` of `xparent`. -/
def delFix : List (Frame α) → Tr α → Tr α
  | [], X => X.setColor rbtree_color.mBlack
  | f :: rest, X =>
    if X.color = rbtree_color.mRed then plug (f :: rest) (X.setColor rbtree_color.mBlack)
    else if (delStep f X).2 then delFix rest (delStep f X).1
    else plug rest (delStep f X).1

/-- The end of `RBTreeErase`: the fix-up runs when the unlinked node was black. -/
def delAfter (yColor : rbtree_color) (ctx : List (Frame α)) (X : Tr α) : Tr α :=
  if yColor = rbtree_color.mBlack then delFix ctx X else plug ctx X

/-- The leftmost node of a shape below the path `ctx`: the path of that node, its colour,
address and payload, and its right subtree. -/
def Tr.minView : Tr α → List (Frame α) →
    Option (List (Frame α) × rbtree_color × Ptr × α × Tr α)
  | Tr.nil, _ => none
  | Tr.node c Tr.nil p v r, ctx => some (ctx, c, p, v, r)
  | Tr.node c (Tr.node cl ll pl vl rl) p v r, ctx =>
    Tr.minView (Tr.node cl ll pl vl rl) (Frame.L c p v r :: ctx)

/-- The whole shape after `RBTreeErase(z, pHeader)` for the node `z` with colour `c`,
subtrees `l` and `r` and path `ctx`: without a left (or right) child the other subtree
takes the place of `z`; otherwise the leftmost node `y` of `r` is unlinked (its right
subtree takes its place), and `y` takes the place and the colour of `z`. -/
def eraseAt (ctx : List (Frame α)) (c : rbtree_color) (l : Tr α) (z : Ptr) (v : α)
    (r : Tr α) : Tr α :=
  match l, r with
  | Tr.nil, r => delAfter c ctx r
  | l, Tr.nil => delAfter c ctx l
  | l, r =>
    match r.minView [] with
    | some (ctxR, cy, y, vy, ry) => delAfter cy (ctxR ++ Frame.R c l y vy :: ctx) ry
    | none => plug ctx (Tr.node c l z v r)

end erase_shape

/-- The state in which `rbtree_delete_fixup` runs: the subtree in the hole has one black
node less on its paths than the path above the hole asks for. -/
def DelInv {α : Type} (ctx : List (Frame α)) (X : Tr α) : Prop :=
  ∃ k, X.blackHeight k ∧ CtxRB ctx (k + 1)

/-- The memory holds the shape `T` below the header up to the leftmost and rightmost links
of the header, which `RBTreeErase` updates after the unlinking. -/
structure MemCore {α : Type} (m : Mem) (val : Ptr → Option α) (hdr : Ptr) (T : Tr α) :
    Prop where
  hdr_ne : hdr ≠ 0
  tree : TreeAt m val T hdr
  nodup : T.ptrs.Nodup
  hdr_notin : hdr ∉ T.ptrs
  root : (m hdr).mParent = T.ptr
  color : (m hdr).mColor = rbtree_color.mRed


/-! ## A reference traversal -/

/-- Reference traversal, not code of the repository: the nodes below `x` in in-order, by
recursion on the child links alone (the links of the header are not read). It is the
separately computed traversal against which the cached links of the header are checked. -/
def inorder (m : Mem) : Nat → Ptr → Option (List Ptr)
  | 0, _ => none
  | fuel + 1, x =>
    if x = 0 then some []
    else do
      let n ← rd m x
      let l ← inorder m fuel n.mLeft
      let r ← inorder m fuel n.mRight
      pure (l ++ x :: r)

/-- The number of black nodes on a path from a hole up to the root. -/
def ctxBlacks {α : Type} : List (Frame α) → Nat
  | [] => 0
  | f :: rest => (if f.color = rbtree_color.mBlack then 1 else 0) + ctxBlacks rest

/-! ## Sequences of insertions and erasures -/

/-- One call of a sequence of operations on a tree: `DoInsertUnique(value)`,
`DoInsertMulti(value)`, `erase(position)` with the position given by its place `i` in the
traversal from `begin()`, or `erase(key)`. -/
inductive Op (α κ : Type) where
  | insertUnique (value : α) : Op α κ
  | insertMulti (value : α) : Op α κ
  | erasePosition (i : Nat) : Op α κ
  | eraseKey (key : κ) : Op α κ

section op_sequences

variable {α κ : Type} (KeyOfT : α → κ) (KeyCompare : κ → κ → Bool)

/-- The tree after one operation. An `erasePosition i` with no `i`-th node in the traversal
names no position of the tree (`erase(end())` is not a valid call) and is skipped. -/
def opStep (fuel : Nat) (t : rbtree α) : Op α κ → Option (rbtree α)
  | Op.insertUnique value => (t.DoInsertUnique KeyOfT KeyCompare fuel value).map (·.2)
  | Op.insertMulti value => (t.DoInsertMulti KeyOfT KeyCompare fuel value).map (·.2)
  | Op.erasePosition i => do
    match (← t.nodes fuel)[i]? with
    | some p => (t.erase fuel p).map (·.2)
    | none => pure t
  | Op.eraseKey key => (t.erase_key KeyOfT KeyCompare fuel key).map (·.2)

/-- The tree after a sequence of operations, the first one first. -/
def opSeq (fuel : Nat) : List (Op α κ) → rbtree α → Option (rbtree α)
  | [], t => some t
  | op :: ops, t => (opStep KeyOfT KeyCompare fuel t op).bind (opSeq fuel ops)

end op_sequences


/-! ## The sorting functions (`bits/sort.h`, `merge`, `copy`, `sort` and `stable_sort` of
`algorithm.h`)

A range of random-access iterators into an array is the list of the array with two
indices; the temporary buffer of `stable_sort` is a second list. A read or a write outside
a list fails. Every loop runs with a number of turns that its bound allows. -/

section sorting

variable {α : Type} (comp : α → α → Bool)

/-- The loop of `copy_m` for random-access iterators (`for (n = last - first; n > 0; --n)`)
from the array `src` at `first` to the array `dst` at `d_first`; returns `dst` and
`d_first`. -/
def copy_loop : Nat → List α → List α → Nat → Nat → Option (List α × Nat)
  | 0, _, dst, _, d_first => some (dst, d_first)
  | n + 1, src, dst, first, d_first => do
    let dst ← wr dst d_first (← src[first]?)
    copy_loop n src dst (first + 1) (d_first + 1)

/-- `copy(first, last, d_first)` from the array `src` to the array `dst`. -/
def copy (src dst : List α) (first last d_first : Nat) : Option (List α × Nat) :=
  copy_loop (last - first) src dst first d_first

/-- The loop of `merge` (lines 744-753): both ranges are in `src`, the output goes to
`dst`; returns `dst`, `first1`, `first2` and `d_first`. -/
def merge_loop : Nat → List α → List α → Nat → Nat → Nat → Nat → Nat →
    Option (List α × Nat × Nat × Nat)
  | 0, _, _, _, _, _, _, _ => none
  | fuel + 1, src, dst, first1, last1, first2, last2, d_first =>
    if first1 ≠ last1 ∧ first2 ≠ last2 then do
      let x2 ← src[first2]?
      let x1 ← src[first1]?
      if comp x2 x1 then do
        merge_loop fuel src (← wr dst d_first x2) first1 last1 (first2 + 1) last2 (d_first + 1)
      else do
        merge_loop fuel src (← wr dst d_first x1) (first1 + 1) last1 first2 last2 (d_first + 1)
    else some (dst, first1, first2, d_first)

/-- The end of `merge` (line 754), `copy(first2, last2, copy(first1, last1, d_first))`,
from the state in which the loop ends. -/
def merge_copies (src : List α) (last1 last2 : Nat) :
    List α × Nat × Nat × Nat → Option (List α × Nat)
  | (dst, first1, first2, d_first) => do
    let (dst, d_first) ← copy src dst first1 last1 d_first
    copy src dst first2 last2 d_first

/-- `merge(first1, last1, first2, last2, d_first, comp)` with both input ranges in the
array `src` and the output in the array `dst`; returns `dst` and the end of the output. -/
def merge (src dst : List α) (first1 last1 first2 last2 d_first : Nat) :
    Option (List α × Nat) :=
  (merge_loop comp ((last1 - first1) + (last2 - first2) + 1) src dst first1 last1 first2 last2
    d_first).bind (merge_copies src last1 last2)

/-- `merge_sort_buffer(first, last, buffer, comp)` on the array `a` with the buffer array
`buf`, `buffer` the index of the buffer pointer; returns both arrays. -/
def merge_sort_buffer : Nat → List α → List α → Nat → Nat → Nat → Option (List α × List α)
  | 0, _, _, _, _, _ => none
  | fuel + 1, a, buf, first, last, buffer =>
    let count := last - first
    if count > 1 then do
      let mid := count / 2
      let middle := first + mid
      let (a, buf) ←
        if mid > 1 then do
          let q1 := mid / 2
          let part := first + q1
          let (a, buf) ← merge_sort_buffer fuel a buf first part buffer
          let (a, buf) ← merge_sort_buffer fuel a buf part middle (buffer + q1)
          let (buf, _) ← merge comp a buf first part part middle buffer
          pure (a, buf)
        else do
          let buf ← wr buf buffer (← a[first]?)
          pure (a, buf)
      let (a, buf) ←
        if count - mid > 1 then do
          let q3 := mid + (count - mid) / 2
          let part := first + q3
          let (a, buf) ← merge_sort_buffer fuel a buf middle part (buffer + mid)
          let (a, buf) ← merge_sort_buffer fuel a buf part last (buffer + q3)
          let (buf, _) ← merge comp a buf middle part part last (buffer + mid)
          pure (a, buf)
        else do
          let buf ← wr buf (buffer + mid) (← a[middle]?)
          pure (a, buf)
      let (a, _) ← merge comp buf a buffer (buffer + mid) (buffer + mid) (buffer + count) first
      pure (a, buf)
    else some (a, buf)

/-- `stable_sort(first, last, comp)` on the whole array `a`; `buf` is the storage that the
temporary buffer obtained, with whatever it holds. -/
def stable_sort (a buf : List α) : Option (List α) :=
  (merge_sort_buffer comp (a.length + 1) a buf 0 a.length 0).map (·.1)

end sorting


/-! ## Specification vocabulary for the sorting functions -/

/-- The array `a` holds the list `l` from the index `i` on. -/
def Seg {α : Type} (a : List α) (i : Nat) (l : List α) : Prop :=
  ∃ p q, a = p ++ l ++ q ∧ p.length = i

/-- The list `l2` is the stable sort of `l` under `comp`: a rearrangement of `l` in which
no element is followed by a smaller one and in which, for every `x`, the elements equivalent
to `x` come in the order they have in `l`. -/
def StableSorted {α : Type} (comp : α → α → Bool) (l l2 : List α) : Prop :=
  l2.Perm l ∧ l2.Pairwise (fun x y => comp y x = false) ∧
    ∀ x, l2.filter (fun y => !comp x y && !comp y x) = l.filter (fun y => !comp x y && !comp y x)

/-- The code of `merge_sort_buffer` for one half of its range (lines 57-66 for the first
half, lines 68-77 for the second): `n` is the length of the half, `msb` the recursive
call, `part` the middle of the half and `bufpart` the matching place in the buffer. Used to
state what `merge_sort_buffer` does half by half. -/
def merge_sort_half {α : Type} (comp : α → α → Bool)
    (msb : List α → List α → Nat → Nat → Nat → Option (List α × List α)) (n : Nat)
    (a buf : List α) (first part last buffer bufpart : Nat) : Option (List α × List α) :=
  if n > 1 then do
    let (a, buf) ← msb a buf first part buffer
    let (a, buf) ← msb a buf part last bufpart
    let (buf, _) ← merge comp a buf first part part last buffer
    pure (a, buf)
  else do
    let buf ← wr buf buffer (← a[first]?)
    pure (a, buf)

/-- The order of pairs of numbers by their first component (a key with a tag that the order
does not see), as a Boolean comparator. -/
def keyLess : Nat × Nat → Nat × Nat → Bool := fun a b => decide (a.1 < b.1)


/-! ## `min` and `max`, the temporary buffer, `map::at`, `swap`, and the heap and insertion
functions under a comparator that can throw

Further functions of `algorithm.h`, `bits/tempbuf.h`, `map.h`, `red_black_tree.h`,
`bits/heap.h` and `bits/sort.h`. -/

set_option autoImplicit false

namespace jnstl

/-- `max(a, b)` (`algorithm.h`, line 28): `a < b ? b : a`, with `lt` for `operator<`. -/
def max {α : Type} (lt : α → α → Bool) (a b : α) : α := if lt a b then b else a

/-- `min(a, b)` (`algorithm.h`, line 41): `b < a ? a : b`, with `lt` for `operator<`. -/
def min {α : Type} (lt : α → α → Bool) (a b : α) : α := if lt b a then a else b

end jnstl

section tempbuf

variable {α : Type} (comp : α → α → Bool)

/-- `std::numeric_limits<ptrdiff_t>::max()` for a `ptrdiff_t` of 64 bits. -/
def ptrdiff_max : Nat := 2 ^ 63 - 1

/-- The loop of `get_temporary_buffer` (`bits/tempbuf.h`, lines 19-26). `malloc n` tells
whether the request for `n` bytes succeeds (the loop asks for each size once). Returns the
length obtained; the length `0` comes with the null pointer. -/
def get_temporary_buffer_loop (malloc : Nat → Bool) (sizeofT : Nat) : Nat → Nat → Option Nat
  | 0, _ => none
  | fuel + 1, len =>
    if len > 0 then
      if malloc (len * sizeofT) then some len
      else get_temporary_buffer_loop malloc sizeofT fuel (len / 2)
    else some 0

/-- `get_temporary_buffer<T>(len)` with `sizeofT` for `sizeof(T)`. -/
def get_temporary_buffer (malloc : Nat → Bool) (sizeofT : Nat) (len : Nat) : Option Nat :=
  let max := ptrdiff_max / sizeofT
  let len := if len > max then max else len
  get_temporary_buffer_loop malloc sizeofT (len + 1) len

/-- The constructor of `temporary_buffer` (`bits/tempbuf.h`, lines 125-148) for a range of
`count` elements: the storage `[M_buffer, M_buffer + M_len)` as the list of what its cells
hold, `fill i` in the cell `i`. The empty list is the null buffer. -/
def temporary_buffer (malloc : Nat → Bool) (sizeofT : Nat) (fill : Nat → α) (count : Nat) :
    Option (List α) :=
  (get_temporary_buffer malloc sizeofT count).map (fun len => (List.range len).map fill)

/-- `stable_sort(first, last, comp)` (`algorithm.h`, lines 937-949) together with its
temporary buffer: the buffer is built for the range and `merge_sort_buffer` is called with
`buffer.begin()`. -/
def stable_sort_tmp (malloc : Nat → Bool) (sizeofT : Nat) (fill : Nat → α) (a : List α) :
    Option (List α) := do
  let buffer ← temporary_buffer malloc sizeofT fill a.length
  stable_sort comp a buffer

end tempbuf

section map_at

variable {κ β : Type}

/-- How a call of `map::at` ends: it returns a reference to a mapped value, or it executes
the statement `throw;` of line 168 while no exception is being handled, which calls
`std::terminate`. -/
inductive at_result (β : Type) where
  | value (v : β)
  | rethrow_terminate
  deriving DecidableEq, Repr

/-- `map::at(key)` (`map.h`, lines 163-171). The map is its tree `mT` of pairs, whose
`KeyOfT` is `select_first`; `exceptions` is the value of the macro
`JNSTL_EXCEPTIONS_ENABLED`, which decides whether lines 167-168 are compiled. -/
def map_at (KeyCompare : κ → κ → Bool) (exceptions : Bool) (mT : rbtree (κ × β)) (fuel : Nat)
    (key : κ) : Option (at_result β) := do
  let i ← mT.lower_bound Prod.fst KeyCompare fuel key
  if exceptions then
    if i = mT.mEnd then pure at_result.rethrow_terminate
    else do
      let v ← sValue mT i
      if KeyCompare key v.1 then pure at_result.rethrow_terminate
      else pure (at_result.value v.2)
  else do
    let v ← sValue mT i
    pure (at_result.value v.2)

end map_at

section swap

/-- An assignment to `mRight` of a header object (a member of a tree object, never null). -/
def hdrSetRight (m : Mem) (p v : Ptr) : Mem := Function.update m p { m p with mRight := v }

/-- An assignment to `mLeft` of a header object. -/
def hdrSetLeft (m : Mem) (p v : Ptr) : Mem := Function.update m p { m p with mLeft := v }

/-- An assignment to `mParent` of a header object. -/
def hdrSetParent (m : Mem) (p v : Ptr) : Mem := Function.update m p { m p with mParent := v }

/-- `DoSwap(x)` (`red_black_tree.h`, lines 1471-1506) for two trees whose headers are the
objects at `hdr` (this tree) and `xhdr` (the tree `x`) of one memory; returns the memory
and the sizes of this tree and of `x`. The comparator objects that line 1476 exchanges are
not part of the state. -/
def DoSwap (m : Mem) (hdr xhdr : Ptr) (mSize xSize : Nat) : Mem × Nat × Nat :=
  if (m hdr).mParent ≠ 0 ∧ (m xhdr).mParent ≠ 0 then
    let tmp := (m hdr).mRight
    let m := hdrSetRight m hdr (m xhdr).mRight
    let m := hdrSetRight m xhdr tmp
    let tmp := (m hdr).mLeft
    let m := hdrSetLeft m hdr (m xhdr).mLeft
    let m := hdrSetLeft m xhdr tmp
    let tmp := (m hdr).mParent
    let m := hdrSetParent m hdr (m xhdr).mParent
    let m := hdrSetParent m xhdr tmp
    let m := hdrSetParent m hdr hdr
    let m := hdrSetParent m xhdr xhdr
    (m, xSize, mSize)
  else if (m hdr).mParent ≠ 0 then
    let m := hdrSetRight m xhdr (m hdr).mRight
    let m := hdrSetLeft m xhdr (m hdr).mLeft
    let m := hdrSetParent m xhdr (m hdr).mParent
    let m := hdrSetParent m xhdr xhdr
    let m := hdrSetRight m hdr hdr
    let m := hdrSetLeft m hdr hdr
    let m := hdrSetParent m hdr 0
    (m, xSize, mSize)
  else if (m xhdr).mParent ≠ 0 then
    let m := hdrSetRight m hdr (m xhdr).mRight
    let m := hdrSetLeft m hdr (m xhdr).mLeft
    let m := hdrSetParent m hdr (m xhdr).mParent
    let m := hdrSetParent m hdr hdr
    let m := hdrSetRight m xhdr xhdr
    let m := hdrSetLeft m xhdr xhdr
    let m := hdrSetParent m xhdr 0
    (m, xSize, mSize)
  else (m, xSize, mSize)

/-- `swap(x)` (lines 699-711): `operator==` of `allocator` always answers true, so the call
is `DoSwap(x)`. -/
def swap (m : Mem) (hdr xhdr : Ptr) (mSize xSize : Nat) : Mem × Nat × Nat :=
  DoSwap m hdr xhdr mSize xSize

/-- `DoInit()` of `rbtree_impl` (lines 377-383) on the header at `hdr`. -/
def DoInit (m : Mem) (hdr : Ptr) : Mem :=
  Function.update m hdr
    { mRight := hdr, mLeft := hdr, mParent := 0, mColor := rbtree_color.mRed }

/-- The move constructor `rbtree(this_type&& x)` (lines 593-600) for a new tree object
whose header is at `hdr`: `mImpl` is constructed empty, then `swap(x)`. Returns the memory
and the sizes of the new tree and of `x`. -/
def move_construct (m : Mem) (hdr xhdr : Ptr) (xSize : Nat) : Mem × Nat × Nat :=
  swap (DoInit m hdr) hdr xhdr 0 xSize

/-- The tree object with header `hdr` and size `mSize` in the memory `m`, with the payloads
and the allocator state of `t`. -/
def treeAtHeader {α : Type} (t : rbtree α) (m : Mem) (hdr : Ptr) (mSize : Nat) : rbtree α :=
  { t with mem := m, mHeader := hdr, mSize := mSize }

end swap

/-- How a call with a comparator that can throw ends: it returns `x`; or the exception
leaves the function while the range holds `s`; or an access falls outside the range. -/
inductive Outcome (σ β : Type) where
  | ret (x : β)
  | thrown (s : σ)
  | fault
  deriving DecidableEq, Repr

/-- Sequencing: an exception or a bad access in the first part ends the whole. -/
def Outcome.bind {σ β γ : Type} : Outcome σ β → (β → Outcome σ γ) → Outcome σ γ
  | Outcome.ret x, f => f x
  | Outcome.thrown s, _ => Outcome.thrown s
  | Outcome.fault, _ => Outcome.fault

instance {σ : Type} : Monad (Outcome σ) where
  pure := Outcome.ret
  bind := Outcome.bind

namespace throwing

variable {α : Type} (comp : α → α → Option Bool)

/-- The read `*(first + i)`. -/
def rdT (a : List α) (i : Nat) : Outcome (List α) α :=
  match a[i]? with
  | some x => Outcome.ret x
  | none => Outcome.fault

/-- The assignment `*(first + i) = v`. -/
def wrT (a : List α) (i : Nat) (v : α) : Outcome (List α) (List α) :=
  if i < a.length then Outcome.ret (a.set i v) else Outcome.fault

/-- The call `comp(x, y)` while the range holds `a`: `none` is an exception thrown by the
comparator, which no function of the library catches. -/
def callT (a : List α) (x y : α) : Outcome (List α) Bool :=
  match comp x y with
  | some b => Outcome.ret b
  | none => Outcome.thrown a

/-- The loop and the final store of `promote_heap` (`bits/heap.h`, lines 15-20). -/
def promote_heap_loop : Nat → List α → Nat → Nat → α → Outcome (List α) (List α)
  | 0, _, _, _, _ => Outcome.fault
  | fuel + 1, a, Idx, topIdx, val =>
    let parentIdx := (Idx - 1) / 2
    if Idx > topIdx then do
      let p ← rdT a parentIdx
      let c ← callT comp a p val
      if c then do
        let a ← wrT a Idx p
        promote_heap_loop fuel a parentIdx topIdx val
      else wrT a Idx val
    else wrT a Idx val

/-- `promote_heap(first, Idx, topIdx, val, comp)`. -/
def promote_heap (a : List α) (Idx topIdx : Nat) (val : α) : Outcome (List α) (List α) :=
  promote_heap_loop comp (Idx + 1) a Idx topIdx val

/-- The loop of `adjust_heap` (lines 37-49); returns the range and `Idx`. -/
def adjust_heap_loop : Nat → List α → Nat → Nat → Outcome (List α) (List α × Nat)
  | 0, _, _, _ => Outcome.fault
  | fuel + 1, a, Idx, heapSize =>
    let rIdx := 2 * Idx + 2
    let lIdx := rIdx - 1
    if rIdx < heapSize then do
      let r ← rdT a rIdx
      let l ← rdT a lIdx
      let c ← callT comp a r l
      if c then do
        let a ← wrT a Idx l
        adjust_heap_loop fuel a lIdx heapSize
      else do
        let a ← wrT a Idx r
        adjust_heap_loop fuel a rIdx heapSize
    else pure (a, Idx)

/-- `adjust_heap(first, Idx, heapSize, val, comp)`. -/
def adjust_heap (a : List α) (Idx heapSize : Nat) (val : α) : Outcome (List α) (List α) := do
  let topIdx := Idx
  let (a, Idx) ← adjust_heap_loop comp (heapSize + 1) a Idx heapSize
  let rIdx := 2 * Idx + 2
  let lIdx := rIdx - 1
  if rIdx = heapSize then do
    let l ← rdT a lIdx
    let a ← wrT a Idx l
    promote_heap comp a lIdx topIdx val
  else promote_heap comp a Idx topIdx val

/-- `pop_heap_impl(first, last, result, comp)` with `heapSize = last - first`. -/
def pop_heap_impl (a : List α) (heapSize result : Nat) : Outcome (List α) (List α) := do
  let val ← rdT a result
  let top ← rdT a 0
  let a ← wrT a result top
  adjust_heap comp a 0 heapSize val

/-- `push_heap(first, last, comp)` on the whole list. -/
def push_heap (a : List α) : Outcome (List α) (List α) := do
  let val ← rdT a (a.length - 1)
  promote_heap comp a (a.length - 1) 0 val

/-- `pop_heap(first, last, comp)` on the whole list. -/
def pop_heap (a : List α) : Outcome (List α) (List α) :=
  if a.length ≠ 0 then pop_heap_impl comp a (a.length - 1) (a.length - 1) else pure a

/-- The loop of `make_heap_impl` (lines 94-99); the first argument is `parentIdx + 1`. -/
def make_heap_loop : Nat → List α → Nat → Outcome (List α) (List α)
  | 0, a, _ => pure a
  | parentIdx + 1, a, heapSize => do
    let val ← rdT a parentIdx
    let a ← adjust_heap comp a parentIdx heapSize val
    make_heap_loop parentIdx a heapSize

/-- `make_heap(first, last, comp)` on the whole list. -/
def make_heap (a : List α) : Outcome (List α) (List α) :=
  if a.length > 1 then make_heap_loop comp ((a.length - 1) / 2 + 1) a a.length else pure a

/-- `sort_heap(first, last, comp)`; the first argument is `last - first`. -/
def sort_heap : Nat → List α → Outcome (List α) (List α)
  | 0, a => pure a
  | n + 1, a =>
    if n + 1 > 1 then do
      let a ← pop_heap_impl comp a n n
      sort_heap n a
    else pure a

/-- The loop and the final store of `unsafe_linear_insert` (`bits/sort.h`, lines 92-98);
`last = 0` makes `--prev` leave the range. -/
def unsafe_linear_insert_loop : Nat → List α → Nat → α → Outcome (List α) (List α)
  | 0, _, _, _ => Outcome.fault
  | fuel + 1, a, last, val =>
    if last = 0 then Outcome.fault
    else do
      let p ← rdT a (last - 1)
      let c ← callT comp a val p
      if c then do
        let a ← wrT a last p
        unsafe_linear_insert_loop fuel a (last - 1) val
      else wrT a last val

/-- `unsafe_linear_insert(last, comp)` with `last` an index of the range. -/
def unsafe_linear_insert (a : List α) (last : Nat) : Outcome (List α) (List α) := do
  let val ← rdT a last
  unsafe_linear_insert_loop comp (last + 1) a last val

end throwing

/-- The outcome of a function that cannot throw, as an outcome: `none` is an access outside
the range. -/
def Outcome.ofOption {σ β : Type} : Option β → Outcome σ β
  | some x => Outcome.ret x
  | none => Outcome.fault

/-- The map obtained from the empty map by `insert` (`DoInsertUnique` of the tree) of the
pairs of `l`, in turn, with keys and mapped values in the natural numbers and fuel 40 for
every loop. -/
def mapOfList (l : List (Nat × Nat)) : rbtree (Nat × Nat) :=
  l.foldl (fun t v => match t.DoInsertUnique Prod.fst natLess 40 v with
    | some (_, t2) => t2
    | none => t) rbtree.init

/-- A second set of numbers in the memory of the tree `a`: the header of a new tree object
is placed at the next free address and initialised by `DoInit`, then the elements of `l`
are inserted by `DoInsertUnique`. The result is the second tree; its memory holds both
trees. -/
def secondTree (a : rbtree Nat) (l : List Nat) : rbtree Nat :=
  l.foldl (fun t v => match t.DoInsertUnique id natLess 40 v with
    | some (_, t2) => t2
    | none => t)
    { a with mem := DoInit a.mem a.brk, mHeader := a.brk, mSize := 0, brk := a.brk + 1 }

/-- The sets `{10}` and `{20}` in one memory: the first has its header at address 1 and its
node at address 2, the second (the tree returned) its header at 3 and its node at 4. -/
def twoSets : rbtree Nat := secondTree (treeOfList [10]) [20]

/-- The memory and the sizes after `a.swap(b)` on the two sets of `twoSets`. -/
def twoSetsSwapped : Mem × Nat × Nat := swap twoSets.mem 1 3 1 1

/-- The memory and the sizes after the move constructor builds a new tree object, with its
header at address 5, from the first set of `twoSets`. -/
def twoSetsMoved : Mem × Nat × Nat := move_construct twoSets.mem 5 1 1


/-! ## `sort` (`algorithm.h`, lines 982-989) and its parts in `bits/sort.h`

The array is a list and iterators are indices, as for the heap functions. -/

set_option autoImplicit false

section introsort

variable {α : Type} (comp : α → α → Bool)

/-- `iter_swap(a, b)` (`algorithm.h`, lines 47-54): `tmp = *a; *a = *b; *b = tmp`. -/
def iter_swap (arr : List α) (a b : Nat) : Option (List α) := do
  let tmp ← arr[a]?
  let arr ← wr arr a (← arr[b]?)
  wr arr b tmp

/-- `move_median_to_first(first, a, b, c, comp)` (`bits/sort.h`, lines 26-43). -/
def move_median_to_first (arr : List α) (first a b c : Nat) : Option (List α) := do
  let xa ← arr[a]?
  let xb ← arr[b]?
  let xc ← arr[c]?
  if comp xa xb then
    if comp xb xc then iter_swap arr first b
    else if comp xa xc then iter_swap arr first c
    else iter_swap arr first a
  else if comp xa xc then iter_swap arr first a
  else if comp xb xc then iter_swap arr first c
  else iter_swap arr first b

/-- The loop `while (comp(*first, *pivot)) ++first;` of `unsafe_partition` (lines 147-148);
returns `first`. -/
def partition_up : Nat → List α → Nat → Nat → Option Nat
  | 0, _, _, _ => none
  | fuel + 1, arr, first, pivot => do
    let x ← arr[first]?
    let p ← arr[pivot]?
    if comp x p then partition_up fuel arr (first + 1) pivot
    else pure first

/-- The loop `while (comp(*pivot, *last)) --last;` of `unsafe_partition` (lines 153-154);
returns `last`. Stepping below the first element of the array fails. -/
def partition_down : Nat → List α → Nat → Nat → Option Nat
  | 0, _, _, _ => none
  | fuel + 1, arr, last, pivot => do
    let p ← arr[pivot]?
    let x ← arr[last]?
    if comp p x then
      if last = 0 then none else partition_down fuel arr (last - 1) pivot
    else pure last

/-- `unsafe_partition(first, last, pivot, comp)` (lines 144-160); returns the array and the
cut. -/
def unsafe_partition : Nat → List α → Nat → Nat → Nat → Option (List α × Nat)
  | 0, _, _, _, _ => none
  | fuel + 1, arr, first, last, pivot => do
    let first ← partition_up comp (arr.length + 1) arr first pivot
    if last = 0 then none
    else do
      let last ← partition_down comp (arr.length + 1) arr (last - 1) pivot
      if first < last then do
        let arr ← iter_swap arr first last
        unsafe_partition fuel arr (first + 1) last pivot
      else pure (arr, first)

/-- `unsafe_partition_pivot(first, last, comp)` (lines 166-182). -/
def unsafe_partition_pivot (arr : List α) (first last : Nat) : Option (List α × Nat) :=
  if last = 0 then none
  else do
    let middle := first + (last - first) / 2
    let arr ← move_median_to_first comp arr first (first + 1) middle (last - 1)
    unsafe_partition comp (last - first + 1) arr (first + 1) last first

/-- `partial_sort_impl(first, middle, last, comp)` (lines 184-190) on the range
`[first, last)` of the array: `heap_select` and `sort_heap` work on the list of the range. -/
def partial_sort_impl (arr : List α) (first middle last : Nat) : Option (List α) :=
  if first ≤ middle ∧ middle ≤ last ∧ last ≤ arr.length then do
    let r ← partial_sort comp ((arr.drop first).take (last - first)) (middle - first)
    pure (arr.take first ++ r ++ arr.drop last)
  else none

/-- The constant `S_threshold`. -/
def S_threshold : Nat := 16

/-- `introsort_loop(first, last, depth_limit, comp)` (lines 192-209). The template
parameter `Size` of the counter is the type `σ`, with `isZero` for `depth_limit == 0` and
`dec` for `--depth_limit` (`sort` instantiates it with `double`). The loop
`while (last - first > S_threshold)` with `last = cut` at the end of its body is the second
recursive call. -/
def introsort_loop {σ : Type} (isZero : σ → Bool) (dec : σ → σ) :
    Nat → List α → Nat → Nat → σ → Option (List α)
  | 0, _, _, _, _ => none
  | fuel + 1, arr, first, last, depth_limit =>
    if last - first > S_threshold then
      if isZero depth_limit then partial_sort_impl comp arr first last last
      else do
        let depth_limit := dec depth_limit
        let (arr, cut) ← unsafe_partition_pivot comp arr first last
        let arr ← introsort_loop isZero dec fuel arr cut last depth_limit
        introsort_loop isZero dec fuel arr first cut depth_limit
    else some arr

/-- The loop of `move_backward` for random-access iterators (`algorithm.h`, lines 294-296),
`for (n = last - first; n > 0; --n) *--d_last = *--last;`; returns the array and
`d_last`. -/
def move_backward_loop : Nat → List α → Nat → Nat → Option (List α × Nat)
  | 0, arr, _, d_last => some (arr, d_last)
  | n + 1, arr, last, d_last =>
    if last = 0 ∨ d_last = 0 then none
    else do
      let x ← arr[last - 1]?
      let arr ← wr arr (d_last - 1) x
      move_backward_loop n arr (last - 1) (d_last - 1)

/-- `move_backward(first, last, d_last)` inside one array. -/
def move_backward (arr : List α) (first last d_last : Nat) : Option (List α × Nat) :=
  move_backward_loop (last - first) arr last d_last

/-- The loop and the final store of `unsafe_linear_insert` (`bits/sort.h`, lines 92-98);
`last = 0` makes `--prev` leave the array. -/
def unsafe_linear_insert_loop : Nat → List α → Nat → α → Option (List α)
  | 0, _, _, _ => none
  | fuel + 1, arr, last, val =>
    if last = 0 then none
    else do
      let p ← arr[last - 1]?
      if comp val p then do
        let arr ← wr arr last p
        unsafe_linear_insert_loop fuel arr (last - 1) val
      else wr arr last val

/-- `unsafe_linear_insert(last, comp)` with `last` an index of the array. -/
def unsafe_linear_insert (arr : List α) (last : Nat) : Option (List α) := do
  let val ← arr[last]?
  unsafe_linear_insert_loop comp (last + 1) arr last val

/-- The body of the loop of `insertion_sort` (lines 109-115) for the iterator `it`. -/
def insertion_sort_step (arr : List α) (first it : Nat) : Option (List α) := do
  let x ← arr[it]?
  let f ← arr[first]?
  if comp x f then do
    let (arr, _) ← move_backward arr first it (it + 1)
    wr arr first x
  else unsafe_linear_insert comp arr it

/-- The loop of `insertion_sort` (line 105), `for (it = first + 1; it != last; ++it)`, with
the number of turns left as its first argument. -/
def insertion_sort_loop : Nat → List α → Nat → Nat → Option (List α)
  | 0, arr, _, _ => some arr
  | n + 1, arr, first, it => do
    let arr ← insertion_sort_step comp arr first it
    insertion_sort_loop n arr first (it + 1)

/-- `insertion_sort(first, last, comp)` (lines 100-118). -/
def insertion_sort (arr : List α) (first last : Nat) : Option (List α) :=
  if last < first then none
  else if first ≠ last then insertion_sort_loop comp (last - (first + 1)) arr first (first + 1)
  else some arr

/-- The loop of `unsafe_insertion_sort` (lines 123-124), with the number of turns left as
its first argument. -/
def unsafe_insertion_sort_loop : Nat → List α → Nat → Option (List α)
  | 0, arr, _ => some arr
  | n + 1, arr, it => do
    let arr ← unsafe_linear_insert comp arr it
    unsafe_insertion_sort_loop n arr (it + 1)

/-- `unsafe_insertion_sort(first, last, comp)` (lines 120-125). -/
def unsafe_insertion_sort (arr : List α) (first last : Nat) : Option (List α) :=
  if last < first then none else unsafe_insertion_sort_loop comp (last - first) arr first

/-- `final_insertion_sort(first, last, comp)` (lines 129-140). -/
def final_insertion_sort (arr : List α) (first last : Nat) : Option (List α) :=
  if last - first > S_threshold then do
    let arr ← insertion_sort comp arr first (first + S_threshold)
    unsafe_insertion_sort comp arr (first + S_threshold) last
  else insertion_sort comp arr first last

/-- `sort(first, last, comp)` (`algorithm.h`, lines 982-989) on the whole array. `limit n`
is the value of `std::log(n) * 2`, a `double`, which is the type of the counter of
`introsort_loop`; the counter and its arithmetic are parameters. -/
def sort {σ : Type} (isZero : σ → Bool) (dec : σ → σ) (limit : Nat → σ) (arr : List α) :
    Option (List α) :=
  if arr.length ≠ 0 then do
    let arr ← introsort_loop comp isZero dec (arr.length + 1) arr 0 arr.length
      (limit arr.length)
    final_insertion_sort comp arr 0 arr.length
  else some arr

end introsort


/-! ## `count` of the containers that keep equivalent keys (`multiset.h`, `multimap.h`) -/

set_option autoImplicit false

section multi_count

variable {α κ β : Type}

/-- `multiset::count(x)` (`multiset.h`, lines 180-183):
`return mT.find(x) == mT.end() ? 0 : 1;`. -/
def multiset_count (KeyOfT : α → κ) (KeyCompare : κ → κ → Bool) (mT : rbtree α)
    (fuel : Nat) (x : κ) : Option Nat := do
  let p ← mT.find KeyOfT KeyCompare fuel x
  pure (if p = mT.mEnd then 0 else 1)

/-- `multimap::count(x)` (`multimap.h`, lines 194-197), the same expression on a tree of
pairs whose key is the first component. -/
def multimap_count (KeyCompare : κ → κ → Bool) (mT : rbtree (κ × β)) (fuel : Nat) (x : κ) :
    Option Nat := do
  let p ← mT.find Prod.fst KeyCompare fuel x
  pure (if p = mT.mEnd then 0 else 1)

/-- `distance_impl(first, last, input_iterator_tag)` (`iterator.h`, lines 621-632) on tree
iterators: the number of steps of `RBTreeIncrement` from `first` up to `last`
(`while (first != last)` with the body `++first; ++n;`). -/
def distance_impl (mT : rbtree α) : Nat → Ptr → Ptr → Option Nat
  | 0, _, _ => none
  | fuel + 1, first, last =>
    if first = last then some 0
    else do
      let nxt ← RBTreeIncrement mT.mem (fuel + 1) first
      let n ← distance_impl mT fuel nxt last
      pure (n + 1)

/-- The multiset obtained from the empty one by `insert` (`DoInsertMulti` of the tree) of
the numbers of `l`, in turn, with fuel 40 for every loop. -/
def multisetOfList (l : List Nat) : rbtree Nat :=
  l.foldl (fun t v => match t.DoInsertMulti id natLess 40 v with
    | some (_, t2) => t2
    | none => t) rbtree.init

/-- The multimap obtained from the empty one by `insert` (`DoInsertMulti` of the tree) of
the pairs of `l`, in turn, with fuel 40 for every loop. -/
def multimapOfList (l : List (Nat × Nat)) : rbtree (Nat × Nat) :=
  l.foldl (fun t v => match t.DoInsertMulti Prod.fst natLess 40 v with
    | some (_, t2) => t2
    | none => t) rbtree.init

end multi_count


/-! ## The doubly linked list (`list.h`)

A list object is identified by the address of its member `mNode`, the node embedded in the
object that serves as `end()`. That node has the three fields of every node, the value
included. -/

set_option autoImplicit false

section list_model

variable {α : Type}

/-- `struct ListNode` (`list.h`, lines 17-30). -/
structure ListNode (α : Type) where
  mNext : Ptr
  mPrev : Ptr
  mValue : α

/-- The memory of list nodes; address 0 is `nullptr`. -/
abbrev ListMem (α : Type) := Ptr → ListNode α

/-- Reading a node; `none` at the null pointer. -/
def lrd (m : ListMem α) (p : Ptr) : Option (ListNode α) :=
  if p = 0 then none else some (m p)

/-- The assignment `p->mNext = v`. -/
def lsetNext (m : ListMem α) (p v : Ptr) : Option (ListMem α) :=
  if p = 0 then none else some (Function.update m p { m p with mNext := v })

/-- The assignment `p->mPrev = v`. -/
def lsetPrev (m : ListMem α) (p v : Ptr) : Option (ListMem α) :=
  if p = 0 then none else some (Function.update m p { m p with mPrev := v })

/-- `ListNode::insert(pNext)` (lines 360-366) on the node `self`. -/
def ListNode.insert (m : ListMem α) (self pNext : Ptr) : Option (ListMem α) := do
  let m ← lsetNext m self pNext
  let nx ← lrd m pNext
  let m ← lsetPrev m self nx.mPrev
  let s ← lrd m self
  let m ← lsetNext m s.mPrev self
  lsetPrev m pNext self

/-- `ListNode::splice(pFirst, pLast)` (lines 374-384) on the node `self`. -/
def ListNode.splice (m : ListMem α) (self pFirst pLast : Ptr) : Option (ListMem α) := do
  let l ← lrd m pLast
  let m ← lsetNext m l.mPrev self
  let f ← lrd m pFirst
  let m ← lsetNext m f.mPrev pLast
  let s ← lrd m self
  let m ← lsetNext m s.mPrev pFirst
  let s ← lrd m self
  let pTemp := s.mPrev
  let l ← lrd m pLast
  let m ← lsetPrev m self l.mPrev
  let f ← lrd m pFirst
  let m ← lsetPrev m pLast f.mPrev
  lsetPrev m pFirst pTemp

namespace list

/-- The constructor `list()` of the object whose `mNode` is at `l`: `mNode()` leaves the
value `d` of a value-initialised element (0 for the arithmetic types) in the node, and
`DoInit` (lines 446-450) links the node to itself. -/
def DoInit (m : ListMem α) (l : Ptr) (d : α) : ListMem α :=
  Function.update m l { mNext := l, mPrev := l, mValue := d }

/-- `begin()` (lines 566-569): `iterator(mNode.mNext)`; `end()` is `l` itself. -/
def begin (m : ListMem α) (l : Ptr) : Option Ptr :=
  (lrd m l).map (·.mNext)

/-- `DoInsertValue(pNode, value)` (lines 1035-1040) with `DoCreateNode` (lines 943-960):
the node `pNew` handed out by the allocator gets the value and is inserted before
`pNode`. -/
def DoInsertValue (m : ListMem α) (pNew pNode : Ptr) (value : α) : Option (ListMem α) :=
  if pNew = 0 then none
  else ListNode.insert (Function.update m pNew { m pNew with mValue := value }) pNew pNode

/-- `push_back(value)` (lines 671-675): `DoInsertValue(&mNode, value)`. -/
def push_back (m : ListMem α) (pNew l : Ptr) (value : α) : Option (ListMem α) :=
  DoInsertValue m pNew l value

/-- `splice(position, x, i)` (lines 788-802). `mAllocator == x.mAllocator` is always true
(`allocator.h`, lines 32-34), so only the first branch exists. -/
def splice (m : ListMem α) (position i : Ptr) : Option (ListMem α) := do
  let n ← lrd m i
  let i2 := n.mNext
  if position ≠ i ∧ position ≠ i2 then ListNode.splice m position i i2
  else pure m

/-- `splice(position, x, first, last)` (lines 804-818), first branch as above. -/
def splice_range (m : ListMem α) (position first last : Ptr) : Option (ListMem α) :=
  if first ≠ last then ListNode.splice m position first last else pure m

/-- The loop of `merge(x, compare)` (lines 864-871); `last` is `end()` of this list. The
loop condition is the source's, `first != last && xfirst != last`. Besides the memory and
the two iterators the result lists, in order, the nodes whose value was read as `*xfirst`
and the nodes handed to `splice` as `i`. -/
def merge_loop (compare : α → α → Bool) :
    Nat → ListMem α → Ptr → Ptr → Ptr → List Ptr → List Ptr →
      Option (ListMem α × Ptr × Ptr × List Ptr × List Ptr)
  | 0, _, _, _, _, _, _ => none
  | fuel + 1, m, first, last, xfirst, reads, spliced =>
    if first ≠ last ∧ xfirst ≠ last then do
      let xn ← lrd m xfirst
      let fn ← lrd m first
      if compare xn.mValue fn.mValue then do
        let xnext := xn.mNext
        let xn2 ← lrd m xnext
        let m ← splice m first xn2.mPrev
        merge_loop compare fuel m first last xnext (reads ++ [xfirst])
          (spliced ++ [xn2.mPrev])
      else
        merge_loop compare fuel m fn.mNext last xfirst (reads ++ [xfirst]) spliced
    else some (m, first, xfirst, reads, spliced)

/-- `merge(x, compare)` (lines 854-876) of the list at `l` with the list at `x`. The result
is the memory with the two logs of `merge_loop`. -/
def merge (compare : α → α → Bool) (fuel : Nat) (m : ListMem α) (l x : Ptr) :
    Option (ListMem α × List Ptr × List Ptr) := do
  let first ← begin m l
  let last := l
  let xfirst ← begin m x
  let xlast := x
  if l ≠ x then do
    let (m, _, xfirst, reads, spliced) ←
      merge_loop compare fuel m first last xfirst [] []
    if xfirst ≠ xlast then do
      let m ← splice_range m last xfirst xlast
      pure (m, reads, spliced)
    else pure (m, reads, spliced)
  else pure (m, [], [])

/-- `size()` (lines 593-598): `distance(begin(), end())`, the number of steps along `mNext`
from `p` until `last`. -/
def distance (m : ListMem α) : Nat → Ptr → Ptr → Option Nat
  | 0, _, _ => none
  | fuel + 1, p, last =>
    if p = last then some 0
    else do
      let n ← lrd m p
      let k ← distance m fuel n.mNext last
      pure (k + 1)

/-- The values met along `mNext` from `p` until `last`, the sequence an iteration from
`begin()` to `end()` reads. -/
def values (m : ListMem α) : Nat → Ptr → Ptr → Option (List α)
  | 0, _, _ => none
  | fuel + 1, p, last =>
    if p = last then some []
    else do
      let n ← lrd m p
      let vs ← values m fuel n.mNext last
      pure (n.mValue :: vs)

/-- The contents of the list at `l`: the values from `begin()` to `end()`. -/
def toList (m : ListMem α) (fuel : Nat) (l : Ptr) : Option (List α) := do
  values m fuel (← begin m l) l

end list

/-- `equal_a<false>::equal(first1, last1, first2)` (`algorithm.h`, lines 392-402) on list
iterators, with `eq` the `operator==` of the elements. -/
def equal (eq : α → α → Bool) (m : ListMem α) : Nat → Ptr → Ptr → Ptr → Option Bool
  | 0, _, _, _ => none
  | fuel + 1, first1, last1, first2 =>
    if first1 ≠ last1 then do
      let n1 ← lrd m first1
      let n2 ← lrd m first2
      if !(eq n1.mValue n2.mValue) then pure false
      else equal eq m fuel n1.mNext last1 n2.mNext
    else pure true

/-- `operator==(a, b)` of two lists (`list.h`, lines 1150-1154):
`equal(a.begin(), a.end(), b.begin())`. -/
def list_eq (eq : α → α → Bool) (m : ListMem α) (fuel : Nat) (a b : Ptr) : Option Bool := do
  equal eq m fuel (← list.begin m a) a (← list.begin m b)

/-- `operator!=(a, b)` of two lists (lines 1163-1167): `!(a == b)`. -/
def list_ne (eq : α → α → Bool) (m : ListMem α) (fuel : Nat) (a b : Ptr) : Option Bool :=
  (list_eq eq m fuel a b).map (!·)

/-- The memory after `push_back` of the values of `vs`, in turn, on the list at `l`, with
the nodes allocated at `pNew`, `pNew + 1`, ...; unchanged if a step fails. -/
def pushAll (m : ListMem α) (l : Ptr) : Ptr → List α → ListMem α
  | _, [] => m
  | pNew, v :: vs =>
    match list.push_back m pNew l v with
    | some m2 => pushAll m2 l (pNew + 1) vs
    | none => m

/-- Two lists of integers in one memory: the list at address 1 constructed and filled with
`xs` (nodes from address 10 on) and the list at address 2 constructed and filled with `ys`
(nodes from address 30 on). -/
def twoLists (xs ys : List Int) : ListMem Int :=
  let m0 : ListMem Int := fun _ => { mNext := 0, mPrev := 0, mValue := 0 }
  let m1 := pushAll (list.DoInit m0 1 0) 1 10 xs
  pushAll (list.DoInit m1 2 0) 2 30 ys

/-- The ordering `<` of the integers as a comparator. -/
def intLess : Int → Int → Bool := fun a b => decide (a < b)

end list_model


/-! ## Specification vocabulary for the list -/

set_option autoImplicit false

/-- Reference walk, not code of the repository: the nodes met in `n` steps along `mNext`
from `p`, each with its value, and the node reached after the last step. -/
def walk {α : Type} (m : ListMem α) : Nat → Ptr → Option (List (Ptr × α) × Ptr)
  | 0, p => some ([], p)
  | n + 1, p => do
    let nd ← lrd m p
    let r ← walk m n nd.mNext
    pure ((p, nd.mValue) :: r.1, r.2)

/-- Equality of integers as the `operator==` of the elements. -/
def intEq : Int → Int → Bool := fun a b => decide (a = b)


/-! ## Specification vocabulary for the partition step -/

set_option autoImplicit false

/-- The value `m` is a median of `x`, `y`, `z` under `comp`: the three values can be
arranged as `lo`, `m`, `hi` such that `m` is not less than `lo` and `hi` is not less than
`m`. -/
def IsMedian {α : Type} (comp : α → α → Bool) (m x y z : α) : Prop :=
  ∃ lo hi, [lo, m, hi].Perm [x, y, z] ∧ comp m lo = false ∧ comp hi m = false


/-! ## The nesting of the partition steps of `introsort_loop` -/

set_option autoImplicit false

section introsort_steps

variable {α : Type} (comp : α → α → Bool)

/-- `introsort_loop` (`bits/sort.h`, lines 192-209) with a count of its partition steps: the
same body as `introsort_loop`, with `steps` the number of times `--depth_limit` has been
executed on the way to the current turn (by the turns of the loop and the calls around it);
besides the array the result gives the largest such number reached. -/
def introsort_loop_steps {σ : Type} (isZero : σ → Bool) (dec : σ → σ) :
    Nat → List α → Nat → Nat → σ → Nat → Option (List α × Nat)
  | 0, _, _, _, _, _ => none
  | fuel + 1, arr, first, last, depth_limit, steps =>
    if last - first > S_threshold then
      if isZero depth_limit then do
        let arr ← partial_sort_impl comp arr first last last
        pure (arr, steps)
      else do
        let depth_limit := dec depth_limit
        let steps := steps + 1
        let (arr, cut) ← unsafe_partition_pivot comp arr first last
        let (arr, d1) ← introsort_loop_steps isZero dec fuel arr cut last depth_limit steps
        let (arr, d2) ← introsort_loop_steps isZero dec fuel arr first cut depth_limit steps
        pure (arr, Nat.max d1 d2)
    else some (arr, steps)

/-- An array of the numbers 0, ..., 63 on which every partition step splits off a short
part. -/
def killer64 : List Nat :=
  [48, 1, 33, 3, 49, 5, 35, 7, 50, 9, 37, 11, 51, 13, 39, 15, 52, 17, 41, 19, 53, 21, 43, 23,
   54, 25, 45, 27, 55, 29, 47, 31, 0, 2, 4, 6, 8, 10, 12, 14, 16, 18, 20, 22, 24, 26, 28, 30,
   32, 34, 36, 38, 40, 42, 44, 46, 56, 57, 58, 59, 60, 61, 62, 63]

end introsort_steps


/-! ## `partial_sort` and `sort` with a comparator that throws

The functions of `bits/heap.h` and `bits/sort.h` once more, as in the sections on the heap
and on `sort`, with the comparator called through `callT`: an exception leaves the function
at the call, with the range as it is at that moment. The functions that never call the
comparator (`iter_swap`, `move_backward`) are the ones defined before. -/

set_option autoImplicit false

/-- The outcome of a call on the range `[first, last)` of an array, seen on the whole array:
`p` is the part of the array before the range and `q` the part after it. -/
def Outcome.within {α : Type} (p q : List α) :
    Outcome (List α) (List α) → Outcome (List α) (List α)
  | Outcome.ret r => Outcome.ret (p ++ r ++ q)
  | Outcome.thrown r => Outcome.thrown (p ++ r ++ q)
  | Outcome.fault => Outcome.fault

namespace throwing

variable {α : Type} (comp : α → α → Option Bool)

/-- `make_heap_impl(first, last, comp)` (`bits/heap.h`, lines 80-100) with
`heapSize = last - first`. -/
def make_heap_impl (a : List α) (heapSize : Nat) : Outcome (List α) (List α) :=
  if heapSize > 1 then make_heap_loop comp ((heapSize - 1) / 2 + 1) a heapSize else pure a

/-- The loop of `heap_select` (lines 106-109) from the index `it` on, with `fuel` turns. -/
def heap_select_loop : Nat → List α → Nat → Nat → Outcome (List α) (List α)
  | 0, a, _, _ => pure a
  | fuel + 1, a, middle, it =>
    if it ≠ a.length then do
      let x ← rdT a it
      let f ← rdT a 0
      let c ← callT comp a x f
      let a ← if c then pop_heap_impl comp a middle it else pure a
      heap_select_loop fuel a middle (it + 1)
    else pure a

/-- `heap_select(first, middle, last, comp)` on the whole list. -/
def heap_select (a : List α) (middle : Nat) : Outcome (List α) (List α) := do
  let a ← make_heap_impl comp a middle
  heap_select_loop comp (a.length - middle) a middle middle

/-- `partial_sort(first, middle, last, comp)` (`algorithm.h`, lines 1025-1029, through
`partial_sort_impl`, `bits/sort.h`, lines 184-190) on the whole list. -/
def partial_sort (a : List α) (middle : Nat) : Outcome (List α) (List α) := do
  let a ← heap_select comp a middle
  sort_heap comp middle a

/-- `move_median_to_first(first, a, b, c, comp)` (`bits/sort.h`, lines 26-43). -/
def move_median_to_first (arr : List α) (first a b c : Nat) : Outcome (List α) (List α) := do
  let xa ← rdT arr a
  let xb ← rdT arr b
  let xc ← rdT arr c
  let ab ← callT comp arr xa xb
  if ab then do
    let bc ← callT comp arr xb xc
    if bc then Outcome.ofOption (iter_swap arr first b)
    else do
      let ac ← callT comp arr xa xc
      if ac then Outcome.ofOption (iter_swap arr first c)
      else Outcome.ofOption (iter_swap arr first a)
  else do
    let ac ← callT comp arr xa xc
    if ac then Outcome.ofOption (iter_swap arr first a)
    else do
      let bc ← callT comp arr xb xc
      if bc then Outcome.ofOption (iter_swap arr first c)
      else Outcome.ofOption (iter_swap arr first b)

/-- The loop `while (comp(*first, *pivot)) ++first;` of `unsafe_partition`. -/
def partition_up : Nat → List α → Nat → Nat → Outcome (List α) Nat
  | 0, _, _, _ => Outcome.fault
  | fuel + 1, arr, first, pivot => do
    let x ← rdT arr first
    let p ← rdT arr pivot
    let c ← callT comp arr x p
    if c then partition_up fuel arr (first + 1) pivot
    else pure first

/-- The loop `while (comp(*pivot, *last)) --last;` of `unsafe_partition`. -/
def partition_down : Nat → List α → Nat → Nat → Outcome (List α) Nat
  | 0, _, _, _ => Outcome.fault
  | fuel + 1, arr, last, pivot => do
    let p ← rdT arr pivot
    let x ← rdT arr last
    let c ← callT comp arr p x
    if c then
      if last = 0 then Outcome.fault else partition_down fuel arr (last - 1) pivot
    else pure last

/-- `unsafe_partition(first, last, pivot, comp)` (lines 144-160). -/
def unsafe_partition : Nat → List α → Nat → Nat → Nat → Outcome (List α) (List α × Nat)
  | 0, _, _, _, _ => Outcome.fault
  | fuel + 1, arr, first, last, pivot => do
    let first ← partition_up comp (arr.length + 1) arr first pivot
    if last = 0 then Outcome.fault
    else do
      let last ← partition_down comp (arr.length + 1) arr (last - 1) pivot
      if first < last then do
        let arr ← Outcome.ofOption (iter_swap arr first last)
        unsafe_partition fuel arr (first + 1) last pivot
      else pure (arr, first)

/-- `unsafe_partition_pivot(first, last, comp)` (lines 166-182). -/
def unsafe_partition_pivot (arr : List α) (first last : Nat) :
    Outcome (List α) (List α × Nat) :=
  if last = 0 then Outcome.fault
  else do
    let middle := first + (last - first) / 2
    let arr ← move_median_to_first comp arr first (first + 1) middle (last - 1)
    unsafe_partition comp (last - first + 1) arr (first + 1) last first

/-- `partial_sort_impl(first, middle, last, comp)` (lines 184-190) on the range
`[first, last)` of the array. -/
def partial_sort_impl (arr : List α) (first middle last : Nat) : Outcome (List α) (List α) :=
  if first ≤ middle ∧ middle ≤ last ∧ last ≤ arr.length then
    Outcome.within (arr.take first) (arr.drop last)
      (partial_sort comp ((arr.drop first).take (last - first)) (middle - first))
  else Outcome.fault

/-- `introsort_loop(first, last, depth_limit, comp)` (lines 192-209), with the counter as in
`introsort_loop` above. -/
def introsort_loop {σ : Type} (isZero : σ → Bool) (dec : σ → σ) :
    Nat → List α → Nat → Nat → σ → Outcome (List α) (List α)
  | 0, _, _, _, _ => Outcome.fault
  | fuel + 1, arr, first, last, depth_limit =>
    if last - first > S_threshold then
      if isZero depth_limit then partial_sort_impl comp arr first last last
      else do
        let depth_limit := dec depth_limit
        let (arr, cut) ← unsafe_partition_pivot comp arr first last
        let arr ← introsort_loop isZero dec fuel arr cut last depth_limit
        introsort_loop isZero dec fuel arr first cut depth_limit
    else pure arr

/-- The body of the loop of `insertion_sort` (lines 109-115) for the iterator `it`. -/
def insertion_sort_step (arr : List α) (first it : Nat) : Outcome (List α) (List α) := do
  let x ← rdT arr it
  let f ← rdT arr first
  let c ← callT comp arr x f
  if c then do
    let r ← Outcome.ofOption (move_backward arr first it (it + 1))
    wrT r.1 first x
  else unsafe_linear_insert comp arr it

/-- The loop of `insertion_sort` (line 105), with the number of turns left as its first
argument. -/
def insertion_sort_loop : Nat → List α → Nat → Nat → Outcome (List α) (List α)
  | 0, arr, _, _ => pure arr
  | n + 1, arr, first, it => do
    let arr ← insertion_sort_step comp arr first it
    insertion_sort_loop n arr first (it + 1)

/-- `insertion_sort(first, last, comp)` (lines 100-118). -/
def insertion_sort (arr : List α) (first last : Nat) : Outcome (List α) (List α) :=
  if last < first then Outcome.fault
  else if first ≠ last then insertion_sort_loop comp (last - (first + 1)) arr first (first + 1)
  else pure arr

/-- The loop of `unsafe_insertion_sort` (lines 123-124), with the number of turns left as
its first argument. -/
def unsafe_insertion_sort_loop : Nat → List α → Nat → Outcome (List α) (List α)
  | 0, arr, _ => pure arr
  | n + 1, arr, it => do
    let arr ← unsafe_linear_insert comp arr it
    unsafe_insertion_sort_loop n arr (it + 1)

/-- `unsafe_insertion_sort(first, last, comp)` (lines 120-125). -/
def unsafe_insertion_sort (arr : List α) (first last : Nat) : Outcome (List α) (List α) :=
  if last < first then Outcome.fault
  else unsafe_insertion_sort_loop comp (last - first) arr first

/-- `final_insertion_sort(first, last, comp)` (lines 129-140). -/
def final_insertion_sort (arr : List α) (first last : Nat) : Outcome (List α) (List α) :=
  if last - first > S_threshold then do
    let arr ← insertion_sort comp arr first (first + S_threshold)
    unsafe_insertion_sort comp arr (first + S_threshold) last
  else insertion_sort comp arr first last

/-- `sort(first, last, comp)` (`algorithm.h`, lines 982-989) on the whole array, with the
counter of `introsort_loop` as in `sort` above. -/
def sort {σ : Type} (isZero : σ → Bool) (dec : σ → σ) (limit : Nat → σ) (arr : List α) :
    Outcome (List α) (List α) :=
  if arr.length ≠ 0 then do
    let arr ← introsort_loop comp isZero dec (arr.length + 1) arr 0 arr.length
      (limit arr.length)
    final_insertion_sort comp arr 0 arr.length
  else pure arr

end throwing


/-! ## Specification vocabulary for a range left by an exception -/

set_option autoImplicit false

/-- The range `b` holds the elements of `orig` up to one position: it is a rearrangement of
`orig`, or it becomes one when the value `v` is written at one index `i` of it. In the
second case `b` has the length of `orig`, the value `v` of `orig` may be missing from `b`
and the value that `b` holds at `i` may occur in `b` once more than in `orig`. -/
def OneOff {α : Type} (orig b : List α) : Prop :=
  b.Perm orig ∨ ∃ i v, i < b.length ∧ (b.set i v).Perm orig

/-- The result satisfies `P` when the call returns and the range satisfies `Q` when an
exception leaves the call. -/
def Outcome.Sat {σ β : Type} (P : β → Prop) (Q : σ → Prop) : Outcome σ β → Prop
  | Outcome.ret x => P x
  | Outcome.thrown s => Q s
  | Outcome.fault => True

section basics

variable {α : Type}

/-- Evaluate the first action of a bind before looking at its continuation. -/
@[congr] theorem option_bind_congr_left {β γ : Type} {o o2 : Option β} (f : β → Option γ)
    (h : o = o2) : o.bind f = o2.bind f := by rw [h]

theorem rd_of_ne {m : Mem} {p : Ptr} (h : p ≠ 0) : rd m p = some (m p) := by
  simp [rd, h]

theorem lastD_append_cons {β : Type} (l1 : List β) (a : β) (l2 : List β) (d : β) :
    lastD (l1 ++ a :: l2) d = lastD l2 a := by
  induction l1 generalizing d with
  | nil => rfl
  | cons b l1 ih => exact ih b

theorem lastD_mem {β : Type} (l : List β) (d : β) : lastD l d = d ∧ l = [] ∨ lastD l d ∈ l := by
  induction l generalizing d with
  | nil => exact Or.inl ⟨rfl, rfl⟩
  | cons a l ih =>
    right
    rcases ih a with ⟨h1, h2⟩ | h
    · simp [lastD, h1]
    · simp [lastD, h]

theorem lastD_ne_head {β : Type} (a b : β) (l : List β) (h : (a :: b :: l).Nodup) :
    lastD (b :: l) a ≠ a := by
  intro e
  rcases lastD_mem (b :: l) a with ⟨-, h2⟩ | h2
  · simp at h2
  · rw [e] at h2
    exact (List.nodup_cons.1 h).1 h2

theorem firstD_append_cons {β : Type} (l1 : List β) (a : β) (l2 : List β) (d : β) :
    firstD (l1 ++ a :: l2) d = firstD l1 a := by
  cases l1 <;> rfl

theorem firstD_append {β : Type} (l1 l2 : List β) (d : β) :
    firstD (l1 ++ l2) d = firstD l1 (firstD l2 d) := by
  cases l1 <;> rfl

theorem lastD_append {β : Type} (l1 l2 : List β) (d : β) :
    lastD (l1 ++ l2) d = lastD l2 (lastD l1 d) := by
  induction l1 generalizing d with
  | nil => rfl
  | cons b l1 ih => exact ih b

@[simp] theorem firstD_nil {β : Type} (d : β) : firstD ([] : List β) d = d := rfl

@[simp] theorem firstD_cons {β : Type} (a : β) (l : List β) (d : β) : firstD (a :: l) d = a := rfl

@[simp] theorem lastD_nil {β : Type} (d : β) : lastD ([] : List β) d = d := rfl

@[simp] theorem lastD_cons {β : Type} (a : β) (l : List β) (d : β) :
    lastD (a :: l) d = lastD l a := rfl

@[simp] theorem ctxParent_nil (hdr : Ptr) : ctxParent hdr ([] : List (Frame α)) = hdr := rfl

@[simp] theorem ctxParent_cons (hdr : Ptr) (f : Frame α) (ctx : List (Frame α)) :
    ctxParent hdr (f :: ctx) = f.ptr := rfl

@[simp] theorem Tr.ptr_nil : (Tr.nil : Tr α).ptr = 0 := rfl

@[simp] theorem Tr.ptr_node (c : rbtree_color) (l : Tr α) (p : Ptr) (v : α) (r : Tr α) :
    (Tr.node c l p v r).ptr = p := rfl

@[simp] theorem Tr.ptrs_nil : (Tr.nil : Tr α).ptrs = [] := rfl

@[simp] theorem Frame.ptr_L (c : rbtree_color) (p : Ptr) (v : α) (r : Tr α) :
    (Frame.L c p v r).ptr = p := rfl

@[simp] theorem Frame.ptr_R (c : rbtree_color) (l : Tr α) (p : Ptr) (v : α) :
    (Frame.R c l p v).ptr = p := rfl

theorem upd_ne_l {m : Mem} {a b : Ptr} {n : rbtree_node_base} (h : a ≠ b) :
    Function.update m a n b = m b := Function.update_noteq (Ne.symm h) _ _

theorem upd_ne_r {m : Mem} {a b : Ptr} {n : rbtree_node_base} (h : b ≠ a) :
    Function.update m a n b = m b := Function.update_noteq h _ _

theorem Tr.ptrs_eq_map_elems (T : Tr α) : T.ptrs = T.elems.map Prod.fst := by
  induction T with
  | nil => rfl
  | node c l p v r ihl ihr => simp [Tr.ptrs, Tr.elems, ihl, ihr]

theorem Tr.vals_eq_map_elems (T : Tr α) : T.vals = T.elems.map Prod.snd := by
  induction T with
  | nil => rfl
  | node c l p v r ihl ihr => simp [Tr.vals, Tr.elems, ihl, ihr]

theorem Tr.ptrs_plug (ctx : List (Frame α)) (t : Tr α) :
    (plug ctx t).ptrs = ctxBefore ctx ++ t.ptrs ++ ctxAfter ctx := by
  induction ctx generalizing t with
  | nil => simp [plug, ctxBefore, ctxAfter]
  | cons f ctx ih =>
    cases f <;> simp [plug, ctxBefore, ctxAfter, ih, Frame.fill, Tr.ptrs]

theorem Tr.ptr_plug_cons (f : Frame α) (ctx : List (Frame α)) (t : Tr α) :
    (plug (f :: ctx) t).ptr = (plug ctx (f.fill t)).ptr := rfl

theorem Tr.ptr_fill (f : Frame α) (t : Tr α) : (f.fill t).ptr = f.ptr := by
  cases f <;> rfl

theorem Tr.ptr_plug_ne_nil (f : Frame α) (ctx : List (Frame α)) (t t2 : Tr α) :
    (plug (f :: ctx) t).ptr = (plug (f :: ctx) t2).ptr := by
  induction ctx generalizing f t t2 with
  | nil => simp [plug, Tr.ptr_fill]
  | cons g ctx ih =>
    show (plug (g :: ctx) (f.fill t)).ptr = (plug (g :: ctx) (f.fill t2)).ptr
    exact ih g _ _

theorem Tr.ptr_plug_mem (f : Frame α) (ctx : List (Frame α)) (t : Tr α) :
    (plug (f :: ctx) t).ptr ∈ ctxBefore (f :: ctx) ++ ctxAfter (f :: ctx) := by
  induction ctx generalizing f t with
  | nil => cases f <;> simp [plug, Frame.fill, ctxBefore, ctxAfter]
  | cons g ctx ih =>
    have := ih g (f.fill t)
    rw [Tr.ptr_plug_cons]
    simp only [List.mem_append] at this ⊢
    cases f <;> cases g <;> simp [ctxBefore, ctxAfter] at this ⊢ <;> tauto

theorem Tr.ptr_plug_ne_of_mem (f : Frame α) (ctx : List (Frame α)) (t : Tr α) (S : List Ptr)
    (hnd : (ctxBefore (f :: ctx) ++ S ++ ctxAfter (f :: ctx)).Nodup) {x : Ptr} (hx : x ∈ S) :
    x ≠ (plug (f :: ctx) t).ptr := by
  intro e
  have hmem := Tr.ptr_plug_mem f ctx t
  rw [← e] at hmem
  rw [List.append_assoc] at hnd
  have h1 := List.nodup_append.1 hnd
  have h2 := List.nodup_append.1 h1.2.1
  rcases List.mem_append.1 hmem with hm | hm
  · exact List.disjoint_left.1 h1.2.2 hm (List.mem_append_left _ hx)
  · exact List.disjoint_left.1 h2.2.2 hx hm

theorem TreeAt_ptr_ne_zero {m : Mem} {val : Ptr → Option α} {T : Tr α} {par : Ptr}
    (h : TreeAt m val T par) : ∀ q ∈ T.ptrs, q ≠ 0 := by
  induction T generalizing par with
  | nil => simp [Tr.ptrs]
  | node c l p v r ihl ihr =>
    obtain ⟨hp, -, -, hl, hr⟩ := h
    intro q hq
    simp only [Tr.ptrs, List.mem_append, List.mem_cons] at hq
    rcases hq with hq | rfl | hq
    · exact ihl hl q hq
    · exact hp
    · exact ihr hr q hq

theorem Tr.ptr_mem_or_nil (T : Tr α) : T = Tr.nil ∨ T.ptr ∈ T.ptrs := by
  cases T <;> simp [Tr.ptr, Tr.ptrs]

theorem TreeAt_congr {m m2 : Mem} {val val2 : Ptr → Option α} {T : Tr α} {par : Ptr}
    (h : TreeAt m val T par) (hm : ∀ q ∈ T.ptrs, m2 q = m q ∧ val2 q = val q) :
    TreeAt m2 val2 T par := by
  induction T generalizing par with
  | nil => trivial
  | node c l p v r ihl ihr =>
    obtain ⟨hp, hrec, hv, hl, hr⟩ := h
    have hpm := hm p (by simp [Tr.ptrs])
    refine ⟨hp, by rw [hpm.1, hrec], by rw [hpm.2, hv], ihl hl ?_, ihr hr ?_⟩
    · intro q hq; exact hm q (by simp [Tr.ptrs, hq])
    · intro q hq; exact hm q (by simp [Tr.ptrs, hq])

/-- Changing only the parent link of the root of a laid-out subtree re-parents it. -/
theorem TreeAt_reparent {m m2 : Mem} {val val2 : Ptr → Option α} {T : Tr α} {par par2 : Ptr}
    (h : TreeAt m val T par) (hnd : T.ptrs.Nodup)
    (hm : ∀ q ∈ T.ptrs, q ≠ T.ptr → m2 q = m q)
    (hroot : T.ptr ≠ 0 → m2 T.ptr = { m T.ptr with mParent := par2 })
    (hv : ∀ q ∈ T.ptrs, val2 q = val q) :
    TreeAt m2 val2 T par2 := by
  cases T with
  | nil => trivial
  | node c l p v r =>
    obtain ⟨hp, hrec, hval, hl, hr⟩ := h
    simp only [Tr.ptrs, List.nodup_append, List.nodup_cons, List.mem_cons] at hnd
    obtain ⟨hndl, ⟨hpr, hndr⟩, hdisj⟩ := hnd
    have hpl : p ∉ l.ptrs := fun hq => hdisj hq (by simp)
    refine ⟨hp, ?_, ?_, ?_, ?_⟩
    · have := hroot hp
      simp only [Tr.ptr] at this
      rw [this, hrec]
    · rw [hv p (by simp [Tr.ptrs]), hval]
    · apply TreeAt_congr hl
      intro q hq
      have hqp : q ≠ p := fun e => hpl (e ▸ hq)
      exact ⟨hm q (by simp [Tr.ptrs, hq]) hqp, hv q (by simp [Tr.ptrs, hq])⟩
    · apply TreeAt_congr hr
      intro q hq
      have hqp : q ≠ p := fun e => hpr (e ▸ hq)
      exact ⟨hm q (by simp [Tr.ptrs, hq]) hqp, hv q (by simp [Tr.ptrs, hq])⟩

theorem CtxAt_congr {m m2 : Mem} {val val2 : Ptr → Option α} {hdr : Ptr}
    {ctx : List (Frame α)} {hole : Ptr}
    (h : CtxAt m val hdr ctx hole)
    (hm : ∀ q ∈ ctxBefore ctx ++ ctxAfter ctx, m2 q = m q ∧ val2 q = val q) :
    CtxAt m2 val2 hdr ctx hole := by
  induction ctx generalizing hole with
  | nil => trivial
  | cons f ctx ih =>
    cases f with
    | L c p v r =>
      obtain ⟨hp, hrec, hv, hr, hc⟩ := h
      have hpm := hm p (by simp [ctxAfter])
      refine ⟨hp, by rw [hpm.1, hrec], by rw [hpm.2, hv], TreeAt_congr hr ?_, ih hc ?_⟩
      · intro q hq; exact hm q (by simp [ctxAfter, hq])
      · intro q hq
        apply hm q
        simp only [List.mem_append] at hq
        rcases hq with hq | hq <;> simp [ctxAfter, ctxBefore, hq]
    | R c l p v =>
      obtain ⟨hp, hrec, hv, hl, hc⟩ := h
      have hpm := hm p (by simp [ctxBefore])
      refine ⟨hp, by rw [hpm.1, hrec], by rw [hpm.2, hv], TreeAt_congr hl ?_, ih hc ?_⟩
      · intro q hq; exact hm q (by simp [ctxBefore, hq])
      · intro q hq
        apply hm q
        simp only [List.mem_append] at hq
        rcases hq with hq | hq <;> simp [ctxAfter, ctxBefore, hq]

/-- A layout of a plugged shape is a layout of the path together with one of the subtree. -/
theorem TreeAt_plug {m : Mem} {val : Ptr → Option α} {hdr : Ptr}
    (ctx : List (Frame α)) (t : Tr α) :
    TreeAt m val (plug ctx t) hdr ↔
      CtxAt m val hdr ctx t.ptr ∧ TreeAt m val t (ctxParent hdr ctx) := by
  induction ctx generalizing t with
  | nil => simp [plug, CtxAt, ctxParent]
  | cons f ctx ih =>
    cases f with
    | L c p v r =>
      simp only [plug, Frame.fill, ih, TreeAt, CtxAt, ctxParent, Frame.ptr, Tr.ptr]
      tauto
    | R c l p v =>
      simp only [plug, Frame.fill, ih, TreeAt, CtxAt, ctxParent, Frame.ptr, Tr.ptr]
      tauto

/-- Every node of a shape sits at the hole of some path. -/
theorem Tr.exists_plug_of_mem (T : Tr α) (q : Ptr) (hq : q ∈ T.ptrs) :
    ∃ ctx c l v r, T = plug ctx (Tr.node c l q v r) := by
  induction T with
  | nil => simp [Tr.ptrs] at hq
  | node c l p v r ihl ihr =>
    simp only [Tr.ptrs, List.mem_append, List.mem_cons] at hq
    rcases hq with hq | rfl | hq
    · obtain ⟨ctx, c2, l2, v2, r2, e⟩ := ihl hq
      refine ⟨ctx ++ [Frame.L c p v r], c2, l2, v2, r2, ?_⟩
      rw [e]
      clear e ihl ihr hq
      generalize Tr.node c2 l2 q v2 r2 = s
      induction ctx generalizing s with
      | nil => rfl
      | cons f ctx ih => exact ih (f.fill s)
    · exact ⟨[], c, l, v, r, rfl⟩
    · obtain ⟨ctx, c2, l2, v2, r2, e⟩ := ihr hq
      refine ⟨ctx ++ [Frame.R c l p v], c2, l2, v2, r2, ?_⟩
      rw [e]
      clear e ihl ihr hq
      generalize Tr.node c2 l2 q v2 r2 = s
      induction ctx generalizing s with
      | nil => rfl
      | cons f ctx ih => exact ih (f.fill s)

end basics


/-! ## Minimum, maximum and iterator stepping on a laid-out tree -/

section stepping

variable {α : Type}

theorem getLast?_cons_append_cons {β : Type} (a : β) (l1 : List β) (b : β) (l2 : List β) :
    (a :: (l1 ++ b :: l2)).getLast? = (b :: l2).getLast? := by
  rw [← List.cons_append, List.getLast?_append_cons]

theorem rbtree_min_spec {m : Mem} {val : Ptr → Option α} (T : Tr α) (par : Ptr)
    (h : TreeAt m val T par) (hT : T ≠ Tr.nil) (fuel : Nat) (hf : T.ptrs.length ≤ fuel) :
    rbtree_min m fuel T.ptr = T.ptrs.head? := by
  induction T generalizing par fuel with
  | nil => exact absurd rfl hT
  | node c l p v r ihl _ =>
    obtain ⟨hp, hrec, -, hl, -⟩ := h
    cases fuel with
    | zero => simp [Tr.ptrs] at hf
    | succ f =>
      simp only [rbtree_min, Tr.ptr, rd_of_ne hp, hrec, Option.bind_eq_bind, Option.some_bind]
      cases l with
      | nil => simp [Tr.ptr, Tr.ptrs]
      | node c2 l2 p2 v2 r2 =>
        have hp2 : p2 ≠ 0 := hl.1
        have := ihl p hl (by simp) f (by simp [Tr.ptrs] at hf ⊢; omega)
        simp only [Tr.ptr] at this
        simp [Tr.ptr, hp2, this, Tr.ptrs]

theorem rbtree_max_spec {m : Mem} {val : Ptr → Option α} (T : Tr α) (par : Ptr)
    (h : TreeAt m val T par) (hT : T ≠ Tr.nil) (fuel : Nat) (hf : T.ptrs.length ≤ fuel) :
    rbtree_max m fuel T.ptr = T.ptrs.getLast? := by
  induction T generalizing par fuel with
  | nil => exact absurd rfl hT
  | node c l p v r _ ihr =>
    obtain ⟨hp, hrec, -, -, hr⟩ := h
    cases fuel with
    | zero => simp [Tr.ptrs] at hf
    | succ f =>
      simp only [rbtree_max, Tr.ptr, rd_of_ne hp, hrec, Option.bind_eq_bind, Option.some_bind]
      cases r with
      | nil => simp [Tr.ptr, Tr.ptrs, List.getLast?_append_cons]
      | node c2 l2 p2 v2 r2 =>
        have hp2 : p2 ≠ 0 := hr.1
        have := ihr p hr (by simp) f (by simp [Tr.ptrs] at hf ⊢; omega)
        simp only [Tr.ptr] at this
        simp only [Tr.ptr, ne_eq, hp2, not_false_eq_true, ↓reduceIte, this]
        simp only [Tr.ptrs, List.getLast?_append_cons, List.getLast?_cons_cons,
          getLast?_cons_append_cons]

theorem Tr.ptr_ne_of_not_mem (T : Tr α) {q : Ptr} (hq : q ≠ 0) (hn : q ∉ T.ptrs) :
    T.ptr ≠ q := by
  cases T with
  | nil => exact fun e => hq e.symm
  | node c l p v r =>
    intro e
    apply hn
    simp [Tr.ptrs, Tr.ptr] at e ⊢
    simp [e]

/-- What a layout of a whole tree says about a node at the hole of a path. -/
theorem MemHolds.at_node {m : Mem} {val : Ptr → Option α} {hdr : Ptr}
    {ctx : List (Frame α)} {c : rbtree_color} {l r : Tr α} {x : Ptr} {v : α}
    (h : MemHolds m val hdr (plug ctx (Tr.node c l x v r))) :
    CtxAt m val hdr ctx x ∧ x ≠ 0 ∧
    m x = { mRight := r.ptr, mLeft := l.ptr, mParent := ctxParent hdr ctx, mColor := c } ∧
    val x = some v ∧ TreeAt m val l x ∧ TreeAt m val r x ∧
    (ctxBefore ctx ++ (l.ptrs ++ x :: r.ptrs) ++ ctxAfter ctx).Nodup ∧
    hdr ∉ ctxBefore ctx ++ (l.ptrs ++ x :: r.ptrs) ++ ctxAfter ctx := by
  have ht := (TreeAt_plug ctx _).1 h.tree
  have hnd := h.nodup
  have hn := h.hdr_notin
  rw [Tr.ptrs_plug] at hnd hn
  obtain ⟨hc, hx, hrec, hv, hl, hr⟩ := ht
  exact ⟨hc, hx, hrec, hv, hl, hr, hnd, hn⟩

theorem incClimb_spec {m : Mem} {val : Ptr → Option α} {hdr : Ptr}
    (ctx : List (Frame α)) (c : rbtree_color) (l r : Tr α) (x : Ptr) (v : α)
    (h : MemHolds m val hdr (plug ctx (Tr.node c l x v r)))
    (fuel : Nat) (hf : ctx.length + 2 ≤ fuel) :
    ∃ x2 y2, incClimb m fuel x (ctxParent hdr ctx) = some (x2, y2) ∧ x2 ≠ 0 ∧
      (if (m x2).mRight ≠ y2 then y2 else x2) = firstD (ctxAfter ctx) hdr := by
  induction ctx generalizing c l r x v fuel with
  | nil =>
    obtain ⟨-, hx, hrec, -, -, hr, hnd, hn⟩ := h.at_node
    have hh := h.hdr
    simp only [plug, Tr.ptrs, Tr.ptr, lastD_append_cons] at hh
    simp only [ctxBefore, ctxAfter, List.nil_append, List.append_nil] at hnd hn
    obtain ⟨f, rfl⟩ : ∃ f, fuel = f + 2 := ⟨fuel - 2, by simp at hf; omega⟩
    cases r with
    | nil =>
      refine ⟨hdr, x, ?_, h.hdr_ne, ?_⟩
      · simp [incClimb, rd_of_ne h.hdr_ne, rd_of_ne hx, hh, hrec, Tr.ptrs, Tr.ptr,
          lastD, h.hdr_ne]
      · simp [hh, Tr.ptrs, lastD, ctxAfter]
    | node c2 l2 p2 v2 r2 =>
      have hlast : lastD (Tr.node c2 l2 p2 v2 r2).ptrs x ≠ x := by
        rcases lastD_mem (Tr.node c2 l2 p2 v2 r2).ptrs x with ⟨-, h2⟩ | h2
        · simp [Tr.ptrs] at h2
        · intro e
          rw [e] at h2
          have := (List.nodup_append.1 hnd).2.1
          exact (List.nodup_cons.1 this).1 h2
      refine ⟨x, hdr, ?_, hx, ?_⟩
      · simp [incClimb, rd_of_ne h.hdr_ne, hh, Ne.symm hlast]
      · have : hdr ≠ p2 := by
          intro e
          apply hn
          simp [Tr.ptrs, e]
        simp [hrec, Tr.ptr, ctxAfter, Ne.symm this]
  | cons f ctx ih =>
    obtain ⟨hc, hx, hrec, -, -, hr, hnd, hn⟩ := h.at_node
    obtain ⟨g, rfl⟩ : ∃ g, fuel = g + 1 := ⟨fuel - 1, by simp at hf; omega⟩
    cases f with
    | L c2 p v2 r2 =>
      obtain ⟨hp, hprec, -, -, -⟩ := hc
      simp only [ctxBefore, ctxAfter, List.nodup_append, List.nodup_cons,
        List.disjoint_cons_left, List.disjoint_cons_right, List.disjoint_append_left,
        List.disjoint_append_right, List.mem_append, List.mem_cons, not_or] at hnd hn
      have hxr2 : r2.ptr ≠ x := Tr.ptr_ne_of_not_mem _ hx (by tauto)
      have hpr : r.ptr ≠ p := Tr.ptr_ne_of_not_mem _ hp (by tauto)
      refine ⟨x, p, ?_, hx, ?_⟩
      · simp [incClimb, Frame.ptr, rd_of_ne hp, hprec, Ne.symm hxr2]
      · simp [hrec, hpr, ctxAfter]
    | R c2 l2 p v2 =>
      obtain ⟨hp, hprec, -, -, -⟩ := hc
      have h2 : MemHolds m val hdr (plug ctx (Tr.node c2 l2 p v2 (Tr.node c l x v r))) := h
      obtain ⟨x2, y2, e, hx2, hres⟩ := ih c2 l2 _ p v2 h2 g (by simp at hf ⊢; omega)
      refine ⟨x2, y2, ?_, hx2, ?_⟩
      · simp [incClimb, Frame.ptr, rd_of_ne hp, hprec, e]
      · simpa [ctxAfter] using hres

end stepping


/-! ## Rotations on a laid-out tree -/

section rotations

variable {α : Type}

theorem setRight_of_ne {m : Mem} {p : Ptr} (v : Ptr) (h : p ≠ 0) :
    setRight m p v = some (Function.update m p { m p with mRight := v }) := by
  simp [setRight, h]

theorem setLeft_of_ne {m : Mem} {p : Ptr} (v : Ptr) (h : p ≠ 0) :
    setLeft m p v = some (Function.update m p { m p with mLeft := v }) := by
  simp [setLeft, h]

theorem setParent_of_ne {m : Mem} {p : Ptr} (v : Ptr) (h : p ≠ 0) :
    setParent m p v = some (Function.update m p { m p with mParent := v }) := by
  simp [setParent, h]

theorem setColor_of_ne {m : Mem} {p : Ptr} (c : rbtree_color) (h : p ≠ 0) :
    setColor m p c = some (Function.update m p { m p with mColor := c }) := by
  simp [setColor, h]

theorem TreeAt_update_of_not_mem {m : Mem} {val : Ptr → Option α} {T : Tr α} {par q : Ptr}
    {n : rbtree_node_base} (hq : q ∉ T.ptrs) :
    TreeAt (Function.update m q n) val T par ↔ TreeAt m val T par := by
  constructor
  · intro h
    apply TreeAt_congr h
    intro p hp
    have : p ≠ q := fun e => hq (e ▸ hp)
    simp [Function.update_noteq this]
  · intro h
    apply TreeAt_congr h
    intro p hp
    have : p ≠ q := fun e => hq (e ▸ hp)
    simp [Function.update_noteq this]

theorem CtxAt_update_of_not_mem {m : Mem} {val : Ptr → Option α} {hdr : Ptr}
    {ctx : List (Frame α)} {hole q : Ptr} {n : rbtree_node_base}
    (hq1 : q ∉ ctxBefore ctx) (hq2 : q ∉ ctxAfter ctx) :
    CtxAt (Function.update m q n) val hdr ctx hole ↔ CtxAt m val hdr ctx hole := by
  constructor
  · intro h
    apply CtxAt_congr h
    intro p hp
    have : p ≠ q := by
      intro e; subst e
      simp only [List.mem_append] at hp
      tauto
    simp [Function.update_noteq this]
  · intro h
    apply CtxAt_congr h
    intro p hp
    have : p ≠ q := by
      intro e; subst e
      simp only [List.mem_append] at hp
      tauto
    simp [Function.update_noteq this]

/-- Re-parenting the root of a laid-out subtree. -/
theorem TreeAt_update_parent {m : Mem} {val : Ptr → Option α} {T : Tr α} {par par2 : Ptr}
    (h : TreeAt m val T par) (hnd : T.ptrs.Nodup) (hT : T.ptr ≠ 0) :
    TreeAt (Function.update m T.ptr { m T.ptr with mParent := par2 }) val T par2 := by
  apply TreeAt_reparent h hnd
  · intro q _ hq
    simp [Function.update_noteq hq]
  · intro _
    simp
  · intro q _
    rfl

set_option maxHeartbeats 4000000 in
theorem rotate_left_spec {m : Mem} {val : Ptr → Option α} {hdr : Ptr}
    (ctx : List (Frame α)) (cx cy : rbtree_color) (a b c : Tr α) (x y : Ptr) (vx vy : α)
    (h : MemHolds m val hdr (plug ctx (Tr.node cx a x vx (Tr.node cy b y vy c)))) :
    ∃ m2, rbtree_rotate_left m x hdr = some m2 ∧
      MemHolds m2 val hdr (plug ctx (Tr.node cy (Tr.node cx a x vx b) y vy c)) := by
  obtain ⟨hc, hx, hrec, hvx, ha, hr, hnd, hn⟩ := h.at_node
  obtain ⟨hy, hyrec, hvy, hb, hcT⟩ := hr
  have hh := h.hdr
  have hhdr := h.hdr_ne
  have hpt : (plug ctx (Tr.node cy (Tr.node cx a x vx b) y vy c)).ptrs
      = (plug ctx (Tr.node cx a x vx (Tr.node cy b y vy c))).ptrs := by
    simp [Tr.ptrs_plug, Tr.ptrs]
  have hnd0 := h.nodup
  have hn0 := h.hdr_notin
  cases ctx with
  | nil =>
    simp only [plug, Tr.ptr_node, ctxParent_nil] at hh hrec hpt ⊢
    cases b with
    | nil =>
      simp only [Tr.ptrs, List.nodup_append, List.nodup_cons, List.disjoint_cons_left,
        List.disjoint_cons_right, List.disjoint_append_left, List.disjoint_append_right,
        List.mem_append, List.mem_cons, not_or] at hnd hn
      simp only [rbtree_rotate_left, rbtree_is_left_child, ne_eq, not_false_eq_true,
          not_true_eq_false, rd_of_ne, setRight_of_ne, setLeft_of_ne, setParent_of_ne,
          Option.bind_eq_bind, Option.some_bind, Option.pure_def, ite_not, ↓reduceIte,
          Function.update_same, Function.update_noteq, upd_ne_l, upd_ne_r, Tr.ptr_node,
          Tr.ptr_nil, decide_False, decide_True, Bool.false_eq_true, Option.some.injEq,
          Bool.not_true, Bool.not_false,
          exists_eq_left', hh, hhdr, hn, hnd, hrec, hx, hy, hyrec]
      refine ⟨hhdr, ?_, by rw [hpt]; exact hnd0, by rw [hpt]; exact hn0, ?_⟩
      · simp only [TreeAt, TreeAt_update_of_not_mem, ne_eq,
            not_false_eq_true, Function.update_same, Function.update_noteq, upd_ne_l, upd_ne_r,
            Tr.ptr_node, Tr.ptr_nil, and_self, and_true, true_and, hcT, ha, hn, hnd, hvx, hvy, hx, hy]
      · rw [hpt]
        simp only [ne_eq, hn, hnd, not_false_eq_true, Function.update_noteq, Function.update_same,
            upd_ne_l, upd_ne_r, hh, Tr.ptr_node]
    | node cb b1 pb vb b2 =>
      obtain ⟨hpb, hbrec, hvb, hb1, hb2⟩ := hb
      simp only [Tr.ptrs, List.nodup_append, List.nodup_cons, List.disjoint_cons_left,
        List.disjoint_cons_right, List.disjoint_append_left, List.disjoint_append_right,
        List.mem_append, List.mem_cons, not_or] at hnd hn
      simp only [rbtree_rotate_left, rbtree_is_left_child, ne_eq, not_false_eq_true,
          not_true_eq_false, rd_of_ne, setRight_of_ne, setLeft_of_ne, setParent_of_ne,
          Option.bind_eq_bind, Option.some_bind, Option.pure_def, ite_not, ↓reduceIte,
          Function.update_same, Function.update_noteq, upd_ne_l, upd_ne_r, Tr.ptr_node,
          Tr.ptr_nil, decide_False, decide_True, Bool.false_eq_true, Option.some.injEq,
          Bool.not_true, Bool.not_false,
          exists_eq_left', hbrec, hh, hhdr, hn, hnd, hpb, hrec, hx, hy, hyrec]
      refine ⟨hhdr, ?_, by rw [hpt]; exact hnd0, by rw [hpt]; exact hn0, ?_⟩
      · simp only [TreeAt, TreeAt_update_of_not_mem, ne_eq,
            not_false_eq_true, Function.update_same, Function.update_noteq, upd_ne_l, upd_ne_r,
            Tr.ptr_node, Tr.ptr_nil, and_self, and_true, true_and, hcT, ha, hb1, hb2, hbrec, hn, hnd, hpb, hvb, hvx, hvy, hx, hy]
      · rw [hpt]
        simp only [ne_eq, hn, hnd, not_false_eq_true, Function.update_noteq, Function.update_same,
            upd_ne_l, upd_ne_r, hh, Tr.ptr_node]
  | cons f ctx =>
    have hxroot := Tr.ptr_plug_ne_of_mem f ctx (Tr.node cx a x vx (Tr.node cy b y vy c)) _ hnd
      (show x ∈ (Tr.node cx a x vx (Tr.node cy b y vy c)).ptrs by simp [Tr.ptrs])
    have hpe := Tr.ptr_plug_ne_nil f ctx (Tr.node cy (Tr.node cx a x vx b) y vy c)
      (Tr.node cx a x vx (Tr.node cy b y vy c))
    generalize (plug (f :: ctx) (Tr.node cx a x vx (Tr.node cy b y vy c))).ptr = root
      at hxroot hh hpe
    cases f with
    | L cp p vp rp =>
      obtain ⟨hp, hprec, hvp, hrp, hctx⟩ := hc
      cases b with
      | nil =>
        simp only [ctxBefore, ctxAfter, Tr.ptrs, List.nodup_append, List.nodup_cons,
          List.disjoint_cons_left,
          List.disjoint_cons_right, List.disjoint_append_left, List.disjoint_append_right,
          List.mem_append, List.mem_cons, not_or, ctxParent_cons, Frame.ptr]
          at hnd hn hrec
        simp only [rbtree_rotate_left, rbtree_is_left_child, ne_eq, not_false_eq_true,
          not_true_eq_false, rd_of_ne, setRight_of_ne, setLeft_of_ne, setParent_of_ne,
          Option.bind_eq_bind, Option.some_bind, Option.pure_def, ite_not, ↓reduceIte,
          Function.update_same, Function.update_noteq, upd_ne_l, upd_ne_r, Tr.ptr_node,
          Tr.ptr_nil, decide_False, decide_True, Bool.false_eq_true, Option.some.injEq,
          Bool.not_true, Bool.not_false,
          exists_eq_left', hh, hhdr, hn, hnd, hp, hprec, hrec, hx, hxroot, hy, hyrec]
        refine ⟨hhdr, ?_, by rw [hpt]; exact hnd0, by rw [hpt]; exact hn0, ?_⟩
        · rw [TreeAt_plug]
          simp only [CtxAt, TreeAt, TreeAt_update_of_not_mem, CtxAt_update_of_not_mem, ne_eq,
            not_false_eq_true, Function.update_same, Function.update_noteq, upd_ne_l, upd_ne_r,
            Tr.ptr_node, Tr.ptr_nil, and_self, and_true, true_and, hcT, ctxParent_cons, Frame.ptr_R, Frame.ptr_L,
            ha, hctx, hn, hnd, hp, hrp, hvp, hvx, hvy, hx, hy]
        · rw [hpt, hpe]
          simp only [ne_eq, hn, hnd, not_false_eq_true, Function.update_noteq, Function.update_same,
            upd_ne_l, upd_ne_r, hh, Tr.ptr_node]
      | node cb b1 pb vb b2 =>
        obtain ⟨hpb, hbrec, hvb, hb1, hb2⟩ := hb
        simp only [ctxBefore, ctxAfter, Tr.ptrs, List.nodup_append, List.nodup_cons,
          List.disjoint_cons_left,
          List.disjoint_cons_right, List.disjoint_append_left, List.disjoint_append_right,
          List.mem_append, List.mem_cons, not_or, ctxParent_cons, Frame.ptr]
          at hnd hn hrec
        simp only [rbtree_rotate_left, rbtree_is_left_child, ne_eq, not_false_eq_true,
          not_true_eq_false, rd_of_ne, setRight_of_ne, setLeft_of_ne, setParent_of_ne,
          Option.bind_eq_bind, Option.some_bind, Option.pure_def, ite_not, ↓reduceIte,
          Function.update_same, Function.update_noteq, upd_ne_l, upd_ne_r, Tr.ptr_node,
          Tr.ptr_nil, decide_False, decide_True, Bool.false_eq_true, Option.some.injEq,
          Bool.not_true, Bool.not_false,
          exists_eq_left', hbrec, hh, hhdr, hn, hnd, hp, hpb, hprec, hrec, hx, hxroot, hy, hyrec]
        refine ⟨hhdr, ?_, by rw [hpt]; exact hnd0, by rw [hpt]; exact hn0, ?_⟩
        · rw [TreeAt_plug]
          simp only [CtxAt, TreeAt, TreeAt_update_of_not_mem, CtxAt_update_of_not_mem, ne_eq,
            not_false_eq_true, Function.update_same, Function.update_noteq, upd_ne_l, upd_ne_r,
            Tr.ptr_node, Tr.ptr_nil, and_self, and_true, true_and, hcT, ctxParent_cons, Frame.ptr_R, Frame.ptr_L,
            ha, hb1, hb2, hctx, hn, hnd, hp, hpb, hrp, hvb, hvp, hvx, hvy, hx, hy]
        · rw [hpt, hpe]
          simp only [ne_eq, hn, hnd, not_false_eq_true, Function.update_noteq, Function.update_same,
            upd_ne_l, upd_ne_r, hh, Tr.ptr_node]
    | R cp lp p vp =>
      obtain ⟨hp, hprec, hvp, hlp, hctx⟩ := hc
      cases b with
      | nil =>
        simp only [ctxBefore, ctxAfter, Tr.ptrs, List.nodup_append, List.nodup_cons,
          List.disjoint_cons_left,
          List.disjoint_cons_right, List.disjoint_append_left, List.disjoint_append_right,
          List.mem_append, List.mem_cons, not_or, ctxParent_cons, Frame.ptr]
          at hnd hn hrec
        have hxlp : x ≠ lp.ptr := Ne.symm (Tr.ptr_ne_of_not_mem _ hx (by simp [hnd]))
        simp only [rbtree_rotate_left, rbtree_is_left_child, ne_eq, not_false_eq_true,
          not_true_eq_false, rd_of_ne, setRight_of_ne, setLeft_of_ne, setParent_of_ne,
          Option.bind_eq_bind, Option.some_bind, Option.pure_def, ite_not, ↓reduceIte,
          Function.update_same, Function.update_noteq, upd_ne_l, upd_ne_r, Tr.ptr_node,
          Tr.ptr_nil, decide_False, decide_True, Bool.false_eq_true, Option.some.injEq,
          Bool.not_true, Bool.not_false,
          exists_eq_left', hh, hhdr, hn, hnd, hp, hprec, hrec, hx, hxlp, hxroot, hy, hyrec]
        refine ⟨hhdr, ?_, by rw [hpt]; exact hnd0, by rw [hpt]; exact hn0, ?_⟩
        · rw [TreeAt_plug]
          simp only [CtxAt, TreeAt, TreeAt_update_of_not_mem, CtxAt_update_of_not_mem, ne_eq,
            not_false_eq_true, Function.update_same, Function.update_noteq, upd_ne_l, upd_ne_r,
            Tr.ptr_node, Tr.ptr_nil, and_self, and_true, true_and, hcT, ctxParent_cons, Frame.ptr_R, Frame.ptr_L,
            ha, hctx, hlp, hn, hnd, hp, hvp, hvx, hvy, hx, hy]
        · rw [hpt, hpe]
          simp only [ne_eq, hn, hnd, not_false_eq_true, Function.update_noteq, Function.update_same,
            upd_ne_l, upd_ne_r, hh, Tr.ptr_node]
      | node cb b1 pb vb b2 =>
        obtain ⟨hpb, hbrec, hvb, hb1, hb2⟩ := hb
        simp only [ctxBefore, ctxAfter, Tr.ptrs, List.nodup_append, List.nodup_cons,
          List.disjoint_cons_left,
          List.disjoint_cons_right, List.disjoint_append_left, List.disjoint_append_right,
          List.mem_append, List.mem_cons, not_or, ctxParent_cons, Frame.ptr]
          at hnd hn hrec
        have hxlp : x ≠ lp.ptr := Ne.symm (Tr.ptr_ne_of_not_mem _ hx (by simp [hnd]))
        simp only [rbtree_rotate_left, rbtree_is_left_child, ne_eq, not_false_eq_true,
          not_true_eq_false, rd_of_ne, setRight_of_ne, setLeft_of_ne, setParent_of_ne,
          Option.bind_eq_bind, Option.some_bind, Option.pure_def, ite_not, ↓reduceIte,
          Function.update_same, Function.update_noteq, upd_ne_l, upd_ne_r, Tr.ptr_node,
          Tr.ptr_nil, decide_False, decide_True, Bool.false_eq_true, Option.some.injEq,
          Bool.not_true, Bool.not_false,
          exists_eq_left', hbrec, hh, hhdr, hn, hnd, hp, hpb, hprec, hrec, hx, hxlp, hxroot, hy, hyrec]
        refine ⟨hhdr, ?_, by rw [hpt]; exact hnd0, by rw [hpt]; exact hn0, ?_⟩
        · rw [TreeAt_plug]
          simp only [CtxAt, TreeAt, TreeAt_update_of_not_mem, CtxAt_update_of_not_mem, ne_eq,
            not_false_eq_true, Function.update_same, Function.update_noteq, upd_ne_l, upd_ne_r,
            Tr.ptr_node, Tr.ptr_nil, and_self, and_true, true_and, hcT, ctxParent_cons, Frame.ptr_R, Frame.ptr_L,
            ha, hb1, hb2, hctx, hlp, hn, hnd, hp, hpb, hvb, hvp, hvx, hvy, hx, hy]
        · rw [hpt, hpe]
          simp only [ne_eq, hn, hnd, not_false_eq_true, Function.update_noteq, Function.update_same,
            upd_ne_l, upd_ne_r, hh, Tr.ptr_node]


set_option maxHeartbeats 4000000 in
theorem rotate_right_spec {m : Mem} {val : Ptr → Option α} {hdr : Ptr}
    (ctx : List (Frame α)) (cx cy : rbtree_color) (a b c : Tr α) (x y : Ptr) (vx vy : α)
    (h : MemHolds m val hdr (plug ctx (Tr.node cx (Tr.node cy a y vy b) x vx c))) :
    ∃ m2, rbtree_rotate_right m x hdr = some m2 ∧
      MemHolds m2 val hdr (plug ctx (Tr.node cy a y vy (Tr.node cx b x vx c))) := by
  obtain ⟨hc, hx, hrec, hvx, hl, hcT, hnd, hn⟩ := h.at_node
  obtain ⟨hy, hyrec, hvy, ha, hb⟩ := hl
  have hh := h.hdr
  have hhdr := h.hdr_ne
  have hpt : (plug ctx (Tr.node cy a y vy (Tr.node cx b x vx c))).ptrs
      = (plug ctx (Tr.node cx (Tr.node cy a y vy b) x vx c)).ptrs := by
    simp [Tr.ptrs_plug, Tr.ptrs]
  have hnd0 := h.nodup
  have hn0 := h.hdr_notin
  cases ctx with
  | nil =>
    simp only [plug, Tr.ptr_node, ctxParent_nil] at hh hrec hpt ⊢
    cases b with
    | nil =>
      simp only [Tr.ptrs, List.nodup_append, List.nodup_cons, List.disjoint_cons_left,
        List.disjoint_cons_right, List.disjoint_append_left, List.disjoint_append_right,
        List.mem_append, List.mem_cons, not_or] at hnd hn
      simp only [rbtree_rotate_right, rbtree_is_left_child, ne_eq, not_false_eq_true,
          not_true_eq_false, rd_of_ne, setRight_of_ne, setLeft_of_ne, setParent_of_ne,
          Option.bind_eq_bind, Option.some_bind, Option.pure_def, ite_not, ↓reduceIte,
          Function.update_same, Function.update_noteq, upd_ne_l, upd_ne_r, Tr.ptr_node,
          Tr.ptr_nil, decide_False, decide_True, Bool.false_eq_true, Option.some.injEq,
          Bool.not_true, Bool.not_false,
          exists_eq_left', hh, hhdr, hn, hnd, hrec, hx, hy, hyrec]
      refine ⟨hhdr, ?_, by rw [hpt]; exact hnd0, by rw [hpt]; exact hn0, ?_⟩
      · simp only [TreeAt, TreeAt_update_of_not_mem, ne_eq,
            not_false_eq_true, Function.update_same, Function.update_noteq, upd_ne_l, upd_ne_r,
            Tr.ptr_node, Tr.ptr_nil, and_self, and_true, true_and, hcT, ha, hn, hnd, hvx, hvy, hx, hy]
      · rw [hpt]
        simp only [ne_eq, hn, hnd, not_false_eq_true, Function.update_noteq, Function.update_same,
            upd_ne_l, upd_ne_r, hh, Tr.ptr_node]
    | node cb b1 pb vb b2 =>
      obtain ⟨hpb, hbrec, hvb, hb1, hb2⟩ := hb
      simp only [Tr.ptrs, List.nodup_append, List.nodup_cons, List.disjoint_cons_left,
        List.disjoint_cons_right, List.disjoint_append_left, List.disjoint_append_right,
        List.mem_append, List.mem_cons, not_or] at hnd hn
      simp only [rbtree_rotate_right, rbtree_is_left_child, ne_eq, not_false_eq_true,
          not_true_eq_false, rd_of_ne, setRight_of_ne, setLeft_of_ne, setParent_of_ne,
          Option.bind_eq_bind, Option.some_bind, Option.pure_def, ite_not, ↓reduceIte,
          Function.update_same, Function.update_noteq, upd_ne_l, upd_ne_r, Tr.ptr_node,
          Tr.ptr_nil, decide_False, decide_True, Bool.false_eq_true, Option.some.injEq,
          Bool.not_true, Bool.not_false,
          exists_eq_left', hbrec, hh, hhdr, hn, hnd, hpb, hrec, hx, hy, hyrec]
      refine ⟨hhdr, ?_, by rw [hpt]; exact hnd0, by rw [hpt]; exact hn0, ?_⟩
      · simp only [TreeAt, TreeAt_update_of_not_mem, ne_eq,
            not_false_eq_true, Function.update_same, Function.update_noteq, upd_ne_l, upd_ne_r,
            Tr.ptr_node, Tr.ptr_nil, and_self, and_true, true_and, hcT, ha, hb1, hb2, hbrec, hn, hnd, hpb, hvb, hvx, hvy, hx, hy]
      · rw [hpt]
        simp only [ne_eq, hn, hnd, not_false_eq_true, Function.update_noteq, Function.update_same,
            upd_ne_l, upd_ne_r, hh, Tr.ptr_node]
  | cons f ctx =>
    have hxroot := Tr.ptr_plug_ne_of_mem f ctx (Tr.node cx (Tr.node cy a y vy b) x vx c) _ hnd
      (show x ∈ (Tr.node cx (Tr.node cy a y vy b) x vx c).ptrs by simp [Tr.ptrs])
    have hpe := Tr.ptr_plug_ne_nil f ctx (Tr.node cy a y vy (Tr.node cx b x vx c))
      (Tr.node cx (Tr.node cy a y vy b) x vx c)
    generalize (plug (f :: ctx) (Tr.node cx (Tr.node cy a y vy b) x vx c)).ptr = root
      at hxroot hh hpe
    cases f with
    | L cp p vp rp =>
      obtain ⟨hp, hprec, hvp, hrp, hctx⟩ := hc
      cases b with
      | nil =>
        simp only [ctxBefore, ctxAfter, Tr.ptrs, List.nodup_append, List.nodup_cons,
          List.disjoint_cons_left,
          List.disjoint_cons_right, List.disjoint_append_left, List.disjoint_append_right,
          List.mem_append, List.mem_cons, not_or, ctxParent_cons, Frame.ptr]
          at hnd hn hrec
        simp only [rbtree_rotate_right, rbtree_is_left_child, ne_eq, not_false_eq_true,
          not_true_eq_false, rd_of_ne, setRight_of_ne, setLeft_of_ne, setParent_of_ne,
          Option.bind_eq_bind, Option.some_bind, Option.pure_def, ite_not, ↓reduceIte,
          Function.update_same, Function.update_noteq, upd_ne_l, upd_ne_r, Tr.ptr_node,
          Tr.ptr_nil, decide_False, decide_True, Bool.false_eq_true, Option.some.injEq,
          Bool.not_true, Bool.not_false,
          exists_eq_left', hh, hhdr, hn, hnd, hp, hprec, hrec, hx, hxroot, hy, hyrec]
        refine ⟨hhdr, ?_, by rw [hpt]; exact hnd0, by rw [hpt]; exact hn0, ?_⟩
        · rw [TreeAt_plug]
          simp only [CtxAt, TreeAt, TreeAt_update_of_not_mem, CtxAt_update_of_not_mem, ne_eq,
            not_false_eq_true, Function.update_same, Function.update_noteq, upd_ne_l, upd_ne_r,
            Tr.ptr_node, Tr.ptr_nil, and_self, and_true, true_and, hcT, ctxParent_cons, Frame.ptr_R, Frame.ptr_L,
            ha, hctx, hn, hnd, hp, hrp, hvp, hvx, hvy, hx, hy]
        · rw [hpt, hpe]
          simp only [ne_eq, hn, hnd, not_false_eq_true, Function.update_noteq, Function.update_same,
            upd_ne_l, upd_ne_r, hh, Tr.ptr_node]
      | node cb b1 pb vb b2 =>
        obtain ⟨hpb, hbrec, hvb, hb1, hb2⟩ := hb
        simp only [ctxBefore, ctxAfter, Tr.ptrs, List.nodup_append, List.nodup_cons,
          List.disjoint_cons_left,
          List.disjoint_cons_right, List.disjoint_append_left, List.disjoint_append_right,
          List.mem_append, List.mem_cons, not_or, ctxParent_cons, Frame.ptr]
          at hnd hn hrec
        simp only [rbtree_rotate_right, rbtree_is_left_child, ne_eq, not_false_eq_true,
          not_true_eq_false, rd_of_ne, setRight_of_ne, setLeft_of_ne, setParent_of_ne,
          Option.bind_eq_bind, Option.some_bind, Option.pure_def, ite_not, ↓reduceIte,
          Function.update_same, Function.update_noteq, upd_ne_l, upd_ne_r, Tr.ptr_node,
          Tr.ptr_nil, decide_False, decide_True, Bool.false_eq_true, Option.some.injEq,
          Bool.not_true, Bool.not_false,
          exists_eq_left', hbrec, hh, hhdr, hn, hnd, hp, hpb, hprec, hrec, hx, hxroot, hy, hyrec]
        refine ⟨hhdr, ?_, by rw [hpt]; exact hnd0, by rw [hpt]; exact hn0, ?_⟩
        · rw [TreeAt_plug]
          simp only [CtxAt, TreeAt, TreeAt_update_of_not_mem, CtxAt_update_of_not_mem, ne_eq,
            not_false_eq_true, Function.update_same, Function.update_noteq, upd_ne_l, upd_ne_r,
            Tr.ptr_node, Tr.ptr_nil, and_self, and_true, true_and, hcT, ctxParent_cons, Frame.ptr_R, Frame.ptr_L,
            ha, hb1, hb2, hctx, hn, hnd, hp, hpb, hrp, hvb, hvp, hvx, hvy, hx, hy]
        · rw [hpt, hpe]
          simp only [ne_eq, hn, hnd, not_false_eq_true, Function.update_noteq, Function.update_same,
            upd_ne_l, upd_ne_r, hh, Tr.ptr_node]
    | R cp lp p vp =>
      obtain ⟨hp, hprec, hvp, hlp, hctx⟩ := hc
      cases b with
      | nil =>
        simp only [ctxBefore, ctxAfter, Tr.ptrs, List.nodup_append, List.nodup_cons,
          List.disjoint_cons_left,
          List.disjoint_cons_right, List.disjoint_append_left, List.disjoint_append_right,
          List.mem_append, List.mem_cons, not_or, ctxParent_cons, Frame.ptr]
          at hnd hn hrec
        have hxlp : x ≠ lp.ptr := Ne.symm (Tr.ptr_ne_of_not_mem _ hx (by simp [hnd]))
        simp only [rbtree_rotate_right, rbtree_is_left_child, ne_eq, not_false_eq_true,
          not_true_eq_false, rd_of_ne, setRight_of_ne, setLeft_of_ne, setParent_of_ne,
          Option.bind_eq_bind, Option.some_bind, Option.pure_def, ite_not, ↓reduceIte,
          Function.update_same, Function.update_noteq, upd_ne_l, upd_ne_r, Tr.ptr_node,
          Tr.ptr_nil, decide_False, decide_True, Bool.false_eq_true, Option.some.injEq,
          Bool.not_true, Bool.not_false,
          exists_eq_left', hh, hhdr, hn, hnd, hp, hprec, hrec, hx, hxlp, hxroot, hy, hyrec]
        refine ⟨hhdr, ?_, by rw [hpt]; exact hnd0, by rw [hpt]; exact hn0, ?_⟩
        · rw [TreeAt_plug]
          simp only [CtxAt, TreeAt, TreeAt_update_of_not_mem, CtxAt_update_of_not_mem, ne_eq,
            not_false_eq_true, Function.update_same, Function.update_noteq, upd_ne_l, upd_ne_r,
            Tr.ptr_node, Tr.ptr_nil, and_self, and_true, true_and, hcT, ctxParent_cons, Frame.ptr_R, Frame.ptr_L,
            ha, hctx, hlp, hn, hnd, hp, hvp, hvx, hvy, hx, hy]
        · rw [hpt, hpe]
          simp only [ne_eq, hn, hnd, not_false_eq_true, Function.update_noteq, Function.update_same,
            upd_ne_l, upd_ne_r, hh, Tr.ptr_node]
      | node cb b1 pb vb b2 =>
        obtain ⟨hpb, hbrec, hvb, hb1, hb2⟩ := hb
        simp only [ctxBefore, ctxAfter, Tr.ptrs, List.nodup_append, List.nodup_cons,
          List.disjoint_cons_left,
          List.disjoint_cons_right, List.disjoint_append_left, List.disjoint_append_right,
          List.mem_append, List.mem_cons, not_or, ctxParent_cons, Frame.ptr]
          at hnd hn hrec
        have hxlp : x ≠ lp.ptr := Ne.symm (Tr.ptr_ne_of_not_mem _ hx (by simp [hnd]))
        simp only [rbtree_rotate_right, rbtree_is_left_child, ne_eq, not_false_eq_true,
          not_true_eq_false, rd_of_ne, setRight_of_ne, setLeft_of_ne, setParent_of_ne,
          Option.bind_eq_bind, Option.some_bind, Option.pure_def, ite_not, ↓reduceIte,
          Function.update_same, Function.update_noteq, upd_ne_l, upd_ne_r, Tr.ptr_node,
          Tr.ptr_nil, decide_False, decide_True, Bool.false_eq_true, Option.some.injEq,
          Bool.not_true, Bool.not_false,
          exists_eq_left', hbrec, hh, hhdr, hn, hnd, hp, hpb, hprec, hrec, hx, hxlp, hxroot, hy, hyrec]
        refine ⟨hhdr, ?_, by rw [hpt]; exact hnd0, by rw [hpt]; exact hn0, ?_⟩
        · rw [TreeAt_plug]
          simp only [CtxAt, TreeAt, TreeAt_update_of_not_mem, CtxAt_update_of_not_mem, ne_eq,
            not_false_eq_true, Function.update_same, Function.update_noteq, upd_ne_l, upd_ne_r,
            Tr.ptr_node, Tr.ptr_nil, and_self, and_true, true_and, hcT, ctxParent_cons, Frame.ptr_R, Frame.ptr_L,
            ha, hb1, hb2, hctx, hlp, hn, hnd, hp, hpb, hvb, hvp, hvx, hvy, hx, hy]
        · rw [hpt, hpe]
          simp only [ne_eq, hn, hnd, not_false_eq_true, Function.update_noteq, Function.update_same,
            upd_ne_l, upd_ne_r, hh, Tr.ptr_node]


end rotations


/-! ## Iteration over a well-formed tree -/

section iteration

variable {α : Type}

theorem ctx_length_le (ctx : List (Frame α)) :
    ctx.length ≤ (ctxBefore ctx).length + (ctxAfter ctx).length := by
  induction ctx with
  | nil => simp
  | cons f ctx ih =>
    cases f <;> simp [ctxBefore, ctxAfter] <;> omega

theorem plug_length (ctx : List (Frame α)) (t : Tr α) :
    (plug ctx t).ptrs.length
      = (ctxBefore ctx).length + t.ptrs.length + (ctxAfter ctx).length := by
  simp [Tr.ptrs_plug, Nat.add_assoc]

theorem RBTreeIncrement_spec {m : Mem} {val : Ptr → Option α} {hdr : Ptr}
    (ctx : List (Frame α)) (c : rbtree_color) (l r : Tr α) (x : Ptr) (v : α)
    (h : MemHolds m val hdr (plug ctx (Tr.node c l x v r)))
    (fuel : Nat) (hf : (plug ctx (Tr.node c l x v r)).ptrs.length + 2 ≤ fuel) :
    RBTreeIncrement m fuel x = some (firstD (r.ptrs ++ ctxAfter ctx) hdr) := by
  obtain ⟨-, hx, hrec, -, -, hr, -, -⟩ := h.at_node
  have hlen := ctx_length_le ctx
  rw [plug_length] at hf
  simp only [Tr.ptrs, List.length_append, List.length_cons] at hf
  cases r with
  | nil =>
    obtain ⟨x2, y2, e, hx2, hres⟩ := incClimb_spec ctx c l Tr.nil x v h fuel (by omega)
    simp only [RBTreeIncrement, rd_of_ne hx, hrec, Tr.ptr_nil, Option.bind_eq_bind,
      Option.some_bind, ne_eq, not_true_eq_false, ↓reduceIte, e, rd_of_ne hx2,
      Option.pure_def, Tr.ptrs_nil, List.nil_append]
    rw [← hres]
    split <;> rfl
  | node c2 l2 p2 v2 r2 =>
    have hp2 : p2 ≠ 0 := hr.1
    have hmin := rbtree_min_spec (Tr.node c2 l2 p2 v2 r2) x hr (by simp) fuel (by omega)
    simp only [Tr.ptr_node] at hmin
    simp only [RBTreeIncrement, rd_of_ne hx, hrec, Tr.ptr_node, Option.bind_eq_bind,
      Option.some_bind, ne_eq, hp2, not_false_eq_true, ↓reduceIte, hmin]
    simp [Tr.ptrs, firstD_append_cons]
    cases l2.ptrs <;> simp

theorem nodup_split_unique {β : Type} {x : β} (l1 l2 l3 l4 : List β)
    (h : l1 ++ x :: l2 = l3 ++ x :: l4) (hnd : (l1 ++ x :: l2).Nodup) :
    l1 = l3 ∧ l2 = l4 := by
  induction l1 generalizing l3 with
  | nil =>
    cases l3 with
    | nil => simpa using h
    | cons b l3 =>
      simp only [List.nil_append, List.cons_append, List.cons.injEq] at h
      obtain ⟨rfl, h2⟩ := h
      simp [h2] at hnd
  | cons a l1 ih =>
    cases l3 with
    | nil =>
      simp only [List.nil_append, List.cons_append, List.cons.injEq] at h
      obtain ⟨rfl, h2⟩ := h
      simp at hnd
    | cons b l3 =>
      simp only [List.cons_append, List.cons.injEq] at h
      obtain ⟨rfl, h2⟩ := h
      have := ih l3 h2 (List.nodup_cons.1 hnd).2
      simp [this.1, this.2]

/-- Stepping from any node gives the next node in in-order, or the header after the last. -/
theorem RBTreeIncrement_next {m : Mem} {val : Ptr → Option α} {hdr : Ptr} {T : Tr α}
    (h : MemHolds m val hdr T) (pre suf : List Ptr) (x : Ptr)
    (hsplit : T.ptrs = pre ++ x :: suf)
    (fuel : Nat) (hf : T.ptrs.length + 2 ≤ fuel) :
    RBTreeIncrement m fuel x = some (firstD suf hdr) := by
  have hx : x ∈ T.ptrs := by rw [hsplit]; simp
  obtain ⟨ctx, c, l, v, r, rfl⟩ := Tr.exists_plug_of_mem T x hx
  have e := RBTreeIncrement_spec ctx c l r x v h fuel hf
  have hp := Tr.ptrs_plug ctx (Tr.node c l x v r)
  simp only [Tr.ptrs, List.append_assoc, List.cons_append] at hp
  have hnd := h.nodup
  rw [hsplit] at hnd
  have := nodup_split_unique pre suf (ctxBefore ctx ++ l.ptrs) (r.ptrs ++ ctxAfter ctx)
    (by rw [← hsplit, hp]; simp) hnd
  rw [e, this.2]

end iteration

section traversal

variable {α : Type}

theorem MemHolds.firstD_ne_hdr {m : Mem} {val : Ptr → Option α} {hdr : Ptr} {T : Tr α}
    (h : MemHolds m val hdr T) (pre : List Ptr) (x : Ptr) (suf : List Ptr)
    (hsplit : T.ptrs = pre ++ x :: suf) : x ≠ hdr := by
  rintro rfl
  exact h.hdr_notin (by rw [hsplit]; simp)

theorem nodes_from_spec {t : rbtree α} {T : Tr α} (h : t.Holds T) (fuel0 : Nat)
    (hf0 : T.ptrs.length + 2 ≤ fuel0) (suf pre : List Ptr) (hsplit : T.ptrs = pre ++ suf)
    (fuel : Nat) (hf : suf.length < fuel) :
    t.nodes_from fuel0 fuel (firstD suf t.mHeader) = some suf := by
  induction suf generalizing pre fuel with
  | nil =>
    cases fuel with
    | zero => simp at hf
    | succ f => simp [rbtree.nodes_from, rbtree.mEnd]
  | cons x suf ih =>
    cases fuel with
    | zero => simp at hf
    | succ f =>
      have hx := h.mem.firstD_ne_hdr pre x suf hsplit
      have hinc := RBTreeIncrement_next h.mem pre suf x hsplit fuel0 hf0
      have := ih (pre ++ [x]) (by simp [hsplit]) f (by simp at hf; omega)
      simp [rbtree.nodes_from, rbtree.mEnd, hx, hinc, this]

theorem nodes_spec {t : rbtree α} {T : Tr α} (h : t.Holds T) (fuel : Nat)
    (hf : T.ptrs.length + 2 ≤ fuel) : t.nodes fuel = some T.ptrs := by
  have := nodes_from_spec h fuel hf T.ptrs [] rfl fuel (by omega)
  simpa [rbtree.nodes, rbtree.begin, rbtree.mLeftMost, h.mem.hdr] using this

theorem values_append (t : rbtree α) (l1 l2 : List Ptr) :
    t.values (l1 ++ l2) = (t.values l1).bind fun a => (t.values l2).bind fun b => some (a ++ b) := by
  induction l1 with
  | nil => simp [rbtree.values]
  | cons x l1 ih =>
    show t.values (x :: (l1 ++ l2)) = _
    simp only [rbtree.values, ih]
    cases sValue t x <;> cases t.values l1 <;> cases t.values l2 <;> rfl

theorem TreeAt_values {t : rbtree α} {T : Tr α} {par : Ptr}
    (h : TreeAt t.mem t.mValue T par) : t.values T.ptrs = some T.vals := by
  induction T generalizing par with
  | nil => rfl
  | node c l p v r ihl ihr =>
    obtain ⟨hp, -, hv, hl, hr⟩ := h
    have e : sValue t p = some v := by simp [sValue, hp, hv]
    simp [Tr.ptrs, Tr.vals, values_append, rbtree.values, ihl hl, ihr hr, e]

theorem toList_spec {t : rbtree α} {T : Tr α} (h : t.Holds T) (fuel : Nat)
    (hf : T.ptrs.length + 2 ≤ fuel) : t.toList fuel = some T.vals := by
  simp [rbtree.toList, nodes_spec h fuel hf, TreeAt_values h.mem.tree]

end traversal


/-! ## Searching a well-formed ordered tree -/

section search

variable {α κ : Type} {KeyOfT : α → κ} {KeyCompare : κ → κ → Bool}

/-- In a strict weak order "not less than" is transitive. -/
theorem StrictWeakOrder.neg_trans (h : StrictWeakOrder KeyCompare) {a b c : κ}
    (hab : KeyCompare a b = false) (hbc : KeyCompare b c = false) : KeyCompare a c = false := by
  cases hac : KeyCompare a c with
  | false => rfl
  | true =>
    cases hba : KeyCompare b a with
    | true => rw [h.trans b a c hba hac] at hbc; exact absurd hbc (by simp)
    | false =>
      cases hcb : KeyCompare c b with
      | true => rw [h.trans a c b hac hcb] at hab; exact absurd hab (by simp)
      | false => rw [(h.incomp_trans a b c hab hba hbc hcb).1] at hac; exact absurd hac (by simp)

theorem StrictWeakOrder.lt_of_le_of_lt (h : StrictWeakOrder KeyCompare) {a b c : κ}
    (hba : KeyCompare b a = false) (hbc : KeyCompare b c = true) : KeyCompare a c = true := by
  cases hac : KeyCompare a c with
  | true => rfl
  | false => rw [h.neg_trans hba hac] at hbc; exact absurd hbc (by simp)

theorem StrictWeakOrder.lt_of_lt_of_le (h : StrictWeakOrder KeyCompare) {a b c : κ}
    (hab : KeyCompare a b = true) (hcb : KeyCompare c b = false) : KeyCompare a c = true := by
  cases hac : KeyCompare a c with
  | true => rfl
  | false => rw [h.neg_trans hac hcb] at hab; exact absurd hab (by simp)

theorem Tr.mem_vals_of_mem_elems {T : Tr α} {e : Ptr × α} (h : e ∈ T.elems) : e.2 ∈ T.vals := by
  rw [Tr.vals_eq_map_elems]
  exact List.mem_map_of_mem _ h

theorem Ordered.node {c : rbtree_color} {l r : Tr α} {p : Ptr} {v : α}
    (h : Ordered KeyOfT KeyCompare (Tr.node c l p v r).vals) :
    Ordered KeyOfT KeyCompare l.vals ∧ Ordered KeyOfT KeyCompare r.vals ∧
    (∀ a ∈ l.vals, KeyCompare (KeyOfT v) (KeyOfT a) = false) ∧
    (∀ b ∈ r.vals, KeyCompare (KeyOfT b) (KeyOfT v) = false) := by
  simp only [Ordered, Tr.vals, List.pairwise_append, List.pairwise_cons, List.mem_cons] at h
  obtain ⟨h1, ⟨h2, h3⟩, h4⟩ := h
  exact ⟨h1, h3, fun a ha => h4 a ha v (Or.inl rfl), h2⟩

theorem TreeAt.reads (KeyOfT : α → κ) {t : rbtree α} {c : rbtree_color} {l r : Tr α} {p : Ptr}
    {v : α} {par : Ptr} (h : TreeAt t.mem t.mValue (Tr.node c l p v r) par) :
    p ≠ 0 ∧ sKey KeyOfT t p = some (KeyOfT v) ∧ sLeft t p = some l.ptr ∧
      sRight t p = some r.ptr := by
  obtain ⟨hp, hrec, hv, -, -⟩ := h
  simp [sKey, sValue, sLeft, sRight, rd_of_ne hp, hrec, hv, hp]

theorem find?_append_none {β : Type} {P : β → Bool} {l1 l2 : List β}
    (h : ∀ e ∈ l1, P e = false) : (l1 ++ l2).find? P = l2.find? P := by
  induction l1 with
  | nil => rfl
  | cons a l1 ih =>
    have ha := h a (by simp)
    simp only [List.cons_append, List.find?_cons, ha]
    exact ih (fun e he => h e (by simp [he]))

theorem find?_append_hit {β : Type} {P : β → Bool} {l1 l2 : List β} {x : β} (hx : P x = true) :
    (l1 ++ x :: l2).find? P = some ((l1.find? P).getD x) := by
  induction l1 with
  | nil => simp [hx]
  | cons a l1 ih =>
    cases ha : P a with
    | true => simp [List.find?_cons, ha]
    | false => simpa [List.find?_cons, ha] using ih

theorem LowerBound_spec (hswo : StrictWeakOrder KeyCompare) {t : rbtree α} (T : Tr α)
    (par : Ptr) (h : TreeAt t.mem t.mValue T par) (ho : Ordered KeyOfT KeyCompare T.vals)
    (key : κ) (y : Ptr) (fuel : Nat) (hf : T.ptrs.length < fuel) :
    LowerBound KeyOfT KeyCompare t fuel T.ptr y key =
      some (((T.elems.find? (fun e => !KeyCompare (KeyOfT e.2) key)).map Prod.fst).getD y) := by
  induction T generalizing par y fuel with
  | nil =>
    cases fuel with
    | zero => simp at hf
    | succ f => simp [LowerBound, Tr.elems]
  | node c l p v r ihl ihr =>
    cases fuel with
    | zero => simp at hf
    | succ f =>
      obtain ⟨hp, hk, hsl, hsr⟩ := TreeAt.reads KeyOfT h
      obtain ⟨hol, hor, hlv, hrv⟩ := ho.node
      simp only [Tr.ptrs, List.length_append, List.length_cons] at hf
      simp only [LowerBound, Tr.ptr_node, hp, ↓reduceIte, hk, hsl, hsr, Option.bind_eq_bind,
        Option.some_bind, Tr.elems]
      cases hc : KeyCompare (KeyOfT v) key with
      | false =>
        simp only [Bool.not_false, ↓reduceIte]
        rw [ihl p h.2.2.2.1 hol p f (by omega),
          find?_append_hit (x := (p, v)) (by simp [hc])]
        cases List.find? (fun e => !KeyCompare (KeyOfT e.2) key) l.elems <;> rfl
      | true =>
        simp only [Bool.not_true, Bool.false_eq_true, ↓reduceIte]
        rw [ihr p h.2.2.2.2 hor y f (by omega), find?_append_none, List.find?_cons]
        · simp [hc]
        · intro e he
          have := hswo.lt_of_le_of_lt (hlv e.2 (Tr.mem_vals_of_mem_elems he)) hc
          simp [this]

theorem UpperBound_spec (hswo : StrictWeakOrder KeyCompare) {t : rbtree α} (T : Tr α)
    (par : Ptr) (h : TreeAt t.mem t.mValue T par) (ho : Ordered KeyOfT KeyCompare T.vals)
    (key : κ) (y : Ptr) (fuel : Nat) (hf : T.ptrs.length < fuel) :
    UpperBound KeyOfT KeyCompare t fuel T.ptr y key =
      some (((T.elems.find? (fun e => KeyCompare key (KeyOfT e.2))).map Prod.fst).getD y) := by
  induction T generalizing par y fuel with
  | nil =>
    cases fuel with
    | zero => simp at hf
    | succ f => simp [UpperBound, Tr.elems]
  | node c l p v r ihl ihr =>
    cases fuel with
    | zero => simp at hf
    | succ f =>
      obtain ⟨hp, hk, hsl, hsr⟩ := TreeAt.reads KeyOfT h
      obtain ⟨hol, hor, hlv, hrv⟩ := ho.node
      simp only [Tr.ptrs, List.length_append, List.length_cons] at hf
      simp only [UpperBound, Tr.ptr_node, hp, ↓reduceIte, hk, hsl, hsr, Option.bind_eq_bind,
        Option.some_bind, Tr.elems]
      cases hc : KeyCompare key (KeyOfT v) with
      | true =>
        simp only [↓reduceIte]
        rw [ihl p h.2.2.2.1 hol p f (by omega),
          find?_append_hit (x := (p, v)) (by simp [hc])]
        cases List.find? (fun e => KeyCompare key (KeyOfT e.2)) l.elems <;> rfl
      | false =>
        simp only [Bool.false_eq_true, ↓reduceIte]
        rw [ihr p h.2.2.2.2 hor y f (by omega), find?_append_none, List.find?_cons]
        · simp [hc]
        · intro e he
          exact hswo.neg_trans hc (hlv e.2 (Tr.mem_vals_of_mem_elems he))

end search


/-! ## `find`, `lower_bound`, `upper_bound` on a well-formed ordered tree -/

section lookup

variable {α κ : Type} {KeyOfT : α → κ} {KeyCompare : κ → κ → Bool}

theorem TreeAt_sKey_elems (KeyOfT : α → κ) {t : rbtree α} {T : Tr α} {par : Ptr}
    (h : TreeAt t.mem t.mValue T par) :
    ∀ e ∈ T.elems, sKey KeyOfT t e.1 = some (KeyOfT e.2) := by
  induction T generalizing par with
  | nil => simp [Tr.elems]
  | node c l p v r ihl ihr =>
    intro e he
    simp only [Tr.elems, List.mem_append, List.mem_cons] at he
    rcases he with he | rfl | he
    · exact ihl h.2.2.2.1 e he
    · exact (TreeAt.reads KeyOfT h).2.1
    · exact ihr h.2.2.2.2 e he

theorem find?_map_fst {t : rbtree α} (f : κ → Bool) (l : List (Ptr × α))
    (h : ∀ e ∈ l, sKey KeyOfT t e.1 = some (KeyOfT e.2)) :
    (l.map Prod.fst).find? (fun p => (sKey KeyOfT t p).any f)
      = (l.find? (fun e => f (KeyOfT e.2))).map Prod.fst := by
  induction l with
  | nil => rfl
  | cons a l ih =>
    have ha := h a (by simp)
    simp only [List.map_cons, List.find?_cons, ha, Option.any_some]
    cases f (KeyOfT a.2) with
    | true => rfl
    | false => exact ih (fun e he => h e (by simp [he]))

/-- The first node, in in-order, whose key satisfies `f`; `d` when there is none. -/
theorem firstNode_eq {t : rbtree α} {T : Tr α} (h : t.Holds T) (f : κ → Bool) (d : Ptr) :
    (T.ptrs.find? (fun p => (sKey KeyOfT t p).any f)).getD d
      = ((T.elems.find? (fun e => f (KeyOfT e.2))).map Prod.fst).getD d := by
  rw [Tr.ptrs_eq_map_elems, find?_map_fst f T.elems (TreeAt_sKey_elems KeyOfT h.mem.tree)]

theorem lower_bound_first (hswo : StrictWeakOrder KeyCompare) {t : rbtree α} {T : Tr α}
    (h : t.Holds T) (ho : Ordered KeyOfT KeyCompare T.vals) (k : κ) (fuel : Nat)
    (hf : T.ptrs.length < fuel) :
    t.lower_bound KeyOfT KeyCompare fuel k =
      some ((T.ptrs.find? (fun p => (sKey KeyOfT t p).any (fun kp => !KeyCompare kp k))).getD
        t.mEnd) := by
  rw [firstNode_eq h]
  have := LowerBound_spec hswo T t.mHeader h.mem.tree ho k t.mHeader fuel hf
  simpa [rbtree.lower_bound, rbtree.mRoot, rbtree.mEnd, h.mem.hdr] using this

theorem upper_bound_first (hswo : StrictWeakOrder KeyCompare) {t : rbtree α} {T : Tr α}
    (h : t.Holds T) (ho : Ordered KeyOfT KeyCompare T.vals) (k : κ) (fuel : Nat)
    (hf : T.ptrs.length < fuel) :
    t.upper_bound KeyOfT KeyCompare fuel k =
      some ((T.ptrs.find? (fun p => (sKey KeyOfT t p).any (fun kp => KeyCompare k kp))).getD
        t.mEnd) := by
  rw [firstNode_eq h]
  have := UpperBound_spec hswo T t.mHeader h.mem.tree ho k t.mHeader fuel hf
  simpa [rbtree.upper_bound, rbtree.mRoot, rbtree.mEnd, h.mem.hdr] using this

theorem Ordered.of_split {l1 l2 : List α} {a : α}
    (h : Ordered KeyOfT KeyCompare (l1 ++ a :: l2)) :
    ∀ b ∈ l2, KeyCompare (KeyOfT b) (KeyOfT a) = false := by
  simp only [Ordered, List.pairwise_append, List.pairwise_cons] at h
  exact h.2.1.1

theorem find_first (hswo : StrictWeakOrder KeyCompare) {t : rbtree α} {T : Tr α}
    (h : t.Holds T) (ho : Ordered KeyOfT KeyCompare T.vals) (k : κ) (fuel : Nat)
    (hf : T.ptrs.length < fuel) :
    t.find KeyOfT KeyCompare fuel k =
      some ((T.ptrs.find? (fun p => (sKey KeyOfT t p).any
        (fun kp => !KeyCompare kp k && !KeyCompare k kp))).getD t.mEnd) := by
  rw [firstNode_eq h]
  have hlb := LowerBound_spec hswo T t.mHeader h.mem.tree ho k t.mHeader fuel hf
  have hkeys := TreeAt_sKey_elems KeyOfT h.mem.tree
  simp only [rbtree.find, rbtree.mRoot, rbtree.mEnd, h.mem.hdr, hlb, Option.bind_eq_bind,
    Option.some_bind, Option.pure_def]
  cases hfind : T.elems.find? (fun e => !KeyCompare (KeyOfT e.2) k) with
  | none =>
    have hnone : T.elems.find? (fun e => !KeyCompare (KeyOfT e.2) k && !KeyCompare k (KeyOfT e.2))
        = none := by
      rw [List.find?_eq_none] at hfind ⊢
      intro x hx hE
      apply hfind x hx
      simp only [Bool.and_eq_true] at hE
      exact hE.1
    simp [hnone]
  | some e0 =>
    obtain ⟨hP, as, bs, hsplit, has⟩ := List.find?_eq_some.1 hfind
    have he0 : e0 ∈ T.elems := by rw [hsplit]; simp
    have hne : e0.1 ≠ t.mHeader := by
      intro e
      apply h.mem.hdr_notin
      rw [Tr.ptrs_eq_map_elems, ← e]
      exact List.mem_map_of_mem _ he0
    simp only [Option.map_some', Option.getD_some, hne, ↓reduceIte, hkeys e0 he0,
      Option.some_bind]
    have hvals : T.vals = as.map Prod.snd ++ e0.2 :: bs.map Prod.snd := by
      rw [Tr.vals_eq_map_elems, hsplit]; simp
    rw [hvals] at ho
    have hafter := ho.of_split
    cases hc : KeyCompare k (KeyOfT e0.2) with
    | true =>
      have hnone : T.elems.find?
          (fun e => !KeyCompare (KeyOfT e.2) k && !KeyCompare k (KeyOfT e.2)) = none := by
        rw [List.find?_eq_none]
        intro x hx hE
        simp only [Bool.and_eq_true, Bool.not_eq_true'] at hE
        rw [hsplit] at hx
        simp only [List.mem_append, List.mem_cons] at hx
        rcases hx with hx | rfl | hx
        · have := has x hx
          simp [hE.1] at this
        · rw [hc] at hE; exact absurd hE.2 (by simp)
        · have h1 := hafter x.2 (List.mem_map_of_mem _ hx)
          have := hswo.lt_of_lt_of_le hc h1
          rw [this] at hE; exact absurd hE.2 (by simp)
      simp [hnone]
    | false =>
      have hsome : T.elems.find?
          (fun e => !KeyCompare (KeyOfT e.2) k && !KeyCompare k (KeyOfT e.2)) = some e0 := by
        rw [List.find?_eq_some]
        refine ⟨by simp [hc, hP], as, bs, hsplit, ?_⟩
        intro a ha
        have := has a ha
        simp only [Bool.not_not] at this
        simp [this]
      simp [hsome]

end lookup


/-! ## Insertion: recolouring and the rebalancing loop on the memory -/

set_option autoImplicit false

variable {α : Type}

theorem MemHolds_plug_iff {m : Mem} {val : Ptr → Option α} {hdr : Ptr}
    (ctx : List (Frame α)) (s : Tr α) :
    MemHolds m val hdr (plug ctx s) ↔
      hdr ≠ 0 ∧ CtxAt m val hdr ctx s.ptr ∧ TreeAt m val s (ctxParent hdr ctx) ∧
      (ctxBefore ctx ++ s.ptrs ++ ctxAfter ctx).Nodup ∧
      hdr ∉ ctxBefore ctx ++ s.ptrs ++ ctxAfter ctx ∧
      m hdr = { mRight := lastD (ctxBefore ctx ++ s.ptrs ++ ctxAfter ctx) hdr,
                mLeft := firstD (ctxBefore ctx ++ s.ptrs ++ ctxAfter ctx) hdr,
                mParent := (plug ctx s).ptr, mColor := rbtree_color.mRed } := by
  constructor
  · intro h
    have ht := (TreeAt_plug ctx _).1 h.tree
    have hnd := h.nodup
    have hn := h.hdr_notin
    have hh := h.hdr
    rw [Tr.ptrs_plug] at hnd hn hh
    exact ⟨h.hdr_ne, ht.1, ht.2, hnd, hn, hh⟩
  · rintro ⟨h0, hc, ht, hnd, hn, hh⟩
    refine ⟨h0, (TreeAt_plug ctx _).2 ⟨hc, ht⟩, ?_, ?_, ?_⟩
    · rw [Tr.ptrs_plug]; exact hnd
    · rw [Tr.ptrs_plug]; exact hn
    · rw [Tr.ptrs_plug]; exact hh

theorem Tr.ptr_plug_same (ctx : List (Frame α)) (s s2 : Tr α) (h : s.ptr = s2.ptr) :
    (plug ctx s).ptr = (plug ctx s2).ptr := by
  cases ctx with
  | nil => exact h
  | cons f ctx => exact Tr.ptr_plug_ne_nil f ctx s s2

/-- Recolouring the node at the hole of a path. -/
theorem MemHolds.setColor {m : Mem} {val : Ptr → Option α} {hdr : Ptr}
    (ctx : List (Frame α)) (c : rbtree_color) (l r : Tr α) (x : Ptr) (v : α)
    (h : MemHolds m val hdr (plug ctx (Tr.node c l x v r))) (c2 : rbtree_color) :
    ∃ m2, setColor m x c2 = some m2 ∧ MemHolds m2 val hdr (plug ctx (Tr.node c2 l x v r)) := by
  obtain ⟨h0, hc, ⟨hx, hrec, hv, hl, hr⟩, hnd, hn, hh⟩ := (MemHolds_plug_iff ctx _).1 h
  refine ⟨_, setColor_of_ne c2 hx, (MemHolds_plug_iff ctx _).2 ?_⟩
  simp only [Tr.ptrs, List.nodup_append, List.nodup_cons, List.disjoint_cons_left,
    List.disjoint_cons_right, List.disjoint_append_left, List.disjoint_append_right,
    List.mem_append, List.mem_cons, not_or] at hnd hn

  have hxb : x ∉ ctxBefore ctx := by simp [hnd]
  have hxa : x ∉ ctxAfter ctx := by simp [hnd]
  have hxl : x ∉ l.ptrs := by simp [hnd]
  have hxr : x ∉ r.ptrs := by simp [hnd]
  have hxh : hdr ≠ x := by simp [hn]
  refine ⟨h0, ?_, ⟨hx, ?_, hv, ?_, ?_⟩, ?_, ?_, ?_⟩
  · exact (CtxAt_update_of_not_mem hxb hxa).2 hc
  · rw [Function.update_same, hrec]
  · exact (TreeAt_update_of_not_mem hxl).2 hl
  · exact (TreeAt_update_of_not_mem hxr).2 hr
  · exact h.nodup |> fun hh2 => by rw [Tr.ptrs_plug] at hh2; exact hh2
  · exact h.hdr_notin |> fun hh2 => by rw [Tr.ptrs_plug] at hh2; exact hh2
  · rw [Function.update_noteq hxh, hh]
    rw [Tr.ptr_plug_same ctx (Tr.node c l x v r) (Tr.node c2 l x v r) rfl]
    rfl

/-- The loop of `RBTreeInsert` stops at once at the root. -/
theorem RBTreeInsert_loop_root {m : Mem} {val : Ptr → Option α} {hdr : Ptr}
    (c : rbtree_color) (l r : Tr α) (x : Ptr) (v : α)
    (h : MemHolds m val hdr (Tr.node c l x v r)) (fuel : Nat) :
    RBTreeInsert_loop hdr (fuel + 1) m x = some m := by
  simp only [RBTreeInsert_loop, rd_of_ne h.hdr_ne, h.hdr, Tr.ptr_node, Option.bind_eq_bind,
    Option.some_bind, Option.pure_def, ↓reduceIte]

/-- The loop of `RBTreeInsert` stops at once below a black parent. -/
theorem RBTreeInsert_loop_black {m : Mem} {val : Ptr → Option α} {hdr : Ptr}
    (f : Frame α) (ctx : List (Frame α)) (c : rbtree_color) (l r : Tr α) (x : Ptr) (v : α)
    (h : MemHolds m val hdr (plug (f :: ctx) (Tr.node c l x v r)))
    (hf : f.color = rbtree_color.mBlack) (fuel : Nat) :
    RBTreeInsert_loop hdr (fuel + 1) m x = some m := by
  obtain ⟨hc, hx, hrec, -, -, -, hnd, -⟩ := h.at_node
  have hroot : x ≠ (plug (f :: ctx) (Tr.node c l x v r)).ptr :=
    Tr.ptr_plug_ne_of_mem f ctx _ _ hnd (by simp)
  cases f with
  | L cp p vp pr =>
    obtain ⟨hp, hprec, -⟩ := hc
    simp only [Frame.color] at hf
    subst hf
    simp only [RBTreeInsert_loop, rd_of_ne h.hdr_ne, rd_of_ne hx, rd_of_ne hp, h.hdr, hrec,
      hprec, hroot, ctxParent_cons, Frame.ptr_L, Option.bind_eq_bind, Option.some_bind,
      Option.pure_def, ↓reduceIte, ne_eq, not_true_eq_false, reduceCtorEq, not_false_eq_true]
  | R cp pl p vp =>
    obtain ⟨hp, hprec, -⟩ := hc
    simp only [Frame.color] at hf
    subst hf
    simp only [RBTreeInsert_loop, rd_of_ne h.hdr_ne, rd_of_ne hx, rd_of_ne hp, h.hdr, hrec,
      hprec, hroot, ctxParent_cons, Frame.ptr_R, Option.bind_eq_bind, Option.some_bind,
      Option.pure_def, ↓reduceIte, ne_eq, not_true_eq_false, reduceCtorEq, not_false_eq_true]

theorem uncle_test_red {m : Mem} {val : Ptr → Option α} {par : Ptr}
    (ua ub : Tr α) (u : Ptr) (vu : α)
    (h : TreeAt m val (Tr.node rbtree_color.mRed ua u vu ub) par) :
    (¬ u = 0 ∧ (m u).mColor = rbtree_color.mRed) = True := by
  obtain ⟨hu, hrec, -⟩ := h
  simp [hu, hrec]

theorem uncle_test_black {m : Mem} {val : Ptr → Option α} {par : Ptr} (U : Tr α)
    (h : TreeAt m val U par) (hU : U.color = rbtree_color.mBlack) :
    (¬ U.ptr = 0 ∧ (m U.ptr).mColor = rbtree_color.mRed) = False := by
  cases U with
  | nil => simp [Tr.ptr]
  | node c l u v r =>
    obtain ⟨hu, hrec, -⟩ := h
    simp only [Tr.color] at hU
    subst hU
    simp [hu, hrec, Tr.ptr]

/-- The recolouring step of the loop when the parent is a left child and the uncle is
red. -/
theorem insert_fixup_left_red {m : Mem} {val : Ptr → Option α} {hdr : Ptr}
    (fP : Frame α) (rest : List (Frame α)) (cg : rbtree_color) (g : Ptr) (vg : α)
    (ua ub : Tr α) (u : Ptr) (vu : α) (cs : rbtree_color) (a b : Tr α) (n : Ptr) (v : α)
    (h : MemHolds m val hdr
      (plug (fP :: Frame.L cg g vg (Tr.node rbtree_color.mRed ua u vu ub) :: rest)
        (Tr.node cs a n v b))) :
    ∃ m2, insert_fixup_left hdr m n g = some (m2, g) ∧
      MemHolds m2 val hdr (plug rest (Tr.node rbtree_color.mRed
        ((fP.setColor rbtree_color.mBlack).fill (Tr.node cs a n v b)) g vg
        (Tr.node rbtree_color.mBlack ua u vu ub))) := by
  obtain ⟨hc, hn, hnrec, -⟩ := h.at_node
  cases fP with
  | L cp p vp pr =>
    have hA : MemHolds m val hdr (plug rest (Tr.node cg
      (Tr.node cp (Tr.node cs a n v b) p vp pr) g vg (Tr.node rbtree_color.mRed ua u vu ub))) := h
    obtain ⟨-, hg, hgrec, -, -, hU, -⟩ := hA.at_node
    obtain ⟨m1, e1, h1⟩ := MemHolds.setColor
      (Frame.L cg g vg (Tr.node rbtree_color.mRed ua u vu ub) :: rest) cp _ pr p vp h
      rbtree_color.mBlack
    obtain ⟨m2, e2, h2⟩ := MemHolds.setColor
      (Frame.R cg (Tr.node rbtree_color.mBlack (Tr.node cs a n v b) p vp pr) g vg :: rest)
      rbtree_color.mRed ua ub u vu h1 rbtree_color.mBlack
    obtain ⟨m3, e3, h3⟩ := MemHolds.setColor rest cg
      (Tr.node rbtree_color.mBlack (Tr.node cs a n v b) p vp pr)
      (Tr.node rbtree_color.mBlack ua u vu ub) g vg h2 rbtree_color.mRed
    refine ⟨m3, ?_, h3⟩
    simp only [insert_fixup_left, rd_of_ne hg, rd_of_ne hn, hgrec, hnrec, Tr.ptr_node,
      uncle_test_red ua ub u vu hU, ne_eq, ctxParent_cons, Frame.ptr_L, Option.bind_eq_bind,
      Option.some_bind, Option.pure_def, ↓reduceIte, e1, e2, e3]
  | R cp pl p vp =>
    have hA : MemHolds m val hdr (plug rest (Tr.node cg
      (Tr.node cp pl p vp (Tr.node cs a n v b)) g vg (Tr.node rbtree_color.mRed ua u vu ub))) := h
    obtain ⟨-, hg, hgrec, -, -, hU, -⟩ := hA.at_node
    obtain ⟨m1, e1, h1⟩ := MemHolds.setColor
      (Frame.L cg g vg (Tr.node rbtree_color.mRed ua u vu ub) :: rest) cp pl _ p vp h
      rbtree_color.mBlack
    obtain ⟨m2, e2, h2⟩ := MemHolds.setColor
      (Frame.R cg (Tr.node rbtree_color.mBlack pl p vp (Tr.node cs a n v b)) g vg :: rest)
      rbtree_color.mRed ua ub u vu h1 rbtree_color.mBlack
    obtain ⟨m3, e3, h3⟩ := MemHolds.setColor rest cg
      (Tr.node rbtree_color.mBlack pl p vp (Tr.node cs a n v b))
      (Tr.node rbtree_color.mBlack ua u vu ub) g vg h2 rbtree_color.mRed
    refine ⟨m3, ?_, h3⟩
    simp only [insert_fixup_left, rd_of_ne hg, rd_of_ne hn, hgrec, hnrec, Tr.ptr_node,
      uncle_test_red ua ub u vu hU, ne_eq, ctxParent_cons, Frame.ptr_R, Option.bind_eq_bind,
      Option.some_bind, Option.pure_def, ↓reduceIte, e1, e2, e3]

/-- The rotation step of the loop when the parent is a left child, the uncle is not red and
the new node is a left child: one rotation to the right at the grandparent. -/
theorem insert_fixup_left_LL {m : Mem} {val : Ptr → Option α} {hdr : Ptr}
    (rest : List (Frame α)) (cp : rbtree_color) (p : Ptr) (vp : α) (pr : Tr α)
    (cg : rbtree_color) (g : Ptr) (vg : α) (U : Tr α) (hU : U.color = rbtree_color.mBlack)
    (cs : rbtree_color) (a b : Tr α) (n : Ptr) (v : α)
    (h : MemHolds m val hdr
      (plug (Frame.L cp p vp pr :: Frame.L cg g vg U :: rest) (Tr.node cs a n v b))) :
    ∃ m2, insert_fixup_left hdr m n g = some (m2, n) ∧
      MemHolds m2 val hdr (plug rest (Tr.node rbtree_color.mBlack (Tr.node cs a n v b) p vp
        (Tr.node rbtree_color.mRed pr g vg U))) := by
  obtain ⟨hc, hn, hnrec, -⟩ := h.at_node
  obtain ⟨hp, hprec, -⟩ := hc
  have hA : MemHolds m val hdr (plug rest (Tr.node cg
    (Tr.node cp (Tr.node cs a n v b) p vp pr) g vg U)) := h
  obtain ⟨-, hg, hgrec, -, -, hUt, -⟩ := hA.at_node
  obtain ⟨m1, e1, h1⟩ := MemHolds.setColor (Frame.L cg g vg U :: rest) cp _ pr p vp h
    rbtree_color.mBlack
  obtain ⟨m2, e2, h2⟩ := MemHolds.setColor rest cg
    (Tr.node rbtree_color.mBlack (Tr.node cs a n v b) p vp pr) U g vg h1 rbtree_color.mRed
  obtain ⟨m3, e3, h3⟩ := rotate_right_spec rest rbtree_color.mRed rbtree_color.mBlack
    (Tr.node cs a n v b) pr U g p vg vp h2
  refine ⟨m3, ?_, h3⟩
  simp only [insert_fixup_left, rbtree_is_left_child, rd_of_ne hg, rd_of_ne hn, rd_of_ne hp,
    hgrec, hnrec, hprec, Tr.ptr_node, uncle_test_black U hUt hU, ne_eq, ctxParent_cons,
    Frame.ptr_L, Option.bind_eq_bind, Option.some_bind, Option.pure_def, ↓reduceIte,
    decide_True, decide_False, Bool.not_true, Bool.not_false, Bool.false_eq_true, e1, e2, e3]

/-- The rotation step of the loop when the parent is a left child, the uncle is not red and
the new node is a right child: a rotation to the left at the parent, then one to the right
at the grandparent. -/
theorem insert_fixup_left_LR {m : Mem} {val : Ptr → Option α} {hdr : Ptr}
    (rest : List (Frame α)) (cp : rbtree_color) (pl : Tr α) (p : Ptr) (vp : α)
    (cg : rbtree_color) (g : Ptr) (vg : α) (U : Tr α) (hU : U.color = rbtree_color.mBlack)
    (cs : rbtree_color) (a b : Tr α) (n : Ptr) (v : α)
    (h : MemHolds m val hdr
      (plug (Frame.R cp pl p vp :: Frame.L cg g vg U :: rest) (Tr.node cs a n v b))) :
    ∃ m2, insert_fixup_left hdr m n g = some (m2, p) ∧
      MemHolds m2 val hdr (plug rest (Tr.node rbtree_color.mBlack (Tr.node cp pl p vp a) n v
        (Tr.node rbtree_color.mRed b g vg U))) := by
  obtain ⟨hc, hn, hnrec, -, -, -, hnd, -⟩ := h.at_node
  obtain ⟨hp, hprec, -⟩ := hc
  have hA : MemHolds m val hdr (plug rest (Tr.node cg
    (Tr.node cp pl p vp (Tr.node cs a n v b)) g vg U)) := h
  obtain ⟨-, hg, hgrec, -, -, hUt, -⟩ := hA.at_node
  obtain ⟨m1, e1, h1⟩ := rotate_left_spec (Frame.L cg g vg U :: rest) cp cs pl a b p n vp v h
  have hB : MemHolds m1 val hdr (plug (Frame.L cg g vg U :: rest)
    (Tr.node cs (Tr.node cp pl p vp a) n v b)) := h1
  have hC : MemHolds m1 val hdr (plug (Frame.L cs n v b :: Frame.L cg g vg U :: rest)
    (Tr.node cp pl p vp a)) := h1
  obtain ⟨-, -, hprec1, -⟩ := hC.at_node
  obtain ⟨m2, e2, h2⟩ := MemHolds.setColor (Frame.L cg g vg U :: rest) cs _ b n v hB
    rbtree_color.mBlack
  obtain ⟨m3, e3, h3⟩ := MemHolds.setColor rest cg
    (Tr.node rbtree_color.mBlack (Tr.node cp pl p vp a) n v b) U g vg h2 rbtree_color.mRed
  obtain ⟨m4, e4, h4⟩ := rotate_right_spec rest rbtree_color.mRed rbtree_color.mBlack
    (Tr.node cp pl p vp a) b U g n vg v h3
  have hnp : n ≠ pl.ptr := by
    rcases Tr.ptr_mem_or_nil pl with e | hm
    · rw [e]; exact hn
    · intro e
      rw [← e] at hm
      simp only [ctxBefore, ctxAfter, Tr.ptrs, List.nodup_append, List.nodup_cons,
        List.disjoint_cons_left, List.disjoint_cons_right, List.disjoint_append_left,
        List.disjoint_append_right, List.mem_append, List.mem_cons, not_or] at hnd
      simp [hm] at hnd
  refine ⟨m4, ?_, h4⟩
  simp only [insert_fixup_left, rbtree_is_left_child, rd_of_ne hg, rd_of_ne hn, rd_of_ne hp,
    hgrec, hnrec, hprec, hprec1, Tr.ptr_node, uncle_test_black U hUt hU, ne_eq, ctxParent_cons,
    Frame.ptr_L, Frame.ptr_R, Option.bind_eq_bind, Option.some_bind, Option.pure_def,
    ↓reduceIte, hnp, decide_True, decide_False, Bool.not_true, Bool.not_false,
    Bool.false_eq_true, e1, e2, e3, e4]

/-- The recolouring step of the loop when the parent is a right child and the uncle is
red. -/
theorem insert_fixup_right_red {m : Mem} {val : Ptr → Option α} {hdr : Ptr}
    (fP : Frame α) (rest : List (Frame α)) (cg : rbtree_color) (g : Ptr) (vg : α)
    (ua ub : Tr α) (u : Ptr) (vu : α) (cs : rbtree_color) (a b : Tr α) (n : Ptr) (v : α)
    (h : MemHolds m val hdr
      (plug (fP :: Frame.R cg (Tr.node rbtree_color.mRed ua u vu ub) g vg :: rest)
        (Tr.node cs a n v b))) :
    ∃ m2, insert_fixup_right hdr m n g = some (m2, g) ∧
      MemHolds m2 val hdr (plug rest (Tr.node rbtree_color.mRed
        (Tr.node rbtree_color.mBlack ua u vu ub) g vg
        ((fP.setColor rbtree_color.mBlack).fill (Tr.node cs a n v b)))) := by
  obtain ⟨hc, hn, hnrec, -⟩ := h.at_node
  cases fP with
  | L cp p vp pr =>
    have hA : MemHolds m val hdr (plug rest (Tr.node cg (Tr.node rbtree_color.mRed ua u vu ub)
      g vg (Tr.node cp (Tr.node cs a n v b) p vp pr))) := h
    obtain ⟨-, hg, hgrec, -, hU, -⟩ := hA.at_node
    obtain ⟨m1, e1, h1⟩ := MemHolds.setColor
      (Frame.R cg (Tr.node rbtree_color.mRed ua u vu ub) g vg :: rest) cp _ pr p vp h
      rbtree_color.mBlack
    obtain ⟨m2, e2, h2⟩ := MemHolds.setColor
      (Frame.L cg g vg (Tr.node rbtree_color.mBlack (Tr.node cs a n v b) p vp pr) :: rest)
      rbtree_color.mRed ua ub u vu h1 rbtree_color.mBlack
    obtain ⟨m3, e3, h3⟩ := MemHolds.setColor rest cg
      (Tr.node rbtree_color.mBlack ua u vu ub)
      (Tr.node rbtree_color.mBlack (Tr.node cs a n v b) p vp pr) g vg h2 rbtree_color.mRed
    refine ⟨m3, ?_, h3⟩
    simp only [insert_fixup_right, rd_of_ne hg, rd_of_ne hn, hgrec, hnrec, Tr.ptr_node,
      uncle_test_red ua ub u vu hU, ne_eq, ctxParent_cons, Frame.ptr_L, Option.bind_eq_bind,
      Option.some_bind, Option.pure_def, ↓reduceIte, e1, e2, e3]
  | R cp pl p vp =>
    have hA : MemHolds m val hdr (plug rest (Tr.node cg (Tr.node rbtree_color.mRed ua u vu ub)
      g vg (Tr.node cp pl p vp (Tr.node cs a n v b)))) := h
    obtain ⟨-, hg, hgrec, -, hU, -⟩ := hA.at_node
    obtain ⟨m1, e1, h1⟩ := MemHolds.setColor
      (Frame.R cg (Tr.node rbtree_color.mRed ua u vu ub) g vg :: rest) cp pl _ p vp h
      rbtree_color.mBlack
    obtain ⟨m2, e2, h2⟩ := MemHolds.setColor
      (Frame.L cg g vg (Tr.node rbtree_color.mBlack pl p vp (Tr.node cs a n v b)) :: rest)
      rbtree_color.mRed ua ub u vu h1 rbtree_color.mBlack
    obtain ⟨m3, e3, h3⟩ := MemHolds.setColor rest cg
      (Tr.node rbtree_color.mBlack ua u vu ub)
      (Tr.node rbtree_color.mBlack pl p vp (Tr.node cs a n v b)) g vg h2 rbtree_color.mRed
    refine ⟨m3, ?_, h3⟩
    simp only [insert_fixup_right, rd_of_ne hg, rd_of_ne hn, hgrec, hnrec, Tr.ptr_node,
      uncle_test_red ua ub u vu hU, ne_eq, ctxParent_cons, Frame.ptr_R, Option.bind_eq_bind,
      Option.some_bind, Option.pure_def, ↓reduceIte, e1, e2, e3]

/-- The rotation step of the loop when the parent is a right child, the uncle is not red
and the new node is a right child: one rotation to the left at the grandparent. -/
theorem insert_fixup_right_RR {m : Mem} {val : Ptr → Option α} {hdr : Ptr}
    (rest : List (Frame α)) (cp : rbtree_color) (pl : Tr α) (p : Ptr) (vp : α)
    (cg : rbtree_color) (g : Ptr) (vg : α) (U : Tr α) (hU : U.color = rbtree_color.mBlack)
    (cs : rbtree_color) (a b : Tr α) (n : Ptr) (v : α)
    (h : MemHolds m val hdr
      (plug (Frame.R cp pl p vp :: Frame.R cg U g vg :: rest) (Tr.node cs a n v b))) :
    ∃ m2, insert_fixup_right hdr m n g = some (m2, n) ∧
      MemHolds m2 val hdr (plug rest (Tr.node rbtree_color.mBlack
        (Tr.node rbtree_color.mRed U g vg pl) p vp (Tr.node cs a n v b))) := by
  obtain ⟨hc, hn, hnrec, -, -, -, hnd, -⟩ := h.at_node
  obtain ⟨hp, hprec, -⟩ := hc
  have hA : MemHolds m val hdr (plug rest (Tr.node cg U g vg
    (Tr.node cp pl p vp (Tr.node cs a n v b)))) := h
  obtain ⟨-, hg, hgrec, -, hUt, -⟩ := hA.at_node
  obtain ⟨m1, e1, h1⟩ := MemHolds.setColor (Frame.R cg U g vg :: rest) cp pl _ p vp h
    rbtree_color.mBlack
  obtain ⟨m2, e2, h2⟩ := MemHolds.setColor rest cg U
    (Tr.node rbtree_color.mBlack pl p vp (Tr.node cs a n v b)) g vg h1 rbtree_color.mRed
  obtain ⟨m3, e3, h3⟩ := rotate_left_spec rest rbtree_color.mRed rbtree_color.mBlack
    U pl (Tr.node cs a n v b) g p vg vp h2
  have hnp : n ≠ pl.ptr := by
    rcases Tr.ptr_mem_or_nil pl with e | hm
    · rw [e]; exact hn
    · intro e
      rw [← e] at hm
      simp only [ctxBefore, ctxAfter, Tr.ptrs, List.nodup_append, List.nodup_cons,
        List.disjoint_cons_left, List.disjoint_cons_right, List.disjoint_append_left,
        List.disjoint_append_right, List.mem_append, List.mem_cons, not_or] at hnd
      simp [hm] at hnd
  refine ⟨m3, ?_, h3⟩
  simp only [insert_fixup_right, rbtree_is_left_child, rd_of_ne hg, rd_of_ne hn, rd_of_ne hp,
    hgrec, hnrec, hprec, Tr.ptr_node, uncle_test_black U hUt hU, ne_eq, ctxParent_cons,
    Frame.ptr_R, Option.bind_eq_bind, Option.some_bind, Option.pure_def, ↓reduceIte, hnp,
    decide_True, decide_False, Bool.not_true, Bool.not_false, Bool.false_eq_true, e1, e2, e3]

/-- The rotation step of the loop when the parent is a right child, the uncle is not red
and the new node is a left child: a rotation to the right at the parent, then one to the
left at the grandparent. -/
theorem insert_fixup_right_RL {m : Mem} {val : Ptr → Option α} {hdr : Ptr}
    (rest : List (Frame α)) (cp : rbtree_color) (p : Ptr) (vp : α) (pr : Tr α)
    (cg : rbtree_color) (g : Ptr) (vg : α) (U : Tr α) (hU : U.color = rbtree_color.mBlack)
    (cs : rbtree_color) (a b : Tr α) (n : Ptr) (v : α)
    (h : MemHolds m val hdr
      (plug (Frame.L cp p vp pr :: Frame.R cg U g vg :: rest) (Tr.node cs a n v b))) :
    ∃ m2, insert_fixup_right hdr m n g = some (m2, p) ∧
      MemHolds m2 val hdr (plug rest (Tr.node rbtree_color.mBlack
        (Tr.node rbtree_color.mRed U g vg a) n v (Tr.node cp b p vp pr))) := by
  obtain ⟨hc, hn, hnrec, -⟩ := h.at_node
  obtain ⟨hp, hprec, -⟩ := hc
  have hA : MemHolds m val hdr (plug rest (Tr.node cg U g vg
    (Tr.node cp (Tr.node cs a n v b) p vp pr))) := h
  obtain ⟨-, hg, hgrec, -, hUt, -⟩ := hA.at_node
  obtain ⟨m1, e1, h1⟩ := rotate_right_spec (Frame.R cg U g vg :: rest) cp cs a b pr p n vp v h
  have hB : MemHolds m1 val hdr (plug (Frame.R cg U g vg :: rest)
    (Tr.node cs a n v (Tr.node cp b p vp pr))) := h1
  have hC : MemHolds m1 val hdr (plug (Frame.R cs a n v :: Frame.R cg U g vg :: rest)
    (Tr.node cp b p vp pr)) := h1
  obtain ⟨-, -, hprec1, -⟩ := hC.at_node
  obtain ⟨m2, e2, h2⟩ := MemHolds.setColor (Frame.R cg U g vg :: rest) cs a _ n v hB
    rbtree_color.mBlack
  obtain ⟨m3, e3, h3⟩ := MemHolds.setColor rest cg U
    (Tr.node rbtree_color.mBlack a n v (Tr.node cp b p vp pr)) g vg h2 rbtree_color.mRed
  obtain ⟨m4, e4, h4⟩ := rotate_left_spec rest rbtree_color.mRed rbtree_color.mBlack
    U a (Tr.node cp b p vp pr) g n vg v h3
  refine ⟨m4, ?_, h4⟩
  simp only [insert_fixup_right, rbtree_is_left_child, rd_of_ne hg, rd_of_ne hn, rd_of_ne hp,
    hgrec, hnrec, hprec, hprec1, Tr.ptr_node, uncle_test_black U hUt hU, ne_eq,
    ctxParent_cons, Frame.ptr_L, Frame.ptr_R, Option.bind_eq_bind, Option.some_bind,
    Option.pure_def, ↓reduceIte, decide_True, decide_False, Bool.not_true, Bool.not_false,
    Bool.false_eq_true, e1, e2, e3, e4]

theorem ctxRootBlack_tail2 (f g : Frame α) (rest : List (Frame α))
    (h : ctxRootBlack (f :: g :: rest)) : ctxRootBlack rest := by
  cases rest with
  | nil => trivial
  | cons r rest => exact h

/-- One turn of the loop of `RBTreeInsert` below a red parent that is a left child. -/
theorem RBTreeInsert_loop_step_left {m : Mem} {val : Ptr → Option α} {hdr : Ptr}
    (fP : Frame α) (hP : fP.color = rbtree_color.mRed) (rest : List (Frame α))
    (cg : rbtree_color) (g : Ptr) (vg : α) (U : Tr α)
    (cs : rbtree_color) (a b : Tr α) (n : Ptr) (v : α)
    (h : MemHolds m val hdr (plug (fP :: Frame.L cg g vg U :: rest) (Tr.node cs a n v b)))
    (fuel : Nat) :
    RBTreeInsert_loop hdr (fuel + 1) m n =
      (insert_fixup_left hdr m n g).bind (fun r => RBTreeInsert_loop hdr fuel r.1 r.2) := by
  obtain ⟨hc, hx, hrec, -, -, -, hnd, -⟩ := h.at_node
  have hroot : n ≠ (plug (fP :: Frame.L cg g vg U :: rest) (Tr.node cs a n v b)).ptr :=
    Tr.ptr_plug_ne_of_mem fP _ _ _ hnd (by simp)
  cases fP with
  | L cp p vp pr =>
    obtain ⟨hp, hprec, -, -, hg, hgrec, -⟩ := hc
    simp only [Frame.color] at hP
    subst hP
    simp only [RBTreeInsert_loop, rbtree_is_left_child, rd_of_ne h.hdr_ne, rd_of_ne hx,
      rd_of_ne hp, rd_of_ne hg, h.hdr, hrec, hprec, hgrec, hroot, ctxParent_cons, Frame.ptr_L,
      Option.bind_eq_bind, Option.some_bind, Option.pure_def, ↓reduceIte, ne_eq,
      not_true_eq_false, reduceCtorEq, not_false_eq_true, decide_True]
  | R cp pl p vp =>
    obtain ⟨hp, hprec, -, -, hg, hgrec, -⟩ := hc
    simp only [Frame.color] at hP
    subst hP
    simp only [RBTreeInsert_loop, rbtree_is_left_child, rd_of_ne h.hdr_ne, rd_of_ne hx,
      rd_of_ne hp, rd_of_ne hg, h.hdr, hrec, hprec, hgrec, hroot, ctxParent_cons, Frame.ptr_L,
      Frame.ptr_R, Option.bind_eq_bind, Option.some_bind, Option.pure_def, ↓reduceIte, ne_eq,
      not_true_eq_false, reduceCtorEq, not_false_eq_true, decide_True]

/-- One turn of the loop of `RBTreeInsert` below a red parent that is a right child. -/
theorem RBTreeInsert_loop_step_right {m : Mem} {val : Ptr → Option α} {hdr : Ptr}
    (fP : Frame α) (hP : fP.color = rbtree_color.mRed) (rest : List (Frame α))
    (cg : rbtree_color) (g : Ptr) (vg : α) (U : Tr α)
    (cs : rbtree_color) (a b : Tr α) (n : Ptr) (v : α)
    (h : MemHolds m val hdr (plug (fP :: Frame.R cg U g vg :: rest) (Tr.node cs a n v b)))
    (fuel : Nat) :
    RBTreeInsert_loop hdr (fuel + 1) m n =
      (insert_fixup_right hdr m n g).bind (fun r => RBTreeInsert_loop hdr fuel r.1 r.2) := by
  obtain ⟨hc, hx, hrec, -, -, -, hnd, -⟩ := h.at_node
  have hroot : n ≠ (plug (fP :: Frame.R cg U g vg :: rest) (Tr.node cs a n v b)).ptr :=
    Tr.ptr_plug_ne_of_mem fP _ _ _ hnd (by simp)
  have hpU : fP.ptr ≠ U.ptr := by
    rcases Tr.ptr_mem_or_nil U with e | hm
    · rw [e]
      cases fP with
      | L cp p vp pr => exact hc.1
      | R cp pl p vp => exact hc.1
    · intro e
      rw [← e] at hm
      cases fP <;>
      · simp only [ctxBefore, ctxAfter, Tr.ptrs, List.nodup_append, List.nodup_cons,
          List.disjoint_cons_left, List.disjoint_cons_right, List.disjoint_append_left,
          List.disjoint_append_right, List.mem_append, List.mem_cons, not_or, Frame.ptr_L,
          Frame.ptr_R] at hnd hm
        simp [hm] at hnd
  cases fP with
  | L cp p vp pr =>
    obtain ⟨hp, hprec, -, -, hg, hgrec, -⟩ := hc
    simp only [Frame.color] at hP
    subst hP
    simp only [Frame.ptr_L] at hpU
    simp only [RBTreeInsert_loop, rbtree_is_left_child, rd_of_ne h.hdr_ne, rd_of_ne hx,
      rd_of_ne hp, rd_of_ne hg, h.hdr, hrec, hprec, hgrec, hroot, hpU, ctxParent_cons,
      Frame.ptr_L, Frame.ptr_R, Option.bind_eq_bind, Option.some_bind, Option.pure_def,
      ↓reduceIte, ne_eq, not_true_eq_false, reduceCtorEq, not_false_eq_true, decide_True,
      decide_False, Bool.false_eq_true]
  | R cp pl p vp =>
    obtain ⟨hp, hprec, -, -, hg, hgrec, -⟩ := hc
    simp only [Frame.color] at hP
    subst hP
    simp only [Frame.ptr_R] at hpU
    simp only [RBTreeInsert_loop, rbtree_is_left_child, rd_of_ne h.hdr_ne, rd_of_ne hx,
      rd_of_ne hp, rd_of_ne hg, h.hdr, hrec, hprec, hgrec, hroot, hpU, ctxParent_cons,
      Frame.ptr_L, Frame.ptr_R, Option.bind_eq_bind, Option.some_bind, Option.pure_def,
      ↓reduceIte, ne_eq, not_true_eq_false, reduceCtorEq, not_false_eq_true, decide_True,
      decide_False, Bool.false_eq_true]

theorem insFix_black (fP fG : Frame α) (rest : List (Frame α)) (s : Tr α)
    (h : fP.color = rbtree_color.mBlack) :
    insFix (fP :: fG :: rest) s = plug (fP :: fG :: rest) s := by
  simp only [insFix, h]

theorem insFix_L_red (fP : Frame α) (h : fP.color = rbtree_color.mRed)
    (rest : List (Frame α)) (cg : rbtree_color) (g : Ptr) (vg : α) (ua ub : Tr α) (u : Ptr)
    (vu : α) (s : Tr α) :
    insFix (fP :: Frame.L cg g vg (Tr.node rbtree_color.mRed ua u vu ub) :: rest) s =
      insFix rest (Tr.node rbtree_color.mRed ((fP.setColor rbtree_color.mBlack).fill s) g vg
        (Tr.node rbtree_color.mBlack ua u vu ub)) := by
  simp only [insFix, h]

theorem insFix_R_red (fP : Frame α) (h : fP.color = rbtree_color.mRed)
    (rest : List (Frame α)) (cg : rbtree_color) (g : Ptr) (vg : α) (ua ub : Tr α) (u : Ptr)
    (vu : α) (s : Tr α) :
    insFix (fP :: Frame.R cg (Tr.node rbtree_color.mRed ua u vu ub) g vg :: rest) s =
      insFix rest (Tr.node rbtree_color.mRed (Tr.node rbtree_color.mBlack ua u vu ub) g vg
        ((fP.setColor rbtree_color.mBlack).fill s)) := by
  simp only [insFix, h]

theorem insFix_LL (rest : List (Frame α)) (p : Ptr) (vp : α) (pr : Tr α)
    (cg : rbtree_color) (g : Ptr) (vg : α) (U : Tr α) (hU : U.color = rbtree_color.mBlack)
    (s : Tr α) :
    insFix (Frame.L rbtree_color.mRed p vp pr :: Frame.L cg g vg U :: rest) s =
      plug rest (Tr.node rbtree_color.mBlack s p vp (Tr.node rbtree_color.mRed pr g vg U)) := by
  cases U with
  | nil => simp only [insFix, Frame.color]
  | node cu ua u vu ub =>
    simp only [Tr.color] at hU
    subst hU
    simp only [insFix, Frame.color]

theorem insFix_LR (rest : List (Frame α)) (pl : Tr α) (p : Ptr) (vp : α)
    (cg : rbtree_color) (g : Ptr) (vg : α) (U : Tr α) (hU : U.color = rbtree_color.mBlack)
    (cs : rbtree_color) (a b : Tr α) (n : Ptr) (v : α) :
    insFix (Frame.R rbtree_color.mRed pl p vp :: Frame.L cg g vg U :: rest)
        (Tr.node cs a n v b) =
      plug rest (Tr.node rbtree_color.mBlack (Tr.node rbtree_color.mRed pl p vp a) n v
        (Tr.node rbtree_color.mRed b g vg U)) := by
  cases U with
  | nil => simp only [insFix, Frame.color]
  | node cu ua u vu ub =>
    simp only [Tr.color] at hU
    subst hU
    simp only [insFix, Frame.color]

theorem insFix_RR (rest : List (Frame α)) (pl : Tr α) (p : Ptr) (vp : α)
    (cg : rbtree_color) (g : Ptr) (vg : α) (U : Tr α) (hU : U.color = rbtree_color.mBlack)
    (s : Tr α) :
    insFix (Frame.R rbtree_color.mRed pl p vp :: Frame.R cg U g vg :: rest) s =
      plug rest (Tr.node rbtree_color.mBlack (Tr.node rbtree_color.mRed U g vg pl) p vp s) := by
  cases U with
  | nil => simp only [insFix, Frame.color]
  | node cu ua u vu ub =>
    simp only [Tr.color] at hU
    subst hU
    simp only [insFix, Frame.color]

theorem insFix_RL (rest : List (Frame α)) (p : Ptr) (vp : α) (pr : Tr α)
    (cg : rbtree_color) (g : Ptr) (vg : α) (U : Tr α) (hU : U.color = rbtree_color.mBlack)
    (cs : rbtree_color) (a b : Tr α) (n : Ptr) (v : α) :
    insFix (Frame.L rbtree_color.mRed p vp pr :: Frame.R cg U g vg :: rest)
        (Tr.node cs a n v b) =
      plug rest (Tr.node rbtree_color.mBlack (Tr.node rbtree_color.mRed U g vg a) n v
        (Tr.node rbtree_color.mRed b p vp pr)) := by
  cases U with
  | nil => simp only [insFix, Frame.color]
  | node cu ua u vu ub =>
    simp only [Tr.color] at hU
    subst hU
    simp only [insFix, Frame.color]

theorem Tr.color_black_or_red (U : Tr α) :
    U.color = rbtree_color.mBlack ∨ ∃ ua u vu ub, U = Tr.node rbtree_color.mRed ua u vu ub := by
  cases U with
  | nil => exact Or.inl rfl
  | node c ua u vu ub =>
    cases c
    · exact Or.inr ⟨ua, u, vu, ub, rfl⟩
    · exact Or.inl rfl

/-- The loop of `RBTreeInsert`, started at a node below a path whose root is black, ends
and leaves the memory holding the shape `insFix`. -/
theorem RBTreeInsert_loop_spec {val : Ptr → Option α} {hdr : Ptr} (k : Nat) :
    ∀ (ctx : List (Frame α)), ctx.length ≤ k → ∀ (m : Mem) (cs : rbtree_color) (a b : Tr α)
      (n : Ptr) (v : α), MemHolds m val hdr (plug ctx (Tr.node cs a n v b)) →
      ctxRootBlack ctx → ∀ fuel, ctx.length + 1 ≤ fuel →
      ∃ m2, RBTreeInsert_loop hdr fuel m n = some m2 ∧
        MemHolds m2 val hdr (insFix ctx (Tr.node cs a n v b)) := by
  induction k with
  | zero =>
    intro ctx hk m cs a b n v h _ fuel hf
    obtain rfl : ctx = [] := List.length_eq_zero.1 (Nat.le_zero.1 hk)
    obtain ⟨f, rfl⟩ : ∃ f, fuel = f + 1 := ⟨fuel - 1, by omega⟩
    exact ⟨m, RBTreeInsert_loop_root cs a b n v h f, h⟩
  | succ k ih =>
    intro ctx hk m cs a b n v h hs fuel hf
    obtain ⟨f, rfl⟩ : ∃ f, fuel = f + 1 := ⟨fuel - 1, by omega⟩
    match ctx, hk, h, hs, hf with
    | [], _, h, _, _ => exact ⟨m, RBTreeInsert_loop_root cs a b n v h f, h⟩
    | [fP], _, h, hs, _ => exact ⟨m, RBTreeInsert_loop_black fP [] cs a b n v h hs f, h⟩
    | fP :: fG :: rest, hk, h, hs, hf =>
      have hrest : ctxRootBlack rest := ctxRootBlack_tail2 fP fG rest hs
      have hlen : rest.length ≤ k := by simp only [List.length_cons] at hk; omega
      simp only [List.length_cons] at hf
      obtain ⟨f2, rfl⟩ : ∃ f2, f = f2 + 1 := ⟨f - 1, by omega⟩
      rcases hPc : fP.color with _ | _
      · -- red parent
        cases fG with
        | L cg g vg U =>
          rw [RBTreeInsert_loop_step_left fP hPc rest cg g vg U cs a b n v h]
          rcases Tr.color_black_or_red U with hU | ⟨ua, u, vu, ub, rfl⟩
          · cases fP with
            | L cp p vp pr =>
              simp only [Frame.color] at hPc
              subst hPc
              obtain ⟨m2, e, h2⟩ := insert_fixup_left_LL rest _ p vp pr cg g vg U hU cs a b n v h
              rw [e, insFix_LL rest p vp pr cg g vg U hU]
              exact ⟨m2, RBTreeInsert_loop_black
                (Frame.L rbtree_color.mBlack p vp (Tr.node rbtree_color.mRed pr g vg U)) rest
                cs a b n v h2 rfl f2, h2⟩
            | R cp pl p vp =>
              simp only [Frame.color] at hPc
              subst hPc
              obtain ⟨m2, e, h2⟩ := insert_fixup_left_LR rest _ pl p vp cg g vg U hU cs a b n v h
              rw [e, insFix_LR rest pl p vp cg g vg U hU]
              exact ⟨m2, RBTreeInsert_loop_black
                (Frame.L rbtree_color.mBlack n v (Tr.node rbtree_color.mRed b g vg U)) rest
                rbtree_color.mRed pl a p vp h2 rfl f2, h2⟩
          · obtain ⟨m2, e, h2⟩ := insert_fixup_left_red fP rest cg g vg ua ub u vu cs a b n v h
            rw [e, insFix_L_red fP hPc]
            exact ih rest hlen m2 _ _ _ g vg h2 hrest (f2 + 1) (by omega)
        | R cg U g vg =>
          rw [RBTreeInsert_loop_step_right fP hPc rest cg g vg U cs a b n v h]
          rcases Tr.color_black_or_red U with hU | ⟨ua, u, vu, ub, rfl⟩
          · cases fP with
            | L cp p vp pr =>
              simp only [Frame.color] at hPc
              subst hPc
              obtain ⟨m2, e, h2⟩ := insert_fixup_right_RL rest _ p vp pr cg g vg U hU cs a b n v h
              rw [e, insFix_RL rest p vp pr cg g vg U hU]
              exact ⟨m2, RBTreeInsert_loop_black
                (Frame.R rbtree_color.mBlack (Tr.node rbtree_color.mRed U g vg a) n v) rest
                rbtree_color.mRed b pr p vp h2 rfl f2, h2⟩
            | R cp pl p vp =>
              simp only [Frame.color] at hPc
              subst hPc
              obtain ⟨m2, e, h2⟩ := insert_fixup_right_RR rest _ pl p vp cg g vg U hU cs a b n v h
              rw [e, insFix_RR rest pl p vp cg g vg U hU]
              exact ⟨m2, RBTreeInsert_loop_black
                (Frame.R rbtree_color.mBlack (Tr.node rbtree_color.mRed U g vg pl) p vp) rest
                cs a b n v h2 rfl f2, h2⟩
          · obtain ⟨m2, e, h2⟩ := insert_fixup_right_red fP rest cg g vg ua ub u vu cs a b n v h
            rw [e, insFix_R_red fP hPc]
            exact ih rest hlen m2 _ _ _ g vg h2 hrest (f2 + 1) (by omega)
      · refine ⟨m, RBTreeInsert_loop_black fP _ cs a b n v h hPc _, ?_⟩
        rw [insFix_black fP fG rest _ hPc]
        exact h


/-! ## Insertion: linking the new node, and `RBTreeInsert` as a whole -/

set_option autoImplicit false

variable {α : Type}

theorem TreeAt_update_val_of_not_mem {m : Mem} {val : Ptr → Option α} {T : Tr α} {par q : Ptr}
    {x : Option α} (hq : q ∉ T.ptrs) :
    TreeAt m (Function.update val q x) T par ↔ TreeAt m val T par := by
  constructor
  · intro h
    apply TreeAt_congr h
    intro p hp
    have : p ≠ q := fun e => hq (e ▸ hp)
    simp [Function.update_noteq this]
  · intro h
    apply TreeAt_congr h
    intro p hp
    have : p ≠ q := fun e => hq (e ▸ hp)
    simp [Function.update_noteq this]

theorem CtxAt_update_val_of_not_mem {m : Mem} {val : Ptr → Option α} {hdr : Ptr}
    {ctx : List (Frame α)} {hole q : Ptr} {x : Option α}
    (hq1 : q ∉ ctxBefore ctx) (hq2 : q ∉ ctxAfter ctx) :
    CtxAt m (Function.update val q x) hdr ctx hole ↔ CtxAt m val hdr ctx hole := by
  constructor
  · intro h
    apply CtxAt_congr h
    intro p hp
    have : p ≠ q := by
      intro e
      rw [e, List.mem_append] at hp
      exact hp.elim hq1 hq2
    simp [Function.update_noteq this]
  · intro h
    apply CtxAt_congr h
    intro p hp
    have : p ≠ q := by
      intro e
      rw [e, List.mem_append] at hp
      exact hp.elim hq1 hq2
    simp [Function.update_noteq this]

/-- The hole link of a laid-out path can be redirected by rewriting the one link of the
parent. -/
theorem CtxAt_L_relink {m m2 : Mem} {val val2 : Ptr → Option α} {hdr : Ptr}
    (c : rbtree_color) (p : Ptr) (vp : α) (r : Tr α) (rest : List (Frame α)) (hole hole2 : Ptr)
    (h : CtxAt m val hdr (Frame.L c p vp r :: rest) hole)
    (hnd : (ctxBefore rest ++ (p :: r.ptrs) ++ ctxAfter rest).Nodup)
    (hp : m2 p = { m p with mLeft := hole2 })
    (hm : ∀ q, q ≠ p → q ∈ ctxBefore rest ++ (p :: r.ptrs) ++ ctxAfter rest → m2 q = m q)
    (hv : ∀ q, q ∈ ctxBefore rest ++ (p :: r.ptrs) ++ ctxAfter rest → val2 q = val q) :
    CtxAt m2 val2 hdr (Frame.L c p vp r :: rest) hole2 := by
  obtain ⟨h0, hrec, hval, hr, hc⟩ := h
  simp only [List.nodup_append, List.nodup_cons, List.disjoint_cons_left,
    List.disjoint_cons_right, List.disjoint_append_left, List.disjoint_append_right,
    List.mem_append, List.mem_cons, not_or] at hnd
  refine ⟨h0, ?_, ?_, ?_, ?_⟩
  · rw [hp, hrec]
  · rw [hv p (by simp), hval]
  · apply TreeAt_congr hr
    intro q hq
    have hqp : q ≠ p := by rintro rfl; simp [hq] at hnd
    exact ⟨hm q hqp (by simp [hq]), hv q (by simp [hq])⟩
  · apply CtxAt_congr hc
    intro q hq
    have hqp : q ≠ p := by
      rintro rfl
      rw [List.mem_append] at hq
      rcases hq with hq | hq <;> simp [hq] at hnd
    rw [List.mem_append] at hq
    refine ⟨hm q hqp ?_, hv q ?_⟩ <;> rcases hq with hq | hq <;> simp [hq]

theorem CtxAt_R_relink {m m2 : Mem} {val val2 : Ptr → Option α} {hdr : Ptr}
    (c : rbtree_color) (l : Tr α) (p : Ptr) (vp : α) (rest : List (Frame α)) (hole hole2 : Ptr)
    (h : CtxAt m val hdr (Frame.R c l p vp :: rest) hole)
    (hnd : (ctxBefore rest ++ (l.ptrs ++ [p]) ++ ctxAfter rest).Nodup)
    (hp : m2 p = { m p with mRight := hole2 })
    (hm : ∀ q, q ≠ p → q ∈ ctxBefore rest ++ (l.ptrs ++ [p]) ++ ctxAfter rest → m2 q = m q)
    (hv : ∀ q, q ∈ ctxBefore rest ++ (l.ptrs ++ [p]) ++ ctxAfter rest → val2 q = val q) :
    CtxAt m2 val2 hdr (Frame.R c l p vp :: rest) hole2 := by
  obtain ⟨h0, hrec, hval, hr, hc⟩ := h
  simp only [List.nodup_append, List.nodup_cons, List.disjoint_cons_left,
    List.disjoint_cons_right, List.disjoint_append_left, List.disjoint_append_right,
    List.mem_append, List.mem_cons, not_or, List.nodup_nil, List.mem_singleton,
    List.disjoint_singleton, List.not_mem_nil] at hnd
  refine ⟨h0, ?_, ?_, ?_, ?_⟩
  · rw [hp, hrec]
  · rw [hv p (by simp), hval]
  · apply TreeAt_congr hr
    intro q hq
    have hqp : q ≠ p := by rintro rfl; simp [hq] at hnd
    exact ⟨hm q hqp (by simp [hq]), hv q (by simp [hq])⟩
  · apply CtxAt_congr hc
    intro q hq
    have hqp : q ≠ p := by
      rintro rfl
      rw [List.mem_append] at hq
      rcases hq with hq | hq <;> simp [hq] at hnd
    rw [List.mem_append] at hq
    refine ⟨hm q hqp ?_, hv q ?_⟩ <;> rcases hq with hq | hq <;> simp [hq]

/-- Linking a fresh node into a null link of the tree. -/
theorem RBTreeInsert_link_spec {m : Mem} {val : Ptr → Option α} {hdr : Ptr}
    (ctx : List (Frame α)) (pNew : Ptr) (v : α)
    (h : MemHolds m val hdr (plug ctx Tr.nil)) (h0 : pNew ≠ 0) (hh : pNew ≠ hdr)
    (hfresh : pNew ∉ (plug ctx Tr.nil).ptrs) :
    ∃ m1, RBTreeInsert_link m pNew (ctxParent hdr ctx) hdr (holeIsLeft ctx) = some m1 ∧
      MemHolds m1 (Function.update val pNew (some v)) hdr
        (plug ctx (Tr.node rbtree_color.mRed Tr.nil pNew v Tr.nil)) := by
  obtain ⟨hd0, hc, -, hnd, hn, hhdr⟩ := (MemHolds_plug_iff ctx Tr.nil).1 h
  rw [Tr.ptrs_plug] at hfresh
  match ctx, hc, hnd, hn, hhdr, hfresh with
  | [], hc, hnd, hn, hhdr, hfresh =>
    simp only [RBTreeInsert_link, holeIsLeft, ctxParent_nil, h0, ↓reduceIte,
      setLeft_of_ne _ hd0, setParent_of_ne _ hd0, setRight_of_ne _ hd0, Option.bind_eq_bind,
      Option.some_bind, Option.pure_def, Option.some.injEq, exists_eq_left',
      Function.update_same, Function.update_noteq, upd_ne_l hh, ne_eq, not_false_eq_true]
    refine ⟨hd0, ⟨h0, ?_, ?_, trivial, trivial⟩, ?_, ?_, ?_⟩
    · simp only [upd_ne_r hh, Function.update_same, Tr.ptr_nil]
    · simp only [Function.update_same]
    · simp [plug, Tr.ptrs]
    · simpa [plug, Tr.ptrs] using hh.symm
    · simp only [Function.update_same, plug, Tr.ptrs, Tr.ptr_node, List.nil_append, lastD_cons,
        lastD_nil, firstD_cons, hhdr]
  | Frame.L c p vp r :: rest, hc, hnd, hn, hhdr, hfresh =>
    have hp0 : p ≠ 0 := hc.1
    have hprec := hc.2.1
    simp only [ctxBefore, ctxAfter, Tr.ptrs_nil, List.append_nil, List.mem_append,
      List.mem_cons, not_or, List.cons_append] at hn hfresh
    have hnd2 := hnd
    simp only [ctxBefore, ctxAfter, Tr.ptrs_nil, List.append_nil, List.nodup_append,
      List.nodup_cons, List.disjoint_cons_left, List.disjoint_cons_right,
      List.disjoint_append_left, List.disjoint_append_right, List.mem_append, List.mem_cons,
      not_or, List.cons_append] at hnd2
    have hph : p ≠ hdr := fun e => hn.2.1 e.symm
    have hpn : p ≠ pNew := fun e => hfresh.2.1 e.symm
    have hfreshL : pNew ∉ ctxBefore rest ++ (p :: r.ptrs) ++ ctxAfter rest := by
      simp only [List.mem_append, List.mem_cons, not_or, hfresh, not_false_eq_true, and_self]
    have hnL : hdr ∉ ctxBefore rest ++ (p :: r.ptrs) ++ ctxAfter rest := by
      simp only [List.mem_append, List.mem_cons, not_or, hn, not_false_eq_true, and_self]
    simp only [ctxBefore, ctxAfter, Tr.ptrs_nil, List.append_nil] at hhdr
    cases hb : ctxBefore rest with
    | nil =>
      rw [hb] at hhdr
      simp only [List.nil_append, List.cons_append, firstD_cons] at hhdr
      simp only [RBTreeInsert_link, holeIsLeft, ctxParent_cons, Frame.ptr_L, h0, ↓reduceIte,
        setLeft_of_ne _ hd0, setLeft_of_ne _ hp0, rd_of_ne hd0, hph, hhdr, Option.bind_eq_bind,
        Option.some_bind, Option.pure_def, Option.some.injEq, exists_eq_left',
        Function.update_same, Function.update_noteq, upd_ne_l hh, upd_ne_r hph, upd_ne_r hph.symm,
        upd_ne_l hpn, upd_ne_r hpn,
        ne_eq, not_false_eq_true]
      refine (MemHolds_plug_iff _ _).2 ⟨hd0, CtxAt_L_relink c p vp r rest _ pNew hc ?_ ?_ ?_ ?_,
        ⟨h0, ?_, ?_, trivial, trivial⟩, ?_, ?_, ?_⟩
      · simpa [ctxBefore, ctxAfter] using hnd
      · simp only [upd_ne_r hph, Function.update_same]
      · intro q hqp hq
        have hqn : q ≠ pNew := fun e => hfreshL (e ▸ hq)
        have hqh : q ≠ hdr := fun e => hnL (e ▸ hq)
        simp only [Function.update_noteq hqn, Function.update_noteq hqp,
          Function.update_noteq hqh]
      · intro q hq
        have hqn : q ≠ pNew := fun e => hfreshL (e ▸ hq)
        simp only [Function.update_noteq hqn]
      · simp only [upd_ne_r hh, upd_ne_l hpn, Function.update_same, Tr.ptr_nil, ctxParent_cons,
          Frame.ptr_L]
      · simp only [Function.update_same]
      · simp only [ctxBefore, ctxAfter, Tr.ptrs, List.nil_append, List.nodup_append,
          List.nodup_cons, List.disjoint_cons_left, List.disjoint_cons_right,
          List.disjoint_append_left, List.disjoint_append_right, List.mem_append, List.mem_cons,
          not_or, List.cons_append, List.nodup_nil, List.not_mem_nil, List.disjoint_nil_left,
          List.disjoint_nil_right, not_false_eq_true, true_and, and_true, hnd2, hfresh,
          Ne.symm hpn, hpn, and_self]
      · simp only [ctxBefore, ctxAfter, Tr.ptrs, List.nil_append, List.mem_append, List.mem_cons,
          not_or, List.cons_append, hn, hh.symm, List.not_mem_nil, not_false_eq_true, and_self]
      · simp only [Function.update_same, ctxBefore, ctxAfter, Tr.ptrs, hb, List.nil_append,
          List.cons_append, firstD_cons, lastD_cons]
        rw [Tr.ptr_plug_ne_nil (Frame.L c p vp r) rest Tr.nil
          (Tr.node rbtree_color.mRed Tr.nil pNew v Tr.nil)]
    | cons b0 bs =>
      have hpb : p ≠ b0 := by
        intro e
        apply hnd2.2.2.1
        rw [hb, e]
        exact List.mem_cons_self _ _
      rw [hb] at hhdr
      simp only [List.nil_append, List.cons_append, firstD_cons] at hhdr
      simp only [RBTreeInsert_link, holeIsLeft, ctxParent_cons, Frame.ptr_L, h0, ↓reduceIte,
        setLeft_of_ne _ hd0, setLeft_of_ne _ hp0, rd_of_ne hd0, hph, hpb, hhdr,
        Option.bind_eq_bind,
        Option.some_bind, Option.pure_def, Option.some.injEq, exists_eq_left',
        Function.update_same, Function.update_noteq, upd_ne_l hh, upd_ne_r hph, upd_ne_r hph.symm,
        upd_ne_l hpn, upd_ne_r hpn,
        ne_eq, not_false_eq_true]
      refine (MemHolds_plug_iff _ _).2 ⟨hd0, CtxAt_L_relink c p vp r rest _ pNew hc ?_ ?_ ?_ ?_,
        ⟨h0, ?_, ?_, trivial, trivial⟩, ?_, ?_, ?_⟩
      · simpa [ctxBefore, ctxAfter] using hnd
      · simp only [Function.update_same]
      · intro q hqp hq
        have hqn : q ≠ pNew := fun e => hfreshL (e ▸ hq)
        simp only [Function.update_noteq hqn, Function.update_noteq hqp]
      · intro q hq
        have hqn : q ≠ pNew := fun e => hfreshL (e ▸ hq)
        simp only [Function.update_noteq hqn]
      · simp only [upd_ne_l hpn, Function.update_same, Tr.ptr_nil, ctxParent_cons,
          Frame.ptr_L]
      · simp only [Function.update_same]
      · simp only [ctxBefore, ctxAfter, Tr.ptrs, List.nil_append, List.nodup_append,
          List.nodup_cons, List.disjoint_cons_left, List.disjoint_cons_right,
          List.disjoint_append_left, List.disjoint_append_right, List.mem_append, List.mem_cons,
          not_or, List.cons_append, List.nodup_nil, List.not_mem_nil, List.disjoint_nil_left,
          List.disjoint_nil_right, not_false_eq_true, true_and, and_true, hnd2, hfresh,
          Ne.symm hpn, hpn, and_self]
      · simp only [ctxBefore, ctxAfter, Tr.ptrs, List.nil_append, List.mem_append, List.mem_cons,
          not_or, List.cons_append, hn, hh.symm, List.not_mem_nil, not_false_eq_true, and_self]
      · simp only [upd_ne_r hph.symm, upd_ne_l hh, hhdr, ctxBefore, ctxAfter, Tr.ptrs, hb,
          List.nil_append, List.cons_append, firstD_cons, lastD_cons, List.append_assoc,
          lastD_append_cons]
        rw [Tr.ptr_plug_ne_nil (Frame.L c p vp r) rest Tr.nil
          (Tr.node rbtree_color.mRed Tr.nil pNew v Tr.nil)]
  | Frame.R c l p vp :: rest, hc, hnd, hn, hhdr, hfresh =>
    have hp0 : p ≠ 0 := hc.1
    have hprec := hc.2.1
    simp only [ctxBefore, ctxAfter, Tr.ptrs_nil, List.append_nil, List.mem_append,
      List.mem_cons, not_or, List.cons_append, List.not_mem_nil, or_false,
      List.mem_singleton] at hn hfresh
    have hnd2 := hnd
    simp only [ctxBefore, ctxAfter, Tr.ptrs_nil, List.append_nil, List.nodup_append,
      List.nodup_cons, List.disjoint_cons_left, List.disjoint_cons_right,
      List.disjoint_append_left, List.disjoint_append_right, List.mem_append, List.mem_cons,
      not_or, List.cons_append, List.nodup_nil, List.mem_singleton,
      List.disjoint_singleton, List.not_mem_nil, List.singleton_disjoint] at hnd2
    have hph : p ≠ hdr := fun e => hn.1.2.2 e.symm
    have hpn : p ≠ pNew := fun e => hfresh.1.2.2 e.symm
    have hfreshL : pNew ∉ ctxBefore rest ++ (l.ptrs ++ [p]) ++ ctxAfter rest := by
      simp only [List.mem_append, List.mem_cons, not_or, hfresh, not_false_eq_true, and_self,
        List.mem_singleton, List.not_mem_nil, or_false]
    have hnL : hdr ∉ ctxBefore rest ++ (l.ptrs ++ [p]) ++ ctxAfter rest := by
      simp only [List.mem_append, List.mem_cons, not_or, hn, not_false_eq_true, and_self,
        List.mem_singleton, List.not_mem_nil, or_false]
    simp only [ctxBefore, ctxAfter, Tr.ptrs_nil, List.append_nil] at hhdr
    cases ha : ctxAfter rest with
    | nil =>
      rw [ha] at hhdr
      simp only [List.append_nil, ← List.append_assoc, lastD_append_cons, lastD_nil] at hhdr
      simp only [RBTreeInsert_link, holeIsLeft, ctxParent_cons, Frame.ptr_R, h0, ↓reduceIte,
        setRight_of_ne _ hd0, setRight_of_ne _ hp0, rd_of_ne hd0, hph, hhdr, Option.bind_eq_bind,
        Option.some_bind, Option.pure_def, Option.some.injEq, exists_eq_left',
        Function.update_same, Function.update_noteq, upd_ne_l hh, upd_ne_r hph, upd_ne_r hph.symm,
        upd_ne_l hpn, upd_ne_r hpn, Bool.false_eq_true,
        ne_eq, not_false_eq_true]
      refine (MemHolds_plug_iff _ _).2 ⟨hd0, CtxAt_R_relink c l p vp rest _ pNew hc ?_ ?_ ?_ ?_,
        ⟨h0, ?_, ?_, trivial, trivial⟩, ?_, ?_, ?_⟩
      · simpa [ctxBefore, ctxAfter] using hnd
      · simp only [upd_ne_r hph, Function.update_same]
      · intro q hqp hq
        have hqn : q ≠ pNew := fun e => hfreshL (e ▸ hq)
        have hqh : q ≠ hdr := fun e => hnL (e ▸ hq)
        simp only [Function.update_noteq hqn, Function.update_noteq hqp,
          Function.update_noteq hqh]
      · intro q hq
        have hqn : q ≠ pNew := fun e => hfreshL (e ▸ hq)
        simp only [Function.update_noteq hqn]
      · simp only [upd_ne_r hh, upd_ne_l hpn, Function.update_same, Tr.ptr_nil, ctxParent_cons,
          Frame.ptr_R]
      · simp only [Function.update_same]
      · simp only [ctxBefore, ctxAfter, Tr.ptrs, List.nil_append, List.nodup_append,
          List.nodup_cons, List.disjoint_cons_left, List.disjoint_cons_right,
          List.disjoint_append_left, List.disjoint_append_right, List.mem_append, List.mem_cons,
          not_or, List.cons_append, List.nodup_nil, List.not_mem_nil, List.disjoint_nil_left,
          List.disjoint_nil_right, not_false_eq_true, true_and, and_true, hnd2, hfresh,
          Ne.symm hpn, hpn, and_self, List.mem_singleton, List.disjoint_singleton,
          List.singleton_disjoint, or_false]
      · simp only [ctxBefore, ctxAfter, Tr.ptrs, List.nil_append, List.mem_append, List.mem_cons,
          not_or, List.cons_append, hn, hh.symm, List.not_mem_nil, not_false_eq_true, and_self,
          List.mem_singleton, or_false]
      · simp only [Function.update_same, ctxBefore, ctxAfter, Tr.ptrs, ha, List.nil_append,
          List.append_nil, List.cons_append, firstD_cons, lastD_cons, lastD_append_cons, lastD_nil,
          List.append_assoc, firstD_append_cons]
        rw [Tr.ptr_plug_ne_nil (Frame.R c l p vp) rest Tr.nil
          (Tr.node rbtree_color.mRed Tr.nil pNew v Tr.nil)]
        simp only [← List.append_assoc, firstD_append_cons, lastD_append_cons, lastD_cons,
          lastD_nil]
    | cons a0 as =>
      have hpa : p ≠ lastD as a0 := by
        intro e
        apply hnd2.2.2.2.2.1
        rw [ha, e]
        rcases lastD_mem as a0 with ⟨h1, -⟩ | h1
        · rw [h1]; exact List.mem_cons_self _ _
        · exact List.mem_cons_of_mem _ h1
      rw [ha] at hhdr
      simp only [lastD_append_cons] at hhdr
      simp only [RBTreeInsert_link, holeIsLeft, ctxParent_cons, Frame.ptr_R, h0, ↓reduceIte,
        setRight_of_ne _ hd0, setRight_of_ne _ hp0, rd_of_ne hd0, hph, hpa, hhdr,
        Option.bind_eq_bind,
        Option.some_bind, Option.pure_def, Option.some.injEq, exists_eq_left',
        Function.update_same, Function.update_noteq, upd_ne_l hh, upd_ne_r hph, upd_ne_r hph.symm,
        upd_ne_l hpn, upd_ne_r hpn, Bool.false_eq_true,
        ne_eq, not_false_eq_true]
      refine (MemHolds_plug_iff _ _).2 ⟨hd0, CtxAt_R_relink c l p vp rest _ pNew hc ?_ ?_ ?_ ?_,
        ⟨h0, ?_, ?_, trivial, trivial⟩, ?_, ?_, ?_⟩
      · simpa [ctxBefore, ctxAfter] using hnd
      · simp only [Function.update_same]
      · intro q hqp hq
        have hqn : q ≠ pNew := fun e => hfreshL (e ▸ hq)
        simp only [Function.update_noteq hqn, Function.update_noteq hqp]
      · intro q hq
        have hqn : q ≠ pNew := fun e => hfreshL (e ▸ hq)
        simp only [Function.update_noteq hqn]
      · simp only [upd_ne_l hpn, Function.update_same, Tr.ptr_nil, ctxParent_cons,
          Frame.ptr_R]
      · simp only [Function.update_same]
      · simp only [ctxBefore, ctxAfter, Tr.ptrs, List.nil_append, List.nodup_append,
          List.nodup_cons, List.disjoint_cons_left, List.disjoint_cons_right,
          List.disjoint_append_left, List.disjoint_append_right, List.mem_append, List.mem_cons,
          not_or, List.cons_append, List.nodup_nil, List.not_mem_nil, List.disjoint_nil_left,
          List.disjoint_nil_right, not_false_eq_true, true_and, and_true, hnd2, hfresh,
          Ne.symm hpn, hpn, and_self, List.mem_singleton, List.disjoint_singleton,
          List.singleton_disjoint, or_false]
      · simp only [ctxBefore, ctxAfter, Tr.ptrs, List.nil_append, List.mem_append, List.mem_cons,
          not_or, List.cons_append, hn, hh.symm, List.not_mem_nil, not_false_eq_true, and_self,
          List.mem_singleton, or_false]
      · simp only [upd_ne_r hph.symm, upd_ne_l hh, hhdr, ctxBefore, ctxAfter, Tr.ptrs, ha,
          List.nil_append, List.cons_append, firstD_cons, lastD_cons, lastD_append_cons]
        rw [Tr.ptr_plug_ne_nil (Frame.R c l p vp) rest Tr.nil
          (Tr.node rbtree_color.mRed Tr.nil pNew v Tr.nil)]
        simp only [← List.append_assoc, firstD_append_cons, lastD_append_cons, lastD_cons,
          lastD_nil]

theorem plug_elems_congr (ctx : List (Frame α)) (t t2 : Tr α) (h : t.elems = t2.elems) :
    (plug ctx t).elems = (plug ctx t2).elems := by
  induction ctx generalizing t t2 with
  | nil => exact h
  | cons f ctx ih =>
    apply ih
    cases f <;> simp only [Frame.fill, Tr.elems, h]

/-- The rebalancing loop keeps the in-order sequence of nodes and payloads. -/
theorem insFix_elems (k : Nat) : ∀ (ctx : List (Frame α)), ctx.length ≤ k →
    ∀ (cs : rbtree_color) (a b : Tr α) (n : Ptr) (v : α),
    (insFix ctx (Tr.node cs a n v b)).elems = (plug ctx (Tr.node cs a n v b)).elems := by
  induction k with
  | zero =>
    intro ctx hk cs a b n v
    obtain rfl : ctx = [] := List.length_eq_zero.1 (Nat.le_zero.1 hk)
    rfl
  | succ k ih =>
    intro ctx hk cs a b n v
    match ctx, hk with
    | [], _ => rfl
    | [fP], _ => rfl
    | fP :: fG :: rest, hk =>
      have hlen : rest.length ≤ k := by simp only [List.length_cons] at hk; omega
      rcases hPc : fP.color with _ | _
      · cases fG with
        | L cg g vg U =>
          rcases Tr.color_black_or_red U with hU | ⟨ua, u, vu, ub, rfl⟩
          · cases fP with
            | L cp p vp pr =>
              simp only [Frame.color] at hPc
              subst hPc
              rw [insFix_LL rest p vp pr cg g vg U hU]
              apply plug_elems_congr
              simp only [Frame.fill, Tr.elems, List.append_assoc, List.cons_append]
            | R cp pl p vp =>
              simp only [Frame.color] at hPc
              subst hPc
              rw [insFix_LR rest pl p vp cg g vg U hU]
              apply plug_elems_congr
              simp only [Frame.fill, Tr.elems, List.append_assoc, List.cons_append]
          · rw [insFix_L_red fP hPc, ih rest hlen]
            apply plug_elems_congr
            cases fP <;> simp only [Frame.fill, Frame.setColor, Tr.elems]
        | R cg U g vg =>
          rcases Tr.color_black_or_red U with hU | ⟨ua, u, vu, ub, rfl⟩
          · cases fP with
            | L cp p vp pr =>
              simp only [Frame.color] at hPc
              subst hPc
              rw [insFix_RL rest p vp pr cg g vg U hU]
              apply plug_elems_congr
              simp only [Frame.fill, Tr.elems, List.append_assoc, List.cons_append]
            | R cp pl p vp =>
              simp only [Frame.color] at hPc
              subst hPc
              rw [insFix_RR rest pl p vp cg g vg U hU]
              apply plug_elems_congr
              simp only [Frame.fill, Tr.elems, List.append_assoc, List.cons_append]
          · rw [insFix_R_red fP hPc, ih rest hlen]
            apply plug_elems_congr
            cases fP <;> simp only [Frame.fill, Frame.setColor, Tr.elems]
      · rw [insFix_black fP fG rest _ hPc]

theorem plug_elems_ne_nil (ctx : List (Frame α)) (t : Tr α) (h : t.elems ≠ []) :
    (plug ctx t).elems ≠ [] := by
  induction ctx generalizing t with
  | nil => exact h
  | cons f ctx ih =>
    apply ih
    cases f <;> simp [Frame.fill, Tr.elems]

theorem Tr.setColor_elems (c : rbtree_color) (T : Tr α) : (T.setColor c).elems = T.elems := by
  cases T <;> rfl

/-- Colouring the root black, the last statement of `RBTreeInsert`. -/
theorem MemHolds_blacken {m : Mem} {val : Ptr → Option α} {hdr : Ptr} {T : Tr α}
    (h : MemHolds m val hdr T) (hT : T.elems ≠ []) :
    ∃ m2, setColor m T.ptr rbtree_color.mBlack = some m2 ∧
      MemHolds m2 val hdr (T.setColor rbtree_color.mBlack) := by
  cases T with
  | nil => exact absurd rfl hT
  | node c l x v r => exact MemHolds.setColor [] c l r x v h rbtree_color.mBlack

/-- The whole of `RBTreeInsert`: a fresh node linked into a null link of a tree with a black
root leaves the memory holding the rebalanced shape with a black root. -/
theorem RBTreeInsert_spec {m : Mem} {val : Ptr → Option α} {hdr : Ptr}
    (ctx : List (Frame α)) (pNew : Ptr) (v : α)
    (h : MemHolds m val hdr (plug ctx Tr.nil)) (h0 : pNew ≠ 0) (hh : pNew ≠ hdr)
    (hfresh : pNew ∉ (plug ctx Tr.nil).ptrs) (hs : ctxRootBlack ctx)
    (fuel : Nat) (hf : ctx.length + 1 ≤ fuel) :
    ∃ m2, RBTreeInsert m fuel pNew (ctxParent hdr ctx) hdr (holeIsLeft ctx) = some m2 ∧
      MemHolds m2 (Function.update val pNew (some v)) hdr
        ((insFix ctx (Tr.node rbtree_color.mRed Tr.nil pNew v Tr.nil)).setColor
          rbtree_color.mBlack) := by
  obtain ⟨m1, e1, h1⟩ := RBTreeInsert_link_spec ctx pNew v h h0 hh hfresh
  have hne : (insFix ctx (Tr.node rbtree_color.mRed Tr.nil pNew v Tr.nil)).elems ≠ [] := by
    rw [insFix_elems ctx.length ctx (le_refl _)]
    exact plug_elems_ne_nil ctx _ (by simp [Tr.elems])
  match ctx, h1, hs, hf, hne, e1 with
  | [], h1, hs, hf, hne, e1 =>
    obtain ⟨m2, e2, h2⟩ := MemHolds.setColor [] _ _ _ pNew v h1 rbtree_color.mBlack
    obtain ⟨m3, e3, h3⟩ := RBTreeInsert_loop_spec fuel [] (Nat.zero_le _) m2 _ _ _ pNew v h2
      trivial fuel hf
    obtain ⟨m4, e4, h4⟩ := MemHolds_blacken h3 (by simp [insFix, Tr.elems])
    refine ⟨m4, ?_, h4⟩
    have hr := h3.hdr
    simp only [RBTreeInsert, e1, rd_of_ne h1.hdr_ne, h1.hdr, plug, Tr.ptr_node, ↓reduceIte,
      Option.bind_eq_bind, Option.some_bind, Option.pure_def, e2, e3, rd_of_ne h3.hdr_ne, hr]
    exact e4
  | f :: rest, h1, hs, hf, hne, e1 =>
    obtain ⟨-, -, -, -, -, -, hnd, -⟩ := h1.at_node
    have hroot : pNew ≠ (plug (f :: rest)
        (Tr.node rbtree_color.mRed Tr.nil pNew v Tr.nil)).ptr :=
      Tr.ptr_plug_ne_of_mem f rest _ _ hnd (by simp)
    obtain ⟨m2, e2, h2⟩ := MemHolds.setColor (f :: rest) _ _ _ pNew v h1 rbtree_color.mRed
    obtain ⟨m3, e3, h3⟩ := RBTreeInsert_loop_spec fuel (f :: rest) (by omega) m2 _ _ _ pNew v h2
      hs fuel hf
    obtain ⟨m4, e4, h4⟩ := MemHolds_blacken h3 hne
    refine ⟨m4, ?_, h4⟩
    have hr := h3.hdr
    simp only [RBTreeInsert, e1, rd_of_ne h1.hdr_ne, h1.hdr, hroot, ↓reduceIte,
      Option.bind_eq_bind, Option.some_bind, Option.pure_def, e2, e3, rd_of_ne h3.hdr_ne, hr]
    exact e4


/-! ## Insertion: the red-black invariants of the rebalanced shape -/

set_option autoImplicit false

variable {α : Type}

theorem Tr.color_node (c : rbtree_color) (l r : Tr α) (p : Ptr) (v : α) :
    (Tr.node c l p v r).color = c := rfl

theorem Tr.noRedRed_black {l r : Tr α} (p : Ptr) (v : α) (hl : l.noRedRed) (hr : r.noRedRed) :
    (Tr.node rbtree_color.mBlack l p v r).noRedRed :=
  ⟨fun hc => (by cases hc), hl, hr⟩

theorem Tr.blackHeight_black_mk {l r : Tr α} (p : Ptr) (v : α) {k : Nat}
    (hl : l.blackHeight k) (hr : r.blackHeight k) :
    (Tr.node rbtree_color.mBlack l p v r).blackHeight (k + 1) := ⟨hl, hr⟩

theorem ctxColor_nil : ctxColor ([] : List (Frame α)) = rbtree_color.mBlack := rfl

theorem ctxColor_cons (f : Frame α) (ctx : List (Frame α)) : ctxColor (f :: ctx) = f.color := rfl

theorem Tr.blackHeight_node (c : rbtree_color) (l r : Tr α) (p : Ptr) (v : α) (n : Nat) :
    (Tr.node c l p v r).blackHeight n ↔
      ∃ k, l.blackHeight k ∧ r.blackHeight k ∧
        n = (if c = rbtree_color.mBlack then k + 1 else k) := by
  cases c with
  | mRed =>
    simp only [Tr.blackHeight, reduceCtorEq, ↓reduceIte]
    constructor
    · intro h; exact ⟨n, h.1, h.2, rfl⟩
    · rintro ⟨k, h1, h2, rfl⟩; exact ⟨h1, h2⟩
  | mBlack =>
    cases n with
    | zero =>
      simp only [Tr.blackHeight, ↓reduceIte, false_iff]
      rintro ⟨k, -, -, h⟩
      omega
    | succ n =>
      simp only [Tr.blackHeight, ↓reduceIte]
      constructor
      · intro h; exact ⟨n, h.1, h.2, rfl⟩
      · rintro ⟨k, h1, h2, h3⟩
        obtain rfl : n = k := by omega
        exact ⟨h1, h2⟩

theorem Tr.blackHeight_red (l r : Tr α) (p : Ptr) (v : α) (n : Nat) :
    (Tr.node rbtree_color.mRed l p v r).blackHeight n ↔ l.blackHeight n ∧ r.blackHeight n := by
  simp only [Tr.blackHeight]

theorem Tr.blackHeight_black (l r : Tr α) (p : Ptr) (v : α) (n : Nat) :
    (Tr.node rbtree_color.mBlack l p v r).blackHeight (n + 1) ↔
      l.blackHeight n ∧ r.blackHeight n := by
  simp only [Tr.blackHeight]

theorem Tr.blackHeight_unique (T : Tr α) : ∀ n k, T.blackHeight n → T.blackHeight k → n = k := by
  induction T with
  | nil =>
    intro n k h1 h2
    simp only [Tr.blackHeight] at h1 h2
    omega
  | node c l p v r ihl _ =>
    intro n k h1 h2
    obtain ⟨a, ha, -, rfl⟩ := (Tr.blackHeight_node c l r p v n).1 h1
    obtain ⟨b, hb, -, rfl⟩ := (Tr.blackHeight_node c l r p v k).1 h2
    rw [ihl a b ha hb]

/-- The colour invariants of a whole shape, seen from a hole. -/
theorem plug_RB_iff (ctx : List (Frame α)) : ∀ (t : Tr α),
    ((plug ctx t).noRedRed ∧ ∃ n, (plug ctx t).blackHeight n) ↔
      (t.noRedRed ∧ (ctxColor ctx = rbtree_color.mRed → t.color = rbtree_color.mBlack) ∧
        ∃ k, t.blackHeight k ∧ CtxRB ctx k) := by
  induction ctx with
  | nil =>
    intro t
    simp only [plug, ctxColor_nil, reduceCtorEq, false_implies, CtxRB, and_true, true_and]
  | cons f ctx ih =>
    intro t
    show ((plug ctx (f.fill t)).noRedRed ∧ ∃ n, (plug ctx (f.fill t)).blackHeight n) ↔ _
    rw [ih]
    cases f with
    | L c p v r =>
      simp only [Frame.fill, Tr.noRedRed, Tr.color, ctxColor_cons, Frame.color, CtxRB,
        Tr.blackHeight_node]
      constructor
      · rintro ⟨⟨h1, h2, h3⟩, h4, k, ⟨j, h5, h6, rfl⟩, h7⟩
        exact ⟨h2, fun hc => (h1 hc).1, j, h5, h3, h6,
          fun hc => ⟨(h1 hc).2, by
            cases hcc : ctxColor ctx with
            | mRed => rw [h4 hcc] at hc; cases hc
            | mBlack => rfl⟩, h7⟩
      · rintro ⟨h1, h2, k, h3, h4, h5, h6, h7⟩
        refine ⟨⟨fun hc => ⟨h2 hc, (h6 hc).1⟩, h1, h4⟩, ?_, _, ⟨k, h3, h5, rfl⟩, h7⟩
        intro hcc
        cases c with
        | mRed => rw [(h6 rfl).2] at hcc; cases hcc
        | mBlack => rfl
    | R c l p v =>
      simp only [Frame.fill, Tr.noRedRed, Tr.color, ctxColor_cons, Frame.color, CtxRB,
        Tr.blackHeight_node]
      constructor
      · rintro ⟨⟨h1, h2, h3⟩, h4, k, ⟨j, h5, h6, rfl⟩, h7⟩
        exact ⟨h3, fun hc => (h1 hc).2, j, h6, h2, h5,
          fun hc => ⟨(h1 hc).1, by
            cases hcc : ctxColor ctx with
            | mRed => rw [h4 hcc] at hc; cases hc
            | mBlack => rfl⟩, h7⟩
      · rintro ⟨h1, h2, k, h3, h4, h5, h6, h7⟩
        refine ⟨⟨fun hc => ⟨(h6 hc).1, h2 hc⟩, h4, h1⟩, ?_, _, ⟨k, h5, h3, rfl⟩, h7⟩
        intro hcc
        cases c with
        | mRed => rw [(h6 rfl).2] at hcc; cases hcc
        | mBlack => rfl

theorem CtxRB_red_L (p : Ptr) (v : α) (r : Tr α) (rest : List (Frame α)) (k : Nat) :
    CtxRB (Frame.L rbtree_color.mRed p v r :: rest) k ↔
      r.noRedRed ∧ r.blackHeight k ∧ r.color = rbtree_color.mBlack ∧
        ctxColor rest = rbtree_color.mBlack ∧ CtxRB rest k := by
  simp only [CtxRB, true_implies, reduceCtorEq, ↓reduceIte, and_assoc]

theorem CtxRB_red_R (l : Tr α) (p : Ptr) (v : α) (rest : List (Frame α)) (k : Nat) :
    CtxRB (Frame.R rbtree_color.mRed l p v :: rest) k ↔
      l.noRedRed ∧ l.blackHeight k ∧ l.color = rbtree_color.mBlack ∧
        ctxColor rest = rbtree_color.mBlack ∧ CtxRB rest k := by
  simp only [CtxRB, true_implies, reduceCtorEq, ↓reduceIte, and_assoc]

theorem CtxRB_black_L (p : Ptr) (v : α) (r : Tr α) (rest : List (Frame α)) (k : Nat) :
    CtxRB (Frame.L rbtree_color.mBlack p v r :: rest) k ↔
      r.noRedRed ∧ r.blackHeight k ∧ CtxRB rest (k + 1) := by
  simp only [CtxRB, reduceCtorEq, false_implies, true_and, ↓reduceIte]

theorem CtxRB_black_R (l : Tr α) (p : Ptr) (v : α) (rest : List (Frame α)) (k : Nat) :
    CtxRB (Frame.R rbtree_color.mBlack l p v :: rest) k ↔
      l.noRedRed ∧ l.blackHeight k ∧ CtxRB rest (k + 1) := by
  simp only [CtxRB, reduceCtorEq, false_implies, true_and, ↓reduceIte]

/-- The rebalancing loop restores the colour invariants, up to the colour of the root. -/
theorem insFix_RB (k0 : Nat) : ∀ (ctx : List (Frame α)), ctx.length ≤ k0 →
    ∀ (a b : Tr α) (n : Ptr) (v : α) (k : Nat),
    a.color = rbtree_color.mBlack → b.color = rbtree_color.mBlack →
    a.noRedRed → b.noRedRed → a.blackHeight k → b.blackHeight k →
    CtxRB ctx k → ctxRootBlack ctx →
    (insFix ctx (Tr.node rbtree_color.mRed a n v b)).noRedRed ∧
      ∃ j, (insFix ctx (Tr.node rbtree_color.mRed a n v b)).blackHeight j := by
  induction k0 with
  | zero =>
    intro ctx hk a b n v k ha hb hna hnb hba hbb _ _
    obtain rfl : ctx = [] := List.length_eq_zero.1 (Nat.le_zero.1 hk)
    exact ⟨⟨fun _ => ⟨ha, hb⟩, hna, hnb⟩, k, hba, hbb⟩
  | succ k0 ih =>
    intro ctx hk a b n v k ha hb hna hnb hba hbb hctx hroot
    have hs : (Tr.node rbtree_color.mRed a n v b).noRedRed := ⟨fun _ => ⟨ha, hb⟩, hna, hnb⟩
    have hsb : (Tr.node rbtree_color.mRed a n v b).blackHeight k := ⟨hba, hbb⟩
    match ctx, hk, hctx, hroot with
    | [], _, _, _ => exact ⟨hs, k, hsb⟩
    | [fP], _, hctx, hroot =>
      refine (plug_RB_iff [fP] _).2 ⟨hs, ?_, k, hsb, hctx⟩
      intro h
      have hroot2 : fP.color = rbtree_color.mBlack := hroot
      rw [ctxColor_cons, hroot2] at h
      cases h
    | fP :: fG :: rest, hk, hctx, hroot =>
      have hlen : rest.length ≤ k0 := by simp only [List.length_cons] at hk; omega
      have hrest : ctxRootBlack rest := ctxRootBlack_tail2 fP fG rest hroot
      cases fP with
      | L cp p vp pr =>
        rcases hPc : cp with _ | _
        · subst hPc
          obtain ⟨h1, h2, h8, h9, hG⟩ := (CtxRB_red_L _ _ _ _ _).1 hctx
          cases fG with
          | L cg g vg U =>
            rw [ctxColor_cons] at h9
            simp only [Frame.color] at h9
            subst h9
            obtain ⟨h4, h5, h7⟩ := (CtxRB_black_L _ _ _ _ _).1 hG
            rcases Tr.color_black_or_red U with hU | ⟨ua, u, vu, ub, rfl⟩
            · rw [insFix_LL rest p vp pr _ g vg U hU]
              refine (plug_RB_iff rest _).2 ⟨?_, fun _ => rfl, k + 1, ?_, h7⟩
              · simp only [Tr.noRedRed, Tr.color_node, h1, h8, hU, h4, ha, hb, hna, hnb, reduceCtorEq,
                  false_implies, implies_true, and_self, true_and]
              · simp only [Tr.blackHeight_black, Tr.blackHeight_red, hba, hbb, h2, h5, and_self]
            · rw [insFix_L_red (Frame.L rbtree_color.mRed p vp pr) rfl]
              exact ih rest hlen _ _ g vg (k + 1) rfl rfl (Tr.noRedRed_black p vp hs h1)
                (Tr.noRedRed_black u vu h4.2.1 h4.2.2) (Tr.blackHeight_black_mk p vp hsb h2)
                (Tr.blackHeight_black_mk u vu h5.1 h5.2) h7 hrest
          | R cg U g vg =>
            rw [ctxColor_cons] at h9
            simp only [Frame.color] at h9
            subst h9
            obtain ⟨h4, h5, h7⟩ := (CtxRB_black_R _ _ _ _ _).1 hG
            rcases Tr.color_black_or_red U with hU | ⟨ua, u, vu, ub, rfl⟩
            · rw [insFix_RL rest p vp pr _ g vg U hU]
              refine (plug_RB_iff rest _).2 ⟨?_, fun _ => rfl, k + 1, ?_, h7⟩
              · simp only [Tr.noRedRed, Tr.color_node, h1, h8, hU, h4, ha, hb, hna, hnb, reduceCtorEq,
                  false_implies, implies_true, and_self, true_and]
              · simp only [Tr.blackHeight_black, Tr.blackHeight_red, hba, hbb, h2, h5, and_self]
            · rw [insFix_R_red (Frame.L rbtree_color.mRed p vp pr) rfl]
              exact ih rest hlen _ _ g vg (k + 1) rfl rfl (Tr.noRedRed_black u vu h4.2.1 h4.2.2)
                (Tr.noRedRed_black p vp hs h1) (Tr.blackHeight_black_mk u vu h5.1 h5.2)
                (Tr.blackHeight_black_mk p vp hsb h2) h7 hrest
        · subst hPc
          rw [insFix_black (Frame.L rbtree_color.mBlack p vp pr) _ rest _ rfl]
          exact (plug_RB_iff _ _).2
            ⟨hs, fun h => by simp [ctxColor_cons, Frame.color] at h, k, hsb, hctx⟩
      | R cp pl p vp =>
        rcases hPc : cp with _ | _
        · subst hPc
          obtain ⟨h1, h2, h8, h9, hG⟩ := (CtxRB_red_R _ _ _ _ _).1 hctx
          cases fG with
          | L cg g vg U =>
            rw [ctxColor_cons] at h9
            simp only [Frame.color] at h9
            subst h9
            obtain ⟨h4, h5, h7⟩ := (CtxRB_black_L _ _ _ _ _).1 hG
            rcases Tr.color_black_or_red U with hU | ⟨ua, u, vu, ub, rfl⟩
            · rw [insFix_LR rest pl p vp _ g vg U hU]
              refine (plug_RB_iff rest _).2 ⟨?_, fun _ => rfl, k + 1, ?_, h7⟩
              · simp only [Tr.noRedRed, Tr.color_node, h1, h8, hU, h4, ha, hb, hna, hnb, reduceCtorEq,
                  false_implies, implies_true, and_self, true_and]
              · simp only [Tr.blackHeight_black, Tr.blackHeight_red, hba, hbb, h2, h5, and_self]
            · rw [insFix_L_red (Frame.R rbtree_color.mRed pl p vp) rfl]
              exact ih rest hlen _ _ g vg (k + 1) rfl rfl (Tr.noRedRed_black p vp h1 hs)
                (Tr.noRedRed_black u vu h4.2.1 h4.2.2) (Tr.blackHeight_black_mk p vp h2 hsb)
                (Tr.blackHeight_black_mk u vu h5.1 h5.2) h7 hrest
          | R cg U g vg =>
            rw [ctxColor_cons] at h9
            simp only [Frame.color] at h9
            subst h9
            obtain ⟨h4, h5, h7⟩ := (CtxRB_black_R _ _ _ _ _).1 hG
            rcases Tr.color_black_or_red U with hU | ⟨ua, u, vu, ub, rfl⟩
            · rw [insFix_RR rest pl p vp _ g vg U hU]
              refine (plug_RB_iff rest _).2 ⟨?_, fun _ => rfl, k + 1, ?_, h7⟩
              · simp only [Tr.noRedRed, Tr.color_node, h1, h8, hU, h4, ha, hb, hna, hnb, reduceCtorEq,
                  false_implies, implies_true, and_self, true_and]
              · simp only [Tr.blackHeight_black, Tr.blackHeight_red, hba, hbb, h2, h5, and_self]
            · rw [insFix_R_red (Frame.R rbtree_color.mRed pl p vp) rfl]
              exact ih rest hlen _ _ g vg (k + 1) rfl rfl (Tr.noRedRed_black u vu h4.2.1 h4.2.2)
                (Tr.noRedRed_black p vp h1 hs) (Tr.blackHeight_black_mk u vu h5.1 h5.2)
                (Tr.blackHeight_black_mk p vp h2 hsb) h7 hrest
        · subst hPc
          rw [insFix_black (Frame.R rbtree_color.mBlack pl p vp) _ rest _ rfl]
          exact (plug_RB_iff _ _).2
            ⟨hs, fun h => by simp [ctxColor_cons, Frame.color] at h, k, hsb, hctx⟩

theorem Tr.setColor_black_RB (T : Tr α) (h1 : T.noRedRed) (h2 : ∃ n, T.blackHeight n)
    (h3 : T.elems ≠ []) : RedBlack (T.setColor rbtree_color.mBlack) := by
  cases T with
  | nil => exact absurd rfl h3
  | node c l p v r =>
    obtain ⟨n, hn⟩ := h2
    obtain ⟨k, hl, hr, -⟩ := (Tr.blackHeight_node c l r p v n).1 hn
    exact ⟨rfl, ⟨fun hc => (by cases hc), h1.2.1, h1.2.2⟩, k + 1,
      (Tr.blackHeight_black _ _ _ _ _).2 ⟨hl, hr⟩⟩

theorem plug_color (f : Frame α) (ctx : List (Frame α)) (t t2 : Tr α) :
    (plug (f :: ctx) t).color = (plug (f :: ctx) t2).color := by
  induction ctx generalizing f t t2 with
  | nil => cases f <;> rfl
  | cons g ctx ih => exact ih g _ _

theorem ctxRootBlack_of_color (ctx : List (Frame α)) (t : Tr α)
    (h : (plug ctx t).color = rbtree_color.mBlack) (hne : ctx ≠ []) : ctxRootBlack ctx := by
  induction ctx generalizing t with
  | nil => exact absurd rfl hne
  | cons f ctx ih =>
    cases ctx with
    | nil => cases f <;> exact h
    | cons g rest => exact ih (f.fill t) h (by simp)

/-- Inserting a red leaf into a null link of a red-black tree and rebalancing gives a
red-black tree. -/
theorem insFix_RedBlack (ctx : List (Frame α)) (n : Ptr) (v : α)
    (h : RedBlack (plug ctx Tr.nil)) :
    ctxRootBlack ctx ∧
    RedBlack ((insFix ctx (Tr.node rbtree_color.mRed Tr.nil n v Tr.nil)).setColor
      rbtree_color.mBlack) := by
  obtain ⟨hc, hn, hb⟩ := h
  obtain ⟨-, -, k, hk, hctx⟩ := (plug_RB_iff ctx Tr.nil).1 ⟨hn, hb⟩
  have hk0 : k = 0 := hk
  subst hk0
  have hroot : ctxRootBlack ctx := by
    cases ctx with
    | nil => trivial
    | cons f rest => exact ctxRootBlack_of_color _ _ hc (by simp)
  refine ⟨hroot, ?_⟩
  obtain ⟨h1, h2⟩ := insFix_RB ctx.length ctx (le_refl _) Tr.nil Tr.nil n v 0 rfl rfl trivial
    trivial rfl rfl hctx hroot
  refine Tr.setColor_black_RB _ h1 h2 ?_
  rw [insFix_elems ctx.length ctx (le_refl _)]
  exact plug_elems_ne_nil ctx _ (by simp [Tr.elems])


/-! ## Insertion: `DoInsert` on the tree object, and the descents that find the link -/

set_option autoImplicit false

section insertion

variable {α κ : Type} (KeyOfT : α → κ) (KeyCompare : κ → κ → Bool)

theorem Tr.elems_plug (ctx : List (Frame α)) (t : Tr α) :
    (plug ctx t).elems = ctxBeforeE ctx ++ t.elems ++ ctxAfterE ctx := by
  induction ctx generalizing t with
  | nil => simp [plug, ctxBeforeE, ctxAfterE]
  | cons f ctx ih =>
    cases f <;> simp [plug, ctxBeforeE, ctxAfterE, ih, Frame.fill, Tr.elems]

theorem ctxBefore_eq_map (ctx : List (Frame α)) :
    ctxBefore ctx = (ctxBeforeE ctx).map Prod.fst := by
  induction ctx with
  | nil => rfl
  | cons f ctx ih =>
    cases f <;> simp [ctxBefore, ctxBeforeE, ih, Tr.ptrs_eq_map_elems]

theorem ctxAfter_eq_map (ctx : List (Frame α)) :
    ctxAfter ctx = (ctxAfterE ctx).map Prod.fst := by
  induction ctx with
  | nil => rfl
  | cons f ctx ih =>
    cases f <;> simp [ctxAfter, ctxAfterE, ih, Tr.ptrs_eq_map_elems]

theorem Tr.vals_plug (ctx : List (Frame α)) (t : Tr α) :
    (plug ctx t).vals =
      (ctxBeforeE ctx).map Prod.snd ++ t.vals ++ (ctxAfterE ctx).map Prod.snd := by
  simp only [Tr.vals_eq_map_elems, Tr.elems_plug, List.map_append]

/-- The shape after an insertion into a null link has the new payload between the ones
before and after the link, in in-order. -/
theorem insFix_vals (ctx : List (Frame α)) (n : Ptr) (v : α) :
    ((insFix ctx (Tr.node rbtree_color.mRed Tr.nil n v Tr.nil)).setColor
        rbtree_color.mBlack).vals =
      (ctxBeforeE ctx).map Prod.snd ++ v :: (ctxAfterE ctx).map Prod.snd := by
  rw [Tr.vals_eq_map_elems, Tr.setColor_elems, insFix_elems ctx.length ctx (le_refl _),
    Tr.elems_plug]
  simp [Tr.elems]

theorem insFix_ptrs (ctx : List (Frame α)) (n : Ptr) (v : α) :
    ((insFix ctx (Tr.node rbtree_color.mRed Tr.nil n v Tr.nil)).setColor
        rbtree_color.mBlack).ptrs = ctxBefore ctx ++ n :: ctxAfter ctx := by
  rw [Tr.ptrs_eq_map_elems, Tr.setColor_elems, insFix_elems ctx.length ctx (le_refl _),
    Tr.elems_plug, ctxBefore_eq_map, ctxAfter_eq_map]
  simp [Tr.elems]

/-- `DoInsert` below the parent of a null link of a red-black tree, on the side of the
link: the node handed out by the allocator is linked there and the tree rebalanced. -/
theorem DoInsert_spec {t : rbtree α} (ctx : List (Frame α)) (value : α)
    (h : t.Holds (plug ctx Tr.nil)) (hrb : RedBlack (plug ctx Tr.nil))
    (hdir : ∀ f rest, ctx = f :: rest →
      KeyCompare (KeyOfT value) (KeyOfT f.val) = holeIsLeft ctx)
    (fuel : Nat) (hf : ctx.length + 1 ≤ fuel) :
    ∃ t2, DoInsert KeyOfT KeyCompare t fuel (ctxParent t.mHeader ctx) 0 value
        = some (t.brk, t2) ∧
      t2.Holds ((insFix ctx (Tr.node rbtree_color.mRed Tr.nil t.brk value Tr.nil)).setColor
        rbtree_color.mBlack) ∧
      t2.mHeader = t.mHeader ∧ sValue t2 t.brk = some value := by
  have hb0 : t.brk ≠ 0 := fun e => by
    have := h.hdr_lt
    rw [e] at this
    exact Nat.not_lt_zero _ this
  have hbh : t.brk ≠ t.mHeader := Nat.ne_of_gt h.hdr_lt
  have hfresh : t.brk ∉ (plug ctx Tr.nil).ptrs := fun hm => Nat.lt_irrefl _ (h.fresh _ hm)
  obtain ⟨hroot, hrb2⟩ := insFix_RedBlack ctx t.brk value hrb
  obtain ⟨m2, e2, h2⟩ := RBTreeInsert_spec ctx t.brk value h.mem hb0 hbh hfresh hroot fuel hf
  refine ⟨rbtree.mk m2 (Function.update t.mValue t.brk (some value)) t.mHeader (t.mSize + 1)
    (t.brk + 1) t.oom, ?_, ?_, ?_, ?_⟩
  · match ctx, h, hdir, e2 with
    | [], _, _, e2 =>
      simp only [holeIsLeft, ctxParent_nil] at e2
      simp only [DoInsert, DoCreateNode, DoAllocateNode, h.oom, hb0, Bool.false_eq_true,
        ↓reduceIte, Option.bind_eq_bind, Option.some_bind, Option.pure_def, e2, rbtree.mEnd,
        ctxParent_nil, or_true]
    | f :: rest, h, hdir, e2 =>
      have hd := hdir f rest rfl
      obtain ⟨-, hc, -, -, hn, -⟩ := (MemHolds_plug_iff (f :: rest) Tr.nil).1 h.mem
      cases f with
      | L c p vp r =>
        obtain ⟨hp, -, hv, -⟩ := hc
        have hph : p ≠ t.mHeader := by
          rintro rfl
          simp [ctxAfter] at hn
        simp only [Frame.val] at hd
        simp only [ctxParent_cons, Frame.ptr_L] at e2
        rw [← hd] at e2
        simp only [DoInsert, DoCreateNode, DoAllocateNode, h.oom, hb0, Bool.false_eq_true,
          ↓reduceIte, Option.bind_eq_bind, Option.some_bind, Option.pure_def, e2, rbtree.mEnd,
          ctxParent_cons, Frame.ptr_L, hph, ne_eq, not_true_eq_false, or_self, sKey, sValue, hp,
          hv, Option.map_some']
      | R c l p vp =>
        obtain ⟨hp, -, hv, -⟩ := hc
        have hph : p ≠ t.mHeader := by
          rintro rfl
          simp [ctxBefore] at hn
        simp only [Frame.val] at hd
        simp only [ctxParent_cons, Frame.ptr_R] at e2
        rw [← hd] at e2
        simp only [DoInsert, DoCreateNode, DoAllocateNode, h.oom, hb0, Bool.false_eq_true,
          ↓reduceIte, Option.bind_eq_bind, Option.some_bind, Option.pure_def, e2, rbtree.mEnd,
          ctxParent_cons, Frame.ptr_R, hph, ne_eq, not_true_eq_false, or_self, sKey, sValue, hp,
          hv, Option.map_some']
  · refine ⟨h2, ?_, ?_, ?_, ?_, h.oom⟩
    · show Function.update t.mValue t.brk (some value) t.mHeader = none
      rw [Function.update_noteq hbh.symm]
      exact h.hdr_val
    · show t.mSize + 1 = _
      rw [insFix_ptrs, h.size, Tr.ptrs_plug]
      simp [Tr.ptrs]
      omega
    · intro p hp
      show p < t.brk + 1
      rw [insFix_ptrs] at hp
      have hfr := h.fresh
      rw [Tr.ptrs_plug] at hfr
      simp only [List.mem_append, List.mem_cons] at hp
      rcases hp with hp | rfl | hp
      · exact Nat.lt_succ_of_lt (hfr p (by simp [hp]))
      · exact Nat.lt_succ_self _
      · exact Nat.lt_succ_of_lt (hfr p (by simp [hp]))
    · show t.mHeader < t.brk + 1
      exact Nat.lt_succ_of_lt h.hdr_lt
  · rfl
  · show sValue _ t.brk = some value
    simp [sValue, hb0]

theorem plug_descend (g : α → Bool) (T : Tr α) : ∀ (ctx : List (Frame α)),
    plug (descend g T ctx) Tr.nil = plug ctx T := by
  induction T with
  | nil => intro ctx; rfl
  | node c l p v r ihl ihr =>
    intro ctx
    simp only [descend]
    split
    · rw [ihl]; rfl
    · rw [ihr]; rfl

theorem descend_dir (g : α → Bool) (T : Tr α) : ∀ (ctx : List (Frame α)),
    (∀ f rest, ctx = f :: rest → g f.val = holeIsLeft ctx) →
    ∀ f rest, descend g T ctx = f :: rest → g f.val = holeIsLeft (descend g T ctx) := by
  induction T with
  | nil => intro ctx h; exact h
  | node c l p v r ihl ihr =>
    intro ctx _
    simp only [descend]
    cases hg : g v with
    | true =>
      simp only [↓reduceIte]
      apply ihl
      intro f rest e
      simp only [List.cons.injEq] at e
      rw [← e.1]
      simpa [Frame.val, holeIsLeft] using hg
    | false =>
      simp only [Bool.false_eq_true, ↓reduceIte]
      apply ihr
      intro f rest e
      simp only [List.cons.injEq] at e
      rw [← e.1]
      simpa [Frame.val, holeIsLeft] using hg

/-- The descent that goes left exactly at the payloads whose key is greater than `key`
ends at the null link that separates those payloads from the others. -/
theorem descend_split (hswo : StrictWeakOrder KeyCompare) (key : κ) (T : Tr α) :
    ∀ (ctx : List (Frame α)), Ordered KeyOfT KeyCompare T.vals →
    (∀ e ∈ ctxBeforeE ctx, KeyCompare key (KeyOfT e.2) = false) →
    (∀ e ∈ ctxAfterE ctx, KeyCompare key (KeyOfT e.2) = true) →
    (∀ e ∈ ctxBeforeE (descend (fun v => KeyCompare key (KeyOfT v)) T ctx),
        KeyCompare key (KeyOfT e.2) = false) ∧
      (∀ e ∈ ctxAfterE (descend (fun v => KeyCompare key (KeyOfT v)) T ctx),
        KeyCompare key (KeyOfT e.2) = true) := by
  induction T with
  | nil => intro ctx _ hb ha; exact ⟨hb, ha⟩
  | node c l p v r ihl ihr =>
    intro ctx ho hb ha
    obtain ⟨hol, hor, hlv, hrv⟩ := ho.node
    simp only [descend]
    rcases Bool.eq_false_or_eq_true (KeyCompare key (KeyOfT v)) with hg | hg
    · simp only [hg, ↓reduceIte]
      apply ihl _ hol
      · exact hb
      · intro e he
        simp only [ctxAfterE, List.cons_append, List.mem_cons, List.mem_append] at he
        rcases he with rfl | he | he
        · exact hg
        · exact hswo.lt_of_lt_of_le hg (hrv e.2 (Tr.mem_vals_of_mem_elems he))
        · exact ha e he
    · simp only [hg, Bool.false_eq_true, ↓reduceIte]
      apply ihr _ hor
      · intro e he
        simp only [ctxBeforeE, List.mem_append, List.mem_singleton] at he
        rcases he with he | he | rfl
        · exact hb e he
        · exact hswo.neg_trans hg (hlv e.2 (Tr.mem_vals_of_mem_elems he))
        · exact hg
      · exact ha

theorem FindMulti_loop_spec {t : rbtree α} (key : κ) (T : Tr α) :
    ∀ (ctx : List (Frame α)), TreeAt t.mem t.mValue T (ctxParent t.mHeader ctx) →
    ∀ fuel, T.ptrs.length < fuel →
    FindMulti_loop KeyOfT KeyCompare t fuel T.ptr (ctxParent t.mHeader ctx) key =
      some (ctxParent t.mHeader (descend (fun v => KeyCompare key (KeyOfT v)) T ctx)) := by
  induction T with
  | nil =>
    intro ctx _ fuel hf
    cases fuel with
    | zero => simp at hf
    | succ f => simp [FindMulti_loop, descend]
  | node c l p v r ihl ihr =>
    intro ctx h fuel hf
    cases fuel with
    | zero => simp at hf
    | succ f =>
      obtain ⟨hp, hk, hsl, hsr⟩ := TreeAt.reads KeyOfT h
      simp only [Tr.ptrs, List.length_append, List.length_cons] at hf
      simp only [FindMulti_loop, Tr.ptr_node, hp, ↓reduceIte, hk, hsl, hsr, Option.bind_eq_bind,
        Option.some_bind, descend]
      rcases Bool.eq_false_or_eq_true (KeyCompare key (KeyOfT v)) with hc | hc
      · simp only [hc, ↓reduceIte, Option.some_bind]
        exact ihl (Frame.L c p v r :: ctx) h.2.2.2.1 f (by omega)
      · simp only [hc, Bool.false_eq_true, ↓reduceIte, Option.some_bind]
        exact ihr (Frame.R c l p v :: ctx) h.2.2.2.2 f (by omega)

theorem FindEqual_loop_spec {t : rbtree α} (key : κ) (T : Tr α) :
    ∀ (ctx : List (Frame α)), TreeAt t.mem t.mValue T (ctxParent t.mHeader ctx) →
    ∀ fuel, T.ptrs.length < fuel →
    FindEqual_loop KeyOfT KeyCompare t fuel T.ptr (ctxParent t.mHeader ctx) (holeIsLeft ctx) key =
      some (ctxParent t.mHeader (descend (fun v => KeyCompare key (KeyOfT v)) T ctx),
        holeIsLeft (descend (fun v => KeyCompare key (KeyOfT v)) T ctx)) := by
  induction T with
  | nil =>
    intro ctx _ fuel hf
    cases fuel with
    | zero => simp at hf
    | succ f => simp [FindEqual_loop, descend]
  | node c l p v r ihl ihr =>
    intro ctx h fuel hf
    cases fuel with
    | zero => simp at hf
    | succ f =>
      obtain ⟨hp, hk, hsl, hsr⟩ := TreeAt.reads KeyOfT h
      simp only [Tr.ptrs, List.length_append, List.length_cons] at hf
      simp only [FindEqual_loop, Tr.ptr_node, hp, ↓reduceIte, hk, hsl, hsr, Option.bind_eq_bind,
        Option.some_bind, descend]
      rcases Bool.eq_false_or_eq_true (KeyCompare key (KeyOfT v)) with hc | hc
      · simp only [hc, ↓reduceIte, Option.some_bind]
        exact ihl (Frame.L c p v r :: ctx) h.2.2.2.1 f (by omega)
      · simp only [hc, Bool.false_eq_true, ↓reduceIte, Option.some_bind]
        exact ihr (Frame.R c l p v :: ctx) h.2.2.2.2 f (by omega)

theorem takeWhile_dropWhile_split {β : Type} (P : β → Bool) (l1 l2 : List β)
    (h1 : ∀ e ∈ l1, P e = true) (h2 : ∀ e ∈ l2, P e = false) :
    (l1 ++ l2).takeWhile P = l1 ∧ (l1 ++ l2).dropWhile P = l2 := by
  induction l1 with
  | nil =>
    cases l2 with
    | nil => exact ⟨rfl, rfl⟩
    | cons b l2 =>
      have hb := h2 b (by simp)
      simp [List.takeWhile, List.dropWhile, hb]
  | cons a l1 ih =>
    have ha := h1 a (by simp)
    obtain ⟨i1, i2⟩ := ih (fun e he => h1 e (by simp [he]))
    simp [List.takeWhile, List.dropWhile, ha, i1, i2]

theorem Ordered.insert (hswo : StrictWeakOrder KeyCompare) (l1 l2 : List α) (v : α)
    (h : Ordered KeyOfT KeyCompare (l1 ++ l2))
    (h1 : ∀ e ∈ l1, KeyCompare (KeyOfT v) (KeyOfT e) = false)
    (h2 : ∀ e ∈ l2, KeyCompare (KeyOfT v) (KeyOfT e) = true) :
    Ordered KeyOfT KeyCompare (l1 ++ v :: l2) := by
  simp only [Ordered, List.pairwise_append, List.pairwise_cons, List.mem_cons] at h ⊢
  refine ⟨h.1, ⟨?_, h.2.1⟩, ?_⟩
  · intro b hb
    cases hc : KeyCompare (KeyOfT b) (KeyOfT v) with
    | false => rfl
    | true =>
      have := hswo.trans _ _ _ (h2 b hb) hc
      rw [hswo.irrefl] at this
      exact absurd this (by simp)
  · intro a ha b hb
    rcases hb with rfl | hb
    · exact h1 a ha
    · exact h.2.2 a ha b hb

theorem descend_length_le (g : α → Bool) (T : Tr α) :
    (descend g T []).length ≤ T.ptrs.length := by
  have h1 := ctx_length_le (descend g T [])
  have h2 := plug_length (descend g T []) Tr.nil
  rw [plug_descend] at h2
  simp only [plug, Tr.ptrs, List.length_nil, Nat.add_zero] at h2
  omega

/-- What the tree holds after an insertion at the link found by the descent that goes left
exactly at the payloads whose key is greater than the key of `value`. -/
theorem descend_insert_vals (hswo : StrictWeakOrder KeyCompare) (T : Tr α) (value : α) (n : Ptr)
    (ho : Ordered KeyOfT KeyCompare T.vals) :
    ((insFix (descend (fun v => KeyCompare (KeyOfT value) (KeyOfT v)) T [])
        (Tr.node rbtree_color.mRed Tr.nil n value Tr.nil)).setColor rbtree_color.mBlack).vals =
      T.vals.takeWhile (fun e => !KeyCompare (KeyOfT value) (KeyOfT e)) ++
        value :: T.vals.dropWhile (fun e => !KeyCompare (KeyOfT value) (KeyOfT e)) := by
  obtain ⟨hb, ha⟩ := descend_split KeyOfT KeyCompare hswo (KeyOfT value) T [] ho
    (by simp [ctxBeforeE]) (by simp [ctxAfterE])
  have hT : T.vals = (ctxBeforeE (descend (fun v => KeyCompare (KeyOfT value) (KeyOfT v)) T [])).map
      Prod.snd ++ (ctxAfterE (descend (fun v => KeyCompare (KeyOfT value) (KeyOfT v)) T [])).map
      Prod.snd := by
    have := Tr.vals_plug (descend (fun v => KeyCompare (KeyOfT value) (KeyOfT v)) T []) Tr.nil
    rw [plug_descend] at this
    simpa [plug, Tr.vals] using this
  obtain ⟨e1, e2⟩ := takeWhile_dropWhile_split
    (fun e => !KeyCompare (KeyOfT value) (KeyOfT e))
    ((ctxBeforeE (descend (fun v => KeyCompare (KeyOfT value) (KeyOfT v)) T [])).map Prod.snd)
    ((ctxAfterE (descend (fun v => KeyCompare (KeyOfT value) (KeyOfT v)) T [])).map Prod.snd)
    (by
      intro e he
      obtain ⟨x, hx, rfl⟩ := List.mem_map.1 he
      simp [hb x hx])
    (by
      intro e he
      obtain ⟨x, hx, rfl⟩ := List.mem_map.1 he
      simp [ha x hx])
  rw [insFix_vals, hT, e1, e2]

theorem descend_insert_ordered (hswo : StrictWeakOrder KeyCompare) (T : Tr α) (value : α) (n : Ptr)
    (ho : Ordered KeyOfT KeyCompare T.vals) :
    Ordered KeyOfT KeyCompare
      ((insFix (descend (fun v => KeyCompare (KeyOfT value) (KeyOfT v)) T [])
        (Tr.node rbtree_color.mRed Tr.nil n value Tr.nil)).setColor rbtree_color.mBlack).vals := by
  obtain ⟨hb, ha⟩ := descend_split KeyOfT KeyCompare hswo (KeyOfT value) T [] ho
    (by simp [ctxBeforeE]) (by simp [ctxAfterE])
  have hT : T.vals = (ctxBeforeE (descend (fun v => KeyCompare (KeyOfT value) (KeyOfT v)) T [])).map
      Prod.snd ++ (ctxAfterE (descend (fun v => KeyCompare (KeyOfT value) (KeyOfT v)) T [])).map
      Prod.snd := by
    have := Tr.vals_plug (descend (fun v => KeyCompare (KeyOfT value) (KeyOfT v)) T []) Tr.nil
    rw [plug_descend] at this
    simpa [plug, Tr.vals] using this
  rw [insFix_vals]
  apply Ordered.insert KeyOfT KeyCompare hswo
  · rw [← hT]; exact ho
  · intro e he
    obtain ⟨x, hx, rfl⟩ := List.mem_map.1 he
    exact hb x hx
  · intro e he
    obtain ⟨x, hx, rfl⟩ := List.mem_map.1 he
    exact ha x hx

/-- The elements of the shape after an insertion at the link that a descent reaches: the
elements before the link, the new one, the elements after the link. -/
theorem descend_insert_elems (g : α → Bool) (T : Tr α) (value : α) (n : Ptr) :
    ∃ E1 E2, T.elems = E1 ++ E2 ∧
      ((insFix (descend g T []) (Tr.node rbtree_color.mRed Tr.nil n value Tr.nil)).setColor
        rbtree_color.mBlack).elems = E1 ++ (n, value) :: E2 := by
  refine ⟨ctxBeforeE (descend g T []), ctxAfterE (descend g T []), ?_, ?_⟩
  · have := Tr.elems_plug (descend g T []) Tr.nil
    rw [plug_descend] at this
    simpa [plug, Tr.elems] using this
  · rw [Tr.setColor_elems, insFix_elems (descend g T []).length _ (le_refl _), Tr.elems_plug]
    simp [Tr.elems]

/-- `DoInsertMulti(value)` on a valid tree: the new node is linked at the end of the descent
and the tree stays valid; the header stays, and the elements are the previous ones, in
their order, and the new one. -/
theorem DoInsertMulti_frame (hswo : StrictWeakOrder KeyCompare) {t : rbtree α} {T : Tr α}
    (h : t.Holds T) (ho : Ordered KeyOfT KeyCompare T.vals) (hrb : RedBlack T) (value : α)
    (fuel : Nat) (hf : T.ptrs.length + 1 ≤ fuel) :
    ∃ t2 T2, t.DoInsertMulti KeyOfT KeyCompare fuel value = some (t.brk, t2) ∧
      t2.Holds T2 ∧ Ordered KeyOfT KeyCompare T2.vals ∧ RedBlack T2 ∧
      sValue t2 t.brk = some value ∧
      T2.vals = T.vals.takeWhile (fun e => !KeyCompare (KeyOfT value) (KeyOfT e)) ++
        value :: T.vals.dropWhile (fun e => !KeyCompare (KeyOfT value) (KeyOfT e)) ∧
      t2.mHeader = t.mHeader ∧
      ∃ E1 E2, T.elems = E1 ++ E2 ∧ T2.elems = E1 ++ (t.brk, value) :: E2 := by
  have hpd := plug_descend (fun v => KeyCompare (KeyOfT value) (KeyOfT v)) T []
  simp only [plug] at hpd
  have hlen := descend_length_le (fun v => KeyCompare (KeyOfT value) (KeyOfT v)) T
  have hdir := descend_dir (fun v => KeyCompare (KeyOfT value) (KeyOfT v)) T []
    (by intro f rest e; cases e)
  have hfm := FindMulti_loop_spec KeyOfT KeyCompare (KeyOfT value) T [] h.mem.tree fuel
    (by omega)
  obtain ⟨t2, e2, h2, hh2, hv2⟩ := DoInsert_spec KeyOfT KeyCompare
    (descend (fun v => KeyCompare (KeyOfT value) (KeyOfT v)) T []) value
    (by rw [hpd]; exact h) (by rw [hpd]; exact hrb) hdir fuel (by omega)
  refine ⟨t2, _, ?_, h2, descend_insert_ordered KeyOfT KeyCompare hswo T value t.brk ho,
    (insFix_RedBlack _ t.brk value (by rw [hpd]; exact hrb)).2, hv2,
    descend_insert_vals KeyOfT KeyCompare hswo T value t.brk ho, hh2,
    descend_insert_elems _ T value t.brk⟩
  simp only [ctxParent_nil] at hfm
  simp only [rbtree.DoInsertMulti, FindMulti, rbtree.mRoot, rbtree.mEnd, h.mem.hdr, hfm,
    Option.bind_eq_bind, Option.some_bind, Option.pure_def, e2]

/-- `DoInsertMulti(value)` on a valid tree: the new node is linked at the end of the descent
and the tree stays valid. -/
theorem DoInsertMulti_holds (hswo : StrictWeakOrder KeyCompare) {t : rbtree α} {T : Tr α}
    (h : t.Holds T) (ho : Ordered KeyOfT KeyCompare T.vals) (hrb : RedBlack T) (value : α)
    (fuel : Nat) (hf : T.ptrs.length + 1 ≤ fuel) :
    ∃ t2 T2, t.DoInsertMulti KeyOfT KeyCompare fuel value = some (t.brk, t2) ∧
      t2.Holds T2 ∧ Ordered KeyOfT KeyCompare T2.vals ∧ RedBlack T2 ∧
      sValue t2 t.brk = some value ∧
      T2.vals = T.vals.takeWhile (fun e => !KeyCompare (KeyOfT value) (KeyOfT e)) ++
        value :: T.vals.dropWhile (fun e => !KeyCompare (KeyOfT value) (KeyOfT e)) := by
  obtain ⟨t2, T2, e2, h2, ho2, hrb2, hv2, hvals, -, -⟩ :=
    DoInsertMulti_frame KeyOfT KeyCompare hswo h ho hrb value fuel hf
  exact ⟨t2, T2, e2, h2, ho2, hrb2, hv2, hvals⟩

end insertion


/-! ## Insertion: `FindEqual` and `DoInsertUnique` -/

set_option autoImplicit false

section unique

variable {α κ : Type} (KeyOfT : α → κ) (KeyCompare : κ → κ → Bool)

/-- The climb of `RBTreeDecrement` from a node that has something before it in in-order
stops at the nearest ancestor reached from the right. -/
theorem decClimb_spec {m : Mem} {val : Ptr → Option α} {hdr : Ptr} (ctx : List (Frame α)) :
    ∀ (c : rbtree_color) (l r : Tr α) (x : Ptr) (v : α),
    MemHolds m val hdr (plug ctx (Tr.node c l x v r)) → ctxBefore ctx ≠ [] →
    ∀ fuel, ctx.length ≤ fuel →
    ∃ x2, decClimb m fuel x (ctxParent hdr ctx) = some (x2, lastD (ctxBefore ctx) hdr) := by
  induction ctx with
  | nil => intro c l r x v _ hne; exact absurd rfl hne
  | cons f ctx ih =>
    intro c l r x v h hne fuel hf
    obtain ⟨hc, hx, hrec, -, -, -, hnd, hn⟩ := h.at_node
    obtain ⟨g, rfl⟩ : ∃ g, fuel = g + 1 := ⟨fuel - 1, by simp at hf; omega⟩
    cases f with
    | L c2 p v2 r2 =>
      obtain ⟨hp, hprec, -, -, -⟩ := hc
      have h2 : MemHolds m val hdr (plug ctx (Tr.node c2 (Tr.node c l x v r) p v2 r2)) := h
      obtain ⟨x2, e⟩ := ih c2 _ r2 p v2 h2 hne g (by simp at hf; omega)
      refine ⟨x2, ?_⟩
      simp only [decClimb, ctxParent_cons, Frame.ptr_L, rd_of_ne hp, hprec, Option.bind_eq_bind,
        Option.some_bind, ↓reduceIte, e, ctxBefore]
    | R c2 l2 p v2 =>
      obtain ⟨hp, hprec, -, -, -⟩ := hc
      have hxl : x ≠ l2.ptr := by
        rcases Tr.ptr_mem_or_nil l2 with e | hm
        · rw [e]; exact hx
        · intro e
          rw [← e] at hm
          simp only [ctxBefore, ctxAfter, Tr.ptrs, List.nodup_append, List.nodup_cons,
            List.disjoint_cons_left, List.disjoint_cons_right, List.disjoint_append_left,
            List.disjoint_append_right, List.mem_append, List.mem_cons, not_or] at hnd
          simp [hm] at hnd
      refine ⟨x, ?_⟩
      simp only [decClimb, ctxParent_cons, Frame.ptr_R, rd_of_ne hp, hprec, Option.bind_eq_bind,
        Option.some_bind, hxl, ↓reduceIte, Option.pure_def, ctxBefore, ← List.append_assoc,
        lastD_append_cons, lastD_nil]

theorem ctxParent_mem (hdr : Ptr) (ctx : List (Frame α)) :
    ctxParent hdr ctx = hdr ∨ ctxParent hdr ctx ∈ ctxBefore ctx ++ ctxAfter ctx := by
  cases ctx with
  | nil => exact Or.inl rfl
  | cons f ctx => cases f <;> simp [ctxBefore, ctxAfter]

theorem ctx_mem_cons (f : Frame α) (ctx : List (Frame α)) (x : Ptr)
    (h : x ∈ ctxBefore ctx ++ ctxAfter ctx) :
    x ∈ ctxBefore (f :: ctx) ++ ctxAfter (f :: ctx) := by
  simp only [List.mem_append] at h
  cases f <;> simp only [ctxBefore, ctxAfter, List.mem_append, List.mem_cons] <;> tauto

/-- `RBTreeDecrement` at a node without a left child that is not the first one. -/
theorem RBTreeDecrement_hole {m : Mem} {val : Ptr → Option α} {hdr : Ptr}
    (c : rbtree_color) (p : Ptr) (v : α) (r : Tr α) (rest : List (Frame α))
    (h : MemHolds m val hdr (plug (Frame.L c p v r :: rest) Tr.nil))
    (hne : ctxBefore rest ≠ []) (fuel : Nat) (hf : rest.length ≤ fuel) :
    RBTreeDecrement m fuel p = some (lastD (ctxBefore rest) hdr) := by
  have h2 : MemHolds m val hdr (plug rest (Tr.node c Tr.nil p v r)) := h
  obtain ⟨x2, e⟩ := decClimb_spec rest c Tr.nil r p v h2 hne fuel hf
  obtain ⟨hc, hp, hrec, -, -, -, hnd, hn⟩ := h2.at_node
  match rest, hc, hnd, hn, hne, e, hrec with
  | [], _, _, _, hne, _, _ => exact absurd rfl hne
  | f1 :: rest2, hc, hnd, hn, hne, e, hrec =>
    have hpp : ctxParent hdr rest2 ≠ p := by
      have hph : hdr ≠ p := by
        intro e2
        apply hn
        simp [Tr.ptrs, e2]
      have hpm : p ∉ ctxBefore (f1 :: rest2) ++ ctxAfter (f1 :: rest2) := by
        intro hm
        simp only [Tr.ptrs, List.nodup_append, List.nodup_cons, List.disjoint_cons_left,
          List.disjoint_cons_right, List.disjoint_append_left, List.disjoint_append_right,
          List.mem_append, List.mem_cons, not_or] at hnd hm
        rcases hm with hm | hm <;> simp [hm] at hnd
      rcases ctxParent_mem hdr rest2 with e2 | hm
      · rw [e2]; exact hph
      · intro e2
        rw [e2] at hm
        exact hpm (ctx_mem_cons f1 rest2 p hm)
    have hf1 : f1.ptr ≠ 0 ∧ (m f1.ptr).mParent = ctxParent hdr rest2 := by
      cases f1 with
      | L c1 p1 v1 r1 => exact ⟨hc.1, by rw [Frame.ptr_L, hc.2.1]⟩
      | R c1 l1 p1 v1 => exact ⟨hc.1, by rw [Frame.ptr_R, hc.2.1]⟩
    simp only [ctxParent_cons] at hrec e
    simp only [RBTreeDecrement, node_is_rbtree_header, rd_of_ne hp, hrec, rd_of_ne hf1.1, hf1.2,
      hpp, Tr.ptr_nil, Option.bind_eq_bind, Option.some_bind, Option.pure_def, decide_False,
      Bool.false_and, Bool.false_eq_true, ↓reduceIte, ne_eq, not_true_eq_false, e]

theorem lastD_map_concat {β γ : Type} (f : β → γ) (l : List β) (a : β) (d : γ) :
    lastD ((l ++ [a]).map f) d = f a := by
  rw [List.map_append, List.map_singleton, lastD_append_cons, lastD_nil]

/-- The result of `FindEqual`: with `e` the last payload before the null link that the
descent reaches, the link and its parent when there is no such payload or its key is less
than `key`, and the node of `e` otherwise. -/
theorem FindEqual_spec_plug {t : rbtree α} (ctx : List (Frame α)) (key : κ)
    (h : t.Holds (plug ctx Tr.nil)) (fuel : Nat) (hf : ctx.length ≤ fuel)
    (hloop : FindEqual_loop KeyOfT KeyCompare t fuel t.mRoot t.mEnd true key =
      some (ctxParent t.mHeader ctx, holeIsLeft ctx)) :
    FindEqual KeyOfT KeyCompare t fuel key = some (
      match (ctxBeforeE ctx).getLast? with
      | none => (0, ctxParent t.mHeader ctx)
      | some e =>
        if KeyCompare (KeyOfT e.2) key then (0, ctxParent t.mHeader ctx) else (e.1, 0)) := by
  have hkeys := TreeAt_sKey_elems KeyOfT h.mem.tree
  rw [Tr.elems_plug] at hkeys
  have hh := h.mem.hdr
  rw [Tr.ptrs_plug] at hh
  have hnd := h.mem.nodup
  rw [Tr.ptrs_plug] at hnd
  match ctx, h, hf, hloop, hkeys, hh, hnd with
  | [], h, hf, hloop, hkeys, hh, hnd =>
    simp only [FindEqual, hloop, holeIsLeft, ctxParent_nil, rbtree.mLeftMost, hh, ctxBefore,
      ctxAfter, Tr.ptrs_nil, List.append_nil, firstD_nil, Option.bind_eq_bind, Option.some_bind,
      Option.pure_def, ↓reduceIte, ctxBeforeE, List.getLast?_nil]
  | Frame.L c p v r :: rest, h, hf, hloop, hkeys, hh, hnd =>
    rcases List.eq_nil_or_concat (ctxBeforeE rest) with hb | ⟨ini, e, hb⟩
    · have hb2 : ctxBefore rest = [] := by rw [ctxBefore_eq_map, hb]; rfl
      simp only [FindEqual, hloop, holeIsLeft, ctxParent_cons, Frame.ptr_L, rbtree.mLeftMost, hh,
        ctxBefore, ctxAfter, hb2, Tr.ptrs_nil, List.append_nil, List.nil_append, List.cons_append,
        firstD_cons, Option.bind_eq_bind, Option.some_bind, Option.pure_def, ↓reduceIte,
        ctxBeforeE, hb, List.getLast?_nil]
    · rw [List.concat_eq_append] at hb
      have hb2 : ctxBefore rest = (ini ++ [e]).map Prod.fst := by rw [ctxBefore_eq_map, hb]
      have hne : ctxBefore rest ≠ [] := by rw [hb2]; simp
      have hdec := RBTreeDecrement_hole c p v r rest h.mem hne fuel
        (by simp only [List.length_cons] at hf; omega)
      rw [hb2, lastD_map_concat] at hdec
      have hke : sKey KeyOfT t e.1 = some (KeyOfT e.2) := by
        apply hkeys
        simp [ctxBeforeE, hb]
      have hfirst : p ≠ firstD (ctxBefore rest) p := by
        intro e2
        have hm : firstD (ctxBefore rest) p ∈ ctxBefore rest := by
          cases hcb : ctxBefore rest with
          | nil => exact absurd hcb hne
          | cons a l => simp
        rw [← e2] at hm
        simp only [ctxBefore, ctxAfter, Tr.ptrs_nil, List.append_nil, List.nodup_append,
          List.nodup_cons, List.disjoint_cons_left, List.disjoint_cons_right,
          List.disjoint_append_left, List.disjoint_append_right, List.mem_append, List.mem_cons,
          not_or, List.cons_append] at hnd
        simp [hm] at hnd
      simp only [FindEqual, hloop, holeIsLeft, ctxParent_cons, Frame.ptr_L, rbtree.mLeftMost, hh,
        ctxBefore, ctxAfter, Tr.ptrs_nil, List.append_nil, List.cons_append,
        firstD_append_cons, hfirst,
        Option.bind_eq_bind, Option.some_bind, Option.pure_def, ↓reduceIte, hdec, hke,
        ctxBeforeE, hb, List.getLast?_concat]
      rcases Bool.eq_false_or_eq_true (KeyCompare (KeyOfT e.2) key) with hc | hc <;>
        simp only [hc, ↓reduceIte, Bool.false_eq_true]
  | Frame.R c l p v :: rest, h, hf, hloop, hkeys, hh, hnd =>
    have hke : sKey KeyOfT t p = some (KeyOfT v) := hkeys (p, v) (by simp [ctxBeforeE])
    simp only [FindEqual, hloop, holeIsLeft, ctxParent_cons, Frame.ptr_R, Bool.false_eq_true,
      Option.bind_eq_bind, Option.some_bind, Option.pure_def, ↓reduceIte, hke, ctxBeforeE,
      ← List.append_assoc, List.getLast?_concat]
    rcases Bool.eq_false_or_eq_true (KeyCompare (KeyOfT v) key) with hc | hc <;>
      simp only [hc, ↓reduceIte, Bool.false_eq_true]

theorem StrictWeakOrder.asymm (h : StrictWeakOrder KeyCompare) {a b : κ}
    (hab : KeyCompare a b = true) : KeyCompare b a = false := by
  cases hba : KeyCompare b a with
  | false => rfl
  | true =>
    have := h.trans a b a hab hba
    rw [h.irrefl] at this
    exact absurd this (by simp)

theorem Ordered.le_last {l : List α} {a e : α} (h : Ordered KeyOfT KeyCompare (l ++ [e]))
    (ha : a ∈ l) : KeyCompare (KeyOfT e) (KeyOfT a) = false := by
  simp only [Ordered, List.pairwise_append, List.mem_singleton] at h
  exact h.2.2 a ha e rfl

/-- `DoInsertUnique(value)` on a valid tree: either some payload has a key equivalent to the
key of `value`, the node of such a payload is returned and the tree is left alone; or there
is none, and `value` is inserted at the link that the descent reaches. -/
theorem DoInsertUnique_frame (hswo : StrictWeakOrder KeyCompare) {t : rbtree α} {T : Tr α}
    (h : t.Holds T) (ho : Ordered KeyOfT KeyCompare T.vals) (hrb : RedBlack T) (value : α)
    (fuel : Nat) (hf : T.ptrs.length + 1 ≤ fuel) :
    (∃ e ∈ T.elems, KeyCompare (KeyOfT value) (KeyOfT e.2) = false ∧
        KeyCompare (KeyOfT e.2) (KeyOfT value) = false ∧
        t.DoInsertUnique KeyOfT KeyCompare fuel value = some ((e.1, false), t)) ∨
    ((∀ e ∈ T.vals, KeyCompare (KeyOfT value) (KeyOfT e) = true ∨
        KeyCompare (KeyOfT e) (KeyOfT value) = true) ∧
      ∃ t2 T2, t.DoInsertUnique KeyOfT KeyCompare fuel value = some ((t.brk, true), t2) ∧
        t2.Holds T2 ∧ Ordered KeyOfT KeyCompare T2.vals ∧ RedBlack T2 ∧
        sValue t2 t.brk = some value ∧
        T2.vals = T.vals.takeWhile (fun e => !KeyCompare (KeyOfT value) (KeyOfT e)) ++
          value :: T.vals.dropWhile (fun e => !KeyCompare (KeyOfT value) (KeyOfT e)) ∧
        t2.mHeader = t.mHeader ∧
        ∃ E1 E2, T.elems = E1 ++ E2 ∧ T2.elems = E1 ++ (t.brk, value) :: E2) := by
  have hpd := plug_descend (fun v => KeyCompare (KeyOfT value) (KeyOfT v)) T []
  simp only [plug] at hpd
  have hlen := descend_length_le (fun v => KeyCompare (KeyOfT value) (KeyOfT v)) T
  have hdir := descend_dir (fun v => KeyCompare (KeyOfT value) (KeyOfT v)) T []
    (by intro f rest e; cases e)
  have hloop := FindEqual_loop_spec KeyOfT KeyCompare (KeyOfT value) T [] h.mem.tree fuel
    (by omega)
  have hroot : t.mRoot = T.ptr := by simp only [rbtree.mRoot, h.mem.hdr]
  simp only [ctxParent_nil, holeIsLeft] at hloop
  rw [← hroot] at hloop
  have hfe := FindEqual_spec_plug KeyOfT KeyCompare
    (descend (fun v => KeyCompare (KeyOfT value) (KeyOfT v)) T []) (KeyOfT value)
    (by rw [hpd]; exact h) fuel (by omega) hloop
  obtain ⟨hb, ha⟩ := descend_split KeyOfT KeyCompare hswo (KeyOfT value) T [] ho
    (by simp [ctxBeforeE]) (by simp [ctxAfterE])
  have hel : T.elems = ctxBeforeE (descend (fun v => KeyCompare (KeyOfT value) (KeyOfT v)) T [])
      ++ ctxAfterE (descend (fun v => KeyCompare (KeyOfT value) (KeyOfT v)) T []) := by
    have := Tr.elems_plug (descend (fun v => KeyCompare (KeyOfT value) (KeyOfT v)) T []) Tr.nil
    rw [plug_descend] at this
    simpa [plug, Tr.elems] using this
  have hinsert : ∃ t2 T2, DoInsert KeyOfT KeyCompare t fuel
        (ctxParent t.mHeader (descend (fun v => KeyCompare (KeyOfT value) (KeyOfT v)) T [])) 0
        value = some (t.brk, t2) ∧
      t2.Holds T2 ∧ Ordered KeyOfT KeyCompare T2.vals ∧ RedBlack T2 ∧
      sValue t2 t.brk = some value ∧
      T2.vals = T.vals.takeWhile (fun e => !KeyCompare (KeyOfT value) (KeyOfT e)) ++
        value :: T.vals.dropWhile (fun e => !KeyCompare (KeyOfT value) (KeyOfT e)) ∧
      t2.mHeader = t.mHeader ∧
      ∃ E1 E2, T.elems = E1 ++ E2 ∧ T2.elems = E1 ++ (t.brk, value) :: E2 := by
    obtain ⟨t2, e2, h2, hh2, hv2⟩ := DoInsert_spec KeyOfT KeyCompare
      (descend (fun v => KeyCompare (KeyOfT value) (KeyOfT v)) T []) value
      (by rw [hpd]; exact h) (by rw [hpd]; exact hrb) hdir fuel (by omega)
    exact ⟨t2, _, e2, h2, descend_insert_ordered KeyOfT KeyCompare hswo T value t.brk ho,
      (insFix_RedBlack _ t.brk value (by rw [hpd]; exact hrb)).2, hv2,
      descend_insert_vals KeyOfT KeyCompare hswo T value t.brk ho, hh2,
      descend_insert_elems _ T value t.brk⟩
  rcases List.eq_nil_or_concat
    (ctxBeforeE (descend (fun v => KeyCompare (KeyOfT value) (KeyOfT v)) T [])) with hbe | ⟨ini, e, hbe⟩
  · -- nothing before the link
    right
    refine ⟨?_, ?_⟩
    · intro x hx
      rw [Tr.vals_eq_map_elems, hel, hbe] at hx
      obtain ⟨y, hy, rfl⟩ := List.mem_map.1 hx
      exact Or.inl (ha y (by simpa using hy))
    · obtain ⟨t2, T2, e2, rest⟩ := hinsert
      refine ⟨t2, T2, ?_, rest⟩
      rw [hbe] at hfe
      simp only [List.getLast?_nil] at hfe
      simp only [rbtree.DoInsertUnique, hfe, Option.bind_eq_bind, Option.some_bind, ↓reduceIte,
        e2, Option.pure_def]
  · rw [List.concat_eq_append] at hbe
    rw [hbe] at hfe
    simp only [List.getLast?_concat] at hfe
    have hemem : e ∈ T.elems := by rw [hel, hbe]; simp
    have hke : KeyCompare (KeyOfT value) (KeyOfT e.2) = false := hb e (by rw [hbe]; simp)
    rcases Bool.eq_false_or_eq_true (KeyCompare (KeyOfT e.2) (KeyOfT value)) with hc | hc
    · -- the predecessor is smaller: no equivalent payload
      right
      refine ⟨?_, ?_⟩
      · intro x hx
        rw [Tr.vals_eq_map_elems, hel, hbe] at hx
        obtain ⟨y, hy, rfl⟩ := List.mem_map.1 hx
        simp only [List.mem_append, List.mem_singleton] at hy
        have hob : Ordered KeyOfT KeyCompare ((ini ++ [e]).map Prod.snd) := by
          have := ho
          rw [Tr.vals_eq_map_elems, hel, hbe, List.map_append] at this
          exact (List.pairwise_append.1 this).1
        rcases hy with (hy | rfl) | hy
        · right
          rw [List.map_append, List.map_singleton] at hob
          exact hswo.lt_of_le_of_lt
            (Ordered.le_last KeyOfT KeyCompare hob (List.mem_map_of_mem _ hy)) hc
        · exact Or.inr hc
        · exact Or.inl (ha y hy)
      · obtain ⟨t2, T2, e2, rest⟩ := hinsert
        refine ⟨t2, T2, ?_, rest⟩
        simp only [hc, ↓reduceIte] at hfe
        simp only [rbtree.DoInsertUnique, hfe, Option.bind_eq_bind, Option.some_bind, ↓reduceIte,
          e2, Option.pure_def]
    · -- the predecessor is equivalent
      left
      refine ⟨e, hemem, hke, hc, ?_⟩
      have he0 : e.1 ≠ 0 := by
        apply TreeAt_ptr_ne_zero h.mem.tree
        rw [Tr.ptrs_eq_map_elems]
        exact List.mem_map_of_mem _ hemem
      simp only [hc, Bool.false_eq_true, ↓reduceIte] at hfe
      simp only [rbtree.DoInsertUnique, hfe, Option.bind_eq_bind, Option.some_bind, he0,
        ↓reduceIte, Option.pure_def]

/-- `DoInsertUnique(value)` on a valid tree: either some payload has a key equivalent to the
key of `value`, the node of such a payload is returned and the tree is left alone; or there
is none, and `value` is inserted at the link that the descent reaches. -/
theorem DoInsertUnique_holds (hswo : StrictWeakOrder KeyCompare) {t : rbtree α} {T : Tr α}
    (h : t.Holds T) (ho : Ordered KeyOfT KeyCompare T.vals) (hrb : RedBlack T) (value : α)
    (fuel : Nat) (hf : T.ptrs.length + 1 ≤ fuel) :
    (∃ e ∈ T.elems, KeyCompare (KeyOfT value) (KeyOfT e.2) = false ∧
        KeyCompare (KeyOfT e.2) (KeyOfT value) = false ∧
        t.DoInsertUnique KeyOfT KeyCompare fuel value = some ((e.1, false), t)) ∨
    ((∀ e ∈ T.vals, KeyCompare (KeyOfT value) (KeyOfT e) = true ∨
        KeyCompare (KeyOfT e) (KeyOfT value) = true) ∧
      ∃ t2 T2, t.DoInsertUnique KeyOfT KeyCompare fuel value = some ((t.brk, true), t2) ∧
        t2.Holds T2 ∧ Ordered KeyOfT KeyCompare T2.vals ∧ RedBlack T2 ∧
        sValue t2 t.brk = some value ∧
        T2.vals = T.vals.takeWhile (fun e => !KeyCompare (KeyOfT value) (KeyOfT e)) ++
          value :: T.vals.dropWhile (fun e => !KeyCompare (KeyOfT value) (KeyOfT e))) := by
  rcases DoInsertUnique_frame KeyOfT KeyCompare hswo h ho hrb value fuel hf with
    h1 | ⟨hall, t2, T2, e2, h2, ho2, hrb2, hv2, hvals, -, -⟩
  · exact Or.inl h1
  · exact Or.inr ⟨hall, t2, T2, e2, h2, ho2, hrb2, hv2, hvals⟩

end unique


/-! ## The concrete tree `treeOfList [2, 1, 3]` -/

theorem natLess_swo : StrictWeakOrder natLess := by
  refine ⟨?_, ?_, ?_⟩
  · intro a; simp [natLess]
  · intro a b c; simp only [natLess, decide_eq_true_eq]; omega
  · intro a b c; simp only [natLess, decide_eq_false_iff_not]; omega

theorem treeOfList_213_holds : (treeOfList [2, 1, 3]).Holds shape213 := by
  refine ⟨⟨by decide!, ?_, by decide!, by decide!, by decide!⟩, by decide!, by decide!, ?_,
    by decide!, by decide!⟩
  · refine ⟨by decide!, by decide!, by decide!, ⟨by decide!, by decide!, by decide!, trivial,
      trivial⟩, ⟨by decide!, by decide!, by decide!, trivial, trivial⟩⟩
  · intro p hp
    have hb : (treeOfList [2, 1, 3]).brk = 5 := by decide!
    rw [hb]
    simp only [shape213, Tr.ptrs, List.nil_append, List.cons_append, List.mem_cons,
      List.mem_nil_iff, or_false] at hp
    rcases hp with rfl | rfl | rfl <;> decide

theorem treeOfList_213_valid : (treeOfList [2, 1, 3]).Valid id natLess := by
  refine ⟨shape213, treeOfList_213_holds, ?_, ?_⟩
  · simp [Ordered, shape213, Tr.vals, natLess]
  · refine ⟨rfl, ?_, 1, ?_⟩
    · simp [shape213, Tr.noRedRed, Tr.color]
    · simp [shape213, Tr.blackHeight]


/-! ## Insertion: the statements about the tree object as a whole -/

set_option autoImplicit false

section insert_wrap

variable {α κ : Type} (KeyOfT : α → κ) (KeyCompare : κ → κ → Bool)

theorem TreeAt_sValue_elems {t : rbtree α} {T : Tr α} {par : Ptr}
    (h : TreeAt t.mem t.mValue T par) : ∀ e ∈ T.elems, sValue t e.1 = some e.2 := by
  induction T generalizing par with
  | nil => simp [Tr.elems]
  | node c l p v r ihl ihr =>
    intro e he
    simp only [Tr.elems, List.mem_append, List.mem_cons] at he
    rcases he with he | rfl | he
    · exact ihl h.2.2.2.1 e he
    · simp [sValue, h.1, h.2.2.1]
    · exact ihr h.2.2.2.2 e he

theorem Tr.vals_length (T : Tr α) : T.vals.length = T.ptrs.length := by
  rw [Tr.vals_eq_map_elems, Tr.ptrs_eq_map_elems, List.length_map, List.length_map]

theorem takeWhile_dropWhile_length {β : Type} (P : β → Bool) (l : List β) (v : β) :
    (l.takeWhile P ++ v :: l.dropWhile P).length = l.length + 1 := by
  have := congrArg List.length (List.takeWhile_append_dropWhile P l)
  simp only [List.length_append, List.length_cons] at this ⊢
  omega

/-- Where no payload is equivalent to `value`, the payloads that are not greater than it are
the smaller ones. -/
theorem takeWhile_lt_eq (hswo : StrictWeakOrder KeyCompare) (value : α) (l : List α)
    (h : ∀ e ∈ l, KeyCompare (KeyOfT value) (KeyOfT e) = true ∨
      KeyCompare (KeyOfT e) (KeyOfT value) = true) :
    l.takeWhile (fun e => !KeyCompare (KeyOfT value) (KeyOfT e)) =
        l.takeWhile (fun e => KeyCompare (KeyOfT e) (KeyOfT value)) ∧
      l.dropWhile (fun e => !KeyCompare (KeyOfT value) (KeyOfT e)) =
        l.dropWhile (fun e => KeyCompare (KeyOfT e) (KeyOfT value)) := by
  induction l with
  | nil => exact ⟨rfl, rfl⟩
  | cons a l ih =>
    obtain ⟨i1, i2⟩ := ih (fun e he => h e (by simp [he]))
    rcases h a (by simp) with ha | ha
    · have ha2 := hswo.asymm KeyCompare ha
      simp [List.takeWhile, List.dropWhile, ha, ha2]
    · have ha2 := hswo.asymm KeyCompare ha
      simp [List.takeWhile, List.dropWhile, ha, ha2, i1, i2]

end insert_wrap


/-! ## Sequences of insertions -/

set_option autoImplicit false

section sequences

variable {α κ : Type} (KeyOfT : α → κ) (KeyCompare : κ → κ → Bool)

theorem init_holds : (rbtree.init : rbtree α).Holds Tr.nil := by
  refine ⟨⟨Nat.one_ne_zero, trivial, List.nodup_nil, by simp [Tr.ptrs], ?_⟩, rfl, rfl, ?_,
    Nat.lt_succ_self 1, rfl⟩
  · simp [rbtree.init, Tr.ptrs, Tr.ptr]
  · intro p hp
    simp [Tr.ptrs] at hp

theorem RedBlack_nil : RedBlack (Tr.nil : Tr α) := ⟨rfl, trivial, 0, rfl⟩

theorem takeWhile_dropWhile_perm {β : Type} (P : β → Bool) (l : List β) (v : β) :
    (l.takeWhile P ++ v :: l.dropWhile P).Perm (l ++ [v]) := by
  have h1 : (l.takeWhile P ++ v :: l.dropWhile P).Perm
      (v :: (l.takeWhile P ++ l.dropWhile P)) := List.perm_middle
  rw [List.takeWhile_append_dropWhile] at h1
  exact h1.trans (List.perm_append_singleton v l).symm

/-- One insertion of a sequence on a valid tree whose traversal is a rearrangement of the
values accepted so far. -/
theorem insertStep_spec (hswo : StrictWeakOrder KeyCompare) {t : rbtree α} {T : Tr α}
    (h : t.Holds T) (ho : Ordered KeyOfT KeyCompare T.vals) (hrb : RedBlack T)
    (op : Bool × α) (fuel : Nat) (hf : T.ptrs.length + 1 ≤ fuel)
    (acc : List α) (hp : T.vals.Perm acc) :
    ∃ t2 T2, insertStep KeyOfT KeyCompare fuel t op = some t2 ∧ t2.Holds T2 ∧
      Ordered KeyOfT KeyCompare T2.vals ∧ RedBlack T2 ∧
      T2.vals.Perm (acceptStep KeyOfT KeyCompare acc op) ∧
      T2.ptrs.length ≤ T.ptrs.length + 1 := by
  obtain ⟨u, value⟩ := op
  cases u with
  | true =>
    rcases DoInsertUnique_holds KeyOfT KeyCompare hswo h ho hrb value fuel hf with
      ⟨e, he, h1, h2, h3⟩ | ⟨hall, t2, T2, e2, h2, ho2, hrb2, -, hvals⟩
    · refine ⟨t, T, ?_, h, ho, hrb, ?_, Nat.le_succ _⟩
      · simp [insertStep, h3]
      · have hany : acc.any (fun e => !KeyCompare (KeyOfT value) (KeyOfT e) &&
            !KeyCompare (KeyOfT e) (KeyOfT value)) = true := by
          rw [List.any_eq_true]
          exact ⟨e.2, hp.subset (Tr.mem_vals_of_mem_elems he), by simp [h1, h2]⟩
        simp only [acceptStep, hany, Bool.and_self, ↓reduceIte]
        exact hp
    · refine ⟨t2, T2, ?_, h2, ho2, hrb2, ?_, ?_⟩
      · simp [insertStep, e2]
      · have hany : acc.any (fun e => !KeyCompare (KeyOfT value) (KeyOfT e) &&
            !KeyCompare (KeyOfT e) (KeyOfT value)) = false := by
          rw [List.any_eq_false]
          intro x hx
          rcases hall x (hp.symm.subset hx) with h4 | h4 <;> simp [h4]
        simp only [acceptStep, hany, Bool.and_false, Bool.false_eq_true, ↓reduceIte]
        rw [hvals]
        exact (takeWhile_dropWhile_perm _ _ _).trans (hp.append_right _)
      · rw [← Tr.vals_length, hvals, takeWhile_dropWhile_length, Tr.vals_length]
  | false =>
    obtain ⟨t2, T2, e2, h2, ho2, hrb2, -, hvals⟩ :=
      DoInsertMulti_holds KeyOfT KeyCompare hswo h ho hrb value fuel hf
    refine ⟨t2, T2, ?_, h2, ho2, hrb2, ?_, ?_⟩
    · simp [insertStep, e2]
    · simp only [acceptStep, Bool.false_and, Bool.false_eq_true, ↓reduceIte]
      rw [hvals]
      exact (takeWhile_dropWhile_perm _ _ _).trans (hp.append_right _)
    · rw [← Tr.vals_length, hvals, takeWhile_dropWhile_length, Tr.vals_length]

/-- A sequence of insertions on a valid tree. -/
theorem insertSeq_spec (hswo : StrictWeakOrder KeyCompare) (ops : List (Bool × α)) :
    ∀ {t : rbtree α} {T : Tr α}, t.Holds T → Ordered KeyOfT KeyCompare T.vals → RedBlack T →
    ∀ (fuel : Nat), T.ptrs.length + ops.length + 2 ≤ fuel →
    ∀ (acc : List α), T.vals.Perm acc →
    ∃ t2 T2, insertSeq KeyOfT KeyCompare fuel ops t = some t2 ∧ t2.Holds T2 ∧
      Ordered KeyOfT KeyCompare T2.vals ∧ RedBlack T2 ∧
      T2.vals.Perm (accepted KeyOfT KeyCompare ops acc) ∧
      T2.ptrs.length ≤ T.ptrs.length + ops.length := by
  induction ops with
  | nil =>
    intro t T h ho hrb fuel _ acc hp
    exact ⟨t, T, rfl, h, ho, hrb, hp, Nat.le_refl _⟩
  | cons op ops ih =>
    intro t T h ho hrb fuel hf acc hp
    simp only [List.length_cons] at hf
    obtain ⟨t1, T1, e1, h1, ho1, hrb1, hp1, hl1⟩ :=
      insertStep_spec KeyOfT KeyCompare hswo h ho hrb op fuel (by omega) acc hp
    obtain ⟨t2, T2, e2, h2, ho2, hrb2, hp2, hl2⟩ :=
      ih h1 ho1 hrb1 fuel (by omega) _ hp1
    refine ⟨t2, T2, ?_, h2, ho2, hrb2, hp2, ?_⟩
    · simp only [insertSeq, e1, Option.some_bind, e2]
    · simp only [List.length_cons]; omega

theorem accepted_of_pairwise (ops : List (Bool × α)) : ∀ (acc : List α),
    (acc ++ ops.map Prod.snd).Pairwise (fun a b => KeyCompare (KeyOfT a) (KeyOfT b) = true ∨
      KeyCompare (KeyOfT b) (KeyOfT a) = true) →
    accepted KeyOfT KeyCompare ops acc = acc ++ ops.map Prod.snd := by
  induction ops with
  | nil => intro acc _; simp [accepted]
  | cons op ops ih =>
    intro acc hpw
    have hany : acc.any (fun e => !KeyCompare (KeyOfT op.2) (KeyOfT e) &&
        !KeyCompare (KeyOfT e) (KeyOfT op.2)) = false := by
      rw [List.any_eq_false]
      intro x hx
      simp only [List.map_cons, List.pairwise_append, List.pairwise_cons, List.mem_cons] at hpw
      rcases hpw.2.2 x hx op.2 (Or.inl rfl) with h4 | h4 <;> simp [h4]
    have hstep : acceptStep KeyOfT KeyCompare acc op = acc ++ [op.2] := by
      simp only [acceptStep, hany, Bool.and_false, Bool.false_eq_true, ↓reduceIte]
    simp only [accepted, hstep]
    rw [ih (acc ++ [op.2]) (by simpa using hpw)]
    simp

theorem pairwise_mem_cases {β : Type} {R : β → β → Prop} {l : List β} (h : l.Pairwise R)
    {a b : β} (ha : a ∈ l) (hb : b ∈ l) : a = b ∨ R a b ∨ R b a := by
  induction l with
  | nil => simp at ha
  | cons x l ih =>
    rw [List.pairwise_cons] at h
    simp only [List.mem_cons] at ha hb
    rcases ha with rfl | ha <;> rcases hb with rfl | hb
    · exact Or.inl rfl
    · exact Or.inr (Or.inl (h.1 b hb))
    · exact Or.inr (Or.inr (h.1 a ha))
    · exact ih h.2 ha hb

/-- A list of values with pairwise inequivalent keys has only one arrangement in key
order. -/
theorem ordered_perm_unique (vals l l2 : List α)
    (hpw : vals.Pairwise (fun a b => KeyCompare (KeyOfT a) (KeyOfT b) = true ∨
      KeyCompare (KeyOfT b) (KeyOfT a) = true))
    (hl : l.Perm vals) (ho : Ordered KeyOfT KeyCompare l)
    (hl2 : l2.Perm vals) (ho2 : Ordered KeyOfT KeyCompare l2) : l2 = l := by
  refine List.Perm.eq_of_sorted ?_ ho2 ho (hl2.trans hl.symm)
  intro a b ha hb h1 h2
  rcases pairwise_mem_cases hpw (hl2.subset ha) (hl.subset hb) with e | h3 | h3
  · exact e
  · rcases h3 with h3 | h3
    · rw [h2] at h3; exact absurd h3 (by simp)
    · rw [h1] at h3; exact absurd h3 (by simp)
  · rcases h3 with h3 | h3
    · rw [h1] at h3; exact absurd h3 (by simp)
    · rw [h2] at h3; exact absurd h3 (by simp)

end sequences


/-! ## `equal_range` -/

set_option autoImplicit false

section equal_range

variable {α κ : Type} (KeyOfT : α → κ) (KeyCompare : κ → κ → Bool)

/-- The loop of `equal_range` on an ordered subtree: the first node whose key is not less
than `key` and the first node whose key is greater, `y` for each when there is none. -/
theorem equal_range_loop_spec (hswo : StrictWeakOrder KeyCompare) {t : rbtree α} (T : Tr α)
    (par : Ptr) (h : TreeAt t.mem t.mValue T par) (ho : Ordered KeyOfT KeyCompare T.vals)
    (key : κ) (y : Ptr) (fuel : Nat) (hf : T.ptrs.length < fuel) :
    equal_range_loop KeyOfT KeyCompare t fuel T.ptr y key =
      some (((T.elems.find? (fun e => !KeyCompare (KeyOfT e.2) key)).map Prod.fst).getD y,
        ((T.elems.find? (fun e => KeyCompare key (KeyOfT e.2))).map Prod.fst).getD y) := by
  induction T generalizing par y fuel with
  | nil =>
    cases fuel with
    | zero => simp at hf
    | succ f => simp [equal_range_loop, Tr.elems]
  | node c l p v r ihl ihr =>
    cases fuel with
    | zero => simp at hf
    | succ f =>
      obtain ⟨hp, hk, hsl, hsr⟩ := TreeAt.reads KeyOfT h
      obtain ⟨hol, hor, hlv, hrv⟩ := ho.node
      simp only [Tr.ptrs, List.length_append, List.length_cons] at hf
      simp only [equal_range_loop, Tr.ptr_node, hp, ↓reduceIte, hk, hsl, hsr, Option.bind_eq_bind,
        Option.some_bind, Tr.elems]
      rcases Bool.eq_false_or_eq_true (KeyCompare (KeyOfT v) key) with hc | hc
      · -- the node is less than the key: both bounds are on the right
        have hc2 : KeyCompare key (KeyOfT v) = false := hswo.asymm KeyCompare hc
        simp only [hc, ↓reduceIte]
        rw [ihr p h.2.2.2.2 hor y f (by omega)]
        rw [@find?_append_none _ _ l.elems _, @find?_append_none _ _ l.elems _,
          List.find?_cons, List.find?_cons]
        · simp [hc, hc2]
        · intro e he
          exact hswo.neg_trans hc2 (hlv e.2 (Tr.mem_vals_of_mem_elems he))
        · intro e he
          have := hswo.lt_of_le_of_lt (hlv e.2 (Tr.mem_vals_of_mem_elems he)) hc
          simp [this]
      · simp only [hc, Bool.false_eq_true, ↓reduceIte]
        rcases Bool.eq_false_or_eq_true (KeyCompare key (KeyOfT v)) with hc2 | hc2
        · -- the node is greater than the key: both bounds are on the left, or the node
          simp only [hc2, ↓reduceIte]
          rw [ihl p h.2.2.2.1 hol p f (by omega),
            find?_append_hit (x := (p, v)) (by simp [hc]),
            find?_append_hit (x := (p, v)) (by simp [hc2])]
          cases List.find? (fun e => !KeyCompare (KeyOfT e.2) key) l.elems <;>
            cases List.find? (fun e => KeyCompare key (KeyOfT e.2)) l.elems <;> rfl
        · -- the node is equivalent to the key
          simp only [hc2, Bool.false_eq_true, ↓reduceIte]
          rw [LowerBound_spec hswo l p h.2.2.2.1 hol key p f (by omega),
            UpperBound_spec hswo r p h.2.2.2.2 hor key y f (by omega)]
          simp only [Option.some_bind, Option.pure_def]
          rw [find?_append_hit (x := (p, v)) (by simp [hc]),
            @find?_append_none _ (fun e => KeyCompare key (KeyOfT e.2)) l.elems _,
            List.find?_cons]
          · simp only [hc2]
            cases List.find? (fun e => !KeyCompare (KeyOfT e.2) key) l.elems <;> rfl
          · intro e he
            exact hswo.neg_trans hc2 (hlv e.2 (Tr.mem_vals_of_mem_elems he))

/-- A list in key order splits into the elements less than `key`, the ones equivalent to
it, and the ones greater. -/
theorem ordered_three_split {β : Type} (keyOf : β → κ) (hswo : StrictWeakOrder KeyCompare)
    (key : κ) (l : List β) (ho : Ordered keyOf KeyCompare l) :
    ∃ l1 l2 l3, l = l1 ++ l2 ++ l3 ∧ (∀ e ∈ l1, KeyCompare (keyOf e) key = true) ∧
      (∀ e ∈ l2, KeyCompare (keyOf e) key = false ∧ KeyCompare key (keyOf e) = false) ∧
      (∀ e ∈ l3, KeyCompare key (keyOf e) = true) := by
  induction l with
  | nil => exact ⟨[], [], [], rfl, by simp, by simp, by simp⟩
  | cons a l ih =>
    have ho2 : Ordered keyOf KeyCompare l := (List.pairwise_cons.1 ho).2
    have hle : ∀ e ∈ l, KeyCompare (keyOf e) (keyOf a) = false := (List.pairwise_cons.1 ho).1
    obtain ⟨l1, l2, l3, rfl, h1, h2, h3⟩ := ih ho2
    rcases Bool.eq_false_or_eq_true (KeyCompare (keyOf a) key) with hc | hc
    · refine ⟨a :: l1, l2, l3, rfl, ?_, h2, h3⟩
      intro e he
      rcases List.mem_cons.1 he with rfl | he
      · exact hc
      · exact h1 e he
    · have hl1 : l1 = [] := by
        cases l1 with
        | nil => rfl
        | cons b l1 =>
          have hb := h1 b (by simp)
          have := hswo.lt_of_lt_of_le hb hc
          rw [hle b (by simp)] at this
          exact absurd this (by simp)
      subst hl1
      rcases Bool.eq_false_or_eq_true (KeyCompare key (keyOf a)) with hc2 | hc2
      · have hl2 : l2 = [] := by
          cases l2 with
          | nil => rfl
          | cons b l2 =>
            have hb := h2 b (by simp)
            have := hswo.lt_of_lt_of_le hc2 (hle b (by simp))
            rw [hb.2] at this
            exact absurd this (by simp)
        subst hl2
        refine ⟨[], [], a :: l3, rfl, by simp, by simp, ?_⟩
        intro e he
        rcases List.mem_cons.1 he with rfl | he
        · exact hc2
        · exact h3 e he
      · refine ⟨[], a :: l2, l3, rfl, by simp, ?_, h3⟩
        intro e he
        rcases List.mem_cons.1 he with rfl | he
        · exact ⟨hc, hc2⟩
        · exact h2 e he

theorem find?_all {β : Type} (P : β → Bool) (l : List β) (h : ∀ e ∈ l, P e = true) :
    l.find? P = l.head? := by
  cases l with
  | nil => rfl
  | cons a l => simp [List.find?_cons, h a (by simp)]

theorem getD_head?_map {β γ : Type} (f : β → γ) (l : List β) (d : γ) :
    (l.head?.map f).getD d = firstD (l.map f) d := by
  cases l <;> rfl

theorem Ordered_elems {T : Tr α} (ho : Ordered KeyOfT KeyCompare T.vals) :
    Ordered (fun e : Ptr × α => KeyOfT e.2) KeyCompare T.elems := by
  rw [Tr.vals_eq_map_elems] at ho
  exact List.pairwise_map.1 ho

/-- `equal_range`, `lower_bound` and `upper_bound` on a valid tree, in terms of the split of
the in-order sequence into the nodes with a key less than, equivalent to and greater than
`key`. -/
theorem equal_range_split_full (hswo : StrictWeakOrder KeyCompare) {t : rbtree α} {T : Tr α}
    (h : t.Holds T) (ho : Ordered KeyOfT KeyCompare T.vals) (key : κ) :
    ∃ E1 E2 E3 : List (Ptr × α), T.elems = E1 ++ E2 ++ E3 ∧
      (∀ e ∈ E2, KeyCompare (KeyOfT e.2) key = false ∧ KeyCompare key (KeyOfT e.2) = false) ∧
      (∀ e ∈ E1, KeyCompare (KeyOfT e.2) key = true) ∧
      (∀ e ∈ E3, KeyCompare key (KeyOfT e.2) = true) ∧
      ∀ fuel, T.ptrs.length < fuel →
        t.lower_bound KeyOfT KeyCompare fuel key
          = some (firstD ((E2 ++ E3).map Prod.fst) t.mEnd) ∧
        t.upper_bound KeyOfT KeyCompare fuel key = some (firstD (E3.map Prod.fst) t.mEnd) ∧
        t.equal_range KeyOfT KeyCompare fuel key
          = some (firstD ((E2 ++ E3).map Prod.fst) t.mEnd, firstD (E3.map Prod.fst) t.mEnd) := by
  obtain ⟨E1, E2, E3, hE, h1, h2, h3⟩ := ordered_three_split KeyCompare
    (fun e : Ptr × α => KeyOfT e.2) hswo key T.elems (Ordered_elems KeyOfT KeyCompare ho)
  refine ⟨E1, E2, E3, hE, h2, h1, h3, ?_⟩
  intro fuel hf
  have hlb : ((T.elems.find? (fun e => !KeyCompare (KeyOfT e.2) key)).map Prod.fst).getD
      t.mHeader = firstD ((E2 ++ E3).map Prod.fst) t.mEnd := by
    rw [hE, List.append_assoc, find?_append_none (by intro e he; simp [h1 e he]),
      find?_all _ _ ?_, getD_head?_map]
    · rfl
    · intro e he
      rcases List.mem_append.1 he with he | he
      · simp [(h2 e he).1]
      · simp [hswo.asymm KeyCompare (h3 e he)]
  have hub : ((T.elems.find? (fun e => KeyCompare key (KeyOfT e.2))).map Prod.fst).getD
      t.mHeader = firstD (E3.map Prod.fst) t.mEnd := by
    rw [hE, find?_append_none ?_, find?_all _ _ h3, getD_head?_map]
    · rfl
    · intro e he
      rcases List.mem_append.1 he with he | he
      · exact hswo.asymm KeyCompare (h1 e he)
      · exact (h2 e he).2
  have hroot : t.mRoot = T.ptr := by simp only [rbtree.mRoot, h.mem.hdr]
  refine ⟨?_, ?_, ?_⟩
  · rw [rbtree.lower_bound, hroot, rbtree.mEnd,
      LowerBound_spec hswo T t.mHeader h.mem.tree ho key t.mHeader fuel hf, hlb]
    rfl
  · rw [rbtree.upper_bound, hroot, rbtree.mEnd,
      UpperBound_spec hswo T t.mHeader h.mem.tree ho key t.mHeader fuel hf, hub]
    rfl
  · rw [rbtree.equal_range, hroot, rbtree.mEnd,
      equal_range_loop_spec KeyOfT KeyCompare hswo T t.mHeader h.mem.tree ho key t.mHeader fuel
        hf, hlb, hub]
    rfl

/-- `equal_range`, `lower_bound` and `upper_bound` on a valid tree, in terms of a split of
the in-order sequence of which the middle part holds nodes with a key equivalent to
`key`. -/
theorem equal_range_split (hswo : StrictWeakOrder KeyCompare) {t : rbtree α} {T : Tr α}
    (h : t.Holds T) (ho : Ordered KeyOfT KeyCompare T.vals) (key : κ) :
    ∃ E1 E2 E3 : List (Ptr × α), T.elems = E1 ++ E2 ++ E3 ∧
      (∀ e ∈ E2, KeyCompare (KeyOfT e.2) key = false ∧ KeyCompare key (KeyOfT e.2) = false) ∧
      ∀ fuel, T.ptrs.length < fuel →
        t.lower_bound KeyOfT KeyCompare fuel key
          = some (firstD ((E2 ++ E3).map Prod.fst) t.mEnd) ∧
        t.upper_bound KeyOfT KeyCompare fuel key = some (firstD (E3.map Prod.fst) t.mEnd) ∧
        t.equal_range KeyOfT KeyCompare fuel key
          = some (firstD ((E2 ++ E3).map Prod.fst) t.mEnd, firstD (E3.map Prod.fst) t.mEnd) := by
  obtain ⟨E1, E2, E3, hE, h2, -, -, hfu⟩ :=
    equal_range_split_full KeyOfT KeyCompare hswo h ho key
  exact ⟨E1, E2, E3, hE, h2, hfu⟩

theorem accepted_unique_pairwise (ops : List (Bool × α)) (hu : ∀ op ∈ ops, op.1 = true) :
    ∀ (acc : List α),
    acc.Pairwise (fun a b => KeyCompare (KeyOfT a) (KeyOfT b) = true ∨
      KeyCompare (KeyOfT b) (KeyOfT a) = true) →
    (accepted KeyOfT KeyCompare ops acc).Pairwise (fun a b =>
      KeyCompare (KeyOfT a) (KeyOfT b) = true ∨ KeyCompare (KeyOfT b) (KeyOfT a) = true) := by
  induction ops with
  | nil => intro acc h; exact h
  | cons op ops ih =>
    intro acc h
    have hop : op.1 = true := hu op (by simp)
    simp only [accepted]
    apply ih (fun o ho => hu o (by simp [ho]))
    simp only [acceptStep, hop, Bool.true_and]
    split
    · exact h
    · rename_i hany
      rw [Bool.not_eq_true, List.any_eq_false] at hany
      rw [List.pairwise_append]
      refine ⟨h, List.pairwise_singleton _ _, ?_⟩
      intro a ha b hb
      rw [List.mem_singleton] at hb
      subst hb
      have := hany a ha
      simp only [Bool.and_eq_true, Bool.not_eq_eq_eq_not, Bool.not_true, not_and,
        Bool.not_eq_false] at this
      rcases Bool.eq_false_or_eq_true (KeyCompare (KeyOfT a) (KeyOfT op.2)) with h1 | h1
      · exact Or.inl h1
      · rcases Bool.eq_false_or_eq_true (KeyCompare (KeyOfT op.2) (KeyOfT a)) with h2 | h2
        · exact Or.inr h2
        · exact absurd h1 (by rw [this h2]; simp)

/-- In a list with pairwise inequivalent keys, at most one element is equivalent to a
given key. -/
theorem equiv_run_le_one (hswo : StrictWeakOrder KeyCompare) (key : κ) (l : List α)
    (hpw : l.Pairwise (fun a b => KeyCompare (KeyOfT a) (KeyOfT b) = true ∨
      KeyCompare (KeyOfT b) (KeyOfT a) = true))
    (heq : ∀ e ∈ l, KeyCompare (KeyOfT e) key = false ∧ KeyCompare key (KeyOfT e) = false) :
    l.length ≤ 1 := by
  match l, hpw, heq with
  | [], _, _ => simp
  | [_], _, _ => simp
  | a :: b :: l, hpw, heq =>
    have hab := (List.pairwise_cons.1 hpw).1 b (by simp)
    have ha := heq a (by simp)
    have hb := heq b (by simp)
    have := hswo.incomp_trans _ _ _ ha.1 ha.2 hb.2 hb.1
    rcases hab with h | h
    · rw [this.1] at h; exact absurd h (by simp)
    · rw [this.2] at h; exact absurd h (by simp)

/-- The traversal of a tree built from the empty tree by unique insertions only has
pairwise inequivalent keys. -/
theorem unique_built_pairwise (hswo : StrictWeakOrder KeyCompare) (ops : List (Bool × α))
    (hu : ∀ op ∈ ops, op.1 = true) (fuel0 : Nat) (hf0 : ops.length + 2 ≤ fuel0)
    {t : rbtree α} {T : Tr α} (h : t.Holds T)
    (hseq : insertSeq KeyOfT KeyCompare fuel0 ops rbtree.init = some t) :
    T.vals.Pairwise (fun a b => KeyCompare (KeyOfT a) (KeyOfT b) = true ∨
      KeyCompare (KeyOfT b) (KeyOfT a) = true) := by
  obtain ⟨t2, T2, e, h2, -, -, hp, -⟩ := insertSeq_spec KeyOfT KeyCompare hswo ops
    init_holds (by simp [Ordered, Tr.vals]) RedBlack_nil fuel0
    (by simp only [Tr.ptrs, List.length_nil]; omega) [] (by simp [Tr.vals])
  rw [hseq] at e
  obtain rfl : t = t2 := Option.some.inj e
  have hv1 := toList_spec h (T.ptrs.length + T2.ptrs.length + 2) (by omega)
  have hv2 := toList_spec h2 (T.ptrs.length + T2.ptrs.length + 2) (by omega)
  rw [hv1] at hv2
  rw [Option.some.inj hv2]
  have hacc := accepted_unique_pairwise KeyOfT KeyCompare ops hu [] List.Pairwise.nil
  exact hp.symm.pairwise hacc (fun hab => hab.symm)

end equal_range


/-! ## The shape held by a memory is unique -/

set_option autoImplicit false

theorem TreeAt_unique {α : Type} {m : Mem} {val : Ptr → Option α} (T : Tr α) :
    ∀ (T2 : Tr α) (par par2 : Ptr), TreeAt m val T par → TreeAt m val T2 par2 →
      T.ptr = T2.ptr → T = T2 := by
  induction T with
  | nil =>
    intro T2 par par2 _ h2 hp
    cases T2 with
    | nil => rfl
    | node c l p v r => exact absurd hp.symm h2.1
  | node c l p v r ihl ihr =>
    intro T2 par par2 h1 h2 hp
    cases T2 with
    | nil => exact absurd hp h1.1
    | node c2 l2 p2 v2 r2 =>
      simp only [Tr.ptr_node] at hp
      subst hp
      obtain ⟨-, hrec, hv, hl, hr⟩ := h1
      obtain ⟨-, hrec2, hv2, hl2, hr2⟩ := h2
      rw [hrec] at hrec2
      rw [hv] at hv2
      simp only [rbtree_node_base.mk.injEq] at hrec2
      obtain ⟨e1, e2, -, e4⟩ := hrec2
      rw [ihl l2 p p hl hl2 e2, ihr r2 p p hr hr2 e1, e4, Option.some.inj hv2]

theorem Holds_unique {α : Type} {t : rbtree α} {T T2 : Tr α} (h : t.Holds T)
    (h2 : t.Holds T2) : T = T2 := by
  apply TreeAt_unique T T2 _ _ h.mem.tree h2.mem.tree
  have e1 := h.mem.hdr
  rw [h2.mem.hdr] at e1
  simp only [rbtree_node_base.mk.injEq] at e1
  exact e1.2.2.1.symm


/-! ## The heap engine: `promote_heap` -/

set_option autoImplicit false

section heap_promote

variable {α : Type} (comp : α → α → Bool)

theorem gv_set_self (d : α) (a : List α) (i : Nat) (v : α) (h : i < a.length) :
    gv d (a.set i v) i = v := by
  simp [gv, List.getElem?_set_self h]

theorem gv_set_ne (d : α) (a : List α) (i j : Nat) (v : α) (h : i ≠ j) :
    gv d (a.set i v) j = gv d a j := by
  simp [gv, List.getElem?_set_ne h]

theorem getElem?_eq_gv (d : α) (a : List α) (i : Nat) (h : i < a.length) :
    a[i]? = some (gv d a i) := by
  simp [gv, List.getElem?_eq_getElem h]

theorem gv_of_getElem? (d : α) (a : List α) (i : Nat) (x : α) (h : a[i]? = some x) :
    gv d a i = x := by
  simp [gv, h]

theorem set_gv_self (d : α) (a : List α) (i : Nat) (h : i < a.length) :
    a.set i (gv d a i) = a := by
  apply List.ext_getElem? 
  intro j
  by_cases hj : i = j
  · subst hj
    rw [List.getElem?_set_self h, getElem?_eq_gv d a i h]
  · rw [List.getElem?_set_ne hj]

theorem wr_of_lt (a : List α) (i : Nat) (v : α) (h : i < a.length) :
    wr a i v = some (a.set i v) := by
  simp [wr, h]

theorem cons_set_perm (x y : α) : ∀ (l : List α) (j : Nat), j < l.length →
    (x :: l.set j y).Perm (y :: l.set j x) := by
  intro l
  induction l with
  | nil => intro j hj; simp at hj
  | cons b l ih =>
    intro j hj
    cases j with
    | zero => exact List.Perm.swap _ _ _
    | succ j =>
      simp only [List.set_cons_succ]
      have h1 := ih j (by simpa using hj)
      exact (List.Perm.swap _ _ _).trans (((h1.cons b)).trans (List.Perm.swap _ _ _))

/-- Exchanging the values stored at two different indices gives a rearrangement. -/
theorem set_set_perm_swap (x y : α) : ∀ (l : List α) (i j : Nat), i ≠ j → i < l.length →
    j < l.length → ((l.set i x).set j y).Perm ((l.set i y).set j x) := by
  intro l
  induction l with
  | nil => intro i j _ hi; simp at hi
  | cons b l ih =>
    intro i j hij hi hj
    cases i with
    | zero =>
      cases j with
      | zero => exact absurd rfl hij
      | succ j =>
        simp only [List.set_cons_zero, List.set_cons_succ]
        exact cons_set_perm x y l j (by simpa using hj)
    | succ i =>
      cases j with
      | zero =>
        simp only [List.set_cons_zero, List.set_cons_succ]
        exact (cons_set_perm x y l i (by simpa using hi)).symm
      | succ j =>
        simp only [List.set_cons_succ]
        exact (ih i j (by omega) (by simpa using hi) (by simpa using hj)).cons b

theorem Desc.le {k i : Nat} (h : Desc k i) : k ≤ i := by
  induction h with
  | refl => exact Nat.le_refl _
  | child i hi _ ih => omega

theorem Desc.parent {k i : Nat} (h : Desc k i) (hne : i ≠ k) :
    0 < i ∧ Desc k ((i - 1) / 2) ∧ k ≤ (i - 1) / 2 := by
  cases h with
  | refl => exact absurd rfl hne
  | child _ hi hd => exact ⟨hi, hd, hd.le⟩

theorem Desc.zero (i : Nat) : Desc 0 i := by
  induction i using Nat.strong_induction_on with
  | _ i ih =>
    rcases Nat.eq_zero_or_pos i with rfl | hi
    · exact Desc.refl
    · exact Desc.child i hi (ih _ (by omega))

theorem Desc.left {k i : Nat} (h : Desc k i) : Desc k (2 * i + 1) :=
  Desc.child _ (by omega) (by
    have : (2 * i + 1 - 1) / 2 = i := by omega
    rw [this]; exact h)

theorem Desc.right {k i : Nat} (h : Desc k i) : Desc k (2 * i + 2) :=
  Desc.child _ (by omega) (by
    have : (2 * i + 2 - 1) / 2 = i := by omega
    rw [this]; exact h)

/-- Storing `val` into the hole of a heap: the heap order holds below `k` when the
children of the hole are not greater than `val` and `val` is not greater than the parent
of the hole. -/
theorem heap_store (d : α) (k n : Nat) (a : List α) (Idx : Nat) (val : α)
    (hIdx : Idx < n) (hn : n ≤ a.length)
    (Ia : ∀ i, 0 < i → i < n → k ≤ (i - 1) / 2 → i ≠ Idx → (i - 1) / 2 ≠ Idx →
      comp (gv d a ((i - 1) / 2)) (gv d a i) = false)
    (Ib : ∀ c, 0 < c → c < n → (c - 1) / 2 = Idx → comp val (gv d a c) = false)
    (hpar : 0 < Idx → k ≤ (Idx - 1) / 2 → comp (gv d a ((Idx - 1) / 2)) val = false) :
    ∀ i, 0 < i → i < n → k ≤ (i - 1) / 2 →
      comp (gv d (a.set Idx val) ((i - 1) / 2)) (gv d (a.set Idx val) i) = false := by
  intro i hi hin hk
  by_cases h1 : i = Idx
  · subst h1
    rw [gv_set_self d a i val (by omega), gv_set_ne d a i _ val (by omega)]
    exact hpar hi hk
  · by_cases h2 : (i - 1) / 2 = Idx
    · rw [h2, gv_set_self d a Idx val (by omega), gv_set_ne d a Idx i val (Ne.symm h1)]
      exact Ib i hi hin h2
    · rw [gv_set_ne d a Idx _ val (Ne.symm h2), gv_set_ne d a Idx i val (Ne.symm h1)]
      exact Ia i hi hin hk h1 h2

/-- The loop of `promote_heap` with the top index `k`, on a range that is a heap below `k`
except at the hole `Idx`: it ends, the result is a rearrangement of the range with `val` in
the hole, and it is a heap below `k`. -/
theorem promote_heap_loop_spec (hswo : StrictWeakOrder comp) (d : α) (k n : Nat) :
    ∀ (fuel : Nat) (a : List α) (Idx : Nat) (val : α),
    Idx < fuel → Idx < n → n ≤ a.length → Desc k Idx →
    (∀ i, 0 < i → i < n → k ≤ (i - 1) / 2 → i ≠ Idx → (i - 1) / 2 ≠ Idx →
      comp (gv d a ((i - 1) / 2)) (gv d a i) = false) →
    (∀ c, 0 < c → c < n → (c - 1) / 2 = Idx → comp val (gv d a c) = false) →
    (Idx ≠ k → ∀ c, 0 < c → c < n → (c - 1) / 2 = Idx →
      comp (gv d a ((Idx - 1) / 2)) (gv d a c) = false) →
    (Idx ≠ k → (Idx - 1) / 2 ≠ k →
      comp (gv d a (((Idx - 1) / 2 - 1) / 2)) (gv d a ((Idx - 1) / 2)) = false) →
    ∃ b, promote_heap_loop comp fuel a Idx k val = some b ∧ b.length = a.length ∧
      b.Perm (a.set Idx val) ∧ (∀ i, n ≤ i → b[i]? = a[i]?) ∧
      (∀ i, 0 < i → i < n → k ≤ (i - 1) / 2 →
        comp (gv d b ((i - 1) / 2)) (gv d b i) = false) := by
  intro fuel
  induction fuel with
  | zero => intro a Idx val hf; omega
  | succ fuel ih =>
    intro a Idx val hf hIdx hn hdesc Ia Ib Ic Id
    have hstore : ∀ (hpar : 0 < Idx → k ≤ (Idx - 1) / 2 →
          comp (gv d a ((Idx - 1) / 2)) val = false),
        ∃ b, wr a Idx val = some b ∧ b.length = a.length ∧
          b.Perm (a.set Idx val) ∧ (∀ i, n ≤ i → b[i]? = a[i]?) ∧
          (∀ i, 0 < i → i < n → k ≤ (i - 1) / 2 →
            comp (gv d b ((i - 1) / 2)) (gv d b i) = false) := by
      intro hpar
      refine ⟨a.set Idx val, wr_of_lt a Idx val (by omega), List.length_set _ _ _,
        List.Perm.refl _, ?_, heap_store comp d k n a Idx val hIdx hn Ia Ib hpar⟩
      intro i hi
      exact List.getElem?_set_ne (by omega)
    by_cases hIk : Idx > k
    · have hne : Idx ≠ k := by omega
      obtain ⟨hpos, hdp, hkp⟩ := hdesc.parent hne
      have hp : a[(Idx - 1) / 2]? = some (gv d a ((Idx - 1) / 2)) :=
        getElem?_eq_gv d a _ (by omega)
      rcases Bool.eq_false_or_eq_true (comp (gv d a ((Idx - 1) / 2)) val) with hc | hc
      · -- the parent is smaller: it moves down into the hole
        have hva : comp val (gv d a ((Idx - 1) / 2)) = false := hswo.asymm comp hc
        obtain ⟨b, e, hlen, hperm, hout, hheap⟩ := ih (a.set Idx (gv d a ((Idx - 1) / 2)))
          ((Idx - 1) / 2) val (by omega) (by omega) (by simpa using hn) hdp
          (by
            intro i hi hin hk h1 h2
            by_cases h3 : i = Idx
            · subst h3
              rw [gv_set_self d a i _ (by omega), gv_set_ne d a i _ _ (by omega)]
              exact absurd rfl h2
            · by_cases h4 : (i - 1) / 2 = Idx
              · rw [h4, gv_set_self d a Idx _ (by omega), gv_set_ne d a Idx i _ (Ne.symm h3)]
                exact Ic hne i hi hin h4
              · rw [gv_set_ne d a Idx _ _ (Ne.symm h4), gv_set_ne d a Idx i _ (Ne.symm h3)]
                exact Ia i hi hin hk h3 h4)
          (by
            intro c hc0 hcn hcp
            by_cases h3 : c = Idx
            · subst h3
              rw [gv_set_self d a c _ (by omega)]
              exact hva
            · rw [gv_set_ne d a Idx c _ (Ne.symm h3)]
              have h5 := Ia c hc0 hcn (by omega) h3 (by omega)
              rw [hcp] at h5
              exact hswo.neg_trans hva h5)
          (by
            intro hpk c hc0 hcn hcp
            have hpp := Id hne hpk
            rw [gv_set_ne d a Idx _ _ (by omega)]
            by_cases h3 : c = Idx
            · subst h3
              rw [gv_set_self d a c _ (by omega)]
              exact hpp
            · rw [gv_set_ne d a Idx c _ (Ne.symm h3)]
              have h5 := Ia c hc0 hcn (by omega) h3 (by omega)
              rw [hcp] at h5
              exact hswo.neg_trans hpp h5)
          (by
            intro hpk hppk
            obtain ⟨hp0, hdpp, hkpp⟩ := hdp.parent hpk
            obtain ⟨hpp0, -, hkppp⟩ := hdpp.parent hppk
            rw [gv_set_ne d a Idx _ _ (by omega), gv_set_ne d a Idx _ _ (by omega)]
            exact Ia _ hpp0 (by omega) hkppp (by omega) (by omega))
        refine ⟨b, ?_, by simpa using hlen, ?_, ?_, hheap⟩
        · simp only [promote_heap_loop, hIk, ↓reduceIte, hp, Option.bind_eq_bind,
            Option.some_bind, hc, wr_of_lt a Idx _ (show Idx < a.length by omega), e]
        · refine hperm.trans ?_
          have h6 := set_set_perm_swap (gv d a ((Idx - 1) / 2)) val a Idx ((Idx - 1) / 2)
            (by omega) (by omega) (by omega)
          refine h6.trans ?_
          have h7 : gv d (a.set Idx val) ((Idx - 1) / 2) = gv d a ((Idx - 1) / 2) :=
            gv_set_ne d a Idx _ val (by omega)
          rw [← h7, set_gv_self d (a.set Idx val) _ (by simp; omega)]
        · intro i hi
          rw [hout i hi]
          exact List.getElem?_set_ne (by omega)
      · -- the parent is not smaller: `val` goes into the hole
        obtain ⟨b, e, rest⟩ := hstore (fun _ _ => hc)
        refine ⟨b, ?_, rest⟩
        simp only [promote_heap_loop, hIk, ↓reduceIte, hp, Option.bind_eq_bind,
          Option.some_bind, hc, Bool.false_eq_true, e]
    · have hk : Idx = k := by have := hdesc.le; omega
      obtain ⟨b, e, rest⟩ := hstore (fun h0 h1 => by omega)
      refine ⟨b, ?_, rest⟩
      simp only [promote_heap_loop, hIk, ↓reduceIte, e]

theorem IsHeapUpTo_iff_gv (d : α) (a : List α) (n : Nat) (hn : n ≤ a.length) :
    IsHeapUpTo comp a n ↔
      ∀ i, 0 < i → i < n → comp (gv d a ((i - 1) / 2)) (gv d a i) = false := by
  constructor
  · intro h i hi hin
    exact h i _ _ hi hin (getElem?_eq_gv d a _ (by omega)) (getElem?_eq_gv d a _ (by omega))
  · intro h i x y hi hin hx hy
    rw [← gv_of_getElem? d a _ x hx, ← gv_of_getElem? d a _ y hy]
    exact h i hi hin

/-- `promote_heap` from the last index of a range whose other elements form a heap. -/
theorem push_heap_holds (hswo : StrictWeakOrder comp) (a : List α) (hne : a ≠ [])
    (hheap : IsHeapUpTo comp a (a.length - 1)) :
    ∃ b, push_heap comp a = some b ∧ b.Perm a ∧ IsHeapUpTo comp b b.length := by
  have hlen : 0 < a.length := List.length_pos.2 hne
  obtain ⟨val, hval⟩ : ∃ val, a[a.length - 1]? = some val :=
    ⟨_, List.getElem?_eq_getElem (by omega)⟩
  have hg := (IsHeapUpTo_iff_gv comp val a (a.length - 1) (by omega)).1 hheap
  obtain ⟨b, e, hbl, hperm, -, hb⟩ := promote_heap_loop_spec comp hswo val 0 a.length
    (a.length - 1 + 1) a (a.length - 1) val (by omega) (by omega) (Nat.le_refl _)
    (Desc.zero _)
    (fun i hi hin _ h1 _ => hg i hi (by omega))
    (fun c hc hcn hcp => by omega)
    (fun _ c hc hcn hcp => by omega)
    (fun h1 h2 => hg _ (by omega) (by omega))
  refine ⟨b, ?_, ?_, ?_⟩
  · simp only [push_heap, hval, Option.bind_eq_bind, Option.some_bind, promote_heap, e]
  · have : a.set (a.length - 1) val = a := by
      rw [← gv_of_getElem? val a _ val hval]
      exact set_gv_self val a _ (by omega)
    rw [this] at hperm
    exact hperm
  · rw [hbl]
    exact (IsHeapUpTo_iff_gv comp val b a.length (by omega)).2
      (fun i hi hin => hb i hi hin (Nat.zero_le _))

end heap_promote


/-! ## The heap engine: `adjust_heap`, `make_heap`, `is_heap` -/

set_option autoImplicit false

section heap_adjust

variable {α : Type} (comp : α → α → Bool)

/-- One move of the hole down to a child that is not less than the other children. -/
theorem sift_step (d : α) (k n : Nat) (a : List α) (Idx c : Nat)
    (h : SiftInv comp d k n a Idx) (hc0 : 0 < c) (hcn : c < n) (hcp : (c - 1) / 2 = Idx)
    (hmax : ∀ s, 0 < s → s < n → (s - 1) / 2 = Idx → comp (gv d a c) (gv d a s) = false) :
    SiftInv comp d k n (a.set Idx (gv d a c)) c ∧
    (∀ v, ((a.set Idx (gv d a c)).set c v).Perm (a.set Idx v)) ∧
    (∀ i, n ≤ i → (a.set Idx (gv d a c))[i]? = a[i]?) := by
  have hlt := h.lt
  have hlen := h.len
  have hci : Idx < c := by omega
  refine ⟨⟨hcn, by simpa using hlen, Desc.child c hc0 (by rw [hcp]; exact h.desc), ?_, ?_⟩,
    ?_, ?_⟩
  · intro i hi hin hk hpc
    by_cases h1 : (i - 1) / 2 = Idx
    · rw [h1, gv_set_self d a Idx _ (by omega), gv_set_ne d a Idx i _ (by omega)]
      exact hmax i hi hin h1
    · by_cases h2 : i = Idx
      · subst h2
        have hik : i ≠ k := by omega
        rw [gv_set_self d a i _ (by omega), gv_set_ne d a i _ _ (Ne.symm h1)]
        exact h.up hik c hc0 hcn hcp
      · rw [gv_set_ne d a Idx _ _ (Ne.symm h1), gv_set_ne d a Idx i _ (Ne.symm h2)]
        exact h.heap i hi hin hk h1
  · intro _ e he0 hen hep
    rw [hcp, gv_set_self d a Idx _ (by omega), gv_set_ne d a Idx e _ (by omega)]
    have := h.heap e he0 hen (by have := h.desc.le; omega) (by omega)
    rw [hep] at this
    exact this
  · intro v
    have h6 := set_set_perm_swap (gv d a c) v a Idx c (by omega) (by omega) (by omega)
    refine h6.trans ?_
    have h7 : gv d (a.set Idx v) c = gv d a c := gv_set_ne d a Idx c v (by omega)
    rw [← h7, set_gv_self d (a.set Idx v) c (by simp; omega)]
  · intro i hi
    exact List.getElem?_set_ne (by omega)

/-- The first loop of `adjust_heap`: it ends with the hole at an index without a right
child. -/
theorem adjust_heap_loop_spec (hswo : StrictWeakOrder comp) (d : α) (k n : Nat) :
    ∀ (fuel : Nat) (a : List α) (Idx : Nat), n < fuel + Idx → SiftInv comp d k n a Idx →
    ∃ b Idx2, adjust_heap_loop comp fuel a Idx n = some (b, Idx2) ∧ b.length = a.length ∧
      ¬ (2 * Idx2 + 2 < n) ∧ SiftInv comp d k n b Idx2 ∧
      (∀ v, (b.set Idx2 v).Perm (a.set Idx v)) ∧ (∀ i, n ≤ i → b[i]? = a[i]?) := by
  intro fuel
  induction fuel with
  | zero => intro a Idx hf h; have := h.lt; omega
  | succ fuel ih =>
    intro a Idx hf h
    have hlt := h.lt
    have hlen := h.len
    by_cases hr : 2 * Idx + 2 < n
    · have hrv : a[2 * Idx + 2]? = some (gv d a (2 * Idx + 2)) :=
        getElem?_eq_gv d a _ (by omega)
      have hlv : a[2 * Idx + 2 - 1]? = some (gv d a (2 * Idx + 2 - 1)) :=
        getElem?_eq_gv d a _ (by omega)
      rcases Bool.eq_false_or_eq_true
        (comp (gv d a (2 * Idx + 2)) (gv d a (2 * Idx + 2 - 1))) with hc | hc
      · -- the left child is the larger one
        obtain ⟨h1, h2, h3⟩ := sift_step comp d k n a Idx (2 * Idx + 2 - 1) h (by omega)
          (by omega) (by omega) (by
            intro s hs hsn hsp
            have hs2 : s = 2 * Idx + 2 - 1 ∨ s = 2 * Idx + 2 := by omega
            rcases hs2 with rfl | rfl
            · exact hswo.irrefl _
            · exact hswo.asymm comp hc)
        obtain ⟨b, Idx2, e, hbl, hnr, hinv, hperm, hout⟩ := ih _ (2 * Idx + 2 - 1) (by omega) h1
        refine ⟨b, Idx2, ?_, by simpa using hbl, hnr, hinv, fun v => (hperm v).trans (h2 v),
          fun i hi => (hout i hi).trans (h3 i hi)⟩
        simp only [adjust_heap_loop, hr, ↓reduceIte, hrv, hlv, Option.bind_eq_bind,
          Option.some_bind, hc, wr_of_lt a Idx _ (show Idx < a.length by omega), e]
      · obtain ⟨h1, h2, h3⟩ := sift_step comp d k n a Idx (2 * Idx + 2) h (by omega)
          (by omega) (by omega) (by
            intro s hs hsn hsp
            have hs2 : s = 2 * Idx + 2 - 1 ∨ s = 2 * Idx + 2 := by omega
            rcases hs2 with rfl | rfl
            · exact hc
            · exact hswo.irrefl _)
        obtain ⟨b, Idx2, e, hbl, hnr, hinv, hperm, hout⟩ := ih _ (2 * Idx + 2) (by omega) h1
        refine ⟨b, Idx2, ?_, by simpa using hbl, hnr, hinv, fun v => (hperm v).trans (h2 v),
          fun i hi => (hout i hi).trans (h3 i hi)⟩
        simp only [adjust_heap_loop, hr, ↓reduceIte, hrv, hlv, Option.bind_eq_bind,
          Option.some_bind, hc, Bool.false_eq_true,
          wr_of_lt a Idx _ (show Idx < a.length by omega), e]
    · refine ⟨a, Idx, ?_, rfl, hr, h, fun v => List.Perm.refl _, fun i _ => rfl⟩
      simp only [adjust_heap_loop, hr, ↓reduceIte]

/-- `adjust_heap` at the index `k` of a range that is a heap strictly below `k`: the
result is a rearrangement of the range with `val` at `k`, a heap below `k`, and the
elements from `n` on are left alone. -/
theorem adjust_heap_spec (hswo : StrictWeakOrder comp) (d : α) (k n : Nat) (a : List α)
    (val : α) (hk : k < n) (hn : n ≤ a.length)
    (hheap : ∀ i, 0 < i → i < n → k < (i - 1) / 2 →
      comp (gv d a ((i - 1) / 2)) (gv d a i) = false) :
    ∃ b, adjust_heap comp a k n val = some b ∧ b.length = a.length ∧
      b.Perm (a.set k val) ∧ (∀ i, n ≤ i → b[i]? = a[i]?) ∧
      (∀ i, 0 < i → i < n → k ≤ (i - 1) / 2 →
        comp (gv d b ((i - 1) / 2)) (gv d b i) = false) := by
  have h0 : SiftInv comp d k n a k :=
    ⟨hk, hn, Desc.refl, fun i hi hin h1 h2 => hheap i hi hin (by omega),
      fun h => absurd rfl h⟩
  obtain ⟨b1, Idx1, e1, hl1, hnr, hinv1, hperm1, hout1⟩ :=
    adjust_heap_loop_spec comp hswo d k n (n + 1) a k (by omega) h0
  -- the optional move to a last left child
  have hstep2 : ∃ b2 Idx2,
      adjust_heap comp a k n val = promote_heap comp b2 Idx2 k val ∧
      b2.length = a.length ∧ ¬ (2 * Idx2 + 1 < n) ∧ SiftInv comp d k n b2 Idx2 ∧
      (∀ v, (b2.set Idx2 v).Perm (a.set k v)) ∧ (∀ i, n ≤ i → b2[i]? = a[i]?) := by
    have hlt1 := hinv1.lt
    by_cases hr : 2 * Idx1 + 2 = n
    · obtain ⟨h1, h2, h3⟩ := sift_step comp d k n b1 Idx1 (2 * Idx1 + 2 - 1) hinv1 (by omega)
        (by omega) (by omega) (by
          intro s hs hsn hsp
          have hs2 : s = 2 * Idx1 + 2 - 1 := by omega
          subst hs2
          exact hswo.irrefl _)
      refine ⟨_, _, ?_, by simpa using hl1, by omega, h1, fun v => (h2 v).trans (hperm1 v),
        fun i hi => (h3 i hi).trans (hout1 i hi)⟩
      simp only [adjust_heap, e1, Option.bind_eq_bind, Option.some_bind, hr, ↓reduceIte,
        Option.pure_def, wr_of_lt b1 Idx1 _ (show Idx1 < b1.length by omega)]
      rw [getElem?_eq_gv d b1 (n - 1) (by omega)]
      rfl
    · refine ⟨b1, Idx1, ?_, hl1, by omega, hinv1, hperm1, hout1⟩
      simp only [adjust_heap, e1, Option.bind_eq_bind, Option.some_bind, hr, ↓reduceIte,
        Option.pure_def]
  obtain ⟨b2, Idx2, e2, hl2, hleaf, hinv2, hperm2, hout2⟩ := hstep2
  have hlt2 := hinv2.lt
  obtain ⟨b, e, hbl, hperm, hout, hb⟩ := promote_heap_loop_spec comp hswo d k n (Idx2 + 1) b2
    Idx2 val (by omega) hlt2 hinv2.len hinv2.desc
    (fun i hi hin hki _ h2 => hinv2.heap i hi hin hki h2)
    (fun c hc hcn hcp => by omega)
    (fun _ c hc hcn hcp => by omega)
    (fun h1 h2 => by
      obtain ⟨hp0, hdp, hkp⟩ := hinv2.desc.parent h1
      obtain ⟨hpp0, -, hkpp⟩ := hdp.parent h2
      exact hinv2.heap _ hpp0 (by omega) hkpp (by omega))
  refine ⟨b, ?_, by omega, hperm.trans (hperm2 val), fun i hi => (hout i hi).trans (hout2 i hi),
    hb⟩
  rw [e2]
  exact e

/-- The loop of `make_heap`: once the pairs with a parent from `m` on are in heap order,
the loop from `m - 1` down to `0` makes the first `n` elements a heap. -/
theorem make_heap_loop_spec (hswo : StrictWeakOrder comp) (d : α) (n : Nat) :
    ∀ (m : Nat) (a : List α), m ≤ n → n ≤ a.length →
    (∀ i, 0 < i → i < n → m ≤ (i - 1) / 2 → comp (gv d a ((i - 1) / 2)) (gv d a i) = false) →
    ∃ b, make_heap_loop comp m a n = some b ∧ b.length = a.length ∧ b.Perm a ∧
      (∀ i, n ≤ i → b[i]? = a[i]?) ∧
      (∀ i, 0 < i → i < n → comp (gv d b ((i - 1) / 2)) (gv d b i) = false) := by
  intro m
  induction m with
  | zero =>
    intro a _ _ h
    exact ⟨a, rfl, rfl, List.Perm.refl _, fun _ _ => rfl,
      fun i hi hin => h i hi hin (Nat.zero_le _)⟩
  | succ m ih =>
    intro a hm hn h
    obtain ⟨b1, e1, hl1, hp1, ho1, hh1⟩ := adjust_heap_spec comp hswo d m n a (gv d a m)
      (by omega) hn (fun i hi hin hk => h i hi hin (by omega))
    rw [set_gv_self d a m (by omega)] at hp1
    obtain ⟨b, e, hl, hp, ho, hh⟩ := ih b1 (by omega) (by omega) hh1
    refine ⟨b, ?_, by omega, hp.trans hp1, fun i hi => (ho i hi).trans (ho1 i hi), hh⟩
    simp only [make_heap_loop, getElem?_eq_gv d a m (by omega), Option.bind_eq_bind,
      Option.some_bind, e1, e]

/-- `make_heap_impl` on the first `n` elements: a rearrangement that is a heap and leaves
the other elements alone. -/
theorem make_heap_impl_spec (hswo : StrictWeakOrder comp) (d : α) (n : Nat) (a : List α)
    (hn : n ≤ a.length) :
    ∃ b, make_heap_impl comp a n = some b ∧ b.length = a.length ∧ b.Perm a ∧
      (∀ i, n ≤ i → b[i]? = a[i]?) ∧
      (∀ i, 0 < i → i < n → comp (gv d b ((i - 1) / 2)) (gv d b i) = false) := by
  by_cases h1 : n > 1
  · obtain ⟨b, e, hl, hp, ho, hh⟩ := make_heap_loop_spec comp hswo d n ((n - 1) / 2 + 1) a
      (by omega) hn (fun i hi hin hk => by omega)
    exact ⟨b, by simp only [make_heap_impl, h1, ↓reduceIte, e], hl, hp, ho, hh⟩
  · exact ⟨a, by simp only [make_heap_impl, h1, ↓reduceIte], rfl, List.Perm.refl _,
      fun _ _ => rfl, fun i hi hin => by omega⟩

/-- On a heap the loop of `is_heap_until` runs to the end of the range. -/
theorem is_heap_until_loop_heap (d : α) (a : List α)
    (hheap : ∀ i, 0 < i → i < a.length → comp (gv d a ((i - 1) / 2)) (gv d a i) = false) :
    ∀ (fuel c : Nat), 0 < c → a.length < fuel + c → 0 < fuel →
    is_heap_until_loop comp fuel a ((c - 1) / 2) c = some a.length := by
  intro fuel
  induction fuel with
  | zero =>
    intro c hc hf h0
    omega
  | succ fuel ih =>
    intro c hc hf _
    by_cases hlt : c < a.length
    · have h1 := hheap c hc hlt
      have hs : (if c % 2 = 0 then (c - 1) / 2 + 1 else (c - 1) / 2) = (c + 1 - 1) / 2 := by
        split <;> omega
      simp only [is_heap_until_loop, hlt, ↓reduceIte, getElem?_eq_gv d a ((c - 1) / 2) (by omega),
        getElem?_eq_gv d a c hlt, Option.bind_eq_bind, Option.some_bind, h1,
        Bool.false_eq_true, hs]
      exact ih (c + 1) (by omega) (by omega) (by omega)
    · simp only [is_heap_until_loop, hlt, ↓reduceIte, Option.pure_def]

/-- On a heap `is_heap` answers true. -/
theorem is_heap_of_heap (a : List α) (hheap : IsHeapUpTo comp a a.length) :
    is_heap comp a = some true := by
  cases a with
  | nil => rfl
  | cons d t =>
    have h := is_heap_until_loop_heap comp d (d :: t)
      (fun i hi hin => ((IsHeapUpTo_iff_gv comp d (d :: t) (d :: t).length (le_refl _)).1
        hheap) i hi hin) ((d :: t).length + 1) 1 (by omega) (by omega) (by omega)
    simp only [is_heap, is_heap_until]
    rw [show (0 : Nat) = (1 - 1) / 2 from rfl, h]
    simp

end heap_adjust


/-! ## `pop_heap`, `sort_heap`, `heap_select` and `partial_sort` -/

set_option autoImplicit false

section heap_sort

variable {α : Type} (comp : α → α → Bool)

/-- The first element of a heap is not less than any element of the heap. -/
theorem heap_top_max (hswo : StrictWeakOrder comp) (d : α) (a : List α) (n : Nat)
    (hheap : ∀ i, 0 < i → i < n → comp (gv d a ((i - 1) / 2)) (gv d a i) = false) :
    ∀ i, i < n → comp (gv d a 0) (gv d a i) = false := by
  intro i
  induction i using Nat.strong_induction_on with
  | _ i ih =>
    intro hi
    by_cases h0 : i = 0
    · subst h0
      exact hswo.irrefl _
    · exact hswo.neg_trans (ih ((i - 1) / 2) (by omega) (by omega)) (hheap i (by omega) hi)

/-- When a rearrangement of a list leaves the elements from `n` on in place, every element
of its first `n` is one of the first `n` of the list. -/
theorem prefix_mem_of_perm (d : α) (a b : List α) (n : Nat) (hp : b.Perm a) (ho : ∀ j, n ≤ j → b[j]? = a[j]?) :
    (b.take n).Perm (a.take n) ∧
    ∀ i, i < n → i < b.length → ∃ j, j < n ∧ j < a.length ∧ gv d b i = gv d a j := by
  have hd : b.drop n = a.drop n := by
    apply List.ext_getElem?
    intro j
    rw [List.getElem?_drop, List.getElem?_drop]
    exact ho _ (by omega)
  have ht : (b.take n).Perm (a.take n) := by
    have h1 : (b.take n ++ b.drop n).Perm (a.take n ++ a.drop n) := by
      rw [List.take_append_drop, List.take_append_drop]
      exact hp
    rw [hd] at h1
    exact (List.perm_append_right_iff _).1 h1
  refine ⟨ht, fun i hi hib => ?_⟩
  have hm : gv d b i ∈ b.take n := by
    rw [List.mem_iff_getElem?]
    exact ⟨i, by rw [List.getElem?_take_of_lt hi]; exact getElem?_eq_gv d b i hib⟩
  have hm2 := ht.mem_iff.1 hm
  obtain ⟨j, hj, e⟩ := List.mem_iff_getElem.1 hm2
  have hj2 : j < n ∧ j < a.length := by
    simpa [List.length_take] using hj
  refine ⟨j, hj2.1, hj2.2, ?_⟩
  rw [← e, List.getElem_take]
  simp [gv, List.getElem?_eq_getElem hj2.2]

/-- `pop_heap_impl` on a heap of `n > 0` elements with the result position `r` outside the
heap: the greatest element goes to `r`, the old element of `r` joins the heap, which is a
heap again, and nothing else moves outside the heap. -/
theorem pop_heap_impl_spec (hswo : StrictWeakOrder comp) (d : α) (a : List α) (n r : Nat)
    (hn : 0 < n) (hnr : n ≤ r) (hr : r < a.length)
    (hheap : ∀ i, 0 < i → i < n → comp (gv d a ((i - 1) / 2)) (gv d a i) = false) :
    ∃ b, pop_heap_impl comp a n r = some b ∧ b.length = a.length ∧ b.Perm a ∧
      (∀ i, 0 < i → i < n → comp (gv d b ((i - 1) / 2)) (gv d b i) = false) ∧
      gv d b r = gv d a 0 ∧ (∀ j, n ≤ j → j ≠ r → b[j]? = a[j]?) ∧
      (∀ i, i < n → gv d b i = gv d a r ∨ ∃ j, 0 < j ∧ j < n ∧ gv d b i = gv d a j) := by
  have hl1 : (a.set r (gv d a 0)).length = a.length := by simp
  obtain ⟨b, e, hl, hp, ho, hh⟩ := adjust_heap_spec comp hswo d 0 n (a.set r (gv d a 0))
    (gv d a r) hn (by omega) (fun i hi hin hk => by
      rw [gv_set_ne d a r _ _ (by omega), gv_set_ne d a r _ _ (by omega)]
      exact hheap i hi hin)
  have hperm : ((a.set r (gv d a 0)).set 0 (gv d a r)).Perm a := by
    refine (set_set_perm_swap (gv d a 0) (gv d a r) a r 0 (by omega) hr (by omega)).trans ?_
    rw [set_gv_self d a r hr, set_gv_self d a 0 (by omega)]
  refine ⟨b, ?_, by omega, hp.trans hperm, fun i hi hin => hh i hi hin (Nat.zero_le _),
    ?_, ?_, ?_⟩
  · simp only [pop_heap_impl, getElem?_eq_gv d a r hr, getElem?_eq_gv d a 0 (by omega),
      Option.bind_eq_bind, Option.some_bind, wr_of_lt a r _ hr, e]
  · have := ho r hnr
    rw [List.getElem?_set_self (by omega)] at this
    exact gv_of_getElem? d b r _ this
  · intro j hj hjr
    rw [ho j hj, List.getElem?_set_ne (Ne.symm hjr)]
  · intro i hi
    obtain ⟨-, hmem⟩ := prefix_mem_of_perm d ((a.set r (gv d a 0)).set 0 (gv d a r)) b n
      hp (fun j hj => (ho j hj).trans (List.getElem?_set_ne (by omega)).symm)
    obtain ⟨j, hjn, hja, e2⟩ := hmem i hi (by omega)
    by_cases hj0 : j = 0
    · left
      rw [e2, hj0, gv_set_self d _ 0 _ (by simp; omega)]
    · right
      refine ⟨j, by omega, hjn, ?_⟩
      rw [e2, gv_set_ne d _ 0 j _ (by omega), gv_set_ne d a r j _ (by omega)]

/-- Reading through `gv` follows equal reads. -/
theorem gv_congr (d : α) (a b : List α) (j : Nat) (h : b[j]? = a[j]?) :
    gv d b j = gv d a j := by
  simp [gv, h]

/-- `sort_heap` on a heap of `n` elements followed, up to `m`, by elements in order that
are not less than any earlier element: the first `m` elements end in order and the rest is
left alone. -/
theorem sort_heap_spec (hswo : StrictWeakOrder comp) (d : α) (m : Nat) :
    ∀ (n : Nat) (a : List α), n ≤ m → m ≤ a.length →
    (∀ i, 0 < i → i < n → comp (gv d a ((i - 1) / 2)) (gv d a i) = false) →
    (∀ i j, i < j → n ≤ j → j < m → comp (gv d a j) (gv d a i) = false) →
    ∃ b, sort_heap comp n a = some b ∧ b.length = a.length ∧ b.Perm a ∧
      (∀ j, m ≤ j → b[j]? = a[j]?) ∧
      (∀ i j, i < j → j < m → comp (gv d b j) (gv d b i) = false) := by
  intro n
  induction n with
  | zero =>
    intro a _ _ _ hs
    exact ⟨a, rfl, rfl, List.Perm.refl _, fun _ _ => rfl,
      fun i j hij hj => hs i j hij (Nat.zero_le _) hj⟩
  | succ n ih =>
    intro a hn hm hheap hs
    by_cases h1 : n + 1 > 1
    · obtain ⟨b1, e1, hl1, hp1, hh1, htop, hout, hin⟩ := pop_heap_impl_spec comp hswo d a n n
        (by omega) (le_refl _) (by omega) (fun i hi hin => hheap i hi (by omega))
      have hmax := heap_top_max comp hswo d a (n + 1) hheap
      obtain ⟨b, e, hl, hp, ho, hsorted⟩ := ih b1 (by omega) (by omega) hh1 (by
        intro i j hij hnj hjm
        by_cases hjn : j = n
        · subst hjn
          rw [htop]
          rcases hin i hij with e2 | ⟨k, hk0, hkn, e2⟩
          · rw [e2]
            exact hmax j (by omega)
          · rw [e2]
            exact hmax k (by omega)
        · rw [gv_congr d a b1 j (hout j hnj hjn)]
          by_cases hi1 : i < n
          · rcases hin i hi1 with e2 | ⟨k, hk0, hkn, e2⟩
            · rw [e2]
              exact hs n j (by omega) (by omega) hjm
            · rw [e2]
              exact hs k j (by omega) (by omega) hjm
          · by_cases hi2 : i = n
            · subst hi2
              rw [htop]
              exact hs 0 j (by omega) (by omega) hjm
            · rw [gv_congr d a b1 i (hout i (by omega) hi2)]
              exact hs i j hij (by omega) hjm)
      refine ⟨b, ?_, by omega, hp.trans hp1,
        fun j hj => (ho j hj).trans (hout j (by omega) (by omega)), hsorted⟩
      simp only [sort_heap, h1, ↓reduceIte, e1, Option.bind_eq_bind, Option.some_bind, e]
    · refine ⟨a, ?_, rfl, List.Perm.refl _, fun _ _ => rfl,
        fun i j hij hj => hs i j hij (by omega) hj⟩
      simp only [sort_heap, h1, ↓reduceIte]

/-- The loop of `heap_select` on a heap of `m > 0` elements: at the end every element
outside the heap is not less than the first element of the heap. -/
theorem heap_select_loop_spec (hswo : StrictWeakOrder comp) (d : α) (m : Nat) (hm : 0 < m) :
    ∀ (fuel : Nat) (a : List α) (it : Nat), m ≤ it → it + fuel = a.length →
    (∀ i, 0 < i → i < m → comp (gv d a ((i - 1) / 2)) (gv d a i) = false) →
    (∀ j, m ≤ j → j < it → comp (gv d a j) (gv d a 0) = false) →
    ∃ b, heap_select_loop comp fuel a m it = some b ∧ b.length = a.length ∧ b.Perm a ∧
      (∀ i, 0 < i → i < m → comp (gv d b ((i - 1) / 2)) (gv d b i) = false) ∧
      (∀ j, m ≤ j → j < b.length → comp (gv d b j) (gv d b 0) = false) := by
  intro fuel
  induction fuel with
  | zero =>
    intro a it _ hf hheap hge
    exact ⟨a, rfl, rfl, List.Perm.refl _, hheap, fun j hj hjl => hge j hj (by omega)⟩
  | succ fuel ih =>
    intro a it hit hf hheap hge
    have hne : it ≠ a.length := by omega
    rcases Bool.eq_false_or_eq_true (comp (gv d a it) (gv d a 0)) with hc | hc
    · obtain ⟨b1, e1, hl1, hp1, hh1, htop, hout, hin⟩ := pop_heap_impl_spec comp hswo d a m it
        hm hit (by omega) hheap
      have hmax := heap_top_max comp hswo d a m hheap
      have hle : comp (gv d a 0) (gv d b1 0) = false := by
        rcases hin 0 hm with e2 | ⟨k, hk0, hkn, e2⟩
        · rw [e2]
          exact hswo.asymm comp hc
        · rw [e2]
          exact hmax k hkn
      obtain ⟨b, e, hl, hp, hh, hg⟩ := ih b1 (it + 1) (by omega) (by omega) hh1 (by
        intro j hj hjit
        by_cases hji : j = it
        · subst hji
          rw [htop]
          exact hle
        · rw [gv_congr d a b1 j (hout j hj hji)]
          exact hswo.neg_trans (hge j hj (by omega)) hle)
      refine ⟨b, ?_, by omega, hp.trans hp1, hh, hg⟩
      simp only [heap_select_loop, hne, ne_eq, not_false_eq_true, ↓reduceIte,
        getElem?_eq_gv d a it (by omega), getElem?_eq_gv d a 0 (by omega),
        Option.bind_eq_bind, Option.some_bind, hc, e1, e]
    · obtain ⟨b, e, hl, hp, hh, hg⟩ := ih a (it + 1) (by omega) (by omega) hheap (by
        intro j hj hjit
        by_cases hji : j = it
        · subst hji
          exact hc
        · exact hge j hj (by omega))
      refine ⟨b, ?_, hl, hp, hh, hg⟩
      simp only [heap_select_loop, hne, ne_eq, not_false_eq_true, ↓reduceIte,
        getElem?_eq_gv d a it (by omega), getElem?_eq_gv d a 0 (by omega),
        Option.bind_eq_bind, Option.some_bind, hc, Bool.false_eq_true, Option.pure_def, e]

/-- With an empty heap, `pop_heap_impl` exchanges the first element and the element of the
result position. -/
theorem pop_heap_impl_zero (d : α) (a : List α) (r : Nat) (hr : r < a.length) :
    pop_heap_impl comp a 0 r = some ((a.set r (gv d a 0)).set 0 (gv d a r)) := by
  have h0 : 0 < a.length := by omega
  simp [pop_heap_impl, getElem?_eq_gv d a r hr, getElem?_eq_gv d a 0 h0, wr, hr, h0,
    adjust_heap, adjust_heap_loop, promote_heap, promote_heap_loop]

/-- The loop of `heap_select` with an empty heap returns a rearrangement. -/
theorem heap_select_loop_zero (hswo : StrictWeakOrder comp) (d : α) :
    ∀ (fuel : Nat) (a : List α) (it : Nat), it + fuel = a.length →
    ∃ b, heap_select_loop comp fuel a 0 it = some b ∧ b.length = a.length ∧ b.Perm a := by
  intro fuel
  induction fuel with
  | zero =>
    intro a it _
    exact ⟨a, rfl, rfl, List.Perm.refl _⟩
  | succ fuel ih =>
    intro a it hf
    have hne : it ≠ a.length := by omega
    rcases Bool.eq_false_or_eq_true (comp (gv d a it) (gv d a 0)) with hc | hc
    · have hit0 : it ≠ 0 := by
        rintro rfl
        rw [hswo.irrefl] at hc
        exact absurd hc (by simp)
      have hperm : ((a.set it (gv d a 0)).set 0 (gv d a it)).Perm a := by
        refine (set_set_perm_swap (gv d a 0) (gv d a it) a it 0 hit0 (by omega)
          (by omega)).trans ?_
        rw [set_gv_self d a it (by omega), set_gv_self d a 0 (by omega)]
      obtain ⟨b, e, hl, hp⟩ := ih ((a.set it (gv d a 0)).set 0 (gv d a it)) (it + 1)
        (by simp; omega)
      refine ⟨b, ?_, by simpa using hl, hp.trans hperm⟩
      simp only [heap_select_loop, hne, ne_eq, not_false_eq_true, ↓reduceIte,
        getElem?_eq_gv d a it (by omega), getElem?_eq_gv d a 0 (by omega),
        Option.bind_eq_bind, Option.some_bind, hc,
        pop_heap_impl_zero comp d a it (by omega), e]
    · obtain ⟨b, e, hl, hp⟩ := ih a (it + 1) (by omega)
      refine ⟨b, ?_, hl, hp⟩
      simp only [heap_select_loop, hne, ne_eq, not_false_eq_true, ↓reduceIte,
        getElem?_eq_gv d a it (by omega), getElem?_eq_gv d a 0 (by omega),
        Option.bind_eq_bind, Option.some_bind, hc, Bool.false_eq_true, Option.pure_def, e]

/-- `partial_sort` on a list with `middle` inside it: the result is a rearrangement of the
list, its first `middle` elements are in order by index, and no later element is less than
one of the first `middle`. -/
theorem partial_sort_holds (hswo : StrictWeakOrder comp) (d : α) (a : List α) (m : Nat)
    (hm : m ≤ a.length) :
    ∃ b, partial_sort comp a m = some b ∧ b.length = a.length ∧ b.Perm a ∧
      (∀ i j, i < j → j < m → comp (gv d b j) (gv d b i) = false) ∧
      (∀ i j, i < m → m ≤ j → j < b.length → comp (gv d b j) (gv d b i) = false) := by
  by_cases h0 : m = 0
  · subst h0
    obtain ⟨b, e, hl, hp⟩ := heap_select_loop_zero comp hswo d (a.length - 0) a 0 (by omega)
    refine ⟨b, ?_, hl, hp, fun i j _ hj => by omega, fun i j hi => by omega⟩
    simp only [partial_sort, heap_select, make_heap_impl, gt_iff_lt, Nat.not_lt_zero,
      ↓reduceIte, Option.bind_eq_bind, Option.some_bind, e, sort_heap]
  · obtain ⟨b1, e1, hl1, hp1, -, hh1⟩ := make_heap_impl_spec comp hswo d m a hm
    obtain ⟨b2, e2, hl2, hp2, hh2, hg2⟩ := heap_select_loop_spec comp hswo d m (by omega)
      (b1.length - m) b1 m (le_refl _) (by omega) hh1 (fun j hj hjm => by omega)
    have hmax := heap_top_max comp hswo d b2 m hh2
    obtain ⟨b, e, hl, hp, ho, hs⟩ := sort_heap_spec comp hswo d m m b2 (le_refl _) (by omega)
      hh2 (fun i j hij hj hjm => by omega)
    refine ⟨b, ?_, by omega, (hp.trans hp2).trans hp1, hs, ?_⟩
    · simp only [partial_sort, heap_select, e1, Option.bind_eq_bind, Option.some_bind, e2, e]
    · intro i j hi hj hjl
      obtain ⟨-, hmem⟩ := prefix_mem_of_perm d b2 b m hp ho
      obtain ⟨k, hk, -, ek⟩ := hmem i hi (by omega)
      rw [ek, gv_congr d b2 b j (ho j hj)]
      exact hswo.neg_trans (hg2 j hj (by omega)) (hmax k hk)

end heap_sort


/-! ## The passes of the loop of `rbtree_delete_fixup` on the memory -/

set_option autoImplicit false

section delete_fixup_steps

variable {α : Type}

/-- The test `p == nullptr || p->mColor == mBlack` on the root of a laid-out subtree reads
the colour of the shape. -/
theorem nullOrBlack_of_tree {m : Mem} {val : Ptr → Option α} {par : Ptr} (T : Tr α)
    (h : TreeAt m val T par) :
    nullOrBlack m T.ptr = decide (T.color = rbtree_color.mBlack) := by
  cases T with
  | nil => simp [nullOrBlack, Tr.ptr, Tr.color]
  | node c l p v r =>
    obtain ⟨hp, hrec, -⟩ := h
    simp [nullOrBlack, Tr.ptr, Tr.color, hp, hrec]

/-- Colouring the root of a subtree that may be empty. -/
theorem MemHolds_setColor_opt {m : Mem} {val : Ptr → Option α} {hdr : Ptr}
    (ctx : List (Frame α)) (T : Tr α) (h : MemHolds m val hdr (plug ctx T))
    (c2 : rbtree_color) :
    ∃ m2, (if T.ptr ≠ 0 then setColor m T.ptr c2 else pure m) = some m2 ∧
      MemHolds m2 val hdr (plug ctx (T.setColor c2)) := by
  cases T with
  | nil => exact ⟨m, by simp [Tr.ptr], h⟩
  | node c l x v r =>
    obtain ⟨-, hx, -⟩ := h.at_node
    obtain ⟨m2, e, h2⟩ := MemHolds.setColor ctx c l r x v h c2
    exact ⟨m2, by simp [Tr.ptr, hx, e], h2⟩

/-- The end of a pass for a left hole: the sibling takes the colour of the parent, the
parent and the right child of the sibling become black, and the parent is rotated to the
left. -/
theorem delete_fixup_left_case4_spec {m : Mem} {val : Ptr → Option α} {hdr : Ptr}
    (rest : List (Frame α)) (cp : rbtree_color) (X : Tr α) (p : Ptr) (vp : α)
    (cw : rbtree_color) (wl : Tr α) (w : Ptr) (vw : α) (wr : Tr α)
    (h : MemHolds m val hdr (plug rest (Tr.node cp X p vp (Tr.node cw wl w vw wr)))) :
    ∃ m2, delete_fixup_left_case4 hdr m p w = some (m2, none) ∧
      MemHolds m2 val hdr (plug rest (Tr.node cp (Tr.node rbtree_color.mBlack X p vp wl) w vw
        (wr.setColor rbtree_color.mBlack))) := by
  obtain ⟨-, hp, hprec, -⟩ := h.at_node
  have hA : MemHolds m val hdr (plug (Frame.R cp X p vp :: rest) (Tr.node cw wl w vw wr)) := h
  obtain ⟨m1, e1, h1⟩ := MemHolds.setColor _ cw wl wr w vw hA cp
  have hB : MemHolds m1 val hdr (plug rest (Tr.node cp X p vp (Tr.node cp wl w vw wr))) := h1
  obtain ⟨m2, e2, h2⟩ := MemHolds.setColor rest cp X _ p vp hB rbtree_color.mBlack
  have hC : MemHolds m2 val hdr (plug (Frame.R rbtree_color.mBlack X p vp :: rest)
    (Tr.node cp wl w vw wr)) := h2
  obtain ⟨-, hw, hwrec, -⟩ := hC.at_node
  have hD : MemHolds m2 val hdr (plug (Frame.R cp wl w vw ::
    Frame.R rbtree_color.mBlack X p vp :: rest) wr) := h2
  obtain ⟨m3, e3, h3⟩ := MemHolds_setColor_opt _ wr hD rbtree_color.mBlack
  have hE : MemHolds m3 val hdr (plug rest (Tr.node rbtree_color.mBlack X p vp
    (Tr.node cp wl w vw (wr.setColor rbtree_color.mBlack)))) := h3
  obtain ⟨m4, e4, h4⟩ := rotate_left_spec rest rbtree_color.mBlack cp X wl _ p w vp vw hE
  refine ⟨m4, ?_, h4⟩
  simp only [delete_fixup_left_case4, rd_of_ne hp, hprec, Option.bind_eq_bind,
    Option.some_bind, e1, e2, rd_of_ne hw, hwrec, Option.pure_def]
  by_cases hz : wr.ptr = 0
  · simp only [hz, ne_eq, not_true_eq_false, ↓reduceIte, Option.pure_def,
      Option.some.injEq] at e3
    subst e3
    simp only [hz, ne_eq, not_true_eq_false, ↓reduceIte, e4, Option.some_bind]
  · simp only [hz, ne_eq, not_false_eq_true, ↓reduceIte] at e3
    simp only [hz, ne_eq, not_false_eq_true, ↓reduceIte, e3, e4, Option.some_bind]

/-- A pass for a left hole from the test of the children of the sibling on. -/
theorem delete_fixup_left_tail_spec {m : Mem} {val : Ptr → Option α} {hdr : Ptr}
    (rest : List (Frame α)) (cp : rbtree_color) (X : Tr α) (p : Ptr) (vp : α)
    (cw : rbtree_color) (wl : Tr α) (w : Ptr) (vw : α) (wr : Tr α)
    (h : MemHolds m val hdr (plug rest (Tr.node cp X p vp (Tr.node cw wl w vw wr)))) :
    ∃ m2, delete_fixup_left_tail hdr m p w = some (m2,
        if (delBalL cp X p vp (Tr.node cw wl w vw wr)).2 then some (ctxParent hdr rest)
        else none) ∧
      MemHolds m2 val hdr (plug rest (delBalL cp X p vp (Tr.node cw wl w vw wr)).1) := by
  obtain ⟨-, hp, hprec, -⟩ := h.at_node
  have hA : MemHolds m val hdr (plug (Frame.R cp X p vp :: rest) (Tr.node cw wl w vw wr)) := h
  obtain ⟨-, hw, hwrec, -, hwlT, hwrT, -⟩ := hA.at_node
  have tl := nullOrBlack_of_tree wl hwlT
  have tr := nullOrBlack_of_tree wr hwrT
  by_cases hr : wr.color = rbtree_color.mBlack
  · by_cases hl : wl.color = rbtree_color.mBlack
    · -- both children of the sibling are black: the sibling becomes red
      obtain ⟨m1, e1, h1⟩ := MemHolds.setColor _ cw wl wr w vw hA rbtree_color.mRed
      have hB : MemHolds m1 val hdr (plug rest (Tr.node cp X p vp
        (Tr.node rbtree_color.mRed wl w vw wr))) := h1
      obtain ⟨-, -, hprec1, -⟩ := hB.at_node
      refine ⟨m1, ?_, ?_⟩
      · simp only [delete_fixup_left_tail, rd_of_ne hw, hwrec, Option.bind_eq_bind,
          Option.some_bind, tl, tr, hl, hr, decide_True, and_self, ↓reduceIte, e1,
          rd_of_ne hp, hprec1, Option.pure_def, delBalL]
      · simp only [delBalL, hl, hr, and_self, ↓reduceIte]
        exact hB
    · -- the left child of the sibling is red, the right one black
      cases wl with
      | nil => exact absurd rfl hl
      | node cwl wla wlp vwl wlb =>
        have tl2 : nullOrBlack m wlp = false := by
          rw [Tr.ptr_node] at tl
          rw [tl]
          simpa using hl
        have hC : MemHolds m val hdr (plug (Frame.L cw w vw wr :: Frame.R cp X p vp :: rest)
          (Tr.node cwl wla wlp vwl wlb)) := h
        obtain ⟨m1, e1, h1⟩ := MemHolds.setColor _ cwl wla wlb wlp vwl hC rbtree_color.mBlack
        have hD : MemHolds m1 val hdr (plug (Frame.R cp X p vp :: rest)
          (Tr.node cw (Tr.node rbtree_color.mBlack wla wlp vwl wlb) w vw wr)) := h1
        obtain ⟨m2, e2, h2⟩ := MemHolds.setColor _ cw _ wr w vw hD rbtree_color.mRed
        obtain ⟨m3, e3, h3⟩ := rotate_right_spec (Frame.R cp X p vp :: rest) rbtree_color.mRed
          rbtree_color.mBlack wla wlb wr w wlp vw vwl h2
        have hE : MemHolds m3 val hdr (plug rest (Tr.node cp X p vp
          (Tr.node rbtree_color.mBlack wla wlp vwl
            (Tr.node rbtree_color.mRed wlb w vw wr)))) := h3
        obtain ⟨-, -, hprec3, -⟩ := hE.at_node
        obtain ⟨m4, e4, h4⟩ := delete_fixup_left_case4_spec rest cp X p vp rbtree_color.mBlack
          wla wlp vwl (Tr.node rbtree_color.mRed wlb w vw wr) hE
        refine ⟨m4, ?_, ?_⟩
        · simp only [delete_fixup_left_tail, rd_of_ne hw, hwrec, Option.bind_eq_bind,
            Option.some_bind, Tr.ptr_node, tl2, tr, hr, decide_True, Bool.false_eq_true,
            false_and, and_false, ↓reduceIte, e1, e2, e3,
            rd_of_ne hp, hprec3, Option.pure_def, e4, delBalL, hl]
        · simp only [delBalL, hl, hr, false_and, ↓reduceIte]
          exact h4
  · -- the right child of the sibling is red
    obtain ⟨m4, e4, h4⟩ := delete_fixup_left_case4_spec rest cp X p vp cw wl w vw wr h
    refine ⟨m4, ?_, ?_⟩
    · simp only [delete_fixup_left_tail, rd_of_ne hw, hwrec, Option.bind_eq_bind,
        Option.some_bind, tl, tr, hr, decide_False, Bool.false_eq_true,
        and_false, ↓reduceIte, Option.pure_def, e4, delBalL]
    · simp only [delBalL, hr, and_false, ↓reduceIte]
      exact h4

/-- A pass for a left hole with a red sibling: after the rotation that makes the sibling
black, the pass goes on with the left child of the old sibling as the sibling. -/
theorem delete_fixup_left_red_spec {m : Mem} {val : Ptr → Option α} {hdr : Ptr}
    (rest : List (Frame α)) (cp : rbtree_color) (X : Tr α) (p : Ptr) (vp : α)
    (ca : rbtree_color) (a : Tr α) (wlp : Ptr) (vwl : α) (b : Tr α)
    (w : Ptr) (vw : α) (wr : Tr α)
    (h : MemHolds m val hdr (plug rest (Tr.node cp X p vp
      (Tr.node rbtree_color.mRed (Tr.node ca a wlp vwl b) w vw wr)))) :
    ∃ m2, delete_fixup_left hdr m p = some (m2,
        if (delBalL rbtree_color.mRed X p vp (Tr.node ca a wlp vwl b)).2 then some w
        else none) ∧
      MemHolds m2 val hdr (plug rest (Tr.node rbtree_color.mBlack
        (delBalL rbtree_color.mRed X p vp (Tr.node ca a wlp vwl b)).1 w vw wr)) := by
  obtain ⟨-, hp, hprec, -⟩ := h.at_node
  have hA : MemHolds m val hdr (plug (Frame.R cp X p vp :: rest)
    (Tr.node rbtree_color.mRed (Tr.node ca a wlp vwl b) w vw wr)) := h
  obtain ⟨-, hw, hwrec, -⟩ := hA.at_node
  obtain ⟨m1, e1, h1⟩ := MemHolds.setColor _ rbtree_color.mRed _ wr w vw hA rbtree_color.mBlack
  have hB : MemHolds m1 val hdr (plug rest (Tr.node cp X p vp
    (Tr.node rbtree_color.mBlack (Tr.node ca a wlp vwl b) w vw wr))) := h1
  obtain ⟨m2, e2, h2⟩ := MemHolds.setColor rest cp X _ p vp hB rbtree_color.mRed
  obtain ⟨m3, e3, h3⟩ := rotate_left_spec rest rbtree_color.mRed rbtree_color.mBlack X
    (Tr.node ca a wlp vwl b) wr p w vp vw h2
  have hC : MemHolds m3 val hdr (plug (Frame.L rbtree_color.mBlack w vw wr :: rest)
    (Tr.node rbtree_color.mRed X p vp (Tr.node ca a wlp vwl b))) := h3
  obtain ⟨-, -, hprec3, -⟩ := hC.at_node
  obtain ⟨m4, e4, h4⟩ := delete_fixup_left_tail_spec (Frame.L rbtree_color.mBlack w vw wr :: rest)
    rbtree_color.mRed X p vp ca a wlp vwl b hC
  refine ⟨m4, ?_, h4⟩
  simp only [delete_fixup_left, rd_of_ne hp, hprec, Tr.ptr_node, rd_of_ne hw, hwrec,
    Option.bind_eq_bind, Option.some_bind, ↓reduceIte, e1, e2, e3, hprec3, Option.pure_def,
    e4, ctxParent_cons, Frame.ptr_L]

/-- A pass for a left hole with a sibling that is not red. -/
theorem delete_fixup_left_black_spec {m : Mem} {val : Ptr → Option α} {hdr : Ptr}
    (rest : List (Frame α)) (cp : rbtree_color) (X : Tr α) (p : Ptr) (vp : α)
    (wl : Tr α) (w : Ptr) (vw : α) (wr : Tr α)
    (h : MemHolds m val hdr (plug rest (Tr.node cp X p vp
      (Tr.node rbtree_color.mBlack wl w vw wr)))) :
    ∃ m2, delete_fixup_left hdr m p = some (m2,
        if (delBalL cp X p vp (Tr.node rbtree_color.mBlack wl w vw wr)).2
        then some (ctxParent hdr rest) else none) ∧
      MemHolds m2 val hdr (plug rest
        (delBalL cp X p vp (Tr.node rbtree_color.mBlack wl w vw wr)).1) := by
  obtain ⟨-, hp, hprec, -⟩ := h.at_node
  have hA : MemHolds m val hdr (plug (Frame.R cp X p vp :: rest)
    (Tr.node rbtree_color.mBlack wl w vw wr)) := h
  obtain ⟨-, hw, hwrec, -⟩ := hA.at_node
  obtain ⟨m4, e4, h4⟩ := delete_fixup_left_tail_spec rest cp X p vp rbtree_color.mBlack
    wl w vw wr h
  refine ⟨m4, ?_, h4⟩
  simp only [delete_fixup_left, rd_of_ne hp, hprec, Tr.ptr_node, rd_of_ne hw, hwrec,
    Option.bind_eq_bind, Option.some_bind, reduceCtorEq, ↓reduceIte, Option.pure_def, e4]

/-- The end of a pass for a right hole: the mirror image of
`delete_fixup_left_case4_spec`. -/
theorem delete_fixup_right_case4_spec {m : Mem} {val : Ptr → Option α} {hdr : Ptr}
    (rest : List (Frame α)) (cp : rbtree_color) (X : Tr α) (p : Ptr) (vp : α)
    (cw : rbtree_color) (wl : Tr α) (w : Ptr) (vw : α) (wr : Tr α)
    (h : MemHolds m val hdr (plug rest (Tr.node cp (Tr.node cw wl w vw wr) p vp X))) :
    ∃ m2, delete_fixup_right_case4 hdr m p w = some (m2, none) ∧
      MemHolds m2 val hdr (plug rest (Tr.node cp (wl.setColor rbtree_color.mBlack) w vw
        (Tr.node rbtree_color.mBlack wr p vp X))) := by
  obtain ⟨-, hp, hprec, -⟩ := h.at_node
  have hA : MemHolds m val hdr (plug (Frame.L cp p vp X :: rest) (Tr.node cw wl w vw wr)) := h
  obtain ⟨m1, e1, h1⟩ := MemHolds.setColor _ cw wl wr w vw hA cp
  have hB : MemHolds m1 val hdr (plug rest (Tr.node cp (Tr.node cp wl w vw wr) p vp X)) := h1
  obtain ⟨m2, e2, h2⟩ := MemHolds.setColor rest cp _ X p vp hB rbtree_color.mBlack
  have hC : MemHolds m2 val hdr (plug (Frame.L rbtree_color.mBlack p vp X :: rest)
    (Tr.node cp wl w vw wr)) := h2
  obtain ⟨-, hw, hwrec, -⟩ := hC.at_node
  have hD : MemHolds m2 val hdr (plug (Frame.L cp w vw wr ::
    Frame.L rbtree_color.mBlack p vp X :: rest) wl) := h2
  obtain ⟨m3, e3, h3⟩ := MemHolds_setColor_opt _ wl hD rbtree_color.mBlack
  have hE : MemHolds m3 val hdr (plug rest (Tr.node rbtree_color.mBlack
    (Tr.node cp (wl.setColor rbtree_color.mBlack) w vw wr) p vp X)) := h3
  obtain ⟨m4, e4, h4⟩ := rotate_right_spec rest rbtree_color.mBlack cp _ wr X p w vp vw hE
  refine ⟨m4, ?_, h4⟩
  simp only [delete_fixup_right_case4, rd_of_ne hp, hprec, Option.bind_eq_bind,
    Option.some_bind, e1, e2, rd_of_ne hw, hwrec, Option.pure_def]
  by_cases hz : wl.ptr = 0
  · simp only [hz, ne_eq, not_true_eq_false, ↓reduceIte, Option.pure_def,
      Option.some.injEq] at e3
    subst e3
    simp only [hz, ne_eq, not_true_eq_false, ↓reduceIte, e4, Option.some_bind]
  · simp only [hz, ne_eq, not_false_eq_true, ↓reduceIte] at e3
    simp only [hz, ne_eq, not_false_eq_true, ↓reduceIte, e3, e4, Option.some_bind]

/-- A pass for a right hole from the test of the children of the sibling on. -/
theorem delete_fixup_right_tail_spec {m : Mem} {val : Ptr → Option α} {hdr : Ptr}
    (rest : List (Frame α)) (cp : rbtree_color) (X : Tr α) (p : Ptr) (vp : α)
    (cw : rbtree_color) (wl : Tr α) (w : Ptr) (vw : α) (wr : Tr α)
    (h : MemHolds m val hdr (plug rest (Tr.node cp (Tr.node cw wl w vw wr) p vp X))) :
    ∃ m2, delete_fixup_right_tail hdr m p w = some (m2,
        if (delBalR cp X p vp (Tr.node cw wl w vw wr)).2 then some (ctxParent hdr rest)
        else none) ∧
      MemHolds m2 val hdr (plug rest (delBalR cp X p vp (Tr.node cw wl w vw wr)).1) := by
  obtain ⟨-, hp, hprec, -⟩ := h.at_node
  have hA : MemHolds m val hdr (plug (Frame.L cp p vp X :: rest) (Tr.node cw wl w vw wr)) := h
  obtain ⟨-, hw, hwrec, -, hwlT, hwrT, -⟩ := hA.at_node
  have tl := nullOrBlack_of_tree wl hwlT
  have tr := nullOrBlack_of_tree wr hwrT
  by_cases hl : wl.color = rbtree_color.mBlack
  · by_cases hr : wr.color = rbtree_color.mBlack
    · -- both children of the sibling are black: the sibling becomes red
      obtain ⟨m1, e1, h1⟩ := MemHolds.setColor _ cw wl wr w vw hA rbtree_color.mRed
      have hB : MemHolds m1 val hdr (plug rest (Tr.node cp
        (Tr.node rbtree_color.mRed wl w vw wr) p vp X)) := h1
      obtain ⟨-, -, hprec1, -⟩ := hB.at_node
      refine ⟨m1, ?_, ?_⟩
      · simp only [delete_fixup_right_tail, rd_of_ne hw, hwrec, Option.bind_eq_bind,
          Option.some_bind, tl, tr, hl, hr, decide_True, and_self, ↓reduceIte, e1,
          rd_of_ne hp, hprec1, Option.pure_def, delBalR]
      · simp only [delBalR, hl, hr, and_self, ↓reduceIte]
        exact hB
    · -- the right child of the sibling is red, the left one black
      cases wr with
      | nil => exact absurd rfl hr
      | node cwr wra wrp vwr wrb =>
        have tr2 : nullOrBlack m wrp = false := by
          rw [Tr.ptr_node] at tr
          rw [tr]
          simpa using hr
        have hC : MemHolds m val hdr (plug (Frame.R cw wl w vw :: Frame.L cp p vp X :: rest)
          (Tr.node cwr wra wrp vwr wrb)) := h
        obtain ⟨m1, e1, h1⟩ := MemHolds.setColor _ cwr wra wrb wrp vwr hC rbtree_color.mBlack
        have hD : MemHolds m1 val hdr (plug (Frame.L cp p vp X :: rest)
          (Tr.node cw wl w vw (Tr.node rbtree_color.mBlack wra wrp vwr wrb))) := h1
        obtain ⟨m2, e2, h2⟩ := MemHolds.setColor _ cw wl _ w vw hD rbtree_color.mRed
        obtain ⟨m3, e3, h3⟩ := rotate_left_spec (Frame.L cp p vp X :: rest) rbtree_color.mRed
          rbtree_color.mBlack wl wra wrb w wrp vw vwr h2
        have hE : MemHolds m3 val hdr (plug rest (Tr.node cp
          (Tr.node rbtree_color.mBlack (Tr.node rbtree_color.mRed wl w vw wra) wrp vwr wrb)
          p vp X)) := h3
        obtain ⟨-, -, hprec3, -⟩ := hE.at_node
        obtain ⟨m4, e4, h4⟩ := delete_fixup_right_case4_spec rest cp X p vp rbtree_color.mBlack
          (Tr.node rbtree_color.mRed wl w vw wra) wrp vwr wrb hE
        refine ⟨m4, ?_, ?_⟩
        · simp only [delete_fixup_right_tail, rd_of_ne hw, hwrec, Option.bind_eq_bind,
            Option.some_bind, Tr.ptr_node, tl, tr2, hl, decide_True, Bool.false_eq_true,
            false_and, and_false, ↓reduceIte, e1, e2, e3,
            rd_of_ne hp, hprec3, Option.pure_def, e4, delBalR, hr]
        · simp only [delBalR, hl, hr, and_false, ↓reduceIte]
          exact h4
  · -- the left child of the sibling is red
    obtain ⟨m4, e4, h4⟩ := delete_fixup_right_case4_spec rest cp X p vp cw wl w vw wr h
    refine ⟨m4, ?_, ?_⟩
    · simp only [delete_fixup_right_tail, rd_of_ne hw, hwrec, Option.bind_eq_bind,
        Option.some_bind, tl, tr, hl, decide_False, Bool.false_eq_true,
        false_and, ↓reduceIte, Option.pure_def, e4, delBalR]
    · simp only [delBalR, hl, false_and, ↓reduceIte]
      exact h4

/-- A pass for a right hole with a red sibling. -/
theorem delete_fixup_right_red_spec {m : Mem} {val : Ptr → Option α} {hdr : Ptr}
    (rest : List (Frame α)) (cp : rbtree_color) (X : Tr α) (p : Ptr) (vp : α)
    (wl : Tr α) (w : Ptr) (vw : α)
    (ca : rbtree_color) (a : Tr α) (wrp : Ptr) (vwr : α) (b : Tr α)
    (h : MemHolds m val hdr (plug rest (Tr.node cp
      (Tr.node rbtree_color.mRed wl w vw (Tr.node ca a wrp vwr b)) p vp X))) :
    ∃ m2, delete_fixup_right hdr m p = some (m2,
        if (delBalR rbtree_color.mRed X p vp (Tr.node ca a wrp vwr b)).2 then some w
        else none) ∧
      MemHolds m2 val hdr (plug rest (Tr.node rbtree_color.mBlack wl w vw
        (delBalR rbtree_color.mRed X p vp (Tr.node ca a wrp vwr b)).1)) := by
  obtain ⟨-, hp, hprec, -⟩ := h.at_node
  have hA : MemHolds m val hdr (plug (Frame.L cp p vp X :: rest)
    (Tr.node rbtree_color.mRed wl w vw (Tr.node ca a wrp vwr b))) := h
  obtain ⟨-, hw, hwrec, -⟩ := hA.at_node
  obtain ⟨m1, e1, h1⟩ := MemHolds.setColor _ rbtree_color.mRed wl _ w vw hA rbtree_color.mBlack
  have hB : MemHolds m1 val hdr (plug rest (Tr.node cp
    (Tr.node rbtree_color.mBlack wl w vw (Tr.node ca a wrp vwr b)) p vp X)) := h1
  obtain ⟨m2, e2, h2⟩ := MemHolds.setColor rest cp _ X p vp hB rbtree_color.mRed
  obtain ⟨m3, e3, h3⟩ := rotate_right_spec rest rbtree_color.mRed rbtree_color.mBlack wl
    (Tr.node ca a wrp vwr b) X p w vp vw h2
  have hC : MemHolds m3 val hdr (plug (Frame.R rbtree_color.mBlack wl w vw :: rest)
    (Tr.node rbtree_color.mRed (Tr.node ca a wrp vwr b) p vp X)) := h3
  obtain ⟨-, -, hprec3, -⟩ := hC.at_node
  obtain ⟨m4, e4, h4⟩ := delete_fixup_right_tail_spec
    (Frame.R rbtree_color.mBlack wl w vw :: rest) rbtree_color.mRed X p vp ca a wrp vwr b hC
  refine ⟨m4, ?_, h4⟩
  simp only [delete_fixup_right, rd_of_ne hp, hprec, Tr.ptr_node, rd_of_ne hw, hwrec,
    Option.bind_eq_bind, Option.some_bind, ↓reduceIte, e1, e2, e3, hprec3, Option.pure_def,
    e4, ctxParent_cons, Frame.ptr_R]

/-- A pass for a right hole with a sibling that is not red. -/
theorem delete_fixup_right_black_spec {m : Mem} {val : Ptr → Option α} {hdr : Ptr}
    (rest : List (Frame α)) (cp : rbtree_color) (X : Tr α) (p : Ptr) (vp : α)
    (wl : Tr α) (w : Ptr) (vw : α) (wr : Tr α)
    (h : MemHolds m val hdr (plug rest (Tr.node cp
      (Tr.node rbtree_color.mBlack wl w vw wr) p vp X))) :
    ∃ m2, delete_fixup_right hdr m p = some (m2,
        if (delBalR cp X p vp (Tr.node rbtree_color.mBlack wl w vw wr)).2
        then some (ctxParent hdr rest) else none) ∧
      MemHolds m2 val hdr (plug rest
        (delBalR cp X p vp (Tr.node rbtree_color.mBlack wl w vw wr)).1) := by
  obtain ⟨-, hp, hprec, -⟩ := h.at_node
  have hA : MemHolds m val hdr (plug (Frame.L cp p vp X :: rest)
    (Tr.node rbtree_color.mBlack wl w vw wr)) := h
  obtain ⟨-, hw, hwrec, -⟩ := hA.at_node
  obtain ⟨m4, e4, h4⟩ := delete_fixup_right_tail_spec rest cp X p vp rbtree_color.mBlack
    wl w vw wr h
  refine ⟨m4, ?_, h4⟩
  simp only [delete_fixup_right, rd_of_ne hp, hprec, Tr.ptr_node, rd_of_ne hw, hwrec,
    Option.bind_eq_bind, Option.some_bind, reduceCtorEq, ↓reduceIte, Option.pure_def, e4]

end delete_fixup_steps


/-! ## The loop of `rbtree_delete_fixup` -/

set_option autoImplicit false

section delete_fixup_loop

variable {α : Type}

theorem plug_append (a b : List (Frame α)) (t : Tr α) :
    plug (a ++ b) t = plug b (plug a t) := by
  induction a generalizing t with
  | nil => rfl
  | cons f a ih => exact ih (f.fill t)

theorem Tr.setColor_of_color (T : Tr α) (c : rbtree_color) (h : T.color = c) :
    T.setColor c = T := by
  cases T with
  | nil => rfl
  | node c2 l p v r =>
    simp only [Tr.color] at h
    subst h
    rfl

/-- The subtree computed by a pass for a left hole still has the subtree of the hole in
it. -/
theorem delBalL_hole (cp : rbtree_color) (X : Tr α) (p : Ptr) (vp : α) (W : Tr α) :
    ∃ fr, (delBalL cp X p vp W).1 = plug fr X := by
  cases W with
  | nil => exact ⟨[Frame.L cp p vp Tr.nil], rfl⟩
  | node cw wl w vw wr =>
    simp only [delBalL]
    split
    · exact ⟨[Frame.L cp p vp _], rfl⟩
    · split
      · cases wl with
        | nil => exact ⟨[Frame.L cp p vp _], rfl⟩
        | node cwl wla wlp vwl wlb =>
          exact ⟨[Frame.L rbtree_color.mBlack p vp wla, Frame.L cp wlp vwl _], rfl⟩
      · exact ⟨[Frame.L rbtree_color.mBlack p vp wl, Frame.L cp w vw _], rfl⟩

theorem delBalR_hole (cp : rbtree_color) (X : Tr α) (p : Ptr) (vp : α) (W : Tr α) :
    ∃ fr, (delBalR cp X p vp W).1 = plug fr X := by
  cases W with
  | nil => exact ⟨[Frame.R cp Tr.nil p vp], rfl⟩
  | node cw wl w vw wr =>
    simp only [delBalR]
    split
    · exact ⟨[Frame.R cp _ p vp], rfl⟩
    · split
      · cases wr with
        | nil => exact ⟨[Frame.R cp _ p vp], rfl⟩
        | node cwr wra wrp vwr wrb =>
          exact ⟨[Frame.R rbtree_color.mBlack wrb p vp, Frame.R cp _ wrp vwr], rfl⟩
      · exact ⟨[Frame.R rbtree_color.mBlack wr p vp, Frame.R cp _ w vw], rfl⟩

/-- When the loop goes on after a pass for a left hole, the sibling had two black children
and became red, and the parent keeps its place and colour. -/
theorem delBalL_cont (cp : rbtree_color) (X : Tr α) (p : Ptr) (vp : α) (W : Tr α)
    (h : (delBalL cp X p vp W).2 = true) :
    ∃ cw wl w vw wr, W = Tr.node cw wl w vw wr ∧ wl.color = rbtree_color.mBlack ∧
      wr.color = rbtree_color.mBlack ∧
      (delBalL cp X p vp W).1 = Tr.node cp X p vp (Tr.node rbtree_color.mRed wl w vw wr) := by
  cases W with
  | nil => simp [delBalL] at h
  | node cw wl w vw wr =>
    simp only [delBalL] at h ⊢
    split at h
    · rename_i hc
      refine ⟨cw, wl, w, vw, wr, rfl, hc.1, hc.2, ?_⟩
      simp only [hc, and_self, ↓reduceIte]
    · split at h
      · cases wl <;> simp at h
      · simp at h

theorem delBalR_cont (cp : rbtree_color) (X : Tr α) (p : Ptr) (vp : α) (W : Tr α)
    (h : (delBalR cp X p vp W).2 = true) :
    ∃ cw wl w vw wr, W = Tr.node cw wl w vw wr ∧ wl.color = rbtree_color.mBlack ∧
      wr.color = rbtree_color.mBlack ∧
      (delBalR cp X p vp W).1 = Tr.node cp (Tr.node rbtree_color.mRed wl w vw wr) p vp X := by
  cases W with
  | nil => simp [delBalR] at h
  | node cw wl w vw wr =>
    simp only [delBalR] at h ⊢
    split at h
    · rename_i hc
      refine ⟨cw, wl, w, vw, wr, rfl, hc.1, hc.2, ?_⟩
      simp only [hc, and_self, ↓reduceIte]
    · split at h
      · cases wr <;> simp at h
      · simp at h

/-- The loop of `rbtree_delete_fixup` ends at once, colouring `x` black, when `x` is the
root or red. -/
theorem rbtree_delete_fixup_exit {m : Mem} {val : Ptr → Option α} {hdr : Ptr}
    (ctx : List (Frame α)) (X : Tr α) (h : MemHolds m val hdr (plug ctx X))
    (hx : ctx = [] ∨ X.color = rbtree_color.mRed) (fuel : Nat) (y : Ptr) :
    ∃ m2, rbtree_delete_fixup hdr (fuel + 1) m X.ptr y = some m2 ∧
      MemHolds m2 val hdr (plug ctx (X.setColor rbtree_color.mBlack)) := by
  obtain ⟨m2, e2, h2⟩ := MemHolds_setColor_opt ctx X h rbtree_color.mBlack
  refine ⟨m2, ?_, h2⟩
  have hh := h.hdr
  have htest : ¬ (X.ptr ≠ (plug ctx X).ptr ∧ nullOrBlack m X.ptr = true) := by
    rcases hx with rfl | hc
    · simp [plug]
    · have ht := ((MemHolds_plug_iff ctx X).1 h).2.2.1
      rw [nullOrBlack_of_tree X ht, hc]
      simp
  simp only [rbtree_delete_fixup, rd_of_ne h.hdr_ne, hh, Option.bind_eq_bind, Option.some_bind,
    htest, ↓reduceIte, delete_fixup_finish]
  exact e2

/-- Below a path the hole is not the root. -/
theorem hole_ne_root {m : Mem} {val : Ptr → Option α} {hdr : Ptr}
    (f : Frame α) (rest : List (Frame α)) (X : Tr α)
    (h : MemHolds m val hdr (plug (f :: rest) X)) :
    X.ptr ≠ (plug (f :: rest) X).ptr := by
  rcases Tr.ptr_mem_or_nil X with rfl | hm
  · have h1 := Tr.ptr_plug_mem f rest (Tr.nil : Tr α)
    have h2 : (plug (f :: rest) (Tr.nil : Tr α)).ptr ∈ (plug (f :: rest) (Tr.nil : Tr α)).ptrs := by
      rw [Tr.ptrs_plug]
      simp only [List.mem_append] at h1 ⊢
      tauto
    exact Ne.symm (TreeAt_ptr_ne_zero h.tree _ h2)
  · have hnd := h.nodup
    rw [Tr.ptrs_plug] at hnd
    exact Tr.ptr_plug_ne_of_mem f rest X X.ptrs hnd hm

/-- The sibling of a hole that lacks a black node is a node, and when it is red its
children are nodes. -/
theorem DelInv_L (cp : rbtree_color) (p : Ptr) (vp : α) (W : Tr α) (rest : List (Frame α))
    (X : Tr α) (h : DelInv (Frame.L cp p vp W :: rest) X) :
    ∃ cw wl w vw wr, W = Tr.node cw wl w vw wr ∧
      (cw = rbtree_color.mRed → (∃ ca a q vq b, wl = Tr.node ca a q vq b) ∧
        ∃ ca a q vq b, wr = Tr.node ca a q vq b) := by
  obtain ⟨k, -, hW⟩ := h
  have hb : W.blackHeight (k + 1) := hW.2.1
  cases W with
  | nil => simp [Tr.blackHeight] at hb
  | node cw wl w vw wr =>
    refine ⟨cw, wl, w, vw, wr, rfl, ?_⟩
    rintro rfl
    rw [Tr.blackHeight_red] at hb
    obtain ⟨h1, h2⟩ := hb
    constructor
    · cases wl with
      | nil => simp [Tr.blackHeight] at h1
      | node ca a q vq b => exact ⟨ca, a, q, vq, b, rfl⟩
    · cases wr with
      | nil => simp [Tr.blackHeight] at h2
      | node ca a q vq b => exact ⟨ca, a, q, vq, b, rfl⟩

theorem DelInv_R (cp : rbtree_color) (p : Ptr) (vp : α) (W : Tr α) (rest : List (Frame α))
    (X : Tr α) (h : DelInv (Frame.R cp W p vp :: rest) X) :
    ∃ cw wl w vw wr, W = Tr.node cw wl w vw wr ∧
      (cw = rbtree_color.mRed → (∃ ca a q vq b, wl = Tr.node ca a q vq b) ∧
        ∃ ca a q vq b, wr = Tr.node ca a q vq b) := by
  obtain ⟨k, -, hW⟩ := h
  have hb : W.blackHeight (k + 1) := hW.2.1
  cases W with
  | nil => simp [Tr.blackHeight] at hb
  | node cw wl w vw wr =>
    refine ⟨cw, wl, w, vw, wr, rfl, ?_⟩
    rintro rfl
    rw [Tr.blackHeight_red] at hb
    obtain ⟨h1, h2⟩ := hb
    constructor
    · cases wl with
      | nil => simp [Tr.blackHeight] at h1
      | node ca a q vq b => exact ⟨ca, a, q, vq, b, rfl⟩
    · cases wr with
      | nil => simp [Tr.blackHeight] at h2
      | node ca a q vq b => exact ⟨ca, a, q, vq, b, rfl⟩

/-- When the loop goes on after the passes at a frame, the subtree rooted at the node of
the frame lacks a black node in turn. -/
theorem delStep_cont_inv (f : Frame α) (rest : List (Frame α)) (X : Tr α)
    (h : DelInv (f :: rest) X) (hc : (delStep f X).2 = true) :
    DelInv rest (delStep f X).1 ∧ (delStep f X).1.ptr = f.ptr := by
  obtain ⟨k, hX, hW⟩ := h
  cases f with
  | L cp p vp W =>
    cases W with
    | nil => simp [delStep, delBalL] at hc
    | node cw wl w vw wr =>
      cases cw with
      | mRed => simp [delStep] at hc
      | mBlack =>
        simp only [delStep] at hc ⊢
        obtain ⟨cw2, wl2, w2, vw2, wr2, e, -, -, hform⟩ := delBalL_cont _ _ _ _ _ hc
        cases e
        rw [hform]
        refine ⟨?_, rfl⟩
        have hb : wl.blackHeight k ∧ wr.blackHeight k := (Tr.blackHeight_black _ _ _ _ _).1 hW.2.1
        refine ⟨if cp = rbtree_color.mBlack then k + 1 else k, ?_, ?_⟩
        · rw [Tr.blackHeight_node]
          exact ⟨k, hX, (Tr.blackHeight_red _ _ _ _ _).2 hb, rfl⟩
        · have := hW.2.2.2
          cases cp <;> simpa using this
  | R cp W p vp =>
    cases W with
    | nil => simp [delStep, delBalR] at hc
    | node cw wl w vw wr =>
      cases cw with
      | mRed => simp [delStep] at hc
      | mBlack =>
        simp only [delStep] at hc ⊢
        obtain ⟨cw2, wl2, w2, vw2, wr2, e, -, -, hform⟩ := delBalR_cont _ _ _ _ _ hc
        cases e
        rw [hform]
        refine ⟨?_, rfl⟩
        have hb : wl.blackHeight k ∧ wr.blackHeight k := (Tr.blackHeight_black _ _ _ _ _).1 hW.2.1
        refine ⟨if cp = rbtree_color.mBlack then k + 1 else k, ?_, ?_⟩
        · rw [Tr.blackHeight_node]
          exact ⟨k, (Tr.blackHeight_red _ _ _ _ _).2 hb, hX, rfl⟩
        · have := hW.2.2.2
          cases cp <;> simpa using this

/-- The tail of `rbtree_delete_fixup` leaves the tree alone when `x` is null or black. -/
theorem delete_fixup_finish_same {m : Mem} {val : Ptr → Option α} {hdr : Ptr}
    (ctx : List (Frame α)) (X : Tr α) (h : MemHolds m val hdr (plug ctx X))
    (hX : X.color = rbtree_color.mBlack) :
    ∃ m2, delete_fixup_finish m X.ptr = some m2 ∧ MemHolds m2 val hdr (plug ctx X) := by
  obtain ⟨m2, e2, h2⟩ := MemHolds_setColor_opt ctx X h rbtree_color.mBlack
  rw [Tr.setColor_of_color X _ hX] at h2
  exact ⟨m2, e2, h2⟩

/-- One turn of the loop of `rbtree_delete_fixup`. -/
theorem rbtree_delete_fixup_turn {m : Mem} {hdr : Ptr} (x y : Ptr) (fuel : Nat)
    (hdr0 : hdr ≠ 0) (hy : y ≠ 0) (hroot : x ≠ (m hdr).mParent)
    (hnb : nullOrBlack m x = true) (m2 : Mem) (next : Option Ptr) :
    (if x = (m y).mLeft then delete_fixup_left hdr m y
      else delete_fixup_right hdr m y) = some (m2, next) →
    rbtree_delete_fixup hdr (fuel + 1) m x y =
      match next with
      | some y2 => rbtree_delete_fixup hdr fuel m2 y y2
      | none => delete_fixup_finish m2 x := by
  intro e
  by_cases hcond : x = (m y).mLeft
  · rw [if_pos hcond] at e
    simp only [rbtree_delete_fixup, rd_of_ne hdr0, Option.bind_eq_bind, Option.some_bind, ne_eq,
      hroot, not_false_eq_true, hnb, and_self, ↓reduceIte, rd_of_ne hy, if_pos hcond, e]
    all_goals (cases next <;> rfl)
  · rw [if_neg hcond] at e
    simp only [rbtree_delete_fixup, rd_of_ne hdr0, Option.bind_eq_bind, Option.some_bind, ne_eq,
      hroot, not_false_eq_true, hnb, and_self, ↓reduceIte, rd_of_ne hy, if_neg hcond, e]
    all_goals (cases next <;> rfl)

/-- A right hole is not the link to the sibling. -/
theorem hole_ne_sibling {m : Mem} {val : Ptr → Option α} {hdr : Ptr}
    (cp : rbtree_color) (cw : rbtree_color) (wl : Tr α) (w : Ptr) (vw : α) (wr : Tr α)
    (p : Ptr) (vp : α) (rest : List (Frame α)) (X : Tr α)
    (h : MemHolds m val hdr (plug (Frame.R cp (Tr.node cw wl w vw wr) p vp :: rest) X)) :
    X.ptr ≠ w := by
  have hA : MemHolds m val hdr (plug (Frame.L cp p vp X :: rest) (Tr.node cw wl w vw wr)) := h
  obtain ⟨-, hw, -⟩ := hA.at_node
  rcases Tr.ptr_mem_or_nil X with rfl | hm
  · exact Ne.symm hw
  · have hnd := h.nodup
    rw [Tr.ptrs_plug] at hnd
    simp only [ctxBefore, ctxAfter, Tr.ptrs, List.nodup_append, List.nodup_cons,
      List.disjoint_cons_left, List.disjoint_cons_right, List.disjoint_append_left,
      List.disjoint_append_right, List.mem_append, List.mem_cons, not_or] at hnd
    intro e
    rw [e] at hm
    simp [hm] at hnd

/-- The loop of `rbtree_delete_fixup` started at a hole that lacks a black node computes
the shape `delFix`. -/
theorem rbtree_delete_fixup_spec {val : Ptr → Option α} {hdr : Ptr} :
    ∀ (ctx : List (Frame α)) (X : Tr α) (m : Mem) (fuel : Nat),
    MemHolds m val hdr (plug ctx X) → DelInv ctx X → ctx.length + 2 ≤ fuel →
    ∃ m2, rbtree_delete_fixup hdr fuel m X.ptr (ctxParent hdr ctx) = some m2 ∧
      MemHolds m2 val hdr (delFix ctx X) := by
  intro ctx
  induction ctx with
  | nil =>
    intro X m fuel h _ hf
    obtain ⟨f, rfl⟩ : ∃ f, fuel = f + 1 := ⟨fuel - 1, by omega⟩
    exact rbtree_delete_fixup_exit [] X h (Or.inl rfl) f _
  | cons f rest ih =>
    intro X m fuel h hinv hf
    obtain ⟨fu, rfl⟩ : ∃ fu, fuel = fu + 2 := ⟨fuel - 2, by simp at hf; omega⟩
    by_cases hc : X.color = rbtree_color.mRed
    · obtain ⟨m2, e, h2⟩ := rbtree_delete_fixup_exit (f :: rest) X h (Or.inr hc) (fu + 1)
        (ctxParent hdr (f :: rest))
      refine ⟨m2, e, ?_⟩
      simp only [delFix, hc, ↓reduceIte]
      exact h2
    · have hb : X.color = rbtree_color.mBlack := by
        cases hX : X.color with
        | mBlack => rfl
        | mRed => exact absurd hX hc
      have hroot : X.ptr ≠ (m hdr).mParent := by
        rw [h.hdr]
        exact hole_ne_root f rest X h
      have ht := ((MemHolds_plug_iff (f :: rest) X).1 h).2.2.1
      have hnb : nullOrBlack m X.ptr = true := by
        rw [nullOrBlack_of_tree X ht, hb]
        simp
      have hdF : delFix (f :: rest) X =
          if (delStep f X).2 then delFix rest (delStep f X).1 else plug rest (delStep f X).1 := by
        simp only [delFix, hc, ↓reduceIte]
      rw [hdF]
      -- the end of the proof once the passes at `f` are done
      have hend : ∀ (m2 : Mem) (next : Option Ptr),
          (if X.ptr = (m f.ptr).mLeft then delete_fixup_left hdr m f.ptr
            else delete_fixup_right hdr m f.ptr) = some (m2, next) → f.ptr ≠ 0 →
          (∃ m3, (match next with
            | some y2 => rbtree_delete_fixup hdr (fu + 1) m2 f.ptr y2
            | none => delete_fixup_finish m2 X.ptr) = some m3 ∧
            MemHolds m3 val hdr (if (delStep f X).2 then delFix rest (delStep f X).1
              else plug rest (delStep f X).1)) →
          ∃ m3, rbtree_delete_fixup hdr (fu + 2) m X.ptr (ctxParent hdr (f :: rest)) = some m3 ∧
            MemHolds m3 val hdr (if (delStep f X).2 then delFix rest (delStep f X).1
              else plug rest (delStep f X).1) := by
        intro m2 next e hp ⟨m3, e3, h3⟩
        refine ⟨m3, ?_, h3⟩
        rw [ctxParent_cons, rbtree_delete_fixup_turn X.ptr f.ptr (fu + 1) h.hdr_ne hp hroot hnb
          m2 next e]
        cases next <;> exact e3
      cases f with
      | L cp p vp W =>
        obtain ⟨cw, wl, w, vw, wr, rfl, hred⟩ := DelInv_L cp p vp W rest X hinv
        have hA : MemHolds m val hdr (plug rest (Tr.node cp X p vp (Tr.node cw wl w vw wr))) := h
        obtain ⟨-, hp, hprec, -⟩ := hA.at_node
        have hdisp : X.ptr = (m (Frame.L cp p vp (Tr.node cw wl w vw wr)).ptr).mLeft := by
          rw [Frame.ptr_L, hprec]
        cases cw with
        | mRed =>
          obtain ⟨⟨ca, a, q, vq, b, rfl⟩, -⟩ := hred rfl
          obtain ⟨m2, e2, h2⟩ := delete_fixup_left_red_spec rest cp X p vp ca a q vq b w vw wr hA
          refine hend m2 _ (by rw [if_pos hdisp]; exact e2) hp ?_
          by_cases hcont : (delBalL rbtree_color.mRed X p vp (Tr.node ca a q vq b)).2 = true
          · obtain ⟨cw2, wl2, w2, vw2, wr2, -, -, -, hform⟩ := delBalL_cont _ _ _ _ _ hcont
            have hB : MemHolds m2 val hdr (plug (Frame.L rbtree_color.mBlack w vw wr :: rest)
              (delBalL rbtree_color.mRed X p vp (Tr.node ca a q vq b)).1) := h2
            obtain ⟨m3, e3, h3⟩ := rbtree_delete_fixup_exit _ _ hB
              (Or.inr (by rw [hform]; rfl)) fu w
            refine ⟨m3, ?_, ?_⟩
            · simp only [hcont, ↓reduceIte, Frame.ptr_L]
              rw [hform] at e3
              exact e3
            · simp only [delStep, hcont, ↓reduceIte, Bool.false_eq_true]
              exact h3
          · obtain ⟨fr, hfr⟩ := delBalL_hole rbtree_color.mRed X p vp (Tr.node ca a q vq b)
            have hB : MemHolds m2 val hdr (plug (fr ++ Frame.L rbtree_color.mBlack w vw wr :: rest)
              X) := by
              rw [plug_append, ← hfr]
              exact h2
            obtain ⟨m3, e3, h3⟩ := delete_fixup_finish_same _ X hB hb
            refine ⟨m3, ?_, ?_⟩
            · simp only [hcont, ↓reduceIte, Bool.false_eq_true]
              exact e3
            · simp only [delStep, hcont, ↓reduceIte, Bool.false_eq_true]
              rw [plug_append, ← hfr] at h3
              exact h3
        | mBlack =>
          obtain ⟨m2, e2, h2⟩ := delete_fixup_left_black_spec rest cp X p vp wl w vw wr hA
          refine hend m2 _ (by rw [if_pos hdisp]; exact e2) hp ?_
          have hds : delStep (Frame.L cp p vp (Tr.node rbtree_color.mBlack wl w vw wr)) X
              = delBalL cp X p vp (Tr.node rbtree_color.mBlack wl w vw wr) := rfl
          by_cases hcont : (delBalL cp X p vp (Tr.node rbtree_color.mBlack wl w vw wr)).2 = true
          · obtain ⟨hinv2, hptr⟩ := delStep_cont_inv _ rest X hinv (by rw [hds]; exact hcont)
            rw [hds] at hinv2 hptr
            obtain ⟨m3, e3, h3⟩ := ih _ m2 (fu + 1) h2 hinv2 (by simp at hf ⊢; omega)
            refine ⟨m3, ?_, ?_⟩
            · simp only [hcont, ↓reduceIte, Frame.ptr_L]
              rw [hptr, Frame.ptr_L] at e3
              exact e3
            · simp only [hds, hcont, ↓reduceIte]
              exact h3
          · obtain ⟨fr, hfr⟩ := delBalL_hole cp X p vp (Tr.node rbtree_color.mBlack wl w vw wr)
            have hB : MemHolds m2 val hdr (plug (fr ++ rest) X) := by
              rw [plug_append, ← hfr]
              exact h2
            obtain ⟨m3, e3, h3⟩ := delete_fixup_finish_same _ X hB hb
            refine ⟨m3, ?_, ?_⟩
            · simp only [hcont, ↓reduceIte, Bool.false_eq_true]
              exact e3
            · simp only [hds, hcont, ↓reduceIte, Bool.false_eq_true]
              rw [plug_append, ← hfr] at h3
              exact h3
      | R cp W p vp =>
        obtain ⟨cw, wl, w, vw, wr, rfl, hred⟩ := DelInv_R cp p vp W rest X hinv
        have hA : MemHolds m val hdr (plug rest (Tr.node cp (Tr.node cw wl w vw wr) p vp X)) := h
        obtain ⟨-, hp, hprec, -⟩ := hA.at_node
        have hdisp : ¬ X.ptr = (m (Frame.R cp (Tr.node cw wl w vw wr) p vp).ptr).mLeft := by
          rw [Frame.ptr_R, hprec]
          exact hole_ne_sibling cp cw wl w vw wr p vp rest X h
        cases cw with
        | mRed =>
          obtain ⟨-, ⟨ca, a, q, vq, b, rfl⟩⟩ := hred rfl
          obtain ⟨m2, e2, h2⟩ := delete_fixup_right_red_spec rest cp X p vp wl w vw ca a q vq b hA
          refine hend m2 _ (by rw [if_neg hdisp]; exact e2) hp ?_
          by_cases hcont : (delBalR rbtree_color.mRed X p vp (Tr.node ca a q vq b)).2 = true
          · obtain ⟨cw2, wl2, w2, vw2, wr2, -, -, -, hform⟩ := delBalR_cont _ _ _ _ _ hcont
            have hB : MemHolds m2 val hdr (plug (Frame.R rbtree_color.mBlack wl w vw :: rest)
              (delBalR rbtree_color.mRed X p vp (Tr.node ca a q vq b)).1) := h2
            obtain ⟨m3, e3, h3⟩ := rbtree_delete_fixup_exit _ _ hB
              (Or.inr (by rw [hform]; rfl)) fu w
            refine ⟨m3, ?_, ?_⟩
            · simp only [hcont, ↓reduceIte, Frame.ptr_R]
              rw [hform] at e3
              exact e3
            · simp only [delStep, hcont, ↓reduceIte, Bool.false_eq_true]
              exact h3
          · obtain ⟨fr, hfr⟩ := delBalR_hole rbtree_color.mRed X p vp (Tr.node ca a q vq b)
            have hB : MemHolds m2 val hdr (plug (fr ++ Frame.R rbtree_color.mBlack wl w vw :: rest)
              X) := by
              rw [plug_append, ← hfr]
              exact h2
            obtain ⟨m3, e3, h3⟩ := delete_fixup_finish_same _ X hB hb
            refine ⟨m3, ?_, ?_⟩
            · simp only [hcont, ↓reduceIte, Bool.false_eq_true]
              exact e3
            · simp only [delStep, hcont, ↓reduceIte, Bool.false_eq_true]
              rw [plug_append, ← hfr] at h3
              exact h3
        | mBlack =>
          obtain ⟨m2, e2, h2⟩ := delete_fixup_right_black_spec rest cp X p vp wl w vw wr hA
          refine hend m2 _ (by rw [if_neg hdisp]; exact e2) hp ?_
          have hds : delStep (Frame.R cp (Tr.node rbtree_color.mBlack wl w vw wr) p vp) X
              = delBalR cp X p vp (Tr.node rbtree_color.mBlack wl w vw wr) := rfl
          by_cases hcont : (delBalR cp X p vp (Tr.node rbtree_color.mBlack wl w vw wr)).2 = true
          · obtain ⟨hinv2, hptr⟩ := delStep_cont_inv _ rest X hinv (by rw [hds]; exact hcont)
            rw [hds] at hinv2 hptr
            obtain ⟨m3, e3, h3⟩ := ih _ m2 (fu + 1) h2 hinv2 (by simp at hf ⊢; omega)
            refine ⟨m3, ?_, ?_⟩
            · simp only [hcont, ↓reduceIte, Frame.ptr_R]
              rw [hptr, Frame.ptr_R] at e3
              exact e3
            · simp only [hds, hcont, ↓reduceIte]
              exact h3
          · obtain ⟨fr, hfr⟩ := delBalR_hole cp X p vp (Tr.node rbtree_color.mBlack wl w vw wr)
            have hB : MemHolds m2 val hdr (plug (fr ++ rest) X) := by
              rw [plug_append, ← hfr]
              exact h2
            obtain ⟨m3, e3, h3⟩ := delete_fixup_finish_same _ X hB hb
            refine ⟨m3, ?_, ?_⟩
            · simp only [hcont, ↓reduceIte, Bool.false_eq_true]
              exact e3
            · simp only [hds, hcont, ↓reduceIte, Bool.false_eq_true]
              rw [plug_append, ← hfr] at h3
              exact h3

end delete_fixup_loop


/-! ## The shape after `rbtree_delete_fixup`: elements and colours -/

set_option autoImplicit false

section delete_fixup_shape

variable {α : Type}

theorem delBalL_elems (cp : rbtree_color) (X : Tr α) (p : Ptr) (vp : α) (W : Tr α) :
    (delBalL cp X p vp W).1.elems = X.elems ++ (p, vp) :: W.elems := by
  cases W with
  | nil => rfl
  | node cw wl w vw wr =>
    simp only [delBalL]
    split
    · rfl
    · split
      · cases wl with
        | nil => rfl
        | node cwl wla wlp vwl wlb => simp [Tr.elems]
      · simp [Tr.elems, Tr.setColor_elems]

theorem delBalR_elems (cp : rbtree_color) (X : Tr α) (p : Ptr) (vp : α) (W : Tr α) :
    (delBalR cp X p vp W).1.elems = W.elems ++ (p, vp) :: X.elems := by
  cases W with
  | nil => rfl
  | node cw wl w vw wr =>
    simp only [delBalR]
    split
    · rfl
    · split
      · cases wr with
        | nil => rfl
        | node cwr wra wrp vwr wrb => simp [Tr.elems]
      · simp [Tr.elems, Tr.setColor_elems]

theorem delStep_elems (f : Frame α) (X : Tr α) :
    (delStep f X).1.elems = (f.fill X).elems := by
  cases f with
  | L cp p vp W =>
    cases W with
    | nil => rfl
    | node cw wl w vw wr =>
      cases cw with
      | mRed =>
        simp only [delStep, Frame.fill, Tr.elems]
        split <;> simp [Tr.setColor_elems, delBalL_elems]
      | mBlack => exact delBalL_elems cp X p vp _
  | R cp W p vp =>
    cases W with
    | nil => rfl
    | node cw wl w vw wr =>
      cases cw with
      | mRed =>
        simp only [delStep, Frame.fill, Tr.elems]
        split <;> simp [Tr.setColor_elems, delBalR_elems]
      | mBlack => exact delBalR_elems cp X p vp _

/-- The loop of `rbtree_delete_fixup` keeps the in-order sequence of nodes and payloads. -/
theorem delFix_elems : ∀ (ctx : List (Frame α)) (X : Tr α),
    (delFix ctx X).elems = (plug ctx X).elems := by
  intro ctx
  induction ctx with
  | nil => intro X; exact Tr.setColor_elems _ X
  | cons f rest ih =>
    intro X
    simp only [delFix]
    split
    · exact plug_elems_congr _ _ _ (Tr.setColor_elems _ X)
    · split
      · rw [ih]
        exact plug_elems_congr rest _ _ (delStep_elems f X)
      · exact plug_elems_congr rest _ _ (delStep_elems f X)

theorem delAfter_elems (yc : rbtree_color) (ctx : List (Frame α)) (X : Tr α) :
    (delAfter yc ctx X).elems = (plug ctx X).elems := by
  simp only [delAfter]
  split
  · exact delFix_elems ctx X
  · rfl

/-- The colour invariants after a pass for a left hole with a black sibling. -/
theorem delBalL_RB (cp : rbtree_color) (X : Tr α) (p : Ptr) (vp : α)
    (wl : Tr α) (w : Ptr) (vw : α) (wr : Tr α) (k : Nat)
    (hXn : X.noRedRed) (hXb : X.blackHeight k)
    (hln : wl.noRedRed) (hrn : wr.noRedRed) (hlb : wl.blackHeight k) (hrb : wr.blackHeight k) :
    ((delBalL cp X p vp (Tr.node rbtree_color.mBlack wl w vw wr)).2 = true →
      ((delBalL cp X p vp (Tr.node rbtree_color.mBlack wl w vw wr)).1.setColor
          rbtree_color.mBlack).noRedRed ∧
        (delBalL cp X p vp (Tr.node rbtree_color.mBlack wl w vw wr)).1.blackHeight
          (if cp = rbtree_color.mBlack then k + 1 else k)) ∧
    ((delBalL cp X p vp (Tr.node rbtree_color.mBlack wl w vw wr)).2 = false →
      (delBalL cp X p vp (Tr.node rbtree_color.mBlack wl w vw wr)).1.noRedRed ∧
        (delBalL cp X p vp (Tr.node rbtree_color.mBlack wl w vw wr)).1.blackHeight
          (if cp = rbtree_color.mBlack then k + 2 else k + 1) ∧
        (delBalL cp X p vp (Tr.node rbtree_color.mBlack wl w vw wr)).1.color = cp) := by
  by_cases hr : wr.color = rbtree_color.mBlack
  · by_cases hl : wl.color = rbtree_color.mBlack
    · simp only [delBalL, hl, hr, and_self, ↓reduceIte, true_implies, Bool.true_eq_false,
        false_implies, and_true, Tr.setColor]
      refine ⟨Tr.noRedRed_black _ _ hXn ⟨fun _ => ⟨hl, hr⟩, hln, hrn⟩, ?_⟩
      rw [Tr.blackHeight_node]
      exact ⟨k, hXb, (Tr.blackHeight_red _ _ _ _ _).2 ⟨hlb, hrb⟩, rfl⟩
    · cases wl with
      | nil => exact absurd rfl hl
      | node cwl wla wlp vwl wlb =>
        cases cwl with
        | mBlack => exact absurd rfl hl
        | mRed =>
          obtain ⟨-, hna, hnb⟩ := hln
          obtain ⟨hba, hbb⟩ := (Tr.blackHeight_red _ _ _ _ _).1 hlb
          simp only [delBalL, hl, hr, false_and, ↓reduceIte, Bool.false_eq_true,
            false_implies, true_implies, true_and, and_true, Tr.color_node, reduceCtorEq]
          refine ⟨⟨fun _ => ⟨rfl, rfl⟩, Tr.noRedRed_black _ _ hXn hna,
            Tr.noRedRed_black _ _ hnb hrn⟩, ?_⟩
          rw [Tr.blackHeight_node]
          refine ⟨k + 1, Tr.blackHeight_black_mk _ _ hXb hba,
            Tr.blackHeight_black_mk _ _ hbb hrb, ?_⟩
          cases cp <;> rfl
  · cases wr with
    | nil => exact absurd rfl hr
    | node cwr wra wrp vwr wrb =>
      cases cwr with
      | mBlack => exact absurd rfl hr
      | mRed =>
        obtain ⟨-, hna, hnb⟩ := hrn
        obtain ⟨hba, hbb⟩ := (Tr.blackHeight_red _ _ _ _ _).1 hrb
        simp only [delBalL, hr, and_false, ↓reduceIte, Bool.false_eq_true,
          false_implies, true_implies, true_and, and_true, Tr.color_node, reduceCtorEq, Tr.setColor]
        refine ⟨⟨fun _ => ⟨rfl, rfl⟩, Tr.noRedRed_black _ _ hXn hln,
          Tr.noRedRed_black _ _ hna hnb⟩, ?_⟩
        rw [Tr.blackHeight_node]
        refine ⟨k + 1, Tr.blackHeight_black_mk _ _ hXb hlb,
          Tr.blackHeight_black_mk _ _ hba hbb, ?_⟩
        cases cp <;> rfl

/-- The colour invariants after a pass for a right hole with a black sibling. -/
theorem delBalR_RB (cp : rbtree_color) (X : Tr α) (p : Ptr) (vp : α)
    (wl : Tr α) (w : Ptr) (vw : α) (wr : Tr α) (k : Nat)
    (hXn : X.noRedRed) (hXb : X.blackHeight k)
    (hln : wl.noRedRed) (hrn : wr.noRedRed) (hlb : wl.blackHeight k) (hrb : wr.blackHeight k) :
    ((delBalR cp X p vp (Tr.node rbtree_color.mBlack wl w vw wr)).2 = true →
      ((delBalR cp X p vp (Tr.node rbtree_color.mBlack wl w vw wr)).1.setColor
          rbtree_color.mBlack).noRedRed ∧
        (delBalR cp X p vp (Tr.node rbtree_color.mBlack wl w vw wr)).1.blackHeight
          (if cp = rbtree_color.mBlack then k + 1 else k)) ∧
    ((delBalR cp X p vp (Tr.node rbtree_color.mBlack wl w vw wr)).2 = false →
      (delBalR cp X p vp (Tr.node rbtree_color.mBlack wl w vw wr)).1.noRedRed ∧
        (delBalR cp X p vp (Tr.node rbtree_color.mBlack wl w vw wr)).1.blackHeight
          (if cp = rbtree_color.mBlack then k + 2 else k + 1) ∧
        (delBalR cp X p vp (Tr.node rbtree_color.mBlack wl w vw wr)).1.color = cp) := by
  by_cases hl : wl.color = rbtree_color.mBlack
  · by_cases hr : wr.color = rbtree_color.mBlack
    · simp only [delBalR, hl, hr, and_self, ↓reduceIte, true_implies, Bool.true_eq_false,
        false_implies, and_true, Tr.setColor]
      refine ⟨Tr.noRedRed_black _ _ ⟨fun _ => ⟨hl, hr⟩, hln, hrn⟩ hXn, ?_⟩
      rw [Tr.blackHeight_node]
      exact ⟨k, (Tr.blackHeight_red _ _ _ _ _).2 ⟨hlb, hrb⟩, hXb, rfl⟩
    · cases wr with
      | nil => exact absurd rfl hr
      | node cwr wra wrp vwr wrb =>
        cases cwr with
        | mBlack => exact absurd rfl hr
        | mRed =>
          obtain ⟨-, hna, hnb⟩ := hrn
          obtain ⟨hba, hbb⟩ := (Tr.blackHeight_red _ _ _ _ _).1 hrb
          simp only [delBalR, hl, hr, and_false, ↓reduceIte, Bool.false_eq_true,
            false_implies, true_implies, true_and, and_true, Tr.color_node, reduceCtorEq]
          refine ⟨⟨fun _ => ⟨rfl, rfl⟩, Tr.noRedRed_black _ _ hln hna,
            Tr.noRedRed_black _ _ hnb hXn⟩, ?_⟩
          rw [Tr.blackHeight_node]
          refine ⟨k + 1, Tr.blackHeight_black_mk _ _ hlb hba,
            Tr.blackHeight_black_mk _ _ hbb hXb, ?_⟩
          cases cp <;> rfl
  · cases wl with
    | nil => exact absurd rfl hl
    | node cwl wla wlp vwl wlb =>
      cases cwl with
      | mBlack => exact absurd rfl hl
      | mRed =>
        obtain ⟨-, hna, hnb⟩ := hln
        obtain ⟨hba, hbb⟩ := (Tr.blackHeight_red _ _ _ _ _).1 hlb
        simp only [delBalR, hl, false_and, ↓reduceIte, Bool.false_eq_true,
          false_implies, true_implies, true_and, and_true, Tr.color_node, reduceCtorEq, Tr.setColor]
        refine ⟨⟨fun _ => ⟨rfl, rfl⟩, Tr.noRedRed_black _ _ hna hnb,
          Tr.noRedRed_black _ _ hrn hXn⟩, ?_⟩
        rw [Tr.blackHeight_node]
        refine ⟨k + 1, Tr.blackHeight_black_mk _ _ hba hbb,
          Tr.blackHeight_black_mk _ _ hrb hXb, ?_⟩
        cases cp <;> rfl

theorem plug_color_of_rootBlack : ∀ (ctx : List (Frame α)) (t : Tr α), ctx ≠ [] →
    ctxRootBlack ctx → (plug ctx t).color = rbtree_color.mBlack := by
  intro ctx
  induction ctx with
  | nil => intro t h; exact absurd rfl h
  | cons f rest ih =>
    intro t _ hr
    cases rest with
    | nil => cases f <;> exact hr
    | cons g rest2 => exact ih (f.fill t) (by simp) hr

theorem ctxRootBlack_tail (f : Frame α) (rest : List (Frame α))
    (h : ctxRootBlack (f :: rest)) : ctxRootBlack rest := by
  cases rest with
  | nil => trivial
  | cons g rest2 => exact h

/-- A subtree with the colour invariants in a path that balances it makes a red-black
tree. -/
theorem RedBlack_plug (ctx : List (Frame α)) (t : Tr α) (k : Nat) (hn : t.noRedRed)
    (hc : ctxColor ctx = rbtree_color.mRed → t.color = rbtree_color.mBlack)
    (hb : t.blackHeight k) (hctx : CtxRB ctx k) (hroot : ctxRootBlack ctx)
    (hnil : ctx = [] → t.color = rbtree_color.mBlack) : RedBlack (plug ctx t) := by
  obtain ⟨h1, h2⟩ := (plug_RB_iff ctx t).2 ⟨hn, hc, k, hb, hctx⟩
  refine ⟨?_, h1, h2⟩
  cases ctx with
  | nil => exact hnil rfl
  | cons f rest => exact plug_color_of_rootBlack _ t (by simp) hroot

theorem Tr.setColor_black_color (T : Tr α) :
    (T.setColor rbtree_color.mBlack).color = rbtree_color.mBlack := by
  cases T <;> rfl

theorem Tr.setColor_black_bh (T : Tr α) (k : Nat) (h : T.blackHeight k) :
    (T.setColor rbtree_color.mBlack).blackHeight
      (if T.color = rbtree_color.mRed then k + 1 else k) := by
  cases T with
  | nil => exact h
  | node c l p v r =>
    cases c with
    | mRed => exact (Tr.blackHeight_red _ _ _ _ _).1 h
    | mBlack => exact h

theorem Tr.noRedRed_of_setColor (T : Tr α) (h : (T.setColor rbtree_color.mBlack).noRedRed)
    (hc : T.color = rbtree_color.mBlack) : T.noRedRed := by
  rw [Tr.setColor_of_color T _ hc] at h
  exact h

theorem Tr.setColor_noRedRed (T : Tr α) (h : T.noRedRed) :
    (T.setColor rbtree_color.mBlack).noRedRed := by
  cases T with
  | nil => trivial
  | node c l p v r => exact Tr.noRedRed_black _ _ h.2.1 h.2.2

/-- The colour invariants after the passes at a frame. -/
theorem delStep_RB (f : Frame α) (rest : List (Frame α)) (X : Tr α) (k : Nat)
    (hXn : X.noRedRed) (hXb : X.blackHeight k) (hctx : CtxRB (f :: rest) (k + 1)) :
    ((delStep f X).2 = true →
      ((delStep f X).1.setColor rbtree_color.mBlack).noRedRed ∧
        ∃ j, (delStep f X).1.blackHeight j ∧ CtxRB rest (j + 1)) ∧
    ((delStep f X).2 = false →
      (delStep f X).1.noRedRed ∧
        (ctxColor rest = rbtree_color.mRed → (delStep f X).1.color = rbtree_color.mBlack) ∧
        (f.color = rbtree_color.mBlack → (delStep f X).1.color = rbtree_color.mBlack) ∧
        ∃ j, (delStep f X).1.blackHeight j ∧ CtxRB rest j) := by
  cases f with
  | L cp p vp W =>
    obtain ⟨hWn, hWb, hred, hrest⟩ := hctx
    cases W with
    | nil => simp [Tr.blackHeight] at hWb
    | node cw wl w vw wr =>
      cases cw with
      | mRed =>
        have hcp : cp = rbtree_color.mBlack := by
          cases cp with
          | mBlack => rfl
          | mRed => exact absurd (hred rfl).1 (by simp [Tr.color])
        subst hcp
        obtain ⟨hcol, hln, hrn⟩ := hWn
        obtain ⟨hlc, hrc⟩ := hcol rfl
        obtain ⟨hlb, hrb⟩ := (Tr.blackHeight_red _ _ _ _ _).1 hWb
        cases wl with
        | nil => simp [Tr.blackHeight] at hlb
        | node cwl a q vq b =>
          have hcwl : cwl = rbtree_color.mBlack := hlc
          subst hcwl
          obtain ⟨hab, hbb⟩ := (Tr.blackHeight_black _ _ _ _ _).1 hlb
          obtain ⟨h1, h2⟩ := delBalL_RB rbtree_color.mRed X p vp a q vq b k hXn hXb
            hln.2.1 hln.2.2 hab hbb
          refine ⟨fun hc => by simp [delStep] at hc, fun _ => ?_⟩
          simp only [delStep, Tr.color_node, implies_true, true_and]
          simp only [reduceCtorEq, ↓reduceIte] at hrest h1 h2
          by_cases hcont : (delBalL rbtree_color.mRed X p vp
            (Tr.node rbtree_color.mBlack a q vq b)).2 = true
          · obtain ⟨h3, h4⟩ := h1 hcont
            obtain ⟨_, _, _, _, _, -, -, -, hform⟩ := delBalL_cont _ _ _ _ _ hcont
            have h5 := Tr.setColor_black_bh _ k h4
            rw [hform] at h5
            simp only [Tr.color_node, ↓reduceIte] at h5
            rw [← hform] at h5
            simp only [hcont, ↓reduceIte]
            exact ⟨Tr.noRedRed_black _ _ h3 hrn, k + 1 + 1,
              Tr.blackHeight_black_mk _ _ h5 hrb, hrest⟩
          · have hcf : (delBalL rbtree_color.mRed X p vp
              (Tr.node rbtree_color.mBlack a q vq b)).2 = false := by
              simpa using hcont
            obtain ⟨h3, h4, -⟩ := h2 hcf
            simp only [hcf, Bool.false_eq_true, ↓reduceIte]
            exact ⟨Tr.noRedRed_black _ _ h3 hrn, k + 1 + 1,
              Tr.blackHeight_black_mk _ _ h4 hrb, hrest⟩
      | mBlack =>
        obtain ⟨hlb, hrb⟩ := (Tr.blackHeight_black _ _ _ _ _).1 hWb
        obtain ⟨h1, h2⟩ := delBalL_RB cp X p vp wl w vw wr k hXn hXb hWn.2.1 hWn.2.2 hlb hrb
        have hds : delStep (Frame.L cp p vp (Tr.node rbtree_color.mBlack wl w vw wr)) X
            = delBalL cp X p vp (Tr.node rbtree_color.mBlack wl w vw wr) := rfl
        rw [hds]
        refine ⟨fun hc => ?_, fun hc => ?_⟩
        · obtain ⟨h3, h4⟩ := h1 hc
          refine ⟨h3, _, h4, ?_⟩
          cases cp <;> simpa using hrest
        · obtain ⟨h3, h4, h5⟩ := h2 hc
          refine ⟨h3, ?_, ?_, _, h4, ?_⟩
          · intro hcr
            rw [h5]
            cases cp with
            | mBlack => rfl
            | mRed => rw [(hred rfl).2] at hcr; exact absurd hcr (by simp)
          · intro hcb
            rw [h5]
            exact hcb
          · cases cp <;> simpa using hrest
  | R cp W p vp =>
    obtain ⟨hWn, hWb, hred, hrest⟩ := hctx
    cases W with
    | nil => simp [Tr.blackHeight] at hWb
    | node cw wl w vw wr =>
      cases cw with
      | mRed =>
        have hcp : cp = rbtree_color.mBlack := by
          cases cp with
          | mBlack => rfl
          | mRed => exact absurd (hred rfl).1 (by simp [Tr.color])
        subst hcp
        obtain ⟨hcol, hln, hrn⟩ := hWn
        obtain ⟨hlc, hrc⟩ := hcol rfl
        obtain ⟨hlb, hrb⟩ := (Tr.blackHeight_red _ _ _ _ _).1 hWb
        cases wr with
        | nil => simp [Tr.blackHeight] at hrb
        | node cwr a q vq b =>
          have hcwr : cwr = rbtree_color.mBlack := hrc
          subst hcwr
          obtain ⟨hab, hbb⟩ := (Tr.blackHeight_black _ _ _ _ _).1 hrb
          obtain ⟨h1, h2⟩ := delBalR_RB rbtree_color.mRed X p vp a q vq b k hXn hXb
            hrn.2.1 hrn.2.2 hab hbb
          refine ⟨fun hc => by simp [delStep] at hc, fun _ => ?_⟩
          simp only [delStep, Tr.color_node, implies_true, true_and]
          simp only [reduceCtorEq, ↓reduceIte] at hrest h1 h2
          by_cases hcont : (delBalR rbtree_color.mRed X p vp
            (Tr.node rbtree_color.mBlack a q vq b)).2 = true
          · obtain ⟨h3, h4⟩ := h1 hcont
            obtain ⟨_, _, _, _, _, -, -, -, hform⟩ := delBalR_cont _ _ _ _ _ hcont
            have h5 := Tr.setColor_black_bh _ k h4
            rw [hform] at h5
            simp only [Tr.color_node, ↓reduceIte] at h5
            rw [← hform] at h5
            simp only [hcont, ↓reduceIte]
            exact ⟨Tr.noRedRed_black _ _ hln h3, k + 1 + 1,
              Tr.blackHeight_black_mk _ _ hlb h5, hrest⟩
          · have hcf : (delBalR rbtree_color.mRed X p vp
              (Tr.node rbtree_color.mBlack a q vq b)).2 = false := by
              simpa using hcont
            obtain ⟨h3, h4, -⟩ := h2 hcf
            simp only [hcf, Bool.false_eq_true, ↓reduceIte]
            exact ⟨Tr.noRedRed_black _ _ hln h3, k + 1 + 1,
              Tr.blackHeight_black_mk _ _ hlb h4, hrest⟩
      | mBlack =>
        obtain ⟨hlb, hrb⟩ := (Tr.blackHeight_black _ _ _ _ _).1 hWb
        obtain ⟨h1, h2⟩ := delBalR_RB cp X p vp wl w vw wr k hXn hXb hWn.2.1 hWn.2.2 hlb hrb
        have hds : delStep (Frame.R cp (Tr.node rbtree_color.mBlack wl w vw wr) p vp) X
            = delBalR cp X p vp (Tr.node rbtree_color.mBlack wl w vw wr) := rfl
        rw [hds]
        refine ⟨fun hc => ?_, fun hc => ?_⟩
        · obtain ⟨h3, h4⟩ := h1 hc
          refine ⟨h3, _, h4, ?_⟩
          cases cp <;> simpa using hrest
        · obtain ⟨h3, h4, h5⟩ := h2 hc
          refine ⟨h3, ?_, ?_, _, h4, ?_⟩
          · intro hcr
            rw [h5]
            cases cp with
            | mBlack => rfl
            | mRed => rw [(hred rfl).2] at hcr; exact absurd hcr (by simp)
          · intro hcb
            rw [h5]
            exact hcb
          · cases cp <;> simpa using hrest

/-- The loop of `rbtree_delete_fixup` restores the red-black invariants: started with a
subtree that lacks one black node for its path, it gives a red-black tree. -/
theorem delFix_RedBlack : ∀ (ctx : List (Frame α)) (X : Tr α) (k : Nat),
    (X.setColor rbtree_color.mBlack).noRedRed → X.blackHeight k → CtxRB ctx (k + 1) →
    ctxRootBlack ctx → RedBlack (delFix ctx X) := by
  intro ctx
  induction ctx with
  | nil =>
    intro X k hn hb _ _
    exact ⟨Tr.setColor_black_color X, hn, _, Tr.setColor_black_bh X k hb⟩
  | cons f rest ih =>
    intro X k hn hb hctx hroot
    simp only [delFix]
    by_cases hc : X.color = rbtree_color.mRed
    · simp only [hc, ↓reduceIte]
      have h1 := Tr.setColor_black_bh X k hb
      simp only [hc, ↓reduceIte] at h1
      exact RedBlack_plug (f :: rest) _ (k + 1) hn (fun _ => Tr.setColor_black_color X) h1 hctx
        hroot (fun h => absurd h (by simp))
    · have hcb : X.color = rbtree_color.mBlack := by
        cases hX : X.color with
        | mBlack => rfl
        | mRed => exact absurd hX hc
      have hXn := Tr.noRedRed_of_setColor X hn hcb
      obtain ⟨h1, h2⟩ := delStep_RB f rest X k hXn hb hctx
      simp only [hc, ↓reduceIte]
      by_cases hcont : (delStep f X).2 = true
      · obtain ⟨h3, j, h4, h5⟩ := h1 hcont
        simp only [hcont, ↓reduceIte]
        exact ih _ j h3 h4 h5 (ctxRootBlack_tail f rest hroot)
      · have hcf : (delStep f X).2 = false := by simpa using hcont
        obtain ⟨h3, h4, h5, j, h6, h7⟩ := h2 hcf
        simp only [hcf, Bool.false_eq_true, ↓reduceIte]
        refine RedBlack_plug rest _ j h3 h4 h6 h7 (ctxRootBlack_tail f rest hroot) ?_
        rintro rfl
        exact h5 hroot

end delete_fixup_shape


/-! ## `rbtree_transplant` -/

set_option autoImplicit false

section transplant

variable {α : Type}

/-- The assignment `v->mParent = par` for the root `v` of a laid-out subtree that may be
empty: the subtree is then laid out below `par`. -/
theorem reparent_root {m : Mem} {val : Ptr → Option α} (S : Tr α) (par0 P : Ptr)
    (hS : TreeAt m val S par0) (hnd : S.ptrs.Nodup) :
    ∃ m2, (if S.ptr ≠ 0 then setParent m S.ptr P else pure m) = some m2 ∧
      TreeAt m2 val S P ∧ (∀ q, q ∉ S.ptrs → m2 q = m q) := by
  cases S with
  | nil => exact ⟨m, by simp [Tr.ptr], trivial, fun _ _ => rfl⟩
  | node c l p v r =>
    have hp : p ≠ 0 := hS.1
    refine ⟨Function.update m p { m p with mParent := P }, ?_, ?_, ?_⟩
    · simp [Tr.ptr, hp, setParent]
    · exact TreeAt_update_parent hS hnd hp
    · intro q hq
      have : q ≠ p := by
        rintro rfl
        exact hq (by simp [Tr.ptrs])
      simp [Function.update_noteq this]

/-- The first statement of `rbtree_transplant(z, v, header)` for a node `z` in the hole of
the laid-out path `ctx`: the hole link becomes `v`, and nothing else changes. -/
theorem transplant_link_spec {m : Mem} {val : Ptr → Option α} {hdr : Ptr}
    (ctx : List (Frame α)) (Z0 S : Tr α) (z : Ptr)
    (hhdr : hdr ≠ 0) (hz : z ≠ 0) (hZ0 : Z0.ptr = z)
    (hctx : CtxAt m val hdr ctx z)
    (hzp : (m z).mParent = ctxParent hdr ctx)
    (hroot : (m hdr).mParent = (plug ctx Z0).ptr)
    (hnd : (ctxBefore ctx ++ (z :: S.ptrs) ++ ctxAfter ctx).Nodup)
    (hn : hdr ∉ ctxBefore ctx ++ (z :: S.ptrs) ++ ctxAfter ctx) :
    ∃ m1, rbtree_transplant_link m z S.ptr hdr = some m1 ∧
      CtxAt m1 val hdr ctx S.ptr ∧
      (m1 hdr).mParent = (plug ctx S).ptr ∧ (m1 hdr).mLeft = (m hdr).mLeft ∧
      (m1 hdr).mRight = (m hdr).mRight ∧ (m1 hdr).mColor = (m hdr).mColor ∧
      (∀ q, q ≠ ctxParent hdr ctx → m1 q = m q) := by
  cases ctx with
  | nil =>
    have hzr : z = (m hdr).mParent := by rw [hroot]; exact hZ0.symm
    refine ⟨Function.update m hdr { m hdr with mParent := S.ptr }, ?_, trivial, ?_, ?_, ?_, ?_,
      ?_⟩
    · simp only [rbtree_transplant_link, rd_of_ne hhdr, Option.bind_eq_bind, Option.some_bind,
        hzr, ↓reduceIte, setParent_of_ne _ hhdr]
    · simp [plug]
    · simp
    · simp
    · simp
    · intro q hq
      exact Function.update_noteq hq _ _
  | cons f rest =>
    have hzroot : z ≠ (m hdr).mParent := by
      rw [hroot]
      exact Tr.ptr_plug_ne_of_mem f rest Z0 (z :: S.ptrs) hnd (by simp)
    have hrootS : (plug (f :: rest) S).ptr = (plug (f :: rest) Z0).ptr :=
      Tr.ptr_plug_ne_nil f rest S Z0
    cases f with
    | L cp p vp W =>
      have hc0 := hctx
      obtain ⟨hp, hprec, -⟩ := hctx
      have hph : p ≠ hdr := by
        rintro rfl
        exact hn (by simp [ctxAfter])
      have hnd2 : (ctxBefore rest ++ (p :: W.ptrs) ++ ctxAfter rest).Nodup := by
        refine hnd.sublist ?_
        simp only [ctxBefore, ctxAfter, List.append_assoc, List.cons_append]
        exact (List.Sublist.refl _).append ((List.sublist_append_right _ _).trans
          (List.sublist_cons_self _ _))
      refine ⟨Function.update m p { m p with mLeft := S.ptr }, ?_, ?_, ?_, ?_, ?_, ?_, ?_⟩
      · simp only [rbtree_transplant_link, rd_of_ne hhdr, Option.bind_eq_bind, Option.some_bind,
          hzroot, ↓reduceIte, rbtree_is_left_child, rd_of_ne hz, hzp, ctxParent_cons,
          Frame.ptr_L, rd_of_ne hp, hprec, Option.pure_def, decide_True,
          setLeft_of_ne _ hp]
      · refine CtxAt_L_relink cp p vp W rest z S.ptr hc0 hnd2 (by simp) ?_
          (fun _ _ => rfl)
        intro q hq _
        exact Function.update_noteq hq _ _
      · rw [Function.update_noteq (Ne.symm hph), hroot, hrootS]
      · rw [Function.update_noteq (Ne.symm hph)]
      · rw [Function.update_noteq (Ne.symm hph)]
      · rw [Function.update_noteq (Ne.symm hph)]
      · intro q hq
        exact Function.update_noteq hq _ _
    | R cp W p vp =>
      have hc0 := hctx
      obtain ⟨hp, hprec, -⟩ := hctx
      have hph : p ≠ hdr := by
        rintro rfl
        exact hn (by simp [ctxBefore])
      have hnd2 : (ctxBefore rest ++ (W.ptrs ++ [p]) ++ ctxAfter rest).Nodup := by
        refine hnd.sublist ?_
        simp only [ctxBefore, ctxAfter, List.append_assoc, List.cons_append, List.nil_append]
        exact (List.Sublist.refl _).append ((List.Sublist.refl _).append
          (List.Sublist.cons₂ p ((List.sublist_append_right _ _).trans
            (List.sublist_cons_self _ _))))
      have hzW : z ≠ W.ptr := by
        rcases Tr.ptr_mem_or_nil W with rfl | hm
        · exact hz
        · intro e
          rw [← e] at hm
          simp only [ctxBefore, ctxAfter, List.nodup_append, List.nodup_cons,
            List.disjoint_cons_left, List.disjoint_cons_right, List.disjoint_append_left,
            List.disjoint_append_right, List.mem_append, List.mem_cons, not_or] at hnd
          simp [hm] at hnd
      refine ⟨Function.update m p { m p with mRight := S.ptr }, ?_, ?_, ?_, ?_, ?_, ?_, ?_⟩
      · simp only [rbtree_transplant_link, rd_of_ne hhdr, Option.bind_eq_bind, Option.some_bind,
          hzroot, ↓reduceIte, rbtree_is_left_child, rd_of_ne hz, hzp, ctxParent_cons,
          Frame.ptr_R, rd_of_ne hp, hprec, Option.pure_def, hzW, decide_False,
          Bool.false_eq_true, setRight_of_ne _ hp]
      · refine CtxAt_R_relink cp W p vp rest z S.ptr hc0 hnd2 (by simp) ?_
          (fun _ _ => rfl)
        intro q hq _
        exact Function.update_noteq hq _ _
      · rw [Function.update_noteq (Ne.symm hph), hroot, hrootS]
      · rw [Function.update_noteq (Ne.symm hph)]
      · rw [Function.update_noteq (Ne.symm hph)]
      · rw [Function.update_noteq (Ne.symm hph)]
      · intro q hq
        exact Function.update_noteq hq _ _

/-- `rbtree_transplant(z, v, header)` for a node `z` in the hole of the laid-out path
`ctx` and the root `v` of a laid-out subtree `S` apart from the path: afterwards `S` is in
the hole, and only the link of the parent and the parent link of `v` have changed. -/
theorem transplant_spec {m : Mem} {val : Ptr → Option α} {hdr : Ptr}
    (ctx : List (Frame α)) (Z0 : Tr α) (z : Ptr) (S : Tr α) (par0 : Ptr)
    (hhdr : hdr ≠ 0) (hz : z ≠ 0) (hZ0 : Z0.ptr = z)
    (hctx : CtxAt m val hdr ctx z)
    (hzp : (m z).mParent = ctxParent hdr ctx)
    (hroot : (m hdr).mParent = (plug ctx Z0).ptr)
    (hS : TreeAt m val S par0)
    (hnd : (ctxBefore ctx ++ (z :: S.ptrs) ++ ctxAfter ctx).Nodup)
    (hn : hdr ∉ ctxBefore ctx ++ (z :: S.ptrs) ++ ctxAfter ctx) :
    ∃ m2, rbtree_transplant m z S.ptr hdr = some m2 ∧
      CtxAt m2 val hdr ctx S.ptr ∧ TreeAt m2 val S (ctxParent hdr ctx) ∧
      (m2 hdr).mParent = (plug ctx S).ptr ∧ (m2 hdr).mLeft = (m hdr).mLeft ∧
      (m2 hdr).mRight = (m hdr).mRight ∧ (m2 hdr).mColor = (m hdr).mColor ∧
      (∀ q, q ≠ ctxParent hdr ctx → q ∉ S.ptrs → m2 q = m q) := by
  obtain ⟨m1, e1, hc1, hp1, hl1, hr1, hcol1, hfr1⟩ :=
    transplant_link_spec ctx Z0 S z hhdr hz hZ0 hctx hzp hroot hnd hn
  simp only [List.nodup_append, List.nodup_cons, List.disjoint_cons_left,
    List.disjoint_cons_right, List.disjoint_append_left, List.disjoint_append_right,
    List.mem_append, List.mem_cons, not_or] at hnd hn
  have hSnd : S.ptrs.Nodup := hnd.1.2.1.2
  have hSh : hdr ∉ S.ptrs := hn.1.2.2
  have hPS : ctxParent hdr ctx ∉ S.ptrs := by
    rcases ctxParent_mem hdr ctx with e | hm
    · rw [e]; exact hSh
    · intro hq
      rw [List.mem_append] at hm
      rcases hm with hm | hm
      · exact hnd.1.2.2.2 hm hq
      · exact hnd.2.2.2.2 hq hm
  have hzP : z ≠ ctxParent hdr ctx := by
    rcases ctxParent_mem hdr ctx with e | hm
    · rw [e]; exact Ne.symm hn.1.2.1
    · intro e
      rw [← e, List.mem_append] at hm
      rcases hm with hm | hm
      · exact hnd.1.2.2.1 hm
      · exact hnd.2.2.2.1 hm
  have hS1 : TreeAt m1 val S par0 := by
    apply TreeAt_congr hS
    intro q hq
    exact ⟨hfr1 q (fun e => hPS (e ▸ hq)), rfl⟩
  obtain ⟨m2, e2, hT2, hfr2⟩ := reparent_root S par0 (ctxParent hdr ctx) hS1 hSnd
  have hc2 : CtxAt m2 val hdr ctx S.ptr := by
    apply CtxAt_congr hc1
    intro q hq
    refine ⟨hfr2 q ?_, rfl⟩
    intro hqS
    rw [List.mem_append] at hq
    rcases hq with hq | hq
    · exact hnd.1.2.2.2 hq hqS
    · exact hnd.2.2.2.2 hqS hq
  have hh2 : m2 hdr = m1 hdr := hfr2 hdr hSh
  refine ⟨m2, ?_, hc2, hT2, by rw [hh2, hp1], by rw [hh2, hl1], by rw [hh2, hr1],
    by rw [hh2, hcol1], ?_⟩
  · have hz1 : (m1 z).mParent = ctxParent hdr ctx := by rw [hfr1 z hzP, hzp]
    simp only [rbtree_transplant, e1, Option.bind_eq_bind, Option.some_bind, rd_of_ne hz, hz1]
    exact e2
  · intro q hq1 hq2
    rw [hfr2 q hq2, hfr1 q hq1]

end transplant


/-! ## The shape after `RBTreeErase`: elements and colours -/

set_option autoImplicit false

section erase_shape_props

variable {α : Type}

/-- The leftmost node of a shape, found by `Tr.minView`: the shape is that node (without a
left child) in the hole of the returned path, which extends the given path by frames that
come up from a left child. -/
theorem Tr.minView_spec : ∀ (r : Tr α) (ctx0 ctxR : List (Frame α)) (cy : rbtree_color)
    (y : Ptr) (vy : α) (ry : Tr α), r.minView ctx0 = some (ctxR, cy, y, vy, ry) →
    ∃ a, ctxR = a ++ ctx0 ∧ plug a (Tr.node cy Tr.nil y vy ry) = r ∧
      ctxBefore a = [] ∧ ctxBeforeE a = [] := by
  intro r
  induction r with
  | nil => intro ctx0 ctxR cy y vy ry h; simp [Tr.minView] at h
  | node c l p v rr ihl _ =>
    intro ctx0 ctxR cy y vy ry h
    cases l with
    | nil =>
      simp only [Tr.minView, Option.some.injEq, Prod.mk.injEq] at h
      obtain ⟨rfl, rfl, rfl, rfl, rfl⟩ := h
      exact ⟨[], rfl, rfl, rfl, rfl⟩
    | node cl ll pl vl rl =>
      simp only [Tr.minView] at h
      obtain ⟨a, ha, hp, hb, hbe⟩ := ihl _ _ _ _ _ _ h
      refine ⟨a ++ [Frame.L c p v rr], by simp [ha], ?_, ?_, ?_⟩
      · rw [plug_append, hp]
        rfl
      · clear ha hp h
        induction a with
        | nil => rfl
        | cons f a ih =>
          cases f with
          | L _ _ _ _ => exact ih hb hbe
          | R _ l2 p2 _ => simp [ctxBefore] at hb
      · clear ha hp h
        induction a with
        | nil => rfl
        | cons f a ih =>
          cases f with
          | L _ _ _ _ => exact ih hb hbe
          | R _ l2 p2 _ => simp [ctxBefore] at hb

theorem Tr.minView_some (c : rbtree_color) (l : Tr α) (p : Ptr) (v : α) (r : Tr α)
    (ctx0 : List (Frame α)) :
    ∃ ctxR cy y vy ry, (Tr.node c l p v r).minView ctx0 = some (ctxR, cy, y, vy, ry) := by
  induction l generalizing c p v r ctx0 with
  | nil => exact ⟨ctx0, c, p, v, r, rfl⟩
  | node cl ll pl vl rl ihl _ =>
    obtain ⟨ctxR, cy, y, vy, ry, h⟩ := ihl cl pl vl rl (Frame.L c p v r :: ctx0)
    exact ⟨ctxR, cy, y, vy, ry, by simp only [Tr.minView]; exact h⟩

/-- The cases of `eraseAt`: the path and the subtree of the hole left by the unlinking, and
the colour of the unlinked node. -/
theorem eraseAt_cases (ctx : List (Frame α)) (c : rbtree_color) (l : Tr α) (z : Ptr) (v : α)
    (r : Tr α) :
    (l = Tr.nil ∧ eraseAt ctx c l z v r = delAfter c ctx r) ∨
    (l ≠ Tr.nil ∧ r = Tr.nil ∧ eraseAt ctx c l z v r = delAfter c ctx l) ∨
    (l ≠ Tr.nil ∧ ∃ a cy y vy ry, r = plug a (Tr.node cy Tr.nil y vy ry) ∧
      r.minView [] = some (a, cy, y, vy, ry) ∧
      ctxBefore a = [] ∧ ctxBeforeE a = [] ∧
      eraseAt ctx c l z v r = delAfter cy (a ++ Frame.R c l y vy :: ctx) ry) := by
  cases l with
  | nil => exact Or.inl ⟨rfl, by cases r <;> rfl⟩
  | node cl ll pl vl rl =>
    cases r with
    | nil => exact Or.inr (Or.inl ⟨by simp, rfl, rfl⟩)
    | node cr lr pr vr rr =>
      obtain ⟨ctxR, cy, y, vy, ry, h⟩ := Tr.minView_some cr lr pr vr rr []
      obtain ⟨a, ha, hp, hb, hbe⟩ := Tr.minView_spec _ _ _ _ _ _ _ h
      simp only [List.append_nil] at ha
      subst ha
      refine Or.inr (Or.inr ⟨by simp, ctxR, cy, y, vy, ry, hp.symm, h, hb, hbe, ?_⟩)
      simp only [eraseAt, h]

/-- `RBTreeErase` removes the node from the in-order sequence and keeps the rest. -/
theorem eraseAt_elems (ctx : List (Frame α)) (c : rbtree_color) (l : Tr α) (z : Ptr) (v : α)
    (r : Tr α) :
    (eraseAt ctx c l z v r).elems = ctxBeforeE ctx ++ (l.elems ++ r.elems) ++ ctxAfterE ctx := by
  rcases eraseAt_cases ctx c l z v r with ⟨rfl, e⟩ | ⟨-, rfl, e⟩ | ⟨-, a, cy, y, vy, ry, hr, -, -, hbe, e⟩
  · rw [e, delAfter_elems, Tr.elems_plug]
    simp [Tr.elems]
  · rw [e, delAfter_elems, Tr.elems_plug]
    simp [Tr.elems]
  · rw [e, delAfter_elems, plug_append]
    show (plug ctx (Tr.node c l y vy (plug a ry))).elems = _
    rw [Tr.elems_plug, hr, Tr.elems_plug]
    simp [Tr.elems, Tr.elems_plug, hbe]

/-- Whether a shape with a subtree in a hole is a red-black tree depends on the colour
properties of the subtree only. -/
theorem RedBlack_plug_congr (ctx : List (Frame α)) (t1 t2 : Tr α)
    (hn : t1.noRedRed → t2.noRedRed) (hb : ∀ n, t1.blackHeight n → t2.blackHeight n)
    (hc : t1.color = t2.color) (h : RedBlack (plug ctx t1)) : RedBlack (plug ctx t2) := by
  obtain ⟨hcol, hnrr, hbh⟩ := h
  obtain ⟨h1, h2, k, h3, h4⟩ := (plug_RB_iff ctx t1).1 ⟨hnrr, hbh⟩
  obtain ⟨h5, h6⟩ := (plug_RB_iff ctx t2).2 ⟨hn h1, fun h => hc ▸ h2 h, k, hb k h3, h4⟩
  refine ⟨?_, h5, h6⟩
  cases ctx with
  | nil => exact hc ▸ hcol
  | cons f rest => rw [plug_color f rest t2 t1]; exact hcol

theorem Tr.blackHeight_rename (c : rbtree_color) (l r : Tr α) (p q : Ptr) (v w : α) (n : Nat)
    (h : (Tr.node c l p v r).blackHeight n) : (Tr.node c l q w r).blackHeight n := by
  rw [Tr.blackHeight_node] at h ⊢
  exact h

/-- Unlinking a node without a left child, or without a right child, from a red-black
tree: the other subtree in its place lacks one black node when the node was black, and
makes a red-black tree when the node was red; either way `delAfter` gives a red-black
tree. -/
theorem unlink_RB (ctx : List (Frame α)) (cn : rbtree_color) (a b : Tr α) (n : Ptr) (vn : α)
    (X : Tr α) (hX : (a = Tr.nil ∧ X = b) ∨ (b = Tr.nil ∧ X = a))
    (h : RedBlack (plug ctx (Tr.node cn a n vn b))) :
    RedBlack (delAfter cn ctx X) ∧ (cn = rbtree_color.mBlack → DelInv ctx X) := by
  obtain ⟨hcol, hnrr, hbh⟩ := h
  obtain ⟨h1, h2, k, h3, h4⟩ := (plug_RB_iff ctx _).1 ⟨hnrr, hbh⟩
  have hroot : ctxRootBlack ctx := by
    cases ctx with
    | nil => trivial
    | cons f rest => exact ctxRootBlack_of_color _ _ hcol (by simp)
  obtain ⟨j, haj, hbj, hk⟩ := (Tr.blackHeight_node _ _ _ _ _ _).1 h3
  have hXn : X.noRedRed := by
    rcases hX with ⟨-, rfl⟩ | ⟨-, rfl⟩
    · exact h1.2.2
    · exact h1.2.1
  have hj : j = 0 ∧ X.blackHeight 0 := by
    rcases hX with ⟨rfl, rfl⟩ | ⟨rfl, rfl⟩
    · have : j = 0 := haj
      subst this
      exact ⟨rfl, hbj⟩
    · have : j = 0 := hbj
      subst this
      exact ⟨rfl, haj⟩
  obtain ⟨rfl, hXb⟩ := hj
  cases cn with
  | mBlack =>
    simp only [↓reduceIte] at hk
    subst hk
    refine ⟨?_, fun _ => ⟨0, hXb, h4⟩⟩
    simp only [delAfter, ↓reduceIte]
    exact delFix_RedBlack ctx X 0 (Tr.setColor_noRedRed X hXn) hXb h4 hroot
  | mRed =>
    simp only [reduceCtorEq, ↓reduceIte] at hk
    subst hk
    refine ⟨?_, fun hc => by cases hc⟩
    have hXc : X.color = rbtree_color.mBlack := by
      rcases hX with ⟨-, rfl⟩ | ⟨-, rfl⟩
      · exact (h1.1 rfl).2
      · exact (h1.1 rfl).1
    simp only [delAfter, reduceCtorEq, ↓reduceIte]
    exact RedBlack_plug ctx X 0 hXn (fun _ => hXc) hXb h4 hroot (fun _ => hXc)

/-- `RBTreeErase` on a red-black tree gives a red-black tree. -/
theorem eraseAt_RedBlack (ctx : List (Frame α)) (c : rbtree_color) (l : Tr α) (z : Ptr) (v : α)
    (r : Tr α) (h : RedBlack (plug ctx (Tr.node c l z v r))) :
    RedBlack (eraseAt ctx c l z v r) := by
  rcases eraseAt_cases ctx c l z v r with ⟨rfl, e⟩ | ⟨-, rfl, e⟩ | ⟨-, a, cy, y, vy, ry, hr, -, -, -, e⟩
  · rw [e]
    exact (unlink_RB ctx c Tr.nil r z v r (Or.inl ⟨rfl, rfl⟩) h).1
  · rw [e]
    exact (unlink_RB ctx c l Tr.nil z v l (Or.inr ⟨rfl, rfl⟩) h).1
  · rw [e]
    have h2 : RedBlack (plug (a ++ Frame.R c l y vy :: ctx) (Tr.node cy Tr.nil y vy ry)) := by
      rw [plug_append]
      show RedBlack (plug ctx (Tr.node c l y vy (plug a (Tr.node cy Tr.nil y vy ry))))
      rw [← hr]
      exact RedBlack_plug_congr ctx (Tr.node c l z v r) (Tr.node c l y vy r) (fun h => h)
        (fun n hn => Tr.blackHeight_rename c l r z y v vy n hn) rfl h
    exact (unlink_RB _ cy Tr.nil ry y vy ry (Or.inl ⟨rfl, rfl⟩) h2).1

/-- The state after the unlinking in the two-children case, for the run of
`rbtree_delete_fixup`. -/
theorem eraseAt_DelInv (ctx : List (Frame α)) (c : rbtree_color) (l : Tr α) (z : Ptr) (v : α)
    (a : List (Frame α)) (y : Ptr) (vy : α) (ry : Tr α)
    (h : RedBlack (plug ctx (Tr.node c l z v
      (plug a (Tr.node rbtree_color.mBlack Tr.nil y vy ry))))) :
    DelInv (a ++ Frame.R c l y vy :: ctx) ry := by
  have h2 : RedBlack (plug (a ++ Frame.R c l y vy :: ctx)
      (Tr.node rbtree_color.mBlack Tr.nil y vy ry)) := by
    rw [plug_append]
    show RedBlack (plug ctx (Tr.node c l y vy (plug a (Tr.node rbtree_color.mBlack Tr.nil y vy ry))))
    exact RedBlack_plug_congr ctx (Tr.node c l z v _) (Tr.node c l y vy _) (fun h => h)
      (fun n hn => Tr.blackHeight_rename c l _ z y v vy n hn) rfl h
  exact (unlink_RB _ rbtree_color.mBlack Tr.nil ry y vy ry (Or.inl ⟨rfl, rfl⟩) h2).2 rfl

end erase_shape_props


/-! ## The unlinking of `RBTreeErase` on the memory -/

set_option autoImplicit false

section erase_relink

variable {α : Type}

theorem setParent_same {m : Mem} {x y : Ptr} (hx : x ≠ 0) (h : (m x).mParent = y) :
    setParent m x y = some m := by
  rw [setParent_of_ne _ hx]
  congr 1
  rw [← h]
  exact Function.update_eq_self x m

/-- The end of the two-children case: `y`, the root of a laid-out subtree without a left
child, takes the place, the left subtree and the colour of `z`. -/
theorem replace_spec {m : Mem} {val : Ptr → Option α} {hdr : Ptr}
    (ctx : List (Frame α)) (Z0 : Tr α) (z : Ptr) (c : rbtree_color) (l : Tr α) (R0 : Ptr)
    (cy : rbtree_color) (y : Ptr) (vy : α) (r2 : Tr α) (parY : Ptr)
    (hhdr : hdr ≠ 0) (hz : z ≠ 0) (hZ0 : Z0.ptr = z)
    (hctx : CtxAt m val hdr ctx z)
    (hzrec : m z = { mRight := R0, mLeft := l.ptr, mParent := ctxParent hdr ctx, mColor := c })
    (hroot : (m hdr).mParent = (plug ctx Z0).ptr)
    (hl0 : l.ptr ≠ 0) (hl : TreeAt m val l z)
    (hS : TreeAt m val (Tr.node cy Tr.nil y vy r2) parY)
    (hnd : (ctxBefore ctx ++ (l.ptrs ++ z :: y :: r2.ptrs) ++ ctxAfter ctx).Nodup)
    (hn : hdr ∉ ctxBefore ctx ++ (l.ptrs ++ z :: y :: r2.ptrs) ++ ctxAfter ctx) :
    ∃ m2, RBTreeErase_replace m z y hdr = some m2 ∧
      CtxAt m2 val hdr ctx y ∧ TreeAt m2 val (Tr.node c l y vy r2) (ctxParent hdr ctx) ∧
      (m2 hdr).mParent = (plug ctx (Tr.node c l y vy r2)).ptr ∧
      (m2 hdr).mLeft = (m hdr).mLeft ∧ (m2 hdr).mRight = (m hdr).mRight ∧
      (m2 hdr).mColor = (m hdr).mColor ∧ m2 z = m z := by
  have hnd1 : (ctxBefore ctx ++ (z :: (Tr.node cy Tr.nil y vy r2).ptrs) ++ ctxAfter ctx).Nodup := by
    refine hnd.sublist ?_
    simp only [Tr.ptrs, List.append_assoc, List.cons_append, List.nil_append]
    exact (List.Sublist.refl _).append (List.sublist_append_right _ _)
  have hn1 : hdr ∉ ctxBefore ctx ++ (z :: (Tr.node cy Tr.nil y vy r2).ptrs) ++ ctxAfter ctx := by
    intro hq
    apply hn
    simp only [Tr.ptrs, List.mem_append, List.mem_cons, List.nil_append] at hq ⊢
    tauto
  obtain ⟨m1, e1, hc1, hT1, hp1, hl1, hr1, hcol1, hfr1⟩ := transplant_spec ctx Z0 z
    (Tr.node cy Tr.nil y vy r2) parY hhdr hz hZ0 hctx (by rw [hzrec]) hroot hS hnd1 hn1
  simp only [Tr.ptrs, List.nil_append, List.nodup_append, List.nodup_cons,
    List.disjoint_cons_left, List.disjoint_cons_right, List.disjoint_append_left,
    List.disjoint_append_right, List.mem_append, List.mem_cons, not_or] at hnd hn
  obtain ⟨hy, hyrec, hyv, -, hr2T⟩ := hT1
  have hlm : l.ptr ∈ l.ptrs := (Tr.ptr_mem_or_nil l).resolve_left (by
    rintro rfl
    exact hl0 rfl)
  have hzP : z ≠ ctxParent hdr ctx := by
    rcases ctxParent_mem hdr ctx with e | hm
    · rw [e]; exact fun e2 => hn.1.2.2.1 e2.symm
    · intro e
      rw [← e, List.mem_append] at hm
      rcases hm with hm | hm
      · exact hnd.1.2.2.2.1 hm
      · exact hnd.2.2.2.2.1 hm
  have hlP : ∀ q ∈ l.ptrs, q ≠ ctxParent hdr ctx := by
    intro q hq
    rcases ctxParent_mem hdr ctx with e | hm
    · rw [e]; exact fun e2 => hn.1.2.1 (e2 ▸ hq)
    · intro e
      rw [← e, List.mem_append] at hm
      rcases hm with hm | hm
      · exact hnd.1.2.2.1 hm hq
      · exact hnd.2.2.2.1 hq hm
  have hz1 : m1 z = m z := hfr1 z hzP (by simp [Tr.ptrs, hnd])
  have hyl : y ≠ l.ptr := fun e => hnd.1.2.1.2.2.2.1 (e ▸ hlm)
  have hzl : z ≠ l.ptr := fun e => hnd.1.2.1.2.2.1 (e ▸ hlm)
  have hzy : z ≠ y := hnd.1.2.1.2.1.1.1
  have hhy : hdr ≠ y := hn.1.2.2.2.1
  have hhl : hdr ≠ l.ptr := fun e => hn.1.2.1 (e ▸ hlm)
  have hl1m : ∀ q ∈ l.ptrs, m1 q = m q := fun q hq =>
    hfr1 q (hlP q hq) (by
      simp only [Tr.ptrs, List.nil_append, List.mem_cons, not_or]
      exact ⟨fun e => hnd.1.2.1.2.2.2.1 (e ▸ hq), fun h2 => hnd.1.2.1.2.2.2.2 hq h2⟩)
  -- the memory after the three assignments
  let mF : Mem := Function.update (Function.update (Function.update m1 y
      { m1 y with mLeft := l.ptr }) l.ptr
      { m1 l.ptr with mParent := y }) y
      { mRight := r2.ptr, mLeft := l.ptr, mParent := ctxParent hdr ctx, mColor := c }
  have hFy : mF y =
      { mRight := r2.ptr, mLeft := l.ptr, mParent := ctxParent hdr ctx, mColor := c } := by
    simp [mF]
  have hFl : mF l.ptr = { m l.ptr with mParent := y } := by
    simp [mF, Function.update_noteq (Ne.symm hyl), hl1m l.ptr hlm]
  have hFo : ∀ q, q ≠ y → q ≠ l.ptr → mF q = m1 q := by
    intro q h1 h2
    simp [mF, Function.update_noteq h1, Function.update_noteq h2]
  rw [Tr.ptr_node] at e1 hc1
  refine ⟨mF, ?_, ?_, ⟨hy, hFy, hyv, ?_, ?_⟩, ?_, ?_, ?_, ?_, ?_⟩
  · simp only [RBTreeErase_replace, e1, Option.bind_eq_bind, Option.some_bind, rd_of_ne hz, hz1,
      hzrec, setLeft_of_ne _ hy, rd_of_ne hy, Function.update_same, setParent_of_ne _ hl0,
      Function.update_noteq hzl, Function.update_noteq hzy, setColor_of_ne _ hy,
      Function.update_noteq hyl, Function.update_noteq (Ne.symm hyl), hyrec, Tr.ptr_nil,
      Option.some.injEq, mF]
  · apply CtxAt_congr hc1
    intro q hq
    rw [List.mem_append] at hq
    refine ⟨hFo q ?_ ?_, rfl⟩
    · rintro rfl
      rcases hq with hq | hq
      · exact hnd.1.2.2.2.2.1 hq
      · exact hnd.2.2.2.2.2.1 hq
    · rintro rfl
      rcases hq with hq | hq
      · exact hnd.1.2.2.1 hq hlm
      · exact hnd.2.2.2.1 hlm hq
  · apply TreeAt_reparent hl hnd.1.2.1.1
    · intro q hq hne
      rw [hFo q (fun e => hnd.1.2.1.2.2.2.1 (e ▸ hq)) hne, hl1m q hq]
    · intro _
      exact hFl
    · intro _ _
      rfl
  · apply TreeAt_congr hr2T
    intro q hq
    refine ⟨hFo q ?_ ?_, rfl⟩
    · rintro rfl
      exact hnd.1.2.1.2.1.2.1 hq
    · rintro rfl
      exact hnd.1.2.1.2.2.2.2 hlm hq
  · rw [hFo hdr hhy hhl, hp1]
    exact Tr.ptr_plug_same ctx _ _ rfl
  · rw [hFo hdr hhy hhl, hl1]
  · rw [hFo hdr hhy hhl, hr1]
  · rw [hFo hdr hhy hhl, hcol1]
  · rw [hFo z hzy hzl, hz1]

theorem ctxBefore_nil_cons (f : Frame α) (a : List (Frame α)) (h : ctxBefore (f :: a) = []) :
    (∃ cf pf vf Wf, f = Frame.L cf pf vf Wf) ∧ ctxBefore a = [] := by
  cases f with
  | L cf pf vf Wf => exact ⟨⟨cf, pf, vf, Wf, rfl⟩, h⟩
  | R cf Wf pf vf => simp [ctxBefore] at h

/-- The unlinking of the successor `y` of `z`, the leftmost node of the right subtree of
`z`: afterwards `y` is the root of a laid-out subtree holding the rest of the right subtree
of `z`, and `z`, its path and its left subtree are as before. -/
theorem detach_spec {m : Mem} {val : Ptr → Option α} {hdr : Ptr}
    (ctx : List (Frame α)) (c : rbtree_color) (l : Tr α) (z : Ptr) (v : α)
    (a : List (Frame α)) (cy : rbtree_color) (y : Ptr) (vy : α) (ry : Tr α)
    (ha : ctxBefore a = [])
    (h : MemHolds m val hdr (plug ctx (Tr.node c l z v
      (plug a (Tr.node cy Tr.nil y vy ry))))) :
    ∃ mD parY, RBTreeErase_detach m z y ry.ptr hdr =
        some (mD, ctxParent hdr (a ++ Frame.R c l y vy :: ctx)) ∧
      CtxAt mD val hdr ctx z ∧ mD z = m z ∧ TreeAt mD val l z ∧
      TreeAt mD val (Tr.node cy Tr.nil y vy (plug a ry)) parY ∧
      (mD hdr).mParent = (m hdr).mParent ∧ (mD hdr).mLeft = (m hdr).mLeft ∧
      (mD hdr).mRight = (m hdr).mRight ∧ (mD hdr).mColor = (m hdr).mColor := by
  obtain ⟨hc, hz, hzrec, -, hl, hr, hnd, hn⟩ := h.at_node
  cases a with
  | nil =>
    -- `y` is the right child of `z`
    obtain ⟨hy, hyrec, hyv, -, hryT⟩ := hr
    refine ⟨m, z, ?_, hc, rfl, hl, ⟨hy, hyrec, hyv, trivial, hryT⟩, rfl, rfl, rfl, rfl⟩
    have hstep : (if ry.ptr ≠ 0 then setParent m ry.ptr y else pure m) = some m := by
      cases ry with
      | nil => simp [Tr.ptr]
      | node cr lr pr vr rr =>
        obtain ⟨hpr, hprrec, -⟩ := hryT
        simp only [Tr.ptr_node, ne_eq, hpr, not_false_eq_true, ↓reduceIte]
        exact setParent_same hpr (by rw [hprrec])
    simp only [RBTreeErase_detach, rd_of_ne hy, hyrec, Option.bind_eq_bind, Option.some_bind,
      ↓reduceIte, List.nil_append, ctxParent_cons, Frame.ptr_R, plug]
    by_cases hz0 : ry.ptr = 0
    · simp [hz0]
    · simp only [hz0, ne_eq, not_false_eq_true, ↓reduceIte] at hstep ⊢
      rw [hstep]
      rfl
  | cons f a2 =>
    obtain ⟨⟨cf, pf, vf, Wf, rfl⟩, -⟩ := ctxBefore_nil_cons f a2 ha
    have hY : MemHolds m val hdr (plug ((Frame.L cf pf vf Wf :: a2) ++ Frame.R c l z v :: ctx)
        (Tr.node cy Tr.nil y vy ry)) := by
      rw [plug_append]
      exact h
    obtain ⟨hcY, hy, hyrec, hyv, -, hryT, hndY, hnY⟩ := hY.at_node
    have hRp : (plug (Frame.L cf pf vf Wf :: a2) (Tr.node cy Tr.nil y vy ry)).ptrs
        = y :: (plug (Frame.L cf pf vf Wf :: a2) ry).ptrs := by
      rw [Tr.ptrs_plug, Tr.ptrs_plug, ha]
      simp [Tr.ptrs]
    have hrootY : (m hdr).mParent = (plug ((Frame.L cf pf vf Wf :: a2) ++ Frame.R c l z v :: ctx)
        (Tr.node cy Tr.nil y vy ry)).ptr := by
      rw [h.hdr, plug_append]
      rfl
    obtain ⟨m1, e1, hc1, hT1, hp1, hl1, hr1, hcol1, hfr1⟩ := transplant_spec _
      (Tr.node cy Tr.nil y vy ry) y ry y h.hdr_ne hy rfl hcY (by rw [hyrec]) hrootY hryT
      (by simpa [Tr.ptrs] using hndY) (by simpa [Tr.ptrs] using hnY)
    have hTree1 : TreeAt m1 val (plug ctx (Tr.node c l z v
        (plug (Frame.L cf pf vf Wf :: a2) ry))) hdr := by
      have := (TreeAt_plug ((Frame.L cf pf vf Wf :: a2) ++ Frame.R c l z v :: ctx) ry).2
        ⟨hc1, hT1⟩
      rw [plug_append] at this
      exact this
    obtain ⟨hcz1, -, hzrec1, -, hl1T, hr1T⟩ := (TreeAt_plug ctx _).1 hTree1
    rw [hRp] at hnd hn
    simp only [Tr.ptrs, List.nodup_append, List.nodup_cons, List.disjoint_cons_left,
      List.disjoint_cons_right, List.disjoint_append_left, List.disjoint_append_right,
      List.mem_append, List.mem_cons, not_or] at hnd hn
    have hrpm : (plug (Frame.L cf pf vf Wf :: a2) ry).ptr ∈
        (plug (Frame.L cf pf vf Wf :: a2) ry).ptrs := by
      have h1 := Tr.ptr_plug_mem (Frame.L cf pf vf Wf) a2 ry
      rw [Tr.ptrs_plug]
      simp only [List.mem_append] at h1 ⊢
      tauto
    have hrp0 : (plug (Frame.L cf pf vf Wf :: a2) ry).ptr ≠ 0 :=
      TreeAt_ptr_ne_zero hr1T _ hrpm
    have hpfm : pf ∈ (plug (Frame.L cf pf vf Wf :: a2) ry).ptrs := by
      rw [Tr.ptrs_plug]
      simp [ctxAfter]
    have hyR : y ∉ (plug (Frame.L cf pf vf Wf :: a2) ry).ptrs := hnd.1.2.1.2.1.2.1
    have hzR : z ∉ (plug (Frame.L cf pf vf Wf :: a2) ry).ptrs := hnd.1.2.1.2.1.1.2
    have hzy : z ≠ y := hnd.1.2.1.2.1.1.1
    have hyrp : y ≠ (plug (Frame.L cf pf vf Wf :: a2) ry).ptr := fun e => hyR (e ▸ hrpm)
    have hzrp : z ≠ (plug (Frame.L cf pf vf Wf :: a2) ry).ptr := fun e => hzR (e ▸ hrpm)
    have hzpf : z ≠ pf := fun e => hzR (e ▸ hpfm)
    have hypf : y ≠ pf := fun e => hyR (e ▸ hpfm)
    have hhy : hdr ≠ y := hn.1.2.2.2.1
    have hhrp : hdr ≠ (plug (Frame.L cf pf vf Wf :: a2) ry).ptr := fun e => hn.1.2.2.2.2 (e ▸ hrpm)
    have hryR : ∀ q ∈ ry.ptrs, q ∈ (plug (Frame.L cf pf vf Wf :: a2) ry).ptrs := by
      intro q hq
      rw [Tr.ptrs_plug]
      simp [hq]
    have hm1y : m1 y = m y := hfr1 y hypf (fun hq => hyR (hryR y hq))
    have hm1z : m1 z = m z := hfr1 z hzpf (fun hq => hzR (hryR z hq))
    let mD : Mem := Function.update (Function.update m1 y { m1 y with mRight := (plug (Frame.L cf pf vf Wf :: a2) ry).ptr })
      (plug (Frame.L cf pf vf Wf :: a2) ry).ptr { m1 (plug (Frame.L cf pf vf Wf :: a2) ry).ptr with mParent := y }
    have hDy : mD y =
        rbtree_node_base.mk (plug (Frame.L cf pf vf Wf :: a2) ry).ptr 0 pf cy := by
      simp [mD, Function.update_noteq hyrp, hm1y, hyrec]
    have hDrp : mD (plug (Frame.L cf pf vf Wf :: a2) ry).ptr = { m1 (plug (Frame.L cf pf vf Wf :: a2) ry).ptr with mParent := y } := by
      simp [mD]
    have hDo : ∀ q, q ≠ y → q ≠ (plug (Frame.L cf pf vf Wf :: a2) ry).ptr → mD q = m1 q := by
      intro q h1 h2
      simp [mD, Function.update_noteq h1, Function.update_noteq h2]
    refine ⟨mD, pf, ?_, ?_, ?_, ?_, ⟨hy, hDy, hyv, trivial, ?_⟩, ?_, ?_, ?_, ?_⟩
    · have hzr1 : (m1 z).mRight = (plug (Frame.L cf pf vf Wf :: a2) ry).ptr := by rw [hzrec1]
      simp only [RBTreeErase_detach, rd_of_ne hy, hyrec, Option.bind_eq_bind, Option.some_bind,
        List.cons_append, ctxParent_cons, Frame.ptr_L, Ne.symm hzpf, ↓reduceIte, e1,
        rd_of_ne hz, hzr1, setRight_of_ne _ hy, Function.update_same, setParent_of_ne _ hrp0,
        Function.update_noteq (Ne.symm hyrp), Option.pure_def, mD]
    · apply CtxAt_congr hcz1
      intro q hq
      rw [List.mem_append] at hq
      refine ⟨hDo q ?_ ?_, rfl⟩
      · rintro rfl
        rcases hq with hq | hq
        · exact hnd.1.2.2.2.2.1 hq
        · exact hnd.2.2.2.2.2.1 hq
      · rintro rfl
        rcases hq with hq | hq
        · exact hnd.1.2.2.2.2.2 hq hrpm
        · exact hnd.2.2.2.2.2.2 hrpm hq
    · rw [hDo z hzy hzrp, hm1z]
    · apply TreeAt_congr hl1T
      intro q hq
      refine ⟨hDo q ?_ ?_, rfl⟩
      · rintro rfl
        exact hnd.1.2.1.2.2.2.1 hq
      · rintro rfl
        exact hnd.1.2.1.2.2.2.2 hq hrpm
    · apply TreeAt_reparent hr1T hnd.1.2.1.2.1.2.2
      · intro q hq hne
        exact hDo q (fun e => hyR (e ▸ hq)) hne
      · intro _
        exact hDrp
      · intro _ _
        rfl
    · rw [hDo hdr hhy hhrp, hp1, hrootY]
      exact Tr.ptr_plug_ne_nil _ _ _ _
    · rw [hDo hdr hhy hhrp, hl1]
    · rw [hDo hdr hhy hhrp, hr1]
    · rw [hDo hdr hhy hhrp, hcol1]

theorem erase_sublist (B L R A : List Ptr) (z : Ptr) :
    (B ++ (L ++ R) ++ A).Sublist (B ++ (L ++ z :: R) ++ A) := by
  simp only [List.append_assoc]
  exact (List.Sublist.refl _).append ((List.Sublist.refl _).append
    (List.sublist_cons_self _ _))

/-- The unlinking of `RBTreeErase`: afterwards the memory holds, up to the leftmost and
rightmost links of the header, the subtree `X` of `x` in the hole of the path `ctx2` of
`xparent`; the node `z` itself is not written. -/
theorem relink_spec {m : Mem} {val : Ptr → Option α} {hdr : Ptr}
    (ctx : List (Frame α)) (c : rbtree_color) (l : Tr α) (z : Ptr) (v : α) (r : Tr α)
    (h : MemHolds m val hdr (plug ctx (Tr.node c l z v r)))
    (fuel : Nat) (hf : (plug ctx (Tr.node c l z v r)).ptrs.length ≤ fuel) :
    ∃ mA ctx2 X yc, RBTreeErase_relink m fuel z hdr = some (mA, X.ptr, ctxParent hdr ctx2, yc) ∧
      MemCore mA val hdr (plug ctx2 X) ∧
      (mA hdr).mLeft = (m hdr).mLeft ∧ (mA hdr).mRight = (m hdr).mRight ∧ mA z = m z ∧
      eraseAt ctx c l z v r = delAfter yc ctx2 X ∧
      (plug ctx2 X).ptrs = ctxBefore ctx ++ (l.ptrs ++ r.ptrs) ++ ctxAfter ctx ∧
      (l = Tr.nil → TreeAt mA val r (ctxParent hdr ctx)) ∧
      (r = Tr.nil → TreeAt mA val l (ctxParent hdr ctx)) ∧
      (yc = rbtree_color.mBlack → RedBlack (plug ctx (Tr.node c l z v r)) → DelInv ctx2 X) := by
  obtain ⟨hc, hz, hzrec, -, hl, hr, hnd, hn⟩ := h.at_node
  have hcolor : (m hdr).mColor = rbtree_color.mRed := by rw [h.hdr]
  have hroot : (m hdr).mParent = (plug ctx (Tr.node c l z v r)).ptr := by rw [h.hdr]
  have hsub := erase_sublist (ctxBefore ctx) l.ptrs r.ptrs (ctxAfter ctx) z
  have hnd2 := hnd.sublist hsub
  have hn2 : hdr ∉ ctxBefore ctx ++ (l.ptrs ++ r.ptrs) ++ ctxAfter ctx :=
    fun hq => hn (hsub.subset hq)
  rcases eraseAt_cases ctx c l z v r with ⟨rfl, e⟩ | ⟨hlne, rfl, e⟩ |
    ⟨hlne, a, cy, y, vy, ry, rfl, hmv, hb, hbe, e⟩
  · -- no left child
    obtain ⟨m1, e1, hc1, hT1, hp1, hl1, hr1, hcol1, hfr1⟩ := transplant_spec ctx
      (Tr.node c Tr.nil z v r) z r z h.hdr_ne hz rfl hc (by rw [hzrec]) hroot hr
      (by simpa [Tr.ptrs] using hnd) (by simpa [Tr.ptrs] using hn)
    have hptrs : (plug ctx r).ptrs = ctxBefore ctx ++ ((Tr.nil : Tr α).ptrs ++ r.ptrs) ++
        ctxAfter ctx := by
      rw [Tr.ptrs_plug]
      simp [Tr.ptrs]
    refine ⟨m1, ctx, r, c, ?_, ⟨h.hdr_ne, (TreeAt_plug ctx r).2 ⟨hc1, hT1⟩, hptrs ▸ hnd2,
      hptrs ▸ hn2, hp1, by rw [hcol1, hcolor]⟩, hl1, hr1, ?_, e, hptrs, fun _ => hT1,
      fun hrn => by subst hrn; trivial,
      fun hyc hRB => (unlink_RB ctx c Tr.nil r z v r (Or.inl ⟨rfl, rfl⟩) hRB).2 hyc⟩
    · simp only [RBTreeErase_relink, rd_of_ne hz, hzrec, Tr.ptr_nil, Option.bind_eq_bind,
        Option.some_bind, ↓reduceIte, e1, Option.pure_def]
    · apply hfr1 z
      · rcases ctxParent_mem hdr ctx with e2 | hm
        · rw [e2]
          intro e3
          exact hn (by simp [e3])
        · intro e3
          rw [← e3] at hm
          simp only [Tr.ptrs, List.nodup_append, List.nodup_cons, List.disjoint_cons_left,
            List.disjoint_cons_right, List.disjoint_append_left, List.disjoint_append_right,
            List.mem_append, List.mem_cons, not_or] at hnd hm
          rcases hm with hm | hm <;> simp [hm] at hnd
      · intro hq
        simp only [Tr.ptrs, List.nodup_append, List.nodup_cons, List.disjoint_cons_left,
          List.disjoint_cons_right, List.disjoint_append_left, List.disjoint_append_right,
          List.mem_append, List.mem_cons, not_or] at hnd
        simp [hq] at hnd
  · -- a left child and no right child
    cases l with
    | nil => exact absurd rfl hlne
    | node cl ll pl vl rl =>
      have hperm : (ctxBefore ctx ++ (z :: (Tr.node cl ll pl vl rl).ptrs) ++ ctxAfter ctx).Perm
          (ctxBefore ctx ++ ((Tr.node cl ll pl vl rl).ptrs ++ z :: (Tr.nil : Tr α).ptrs) ++
            ctxAfter ctx) := by
        refine List.Perm.append_right _ (List.Perm.append_left _ ?_)
        simp only [Tr.ptrs_nil]
        exact (List.perm_append_singleton z _).symm
      obtain ⟨m1, e1, hc1, hT1, hp1, hl1, hr1, hcol1, hfr1⟩ := transplant_spec ctx
        (Tr.node c (Tr.node cl ll pl vl rl) z v Tr.nil) z (Tr.node cl ll pl vl rl) z h.hdr_ne hz
        rfl hc (by rw [hzrec]) hroot hl (hperm.nodup_iff.2 hnd)
        (fun hq => hn (hperm.subset hq))
      have hptrs : (plug ctx (Tr.node cl ll pl vl rl)).ptrs = ctxBefore ctx ++
          ((Tr.node cl ll pl vl rl).ptrs ++ (Tr.nil : Tr α).ptrs) ++ ctxAfter ctx := by
        rw [Tr.ptrs_plug]
        simp [Tr.ptrs]
      have hpl : pl ≠ 0 := hl.1
      have e1b : rbtree_transplant m z pl hdr = some m1 := e1
      refine ⟨m1, ctx, Tr.node cl ll pl vl rl, c, ?_, ⟨h.hdr_ne, (TreeAt_plug ctx _).2 ⟨hc1, hT1⟩,
        hptrs ▸ hnd2, hptrs ▸ hn2, hp1, by rw [hcol1, hcolor]⟩, hl1, hr1, ?_, e, hptrs,
        fun _ => trivial, fun _ => hT1,
        fun hyc hRB => (unlink_RB ctx c _ Tr.nil z v _ (Or.inr ⟨rfl, rfl⟩) hRB).2 hyc⟩
      · simp only [RBTreeErase_relink, rd_of_ne hz, hzrec, Tr.ptr_nil, Tr.ptr_node,
          Option.bind_eq_bind, Option.some_bind, hpl, ↓reduceIte, e1b, Option.pure_def]
      · apply hfr1 z
        · rcases ctxParent_mem hdr ctx with e2 | hm
          · rw [e2]
            intro e3
            exact hn (by simp [e3])
          · intro e3
            rw [← e3] at hm
            simp only [Tr.ptrs, List.nodup_append, List.nodup_cons, List.disjoint_cons_left,
              List.disjoint_cons_right, List.disjoint_append_left, List.disjoint_append_right,
              List.mem_append, List.mem_cons, not_or] at hnd hm
            rcases hm with hm | hm <;> simp [hm] at hnd
        · intro hq
          simp only [Tr.ptrs, List.nodup_append, List.nodup_cons, List.disjoint_cons_left,
            List.disjoint_cons_right, List.disjoint_append_left, List.disjoint_append_right,
            List.mem_append, List.mem_cons, not_or] at hnd hq
          rcases hq with hq | hq | hq <;> simp [hq] at hnd
  · -- two children
    cases l with
    | nil => exact absurd rfl hlne
    | node cl ll pl vl rl =>
      have hpl : pl ≠ 0 := hl.1
      have hRp : (plug a (Tr.node cy Tr.nil y vy ry)).ptrs = y :: (plug a ry).ptrs := by
        rw [Tr.ptrs_plug, Tr.ptrs_plug, hb]
        simp [Tr.ptrs]
      have hRne : plug a (Tr.node cy Tr.nil y vy ry) ≠ Tr.nil := by
        intro e2
        rw [e2] at hRp
        simp [Tr.ptrs] at hRp
      have hR0 : (plug a (Tr.node cy Tr.nil y vy ry)).ptr ≠ 0 := by
        rcases Tr.ptr_mem_or_nil (plug a (Tr.node cy Tr.nil y vy ry)) with e2 | hm
        · exact absurd e2 hRne
        · exact TreeAt_ptr_ne_zero hr _ hm
      have hmin : rbtree_min m fuel (plug a (Tr.node cy Tr.nil y vy ry)).ptr = some y := by
        rw [rbtree_min_spec _ z hr hRne fuel (by
          rw [Tr.ptrs_plug] at hf
          simp only [Tr.ptrs, List.length_append, List.length_cons] at hf
          omega), hRp]
        rfl
      have hY : MemHolds m val hdr (plug (a ++ Frame.R c (Tr.node cl ll pl vl rl) z v :: ctx)
          (Tr.node cy Tr.nil y vy ry)) := by
        rw [plug_append]
        exact h
      obtain ⟨-, hy, hyrec, -⟩ := hY.at_node
      obtain ⟨mD, parY, eD, hcD, hzD, hlD, hSD, hpD, hlfD, hrD, hcolD⟩ :=
        detach_spec ctx c (Tr.node cl ll pl vl rl) z v a cy y vy ry hb h
      rw [hRp] at hnd hn
      obtain ⟨m2, e2, hc2, hT2, hp2, hl2, hr2, hcol2, hz2⟩ := replace_spec ctx
        (Tr.node c (Tr.node cl ll pl vl rl) z v (plug a (Tr.node cy Tr.nil y vy ry))) z c
        (Tr.node cl ll pl vl rl) (plug a (Tr.node cy Tr.nil y vy ry)).ptr cy y vy (plug a ry) parY
        h.hdr_ne hz rfl hcD (by rw [hzD, hzrec]) (by rw [hpD, hroot]) hpl hlD hSD hnd hn
      have hplug : plug (a ++ Frame.R c (Tr.node cl ll pl vl rl) y vy :: ctx) ry
          = plug ctx (Tr.node c (Tr.node cl ll pl vl rl) y vy (plug a ry)) := by
        rw [plug_append]
        rfl
      have hptrs : (plug (a ++ Frame.R c (Tr.node cl ll pl vl rl) y vy :: ctx) ry).ptrs
          = ctxBefore ctx ++ ((Tr.node cl ll pl vl rl).ptrs ++
            (plug a (Tr.node cy Tr.nil y vy ry)).ptrs) ++ ctxAfter ctx := by
        rw [hplug, Tr.ptrs_plug, hRp]
        simp [Tr.ptrs]
      refine ⟨m2, a ++ Frame.R c (Tr.node cl ll pl vl rl) y vy :: ctx, ry, cy, ?_,
        ⟨h.hdr_ne, ?_, hptrs ▸ hnd2, hptrs ▸ hn2, ?_, by rw [hcol2, hcolD, hcolor]⟩,
        by rw [hl2, hlfD], by rw [hr2, hrD], by rw [hz2, hzD], e, hptrs,
        fun hln => (by cases hln), fun hrn => absurd hrn hRne, ?_⟩
      · simp only [RBTreeErase_relink, rd_of_ne hz, hzrec, Tr.ptr_node, hpl, hR0,
          Option.bind_eq_bind, Option.some_bind, ↓reduceIte, hmin, rd_of_ne hy, hyrec, eD, e2,
          Option.pure_def]
      · rw [hplug]
        exact (TreeAt_plug ctx _).2 ⟨hc2, hT2⟩
      · rw [hplug]
        exact hp2
      · rintro rfl hRB
        exact eraseAt_DelInv ctx c _ z v a y vy ry hRB

end erase_relink


/-! ## The leftmost and rightmost links after `RBTreeErase`, and `RBTreeErase` -/

set_option autoImplicit false

section erase_minmax

variable {α : Type}

theorem first_erase (X Y : List Ptr) (z d : Ptr) (hnd : (X ++ z :: Y).Nodup) :
    (z = firstD (X ++ z :: Y) d ↔ X = []) ∧
      (X ≠ [] → firstD (X ++ Y) d = firstD (X ++ z :: Y) d) := by
  cases X with
  | nil => simp
  | cons x X2 =>
    simp only [List.cons_append, firstD_cons, reduceCtorEq, iff_false, ne_eq,
      not_false_eq_true, true_implies, and_true]
    rintro rfl
    simp at hnd

theorem lastD_of_ne_nil {β : Type} (Y : List β) (a b : β) (h : Y ≠ []) :
    lastD Y a = lastD Y b := by
  cases Y with
  | nil => exact absurd rfl h
  | cons y Y2 => rfl

theorem last_erase (X Y : List Ptr) (z d : Ptr) (hnd : (X ++ z :: Y).Nodup) :
    (z = lastD (X ++ z :: Y) d ↔ Y = []) ∧
      (Y ≠ [] → lastD (X ++ Y) d = lastD (X ++ z :: Y) d) := by
  rw [lastD_append_cons, lastD_append]
  constructor
  · constructor
    · intro e
      by_contra hY
      rcases lastD_mem Y z with ⟨-, h2⟩ | h2
      · exact hY h2
      · rw [← e] at h2
        simp only [List.nodup_append, List.nodup_cons] at hnd
        exact hnd.2.1.1 h2
    · rintro rfl
      rfl
  · intro hY
    exact lastD_of_ne_nil Y _ _ hY

theorem ctxParent_of_before_nil (hdr : Ptr) (ctx : List (Frame α)) (h : ctxBefore ctx = []) :
    ctxParent hdr ctx = firstD (ctxAfter ctx) hdr := by
  cases ctx with
  | nil => rfl
  | cons f rest =>
    cases f with
    | L c p v r => rfl
    | R c l p v => simp [ctxBefore] at h

theorem ctxParent_of_after_nil (hdr : Ptr) (ctx : List (Frame α)) (h : ctxAfter ctx = []) :
    ctxParent hdr ctx = lastD (ctxBefore ctx) hdr := by
  cases ctx with
  | nil => rfl
  | cons f rest =>
    cases f with
    | L c p v r => simp [ctxAfter] at h
    | R c l p v =>
      simp only [ctxBefore, ctxParent_cons, Frame.ptr_R]
      rw [← List.append_assoc, lastD_append_cons]
      rfl

/-- The update of the leftmost link of the header after the unlinking of `z`. -/
theorem leftmost_spec {mA : Mem} {val : Ptr → Option α} {hdr : Ptr}
    (ctx : List (Frame α)) (c : rbtree_color) (l : Tr α) (z : Ptr) (r : Tr α)
    (hhdr : hdr ≠ 0) (hz0 : z ≠ 0)
    (hnd : (ctxBefore ctx ++ (l.ptrs ++ z :: r.ptrs) ++ ctxAfter ctx).Nodup)
    (hzrec : mA z =
      { mRight := r.ptr, mLeft := l.ptr, mParent := ctxParent hdr ctx, mColor := c })
    (hleft : (mA hdr).mLeft = firstD (ctxBefore ctx ++ (l.ptrs ++ z :: r.ptrs) ++ ctxAfter ctx) hdr)
    (hlT : l = Tr.nil → TreeAt mA val r (ctxParent hdr ctx))
    (fuel : Nat) (hf : r.ptrs.length ≤ fuel) :
    ∃ m1, RBTreeErase_leftmost mA fuel z hdr = some m1 ∧
      (m1 hdr).mLeft = firstD (ctxBefore ctx ++ (l.ptrs ++ r.ptrs) ++ ctxAfter ctx) hdr ∧
      (m1 hdr).mRight = (mA hdr).mRight ∧ (m1 hdr).mParent = (mA hdr).mParent ∧
      (m1 hdr).mColor = (mA hdr).mColor ∧ (∀ q, q ≠ hdr → m1 q = mA q) := by
  have hnd2 : ((ctxBefore ctx ++ l.ptrs) ++ z :: (r.ptrs ++ ctxAfter ctx)).Nodup := by
    simpa [List.append_assoc] using hnd
  obtain ⟨h1, h2⟩ := first_erase (ctxBefore ctx ++ l.ptrs) (r.ptrs ++ ctxAfter ctx) z hdr hnd2
  have hold : ctxBefore ctx ++ (l.ptrs ++ z :: r.ptrs) ++ ctxAfter ctx
      = (ctxBefore ctx ++ l.ptrs) ++ z :: (r.ptrs ++ ctxAfter ctx) := by
    simp [List.append_assoc]
  have hnew : ctxBefore ctx ++ (l.ptrs ++ r.ptrs) ++ ctxAfter ctx
      = (ctxBefore ctx ++ l.ptrs) ++ (r.ptrs ++ ctxAfter ctx) := by
    simp [List.append_assoc]
  rw [hold] at hleft
  rw [hnew]
  by_cases hX : ctxBefore ctx ++ l.ptrs = []
  · -- `z` was the leftmost node
    have hzl : z = (mA hdr).mLeft := by rw [hleft]; exact h1.2 hX
    obtain ⟨hB, hL⟩ := List.append_eq_nil.1 hX
    have hlnil : l = Tr.nil := by
      cases l with
      | nil => rfl
      | node _ _ _ _ _ => simp [Tr.ptrs] at hL
    have hrT := hlT hlnil
    rw [hX, List.nil_append]
    by_cases hr0 : r.ptr = 0
    · have hrnil : r = Tr.nil := by
        rcases Tr.ptr_mem_or_nil r with e | hm
        · exact e
        · exact absurd hr0 (TreeAt_ptr_ne_zero hrT _ hm)
      subst hrnil
      refine ⟨Function.update mA hdr { mA hdr with mLeft := ctxParent hdr ctx }, ?_, ?_, ?_, ?_,
        ?_, ?_⟩
      · simp only [RBTreeErase_leftmost, rd_of_ne hhdr, Option.bind_eq_bind, Option.some_bind,
          ← hzl, ↓reduceIte, rd_of_ne hz0, hzrec, Tr.ptr_nil, ne_eq, not_true_eq_false,
          setLeft_of_ne _ hhdr]
      · simp [ctxParent_of_before_nil hdr ctx hB]
      · simp
      · simp
      · simp
      · intro q hq
        exact Function.update_noteq hq _ _
    · have hrne : r ≠ Tr.nil := by
        rintro rfl
        exact hr0 rfl
      have hmin := rbtree_min_spec r _ hrT hrne fuel hf
      obtain ⟨y, hy⟩ : ∃ y, r.ptrs.head? = some y := by
        cases r with
        | nil => exact absurd rfl hrne
        | node cr lr pr vr rr =>
          cases h3 : (Tr.node cr lr pr vr rr).ptrs with
          | nil => simp [Tr.ptrs] at h3
          | cons y t => exact ⟨y, rfl⟩
      refine ⟨Function.update mA hdr { mA hdr with mLeft := y }, ?_, ?_, ?_, ?_, ?_, ?_⟩
      · simp only [RBTreeErase_leftmost, rd_of_ne hhdr, Option.bind_eq_bind, Option.some_bind,
          ← hzl, ↓reduceIte, rd_of_ne hz0, hzrec, ne_eq, hr0, not_false_eq_true, hmin, hy,
          setLeft_of_ne _ hhdr]
      · cases hrp : r.ptrs with
        | nil => rw [hrp] at hy; simp at hy
        | cons y2 t =>
          rw [hrp] at hy
          simp only [List.head?_cons, Option.some.injEq] at hy
          simp [hy]
      · simp
      · simp
      · simp
      · intro q hq
        exact Function.update_noteq hq _ _
  · -- another node is the leftmost one
    have hzl : ¬ z = (mA hdr).mLeft := by
      rw [hleft]
      exact fun e => hX (h1.1 e)
    refine ⟨mA, ?_, ?_, rfl, rfl, rfl, fun _ _ => rfl⟩
    · simp only [RBTreeErase_leftmost, rd_of_ne hhdr, Option.bind_eq_bind, Option.some_bind,
        hzl, ↓reduceIte, Option.pure_def]
    · rw [hleft]
      exact (h2 hX).symm

theorem lastD_of_getLast? {β : Type} (Y : List β) (d y : β) (h : Y.getLast? = some y) :
    lastD Y d = y := by
  induction Y generalizing d with
  | nil => simp at h
  | cons a Y ih =>
    cases Y with
    | nil =>
      simp only [List.getLast?_singleton, Option.some.injEq] at h
      simp [h]
    | cons b Y2 =>
      rw [List.getLast?_cons_cons] at h
      exact ih a h

/-- The update of the rightmost link of the header after the unlinking of `z`. -/
theorem rightmost_spec {m1 : Mem} {val : Ptr → Option α} {hdr : Ptr}
    (ctx : List (Frame α)) (c : rbtree_color) (l : Tr α) (z : Ptr) (r : Tr α)
    (hhdr : hdr ≠ 0) (hz0 : z ≠ 0)
    (hnd : (ctxBefore ctx ++ (l.ptrs ++ z :: r.ptrs) ++ ctxAfter ctx).Nodup)
    (hzrec : m1 z =
      { mRight := r.ptr, mLeft := l.ptr, mParent := ctxParent hdr ctx, mColor := c })
    (hright : (m1 hdr).mRight =
      lastD (ctxBefore ctx ++ (l.ptrs ++ z :: r.ptrs) ++ ctxAfter ctx) hdr)
    (hrT : r = Tr.nil → TreeAt m1 val l (ctxParent hdr ctx))
    (fuel : Nat) (hf : l.ptrs.length ≤ fuel) :
    ∃ m2, RBTreeErase_rightmost m1 fuel z hdr = some m2 ∧
      (m2 hdr).mRight = lastD (ctxBefore ctx ++ (l.ptrs ++ r.ptrs) ++ ctxAfter ctx) hdr ∧
      (m2 hdr).mLeft = (m1 hdr).mLeft ∧ (m2 hdr).mParent = (m1 hdr).mParent ∧
      (m2 hdr).mColor = (m1 hdr).mColor ∧ (∀ q, q ≠ hdr → m2 q = m1 q) := by
  have hnd2 : ((ctxBefore ctx ++ l.ptrs) ++ z :: (r.ptrs ++ ctxAfter ctx)).Nodup := by
    simpa [List.append_assoc] using hnd
  obtain ⟨h1, h2⟩ := last_erase (ctxBefore ctx ++ l.ptrs) (r.ptrs ++ ctxAfter ctx) z hdr hnd2
  have hold : ctxBefore ctx ++ (l.ptrs ++ z :: r.ptrs) ++ ctxAfter ctx
      = (ctxBefore ctx ++ l.ptrs) ++ z :: (r.ptrs ++ ctxAfter ctx) := by
    simp [List.append_assoc]
  have hnew : ctxBefore ctx ++ (l.ptrs ++ r.ptrs) ++ ctxAfter ctx
      = (ctxBefore ctx ++ l.ptrs) ++ (r.ptrs ++ ctxAfter ctx) := by
    simp [List.append_assoc]
  rw [hold] at hright
  rw [hnew]
  by_cases hY : r.ptrs ++ ctxAfter ctx = []
  · -- `z` was the rightmost node
    have hzr : z = (m1 hdr).mRight := by rw [hright]; exact h1.2 hY
    obtain ⟨hR, hA⟩ := List.append_eq_nil.1 hY
    have hrnil : r = Tr.nil := by
      cases r with
      | nil => rfl
      | node _ _ _ _ _ => simp [Tr.ptrs] at hR
    have hlT := hrT hrnil
    rw [hY, List.append_nil]
    by_cases hl0 : l.ptr = 0
    · have hlnil : l = Tr.nil := by
        rcases Tr.ptr_mem_or_nil l with e | hm
        · exact e
        · exact absurd hl0 (TreeAt_ptr_ne_zero hlT _ hm)
      subst hlnil
      refine ⟨Function.update m1 hdr { m1 hdr with mRight := ctxParent hdr ctx }, ?_, ?_, ?_, ?_,
        ?_, ?_⟩
      · simp only [RBTreeErase_rightmost, rd_of_ne hhdr, Option.bind_eq_bind, Option.some_bind,
          ← hzr, ↓reduceIte, rd_of_ne hz0, hzrec, Tr.ptr_nil, ne_eq, not_true_eq_false,
          setRight_of_ne _ hhdr]
      · simp [ctxParent_of_after_nil hdr ctx hA]
      · simp
      · simp
      · simp
      · intro q hq
        exact Function.update_noteq hq _ _
    · have hlne : l ≠ Tr.nil := by
        rintro rfl
        exact hl0 rfl
      have hmax := rbtree_max_spec l _ hlT hlne fuel hf
      obtain ⟨y, hy⟩ : ∃ y, l.ptrs.getLast? = some y := by
        cases h3 : l.ptrs.getLast? with
        | none =>
          rw [List.getLast?_eq_none_iff] at h3
          cases l with
          | nil => exact absurd rfl hlne
          | node _ _ _ _ _ => simp [Tr.ptrs] at h3
        | some y => exact ⟨y, rfl⟩
      refine ⟨Function.update m1 hdr { m1 hdr with mRight := y }, ?_, ?_, ?_, ?_, ?_, ?_⟩
      · simp only [RBTreeErase_rightmost, rd_of_ne hhdr, Option.bind_eq_bind, Option.some_bind,
          ← hzr, ↓reduceIte, rd_of_ne hz0, hzrec, ne_eq, hl0, not_false_eq_true, hmax, hy,
          setRight_of_ne _ hhdr]
      · rw [lastD_append, lastD_of_getLast? l.ptrs _ y hy]
        simp
      · simp
      · simp
      · simp
      · intro q hq
        exact Function.update_noteq hq _ _
  · -- another node is the rightmost one
    have hzr : ¬ z = (m1 hdr).mRight := by
      rw [hright]
      exact fun e => hY (h1.1 e)
    refine ⟨m1, ?_, ?_, rfl, rfl, rfl, fun _ _ => rfl⟩
    · simp only [RBTreeErase_rightmost, rd_of_ne hhdr, Option.bind_eq_bind, Option.some_bind,
        hzr, ↓reduceIte, Option.pure_def]
    · rw [hright]
      exact (h2 hY).symm

/-- `RBTreeErase(z, pHeader)` on a laid-out red-black tree: it returns, and the memory
then holds the shape `eraseAt` below the header, with the leftmost and rightmost links of
the header up to date. -/
theorem RBTreeErase_spec {m : Mem} {val : Ptr → Option α} {hdr : Ptr}
    (ctx : List (Frame α)) (c : rbtree_color) (l : Tr α) (z : Ptr) (v : α) (r : Tr α)
    (h : MemHolds m val hdr (plug ctx (Tr.node c l z v r)))
    (hRB : RedBlack (plug ctx (Tr.node c l z v r)))
    (fuel : Nat) (hf : (plug ctx (Tr.node c l z v r)).ptrs.length + 2 ≤ fuel) :
    ∃ m2, RBTreeErase m fuel z hdr = some m2 ∧
      MemHolds m2 val hdr (eraseAt ctx c l z v r) := by
  obtain ⟨-, hz, hzrec, -, -, -, hnd, hn⟩ := h.at_node
  obtain ⟨mA, ctx2, X, yc, eA, hcore, hlA, hrA, hzA, he, hptrs, hlT, hrT, hinv⟩ :=
    relink_spec ctx c l z v r h fuel (by omega)
  have hold : (plug ctx (Tr.node c l z v r)).ptrs
      = ctxBefore ctx ++ (l.ptrs ++ z :: r.ptrs) ++ ctxAfter ctx := by
    rw [Tr.ptrs_plug]
    rfl
  have hlen : (plug ctx (Tr.node c l z v r)).ptrs.length
      = (plug ctx2 X).ptrs.length + 1 := by
    rw [hold, hptrs]
    simp only [List.length_append, List.length_cons]
    omega
  have hzh : z ≠ hdr := by
    rintro rfl
    exact hn (by simp)
  obtain ⟨m1, e1, hl1, hr1, hp1, hc1, hfr1⟩ := leftmost_spec ctx c l z r h.hdr_ne hz hnd
    (by rw [hzA, hzrec]) (by rw [hlA, h.hdr, hold]) hlT fuel (by
      rw [hold] at hf
      simp only [List.length_append, List.length_cons] at hf
      omega)
  obtain ⟨m2, e2, hr2, hl2, hp2, hc2, hfr2⟩ := rightmost_spec ctx c l z r h.hdr_ne hz hnd
    (by rw [hfr1 z hzh, hzA, hzrec]) (by rw [hr1, hrA, h.hdr, hold])
    (fun hrn => TreeAt_congr (hrT hrn) (fun q hq => ⟨hfr1 q (by
      rintro rfl
      apply hcore.hdr_notin
      rw [hptrs]
      subst hrn
      simp [hq]), rfl⟩)) fuel (by
      rw [hold] at hf
      simp only [List.length_append, List.length_cons] at hf
      omega)
  have hM : MemHolds m2 val hdr (plug ctx2 X) := by
    refine ⟨h.hdr_ne, ?_, hcore.nodup, hcore.hdr_notin, ?_⟩
    · apply TreeAt_congr hcore.tree
      intro q hq
      have hqh : q ≠ hdr := fun e => hcore.hdr_notin (e ▸ hq)
      exact ⟨by rw [hfr2 q hqh, hfr1 q hqh], rfl⟩
    · have f1 : (m2 hdr).mRight = lastD (plug ctx2 X).ptrs hdr := by rw [hr2, hptrs]
      have f2 : (m2 hdr).mLeft = firstD (plug ctx2 X).ptrs hdr := by rw [hl2, hl1, hptrs]
      have f3 : (m2 hdr).mParent = (plug ctx2 X).ptr := by rw [hp2, hp1, hcore.root]
      have f4 : (m2 hdr).mColor = rbtree_color.mRed := by rw [hc2, hc1, hcore.color]
      cases hrec : m2 hdr with
      | mk a b c2 d =>
        rw [hrec] at f1 f2 f3 f4
        simp only at f1 f2 f3 f4
        rw [f1, f2, f3, f4]
  by_cases hyc : yc = rbtree_color.mBlack
  · obtain ⟨m3, e3, h3⟩ := rbtree_delete_fixup_spec ctx2 X m2 fuel hM (hinv hyc hRB) (by
      have := ctx_length_le ctx2
      have h4 := plug_length ctx2 X
      omega)
    refine ⟨m3, ?_, ?_⟩
    · simp only [RBTreeErase, eA, Option.bind_eq_bind, Option.some_bind, e1, e2, hyc, ↓reduceIte,
        e3]
    · rw [he, hyc]
      simp only [delAfter, ↓reduceIte]
      exact h3
  · refine ⟨m2, ?_, ?_⟩
    · simp only [RBTreeErase, eA, Option.bind_eq_bind, Option.some_bind, e1, e2, hyc, ↓reduceIte,
        Option.pure_def]
    · rw [he]
      simp only [delAfter, hyc, ↓reduceIte]
      exact hM

end erase_minmax


/-! ## `erase(position)` -/

set_option autoImplicit false

section erase_position

variable {α : Type}

theorem elems_split_unique {z : Ptr} {v v2 : α} (E1 E2 F1 F2 : List (Ptr × α))
    (h : E1 ++ (z, v) :: E2 = F1 ++ (z, v2) :: F2)
    (hnd : ((E1 ++ (z, v) :: E2).map Prod.fst).Nodup) :
    E1 = F1 ∧ v = v2 ∧ E2 = F2 := by
  induction E1 generalizing F1 with
  | nil =>
    cases F1 with
    | nil =>
      simp only [List.nil_append, List.cons.injEq, Prod.mk.injEq, true_and] at h
      exact ⟨rfl, h.1, h.2⟩
    | cons b F1 =>
      simp only [List.nil_append, List.cons_append, List.cons.injEq] at h
      obtain ⟨rfl, h2⟩ := h
      simp [h2] at hnd
  | cons a E1 ih =>
    cases F1 with
    | nil =>
      simp only [List.nil_append, List.cons_append, List.cons.injEq] at h
      obtain ⟨rfl, h2⟩ := h
      simp at hnd
    | cons b F1 =>
      simp only [List.cons_append, List.cons.injEq] at h
      obtain ⟨rfl, h2⟩ := h
      simp only [List.cons_append, List.map_cons, List.nodup_cons] at hnd
      obtain ⟨e1, e2, e3⟩ := ih F1 h2 hnd.2
      exact ⟨by rw [e1], e2, e3⟩

/-- `erase(position)` on a well-formed red-black tree for the position of the element
`(z, v)`: it returns the position of the next element (`end()` after the last one), and the
tree then holds a red-black shape with the same elements in the same order, but for
`(z, v)`. -/
theorem erase_holds {t : rbtree α} {T : Tr α} (h : t.Holds T) (hrb : RedBlack T)
    (E1 E2 : List (Ptr × α)) (z : Ptr) (v : α) (hsplit : T.elems = E1 ++ (z, v) :: E2)
    (fuel : Nat) (hf : T.ptrs.length + 2 ≤ fuel) :
    ∃ t2 T2, t.erase fuel z = some (firstD (E2.map Prod.fst) t.mEnd, t2) ∧
      t2.Holds T2 ∧ RedBlack T2 ∧ T2.elems = E1 ++ E2 ∧
      t2.mHeader = t.mHeader ∧ t2.brk = t.brk ∧
      (∀ q, q ≠ z → t2.mValue q = t.mValue q) := by
  have hzT : z ∈ T.ptrs := by
    rw [Tr.ptrs_eq_map_elems, hsplit]
    simp
  obtain ⟨ctx, c, l, v2, r, rfl⟩ := Tr.exists_plug_of_mem T z hzT
  have hnd := h.mem.nodup
  have hel := Tr.elems_plug ctx (Tr.node c l z v2 r)
  simp only [Tr.elems, List.append_assoc, List.cons_append] at hel
  have hu := @elems_split_unique α z v v2 E1 E2 (ctxBeforeE ctx ++ l.elems)
    (r.elems ++ ctxAfterE ctx) (by rw [← hsplit, hel]; simp) (by
      rw [← hsplit, ← Tr.ptrs_eq_map_elems]
      exact hnd)
  obtain ⟨rfl, rfl, rfl⟩ := hu
  obtain ⟨-, hz, -⟩ := h.mem.at_node
  have hinc := RBTreeIncrement_spec ctx c l r z v h.mem fuel hf
  obtain ⟨m2, e2, h2⟩ := RBTreeErase_spec ctx c l z v r h.mem hrb fuel hf
  have hT2e := eraseAt_elems ctx c l z v r
  have hT2p : (eraseAt ctx c l z v r).ptrs
      = ctxBefore ctx ++ (l.ptrs ++ r.ptrs) ++ ctxAfter ctx := by
    rw [Tr.ptrs_eq_map_elems, hT2e]
    simp [Tr.ptrs_eq_map_elems, ctxBefore_eq_map, ctxAfter_eq_map]
  have hTp : (plug ctx (Tr.node c l z v r)).ptrs
      = ctxBefore ctx ++ (l.ptrs ++ z :: r.ptrs) ++ ctxAfter ctx := by
    rw [Tr.ptrs_plug]
    rfl
  have hsub : (eraseAt ctx c l z v r).ptrs.Sublist (plug ctx (Tr.node c l z v r)).ptrs := by
    rw [hT2p, hTp]
    exact erase_sublist _ _ _ _ _
  have hzn : z ∉ (eraseAt ctx c l z v r).ptrs := by
    rw [hT2p]
    rw [hTp] at hnd
    simp only [List.nodup_append, List.nodup_cons, List.disjoint_cons_left,
      List.disjoint_cons_right, List.disjoint_append_left, List.disjoint_append_right,
      List.mem_append, List.mem_cons, not_or] at hnd
    simp [hnd]
  refine ⟨{ mem := m2, mValue := Function.update t.mValue z none, mHeader := t.mHeader,
            mSize := t.mSize - 1, brk := t.brk, oom := t.oom }, eraseAt ctx c l z v r,
    ?_, ⟨?_, ?_, ?_, ?_, h.hdr_lt, h.oom⟩, eraseAt_RedBlack ctx c l z v r hrb, ?_, rfl, rfl, ?_⟩
  · simp only [rbtree.erase, hinc, Option.bind_eq_bind, Option.some_bind, e2, DoDestroyNode, hz,
      ↓reduceIte, Option.pure_def, rbtree.mEnd, List.map_append, ← Tr.ptrs_eq_map_elems,
      ← ctxAfter_eq_map]
  · exact ⟨h2.hdr_ne, (TreeAt_update_val_of_not_mem hzn).2 h2.tree, h2.nodup, h2.hdr_notin,
      h2.hdr⟩
  · show Function.update t.mValue z none t.mHeader = none
    by_cases e : t.mHeader = z
    · rw [e]
      simp
    · rw [Function.update_noteq e]
      exact h.hdr_val
  · show t.mSize - 1 = _
    rw [h.size, hT2p, hTp]
    simp only [List.length_append, List.length_cons]
    omega
  · intro p hp
    exact h.fresh p (hsub.subset hp)
  · rw [hT2e]
    simp
  · intro q hq
    exact Function.update_noteq hq _ _

end erase_position


/-! ## `erase(position)` by the place of the node in the traversal; the links of the header -/

set_option autoImplicit false

section erase_nodes

variable {α κ : Type} (KeyOfT : α → κ) (KeyCompare : κ → κ → Bool)

theorem map_fst_split (E : List (Ptr × α)) (pre : List Ptr) (p : Ptr) (suf : List Ptr)
    (h : E.map Prod.fst = pre ++ p :: suf) :
    ∃ E1 v E2, E = E1 ++ (p, v) :: E2 ∧ E1.map Prod.fst = pre ∧ E2.map Prod.fst = suf := by
  induction pre generalizing E with
  | nil =>
    cases E with
    | nil => simp at h
    | cons e E =>
      obtain ⟨q, v⟩ := e
      simp only [List.map_cons, List.nil_append, List.cons.injEq] at h
      obtain ⟨rfl, h2⟩ := h
      exact ⟨[], v, E, rfl, rfl, h2⟩
  | cons a pre ih =>
    cases E with
    | nil => simp at h
    | cons e E =>
      simp only [List.map_cons, List.cons_append, List.cons.injEq] at h
      obtain ⟨E1, v, E2, e1, e2, e3⟩ := ih E h.2
      refine ⟨e :: E1, v, E2, by rw [e1]; rfl, ?_, e3⟩
      simp [h.1, e2]

theorem eraseIdx_middle {β : Type} (l1 : List β) (a : β) (l2 : List β) :
    (l1 ++ a :: l2).eraseIdx l1.length = l1 ++ l2 := by
  rw [List.eraseIdx_append_of_length_le (Nat.le_refl _)]
  simp

/-- `erase(position)` on a valid tree whose traversal visits `pre`, then `p`, then `suf`:
the call returns the node after `p` (`end()` when there is none) and leaves a valid tree
whose traversal visits `pre`, then `suf`, each node with the payload it had. -/
theorem erase_nodes_spec {t : rbtree α} {T : Tr α} (h : t.Holds T)
    (ho : Ordered KeyOfT KeyCompare T.vals) (hrb : RedBlack T)
    (pre : List Ptr) (p : Ptr) (suf : List Ptr) (hsplit : T.ptrs = pre ++ p :: suf)
    (fuel : Nat) (hf : T.ptrs.length + 2 ≤ fuel) :
    ∃ t2 T2, t.erase fuel p = some (firstD suf t.mEnd, t2) ∧
      t2.Holds T2 ∧ Ordered KeyOfT KeyCompare T2.vals ∧ RedBlack T2 ∧
      T2.ptrs = pre ++ suf ∧ T2.vals = T.vals.eraseIdx pre.length ∧
      T2.elems.Sublist T.elems ∧
      t2.mHeader = t.mHeader ∧ t2.brk = t.brk ∧
      (∀ q ∈ pre ++ suf, sValue t2 q = sValue t q) := by
  obtain ⟨E1, v, E2, e1, e2, e3⟩ := map_fst_split T.elems pre p suf
    (by rw [← Tr.ptrs_eq_map_elems]; exact hsplit)
  obtain ⟨t2, T2, he, h2, hrb2, hel, hh, hb, -⟩ := erase_holds h hrb E1 E2 p v e1 fuel hf
  have hsub : T2.elems.Sublist T.elems := by
    rw [hel, e1]
    exact List.Sublist.append_left (List.sublist_cons_self _ _) _
  refine ⟨t2, T2, ?_, h2, ?_, hrb2, ?_, ?_, hsub, hh, hb, ?_⟩
  · rw [he, e3]
  · rw [Tr.vals_eq_map_elems]
    rw [Tr.vals_eq_map_elems] at ho
    exact List.Pairwise.sublist (hsub.map _) ho
  · rw [Tr.ptrs_eq_map_elems, hel, List.map_append, e2, e3]
  · rw [Tr.vals_eq_map_elems, Tr.vals_eq_map_elems, hel, e1, List.map_append, List.map_append,
      List.map_cons, ← e2, List.length_map, ← List.length_map E1 Prod.snd, eraseIdx_middle]
  · intro q hq
    have hq2 : q ∈ T2.ptrs := by
      rw [Tr.ptrs_eq_map_elems, hel, List.map_append, e2, e3]
      exact hq
    rw [Tr.ptrs_eq_map_elems] at hq2
    obtain ⟨e, hem, rfl⟩ := List.mem_map.1 hq2
    rw [TreeAt_sValue_elems h2.mem.tree e hem,
      TreeAt_sValue_elems h.mem.tree e (hsub.subset hem)]

end erase_nodes

section header_links

variable {α : Type}

/-- The header of a well-formed tree caches the root, the first and the last node of the
traversal; with no node both cached links are the header itself and the root link is
null. -/
theorem Holds_links {t : rbtree α} {T : Tr α} (h : t.Holds T) :
    t.mRoot = T.ptr ∧ t.mLeftMost = firstD T.ptrs t.mHeader ∧
      t.mRightMost = lastD T.ptrs t.mHeader ∧
      (T.ptrs = [] → t.mRoot = 0 ∧ t.mLeftMost = t.mHeader ∧ t.mRightMost = t.mHeader) := by
  refine ⟨by simp [rbtree.mRoot, h.mem.hdr], by simp [rbtree.mLeftMost, h.mem.hdr],
    by simp [rbtree.mRightMost, h.mem.hdr], ?_⟩
  intro he
  cases T with
  | nil => simp [rbtree.mRoot, rbtree.mLeftMost, rbtree.mRightMost, h.mem.hdr, Tr.ptr, Tr.ptrs,
      firstD, lastD]
  | node c l p v r => simp [Tr.ptrs] at he

theorem Tr.ne_nil_of_ptrs {T : Tr α} (hne : T.ptrs ≠ []) : T ≠ Tr.nil := by
  rintro rfl
  exact hne rfl

/-- On a well-formed tree with at least one node, the descent from the root along the left
links ends at the node cached as leftmost, the descent along the right links at the node
cached as rightmost, and the step back from `end()` gives the last node. -/
theorem Holds_extremes {t : rbtree α} {T : Tr α} (h : t.Holds T) (hne : T.ptrs ≠ [])
    (fuel : Nat) (hf : T.ptrs.length ≤ fuel) :
    sMinimum t.mem fuel t.mRoot = some t.mLeftMost ∧
      sMaximum t.mem fuel t.mRoot = some t.mRightMost ∧
      t.begin = firstD T.ptrs t.mHeader ∧
      RBTreeDecrement t.mem fuel t.mEnd = some (lastD T.ptrs t.mHeader) := by
  obtain ⟨hr, hl, hR, -⟩ := Holds_links h
  have hT := Tr.ne_nil_of_ptrs hne
  have hmin := rbtree_min_spec T _ h.mem.tree hT fuel hf
  have hmax := rbtree_max_spec T _ h.mem.tree hT fuel hf
  refine ⟨?_, ?_, hl, ?_⟩
  · rw [sMinimum, hr, hmin, hl]
    cases hp : T.ptrs with
    | nil => exact absurd hp hne
    | cons a l => rfl
  · rw [sMaximum, hr, hmax, hR]
    cases hg : T.ptrs.getLast? with
    | none => exact absurd (List.getLast?_eq_none_iff.1 hg) hne
    | some y => rw [lastD_of_getLast? _ _ _ hg]
  · cases T with
    | nil => exact absurd rfl hT
    | node c l p v r =>
      obtain ⟨hp, hpar, -, -, -⟩ := h.mem.tree
      simp only [RBTreeDecrement, node_is_rbtree_header, rbtree.mEnd, rd_of_ne h.mem.hdr_ne,
        h.mem.hdr, Tr.ptr_node, rd_of_ne hp, hpar, Option.bind_eq_bind, Option.some_bind,
        Option.pure_def, decide_True, Bool.and_self, ↓reduceIte]

end header_links


/-! ## The concrete trees built by `treeOfList` are valid -/

set_option autoImplicit false

theorem insert_fold_valid : ∀ (l : List Nat) (t : rbtree Nat) (T : Tr Nat), t.Holds T →
    Ordered id natLess T.vals → RedBlack T → T.ptrs.length + l.length + 1 ≤ 40 →
    (l.foldl (fun t v => match t.DoInsertUnique id natLess 40 v with
      | some (_, t2) => t2
      | none => t) t).Valid id natLess := by
  intro l
  induction l with
  | nil =>
    intro t T h ho hrb _
    exact ⟨T, h, ho, hrb⟩
  | cons v l ih =>
    intro t T h ho hrb hlen
    simp only [List.length_cons] at hlen
    rw [List.foldl_cons]
    rcases DoInsertUnique_holds id natLess natLess_swo h ho hrb v 40 (by omega) with
      ⟨e, -, -, -, he⟩ | ⟨-, t2, T2, he, h2, ho2, hrb2, -, hvals⟩
    · rw [he]
      exact ih t T h ho hrb (by omega)
    · rw [he]
      refine ih t2 T2 h2 ho2 hrb2 ?_
      have : T2.ptrs.length = T.ptrs.length + 1 := by
        rw [← Tr.vals_length, hvals, takeWhile_dropWhile_length, Tr.vals_length]
      omega

/-- The tree built by at most 39 insertions with fuel 40 is valid. -/
theorem treeOfList_valid (l : List Nat) (hl : l.length ≤ 39) :
    (treeOfList l).Valid id natLess :=
  insert_fold_valid l rbtree.init Tr.nil init_holds (by simp [Ordered, Tr.vals]) RedBlack_nil
    (by simp only [Tr.ptrs, List.length_nil]; omega)


/-! ## What insertions and erasures leave in place -/

set_option autoImplicit false

section keep_nodes

variable {α κ : Type} (KeyOfT : α → κ) (KeyCompare : κ → κ → Bool)

theorem head?_eq_firstD {β : Type} (l : List β) (d : β) (h : l ≠ []) :
    l.head? = some (firstD l d) := by
  cases l with
  | nil => exact absurd rfl h
  | cons a l => rfl

theorem getLast?_eq_lastD {β : Type} (l : List β) (d : β) (h : l ≠ []) :
    l.getLast? = some (lastD l d) := by
  cases hg : l.getLast? with
  | none => exact absurd (List.getLast?_eq_none_iff.1 hg) h
  | some y => rw [lastD_of_getLast? _ _ _ hg]

/-- On a well-formed tree the header caches the ends of the traversal: the links of an
empty tree point to the header and its root link is null; otherwise the leftmost link,
`begin()` and the descent along the left links from the root give the first visited node,
the rightmost link, the descent along the right links and the step back from `end()` the
last one. -/
theorem Holds_header {t : rbtree α} {T : Tr α} (h : t.Holds T) (fuel : Nat)
    (hf : T.ptrs.length + 2 ≤ fuel) :
    t.nodes fuel = some T.ptrs ∧ t.mEnd ∉ T.ptrs ∧
      (T.ptrs = [] → t.mLeftMost = t.mEnd ∧ t.mRightMost = t.mEnd ∧ t.mRoot = 0 ∧
        t.begin = t.mEnd) ∧
      (T.ptrs ≠ [] → some t.mLeftMost = T.ptrs.head? ∧ some t.begin = T.ptrs.head? ∧
        sMinimum t.mem fuel t.mRoot = T.ptrs.head? ∧
        some t.mRightMost = T.ptrs.getLast? ∧
        sMaximum t.mem fuel t.mRoot = T.ptrs.getLast? ∧
        RBTreeDecrement t.mem fuel t.mEnd = T.ptrs.getLast?) := by
  obtain ⟨hr, hl, hR, hem⟩ := Holds_links h
  refine ⟨nodes_spec h fuel hf, h.mem.hdr_notin, ?_, ?_⟩
  · intro he
    obtain ⟨h1, h2, h3⟩ := hem he
    exact ⟨h2, h3, h1, h2⟩
  · intro hne
    obtain ⟨h1, h2, h3, h4⟩ := Holds_extremes h hne fuel (by omega)
    rw [head?_eq_firstD _ t.mHeader hne, getLast?_eq_lastD _ t.mHeader hne]
    refine ⟨by rw [hl], by rw [h3], by rw [h1, hl], by rw [hR], by rw [h2, hR], h4⟩

/-- The tree after `DoInsertUnique(value)` on a valid tree: the call returns and leaves a
valid tree with the same header whose elements are the previous ones, in their order and on
their nodes, with at most one new element. -/
theorem DoInsertUnique_keeps {t : rbtree α} {T : Tr α} (hswo : StrictWeakOrder KeyCompare)
    (h : t.Holds T) (ho : Ordered KeyOfT KeyCompare T.vals) (hrb : RedBlack T) (value : α)
    (fuel : Nat) (hf : T.ptrs.length + 1 ≤ fuel) :
    ∃ r t2 T2, t.DoInsertUnique KeyOfT KeyCompare fuel value = some (r, t2) ∧
      t2.Holds T2 ∧ Ordered KeyOfT KeyCompare T2.vals ∧ RedBlack T2 ∧
      t2.mHeader = t.mHeader ∧ T.elems.Sublist T2.elems ∧
      T2.ptrs.length ≤ T.ptrs.length + 1 := by
  rcases DoInsertUnique_frame KeyOfT KeyCompare hswo h ho hrb value fuel hf with
    ⟨e, -, -, -, he⟩ | ⟨-, t2, T2, he, h2, ho2, hrb2, -, -, hh, E1, E2, e1, e2⟩
  · exact ⟨_, t, T, he, h, ho, hrb, rfl, List.Sublist.refl _, Nat.le_succ _⟩
  · refine ⟨_, t2, T2, he, h2, ho2, hrb2, hh, ?_, ?_⟩
    · rw [e1, e2]
      exact List.Sublist.append_left (List.sublist_cons_self _ _) _
    · rw [Tr.ptrs_eq_map_elems, Tr.ptrs_eq_map_elems, e1, e2]
      simp only [List.map_append, List.map_cons, List.length_append, List.length_cons,
        List.length_map]
      omega

/-- The tree after `DoInsertMulti(value)` on a valid tree: the call returns and leaves a
valid tree with the same header whose elements are the previous ones, in their order and on
their nodes, and one new element. -/
theorem DoInsertMulti_keeps {t : rbtree α} {T : Tr α} (hswo : StrictWeakOrder KeyCompare)
    (h : t.Holds T) (ho : Ordered KeyOfT KeyCompare T.vals) (hrb : RedBlack T) (value : α)
    (fuel : Nat) (hf : T.ptrs.length + 1 ≤ fuel) :
    ∃ r t2 T2, t.DoInsertMulti KeyOfT KeyCompare fuel value = some (r, t2) ∧
      t2.Holds T2 ∧ Ordered KeyOfT KeyCompare T2.vals ∧ RedBlack T2 ∧
      t2.mHeader = t.mHeader ∧ T.elems.Sublist T2.elems ∧
      T2.ptrs.length ≤ T.ptrs.length + 1 := by
  obtain ⟨t2, T2, he, h2, ho2, hrb2, -, -, hh, E1, E2, e1, e2⟩ :=
    DoInsertMulti_frame KeyOfT KeyCompare hswo h ho hrb value fuel hf
  refine ⟨_, t2, T2, he, h2, ho2, hrb2, hh, ?_, ?_⟩
  · rw [e1, e2]
    exact List.Sublist.append_left (List.sublist_cons_self _ _) _
  · rw [Tr.ptrs_eq_map_elems, Tr.ptrs_eq_map_elems, e1, e2]
    simp only [List.map_append, List.map_cons, List.length_append, List.length_cons,
      List.length_map]
    omega

/-- Two well-formed trees of which the second holds the elements of the first, in their
order: the traversal of the second visits the nodes of the first in their order, and each
of them has the payload it had. -/
theorem Holds_sublist {t t2 : rbtree α} {T T2 : Tr α} (h : t.Holds T) (h2 : t2.Holds T2)
    (hs : T.elems.Sublist T2.elems) :
    T.ptrs.Sublist T2.ptrs ∧ ∀ q ∈ T.ptrs, sValue t2 q = sValue t q := by
  refine ⟨?_, ?_⟩
  · rw [Tr.ptrs_eq_map_elems, Tr.ptrs_eq_map_elems]
    exact hs.map _
  · intro q hq
    rw [Tr.ptrs_eq_map_elems] at hq
    obtain ⟨e, hem, rfl⟩ := List.mem_map.1 hq
    rw [TreeAt_sValue_elems h.mem.tree e hem, TreeAt_sValue_elems h2.mem.tree e (hs.subset hem)]

end keep_nodes


/-! ## The reference traversal of a well-formed tree -/

set_option autoImplicit false

section reference_traversal

variable {α : Type}

theorem inorder_spec {m : Mem} {val : Ptr → Option α} (T : Tr α) (par : Ptr)
    (h : TreeAt m val T par) (fuel : Nat) (hf : T.ptrs.length + 1 ≤ fuel) :
    inorder m fuel T.ptr = some T.ptrs := by
  induction T generalizing par fuel with
  | nil =>
    cases fuel with
    | zero => omega
    | succ fuel => simp [inorder, Tr.ptr, Tr.ptrs]
  | node c l p v r ihl ihr =>
    obtain ⟨hp, hrec, -, hl, hr⟩ := h
    cases fuel with
    | zero => omega
    | succ fuel =>
      simp only [Tr.ptrs, List.length_append, List.length_cons] at hf
      have e1 := ihl p hl fuel (by omega)
      have e2 := ihr p hr fuel (by omega)
      simp only [inorder, Tr.ptr_node, hp, ↓reduceIte, rd_of_ne hp, hrec, Option.bind_eq_bind,
        Option.some_bind, e1, e2, Option.pure_def, Tr.ptrs]

/-- The reference traversal from the root of a well-formed tree visits the nodes of its
shape. -/
theorem Holds_inorder {t : rbtree α} {T : Tr α} (h : t.Holds T) (fuel : Nat)
    (hf : T.ptrs.length + 1 ≤ fuel) : inorder t.mem fuel t.mRoot = some T.ptrs := by
  rw [(Holds_links h).1]
  exact inorder_spec T _ h.mem.tree fuel hf

end reference_traversal


/-! ## Nodes and payloads stay in place -/

set_option autoImplicit false

section stay

variable {α κ : Type}

/-- `DoInsertUnique(value)`, `DoInsertMulti(value)` and `erase(p)` on a valid tree move no
payload: with `ns` the nodes visited from `begin()` to `end()`, after an insertion the
traversal still visits the nodes of `ns` in their order (with at most one more node among
them) and each has the payload it had; after `erase(p)` it visits the nodes of `ns` other
than `p`, in their order, and each has the payload it had. -/
theorem insert_erase_keep_nodes (KeyOfT : α → κ) (KeyCompare : κ → κ → Bool)
    (hswo : StrictWeakOrder KeyCompare) (t : rbtree α) (hv : t.Valid KeyOfT KeyCompare) :
    ∃ ns : List Ptr, ∃ N : Nat, ∀ fuel, N ≤ fuel →
      t.nodes fuel = some ns ∧
      (∀ value, ∃ r t2 ns2, t.DoInsertUnique KeyOfT KeyCompare fuel value = some (r, t2) ∧
        t2.nodes fuel = some ns2 ∧ ns.Sublist ns2 ∧ ns2.length ≤ ns.length + 1 ∧
        ∀ q ∈ ns, sValue t2 q = sValue t q) ∧
      (∀ value, ∃ r t2 ns2, t.DoInsertMulti KeyOfT KeyCompare fuel value = some (r, t2) ∧
        t2.nodes fuel = some ns2 ∧ ns.Sublist ns2 ∧ ns2.length ≤ ns.length + 1 ∧
        ∀ q ∈ ns, sValue t2 q = sValue t q) ∧
      (∀ pre p suf, ns = pre ++ p :: suf →
        ∃ r t2, t.erase fuel p = some (r, t2) ∧ t2.nodes fuel = some (pre ++ suf) ∧
          ∀ q ∈ pre ++ suf, sValue t2 q = sValue t q) := by
  obtain ⟨T, h, ho, hrb⟩ := hv
  refine ⟨T.ptrs, T.ptrs.length + 3, fun fuel hf => ⟨nodes_spec h fuel (by omega), ?_, ?_, ?_⟩⟩
  · intro value
    obtain ⟨r, t2, T2, he, h2, -, -, -, hs, hl⟩ :=
      DoInsertUnique_keeps KeyOfT KeyCompare hswo h ho hrb value fuel (by omega)
    obtain ⟨hs1, hs2⟩ := Holds_sublist h h2 hs
    exact ⟨r, t2, T2.ptrs, he, nodes_spec h2 fuel (by omega), hs1, hl, hs2⟩
  · intro value
    obtain ⟨r, t2, T2, he, h2, -, -, -, hs, hl⟩ :=
      DoInsertMulti_keeps KeyOfT KeyCompare hswo h ho hrb value fuel (by omega)
    obtain ⟨hs1, hs2⟩ := Holds_sublist h h2 hs
    exact ⟨r, t2, T2.ptrs, he, nodes_spec h2 fuel (by omega), hs1, hl, hs2⟩
  · intro pre p suf hsplit
    obtain ⟨t2, T2, he, h2, -, -, hp2, -, -, -, -, hval⟩ :=
      erase_nodes_spec KeyOfT KeyCompare h ho hrb pre p suf hsplit fuel (by omega)
    refine ⟨_, t2, he, ?_, hval⟩
    rw [← hp2]
    refine nodes_spec h2 fuel ?_
    have : T2.ptrs.length ≤ T.ptrs.length := by
      rw [hp2, hsplit]
      simp only [List.length_append, List.length_cons]
      omega
    omega

end stay


/-! ## `erase(first, last)` and `erase(key)` -/

set_option autoImplicit false

section erase_key

variable {α κ : Type} (KeyOfT : α → κ) (KeyCompare : κ → κ → Bool)

theorem firstD_mem_or {β : Type} (l : List β) (d : β) : firstD l d ∈ l ∨ firstD l d = d := by
  cases l with
  | nil => exact Or.inr rfl
  | cons a l => exact Or.inl (List.mem_cons_self _ _)

/-- The loop of `erase(first, last)` over a run `E2` of the in-order sequence, from its
first node to the node after it: the nodes of the run are erased one by one, the rest of
the tree keeps its order, and the tree stays a red-black tree. -/
theorem erase_range_spec (fuel0 : Nat) : ∀ (E2 : List (Ptr × α)) (t : rbtree α) (T : Tr α)
    (E1 E3 : List (Ptr × α)), t.Holds T → RedBlack T → T.elems = E1 ++ E2 ++ E3 →
    T.ptrs.length + 2 ≤ fuel0 → ∀ (fuel : Nat), E2.length + 1 ≤ fuel →
    ∃ t2 T2, rbtree.erase_range fuel0 fuel t (firstD ((E2 ++ E3).map Prod.fst) t.mEnd)
        (firstD (E3.map Prod.fst) t.mEnd) = some (firstD (E3.map Prod.fst) t.mEnd, t2) ∧
      t2.Holds T2 ∧ RedBlack T2 ∧ T2.elems = E1 ++ E3 ∧ t2.mHeader = t.mHeader := by
  intro E2
  induction E2 with
  | nil =>
    intro t T E1 E3 h hrb hE hf0 fuel hf
    cases fuel with
    | zero => omega
    | succ fuel =>
      refine ⟨t, T, ?_, h, hrb, by simpa using hE, rfl⟩
      simp [rbtree.erase_range]
  | cons e E2 ih =>
    intro t T E1 E3 h hrb hE hf0 fuel hf
    obtain ⟨p, v⟩ := e
    simp only [List.length_cons] at hf
    cases fuel with
    | zero => omega
    | succ fuel =>
      have hE2 : T.elems = E1 ++ (p, v) :: (E2 ++ E3) := by
        rw [hE]
        simp
      have hnd := h.mem.nodup
      have hhn := h.mem.hdr_notin
      rw [Tr.ptrs_eq_map_elems, hE2] at hnd hhn
      simp only [List.map_append, List.map_cons, List.nodup_append, List.nodup_cons,
        List.mem_append, not_or, List.disjoint_cons_right, List.mem_cons] at hnd hhn
      have hne : p ≠ firstD (E3.map Prod.fst) t.mEnd := by
        intro e
        rcases firstD_mem_or (E3.map Prod.fst) t.mEnd with hm | hm
        · rw [← e] at hm
          exact hnd.2.1.1.2 hm
        · rw [← e] at hm
          exact hhn.2.1 hm.symm
      obtain ⟨t2, T2, he, h2, hrb2, hel, hh, -, -⟩ :=
        erase_holds h hrb E1 (E2 ++ E3) p v hE2 fuel0 hf0
      have hlen : T2.ptrs.length ≤ T.ptrs.length := by
        rw [Tr.ptrs_eq_map_elems, Tr.ptrs_eq_map_elems, hel, hE2]
        simp
      obtain ⟨t3, T3, he3, h3, hrb3, hel3, hh3⟩ :=
        ih t2 T2 E1 E3 h2 hrb2 (by rw [hel, List.append_assoc]) (by omega) fuel (by omega)
      refine ⟨t3, T3, ?_, h3, hrb3, hel3, hh3.trans hh⟩
      have hend : t2.mEnd = t.mEnd := hh
      rw [hend] at he3
      simp only [rbtree.erase_range, List.cons_append, List.map_cons, firstD_cons, hne,
        ↓reduceIte, he, Option.bind_eq_bind, Option.some_bind, he3]

/-- `erase(key)` on a valid tree, in terms of the split of the in-order sequence into the
elements with a key less than, equivalent to and greater than `key`: the call returns the
number of the equivalent ones, and leaves a valid tree that holds the other elements in
their order. -/
theorem erase_key_holds (hswo : StrictWeakOrder KeyCompare) {t : rbtree α} {T : Tr α}
    (h : t.Holds T) (ho : Ordered KeyOfT KeyCompare T.vals) (hrb : RedBlack T) (key : κ)
    (fuel : Nat) (hf : T.ptrs.length + 2 ≤ fuel) :
    ∃ (E1 E2 E3 : List (Ptr × α)) (t2 : rbtree α) (T2 : Tr α), T.elems = E1 ++ E2 ++ E3 ∧
      (∀ e ∈ E2, KeyCompare (KeyOfT e.2) key = false ∧ KeyCompare key (KeyOfT e.2) = false) ∧
      (∀ e ∈ E1, KeyCompare (KeyOfT e.2) key = true) ∧
      (∀ e ∈ E3, KeyCompare key (KeyOfT e.2) = true) ∧
      t.erase_key KeyOfT KeyCompare fuel key = some (E2.length, t2) ∧
      t2.Holds T2 ∧ Ordered KeyOfT KeyCompare T2.vals ∧ RedBlack T2 ∧
      T2.elems = E1 ++ E3 ∧ t2.mHeader = t.mHeader := by
  obtain ⟨E1, E2, E3, hE, h2, h1, h3, hfu⟩ :=
    equal_range_split_full KeyOfT KeyCompare hswo h ho key
  obtain ⟨-, -, her⟩ := hfu fuel (by omega)
  have hlenT : T.ptrs.length = E1.length + E2.length + E3.length := by
    rw [Tr.ptrs_eq_map_elems, hE]
    simp only [List.map_append, List.length_append, List.length_map]
  obtain ⟨t2, T2, he, hh2, hrb2, hel, hh⟩ :=
    erase_range_spec fuel E2 t T E1 E3 h hrb hE hf fuel (by omega)
  have hlenT2 : T2.ptrs.length = E1.length + E3.length := by
    rw [Tr.ptrs_eq_map_elems, hel]
    simp only [List.map_append, List.length_append, List.length_map]
  refine ⟨E1, E2, E3, t2, T2, hE, h2, h1, h3, ?_, hh2, ?_, hrb2, hel, hh⟩
  · have hsz : t.size - t2.size = E2.length := by
      show t.mSize - t2.mSize = _
      rw [h.size, hh2.size, hlenT, hlenT2]
      omega
    simp only [rbtree.erase_key, her, Option.bind_eq_bind, Option.some_bind, he,
      Option.pure_def, hsz]
  · rw [Tr.vals_eq_map_elems, hel]
    rw [Tr.vals_eq_map_elems, hE] at ho
    refine List.Pairwise.sublist (List.Sublist.map _ ?_) ho
    rw [List.append_assoc]
    exact List.Sublist.append_left (List.sublist_append_right _ _) _

end erase_key


/-! ## Filtering a sequence split by a key -/

set_option autoImplicit false

theorem filter_three {β : Type} (P : β → Bool) (l1 l2 l3 : List β)
    (h1 : ∀ e ∈ l1, P e = false) (h2 : ∀ e ∈ l2, P e = true) (h3 : ∀ e ∈ l3, P e = false) :
    (l1 ++ l2 ++ l3).filter P = l2 ∧ (l1 ++ l2 ++ l3).filter (fun e => !P e) = l1 ++ l3 := by
  have a1 : l1.filter P = [] := List.filter_eq_nil_iff.2 (by intro e he; simp [h1 e he])
  have a2 : l2.filter P = l2 := List.filter_eq_self.2 h2
  have a3 : l3.filter P = [] := List.filter_eq_nil_iff.2 (by intro e he; simp [h3 e he])
  have b1 : l1.filter (fun e => !P e) = l1 :=
    List.filter_eq_self.2 (by intro e he; simp [h1 e he])
  have b2 : l2.filter (fun e => !P e) = [] :=
    List.filter_eq_nil_iff.2 (by intro e he; simp [h2 e he])
  have b3 : l3.filter (fun e => !P e) = l3 :=
    List.filter_eq_self.2 (by intro e he; simp [h3 e he])
  simp only [List.filter_append, a1, a2, a3, b1, b2, b3, List.nil_append, List.append_nil,
    and_self]


/-! ## `RBTreeBlackCount` and `validate()` on a valid tree -/

set_option autoImplicit false

section black_count

variable {α : Type}

theorem Frame.fill_color (f : Frame α) (X : Tr α) : (f.fill X).color = f.color := by
  cases f <;> rfl

theorem Frame.fill_ne_nil (f : Frame α) (X : Tr α) : f.fill X ≠ Tr.nil := by
  cases f <;> simp [Frame.fill]

/-- The black height of a tree is the black height of a subtree plus the number of black
nodes above it. -/
theorem blackHeight_plug : ∀ (ctx : List (Frame α)) (X : Tr α) (n : Nat),
    (plug ctx X).blackHeight n → ∃ k, X.blackHeight k ∧ n = k + ctxBlacks ctx := by
  intro ctx
  induction ctx with
  | nil =>
    intro X n h
    exact ⟨n, h, rfl⟩
  | cons f rest ih =>
    intro X n h
    obtain ⟨k1, h1, e1⟩ := ih (f.fill X) n h
    cases f with
    | L c p v r =>
      obtain ⟨k, hk, -, e⟩ := (Tr.blackHeight_node c X r p v k1).1 h1
      refine ⟨k, hk, ?_⟩
      simp only [ctxBlacks, Frame.color]
      split_ifs at e ⊢ <;> omega
    | R c l p v =>
      obtain ⟨k, -, hk, e⟩ := (Tr.blackHeight_node c l X p v k1).1 h1
      refine ⟨k, hk, ?_⟩
      simp only [ctxBlacks, Frame.color]
      split_ifs at e ⊢ <;> omega

theorem TreeAt_color {m : Mem} {val : Ptr → Option α} {X : Tr α} {par : Ptr}
    (h : TreeAt m val X par) (hX : X ≠ Tr.nil) : X.ptr ≠ 0 ∧ (m X.ptr).mColor = X.color := by
  cases X with
  | nil => exact absurd rfl hX
  | node c l p v r =>
    obtain ⟨hp, hrec, -⟩ := h
    exact ⟨hp, by rw [Tr.ptr_node, hrec]; rfl⟩

/-- `RBTreeBlackCount(root, x)` from a node `x` of a well-formed tree: the number of black
nodes from `x` up to the root, both included, is added to the count. -/
theorem RBTreeBlackCount_spec {m : Mem} {val : Ptr → Option α} {hdr : Ptr} :
    ∀ (ctx : List (Frame α)) (X : Tr α) (acc fuel : Nat), X ≠ Tr.nil →
    MemHolds m val hdr (plug ctx X) → ctx.length + 1 ≤ fuel →
    RBTreeBlackCount m (plug ctx X).ptr fuel X.ptr acc =
      some (acc + (if X.color = rbtree_color.mBlack then 1 else 0) + ctxBlacks ctx) := by
  intro ctx
  induction ctx with
  | nil =>
    intro X acc fuel hX h hf
    have h2 : MemHolds m val hdr X := h
    obtain ⟨hp, hc⟩ := TreeAt_color h2.tree hX
    cases fuel with
    | zero => omega
    | succ fuel =>
      simp only [plug, RBTreeBlackCount, hp, ↓reduceIte, hc, ctxBlacks, Nat.add_zero]
      split_ifs <;> rfl
  | cons f rest ih =>
    intro X acc fuel hX h hf
    simp only [List.length_cons] at hf
    cases fuel with
    | zero => omega
    | succ fuel =>
      have hne := hole_ne_root f rest X h
      have hrec := ih (f.fill X) (if X.color = rbtree_color.mBlack then acc + 1 else acc) fuel
        (Frame.fill_ne_nil f X) h (by omega)
      have hpar : (m X.ptr).mParent = f.ptr ∧ X.ptr ≠ 0 ∧ (m X.ptr).mColor = X.color := by
        cases X with
        | nil => exact absurd rfl hX
        | node c l p v r =>
          obtain ⟨-, hp, hr, -⟩ := h.at_node
          exact ⟨by rw [Tr.ptr_node, hr]; rfl, hp, by rw [Tr.ptr_node, hr]; rfl⟩
      rw [Tr.ptr_fill, Frame.fill_color] at hrec
      have hpl : (plug (f :: rest) X).ptr = (plug rest (f.fill X)).ptr := rfl
      simp only [RBTreeBlackCount, hpar.2.1, ↓reduceIte, hpar.2.2, hne, hpar.1]
      rw [hpl, hrec, ctxBlacks]
      congr 1
      split_ifs <;> omega

/-- On a red-black tree every node with a null child link has the same count: the black
height of the tree. -/
theorem RBTreeBlackCount_leaf {m : Mem} {val : Ptr → Option α} {hdr : Ptr}
    (ctx : List (Frame α)) (c : rbtree_color) (l : Tr α) (x : Ptr) (v : α) (r : Tr α)
    (h : MemHolds m val hdr (plug ctx (Tr.node c l x v r))) (n : Nat)
    (hb : (plug ctx (Tr.node c l x v r)).blackHeight n) (hnil : l = Tr.nil ∨ r = Tr.nil)
    (fuel : Nat) (hf : ctx.length + 1 ≤ fuel) :
    RBTreeBlackCount m (plug ctx (Tr.node c l x v r)).ptr fuel x 0 = some n := by
  have e := RBTreeBlackCount_spec ctx (Tr.node c l x v r) 0 fuel (by simp) h hf
  rw [Tr.ptr_node] at e
  rw [e]
  obtain ⟨k, hk, en⟩ := blackHeight_plug ctx _ n hb
  obtain ⟨k2, hl, hr, e2⟩ := (Tr.blackHeight_node c l r x v k).1 hk
  have hk2 : k2 = 0 := by
    rcases hnil with rfl | rfl
    · exact hl
    · exact hr
  rw [Tr.color_node, en, e2, hk2]
  congr 1
  split_ifs <;> omega

end black_count


/-! ## `validate()` on a valid tree -/

set_option autoImplicit false

section validate

variable {α κ : Type} (KeyOfT : α → κ) (KeyCompare : κ → κ → Bool)

theorem compareNodes_of {t : rbtree α} {a b : Ptr} {ka kb : κ}
    (ha : sKey KeyOfT t a = some ka) (hb : sKey KeyOfT t b = some kb) :
    compareNodes KeyOfT KeyCompare t a b = some (KeyCompare ka kb) := by
  simp [compareNodes, ha, hb]

/-- What `validate()` reads at a child link of a node of a well-formed tree. -/
theorem child_reads {t : rbtree α} {X : Tr α} {par : Ptr}
    (h : TreeAt t.mem t.mValue X par) :
    (X = Tr.nil ∧ X.ptr = 0) ∨
    (∃ vx, X.ptr ≠ 0 ∧ sKey KeyOfT t X.ptr = some (KeyOfT vx) ∧ vx ∈ X.vals ∧
      (t.mem X.ptr).mColor = X.color) := by
  cases X with
  | nil => exact Or.inl ⟨rfl, rfl⟩
  | node c l p v r =>
    right
    obtain ⟨hp, hk, -, -⟩ := TreeAt.reads KeyOfT h
    refine ⟨v, hp, hk, by simp [Tr.vals], ?_⟩
    rw [Tr.ptr_node, h.2.1]
    rfl

/-- The body of the loop of `validate()` passes at every node of a valid tree. -/
theorem validate_node_spec {t : rbtree α} (ctx : List (Frame α)) (c : rbtree_color)
    (l : Tr α) (x : Ptr) (v : α) (r : Tr α)
    (h : t.Holds (plug ctx (Tr.node c l x v r)))
    (ho : Ordered KeyOfT KeyCompare (plug ctx (Tr.node c l x v r)).vals)
    (hnrr : (plug ctx (Tr.node c l x v r)).noRedRed) (n : Nat)
    (hb : (plug ctx (Tr.node c l x v r)).blackHeight n)
    (fuel : Nat) (hf : ctx.length + 1 ≤ fuel) :
    validate_node KeyOfT KeyCompare t fuel n x = some true := by
  obtain ⟨-, hx, hrec, hv, hl, hr, -, -⟩ := h.mem.at_node
  have hkx : sKey KeyOfT t x = some (KeyOfT v) := by simp [sKey, sValue, hx, hv]
  have hon : Ordered KeyOfT KeyCompare (Tr.node c l x v r).vals := by
    rw [Tr.vals_plug] at ho
    exact (List.pairwise_append.1 (List.pairwise_append.1 ho).1).2.1
  obtain ⟨-, -, hol, hor⟩ := Ordered.node hon
  obtain ⟨hnode, -⟩ := (plug_RB_iff ctx _).1 ⟨hnrr, n, hb⟩
  obtain ⟨hred, -, -⟩ := hnode
  have hroot : t.mRoot = (plug ctx (Tr.node c l x v r)).ptr := (Holds_links h).1
  have hcount := fun hnil => RBTreeBlackCount_leaf ctx c l x v r h.mem n hb hnil fuel hf
  rw [← hroot] at hcount
  have hcol : ¬ (c ≠ rbtree_color.mRed ∧ c ≠ rbtree_color.mBlack) := by
    cases c <;> simp
  rcases child_reads KeyOfT hl with ⟨hl0, hlp⟩ | ⟨vl, hlp, hlk, hlm, hlc⟩ <;>
  rcases child_reads KeyOfT hr with ⟨hr0, hrp⟩ | ⟨vr, hrp, hrk, hrm, hrc⟩
  · simp only [validate_node, rd_of_ne hx, hrec, Option.bind_eq_bind, Option.some_bind, hlp,
      hrp, ne_eq, not_true_eq_false, ↓reduceIte, Option.pure_def, Bool.false_eq_true, hcol,
      false_and, or_self, and_false, and_self, hcount (Or.inl hl0), decide_True]
  · have k1 := compareNodes_of KeyOfT KeyCompare hrk hkx
    have k2 := compareNodes_of KeyOfT KeyCompare hkx hrk
    have hredr : ¬ (c = rbtree_color.mRed ∧ r.color = rbtree_color.mRed) := by
      rintro ⟨h1, h2⟩
      rw [(hred h1).2] at h2
      cases h2
    simp only [validate_node, rd_of_ne hx, hrec, Option.bind_eq_bind, Option.some_bind, hlp,
      hrp, ne_eq, not_true_eq_false, not_false_eq_true, ↓reduceIte, Option.pure_def,
      Bool.false_eq_true, hcol, false_and, or_false, and_false, and_self, true_and, k1, k2,
      hor vr hrm, Bool.false_and, hrc, hredr]
  · have k1 := compareNodes_of KeyOfT KeyCompare hlk hkx
    have k2 := compareNodes_of KeyOfT KeyCompare hkx hlk
    have hredl : ¬ (c = rbtree_color.mRed ∧ l.color = rbtree_color.mRed) := by
      rintro ⟨h1, h2⟩
      rw [(hred h1).1] at h2
      cases h2
    simp only [validate_node, rd_of_ne hx, hrec, Option.bind_eq_bind, Option.some_bind, hlp,
      hrp, ne_eq, not_true_eq_false, not_false_eq_true, ↓reduceIte, Option.pure_def,
      Bool.false_eq_true, hcol, false_and, false_or, and_false, and_self, true_and, k1, k2,
      hol vl hlm, Bool.and_false, hlc, hredl]
  · have k1 := compareNodes_of KeyOfT KeyCompare hrk hkx
    have k2 := compareNodes_of KeyOfT KeyCompare hkx hrk
    have k3 := compareNodes_of KeyOfT KeyCompare hlk hkx
    have k4 := compareNodes_of KeyOfT KeyCompare hkx hlk
    have hredl : ¬ (c = rbtree_color.mRed ∧ l.color = rbtree_color.mRed) := by
      rintro ⟨h1, h2⟩
      rw [(hred h1).1] at h2
      cases h2
    have hredr : ¬ (c = rbtree_color.mRed ∧ r.color = rbtree_color.mRed) := by
      rintro ⟨h1, h2⟩
      rw [(hred h1).2] at h2
      cases h2
    have hredlr : ¬ (c = rbtree_color.mRed ∧
        (r.color = rbtree_color.mRed ∨ l.color = rbtree_color.mRed)) := by
      rintro ⟨h1, h2 | h2⟩
      · exact hredr ⟨h1, h2⟩
      · exact hredl ⟨h1, h2⟩
    simp only [validate_node, rd_of_ne hx, hrec, Option.bind_eq_bind, Option.some_bind, hlp,
      hrp, ne_eq, not_true_eq_false, not_false_eq_true, ↓reduceIte, Option.pure_def,
      Bool.false_eq_true, hcol, false_and, and_false, and_self, true_and, k1, k2, k3, k4,
      hol vl hlm, hor vr hrm, Bool.and_false, Bool.false_and, hlc, hrc, hredlr]

end validate

section validate_loop

variable {α κ : Type} (KeyOfT : α → κ) (KeyCompare : κ → κ → Bool)

theorem Tr.eq_nil_of_ptrs {T : Tr α} (h : T.ptrs = []) : T = Tr.nil := by
  cases T with
  | nil => rfl
  | node c l p v r => simp [Tr.ptrs] at h

/-- The body of the loop of `validate()` passes at every node of a valid tree. -/
theorem validate_node_mem {t : rbtree α} {T : Tr α} (h : t.Holds T)
    (ho : Ordered KeyOfT KeyCompare T.vals) (hnrr : T.noRedRed) (n : Nat)
    (hb : T.blackHeight n) (x : Ptr) (hx : x ∈ T.ptrs) (fuel : Nat)
    (hf : T.ptrs.length + 1 ≤ fuel) :
    validate_node KeyOfT KeyCompare t fuel n x = some true := by
  obtain ⟨ctx, c, l, v, r, rfl⟩ := Tr.exists_plug_of_mem T x hx
  have h1 := ctx_length_le ctx
  have h2 := plug_length ctx (Tr.node c l x v r)
  exact validate_node_spec KeyOfT KeyCompare ctx c l x v r h ho hnrr n hb fuel (by omega)

/-- The loop of `validate()` from a node of the traversal on: every node passes, and the
loop counts the nodes. -/
theorem validate_loop_spec {t : rbtree α} {T : Tr α} (h : t.Holds T)
    (ho : Ordered KeyOfT KeyCompare T.vals) (hnrr : T.noRedRed) (n : Nat)
    (hb : T.blackHeight n) (fuel0 : Nat) (hf0 : T.ptrs.length + 2 ≤ fuel0)
    (suf pre : List Ptr) (hsplit : T.ptrs = pre ++ suf) (fuel : Nat) (hf : suf.length < fuel)
    (k : Nat) :
    validate_loop KeyOfT KeyCompare t fuel0 n fuel (firstD suf t.mHeader) k
      = some (some (k + suf.length)) := by
  induction suf generalizing pre fuel k with
  | nil =>
    cases fuel with
    | zero => simp at hf
    | succ f => simp [validate_loop, rbtree.mEnd]
  | cons x suf ih =>
    cases fuel with
    | zero => simp at hf
    | succ f =>
      have hx := h.mem.firstD_ne_hdr pre x suf hsplit
      have hinc := RBTreeIncrement_next h.mem pre suf x hsplit fuel0 hf0
      have hnode := validate_node_mem KeyOfT KeyCompare h ho hnrr n hb x
        (by rw [hsplit]; simp) fuel0 (by omega)
      have hrec := ih (pre ++ [x]) (by rw [hsplit]; simp) f
        (by simp only [List.length_cons] at hf; omega) (k + 1)
      simp only [validate_loop, firstD_cons, rbtree.mEnd, hx, ↓reduceIte, hnode,
        Option.bind_eq_bind, Option.some_bind, Bool.not_true, Bool.false_eq_true, hinc, hrec,
        List.length_cons]
      congr 2
      omega

/-- The count of black nodes from the first and from the last node of a red-black tree up
to its root is the black height. -/
theorem RBTreeBlackCount_ends {t : rbtree α} {T : Tr α} (h : t.Holds T) (n : Nat)
    (hb : T.blackHeight n) (hne : T.ptrs ≠ []) (fuel : Nat) (hf : T.ptrs.length + 1 ≤ fuel) :
    RBTreeBlackCount t.mem t.mRoot fuel t.mLeftMost 0 = some n ∧
      RBTreeBlackCount t.mem t.mRoot fuel t.mRightMost 0 = some n := by
  obtain ⟨hr, hl, hR, -⟩ := Holds_links h
  have hnd := h.mem.nodup
  constructor
  · cases hp : T.ptrs with
    | nil => exact absurd hp hne
    | cons a rest =>
      rw [hl, hp, firstD_cons, hr]
      obtain ⟨ctx, c, l, v, r, rfl⟩ := Tr.exists_plug_of_mem T a (by rw [hp]; simp)
      have hpp := Tr.ptrs_plug ctx (Tr.node c l a v r)
      simp only [Tr.ptrs, List.append_assoc, List.cons_append] at hpp
      have := nodup_split_unique [] rest (ctxBefore ctx ++ l.ptrs) (r.ptrs ++ ctxAfter ctx)
        (by rw [List.nil_append, ← hp, hpp]; simp) (by rw [List.nil_append, ← hp]; exact hnd)
      have hlnil : l = Tr.nil := by
        apply Tr.eq_nil_of_ptrs
        have e := this.1.symm
        simp only [List.append_eq_nil] at e
        exact e.2
      have h1 := ctx_length_le ctx
      have h2 := plug_length ctx (Tr.node c l a v r)
      exact RBTreeBlackCount_leaf ctx c l a v r h.mem n hb (Or.inl hlnil) fuel (by omega)
  · rcases List.eq_nil_or_concat T.ptrs with hp | ⟨ini, a, hp⟩
    · exact absurd hp hne
    · rw [List.concat_eq_append] at hp
      rw [hR, hp, lastD_append_cons, lastD_nil, hr]
      obtain ⟨ctx, c, l, v, r, rfl⟩ := Tr.exists_plug_of_mem T a (by rw [hp]; simp)
      have hpp := Tr.ptrs_plug ctx (Tr.node c l a v r)
      simp only [Tr.ptrs, List.append_assoc, List.cons_append] at hpp
      have := nodup_split_unique ini [] (ctxBefore ctx ++ l.ptrs) (r.ptrs ++ ctxAfter ctx)
        (by rw [← hp, hpp]; simp) (by rw [← hp]; exact hnd)
      have hrnil : r = Tr.nil := by
        apply Tr.eq_nil_of_ptrs
        have e := this.2.symm
        simp only [List.append_eq_nil] at e
        exact e.1
      have h1 := ctx_length_le ctx
      have h2 := plug_length ctx (Tr.node c l a v r)
      exact RBTreeBlackCount_leaf ctx c l a v r h.mem n hb (Or.inr hrnil) fuel (by omega)

/-- `validate()` returns `true` on every valid tree. -/
theorem validate_spec {t : rbtree α} {T : Tr α} (h : t.Holds T)
    (ho : Ordered KeyOfT KeyCompare T.vals) (hrb : RedBlack T) (fuel : Nat)
    (hf : T.ptrs.length + 2 ≤ fuel) :
    t.validate KeyOfT KeyCompare fuel = some true := by
  obtain ⟨-, hnrr, n, hb⟩ := hrb
  obtain ⟨hr, hl, hR, hem⟩ := Holds_links h
  by_cases hne : T.ptrs = []
  · obtain ⟨-, h2, h3⟩ := hem hne
    have hs : t.mSize = 0 := by rw [h.size, hne]; rfl
    simp [rbtree.validate, hs, h2, h3]
  · have hs : t.mSize ≠ 0 := by
      rw [h.size]
      intro e
      exact hne (List.length_eq_zero.1 e)
    obtain ⟨e1, e2, e3, -⟩ := Holds_extremes h hne fuel (by omega)
    obtain ⟨b1, b2⟩ := RBTreeBlackCount_ends h n hb hne fuel (by omega)
    have hloop := validate_loop_spec KeyOfT KeyCompare h ho hnrr n hb fuel hf T.ptrs []
      rfl fuel (by omega) 0
    rw [← e3, Nat.zero_add, ← h.size] at hloop
    simp only [rbtree.validate, hs, ne_eq, not_false_eq_true, ↓reduceIte, e1, e2,
      Option.bind_eq_bind, Option.some_bind, not_true_eq_false, b1, b2, hloop,
      Option.pure_def, decide_True]

end validate_loop


/-! ## Sequences of insertions and erasures keep the tree valid -/

set_option autoImplicit false

section op_sequences

variable {α κ : Type} (KeyOfT : α → κ) (KeyCompare : κ → κ → Bool)

/-- One operation on a valid tree returns and leaves a valid tree with at most one more
node. -/
theorem opStep_spec (hswo : StrictWeakOrder KeyCompare) {t : rbtree α} {T : Tr α}
    (h : t.Holds T) (ho : Ordered KeyOfT KeyCompare T.vals) (hrb : RedBlack T)
    (op : Op α κ) (fuel : Nat) (hf : T.ptrs.length + 2 ≤ fuel) :
    ∃ t2 T2, opStep KeyOfT KeyCompare fuel t op = some t2 ∧ t2.Holds T2 ∧
      Ordered KeyOfT KeyCompare T2.vals ∧ RedBlack T2 ∧
      T2.ptrs.length ≤ T.ptrs.length + 1 := by
  cases op with
  | insertUnique value =>
    obtain ⟨r, t2, T2, he, h2, ho2, hrb2, -, -, hl⟩ :=
      DoInsertUnique_keeps KeyOfT KeyCompare hswo h ho hrb value fuel (by omega)
    exact ⟨t2, T2, by simp [opStep, he], h2, ho2, hrb2, hl⟩
  | insertMulti value =>
    obtain ⟨r, t2, T2, he, h2, ho2, hrb2, -, -, hl⟩ :=
      DoInsertMulti_keeps KeyOfT KeyCompare hswo h ho hrb value fuel (by omega)
    exact ⟨t2, T2, by simp [opStep, he], h2, ho2, hrb2, hl⟩
  | erasePosition i =>
    have hn := nodes_spec h fuel hf
    cases hi : T.ptrs[i]? with
    | none =>
      refine ⟨t, T, ?_, h, ho, hrb, Nat.le_succ _⟩
      simp only [opStep, hn, Option.bind_eq_bind, Option.some_bind, hi, Option.pure_def]
    | some p =>
      have hp : p ∈ T.ptrs := List.getElem?_mem hi
      obtain ⟨pre, suf, hsplit⟩ := List.append_of_mem hp
      obtain ⟨t2, T2, he, h2, ho2, hrb2, hp2, -⟩ :=
        erase_nodes_spec KeyOfT KeyCompare h ho hrb pre p suf hsplit fuel hf
      refine ⟨t2, T2, ?_, h2, ho2, hrb2, ?_⟩
      · simp only [opStep, hn, Option.bind_eq_bind, Option.some_bind, hi, he,
          Option.map_some']
      · rw [hp2, hsplit]
        simp only [List.length_append, List.length_cons]
        omega
  | eraseKey key =>
    obtain ⟨E1, E2, E3, t2, T2, hE, -, -, -, he, h2, ho2, hrb2, hel, -⟩ :=
      erase_key_holds KeyOfT KeyCompare hswo h ho hrb key fuel hf
    refine ⟨t2, T2, by simp [opStep, he], h2, ho2, hrb2, ?_⟩
    rw [Tr.ptrs_eq_map_elems, Tr.ptrs_eq_map_elems, hel, hE]
    simp only [List.map_append, List.length_append, List.length_map]
    omega

/-- A sequence of operations on a valid tree returns and leaves a valid tree. -/
theorem opSeq_spec (hswo : StrictWeakOrder KeyCompare) (ops : List (Op α κ)) :
    ∀ {t : rbtree α} {T : Tr α}, t.Holds T → Ordered KeyOfT KeyCompare T.vals → RedBlack T →
    ∀ (fuel : Nat), T.ptrs.length + ops.length + 2 ≤ fuel →
    ∃ t2 T2, opSeq KeyOfT KeyCompare fuel ops t = some t2 ∧ t2.Holds T2 ∧
      Ordered KeyOfT KeyCompare T2.vals ∧ RedBlack T2 ∧
      T2.ptrs.length ≤ T.ptrs.length + ops.length := by
  induction ops with
  | nil =>
    intro t T h ho hrb fuel _
    exact ⟨t, T, rfl, h, ho, hrb, Nat.le_refl _⟩
  | cons op ops ih =>
    intro t T h ho hrb fuel hf
    simp only [List.length_cons] at hf
    obtain ⟨t1, T1, e1, h1, ho1, hrb1, hl1⟩ :=
      opStep_spec KeyOfT KeyCompare hswo h ho hrb op fuel (by omega)
    obtain ⟨t2, T2, e2, h2, ho2, hrb2, hl2⟩ := ih h1 ho1 hrb1 fuel (by omega)
    refine ⟨t2, T2, ?_, h2, ho2, hrb2, ?_⟩
    · simp only [opSeq, e1, Option.some_bind, e2]
    · simp only [List.length_cons]
      omega

end op_sequences


/-! ## The null links next to a node -/

set_option autoImplicit false

section holes

variable {α : Type}

theorem ctxBeforeE_append (a b : List (Frame α)) :
    ctxBeforeE (a ++ b) = ctxBeforeE b ++ ctxBeforeE a := by
  induction a with
  | nil => simp [ctxBeforeE]
  | cons f a ih => cases f <;> simp [ctxBeforeE, ih]

theorem ctxAfterE_append (a b : List (Frame α)) :
    ctxAfterE (a ++ b) = ctxAfterE a ++ ctxAfterE b := by
  induction a with
  | nil => simp [ctxAfterE]
  | cons f a ih => cases f <;> simp [ctxAfterE, ih]

/-- The right link of the last node of a tree is null: the path to it has every element
before it and starts at that node. -/
theorem Tr.exists_max_hole (T : Tr α) (hT : T ≠ Tr.nil) :
    ∃ ctx, plug ctx Tr.nil = T ∧ ctxBeforeE ctx = T.elems ∧ ctxAfterE ctx = [] ∧
      ∃ c l p v rest, ctx = Frame.R c l p v :: rest := by
  induction T with
  | nil => exact absurd rfl hT
  | node c l p v r _ ihr =>
    by_cases hr : r = Tr.nil
    · subst hr
      exact ⟨[Frame.R c l p v], rfl, by simp [ctxBeforeE, Tr.elems], rfl, c, l, p, v, [], rfl⟩
    · obtain ⟨cr, h1, h2, h3, c2, l2, p2, v2, rest, h4⟩ := ihr hr
      refine ⟨cr ++ [Frame.R c l p v], ?_, ?_, ?_, c2, l2, p2, v2, rest ++ [Frame.R c l p v],
        by rw [h4]; rfl⟩
      · rw [plug_append, h1]
        rfl
      · rw [ctxBeforeE_append, h2]
        simp [ctxBeforeE, Tr.elems]
      · rw [ctxAfterE_append, h3]
        rfl

/-- The left link of the first node of a tree is null: the path to it has every element
after it and starts at that node. -/
theorem Tr.exists_min_hole (T : Tr α) (hT : T ≠ Tr.nil) :
    ∃ ctx, plug ctx Tr.nil = T ∧ ctxBeforeE ctx = [] ∧ ctxAfterE ctx = T.elems ∧
      ∃ c p v r rest, ctx = Frame.L c p v r :: rest := by
  induction T with
  | nil => exact absurd rfl hT
  | node c l p v r ihl _ =>
    by_cases hl : l = Tr.nil
    · subst hl
      exact ⟨[Frame.L c p v r], rfl, rfl, by simp [ctxAfterE, Tr.elems], c, p, v, r, [], rfl⟩
    · obtain ⟨cl, h1, h2, h3, c2, p2, v2, r2, rest, h4⟩ := ihl hl
      refine ⟨cl ++ [Frame.L c p v r], ?_, ?_, ?_, c2, p2, v2, r2, rest ++ [Frame.L c p v r],
        by rw [h4]; rfl⟩
      · rw [plug_append, h1]
        rfl
      · rw [ctxBeforeE_append, h2]
        rfl
      · rw [ctxAfterE_append, h3]
        simp [ctxAfterE, Tr.elems]

/-- The null link just before a node in in-order: its own left link when it has no left
child, otherwise the right link of the last node of its left subtree. -/
theorem hole_before_node (ctx : List (Frame α)) (c : rbtree_color) (l : Tr α) (x : Ptr)
    (v : α) (r : Tr α) :
    ∃ ctx2, plug ctx2 Tr.nil = plug ctx (Tr.node c l x v r) ∧
      ctxBeforeE ctx2 = ctxBeforeE ctx ++ l.elems ∧
      ctxAfterE ctx2 = (x, v) :: r.elems ++ ctxAfterE ctx ∧
      ((l = Tr.nil ∧ ctx2 = Frame.L c x v r :: ctx) ∨
       (l ≠ Tr.nil ∧ ∃ c2 l2 p2 v2 rest, ctx2 = Frame.R c2 l2 p2 v2 :: rest)) := by
  by_cases hl : l = Tr.nil
  · subst hl
    exact ⟨Frame.L c x v r :: ctx, rfl, by simp [ctxBeforeE, Tr.elems], by simp [ctxAfterE],
      Or.inl ⟨rfl, rfl⟩⟩
  · obtain ⟨cl, h1, h2, h3, c2, l2, p2, v2, rest, h4⟩ := Tr.exists_max_hole l hl
    refine ⟨cl ++ Frame.L c x v r :: ctx, ?_, ?_, ?_,
      Or.inr ⟨hl, c2, l2, p2, v2, rest ++ Frame.L c x v r :: ctx, by rw [h4]; rfl⟩⟩
    · rw [plug_append, h1]
      rfl
    · rw [ctxBeforeE_append, h2]
      simp [ctxBeforeE]
    · rw [ctxAfterE_append, h3]
      simp [ctxAfterE]

/-- The null link just after a node in in-order: its own right link when it has no right
child, otherwise the left link of the first node of its right subtree. -/
theorem hole_after_node (ctx : List (Frame α)) (c : rbtree_color) (l : Tr α) (x : Ptr)
    (v : α) (r : Tr α) :
    ∃ ctx2, plug ctx2 Tr.nil = plug ctx (Tr.node c l x v r) ∧
      ctxBeforeE ctx2 = ctxBeforeE ctx ++ (l.elems ++ [(x, v)]) ∧
      ctxAfterE ctx2 = r.elems ++ ctxAfterE ctx ∧
      ((r = Tr.nil ∧ ctx2 = Frame.R c l x v :: ctx) ∨
       (r ≠ Tr.nil ∧ ∃ c2 p2 v2 r2 rest, ctx2 = Frame.L c2 p2 v2 r2 :: rest)) := by
  by_cases hr : r = Tr.nil
  · subst hr
    exact ⟨Frame.R c l x v :: ctx, rfl, by simp [ctxBeforeE], by simp [ctxAfterE, Tr.elems],
      Or.inl ⟨rfl, rfl⟩⟩
  · obtain ⟨cr, h1, h2, h3, c2, p2, v2, r2, rest, h4⟩ := Tr.exists_min_hole r hr
    refine ⟨cr ++ Frame.R c l x v :: ctx, ?_, ?_, ?_,
      Or.inr ⟨hr, c2, p2, v2, r2, rest ++ Frame.R c l x v :: ctx, by rw [h4]; rfl⟩⟩
    · rw [plug_append, h1]
      rfl
    · rw [ctxBeforeE_append, h2]
      simp [ctxBeforeE]
    · rw [ctxAfterE_append, h3]
      simp [ctxAfterE]

end holes


/-! ## Insertion at a null link between two neighbours -/

set_option autoImplicit false

section insert_at_hole

variable {α κ : Type} (KeyOfT : α → κ) (KeyCompare : κ → κ → Bool)

/-- In a sequence in key order, a key greater than the last element of a first part and
less than the first element of the rest is greater than every element of the first part
and less than every element of the rest. -/
theorem between_of_neighbours {β : Type} (keyOf : β → κ) (hswo : StrictWeakOrder KeyCompare)
    (B A : List β) (key : κ) (ho : Ordered keyOf KeyCompare (B ++ A))
    (hB : ∀ e, B.getLast? = some e → KeyCompare (keyOf e) key = true)
    (hA : ∀ e, A.head? = some e → KeyCompare key (keyOf e) = true) :
    (∀ e ∈ B, KeyCompare (keyOf e) key = true) ∧
      (∀ e ∈ A, KeyCompare key (keyOf e) = true) := by
  simp only [Ordered, List.pairwise_append] at ho
  obtain ⟨hoB, hoA, -⟩ := ho
  constructor
  · rcases List.eq_nil_or_concat B with rfl | ⟨ini, b, rfl⟩
    · simp
    · rw [List.concat_eq_append] at hoB hB ⊢
      have hb := hB b (by simp)
      intro e he
      rcases List.mem_append.1 he with he | he
      · have := (List.pairwise_append.1 hoB).2.2 e he b (by simp)
        exact hswo.lt_of_le_of_lt this hb
      · rw [List.mem_singleton.1 he]
        exact hb
  · cases A with
    | nil => simp
    | cons a rest =>
      have ha := hA a rfl
      intro e he
      rcases List.mem_cons.1 he with rfl | he
      · exact ha
      · exact hswo.lt_of_lt_of_le ha ((List.pairwise_cons.1 hoA).1 e he)

/-- `DoInsert` below the parent of a null link of a valid tree, when the key of `value` is
greater than the keys before the link and less than the keys after it: no element has an
equivalent key, and the new node is linked there, at the place that `DoInsertUnique(value)`
gives it in the in-order sequence. -/
theorem DoInsert_at_hole (hswo : StrictWeakOrder KeyCompare) {t : rbtree α} {T : Tr α}
    (ctx : List (Frame α)) (hT : plug ctx Tr.nil = T) (h : t.Holds T)
    (ho : Ordered KeyOfT KeyCompare T.vals) (hrb : RedBlack T) (value : α)
    (hlt : ∀ e ∈ ctxBeforeE ctx, KeyCompare (KeyOfT e.2) (KeyOfT value) = true)
    (hgt : ∀ e ∈ ctxAfterE ctx, KeyCompare (KeyOfT value) (KeyOfT e.2) = true)
    (fuel : Nat) (hf : T.ptrs.length + 1 ≤ fuel) :
    (∀ e ∈ T.vals, KeyCompare (KeyOfT value) (KeyOfT e) = true ∨
        KeyCompare (KeyOfT e) (KeyOfT value) = true) ∧
    ∃ t2 T2, DoInsert KeyOfT KeyCompare t fuel (ctxParent t.mHeader ctx) 0 value
        = some (t.brk, t2) ∧
      t2.Holds T2 ∧ Ordered KeyOfT KeyCompare T2.vals ∧ RedBlack T2 ∧
      sValue t2 t.brk = some value ∧
      T2.vals = T.vals.takeWhile (fun e => !KeyCompare (KeyOfT value) (KeyOfT e)) ++
        value :: T.vals.dropWhile (fun e => !KeyCompare (KeyOfT value) (KeyOfT e)) ∧
      (t.brk, value) ∈ T2.elems := by
  subst hT
  have hvals : (plug ctx (Tr.nil : Tr α)).vals
      = (ctxBeforeE ctx).map Prod.snd ++ (ctxAfterE ctx).map Prod.snd := by
    rw [Tr.vals_plug]
    simp [Tr.vals]
  have hdir : ∀ f rest, ctx = f :: rest →
      KeyCompare (KeyOfT value) (KeyOfT f.val) = holeIsLeft ctx := by
    intro f rest e
    subst e
    cases f with
    | L c p v r => exact hgt (p, v) (by simp [ctxAfterE])
    | R c l p v => exact hswo.asymm KeyCompare (hlt (p, v) (by simp [ctxBeforeE]))
  have h1 := ctx_length_le ctx
  have h2 := plug_length ctx (Tr.nil : Tr α)
  obtain ⟨t2, e2, hh2, -, hv2⟩ := DoInsert_spec KeyOfT KeyCompare ctx value h hrb hdir fuel
    (by omega)
  obtain ⟨s1, s2⟩ := takeWhile_dropWhile_split
    (fun e => !KeyCompare (KeyOfT value) (KeyOfT e))
    ((ctxBeforeE ctx).map Prod.snd) ((ctxAfterE ctx).map Prod.snd)
    (by
      intro e he
      obtain ⟨x, hx, rfl⟩ := List.mem_map.1 he
      simp [hswo.asymm KeyCompare (hlt x hx)])
    (by
      intro e he
      obtain ⟨x, hx, rfl⟩ := List.mem_map.1 he
      simp [hgt x hx])
  refine ⟨?_, t2, _, e2, hh2, ?_, (insFix_RedBlack _ t.brk value hrb).2, hv2, ?_, ?_⟩
  · intro e he
    rw [hvals] at he
    rcases List.mem_append.1 he with he | he
    · obtain ⟨x, hx, rfl⟩ := List.mem_map.1 he
      exact Or.inr (hlt x hx)
    · obtain ⟨x, hx, rfl⟩ := List.mem_map.1 he
      exact Or.inl (hgt x hx)
  · rw [insFix_vals]
    apply Ordered.insert KeyOfT KeyCompare hswo
    · rw [← hvals]
      exact ho
    · intro e he
      obtain ⟨x, hx, rfl⟩ := List.mem_map.1 he
      exact hswo.asymm KeyCompare (hlt x hx)
    · intro e he
      obtain ⟨x, hx, rfl⟩ := List.mem_map.1 he
      exact hgt x hx
  · rw [insFix_vals, hvals, s1, s2]
  · rw [Tr.setColor_elems, insFix_elems ctx.length ctx (le_refl _), Tr.elems_plug]
    simp [Tr.elems]

end insert_at_hole


/-! ## `RBTreeDecrement` at a node that is not the first one -/

set_option autoImplicit false

section decrement

variable {α : Type}

/-- What the memory holds at the parent of a node that is not the root. -/
theorem parent_reads {m : Mem} {val : Ptr → Option α} {hdr : Ptr} (f : Frame α)
    (rest : List (Frame α)) (c : rbtree_color) (l : Tr α) (x : Ptr) (v : α) (r : Tr α)
    (h : MemHolds m val hdr (plug (f :: rest) (Tr.node c l x v r))) :
    f.ptr ≠ 0 ∧ (m f.ptr).mParent = ctxParent hdr rest ∧ ctxParent hdr rest ≠ x := by
  obtain ⟨hc, hp, hrec, -, -, -, hnd, hn⟩ := h.at_node
  have hxh : hdr ≠ x := by
    intro e2
    apply hn
    simp [e2]
  have hxm : x ∉ ctxBefore (f :: rest) ++ ctxAfter (f :: rest) := by
    intro hm
    simp only [List.nodup_append, List.nodup_cons, List.disjoint_cons_left,
      List.disjoint_cons_right, List.disjoint_append_left, List.disjoint_append_right,
      List.mem_append, List.mem_cons, not_or] at hnd hm
    rcases hm with hm | hm <;> simp [hm] at hnd
  have hpp : ctxParent hdr rest ≠ x := by
    rcases ctxParent_mem hdr rest with e2 | hm
    · rw [e2]
      exact hxh
    · intro e2
      rw [e2] at hm
      exact hxm (ctx_mem_cons f rest x hm)
  cases f with
  | L c1 p1 v1 r1 => exact ⟨hc.1, by rw [Frame.ptr_L, hc.2.1], hpp⟩
  | R c1 l1 p1 v1 => exact ⟨hc.1, by rw [Frame.ptr_R, hc.2.1], hpp⟩

/-- A node of a tree with a black root is not taken for the header. -/
theorem node_is_not_header {m : Mem} {val : Ptr → Option α} {hdr : Ptr}
    (ctx : List (Frame α)) (c : rbtree_color) (l : Tr α) (x : Ptr) (v : α) (r : Tr α)
    (h : MemHolds m val hdr (plug ctx (Tr.node c l x v r)))
    (hcol : (plug ctx (Tr.node c l x v r)).color = rbtree_color.mBlack) :
    node_is_rbtree_header m x = some false := by
  obtain ⟨-, hp, hrec, -⟩ := h.at_node
  cases ctx with
  | nil =>
    have hc : c = rbtree_color.mBlack := hcol
    simp [node_is_rbtree_header, rd_of_ne hp, hrec, rd_of_ne h.hdr_ne, hc]
  | cons f rest =>
    obtain ⟨h1, h2, h3⟩ := parent_reads f rest c l x v r h
    simp [node_is_rbtree_header, rd_of_ne hp, hrec, rd_of_ne h1, h2, h3]

/-- `RBTreeDecrement` at a node of a tree with a black root that has nodes before it in
in-order: the result is the node just before it. -/
theorem RBTreeDecrement_prev {m : Mem} {val : Ptr → Option α} {hdr : Ptr} {T : Tr α}
    (h : MemHolds m val hdr T) (hcol : T.color = rbtree_color.mBlack)
    (pre suf : List Ptr) (x : Ptr) (hsplit : T.ptrs = pre ++ x :: suf) (hne : pre ≠ [])
    (fuel : Nat) (hf : T.ptrs.length + 2 ≤ fuel) :
    RBTreeDecrement m fuel x = some (lastD pre hdr) := by
  have hx : x ∈ T.ptrs := by rw [hsplit]; simp
  obtain ⟨ctx, c, l, v, r, rfl⟩ := Tr.exists_plug_of_mem T x hx
  have hp := Tr.ptrs_plug ctx (Tr.node c l x v r)
  simp only [Tr.ptrs, List.append_assoc, List.cons_append] at hp
  have hnd := h.nodup
  rw [hsplit] at hnd
  obtain ⟨hpre, -⟩ := nodup_split_unique pre suf (ctxBefore ctx ++ l.ptrs)
    (r.ptrs ++ ctxAfter ctx) (by rw [← hsplit, hp]; simp) hnd
  have hlen := ctx_length_le ctx
  have hpl := plug_length ctx (Tr.node c l x v r)
  simp only [Tr.ptrs, List.length_append, List.length_cons] at hpl
  cases l with
  | nil =>
    simp only [Tr.ptrs, List.append_nil] at hpre
    cases ctx with
    | nil => exact absurd hpre hne
    | cons f rest =>
      rw [hpre]
      rw [hpre] at hne
      exact RBTreeDecrement_hole c x v r (f :: rest) h hne fuel (by omega)
  | node cl ll pl vl lr =>
    have hnh := node_is_not_header ctx c _ x v r h hcol
    obtain ⟨-, hxp, hrec, -, hl, -⟩ := h.at_node
    have hmax := rbtree_max_spec (Tr.node cl ll pl vl lr) x hl (by simp) fuel (by omega)
    have hlne : (Tr.node cl ll pl vl lr).ptrs ≠ [] := by simp [Tr.ptrs]
    have hlast : (Tr.node cl ll pl vl lr).ptrs.getLast?
        = some (lastD (ctxBefore ctx ++ (Tr.node cl ll pl vl lr).ptrs) hdr) := by
      rw [lastD_append, getLast?_eq_lastD _ (lastD (ctxBefore ctx) hdr) hlne]
    rw [Tr.ptr_node] at hmax
    simp only [RBTreeDecrement, hnh, Option.bind_eq_bind, Option.some_bind, Bool.false_eq_true,
      ↓reduceIte, rd_of_ne hxp, hrec, Tr.ptr_node, ne_eq, h.tree, hl.1, not_false_eq_true,
      hmax, hlast, hpre]

end decrement


/-! ## The hinted `FindEqual` -/

set_option autoImplicit false

section find_equal_hint

variable {α κ : Type} (KeyOfT : α → κ) (KeyCompare : κ → κ → Bool)

theorem Tr.ptr_eq_zero_iff {m : Mem} {val : Ptr → Option α} {X : Tr α} {par : Ptr}
    (h : TreeAt m val X par) : X.ptr = 0 ↔ X = Tr.nil := by
  cases X with
  | nil => simp
  | node c l p v r => simp [h.1]

theorem lastD_map_fst_concat {β γ : Type} (l : List (β × γ)) (e : β × γ) (d : β) :
    lastD ((l ++ [e]).map Prod.fst) d = e.1 := by
  rw [List.map_append, List.map_singleton, lastD_append_cons, lastD_nil]

/-- The hinted `FindEqual` at the hint `end()`. -/
theorem FindEqual_hint_end (hswo : StrictWeakOrder KeyCompare) {t : rbtree α} {T : Tr α}
    (h : t.Holds T) (ho : Ordered KeyOfT KeyCompare T.vals) (key : κ) (fuel : Nat) :
    FindEqual_hint KeyOfT KeyCompare t fuel t.mEnd key = FindEqual KeyOfT KeyCompare t fuel key ∨
    ∃ ctx, plug ctx Tr.nil = T ∧
      (∀ e ∈ ctxBeforeE ctx, KeyCompare (KeyOfT e.2) key = true) ∧
      (∀ e ∈ ctxAfterE ctx, KeyCompare key (KeyOfT e.2) = true) ∧
      FindEqual_hint KeyOfT KeyCompare t fuel t.mEnd key
        = some (0, ctxParent t.mHeader ctx) := by
  by_cases hT : T = Tr.nil
  · left
    subst hT
    have hs : t.size = 0 := by
      show t.mSize = 0
      rw [h.size]
      rfl
    simp [FindEqual_hint, hs]
  · obtain ⟨ctx, h1, h2, h3, c2, l2, p2, v2, rest, h4⟩ := Tr.exists_max_hole T hT
    have hB : ctxBeforeE ctx = (ctxBeforeE rest ++ l2.elems) ++ [(p2, v2)] := by
      rw [h4]
      simp [ctxBeforeE]
    have hlast : t.mRightMost = p2 := by
      rw [(Holds_links h).2.2.1, Tr.ptrs_eq_map_elems, ← h2, hB, lastD_map_fst_concat]
    have hk : sKey KeyOfT t p2 = some (KeyOfT v2) :=
      TreeAt_sKey_elems KeyOfT h.mem.tree (p2, v2) (by rw [← h2, hB]; simp)
    have hs : t.size > 0 := by
      show t.mSize > 0
      rw [h.size, Tr.ptrs_eq_map_elems, ← h2, hB]
      simp
    cases hc : KeyCompare (KeyOfT v2) key with
    | false =>
      left
      simp [FindEqual_hint, hs, hlast, hk, hc]
    | true =>
      right
      have hoE := Ordered_elems KeyOfT KeyCompare ho
      rw [← h2] at hoE
      obtain ⟨hlt, -⟩ := between_of_neighbours KeyCompare (fun e : Ptr × α => KeyOfT e.2) hswo
        (ctxBeforeE ctx) [] key (by simpa using hoE)
        (by
          intro e he
          rw [hB, List.getLast?_concat] at he
          cases he
          exact hc)
        (by simp)
      refine ⟨ctx, h1, hlt, by rw [h3]; simp, ?_⟩
      rw [h4]
      simp [FindEqual_hint, hs, hlast, hk, hc]


/-- What a well-formed tree holds around a node: the elements before it, the node, the
elements after it; its key; it is not `end()`. -/
theorem node_facts {t : rbtree α} (ctx : List (Frame α)) (c : rbtree_color) (l : Tr α)
    (x : Ptr) (v : α) (r : Tr α) (h : t.Holds (plug ctx (Tr.node c l x v r))) :
    x ≠ t.mEnd ∧ x ≠ 0 ∧ sKey KeyOfT t x = some (KeyOfT v) ∧
      (plug ctx (Tr.node c l x v r)).elems
        = (ctxBeforeE ctx ++ l.elems) ++ (x, v) :: (r.elems ++ ctxAfterE ctx) ∧
      (plug ctx (Tr.node c l x v r)).ptrs
        = (ctxBeforeE ctx ++ l.elems).map Prod.fst
          ++ x :: (r.elems ++ ctxAfterE ctx).map Prod.fst := by
  obtain ⟨-, hx, -, hv, -, -, -, hn⟩ := h.mem.at_node
  have hel : (plug ctx (Tr.node c l x v r)).elems
      = (ctxBeforeE ctx ++ l.elems) ++ (x, v) :: (r.elems ++ ctxAfterE ctx) := by
    rw [Tr.elems_plug]
    simp [Tr.elems]
  refine ⟨?_, hx, by simp [sKey, sValue, hx, hv], hel, ?_⟩
  · rintro rfl
    exact hn (by simp [rbtree.mEnd])
  · rw [Tr.ptrs_eq_map_elems, hel]
    simp

/-- The hinted `FindEqual` at a node whose key is greater than `key`. -/
theorem FindEqual_hint_less (hswo : StrictWeakOrder KeyCompare) {t : rbtree α}
    (ctx : List (Frame α)) (c : rbtree_color) (l : Tr α) (x : Ptr) (v : α) (r : Tr α)
    (h : t.Holds (plug ctx (Tr.node c l x v r)))
    (ho : Ordered KeyOfT KeyCompare (plug ctx (Tr.node c l x v r)).vals)
    (hcol : (plug ctx (Tr.node c l x v r)).color = rbtree_color.mBlack) (key : κ)
    (hlt : KeyCompare key (KeyOfT v) = true)
    (fuel : Nat) (hf : (plug ctx (Tr.node c l x v r)).ptrs.length + 2 ≤ fuel) :
    FindEqual_hint KeyOfT KeyCompare t fuel x key = FindEqual KeyOfT KeyCompare t fuel key ∨
    ∃ ctx2, plug ctx2 Tr.nil = plug ctx (Tr.node c l x v r) ∧
      (∀ e ∈ ctxBeforeE ctx2, KeyCompare (KeyOfT e.2) key = true) ∧
      (∀ e ∈ ctxAfterE ctx2, KeyCompare key (KeyOfT e.2) = true) ∧
      FindEqual_hint KeyOfT KeyCompare t fuel x key
        = some (0, ctxParent t.mHeader ctx2) := by
  obtain ⟨hxe, hx, hkx, hel, hptrs⟩ := node_facts KeyOfT ctx c l x v r h
  obtain ⟨-, -, hrec, -, hl, -, -, -⟩ := h.mem.at_node
  obtain ⟨ctx2, hp2, hb2, ha2, hdisj⟩ := hole_before_node ctx c l x v r
  have hoE := Ordered_elems KeyOfT KeyCompare ho
  rw [hel] at hoE
  have hbegin : t.begin = firstD ((ctxBeforeE ctx ++ l.elems).map Prod.fst
      ++ x :: (r.elems ++ ctxAfterE ctx).map Prod.fst) t.mHeader := by
    show t.mLeftMost = _
    rw [(Holds_links h).2.1, hptrs]
  have hbetween : (∀ e, (ctxBeforeE ctx ++ l.elems).getLast? = some e →
        KeyCompare (KeyOfT e.2) key = true) →
      (∀ e ∈ ctxBeforeE ctx2, KeyCompare (KeyOfT e.2) key = true) ∧
        (∀ e ∈ ctxAfterE ctx2, KeyCompare key (KeyOfT e.2) = true) := by
    intro hB
    rw [hb2, ha2]
    refine between_of_neighbours KeyCompare (fun e : Ptr × α => KeyOfT e.2) hswo _ _ key
      (by simpa using hoE) hB ?_
    intro e he
    simp only [List.cons_append, List.head?_cons, Option.some.injEq] at he
    subst he
    exact hlt
  rcases List.eq_nil_or_concat (ctxBeforeE ctx ++ l.elems) with hB | ⟨ini, eB, hB⟩
  · have hlnil : l = Tr.nil := by
      have : l.elems = [] := (List.append_eq_nil.1 hB).2
      apply Tr.eq_nil_of_ptrs
      rw [Tr.ptrs_eq_map_elems, this]
      rfl
    subst hlnil
    rcases hdisj with ⟨-, hc2⟩ | ⟨hne, -⟩
    swap
    · exact absurd rfl hne
    right
    obtain ⟨h1, h2⟩ := hbetween (by rw [hB]; simp)
    refine ⟨ctx2, hp2, h1, h2, ?_⟩
    have hb : t.begin = x := by
      rw [hbegin, hB]
      rfl
    rw [hc2]
    simp [FindEqual_hint, hxe, hkx, hlt, hb, rd_of_ne hx, hrec]
  · rw [List.concat_eq_append] at hB
    have hne : x ≠ t.begin := by
      have hnd := h.mem.nodup
      rw [hptrs, hB] at hnd
      rw [hbegin, hB]
      intro e
      cases ini with
      | nil =>
        simp only [List.nil_append, List.map_cons, List.map_nil, List.cons_append,
          firstD_cons] at e hnd
        rw [← e] at hnd
        simp at hnd
      | cons a ini =>
        simp only [List.cons_append, List.map_cons, firstD_cons] at e hnd
        rw [← e] at hnd
        simp at hnd
    have hdec : RBTreeDecrement t.mem fuel x = some eB.1 := by
      have := RBTreeDecrement_prev h.mem hcol _ _ x hptrs (by rw [hB]; simp) fuel hf
      rw [this, hB, lastD_map_fst_concat]
    have hkB : sKey KeyOfT t eB.1 = some (KeyOfT eB.2) :=
      TreeAt_sKey_elems KeyOfT h.mem.tree eB (by rw [hel, hB]; simp)
    cases hc : KeyCompare (KeyOfT eB.2) key with
    | false =>
      left
      simp [FindEqual_hint, hxe, hkx, hlt, hne, hdec, hkB, hc]
    | true =>
      right
      obtain ⟨h1, h2⟩ := hbetween (by
        intro e he
        rw [hB, List.getLast?_concat] at he
        cases he
        exact hc)
      refine ⟨ctx2, hp2, h1, h2, ?_⟩
      rcases hdisj with ⟨hlnil, hc2⟩ | ⟨hlne, c2, l2, p2, v2, rest, hc2⟩
      · subst hlnil
        rw [hc2]
        simp [FindEqual_hint, hxe, hkx, hlt, hne, hdec, hkB, hc, rd_of_ne hx, hrec]
      · have hl0 : l.ptr ≠ 0 := fun e => hlne ((Tr.ptr_eq_zero_iff hl).1 e)
        have heq : eB = (p2, v2) := by
          have e1 : ctxBeforeE ctx2 = ini ++ [eB] := by rw [hb2, hB]
          rw [hc2] at e1
          have e2 := congrArg List.getLast? e1
          simp only [ctxBeforeE, ← List.append_assoc, List.getLast?_concat,
            Option.some.injEq] at e2
          exact e2.symm
        have hm := (MemHolds_plug_iff ctx2 (Tr.nil : Tr α)).1 (by rw [hp2]; exact h.mem)
        rw [hc2] at hm
        obtain ⟨-, hcx, -⟩ := hm
        obtain ⟨hp2ne, hrec2, -⟩ := hcx
        rw [hc2]
        subst heq
        simp [FindEqual_hint, hxe, hkx, hlt, hne, hdec, hkB, hc, rd_of_ne hx, hrec, hl0,
          rd_of_ne hp2ne, hrec2]

/-- The hinted `FindEqual` at a node whose key is less than `key`. -/
theorem FindEqual_hint_greater (hswo : StrictWeakOrder KeyCompare) {t : rbtree α}
    (ctx : List (Frame α)) (c : rbtree_color) (l : Tr α) (x : Ptr) (v : α) (r : Tr α)
    (h : t.Holds (plug ctx (Tr.node c l x v r)))
    (ho : Ordered KeyOfT KeyCompare (plug ctx (Tr.node c l x v r)).vals) (key : κ)
    (hgt : KeyCompare (KeyOfT v) key = true)
    (fuel : Nat) (hf : (plug ctx (Tr.node c l x v r)).ptrs.length + 2 ≤ fuel) :
    FindEqual_hint KeyOfT KeyCompare t fuel x key = FindEqual KeyOfT KeyCompare t fuel key ∨
    ∃ ctx2, plug ctx2 Tr.nil = plug ctx (Tr.node c l x v r) ∧
      (∀ e ∈ ctxBeforeE ctx2, KeyCompare (KeyOfT e.2) key = true) ∧
      (∀ e ∈ ctxAfterE ctx2, KeyCompare key (KeyOfT e.2) = true) ∧
      FindEqual_hint KeyOfT KeyCompare t fuel x key
        = some (0, ctxParent t.mHeader ctx2) := by
  obtain ⟨hxe, hx, hkx, hel, hptrs⟩ := node_facts KeyOfT ctx c l x v r h
  obtain ⟨-, -, hrec, -, -, hr, -, hn⟩ := h.mem.at_node
  obtain ⟨ctx2, hp2, hb2, ha2, hdisj⟩ := hole_after_node ctx c l x v r
  have hlt : KeyCompare key (KeyOfT v) = false := hswo.asymm KeyCompare hgt
  have hoE := Ordered_elems KeyOfT KeyCompare ho
  rw [hel] at hoE
  have hinc : RBTreeIncrement t.mem fuel x
      = some (firstD ((r.elems ++ ctxAfterE ctx).map Prod.fst) t.mHeader) := by
    rw [RBTreeIncrement_spec ctx c l r x v h.mem fuel hf, List.map_append,
      ← Tr.ptrs_eq_map_elems, ← ctxAfter_eq_map]
  have hbetween : (∀ e, (r.elems ++ ctxAfterE ctx).head? = some e →
        KeyCompare key (KeyOfT e.2) = true) →
      (∀ e ∈ ctxBeforeE ctx2, KeyCompare (KeyOfT e.2) key = true) ∧
        (∀ e ∈ ctxAfterE ctx2, KeyCompare key (KeyOfT e.2) = true) := by
    intro hA
    rw [hb2, ha2]
    refine between_of_neighbours KeyCompare (fun e : Ptr × α => KeyOfT e.2) hswo _ _ key
      (by simpa using hoE) ?_ hA
    intro e he
    rw [← List.append_assoc, List.getLast?_concat] at he
    cases he
    exact hgt
  cases hA : r.elems ++ ctxAfterE ctx with
  | nil =>
    have hrnil : r = Tr.nil := by
      have : r.elems = [] := (List.append_eq_nil.1 hA).1
      apply Tr.eq_nil_of_ptrs
      rw [Tr.ptrs_eq_map_elems, this]
      rfl
    subst hrnil
    rcases hdisj with ⟨-, hc2⟩ | ⟨hne, -⟩
    swap
    · exact absurd rfl hne
    right
    obtain ⟨h1, h2⟩ := hbetween (by rw [hA]; simp)
    refine ⟨ctx2, hp2, h1, h2, ?_⟩
    rw [hA] at hinc
    have hinc2 : RBTreeIncrement t.mem fuel x = some t.mEnd := hinc
    rw [hc2]
    simp [FindEqual_hint, hxe, hkx, hlt, hgt, hinc2, rd_of_ne hx, hrec]
  | cons eA A2 =>
    rw [hA] at hinc
    simp only [List.map_cons, firstD_cons] at hinc
    have hmem : eA ∈ (plug ctx (Tr.node c l x v r)).elems := by
      rw [hel, hA]
      simp
    have hne : eA.1 ≠ t.mEnd := by
      intro e
      apply h.mem.hdr_notin
      rw [Tr.ptrs_eq_map_elems]
      exact List.mem_map.2 ⟨eA, hmem, e⟩
    have hkA : sKey KeyOfT t eA.1 = some (KeyOfT eA.2) :=
      TreeAt_sKey_elems KeyOfT h.mem.tree eA hmem
    cases hc : KeyCompare key (KeyOfT eA.2) with
    | false =>
      left
      simp [FindEqual_hint, hxe, hkx, hlt, hgt, hinc, hne, hkA, hc]
    | true =>
      right
      obtain ⟨h1, h2⟩ := hbetween (by
        intro e he
        rw [hA] at he
        simp only [List.head?_cons, Option.some.injEq] at he
        subst he
        exact hc)
      refine ⟨ctx2, hp2, h1, h2, ?_⟩
      rcases hdisj with ⟨hrnil, hc2⟩ | ⟨hrne, c2, p2, v2, r2, rest, hc2⟩
      · subst hrnil
        rw [hc2]
        simp [FindEqual_hint, hxe, hkx, hlt, hgt, hinc, hne, hkA, hc, rd_of_ne hx, hrec]
      · have hr0 : r.ptr ≠ 0 := fun e => hrne ((Tr.ptr_eq_zero_iff hr).1 e)
        have heq : eA = (p2, v2) := by
          have e1 : ctxAfterE ctx2 = eA :: A2 := by rw [ha2, hA]
          rw [hc2] at e1
          simp only [ctxAfterE, List.cons_append, List.cons.injEq] at e1
          exact e1.1.symm
        have hm := (MemHolds_plug_iff ctx2 (Tr.nil : Tr α)).1 (by rw [hp2]; exact h.mem)
        rw [hc2] at hm
        obtain ⟨-, hcx, -⟩ := hm
        obtain ⟨hp2ne, hrec2, -⟩ := hcx
        rw [hc2]
        subst heq
        simp [FindEqual_hint, hxe, hkx, hlt, hgt, hinc, hne, hkA, hc, rd_of_ne hx, hrec, hr0,
          rd_of_ne hp2ne, hrec2]

/-- The hinted `FindEqual` at a node whose key is equivalent to `key`. -/
theorem FindEqual_hint_equiv {t : rbtree α}
    (ctx : List (Frame α)) (c : rbtree_color) (l : Tr α) (x : Ptr) (v : α) (r : Tr α)
    (h : t.Holds (plug ctx (Tr.node c l x v r))) (key : κ)
    (h1 : KeyCompare key (KeyOfT v) = false) (h2 : KeyCompare (KeyOfT v) key = false)
    (fuel : Nat) :
    FindEqual_hint KeyOfT KeyCompare t fuel x key = some (x, x) := by
  obtain ⟨hxe, hx, hkx, -, -⟩ := node_facts KeyOfT ctx c l x v r h
  simp [FindEqual_hint, hxe, hkx, h1, h2]

end find_equal_hint


/-! ## The hinted `DoInsertUnique` -/

set_option autoImplicit false

section insert_unique_hint

variable {α κ : Type} (KeyOfT : α → κ) (KeyCompare : κ → κ → Bool)

/-- When the hinted search falls back to the search from the root, the hinted insertion is
the insertion without a hint. -/
theorem DoInsertUnique_hint_fallback (t : rbtree α) (fuel : Nat) (hint : Ptr) (value : α)
    (hfe : FindEqual_hint KeyOfT KeyCompare t fuel hint (KeyOfT value)
      = FindEqual KeyOfT KeyCompare t fuel (KeyOfT value)) :
    t.DoInsertUnique_hint KeyOfT KeyCompare fuel hint value
      = (t.DoInsertUnique KeyOfT KeyCompare fuel value).map (fun r => (r.1.1, r.2)) := by
  simp only [rbtree.DoInsertUnique_hint, rbtree.DoInsertUnique, hfe]
  cases FindEqual KeyOfT KeyCompare t fuel (KeyOfT value) with
  | none => rfl
  | some p =>
    obtain ⟨child, parent⟩ := p
    by_cases hc : child = 0
    · simp only [Option.bind_eq_bind, Option.some_bind, hc, ↓reduceIte]
      cases DoInsert KeyOfT KeyCompare t fuel parent 0 value with
      | none => rfl
      | some q => rfl
    · simp [hc]

/-- The three outcomes of the hinted `FindEqual` on a valid tree, for a hint that is
`end()` or a node of the tree: the search from the root, a null link between the two
neighbours of the key, or the hint itself when its key is equivalent. -/
theorem FindEqual_hint_cases (hswo : StrictWeakOrder KeyCompare) {t : rbtree α} {T : Tr α}
    (h : t.Holds T) (ho : Ordered KeyOfT KeyCompare T.vals) (hrb : RedBlack T) (hint : Ptr)
    (hhint : hint = t.mEnd ∨ hint ∈ T.ptrs) (key : κ) (fuel : Nat)
    (hf : T.ptrs.length + 2 ≤ fuel) :
    FindEqual_hint KeyOfT KeyCompare t fuel hint key
        = FindEqual KeyOfT KeyCompare t fuel key ∨
    (∃ ctx, plug ctx Tr.nil = T ∧
      (∀ e ∈ ctxBeforeE ctx, KeyCompare (KeyOfT e.2) key = true) ∧
      (∀ e ∈ ctxAfterE ctx, KeyCompare key (KeyOfT e.2) = true) ∧
      FindEqual_hint KeyOfT KeyCompare t fuel hint key
        = some (0, ctxParent t.mHeader ctx)) ∨
    (∃ e ∈ T.elems, e.1 = hint ∧ hint ≠ 0 ∧ KeyCompare key (KeyOfT e.2) = false ∧
      KeyCompare (KeyOfT e.2) key = false ∧
      FindEqual_hint KeyOfT KeyCompare t fuel hint key = some (hint, hint)) := by
  rcases hhint with rfl | hm
  · rcases FindEqual_hint_end KeyOfT KeyCompare hswo h ho key fuel with h1 | h1
    · exact Or.inl h1
    · exact Or.inr (Or.inl h1)
  · obtain ⟨ctx, c, l, v, r, rfl⟩ := Tr.exists_plug_of_mem T hint hm
    cases h1 : KeyCompare key (KeyOfT v) with
    | true =>
      rcases FindEqual_hint_less KeyOfT KeyCompare hswo ctx c l hint v r h ho hrb.1 key h1
        fuel hf with h2 | h2
      · exact Or.inl h2
      · exact Or.inr (Or.inl h2)
    | false =>
      cases h3 : KeyCompare (KeyOfT v) key with
      | true =>
        rcases FindEqual_hint_greater KeyOfT KeyCompare hswo ctx c l hint v r h ho key h3
          fuel hf with h2 | h2
        · exact Or.inl h2
        · exact Or.inr (Or.inl h2)
      | false =>
        obtain ⟨-, hx, -, hel, -⟩ := node_facts KeyOfT ctx c l hint v r h
        exact Or.inr (Or.inr ⟨(hint, v), by rw [hel]; simp, rfl, hx, h1, h3,
          FindEqual_hint_equiv KeyOfT KeyCompare ctx c l hint v r h key h1 h3 fuel⟩)

/-- `DoInsertUnique(hint, value)` on a valid tree, for a hint that is `end()` or a node of
the tree: either some payload has a key equivalent to the key of `value`, the node of such
a payload is returned and the tree is left alone; or there is none, and `value` is inserted
at its place in the in-order sequence. -/
theorem DoInsertUnique_hint_holds (hswo : StrictWeakOrder KeyCompare) {t : rbtree α}
    {T : Tr α} (h : t.Holds T) (ho : Ordered KeyOfT KeyCompare T.vals) (hrb : RedBlack T)
    (hint : Ptr) (hhint : hint = t.mEnd ∨ hint ∈ T.ptrs) (value : α) (fuel : Nat)
    (hf : T.ptrs.length + 2 ≤ fuel) :
    (∃ e ∈ T.elems, KeyCompare (KeyOfT value) (KeyOfT e.2) = false ∧
        KeyCompare (KeyOfT e.2) (KeyOfT value) = false ∧
        t.DoInsertUnique_hint KeyOfT KeyCompare fuel hint value = some (e.1, t)) ∨
    ((∀ e ∈ T.vals, KeyCompare (KeyOfT value) (KeyOfT e) = true ∨
        KeyCompare (KeyOfT e) (KeyOfT value) = true) ∧
      ∃ t2 T2, t.DoInsertUnique_hint KeyOfT KeyCompare fuel hint value = some (t.brk, t2) ∧
        t2.Holds T2 ∧ Ordered KeyOfT KeyCompare T2.vals ∧ RedBlack T2 ∧
        sValue t2 t.brk = some value ∧
        T2.vals = T.vals.takeWhile (fun e => !KeyCompare (KeyOfT value) (KeyOfT e)) ++
          value :: T.vals.dropWhile (fun e => !KeyCompare (KeyOfT value) (KeyOfT e)) ∧
        (t.brk, value) ∈ T2.elems) := by
  rcases FindEqual_hint_cases KeyOfT KeyCompare hswo h ho hrb hint hhint (KeyOfT value) fuel hf
    with hfe | ⟨ctx, hT, hlt, hgt, hfe⟩ | ⟨e, hem, he1, hne, h1, h2, hfe⟩
  · have hfb := DoInsertUnique_hint_fallback KeyOfT KeyCompare t fuel hint value hfe
    rcases DoInsertUnique_frame KeyOfT KeyCompare hswo h ho hrb value fuel (by omega) with
      ⟨e, hem, h1, h2, he⟩ | ⟨hall, t2, T2, he, hh2, ho2, hrb2, hv2, hvals, -, E1, E2, -, e2⟩
    · exact Or.inl ⟨e, hem, h1, h2, by rw [hfb, he]; rfl⟩
    · exact Or.inr ⟨hall, t2, T2, by rw [hfb, he]; rfl, hh2, ho2, hrb2, hv2, hvals,
        by rw [e2]; simp⟩
  · obtain ⟨hall, t2, T2, he, rest⟩ := DoInsert_at_hole KeyOfT KeyCompare hswo ctx hT h ho hrb
      value hlt hgt fuel (by omega)
    refine Or.inr ⟨hall, t2, T2, ?_, rest⟩
    simp only [rbtree.DoInsertUnique_hint, hfe, Option.bind_eq_bind, Option.some_bind,
      ↓reduceIte, he]
  · refine Or.inl ⟨e, hem, h1, h2, ?_⟩
    simp only [rbtree.DoInsertUnique_hint, hfe, Option.bind_eq_bind, Option.some_bind, hne,
      ↓reduceIte, Option.pure_def, he1]

end insert_unique_hint


/-! ## Reading and writing a segment of an array; `copy` and `merge` -/

set_option autoImplicit false

section segments

variable {α : Type}

theorem getElem?_mid (p : List α) (x : α) (q : List α) : (p ++ x :: q)[p.length]? = some x := by
  induction p with
  | nil => simp
  | cons a p ih => simpa using ih

theorem wr_mid (p : List α) (y x : α) (q : List α) :
    wr (p ++ y :: q) p.length x = some (p ++ x :: q) := by
  have hlt : p.length < (p ++ y :: q).length := by simp
  simp only [wr, hlt, ↓reduceIte, Option.some.injEq]
  induction p with
  | nil => rfl
  | cons a p ih =>
    have := ih (by simp)
    simp [this]

theorem Seg.head {a : List α} {i : Nat} {x : α} {l : List α} (h : Seg a i (x :: l)) :
    a[i]? = some x := by
  obtain ⟨p, q, rfl, rfl⟩ := h
  rw [List.append_assoc, List.cons_append]
  exact getElem?_mid p x (l ++ q)

theorem Seg.tail {a : List α} {i : Nat} {x : α} {l : List α} (h : Seg a i (x :: l)) :
    Seg a (i + 1) l := by
  obtain ⟨p, q, rfl, rfl⟩ := h
  exact ⟨p ++ [x], q, by simp, by simp⟩

theorem Seg.mk_mid (p l q : List α) : Seg (p ++ l ++ q) p.length l := ⟨p, q, rfl, rfl⟩

theorem Seg.mk_mid2 (p l1 l2 q : List α) :
    Seg (p ++ (l1 ++ l2) ++ q) (p.length + l1.length) l2 :=
  ⟨p ++ l1, q, by simp, by simp⟩

theorem Seg.mk_mid1 (p l1 l2 q : List α) : Seg (p ++ (l1 ++ l2) ++ q) p.length l1 :=
  ⟨p, l2 ++ q, by simp, rfl⟩

/-- `copy` of a segment of `src` over a segment of `dst` of the same length. -/
theorem copy_loop_spec (src : List α) : ∀ (l : List α) (first : Nat) (dp dj dq : List α),
    Seg src first l → dj.length = l.length →
    copy_loop l.length src (dp ++ dj ++ dq) first dp.length
      = some (dp ++ l ++ dq, dp.length + l.length) := by
  intro l
  induction l with
  | nil =>
    intro first dp dj dq _ hlen
    have : dj = [] := List.length_eq_zero.1 hlen
    subst this
    simp [copy_loop]
  | cons x l ih =>
    intro first dp dj dq hs hlen
    cases dj with
    | nil => simp at hlen
    | cons y dj =>
      simp only [List.length_cons, Nat.add_right_cancel_iff] at hlen
      have hw : wr (dp ++ (y :: dj) ++ dq) dp.length x = some (dp ++ [x] ++ dj ++ dq) := by
        have := wr_mid dp y x (dj ++ dq)
        simpa using this
      have hrec := ih (first + 1) (dp ++ [x]) dj dq hs.tail hlen
      simp only [List.length_append, List.length_singleton] at hrec
      simp only [List.length_cons, copy_loop, hs.head, Option.bind_eq_bind, Option.some_bind,
        hw, hrec, Option.some.injEq, Prod.mk.injEq]
      constructor
      · simp
      · omega

end segments


/-! ## `merge` -/

set_option autoImplicit false

section merge_spec

variable {α : Type} (comp : α → α → Bool)

theorem copy_nothing (src dst : List α) (first d : Nat) :
    copy src dst first first d = some (dst, d) := by
  simp [copy, copy_loop]

/-- `copy` of a segment of `src` over a segment of `dst` of the same length. -/
theorem copy_spec (src : List α) (l : List α) (first last : Nat) (dp dj dq : List α)
    (hs : Seg src first l) (hlast : last = first + l.length) (hlen : dj.length = l.length) :
    copy src (dp ++ dj ++ dq) first last dp.length
      = some (dp ++ l ++ dq, dp.length + l.length) := by
  have : last - first = l.length := by omega
  rw [copy, this]
  exact copy_loop_spec src l first dp dj dq hs hlen

/-- The loop of `merge` followed by the two copies writes the merge of the two input
segments over a segment of the output array. -/
theorem merge_loop_spec (src : List α) : ∀ (n : Nat) (l1 l2 : List α),
    l1.length + l2.length = n → ∀ (f1 last1 f2 last2 : Nat) (dp dj dq : List α) (fuel : Nat),
    Seg src f1 l1 → Seg src f2 l2 → last1 = f1 + l1.length → last2 = f2 + l2.length →
    dj.length = l1.length + l2.length → l1.length + l2.length + 1 ≤ fuel →
    (merge_loop comp fuel src (dp ++ dj ++ dq) f1 last1 f2 last2 dp.length).bind
        (merge_copies src last1 last2)
      = some (dp ++ List.merge l1 l2 (fun a b => !comp b a) ++ dq,
          dp.length + (l1.length + l2.length)) := by
  intro n
  induction n with
  | zero =>
    intro l1 l2 hn f1 last1 f2 last2 dp dj dq fuel _ _ h1 h2 hd hf
    have e1 : l1 = [] := List.length_eq_zero.1 (by omega)
    have e2 : l2 = [] := List.length_eq_zero.1 (by omega)
    subst e1 e2
    have e3 : dj = [] := List.length_eq_zero.1 (by simpa using hd)
    subst e3
    cases fuel with
    | zero => omega
    | succ fuel =>
      simp only [List.length_nil, Nat.add_zero] at h1 h2
      subst h1 h2
      simp [merge_loop, merge_copies, copy_nothing, List.merge]
  | succ n ih =>
    intro l1 l2 hn f1 last1 f2 last2 dp dj dq fuel hs1 hs2 h1 h2 hd hf
    cases fuel with
    | zero => omega
    | succ fuel =>
      cases l1 with
      | nil =>
        simp only [List.length_nil, Nat.add_zero] at h1
        subst h1
        simp only [List.length_nil, Nat.zero_add] at hd
        have hc := copy_spec src l2 f2 last2 dp dj dq hs2 h2 hd
        simp only [merge_loop, ne_eq, not_true_eq_false, false_and, ↓reduceIte,
          Option.some_bind, merge_copies, copy_nothing, Option.bind_eq_bind, hc,
          List.length_nil, Nat.zero_add]
        simp [List.merge]
      | cons a l1 =>
        cases l2 with
        | nil =>
          simp only [List.length_nil, Nat.add_zero] at h2
          subst h2
          simp only [List.length_nil, Nat.add_zero] at hd
          have hc := copy_spec src (a :: l1) f1 last1 dp dj dq hs1 h1 hd
          simp only [merge_loop, ne_eq, not_true_eq_false, and_false, ↓reduceIte,
            Option.some_bind, merge_copies, hc, Option.bind_eq_bind, copy_nothing,
            List.length_nil, Nat.add_zero]
          simp [List.merge]
        | cons b l2 =>
          simp only [List.length_cons] at h1 h2 hd hn hf
          have hne1 : f1 ≠ last1 := by omega
          have hne2 : f2 ≠ last2 := by omega
          cases dj with
          | nil =>
            simp only [List.length_nil] at hd
            omega
          | cons y dj =>
            simp only [List.length_cons] at hd
            cases hc : comp b a with
            | true =>
              have hw : wr (dp ++ (y :: dj) ++ dq) dp.length b = some (dp ++ [b] ++ dj ++ dq) := by
                have := wr_mid dp y b (dj ++ dq)
                simpa using this
              have hrec := ih (a :: l1) l2 (by simp only [List.length_cons]; omega) f1 last1
                (f2 + 1) last2 (dp ++ [b]) dj dq fuel hs1 hs2.tail
                (by simp only [List.length_cons]; omega) (by omega)
                (by simp only [List.length_cons]; omega)
                (by simp only [List.length_cons]; omega)
              simp only [List.length_append, List.length_singleton] at hrec
              simp only [merge_loop, ne_eq, hne1, not_false_eq_true, hne2, and_self, ↓reduceIte,
                hs2.head, hs1.head, Option.bind_eq_bind, Option.some_bind, hc, hw, hrec,
                List.cons_merge_cons, Bool.not_true, Bool.false_eq_true, List.length_cons,
                Option.some.injEq, Prod.mk.injEq]
              constructor
              · simp
              · omega
            | false =>
              have hw : wr (dp ++ (y :: dj) ++ dq) dp.length a = some (dp ++ [a] ++ dj ++ dq) := by
                have := wr_mid dp y a (dj ++ dq)
                simpa using this
              have hrec := ih l1 (b :: l2) (by simp only [List.length_cons]; omega) (f1 + 1)
                last1 f2 last2 (dp ++ [a]) dj dq fuel hs1.tail hs2 (by omega)
                (by simp only [List.length_cons]; omega)
                (by simp only [List.length_cons]; omega)
                (by simp only [List.length_cons]; omega)
              simp only [List.length_append, List.length_singleton] at hrec
              simp only [merge_loop, ne_eq, hne1, not_false_eq_true, hne2, and_self, ↓reduceIte,
                hs2.head, hs1.head, Option.bind_eq_bind, Option.some_bind, hc, hw, hrec,
                List.cons_merge_cons, Bool.not_false, List.length_cons,
                Option.some.injEq, Prod.mk.injEq, Bool.false_eq_true]
              constructor
              · simp
              · omega

/-- `merge` of two segments of `src` over a segment of `dst`. -/
theorem merge_spec (src : List α) (l1 l2 : List α) (f1 last1 f2 last2 : Nat)
    (dp dj dq : List α) (hs1 : Seg src f1 l1) (hs2 : Seg src f2 l2)
    (h1 : last1 = f1 + l1.length) (h2 : last2 = f2 + l2.length)
    (hd : dj.length = l1.length + l2.length) :
    merge comp src (dp ++ dj ++ dq) f1 last1 f2 last2 dp.length
      = some (dp ++ List.merge l1 l2 (fun a b => !comp b a) ++ dq,
          dp.length + (l1.length + l2.length)) := by
  rw [merge]
  exact merge_loop_spec comp src _ l1 l2 rfl f1 last1 f2 last2 dp dj dq _ hs1 hs2 h1 h2 hd
    (by omega)

end merge_spec


/-! ## The merge of two stable sorts is a stable sort -/

set_option autoImplicit false

section stable_merge

variable {α : Type} (comp : α → α → Bool)

theorem StableSorted.of_short (l : List α) (h : l.length ≤ 1) : StableSorted comp l l := by
  refine ⟨List.Perm.refl _, ?_, fun _ => rfl⟩
  cases l with
  | nil => exact List.Pairwise.nil
  | cons a l =>
    have : l = [] := List.length_eq_zero.1 (by simp only [List.length_cons] at h; omega)
    subst this
    exact List.pairwise_singleton _ _

theorem StableSorted.length {l l2 : List α} (h : StableSorted comp l l2) :
    l2.length = l.length := h.1.length_eq

theorem filter_class_pos (x a : α) (l : List α) (h : (!comp x a && !comp a x) = true) :
    (a :: l).filter (fun y => !comp x y && !comp y x)
      = a :: l.filter (fun y => !comp x y && !comp y x) := by
  rw [List.filter_cons, if_pos h]

theorem filter_class_neg (x a : α) (l : List α) (h : ¬ (!comp x a && !comp a x) = true) :
    (a :: l).filter (fun y => !comp x y && !comp y x)
      = l.filter (fun y => !comp x y && !comp y x) := by
  rw [List.filter_cons, if_neg h]

/-- In the merge of two sorted lists the elements of an equivalence class come in the
order: the ones of the first list, then the ones of the second list. -/
theorem filter_merge (hswo : StrictWeakOrder comp) (x : α) : ∀ (m1 m2 : List α),
    m1.Pairwise (fun u w => comp w u = false) →
    (List.merge m1 m2 (fun a b => !comp b a)).filter (fun y => !comp x y && !comp y x)
      = m1.filter (fun y => !comp x y && !comp y x)
        ++ m2.filter (fun y => !comp x y && !comp y x) := by
  intro m1
  induction m1 with
  | nil =>
    intro m2 _
    simp [List.merge]
  | cons a m1 ih1 =>
    intro m2
    induction m2 with
    | nil =>
      intro _
      simp [List.merge]
    | cons b m2 ih2 =>
      intro hs
      rw [List.cons_merge_cons]
      cases hc : comp b a with
      | false =>
        simp only [Bool.not_false, ↓reduceIte]
        have hrec := ih1 (b :: m2) (List.pairwise_cons.1 hs).2
        by_cases hPa : (!comp x a && !comp a x) = true
        · rw [filter_class_pos comp x a _ hPa, hrec, filter_class_pos comp x a m1 hPa]
          rfl
        · rw [filter_class_neg comp x a _ hPa, hrec, filter_class_neg comp x a m1 hPa]
      | true =>
        simp only [Bool.not_true, Bool.false_eq_true, ↓reduceIte]
        have hrec := ih2 hs
        by_cases hP : (!comp x b && !comp b x) = true
        · have hxb : comp x b = false ∧ comp b x = false := by
            simpa using hP
          have hxa : comp x a = true := hswo.lt_of_le_of_lt hxb.2 hc
          have hnone : (a :: m1).filter (fun y => !comp x y && !comp y x) = [] := by
            rw [List.filter_eq_nil_iff]
            intro y hy
            have hxy : comp x y = true := by
              rcases List.mem_cons.1 hy with rfl | hy
              · exact hxa
              · exact hswo.lt_of_lt_of_le hxa ((List.pairwise_cons.1 hs).1 y hy)
            simp [hxy]
          rw [hnone] at hrec
          rw [filter_class_pos comp x b _ hP, hrec, hnone, filter_class_pos comp x b m2 hP]
          rfl
        · rw [filter_class_neg comp x b _ hP, hrec, filter_class_neg comp x b m2 hP]

/-- The merge of the stable sorts of two lists is the stable sort of their
concatenation. -/
theorem StableSorted.merge (hswo : StrictWeakOrder comp) {l1 l2 m1 m2 : List α}
    (h1 : StableSorted comp l1 m1) (h2 : StableSorted comp l2 m2) :
    StableSorted comp (l1 ++ l2) (List.merge m1 m2 (fun a b => !comp b a)) := by
  obtain ⟨p1, s1, f1⟩ := h1
  obtain ⟨p2, s2, f2⟩ := h2
  refine ⟨(List.merge_perm_append _).trans (p1.append p2), ?_, ?_⟩
  · have hs := @List.sorted_merge α (fun a b => !comp b a)
      (by
        intro a b c hab hbc
        simp only [Bool.not_eq_true'] at hab hbc ⊢
        exact hswo.neg_trans hbc hab)
      (by
        intro a b
        cases hba : comp b a with
        | false => simp [hba]
        | true => simp [hswo.asymm comp hba])
      m1 m2 (by simpa using s1) (by simpa using s2)
    simpa using hs
  · intro x
    rw [filter_merge comp hswo x m1 m2 s1, f1 x, f2 x, List.filter_append]

end stable_merge


/-! ## `merge_sort_buffer` -/

set_option autoImplicit false

section merge_sort

variable {α : Type} (comp : α → α → Bool)

/-- One level of `merge_sort_buffer`, half by half. -/
theorem merge_sort_buffer_succ (fuel : Nat) (a buf : List α) (first last buffer : Nat) :
    merge_sort_buffer comp (fuel + 1) a buf first last buffer =
      if last - first > 1 then
        (merge_sort_half comp (merge_sort_buffer comp fuel) ((last - first) / 2) a buf first
          (first + (last - first) / 2 / 2) (first + (last - first) / 2) buffer
          (buffer + (last - first) / 2 / 2)).bind (fun r1 =>
        (merge_sort_half comp (merge_sort_buffer comp fuel)
          ((last - first) - (last - first) / 2) r1.1 r1.2 (first + (last - first) / 2)
          (first + ((last - first) / 2 + ((last - first) - (last - first) / 2) / 2)) last
          (buffer + (last - first) / 2)
          (buffer + ((last - first) / 2 + ((last - first) - (last - first) / 2) / 2))).bind
            (fun r2 =>
        (merge comp r2.2 r2.1 buffer (buffer + (last - first) / 2)
          (buffer + (last - first) / 2) (buffer + (last - first)) first).bind (fun r3 =>
        some (r3.1, r2.2))))
      else some (a, buf) := by
  rw [merge_sort_buffer]
  by_cases h : last - first > 1
  · by_cases h1 : (last - first) / 2 > 1 <;>
    by_cases h2 : last - first - (last - first) / 2 > 1 <;>
    simp only [h, h1, h2, ↓reduceIte, merge_sort_half, Option.bind_eq_bind, Option.bind_assoc,
      Option.pure_def, Option.some_bind]
  · simp only [h, ↓reduceIte]

theorem take_drop_lengths (s : List α) (q : Nat) (hq : q ≤ s.length) :
    s = s.take q ++ s.drop q ∧ (s.take q).length = q ∧ (s.drop q).length = s.length - q := by
  refine ⟨(List.take_append_drop q s).symm, ?_, ?_⟩
  · rw [List.length_take]
    omega
  · rw [List.length_drop]

/-- One half of `merge_sort_buffer`: when the recursive calls sort shorter segments
stably, the half leaves the stable sort of its segment of the array in the matching segment
of the buffer. -/
theorem merge_sort_half_spec (hswo : StrictWeakOrder comp)
    (msb : List α → List α → Nat → Nat → Nat → Option (List α × List α))
    (s ap aq b bp bq : List α)
    (hrec : ∀ (seg ap aq bseg bp bq a buf : List α) (first last buffer : Nat),
      a = ap ++ seg ++ aq → buf = bp ++ bseg ++ bq → first = ap.length →
      last = first + seg.length → buffer = bp.length → bseg.length = seg.length →
      seg.length < s.length →
      ∃ seg2 bseg2, msb a buf first last buffer = some (ap ++ seg2 ++ aq, bp ++ bseg2 ++ bq) ∧
        bseg2.length = bseg.length ∧ StableSorted comp seg seg2)
    (n first part last buffer bufpart : Nat) (hn : n = s.length) (hpos : 1 ≤ s.length)
    (hfirst : first = ap.length) (hpart : part = first + n / 2) (hlast : last = first + n)
    (hbuffer : buffer = bp.length) (hbufpart : bufpart = buffer + n / 2)
    (hb : b.length = s.length) :
    ∃ x m, merge_sort_half comp msb n (ap ++ s ++ aq) (bp ++ b ++ bq) first part last buffer
        bufpart = some (ap ++ x ++ aq, bp ++ m ++ bq) ∧
      x.length = s.length ∧ m.length = s.length ∧ StableSorted comp s m := by
  subst hn hfirst hpart hlast hbuffer hbufpart
  by_cases h1 : s.length > 1
  · obtain ⟨es, hs1, hs2⟩ := take_drop_lengths s (s.length / 2) (Nat.div_le_self _ _)
    obtain ⟨eb, hb1, hb2⟩ := take_drop_lengths b (s.length / 2) (by rw [hb]; exact Nat.div_le_self _ _)
    generalize s.take (s.length / 2) = s1 at es hs1
    generalize s.drop (s.length / 2) = s2 at es hs2
    generalize b.take (s.length / 2) = b1 at eb hb1
    generalize b.drop (s.length / 2) = b2 at eb hb2
    have hq : 1 ≤ s.length / 2 := by omega
    have hq2 : s.length / 2 < s.length := by omega
    obtain ⟨s1', b1', e1, hl1, hst1⟩ := hrec s1 ap (s2 ++ aq) b1 bp (b2 ++ bq)
      (ap ++ s ++ aq) (bp ++ b ++ bq) ap.length (ap.length + s.length / 2) bp.length
      (by rw [es]; simp) (by rw [eb]; simp) rfl (by rw [hs1]) rfl (by rw [hb1, hs1])
      (by omega)
    have hl1s := hst1.length
    obtain ⟨s2', b2', e2, hl2, hst2⟩ := hrec s2 (ap ++ s1') aq b2 (bp ++ b1') bq
      (ap ++ s1' ++ (s2 ++ aq)) (bp ++ b1' ++ (b2 ++ bq)) (ap.length + s.length / 2)
      (ap.length + s.length) (bp.length + s.length / 2)
      (by simp) (by simp) (by rw [List.length_append, hl1s, hs1])
      (by rw [hs2]; omega) (by rw [List.length_append, hl1, hb1])
      (by rw [hb2, hs2, hb]) (by omega)
    have hl2s := hst2.length
    have hm := merge_spec comp (ap ++ s1' ++ s2' ++ aq) s1' s2' ap.length
      (ap.length + s.length / 2) (ap.length + s.length / 2) (ap.length + s.length)
      bp (b1' ++ b2') bq ⟨ap, s2' ++ aq, by simp, rfl⟩
      ⟨ap ++ s1', aq, rfl, by rw [List.length_append, hl1s, hs1]⟩
      (by rw [hl1s, hs1]) (by rw [hl2s, hs2]; omega)
      (by rw [List.length_append, hl1, hl2, hb1, hb2, hl1s, hl2s, hs1, hs2, hb])
    have hb12 : bp ++ b1' ++ b2' ++ bq = bp ++ (b1' ++ b2') ++ bq := by simp
    refine ⟨s1' ++ s2', List.merge s1' s2' (fun a b => !comp b a), ?_, ?_, ?_, ?_⟩
    · simp only [merge_sort_half, h1, ↓reduceIte, e1, Option.bind_eq_bind, Option.some_bind, e2,
        hb12, hm, Option.pure_def, Option.some.injEq, Prod.mk.injEq, and_true]
      simp
    · rw [List.length_append, hl1s, hl2s, hs1, hs2]
      omega
    · rw [(List.merge_perm_append _).length_eq, List.length_append, hl1s, hl2s, hs1, hs2]
      omega
    · rw [es]
      exact StableSorted.merge comp hswo hst1 hst2
  · have hlen : s.length = 1 := by omega
    cases s with
    | nil => simp at hlen
    | cons x0 s =>
      have : s = [] := List.length_eq_zero.1 (by simpa using hlen)
      subst this
      cases b with
      | nil => simp at hb
      | cons y b =>
        have : b = [] := List.length_eq_zero.1 (by simpa using hb)
        subst this
        have hr : (ap ++ [x0] ++ aq)[ap.length]? = some x0 := by
          have := getElem?_mid ap x0 aq
          simpa using this
        have hw : wr (bp ++ [y] ++ bq) bp.length x0 = some (bp ++ [x0] ++ bq) := by
          have := wr_mid bp y x0 bq
          simpa using this
        refine ⟨[x0], [x0], ?_, rfl, rfl, StableSorted.of_short comp _ (by simp)⟩
        simp only [merge_sort_half, h1, ↓reduceIte, hr, Option.bind_eq_bind, Option.some_bind,
          hw, Option.pure_def]

/-- `merge_sort_buffer` on a segment of the array with a segment of the buffer of the same
length: the call returns, the segment of the array holds the stable sort of what it held,
and nothing outside the two segments changes. -/
theorem merge_sort_buffer_spec (hswo : StrictWeakOrder comp) : ∀ (fuel : Nat)
    (seg ap aq bseg bp bq a buf : List α) (first last buffer : Nat),
    a = ap ++ seg ++ aq → buf = bp ++ bseg ++ bq → first = ap.length →
    last = first + seg.length → buffer = bp.length → bseg.length = seg.length →
    seg.length < fuel →
    ∃ seg2 bseg2, merge_sort_buffer comp fuel a buf first last buffer
        = some (ap ++ seg2 ++ aq, bp ++ bseg2 ++ bq) ∧
      bseg2.length = bseg.length ∧ StableSorted comp seg seg2 := by
  intro fuel
  induction fuel with
  | zero =>
    intro seg ap aq bseg bp bq a buf first last buffer _ _ _ _ _ _ hf
    omega
  | succ fuel ih =>
    intro seg ap aq bseg bp bq a buf first last buffer ha hbuf hfirst hlast hbuffer hb hf
    subst ha hbuf hfirst hlast hbuffer
    have hcount : ap.length + seg.length - ap.length = seg.length := by omega
    rw [merge_sort_buffer_succ, hcount]
    by_cases h1 : seg.length > 1
    · obtain ⟨es, hs1, hs2⟩ := take_drop_lengths seg (seg.length / 2) (Nat.div_le_self _ _)
      obtain ⟨eb, hb1, hb2⟩ := take_drop_lengths bseg (seg.length / 2)
        (by rw [hb]; exact Nat.div_le_self _ _)
      generalize seg.take (seg.length / 2) = s12 at es hs1
      generalize seg.drop (seg.length / 2) = s34 at es hs2
      generalize bseg.take (seg.length / 2) = b12 at eb hb1
      generalize bseg.drop (seg.length / 2) = b34 at eb hb2
      have hmid : 1 ≤ seg.length / 2 := by omega
      have hmid2 : seg.length / 2 < seg.length := by omega
      have hrec1 : ∀ (bound : Nat), bound ≤ fuel →
          ∀ (seg ap aq bseg bp bq a buf : List α) (first last buffer : Nat),
          a = ap ++ seg ++ aq → buf = bp ++ bseg ++ bq → first = ap.length →
          last = first + seg.length → buffer = bp.length → bseg.length = seg.length →
          seg.length < bound →
          ∃ seg2 bseg2, merge_sort_buffer comp fuel a buf first last buffer
              = some (ap ++ seg2 ++ aq, bp ++ bseg2 ++ bq) ∧
            bseg2.length = bseg.length ∧ StableSorted comp seg seg2 := by
        intro bound hbound seg ap aq bseg bp bq a buf first last buffer ha hbuf hfirst hlast
          hbuffer hb hlt
        exact ih seg ap aq bseg bp bq a buf first last buffer ha hbuf hfirst hlast hbuffer hb
          (by omega)
      obtain ⟨x12, m12, e1, hx12, hm12, hst12⟩ := merge_sort_half_spec comp hswo
        (merge_sort_buffer comp fuel) s12 ap (s34 ++ aq) b12 bp (b34 ++ bq)
        (hrec1 s12.length (by omega)) (seg.length / 2) ap.length
        (ap.length + seg.length / 2 / 2) (ap.length + seg.length / 2) bp.length
        (bp.length + seg.length / 2 / 2) hs1.symm (by omega) rfl rfl rfl rfl rfl
        (by rw [hb1, hs1])
      have ea : ap ++ seg ++ aq = ap ++ s12 ++ (s34 ++ aq) := by rw [es]; simp
      have eb2 : bp ++ bseg ++ bq = bp ++ b12 ++ (b34 ++ bq) := by rw [eb]; simp
      obtain ⟨x34, m34, e2, hx34, hm34, hst34⟩ := merge_sort_half_spec comp hswo
        (merge_sort_buffer comp fuel) s34 (ap ++ x12) aq b34 (bp ++ m12) bq
        (hrec1 s34.length (by omega)) (seg.length - seg.length / 2)
        (ap.length + seg.length / 2)
        (ap.length + (seg.length / 2 + (seg.length - seg.length / 2) / 2))
        (ap.length + seg.length) (bp.length + seg.length / 2)
        (bp.length + (seg.length / 2 + (seg.length - seg.length / 2) / 2))
        hs2.symm (by omega) (by rw [List.length_append, hx12, hs1]) (by omega) (by omega)
        (by rw [List.length_append, hm12, hs1]) (by omega) (by rw [hb2, hs2, hb])
      have ea2 : ap ++ x12 ++ (s34 ++ aq) = ap ++ x12 ++ s34 ++ aq := by simp
      have eb3 : bp ++ m12 ++ (b34 ++ bq) = bp ++ m12 ++ b34 ++ bq := by simp
      have hm := merge_spec comp (bp ++ m12 ++ m34 ++ bq) m12 m34 bp.length
        (bp.length + seg.length / 2) (bp.length + seg.length / 2) (bp.length + seg.length)
        ap (x12 ++ x34) aq ⟨bp, m34 ++ bq, by simp, rfl⟩
        ⟨bp ++ m12, bq, rfl, by rw [List.length_append, hm12, hs1]⟩
        (by rw [hm12, hs1]) (by rw [hm34, hs2]; omega)
        (by rw [List.length_append, hx12, hx34, hm12, hm34])
      have ea3 : ap ++ x12 ++ x34 ++ aq = ap ++ (x12 ++ x34) ++ aq := by simp
      refine ⟨List.merge m12 m34 (fun a b => !comp b a), m12 ++ m34, ?_, ?_, ?_⟩
      · simp only [gt_iff_lt, h1, ↓reduceIte, ea, eb2, e1, Option.bind_eq_bind,
          Option.some_bind, ea2, eb3, e2, ea3, hm, Option.some.injEq, Prod.mk.injEq, true_and]
        simp
      · rw [List.length_append, hm12, hm34, hs1, hs2, hb]
        omega
      · rw [es]
        exact StableSorted.merge comp hswo hst12 hst34
    · refine ⟨seg, bseg, ?_, rfl, StableSorted.of_short comp seg (by omega)⟩
      simp only [gt_iff_lt, h1, ↓reduceIte]

/-- `stable_sort` on an array with a buffer of the same length: the call returns the
stable sort of the array. -/
theorem stable_sort_holds (hswo : StrictWeakOrder comp) (a buf : List α)
    (hbuf : buf.length = a.length) :
    ∃ b, stable_sort comp a buf = some b ∧ StableSorted comp a b := by
  obtain ⟨seg2, bseg2, e, -, hst⟩ := merge_sort_buffer_spec comp hswo (a.length + 1)
    a [] [] buf [] [] a buf 0 a.length 0 (by simp) (by simp) rfl (by simp) rfl hbuf
    (Nat.lt_succ_self _)
  refine ⟨seg2, ?_, hst⟩
  simp [stable_sort, e]

end merge_sort


/-! ## The stable sort of a list is unique -/

set_option autoImplicit false

section stable_unique

variable {α : Type} (comp : α → α → Bool)

theorem keyLess_swo : StrictWeakOrder keyLess := by
  refine ⟨?_, ?_, ?_⟩
  · intro a
    simp [keyLess]
  · intro a b c
    simp only [keyLess, decide_eq_true_eq]
    omega
  · intro a b c
    simp only [keyLess, decide_eq_false_iff_not, decide_eq_true_eq]
    omega

/-- Two sorted rearrangements of one list that keep, for every element, the order of the
elements equivalent to it, are the same list. -/
theorem stable_sorted_unique (hswo : StrictWeakOrder comp) : ∀ (b1 b2 : List α),
    b1.Perm b2 → b1.Pairwise (fun x y => comp y x = false) →
    b2.Pairwise (fun x y => comp y x = false) →
    (∀ x, b1.filter (fun y => !comp x y && !comp y x)
      = b2.filter (fun y => !comp x y && !comp y x)) → b1 = b2 := by
  intro b1
  induction b1 with
  | nil =>
    intro b2 hp _ _ _
    exact (List.Perm.nil_eq hp)
  | cons x b1 ih =>
    intro b2 hp hs1 hs2 hf
    cases b2 with
    | nil => exact absurd hp.length_eq (by simp)
    | cons y b2 =>
      have hxy : comp x y = false := by
        have hx : x ∈ y :: b2 := hp.subset (List.mem_cons_self _ _)
        rcases List.mem_cons.1 hx with rfl | hx
        · exact hswo.irrefl _
        · exact (List.pairwise_cons.1 hs2).1 x hx
      have hyx : comp y x = false := by
        have hy : y ∈ x :: b1 := hp.symm.subset (List.mem_cons_self _ _)
        rcases List.mem_cons.1 hy with rfl | hy
        · exact hswo.irrefl _
        · exact (List.pairwise_cons.1 hs1).1 y hy
      have hPx : (!comp x x && !comp x x) = true := by simp [hswo.irrefl]
      have hPy : (!comp x y && !comp y x) = true := by simp [hxy, hyx]
      have h0 := hf x
      rw [filter_class_pos comp x x b1 hPx, filter_class_pos comp x y b2 hPy] at h0
      have hyeq : x = y := (List.cons.inj h0).1
      subst hyeq
      have hrec := ih b2 (List.Perm.cons_inv hp) (List.pairwise_cons.1 hs1).2
        (List.pairwise_cons.1 hs2).2 (by
          intro z
          have hz := hf z
          by_cases hPz : (!comp z x && !comp x z) = true
          · rw [filter_class_pos comp z x b1 hPz, filter_class_pos comp z x b2 hPz] at hz
            exact (List.cons.inj hz).2
          · rw [filter_class_neg comp z x b1 hPz, filter_class_neg comp z x b2 hPz] at hz
            exact hz)
      rw [hrec]

end stable_unique


/-! ## `is_heap_until` on arbitrary ranges -/

set_option autoImplicit false

section heap_until

variable {α : Type} (comp : α → α → Bool)

/-- The loop of `is_heap_until` from the child index `c` on stops at the first index whose
element is greater than its parent, or at the end of the range. -/
theorem is_heap_until_loop_spec (d : α) (a : List α) :
    ∀ (fuel c : Nat), 0 < c → a.length < fuel + c → 0 < fuel →
    ∃ r, is_heap_until_loop comp fuel a ((c - 1) / 2) c = some r ∧ r ≤ a.length ∧
      (∀ i, c ≤ i → i < r → comp (gv d a ((i - 1) / 2)) (gv d a i) = false) ∧
      (r < a.length → c ≤ r ∧ comp (gv d a ((r - 1) / 2)) (gv d a r) = true) := by
  intro fuel
  induction fuel with
  | zero =>
    intro c hc hf h0
    omega
  | succ fuel ih =>
    intro c hc hf _
    by_cases hlt : c < a.length
    · rcases Bool.eq_false_or_eq_true (comp (gv d a ((c - 1) / 2)) (gv d a c)) with h1 | h1
      · refine ⟨c, ?_, by omega, fun i hi hic => by omega, fun _ => ⟨le_refl _, h1⟩⟩
        simp only [is_heap_until_loop, hlt, ↓reduceIte,
          getElem?_eq_gv d a ((c - 1) / 2) (by omega), getElem?_eq_gv d a c hlt,
          Option.bind_eq_bind, Option.some_bind, h1, Option.pure_def]
      · have hs : (if c % 2 = 0 then (c - 1) / 2 + 1 else (c - 1) / 2) = (c + 1 - 1) / 2 := by
          split <;> omega
        obtain ⟨r, e, hr, hb, hf2⟩ := ih (c + 1) (by omega) (by omega) (by omega)
        refine ⟨r, ?_, hr, ?_, fun h => ⟨by have := (hf2 h).1; omega, (hf2 h).2⟩⟩
        · simp only [is_heap_until_loop, hlt, ↓reduceIte,
            getElem?_eq_gv d a ((c - 1) / 2) (by omega), getElem?_eq_gv d a c hlt,
            Option.bind_eq_bind, Option.some_bind, h1, Bool.false_eq_true, hs]
          exact e
        · intro i hi hir
          by_cases hic : i = c
          · rw [hic]
            exact h1
          · exact hb i (by omega) hir
    · refine ⟨a.length, ?_, le_refl _, fun i hi hia => by omega, fun h => by omega⟩
      simp only [is_heap_until_loop, hlt, ↓reduceIte, Option.pure_def]

end heap_until


/-! ## Both inputs of a merge are sublists of the output -/

set_option autoImplicit false

section merge_sublist

variable {α : Type}

/-- The first input of a merge keeps its order in the output. -/
theorem merge_sublist_left (s : α → α → Bool) : ∀ (l r : List α),
    l.Sublist (List.merge l r s) := by
  intro l
  induction l with
  | nil =>
    intro r
    exact List.nil_sublist _
  | cons a l ih =>
    intro r
    induction r with
    | nil =>
      simp [List.merge]
    | cons b r ihr =>
      rw [List.cons_merge_cons]
      split
      · exact (ih (b :: r)).cons₂ a
      · exact ihr.cons b

/-- The second input of a merge keeps its order in the output. -/
theorem merge_sublist_right (s : α → α → Bool) : ∀ (l r : List α),
    r.Sublist (List.merge l r s) := by
  intro l
  induction l with
  | nil =>
    intro r
    simp [List.merge]
  | cons a l ih =>
    intro r
    induction r with
    | nil =>
      exact List.nil_sublist _
    | cons b r ihr =>
      rw [List.cons_merge_cons]
      split
      · exact (ih (b :: r)).cons a
      · exact ihr.cons₂ b

end merge_sublist


/-! ## `stable_sort` with a buffer shorter than the range -/

set_option autoImplicit false

section short_buffer

variable {α : Type} (comp : α → α → Bool)

/-- A store that succeeds keeps the length and lies inside the array. -/
theorem wr_some {a b : List α} {i : Nat} {v : α} (h : wr a i v = some b) :
    b.length = a.length ∧ i < a.length := by
  unfold wr at h
  split at h
  · cases h
    exact ⟨by simp, by assumption⟩
  · cases h

/-- A copy that succeeds keeps the length of the output array and has read only inside the
input array. -/
theorem copy_loop_some : ∀ (n : Nat) (src dst : List α) (first d : Nat) (r : List α × Nat),
    copy_loop n src dst first d = some r →
    r.1.length = dst.length ∧ (0 < n → first + n ≤ src.length) := by
  intro n
  induction n with
  | zero =>
    intro src dst first d r h
    simp only [copy_loop, Option.some.injEq] at h
    subst h
    exact ⟨rfl, fun h0 => absurd h0 (by omega)⟩
  | succ n ih =>
    intro src dst first d r h
    simp only [copy_loop, Option.bind_eq_bind, Option.bind_eq_some] at h
    obtain ⟨x, hx, dst1, hw, hr⟩ := h
    obtain ⟨h1, h2⟩ := ih src dst1 (first + 1) (d + 1) r hr
    have hlt : first < src.length := (List.getElem?_eq_some.1 hx).1
    refine ⟨by rw [h1, (wr_some hw).1], fun _ => ?_⟩
    by_cases hn : 0 < n
    · have := h2 hn
      omega
    · omega

/-- A merge that succeeds keeps the length of the output array and has read both input
ranges inside the input array. -/
theorem merge_loop_some (src : List α) : ∀ (fuel : Nat) (dst : List α)
    (f1 last1 f2 last2 d : Nat) (r : List α × Nat),
    (merge_loop comp fuel src dst f1 last1 f2 last2 d).bind (merge_copies src last1 last2)
      = some r →
    r.1.length = dst.length ∧ (f2 < last2 → last2 ≤ src.length) ∧
      (f1 < last1 → last1 ≤ src.length) := by
  intro fuel
  induction fuel with
  | zero =>
    intro dst f1 last1 f2 last2 d r h
    simp [merge_loop] at h
  | succ fuel ih =>
    intro dst f1 last1 f2 last2 d r h
    by_cases hc : f1 ≠ last1 ∧ f2 ≠ last2
    · rw [merge_loop, if_pos hc] at h
      cases h2 : src[f2]? with
      | none => simp [h2] at h
      | some x2 =>
        cases h1 : src[f1]? with
        | none => simp [h2, h1] at h
        | some x1 =>
          have hlt2 : f2 < src.length := (List.getElem?_eq_some.1 h2).1
          have hlt1 : f1 < src.length := (List.getElem?_eq_some.1 h1).1
          cases hcmp : comp x2 x1 with
          | true =>
            cases hw : wr dst d x2 with
            | none => simp [h2, h1, hcmp, hw] at h
            | some dst1 =>
              simp only [h2, h1, hcmp, hw, Option.bind_eq_bind, Option.some_bind,
                ↓reduceIte] at h
              obtain ⟨e1, e2, e3⟩ := ih dst1 f1 last1 (f2 + 1) last2 (d + 1) r h
              refine ⟨by rw [e1, (wr_some hw).1], fun hlt => ?_, e3⟩
              by_cases hn : f2 + 1 < last2
              · exact e2 hn
              · omega
          | false =>
            cases hw : wr dst d x1 with
            | none => simp [h2, h1, hcmp, hw] at h
            | some dst1 =>
              simp only [h2, h1, hcmp, hw, Option.bind_eq_bind, Option.some_bind,
                Bool.false_eq_true, ↓reduceIte] at h
              obtain ⟨e1, e2, e3⟩ := ih dst1 (f1 + 1) last1 f2 last2 (d + 1) r h
              refine ⟨by rw [e1, (wr_some hw).1], e2, fun hlt => ?_⟩
              by_cases hn : f1 + 1 < last1
              · exact e3 hn
              · omega
    · rw [merge_loop, if_neg hc] at h
      simp only [Option.some_bind, merge_copies, copy, Option.bind_eq_bind,
        Option.bind_eq_some] at h
      obtain ⟨r1, hr1, hr2⟩ := h
      obtain ⟨a1, a2⟩ := copy_loop_some (last1 - f1) src dst f1 d r1 hr1
      obtain ⟨b1, b2⟩ := copy_loop_some (last2 - f2) src r1.1 f2 r1.2 r hr2
      refine ⟨by rw [b1, a1], fun hlt => ?_, fun hlt => ?_⟩
      · have := b2 (by omega)
        omega
      · have := a2 (by omega)
        omega

/-- The same for `merge`. -/
theorem merge_some (src dst : List α) (f1 last1 f2 last2 d : Nat) (r : List α × Nat)
    (h : merge comp src dst f1 last1 f2 last2 d = some r) :
    r.1.length = dst.length ∧ (f2 < last2 → last2 ≤ src.length) ∧
      (f1 < last1 → last1 ≤ src.length) :=
  merge_loop_some comp src _ dst f1 last1 f2 last2 d r h

/-- One half of `merge_sort_buffer` keeps the lengths of both arrays when the recursive
calls do. -/
theorem merge_sort_half_some
    (msb : List α → List α → Nat → Nat → Nat → Option (List α × List α))
    (hrec : ∀ (a buf : List α) (first last buffer : Nat) (r : List α × List α),
      msb a buf first last buffer = some r →
      r.1.length = a.length ∧ r.2.length = buf.length)
    (n : Nat) (a buf : List α) (first part last buffer bufpart : Nat) (r : List α × List α)
    (h : merge_sort_half comp msb n a buf first part last buffer bufpart = some r) :
    r.1.length = a.length ∧ r.2.length = buf.length := by
  unfold merge_sort_half at h
  by_cases hn : n > 1
  · simp only [hn, ↓reduceIte, Option.bind_eq_bind, Option.bind_eq_some, Option.pure_def,
      Option.some.injEq] at h
    obtain ⟨r1, h1, r2, h2, r3, h3, e⟩ := h
    obtain ⟨a1, b1⟩ := hrec _ _ _ _ _ _ h1
    obtain ⟨a2, b2⟩ := hrec _ _ _ _ _ _ h2
    obtain ⟨c3, -, -⟩ := merge_some comp _ _ _ _ _ _ _ _ h3
    subst e
    exact ⟨by rw [a2, a1], by rw [c3, b2, b1]⟩
  · simp only [hn, ↓reduceIte, Option.bind_eq_bind, Option.bind_eq_some, Option.pure_def,
      Option.some.injEq] at h
    obtain ⟨x, -, buf1, hw, e⟩ := h
    subst e
    exact ⟨rfl, (wr_some hw).1⟩

/-- A call of `merge_sort_buffer` that succeeds keeps the lengths of the array and of the
buffer and, on a range of more than one element, has the whole buffer range
`[buffer, buffer + count)` inside the buffer. -/
theorem merge_sort_buffer_some : ∀ (fuel : Nat) (a buf : List α) (first last buffer : Nat)
    (r : List α × List α), merge_sort_buffer comp fuel a buf first last buffer = some r →
    r.1.length = a.length ∧ r.2.length = buf.length ∧
      (1 < last - first → buffer + (last - first) ≤ buf.length) := by
  intro fuel
  induction fuel with
  | zero =>
    intro a buf first last buffer r h
    simp [merge_sort_buffer] at h
  | succ fuel ih =>
    intro a buf first last buffer r h
    rw [merge_sort_buffer_succ] at h
    by_cases hc : last - first > 1
    · simp only [hc, ↓reduceIte, Option.bind_eq_some, Option.some.injEq] at h
      obtain ⟨r1, h1, r2, h2, r3, h3, e⟩ := h
      have hrec : ∀ (a buf : List α) (first last buffer : Nat) (r : List α × List α),
          merge_sort_buffer comp fuel a buf first last buffer = some r →
          r.1.length = a.length ∧ r.2.length = buf.length :=
        fun a buf first last buffer r h => ⟨(ih a buf first last buffer r h).1,
          (ih a buf first last buffer r h).2.1⟩
      obtain ⟨a1, b1⟩ := merge_sort_half_some comp _ hrec _ _ _ _ _ _ _ _ _ h1
      obtain ⟨a2, b2⟩ := merge_sort_half_some comp _ hrec _ _ _ _ _ _ _ _ _ h2
      obtain ⟨c3, d3, -⟩ := merge_some comp _ _ _ _ _ _ _ _ h3
      subst e
      refine ⟨by rw [c3, a2, a1], by rw [b2, b1], fun _ => ?_⟩
      have := d3 (by omega)
      rw [b2, b1] at this
      exact this
    · simp only [hc, ↓reduceIte, Option.some.injEq] at h
      subst h
      exact ⟨rfl, rfl, fun h1 => absurd h1 hc⟩

/-- With a buffer of fewer elements than a range of two or more elements, `stable_sort`
reads or writes outside the buffer. -/
theorem stable_sort_short_buffer (a buf : List α) (ha : 2 ≤ a.length)
    (hb : buf.length < a.length) : stable_sort comp a buf = none := by
  unfold stable_sort
  cases h : merge_sort_buffer comp (a.length + 1) a buf 0 a.length 0 with
  | none => rfl
  | some r =>
    have := (merge_sort_buffer_some comp _ _ _ _ _ _ r h).2.2 (by omega)
    omega

/-- The loop of `get_temporary_buffer` returns: a length not above the request that is `0`
or was granted, and at most half the request when the request itself is refused. -/
theorem get_temporary_buffer_loop_spec (malloc : Nat → Bool) (sizeofT : Nat) :
    ∀ (fuel len : Nat), len < fuel →
    ∃ r, get_temporary_buffer_loop malloc sizeofT fuel len = some r ∧ r ≤ len ∧
      (r = 0 ∨ malloc (r * sizeofT) = true) ∧
      (malloc (len * sizeofT) = false → r ≤ len / 2) := by
  intro fuel
  induction fuel with
  | zero =>
    intro len h
    omega
  | succ fuel ih =>
    intro len h
    by_cases h0 : len > 0
    · cases hm : malloc (len * sizeofT) with
      | true =>
        exact ⟨len, by simp only [get_temporary_buffer_loop, h0, ↓reduceIte, hm], le_refl _,
          Or.inr hm, fun hf => by cases hf⟩
      | false =>
        obtain ⟨r, e, hr, hg, -⟩ := ih (len / 2) (by omega)
        exact ⟨r, by simp only [get_temporary_buffer_loop, h0, ↓reduceIte, hm,
          Bool.false_eq_true, e], by omega, hg, fun _ => hr⟩
    · exact ⟨0, by simp only [get_temporary_buffer_loop, h0, ↓reduceIte], Nat.zero_le _,
        Or.inl rfl, fun _ => Nat.zero_le _⟩

end short_buffer


/-! ## The functions under a comparator that can throw agree with the plain ones when the
comparator never throws -/

set_option autoImplicit false

section throwing_total

variable {α : Type} (comp : α → α → Bool)

theorem ofOption_bind {σ β γ : Type} (o : Option β) (f : β → Option γ) :
    (Outcome.ofOption (o.bind f) : Outcome σ γ)
      = (Outcome.ofOption o).bind (fun x => Outcome.ofOption (f x)) := by
  cases o <;> rfl

theorem ofOption_none {σ β : Type} :
    (Outcome.ofOption (none : Option β) : Outcome σ β) = Outcome.fault := rfl

theorem bind_fault {σ β γ : Type} (f : β → Outcome σ γ) :
    (Outcome.fault : Outcome σ β).bind f = Outcome.fault := rfl

theorem outcome_pure_eq {σ β : Type} (x : β) :
    (pure x : Outcome σ β) = Outcome.ret x := rfl

end throwing_total


/-! ## `map::at` on a valid tree -/

set_option autoImplicit false

section map_at_spec

variable {κ β : Type} (KeyCompare : κ → κ → Bool)

/-- `map::at(k)` on a valid map, by the first pair in key order whose key is not less than
`k`: without such a pair the iterator is `end()`, with it the iterator is its node. -/
theorem map_at_first (hswo : StrictWeakOrder KeyCompare) {t : rbtree (κ × β)}
    {T : Tr (κ × β)} (h : t.Holds T) (ho : Ordered Prod.fst KeyCompare T.vals) (k : κ)
    (fuel : Nat) (hf : T.ptrs.length < fuel) (exceptions : Bool) :
    map_at KeyCompare exceptions t fuel k =
      match T.vals.find? (fun v => !KeyCompare v.1 k) with
      | none => if exceptions then some at_result.rethrow_terminate else none
      | some v =>
        if exceptions && KeyCompare k v.1 then some at_result.rethrow_terminate
        else some (at_result.value v.2) := by
  have hlb := LowerBound_spec hswo T t.mHeader h.mem.tree ho k t.mHeader fuel hf
  have hvals : T.vals.find? (fun v => !KeyCompare v.1 k)
      = (T.elems.find? (fun e => !KeyCompare (Prod.fst e.2) k)).map Prod.snd := by
    rw [Tr.vals_eq_map_elems, List.find?_map]
    rfl
  rw [hvals]
  simp only [map_at, rbtree.lower_bound, rbtree.mRoot, rbtree.mEnd, h.mem.hdr, hlb,
    Option.bind_eq_bind, Option.some_bind, Option.pure_def]
  cases hfind : T.elems.find? (fun e => !KeyCompare (Prod.fst e.2) k) with
  | none =>
    have hs : sValue t t.mHeader = none := by
      simp [sValue, h.mem.hdr_ne, h.hdr_val]
    cases exceptions <;> simp [hs]
  | some e =>
    have he : e ∈ T.elems := List.mem_of_find?_eq_some hfind
    have hne : e.1 ≠ t.mHeader := by
      intro e2
      apply h.mem.hdr_notin
      rw [Tr.ptrs_eq_map_elems, ← e2]
      exact List.mem_map_of_mem _ he
    have hs : sValue t e.1 = some e.2 := TreeAt_sValue_elems h.mem.tree e he
    cases exceptions <;> cases hc : KeyCompare k e.2.1 <;> simp [hne, hs, hc]

/-- The maps built by `mapOfList` are valid. -/
theorem map_fold_valid : ∀ (l : List (Nat × Nat)) (t : rbtree (Nat × Nat))
    (T : Tr (Nat × Nat)), t.Holds T →
    Ordered Prod.fst natLess T.vals → RedBlack T → T.ptrs.length + l.length + 1 ≤ 40 →
    (l.foldl (fun t v => match t.DoInsertUnique Prod.fst natLess 40 v with
      | some (_, t2) => t2
      | none => t) t).Valid Prod.fst natLess := by
  intro l
  induction l with
  | nil =>
    intro t T h ho hrb _
    exact ⟨T, h, ho, hrb⟩
  | cons v l ih =>
    intro t T h ho hrb hlen
    simp only [List.length_cons] at hlen
    rw [List.foldl_cons]
    rcases DoInsertUnique_holds Prod.fst natLess natLess_swo h ho hrb v 40 (by omega) with
      ⟨e, -, -, -, he⟩ | ⟨-, t2, T2, he, h2, ho2, hrb2, -, hvals⟩
    · rw [he]
      exact ih t T h ho hrb (by omega)
    · rw [he]
      refine ih t2 T2 h2 ho2 hrb2 ?_
      have : T2.ptrs.length = T.ptrs.length + 1 := by
        rw [← Tr.vals_length, hvals, takeWhile_dropWhile_length, Tr.vals_length]
      omega

/-- The map built by at most 39 insertions with fuel 40 is valid. -/
theorem mapOfList_valid (l : List (Nat × Nat)) (hl : l.length ≤ 39) :
    (mapOfList l).Valid Prod.fst natLess :=
  map_fold_valid l rbtree.init Tr.nil init_holds (by simp [Ordered, Tr.vals]) RedBlack_nil
    (by simp only [Tr.ptrs, List.length_nil]; omega)

end map_at_spec


/-! ## The two scans of `unsafe_partition` -/

set_option autoImplicit false

section partition_scans

variable {α : Type} (comp : α → α → Bool)

/-- The upward scan stops at the first element from `first` on that is not less than the
pivot, at the latest at a known one. -/
theorem partition_up_spec (d : α) (arr : List α) (pv : Nat) (hpv : pv < arr.length) :
    ∀ (fuel first u : Nat), first ≤ u → u < arr.length →
    comp (gv d arr u) (gv d arr pv) = false → u - first < fuel →
    ∃ r, partition_up comp fuel arr first pv = some r ∧ first ≤ r ∧ r ≤ u ∧
      comp (gv d arr r) (gv d arr pv) = false ∧
      ∀ j, first ≤ j → j < r → comp (gv d arr j) (gv d arr pv) = true := by
  intro fuel
  induction fuel with
  | zero =>
    intro first u _ _ _ hf
    omega
  | succ fuel ih =>
    intro first u hfu hu hg hf
    rcases Bool.eq_false_or_eq_true (comp (gv d arr first) (gv d arr pv)) with hc | hc
    · have hne : first ≠ u := by
        rintro rfl
        rw [hg] at hc
        exact absurd hc (by simp)
      obtain ⟨r, e, h1, h2, h3, h4⟩ := ih (first + 1) u (by omega) hu hg (by omega)
      refine ⟨r, ?_, by omega, h2, h3, fun j hj hjr => ?_⟩
      · simp only [partition_up, getElem?_eq_gv d arr first (by omega),
          getElem?_eq_gv d arr pv hpv, Option.bind_eq_bind, Option.some_bind, hc, ↓reduceIte, e]
      · by_cases hjf : j = first
        · rw [hjf]
          exact hc
        · exact h4 j (by omega) hjr
    · refine ⟨first, ?_, le_refl _, hfu, hc, fun j hj hjr => by omega⟩
      simp only [partition_up, getElem?_eq_gv d arr first (by omega),
        getElem?_eq_gv d arr pv hpv, Option.bind_eq_bind, Option.some_bind, hc,
        Bool.false_eq_true, ↓reduceIte, Option.pure_def]

/-- The downward scan stops at the first element from `last` down that is not greater than
the pivot, at the latest at a known one. -/
theorem partition_down_spec (d : α) (arr : List α) (pv : Nat) (hpv : pv < arr.length) :
    ∀ (fuel last g : Nat), g ≤ last → last < arr.length →
    comp (gv d arr pv) (gv d arr g) = false → last - g < fuel →
    ∃ r, partition_down comp fuel arr last pv = some r ∧ g ≤ r ∧ r ≤ last ∧
      comp (gv d arr pv) (gv d arr r) = false ∧
      ∀ j, r < j → j ≤ last → comp (gv d arr pv) (gv d arr j) = true := by
  intro fuel
  induction fuel with
  | zero =>
    intro last g _ _ _ hf
    omega
  | succ fuel ih =>
    intro last g hgl hl hg hf
    rcases Bool.eq_false_or_eq_true (comp (gv d arr pv) (gv d arr last)) with hc | hc
    · have hne : g ≠ last := by
        rintro rfl
        rw [hg] at hc
        exact absurd hc (by simp)
      have h0 : last ≠ 0 := by omega
      obtain ⟨r, e, h1, h2, h3, h4⟩ := ih (last - 1) g (by omega) (by omega) hg (by omega)
      refine ⟨r, ?_, h1, by omega, h3, fun j hj hjl => ?_⟩
      · simp only [partition_down, getElem?_eq_gv d arr last hl,
          getElem?_eq_gv d arr pv hpv, Option.bind_eq_bind, Option.some_bind, hc, ↓reduceIte,
          h0, e]
      · by_cases hjf : j = last
        · rw [hjf]
          exact hc
        · exact h4 j hj (by omega)
    · refine ⟨last, ?_, hgl, le_refl _, hc, fun j hj hjl => by omega⟩
      simp only [partition_down, getElem?_eq_gv d arr last hl,
        getElem?_eq_gv d arr pv hpv, Option.bind_eq_bind, Option.some_bind, hc,
        Bool.false_eq_true, ↓reduceIte, Option.pure_def]

/-- `iter_swap` of two places of the array. -/
theorem iter_swap_spec (d : α) (arr : List α) (i j : Nat) (hi : i < arr.length)
    (hj : j < arr.length) :
    iter_swap arr i j = some ((arr.set i (gv d arr j)).set j (gv d arr i)) := by
  simp only [iter_swap, getElem?_eq_gv d arr i hi, getElem?_eq_gv d arr j hj,
    Option.bind_eq_bind, Option.some_bind, wr_of_lt arr i _ hi]
  exact wr_of_lt _ j _ (by simpa using hj)

/-- Exchanging two places rearranges the array. -/
theorem swap_perm (d : α) (arr : List α) (i j : Nat) (hi : i < arr.length)
    (hj : j < arr.length) :
    ((arr.set i (gv d arr j)).set j (gv d arr i)).Perm arr := by
  by_cases hij : i = j
  · subst hij
    rw [List.set_set, set_gv_self d arr i hi]
  · refine (set_set_perm_swap (gv d arr j) (gv d arr i) arr i j hij hi hj).trans ?_
    rw [set_gv_self d arr i hi, set_gv_self d arr j hj]

end partition_scans


/-! ## `unsafe_partition` -/

set_option autoImplicit false

section partition_loop

variable {α : Type} (comp : α → α → Bool)

theorem gv_swap_left (d : α) (arr : List α) (i j : Nat) (x y : α) (hij : i ≠ j)
    (hi : i < arr.length) : gv d ((arr.set i x).set j y) i = x := by
  rw [gv_set_ne d _ j i y (fun e => hij e.symm), gv_set_self d arr i x hi]

theorem gv_swap_right (d : α) (arr : List α) (i j : Nat) (x y : α)
    (hj : j < arr.length) : gv d ((arr.set i x).set j y) j = y :=
  gv_set_self d _ j y (by simpa using hj)

theorem gv_swap_ne (d : α) (arr : List α) (i j k : Nat) (x y : α) (hi : k ≠ i)
    (hj : k ≠ j) : gv d ((arr.set i x).set j y) k = gv d arr k := by
  rw [gv_set_ne d _ j k y (fun e => hj e.symm), gv_set_ne d arr i k x (fun e => hi e.symm)]

/-- `unsafe_partition` with the pivot just below the range, from a state in which the
elements below `first` are not greater than the pivot, the elements from `last` on are not
less, and an element not less than the pivot lies in between: it returns a rearrangement of
the range and a cut inside it, with the elements before the cut not greater than the pivot
and the elements from the cut on not less. -/
theorem unsafe_partition_spec (hswo : StrictWeakOrder comp) (d : α) (pv f L0 : Nat)
    (hpvf : pv + 1 = f) :
    ∀ (fuel : Nat) (arr : List α) (first last : Nat),
    f ≤ first → first ≤ last → last ≤ L0 → L0 ≤ arr.length →
    (∀ j, f ≤ j → j < first → comp (gv d arr pv) (gv d arr j) = false) →
    (∀ j, last ≤ j → j < L0 → comp (gv d arr j) (gv d arr pv) = false) →
    (∃ u, first ≤ u ∧ u ≤ last ∧ u < L0 ∧ comp (gv d arr u) (gv d arr pv) = false) →
    last - first < fuel →
    ∃ b cut, unsafe_partition comp fuel arr first last pv = some (b, cut) ∧
      b.length = arr.length ∧ b.Perm arr ∧ (∀ j, j < f ∨ L0 ≤ j → b[j]? = arr[j]?) ∧
      f ≤ cut ∧ cut < L0 ∧
      (∀ j, f ≤ j → j < cut → comp (gv d b pv) (gv d b j) = false) ∧
      (∀ j, cut ≤ j → j < L0 → comp (gv d b j) (gv d b pv) = false) := by
  intro fuel
  induction fuel with
  | zero =>
    intro arr first last _ _ _ _ _ _ _ hf
    omega
  | succ fuel ih =>
    intro arr first last hff hfl hlL hLa hleft hright hsent hfuel
    obtain ⟨u, hu1, hu2, hu3, hu4⟩ := hsent
    have hpv : pv < arr.length := by omega
    obtain ⟨r, er, hr1, hr2, hr3, hr4⟩ := partition_up_spec comp d arr pv hpv
      (arr.length + 1) first u hu1 (by omega) hu4 (by omega)
    have hl0 : last ≠ 0 := by omega
    have hguard : comp (gv d arr pv) (gv d arr (r - 1)) = false := by
      by_cases hrf : r = f
      · have : r - 1 = pv := by omega
        rw [this]
        exact hswo.irrefl _
      · by_cases hlt : r - 1 < first
        · exact hleft (r - 1) (by omega) hlt
        · exact hswo.asymm comp (hr4 (r - 1) (by omega) (by omega))
    obtain ⟨r2, e2, hd1, hd2, hd3, hd4⟩ := partition_down_spec comp d arr pv hpv
      (arr.length + 1) (last - 1) (r - 1) (by omega) (by omega) hguard (by omega)
    have hleft2 : ∀ j, f ≤ j → j < r → comp (gv d arr pv) (gv d arr j) = false := by
      intro j hj hjr
      by_cases hlt : j < first
      · exact hleft j hj hlt
      · exact hswo.asymm comp (hr4 j (by omega) hjr)
    have hright2 : ∀ j, r2 < j → j < L0 → comp (gv d arr j) (gv d arr pv) = false := by
      intro j hj hjL
      by_cases hlt : last ≤ j
      · exact hright j hlt hjL
      · exact hswo.asymm comp (hd4 j hj (by omega))
    by_cases hlt : r < r2
    · have hsw := iter_swap_spec d arr r r2 (by omega) (by omega)
      have hpvr : pv ≠ r := by omega
      have hpvr2 : pv ≠ r2 := by omega
      have hgpv : gv d ((arr.set r (gv d arr r2)).set r2 (gv d arr r)) pv = gv d arr pv :=
        gv_swap_ne d arr r r2 pv _ _ hpvr hpvr2
      obtain ⟨b, cut, e, hbl, hbp, hbo, hc1, hc2, hc3, hc4⟩ :=
        ih ((arr.set r (gv d arr r2)).set r2 (gv d arr r)) (r + 1) r2 (by omega) (by omega)
          (by omega) (by simpa using hLa)
          (by
            intro j hj hjr
            rw [hgpv]
            by_cases hjr2 : j = r
            · rw [hjr2, gv_swap_left d arr r r2 _ _ (by omega) (by omega)]
              exact hd3
            · rw [gv_swap_ne d arr r r2 j _ _ hjr2 (by omega)]
              exact hleft2 j hj (by omega))
          (by
            intro j hj hjL
            rw [hgpv]
            by_cases hjr2 : j = r2
            · rw [hjr2, gv_swap_right d arr r r2 _ _ (by omega)]
              exact hr3
            · rw [gv_swap_ne d arr r r2 j _ _ (by omega) hjr2]
              exact hright2 j (by omega) hjL)
          ⟨r2, by omega, le_refl _, by omega, by
            rw [hgpv, gv_swap_right d arr r r2 _ _ (by omega)]
            exact hr3⟩
          (by omega)
      refine ⟨b, cut, ?_, by simpa using hbl, hbp.trans (swap_perm d arr r r2 (by omega)
        (by omega)), ?_, hc1, hc2, hc3, hc4⟩
      · simp only [unsafe_partition, er, Option.bind_eq_bind, Option.some_bind, hl0,
          ↓reduceIte, e2, hlt, hsw, e]
      · intro j hj
        rw [hbo j hj, List.getElem?_set_ne (by omega), List.getElem?_set_ne (by omega)]
    · refine ⟨arr, r, ?_, rfl, List.Perm.refl _, fun _ _ => rfl, hr1.trans' hff, by omega,
        hleft2, ?_⟩
      · simp only [unsafe_partition, er, Option.bind_eq_bind, Option.some_bind, hl0,
          ↓reduceIte, e2, hlt, Option.pure_def]
      · intro j hj hjL
        by_cases hjr : j = r
        · rw [hjr]
          exact hr3
        · exact hright2 j (by omega) hjL

end partition_loop


/-! ## `move_median_to_first` and `unsafe_partition_pivot` -/

set_option autoImplicit false

section partition_pivot

variable {α : Type} (comp : α → α → Bool)

/-- Exchanging the first place with the place `m` when another place `g` of the range holds
an element that is not less than the one of `m`. -/
theorem swap_first_guard (d : α) (arr : List α) (first m g ic : Nat) (hm : first < m)
    (hg : first < g) (hmg : m ≠ g) (hmc : m ≤ ic) (hgc : g ≤ ic) (hic : ic < arr.length)
    (hc : comp (gv d arr g) (gv d arr m) = false) :
    ∃ b, iter_swap arr first m = some b ∧ b.length = arr.length ∧ b.Perm arr ∧
      (∀ j, j < first ∨ ic < j → b[j]? = arr[j]?) ∧
      ∃ u, first < u ∧ u ≤ ic ∧ comp (gv d b u) (gv d b first) = false := by
  refine ⟨_, iter_swap_spec d arr first m (by omega) (by omega), by simp,
    swap_perm d arr first m (by omega) (by omega), ?_, g, hg, hgc, ?_⟩
  · intro j hj
    rw [List.getElem?_set_ne (by omega), List.getElem?_set_ne (by omega)]
  · rw [gv_swap_ne d arr first m g _ _ (by omega) (fun e => hmg e.symm),
      gv_swap_left d arr first m _ _ (by omega) (by omega)]
    exact hc

/-- `move_median_to_first` on three distinct places above `first`: afterwards one of the
three places holds an element that is not less than the one moved to `first`. -/
theorem move_median_to_first_spec (hswo : StrictWeakOrder comp) (d : α) (arr : List α)
    (first ia ib ic : Nat) (h1 : first < ia) (h2 : ia < ib) (h3 : ib < ic)
    (h4 : ic < arr.length) :
    ∃ b, move_median_to_first comp arr first ia ib ic = some b ∧ b.length = arr.length ∧
      b.Perm arr ∧ (∀ j, j < first ∨ ic < j → b[j]? = arr[j]?) ∧
      ∃ u, first < u ∧ u ≤ ic ∧ comp (gv d b u) (gv d b first) = false := by
  simp only [move_median_to_first, getElem?_eq_gv d arr ia (by omega),
    getElem?_eq_gv d arr ib (by omega), getElem?_eq_gv d arr ic h4, Option.bind_eq_bind,
    Option.some_bind]
  cases hab : comp (gv d arr ia) (gv d arr ib) with
  | true =>
    cases hbc : comp (gv d arr ib) (gv d arr ic) with
    | true =>
      simp only [↓reduceIte]
      exact swap_first_guard comp d arr first ib ic ic (by omega) (by omega) (by omega)
        (by omega) (le_refl _) h4 (hswo.asymm comp hbc)
    | false =>
      cases hac : comp (gv d arr ia) (gv d arr ic) with
      | true =>
        simp only [↓reduceIte, Bool.false_eq_true]
        exact swap_first_guard comp d arr first ic ib ic (by omega) (by omega) (by omega)
          (le_refl _) (by omega) h4 hbc
      | false =>
        simp only [↓reduceIte, Bool.false_eq_true]
        exact swap_first_guard comp d arr first ia ib ic (by omega) (by omega) (by omega)
          (by omega) (by omega) h4 (hswo.asymm comp hab)
  | false =>
    cases hac : comp (gv d arr ia) (gv d arr ic) with
    | true =>
      simp only [↓reduceIte, Bool.false_eq_true]
      exact swap_first_guard comp d arr first ia ic ic (by omega) (by omega) (by omega)
        (by omega) (le_refl _) h4 (hswo.asymm comp hac)
    | false =>
      cases hbc : comp (gv d arr ib) (gv d arr ic) with
      | true =>
        simp only [↓reduceIte, Bool.false_eq_true]
        exact swap_first_guard comp d arr first ic ia ic (by omega) (by omega) (by omega)
          (le_refl _) (by omega) h4 hac
      | false =>
        simp only [↓reduceIte, Bool.false_eq_true]
        exact swap_first_guard comp d arr first ib ia ic (by omega) (by omega) (by omega)
          (by omega) (by omega) h4 hab

/-- `unsafe_partition_pivot` on a range of more than `S_threshold` elements returns a
rearrangement of the range and a cut strictly inside it such that no element from the cut on
is less than an element before the cut. -/
theorem unsafe_partition_pivot_spec (hswo : StrictWeakOrder comp) (d : α) (arr : List α)
    (first last : Nat) (hn : S_threshold < last - first) (hl : last ≤ arr.length) :
    ∃ b cut, unsafe_partition_pivot comp arr first last = some (b, cut) ∧
      b.length = arr.length ∧ b.Perm arr ∧ (∀ j, j < first ∨ last ≤ j → b[j]? = arr[j]?) ∧
      first < cut ∧ cut < last ∧
      ∀ i j, first ≤ i → i < cut → cut ≤ j → j < last →
        comp (gv d b j) (gv d b i) = false := by
  have hn2 : 16 < last - first := hn
  have hl0 : last ≠ 0 := by omega
  obtain ⟨a1, e1, hl1, hp1, ho1, u, hu1, hu2, hu3⟩ := move_median_to_first_spec comp hswo d
    arr first (first + 1) (first + (last - first) / 2) (last - 1) (by omega) (by omega)
    (by omega) (by omega)
  obtain ⟨b, cut, e, hbl, hbp, hbo, hc1, hc2, hc3, hc4⟩ := unsafe_partition_spec comp hswo d
    first (first + 1) last rfl (last - first + 1) a1 (first + 1) last (le_refl _) (by omega)
    (le_refl _) (by omega) (fun j hj hjf => by omega) (fun j hj hjf => by omega)
    ⟨u, by omega, by omega, by omega, hu3⟩ (by omega)
  refine ⟨b, cut, ?_, by omega, hbp.trans hp1, ?_, by omega, hc2, ?_⟩
  · simp only [unsafe_partition_pivot, hl0, ↓reduceIte, e1, Option.bind_eq_bind,
      Option.some_bind, e]
  · intro j hj
    rw [hbo j (by omega), ho1 j (by omega)]
  · intro i j hi hic hj hjl
    by_cases hif : i = first
    · rw [hif]
      exact hc4 j hj hjl
    · exact hswo.neg_trans (hc4 j hj hjl) (hc3 i (by omega) hic)

end partition_pivot


/-! ## `introsort_loop` -/

set_option autoImplicit false

section introsort_spec

variable {α : Type} (comp : α → α → Bool)

/-- An array is its part before `f`, its part from `f` to `l` and its part from `l` on. -/
theorem three_parts (x : List α) (f l : Nat) (hfl : f ≤ l) :
    x = x.take f ++ ((x.drop f).take (l - f) ++ x.drop l) := by
  have h1 : (x.drop f).drop (l - f) = x.drop l := by
    rw [List.drop_drop]
    congr 1
    omega
  rw [← h1, List.take_append_drop, List.take_append_drop]

/-- When a rearrangement of an array leaves everything outside `[f, l)` in place, every
element of its range `[f, l)` is an element of that range of the array. -/
theorem seg_mem_of_perm (d : α) (a b : List α) (f l : Nat) (hl : b.length = a.length)
    (hp : b.Perm a) (ho : ∀ j, j < f ∨ l ≤ j → b[j]? = a[j]?) (hfl : f ≤ l)
    (hla : l ≤ a.length) :
    ∀ i, f ≤ i → i < l → ∃ k, f ≤ k ∧ k < l ∧ gv d b i = gv d a k := by
  have ht : b.take f = a.take f := by
    apply List.ext_getElem?
    intro j
    by_cases hj : j < f
    · rw [List.getElem?_take_of_lt hj, List.getElem?_take_of_lt hj]
      exact ho j (Or.inl hj)
    · rw [List.getElem?_eq_none (by simp; omega), List.getElem?_eq_none (by simp; omega)]
  have hd : b.drop l = a.drop l := by
    apply List.ext_getElem?
    intro j
    rw [List.getElem?_drop, List.getElem?_drop]
    exact ho _ (Or.inr (by omega))
  have hm : ((b.drop f).take (l - f)).Perm ((a.drop f).take (l - f)) := by
    have h1 := hp
    rw [three_parts b f l hfl, three_parts a f l hfl, ht, hd] at h1
    exact (List.perm_append_right_iff _).1 ((List.perm_append_left_iff _).1 h1)
  intro i hi hil
  have hmem : gv d b i ∈ (b.drop f).take (l - f) := by
    rw [List.mem_iff_getElem?]
    refine ⟨i - f, ?_⟩
    rw [List.getElem?_take_of_lt (by omega), List.getElem?_drop,
      show f + (i - f) = i by omega]
    exact getElem?_eq_gv d b i (by omega)
  obtain ⟨k, hk, e⟩ := List.mem_iff_getElem.1 (hm.mem_iff.1 hmem)
  have hk2 : k < l - f := by
    simp only [List.length_take, List.length_drop] at hk
    omega
  refine ⟨f + k, by omega, by omega, ?_⟩
  rw [← e, List.getElem_take, List.getElem_drop]
  simp [gv, List.getElem?_eq_getElem (show f + k < a.length by omega)]

/-- A non-empty range of an array has a place whose element no element of the range is
less than. -/
theorem exists_min_place (hswo : StrictWeakOrder comp) (d : α) (arr : List α) (first : Nat) :
    ∀ (n : Nat), ∃ m, first ≤ m ∧ m < first + n + 1 ∧
      ∀ j, first ≤ j → j < first + n + 1 → comp (gv d arr j) (gv d arr m) = false := by
  intro n
  induction n with
  | zero =>
    refine ⟨first, le_refl _, by omega, fun j hj hjl => ?_⟩
    have : j = first := by omega
    rw [this]
    exact hswo.irrefl _
  | succ n ih =>
    obtain ⟨m, hm1, hm2, hm3⟩ := ih
    rcases Bool.eq_false_or_eq_true (comp (gv d arr (first + n + 1)) (gv d arr m)) with hc | hc
    · refine ⟨first + n + 1, by omega, by omega, fun j hj hjl => ?_⟩
      by_cases hjn : j = first + n + 1
      · rw [hjn]
        exact hswo.irrefl _
      · cases hx : comp (gv d arr j) (gv d arr (first + n + 1)) with
        | false => rfl
        | true =>
          have := hswo.trans _ _ _ hx hc
          rw [hm3 j hj (by omega)] at this
          exact absurd this (by simp)
    · refine ⟨m, hm1, by omega, fun j hj hjl => ?_⟩
      by_cases hjn : j = first + n + 1
      · rw [hjn]
        exact hc
      · exact hm3 j hj (by omega)

/-- Reading in the middle of three parts. -/
theorem gv_middle (d : α) (p r q : List α) (j : Nat) (hj : j < r.length) :
    gv d (p ++ r ++ q) (p.length + j) = gv d r j := by
  simp only [gv]
  rw [List.append_assoc, List.getElem?_append_right (by omega),
    show p.length + j - p.length = j by omega, List.getElem?_append_left hj]

/-- `partial_sort_impl(first, last, last)` on a non-empty range of the array: the range is
rearranged, the rest is left alone, and no element of the range is less than the one that
ends at `first`. -/
theorem partial_sort_impl_spec (hswo : StrictWeakOrder comp) (d : α) (arr : List α)
    (first last : Nat) (hfl : first < last) (hl : last ≤ arr.length) :
    ∃ b, partial_sort_impl comp arr first last last = some b ∧ b.length = arr.length ∧
      b.Perm arr ∧ (∀ j, j < first ∨ last ≤ j → b[j]? = arr[j]?) ∧
      ∀ j, first ≤ j → j < last → comp (gv d b j) (gv d b first) = false := by
  have hlen : ((arr.drop first).take (last - first)).length = last - first := by
    simp only [List.length_take, List.length_drop]
    omega
  obtain ⟨r, e, hrl, hrp, hs, -⟩ := partial_sort_holds comp hswo d
    ((arr.drop first).take (last - first)) (last - first) (by omega)
  have htl : (arr.take first).length = first := by
    rw [List.length_take]
    omega
  have hc : first ≤ last ∧ last ≤ last ∧ last ≤ arr.length := ⟨by omega, le_refl _, hl⟩
  refine ⟨arr.take first ++ r ++ arr.drop last, ?_, ?_, ?_, ?_, ?_⟩
  · simp only [partial_sort_impl, hc, and_self, ↓reduceIte, e, Option.bind_eq_bind,
      Option.some_bind, Option.pure_def]
  · simp only [List.length_append, htl, hrl, hlen, List.length_drop]
    omega
  · have h3 := three_parts arr first last (by omega)
    rw [List.append_assoc]
    refine List.Perm.trans ((hrp.append_right _).append_left _) ?_
    rw [← h3]
  · intro j hj
    have h3 := three_parts arr first last (by omega)
    rw [List.append_assoc]
    conv_rhs => rw [h3]
    rcases hj with hj | hj
    · rw [List.getElem?_append_left (by omega), List.getElem?_append_left (by omega)]
    · rw [List.getElem?_append_right (by omega), List.getElem?_append_right (by omega),
        List.getElem?_append_right (by omega), List.getElem?_append_right (by omega)]
      rw [hrl]
  · intro j hj hjl
    have e1 := gv_middle d (arr.take first) r (arr.drop last) (j - first) (by omega)
    have e0 := gv_middle d (arr.take first) r (arr.drop last) 0 (by omega)
    rw [htl] at e1 e0
    rw [show first + (j - first) = j by omega] at e1
    rw [Nat.add_zero] at e0
    rw [e1, e0]
    by_cases hj0 : j = first
    · rw [hj0, Nat.sub_self]
      exact hswo.irrefl _
    · exact hs 0 (j - first) (by omega) (by omega)

end introsort_spec


/-! ## `introsort_loop`: a rearrangement with a least element among the first places -/

set_option autoImplicit false

section introsort_loop_spec

variable {α : Type} (comp : α → α → Bool)

/-- `introsort_loop` on a non-empty range, whatever the counter does: the call returns, the
range is rearranged, the rest of the array is left alone, and one of the first
`S_threshold` places of the range holds an element that no element of the range is less
than. -/
theorem introsort_loop_spec (hswo : StrictWeakOrder comp) {σ : Type} (isZero : σ → Bool)
    (dec : σ → σ) (d : α) :
    ∀ (fuel : Nat) (arr : List α) (first last : Nat) (depth_limit : σ),
    first < last → last ≤ arr.length → last - first < fuel →
    ∃ b, introsort_loop comp isZero dec fuel arr first last depth_limit = some b ∧
      b.length = arr.length ∧ b.Perm arr ∧
      (∀ j, j < first ∨ last ≤ j → b[j]? = arr[j]?) ∧
      ∃ m, first ≤ m ∧ m < first + S_threshold ∧ m < last ∧
        ∀ j, first ≤ j → j < last → comp (gv d b j) (gv d b m) = false := by
  intro fuel
  induction fuel with
  | zero =>
    intro arr first last depth_limit _ _ hf
    omega
  | succ fuel ih =>
    intro arr first last depth_limit hfl hl hf
    by_cases hn : last - first > S_threshold
    · have hn2 : 16 < last - first := hn
      cases hz : isZero depth_limit with
      | true =>
        obtain ⟨b, e, hbl, hbp, hbo, hmin⟩ := partial_sort_impl_spec comp hswo d arr first last
          hfl hl
        refine ⟨b, ?_, hbl, hbp, hbo, first, le_refl _, ?_, hfl, hmin⟩
        · simp only [introsort_loop, hn, ↓reduceIte, hz, e]
        · simp only [S_threshold]
          omega
      | false =>
        obtain ⟨a1, cut, e1, hl1, hp1, ho1, hc1, hc2, hord⟩ :=
          unsafe_partition_pivot_spec comp hswo d arr first last hn hl
        obtain ⟨a2, e2, hl2, hp2, ho2, -⟩ := ih a1 cut last (dec depth_limit) hc2 (by omega)
          (by omega)
        obtain ⟨a3, e3, hl3, hp3, ho3, m, hm1, hm2, hm3, hmin⟩ := ih a2 first cut
          (dec depth_limit) hc1 (by omega) (by omega)
        refine ⟨a3, ?_, by omega, (hp3.trans hp2).trans hp1, ?_, m, hm1, hm2, by omega, ?_⟩
        · simp only [introsort_loop, hn, ↓reduceIte, hz, Bool.false_eq_true, e1,
            Option.bind_eq_bind, Option.some_bind, e2, e3]
        · intro j hj
          rw [ho3 j (by omega), ho2 j (by omega), ho1 j hj]
        · intro j hj hjl
          by_cases hjc : j < cut
          · exact hmin j hj hjc
          · obtain ⟨j2, hj1, hj2, ej⟩ := seg_mem_of_perm d a1 a2 cut last hl2 hp2 ho2
              (by omega) (by omega) j (by omega) hjl
            obtain ⟨m2, hm21, hm22, em⟩ := seg_mem_of_perm d a2 a3 first cut hl3 hp3 ho3
              (by omega) (by omega) m hm1 hm3
            rw [gv_congr d a2 a3 j (ho3 j (Or.inr (by omega))), ej, em,
              gv_congr d a1 a2 m2 (ho2 m2 (Or.inl hm22))]
            exact hord m2 j2 hm21 hm22 hj1 hj2
    · obtain ⟨m, hm1, hm2, hm3⟩ := exists_min_place comp hswo d arr first (last - first - 1)
      have hn2 : ¬ 16 < last - first := hn
      refine ⟨arr, ?_, rfl, List.Perm.refl _, fun _ _ => rfl, m, hm1, ?_, by omega, ?_⟩
      · simp only [introsort_loop, hn, ↓reduceIte]
      · simp only [S_threshold]
        omega
      · intro j hj hjl
        exact hm3 j hj (by omega)

end introsort_loop_spec


/-! ## `unsafe_linear_insert`, `move_backward` and the step of `insertion_sort` -/

set_option autoImplicit false

section insertion

variable {α : Type} (comp : α → α → Bool)

/-- The loop of `unsafe_linear_insert` over the elements below the hole, listed downwards:
the value goes in after the elements that are greater than it, provided one element is
not. -/
theorem unsafe_linear_insert_loop_spec (val : α) : ∀ (Lrev : List α) (x : α) (T : List α)
    (fuel n : Nat), n = Lrev.length → Lrev.length < fuel →
    (∃ g ∈ Lrev, comp val g = false) →
    unsafe_linear_insert_loop comp fuel (Lrev.reverse ++ x :: T) n val
      = some ((Lrev.takeWhile (comp val) ++ val :: Lrev.dropWhile (comp val)).reverse ++ T) := by
  intro Lrev
  induction Lrev with
  | nil =>
    intro x T fuel n _ _ hg
    obtain ⟨g, hg, -⟩ := hg
    cases hg
  | cons p rest ih =>
    intro x T fuel n hn hf hg
    cases fuel with
    | zero => omega
    | succ fuel =>
      simp only [List.length_cons] at hn hf
      have hn0 : n ≠ 0 := by omega
      have harr : (p :: rest).reverse ++ x :: T = rest.reverse ++ p :: (x :: T) := by simp
      have hread : (rest.reverse ++ p :: (x :: T))[n - 1]? = some p := by
        have := getElem?_mid rest.reverse p (x :: T)
        rw [List.length_reverse] at this
        rw [show n - 1 = rest.length by omega]
        exact this
      rw [harr, unsafe_linear_insert_loop]
      simp only [hn0, ↓reduceIte, hread, Option.bind_eq_bind, Option.some_bind]
      cases hc : comp val p with
      | true =>
        have hw : wr (rest.reverse ++ p :: (x :: T)) n p
            = some (rest.reverse ++ p :: (p :: T)) := by
          have := wr_mid (rest.reverse ++ [p]) x p T
          simp only [List.length_append, List.length_reverse, List.length_singleton,
            List.append_assoc, List.singleton_append] at this
          rw [hn]
          exact this
        have hg2 : ∃ g ∈ rest, comp val g = false := by
          obtain ⟨g, hg1, hg2⟩ := hg
          rcases List.mem_cons.1 hg1 with rfl | hm
          · rw [hc] at hg2
            exact absurd hg2 (by simp)
          · exact ⟨g, hm, hg2⟩
        simp only [↓reduceIte, hw, Option.some_bind]
        rw [ih p (p :: T) fuel (n - 1) (by omega) (by omega) hg2]
        simp [List.takeWhile_cons, List.dropWhile_cons, hc]
      | false =>
        have hw : wr (rest.reverse ++ p :: (x :: T)) n val
            = some (rest.reverse ++ p :: (val :: T)) := by
          have := wr_mid (rest.reverse ++ [p]) x val T
          simp only [List.length_append, List.length_reverse, List.length_singleton,
            List.append_assoc, List.singleton_append] at this
          rw [hn]
          exact this
        simp only [Bool.false_eq_true, ↓reduceIte, hw]
        simp [List.takeWhile_cons, List.dropWhile_cons, hc]

/-- `unsafe_linear_insert` at the end of a prefix, listed downwards. -/
theorem unsafe_linear_insert_spec (Lrev : List α) (v : α) (R : List α)
    (hg : ∃ g ∈ Lrev, comp v g = false) :
    unsafe_linear_insert comp (Lrev.reverse ++ v :: R) Lrev.length
      = some ((Lrev.takeWhile (comp v) ++ v :: Lrev.dropWhile (comp v)).reverse ++ R) := by
  have hread : (Lrev.reverse ++ v :: R)[Lrev.length]? = some v := by
    have := getElem?_mid Lrev.reverse v R
    rw [List.length_reverse] at this
    exact this
  simp only [unsafe_linear_insert, hread, Option.bind_eq_bind, Option.some_bind]
  exact unsafe_linear_insert_loop_spec comp v Lrev v R _ _ rfl (by omega) hg

/-- Putting a value after the elements greater than it keeps a downward list in order. -/
theorem insert_sorted (hswo : StrictWeakOrder comp) (v : α) (Lrev : List α)
    (hs : Lrev.Pairwise (fun x y => comp x y = false)) :
    (Lrev.takeWhile (comp v) ++ v :: Lrev.dropWhile (comp v)).Pairwise
      (fun x y => comp x y = false) ∧
    (Lrev.takeWhile (comp v) ++ v :: Lrev.dropWhile (comp v)).Perm (v :: Lrev) := by
  have hsplit := List.takeWhile_append_dropWhile (comp v) Lrev
  constructor
  · rw [← hsplit] at hs
    rw [List.pairwise_append] at hs ⊢
    obtain ⟨h1, h2, h3⟩ := hs
    refine ⟨h1, ?_, ?_⟩
    · rw [List.pairwise_cons]
      refine ⟨?_, h2⟩
      intro y hy
      cases hdr : Lrev.dropWhile (comp v) with
      | nil =>
        rw [hdr] at hy
        cases hy
      | cons g dr =>
        have hg : comp v g = false := by
          have := List.head_dropWhile_not (comp v) Lrev
            (by rw [hdr]; exact List.cons_ne_nil _ _)
          simpa [hdr] using this
        rw [hdr] at hy h2
        rcases List.mem_cons.1 hy with rfl | hm
        · exact hg
        · exact hswo.neg_trans hg ((List.pairwise_cons.1 h2).1 y hm)
    · intro t ht y hy
      rcases List.mem_cons.1 hy with rfl | hm
      · have := List.mem_takeWhile_imp ht
        exact hswo.asymm comp this
      · exact h3 t ht y hm
  · refine List.perm_middle.trans ?_
    rw [hsplit]

/-- The loop of `move_backward` by one place over the elements `M` (listed downwards as
`Mrev`) that follow `B`: every element of `M` moves up one place. -/
theorem move_backward_loop_spec : ∀ (Mrev B : List α) (x : α) (T : List α),
    move_backward_loop Mrev.length (B ++ Mrev.reverse ++ x :: T) (B.length + Mrev.length)
        (B.length + Mrev.length + 1)
      = some (B ++ (Mrev.reverse ++ [x]).take 1 ++ Mrev.reverse ++ T, B.length + 1) := by
  intro Mrev
  induction Mrev with
  | nil =>
    intro B x T
    simp [move_backward_loop]
  | cons p rest ih =>
    intro B x T
    have harr : B ++ (p :: rest).reverse ++ x :: T = (B ++ rest.reverse) ++ p :: (x :: T) := by
      simp
    have hread : ((B ++ rest.reverse) ++ p :: (x :: T))[B.length + rest.length]? = some p := by
      have := getElem?_mid (B ++ rest.reverse) p (x :: T)
      simpa using this
    have hw : wr ((B ++ rest.reverse) ++ p :: (x :: T)) (B.length + rest.length + 1) p
        = some (B ++ rest.reverse ++ p :: (p :: T)) := by
      have := wr_mid (B ++ rest.reverse ++ [p]) x p T
      simpa using this
    have h0 : ¬ (B.length + (rest.length + 1) = 0 ∨ B.length + (rest.length + 1) + 1 = 0) := by
      omega
    rw [harr]
    simp only [List.length_cons, move_backward_loop, h0, ↓reduceIte,
      show B.length + (rest.length + 1) - 1 = B.length + rest.length by omega,
      show B.length + (rest.length + 1) + 1 - 1 = B.length + rest.length + 1 by omega, hread,
      Option.bind_eq_bind, Option.some_bind, hw]
    rw [ih B p (p :: T)]
    have ht : ((p :: rest).reverse ++ [x]).take 1 = (rest.reverse ++ [p]).take 1 := by
      rw [List.reverse_cons, List.take_append_of_le_length (by simp)]
    rw [ht]
    simp

end insertion


/-! ## `insertion_sort`, `unsafe_insertion_sort` and `final_insertion_sort` -/

set_option autoImplicit false

section insertion_sort_spec

variable {α : Type} (comp : α → α → Bool)

/-- One turn of the loop of `insertion_sort` from the start of the array: the element after
a non-empty prefix in order joins it, and the prefix stays in order. -/
theorem insertion_sort_step_spec (hswo : StrictWeakOrder comp) (L : List α) (v : α)
    (R : List α) (hne : L ≠ []) (hs : L.Pairwise (fun x y => comp y x = false)) :
    ∃ L2, insertion_sort_step comp (L ++ v :: R) 0 L.length = some (L2 ++ R) ∧
      L2.Pairwise (fun x y => comp y x = false) ∧ L2.Perm (v :: L) := by
  cases L with
  | nil => exact absurd rfl hne
  | cons f L1 =>
    have hread : ((f :: L1) ++ v :: R)[(f :: L1).length]? = some v := getElem?_mid _ v R
    have hfirst : ((f :: L1) ++ v :: R)[0]? = some f := by simp
    simp only [insertion_sort_step, hread, hfirst, Option.bind_eq_bind, Option.some_bind]
    cases hc : comp v f with
    | true =>
      have hmb := move_backward_loop_spec (f :: L1).reverse [] v R
      simp only [List.reverse_reverse, List.length_reverse, List.nil_append, List.length_nil,
        Nat.zero_add, List.cons_append, List.take_succ_cons, List.take_zero] at hmb
      refine ⟨v :: f :: L1, ?_, ?_, List.Perm.refl _⟩
      · simp only [↓reduceIte, move_backward, Nat.sub_zero, List.cons_append, hmb,
          Option.some_bind]
        have := wr_mid [] f v (f :: (L1 ++ R))
        simpa using this
      · rw [List.pairwise_cons]
        refine ⟨fun y hy => ?_, hs⟩
        have hyf : comp y f = false := by
          rcases List.mem_cons.1 hy with rfl | hm
          · exact hswo.irrefl _
          · exact (List.pairwise_cons.1 hs).1 y hm
        cases hyv : comp y v with
        | false => rfl
        | true =>
          rw [hswo.trans _ _ _ hyv hc] at hyf
          exact absurd hyf (by simp)
    | false =>
      have hg : ∃ g ∈ (f :: L1).reverse, comp v g = false := ⟨f, by simp, hc⟩
      have hu := unsafe_linear_insert_spec comp (f :: L1).reverse v R hg
      rw [List.reverse_reverse, List.length_reverse] at hu
      have hsr : (f :: L1).reverse.Pairwise (fun x y => comp x y = false) :=
        List.pairwise_reverse.2 hs
      obtain ⟨h1, h2⟩ := insert_sorted comp hswo v (f :: L1).reverse hsr
      refine ⟨_, ?_, List.pairwise_reverse.2 h1,
        (List.reverse_perm _).trans (h2.trans ((List.reverse_perm _).cons v))⟩
      simp only [Bool.false_eq_true, ↓reduceIte]
      exact hu

/-- The loop of `insertion_sort` from the start of the array over the next `n` elements. -/
theorem insertion_sort_loop_spec (hswo : StrictWeakOrder comp) : ∀ (n : Nat) (L R : List α),
    L ≠ [] → L.Pairwise (fun x y => comp y x = false) → n ≤ R.length →
    ∃ L2, insertion_sort_loop comp n (L ++ R) 0 L.length = some (L2 ++ R.drop n) ∧
      L2.Pairwise (fun x y => comp y x = false) ∧ L2.Perm (L ++ R.take n) := by
  intro n
  induction n with
  | zero =>
    intro L R _ hs _
    exact ⟨L, rfl, hs, by simp⟩
  | succ n ih =>
    intro L R hne hs hn
    cases R with
    | nil => simp at hn
    | cons v R =>
      obtain ⟨L1, e1, hs1, hp1⟩ := insertion_sort_step_spec comp hswo L v R hne hs
      have hne1 : L1 ≠ [] := by
        intro e
        rw [e] at hp1
        exact absurd hp1.length_eq (by simp)
      obtain ⟨L2, e2, hs2, hp2⟩ := ih L1 R hne1 hs1 (by simpa using hn)
      have hlen : L1.length = L.length + 1 := by simpa using hp1.length_eq
      refine ⟨L2, ?_, hs2, ?_⟩
      · simp only [insertion_sort_loop, e1, Option.bind_eq_bind, Option.some_bind,
          List.drop_succ_cons]
        rw [← hlen]
        exact e2
      · refine hp2.trans ?_
        simp only [List.take_succ_cons]
        exact (hp1.append_right _).trans (by
          rw [List.cons_append]
          exact List.perm_middle.symm)

/-- The loop of `unsafe_insertion_sort` after a prefix in order that holds an element not
greater than any of the next `n` elements. -/
theorem unsafe_insertion_sort_loop_spec (hswo : StrictWeakOrder comp) (m : α) :
    ∀ (n : Nat) (L R : List α), m ∈ L → L.Pairwise (fun x y => comp y x = false) →
    n ≤ R.length → (∀ x ∈ R.take n, comp x m = false) →
    ∃ L2, unsafe_insertion_sort_loop comp n (L ++ R) L.length = some (L2 ++ R.drop n) ∧
      L2.Pairwise (fun x y => comp y x = false) ∧ L2.Perm (L ++ R.take n) := by
  intro n
  induction n with
  | zero =>
    intro L R _ hs _ _
    exact ⟨L, rfl, hs, by simp⟩
  | succ n ih =>
    intro L R hm hs hn hmin
    cases R with
    | nil => simp at hn
    | cons v R =>
      have hg : ∃ g ∈ L.reverse, comp v g = false :=
        ⟨m, by simpa using hm, hmin v (by simp)⟩
      have hu := unsafe_linear_insert_spec comp L.reverse v R hg
      rw [List.reverse_reverse, List.length_reverse] at hu
      obtain ⟨h1, h2⟩ := insert_sorted comp hswo v L.reverse (List.pairwise_reverse.2 hs)
      have hp1 : (L.reverse.takeWhile (comp v) ++ v :: L.reverse.dropWhile (comp v)).reverse.Perm
          (v :: L) := (List.reverse_perm _).trans (h2.trans ((List.reverse_perm _).cons v))
      have hlen := hp1.length_eq
      simp only [List.length_cons] at hlen
      obtain ⟨L2, e2, hs2, hp2⟩ := ih _ R (hp1.mem_iff.2 (List.mem_cons_of_mem _ hm))
        (List.pairwise_reverse.2 h1) (by simpa using hn)
        (fun x hx => hmin x (by
          simp only [List.take_succ_cons]
          exact List.mem_cons_of_mem _ hx))
      refine ⟨L2, ?_, hs2, ?_⟩
      · simp only [unsafe_insertion_sort_loop, hu, Option.bind_eq_bind, Option.some_bind,
          List.drop_succ_cons]
        rw [← hlen]
        exact e2
      · refine hp2.trans ?_
        simp only [List.take_succ_cons]
        exact (hp1.append_right _).trans (by
          rw [List.cons_append]
          exact List.perm_middle.symm)

end insertion_sort_spec


/-! ## `final_insertion_sort` and `sort` -/

set_option autoImplicit false

section sort_spec

variable {α : Type} (comp : α → α → Bool)

/-- `final_insertion_sort` on a whole array that has, among its first `S_threshold` places,
an element that no element is less than: the result is the array in order. -/
theorem final_insertion_sort_spec (hswo : StrictWeakOrder comp) (d : α) (b : List α)
    (hne : b ≠ [])
    (hmin : ∃ m, m < S_threshold ∧ m < b.length ∧
      ∀ j, j < b.length → comp (gv d b j) (gv d b m) = false) :
    ∃ c, final_insertion_sort comp b 0 b.length = some c ∧ c.Perm b ∧
      c.Pairwise (fun x y => comp y x = false) := by
  obtain ⟨m, hm1, hm2, hm3⟩ := hmin
  have hm16 : m < 16 := hm1
  cases b with
  | nil => exact absurd rfl hne
  | cons b0 t =>
    have hsingle : [b0].Pairwise (fun x y => comp y x = false) := List.pairwise_singleton _ _
    by_cases hn : (b0 :: t).length - 0 > S_threshold
    · have hn2 : 16 < t.length + 1 := by simpa [S_threshold] using hn
      obtain ⟨L2, e2, hs2, hp2⟩ := insertion_sort_loop_spec comp hswo 15 [b0] t (by simp)
        hsingle (by omega)
      have hl2 : L2.length = 16 := by
        have := hp2.length_eq
        simp only [List.length_append, List.length_singleton, List.length_take] at this
        omega
      have hmem : gv d (b0 :: t) m ∈ L2 := by
        rw [hp2.mem_iff]
        have h1 : gv d (b0 :: t) m ∈ (b0 :: t).take 16 := by
          rw [List.mem_iff_getElem?]
          exact ⟨m, by
            rw [List.getElem?_take_of_lt hm16]
            exact getElem?_eq_gv d _ m hm2⟩
        simpa using h1
      have hall : ∀ x ∈ b0 :: t, comp x (gv d (b0 :: t) m) = false := by
        intro x hx
        obtain ⟨j, hj, rfl⟩ := List.mem_iff_getElem.1 hx
        have := hm3 j hj
        simpa [gv, List.getElem?_eq_getElem hj] using this
      obtain ⟨L3, e3, hs3, hp3⟩ := unsafe_insertion_sort_loop_spec comp hswo
        (gv d (b0 :: t) m) (t.length + 1 - 16) L2 (t.drop 15) hmem hs2
        (by simp only [List.length_drop]; omega)
        (fun x hx => hall x (List.mem_cons_of_mem _ (List.mem_of_mem_drop
          (List.mem_of_mem_take hx))))
      have hdrop : (t.drop 15).drop (t.length + 1 - 16) = [] := by
        rw [List.drop_drop]
        exact List.drop_of_length_le (by omega)
      have htake : (t.drop 15).take (t.length + 1 - 16) = t.drop 15 :=
        List.take_of_length_le (by simp only [List.length_drop]; omega)
      rw [hdrop, List.append_nil] at e3
      rw [htake] at hp3
      refine ⟨L3, ?_, ?_, hs3⟩
      · have hf : final_insertion_sort comp (b0 :: t) 0 (b0 :: t).length
            = (insertion_sort comp (b0 :: t) 0 (0 + S_threshold)).bind (fun arr =>
                unsafe_insertion_sort comp arr (0 + S_threshold) (b0 :: t).length) := by
          unfold final_insertion_sort
          rw [if_pos hn]
          rfl
        have hi : insertion_sort comp (b0 :: t) 0 (0 + S_threshold)
            = insertion_sort_loop comp 15 (b0 :: t) 0 1 := by
          unfold insertion_sort
          rw [if_neg (by simp [S_threshold]), if_pos (by simp [S_threshold])]
          rfl
        have hu : unsafe_insertion_sort comp (L2 ++ t.drop 15) (0 + S_threshold)
              (b0 :: t).length
            = unsafe_insertion_sort_loop comp (t.length + 1 - 16) (L2 ++ t.drop 15) 16 := by
          unfold unsafe_insertion_sort
          rw [if_neg (by simp only [S_threshold, List.length_cons]; omega)]
          rfl
        have e2b : insertion_sort_loop comp 15 (b0 :: t) 0 1 = some (L2 ++ t.drop 15) := e2
        rw [hf, hi, e2b, Option.some_bind, hu]
        rw [hl2] at e3
        exact e3
      · refine hp3.trans ((hp2.append_right _).trans ?_)
        rw [List.append_assoc, List.take_append_drop]
        rfl
    · obtain ⟨L2, e2, hs2, hp2⟩ := insertion_sort_loop_spec comp hswo t.length [b0] t (by simp)
        hsingle (le_refl _)
      rw [List.drop_length, List.append_nil] at e2
      rw [List.take_length] at hp2
      refine ⟨L2, ?_, hp2, hs2⟩
      unfold final_insertion_sort
      rw [if_neg hn]
      unfold insertion_sort
      rw [if_neg (by omega), if_pos (by simp)]
      exact e2

/-- `sort` on a whole array, whatever the counter of `introsort_loop` does: the call
returns the array rearranged in order. -/
theorem sort_holds (hswo : StrictWeakOrder comp) {σ : Type} (isZero : σ → Bool)
    (dec : σ → σ) (limit : Nat → σ) (a : List α) :
    ∃ b, sort comp isZero dec limit a = some b ∧ b.Perm a ∧
      b.Pairwise (fun x y => comp y x = false) := by
  cases a with
  | nil => exact ⟨[], rfl, List.Perm.refl _, List.Pairwise.nil⟩
  | cons d t =>
    obtain ⟨b, e, hbl, hbp, -, m, -, hm2, hm3, hmin⟩ := introsort_loop_spec comp hswo isZero
      dec d ((d :: t).length + 1) (d :: t) 0 (d :: t).length (limit (d :: t).length)
      (by simp) (le_refl _) (by omega)
    have hbne : b ≠ [] := by
      intro e0
      rw [e0] at hbl
      simp at hbl
    obtain ⟨c, ec, hcp, hcs⟩ := final_insertion_sort_spec comp hswo d b hbne
      ⟨m, by simpa using hm2, by omega, fun j hj => hmin j (Nat.zero_le _) (by omega)⟩
    refine ⟨c, ?_, hcp.trans hbp, hcs⟩
    have h1 : (d :: t).length ≠ 0 := by simp
    simp only [sort, h1, ne_eq, not_false_eq_true, ↓reduceIte, e, Option.bind_eq_bind,
      Option.some_bind, hbl]
    rw [← hbl]
    exact ec

end sort_spec


/-! ## Attachment points of `RBTreeInsert` -/

set_option autoImplicit false

section attachment

variable {α : Type}

theorem TreeAt_nil_of_ptr {m : Mem} {val : Ptr → Option α} {T : Tr α} {par : Ptr}
    (h : TreeAt m val T par) (h0 : T.ptr = 0) : T = Tr.nil := by
  cases T with
  | nil => rfl
  | node c l p v r => exact absurd h0 h.1

/-- A node of a laid-out tree whose link on the chosen side is null is the parent of a null
link of the shape on that side; in in-order the link lies just before the node when it is
the left one and just after it when it is the right one. -/
theorem attach_point_ctx {m : Mem} {val : Ptr → Option α} {hdr : Ptr} {T : Tr α}
    (h : MemHolds m val hdr T) (pParent : Ptr) (insert_left : Bool) (hp : pParent ∈ T.ptrs)
    (hnull : (if insert_left then (m pParent).mLeft else (m pParent).mRight) = 0) :
    ∃ ctx : List (Frame α), T = plug ctx Tr.nil ∧ ctxParent hdr ctx = pParent ∧
      holeIsLeft ctx = insert_left ∧
      (if insert_left then (ctxAfter ctx).head? = some pParent
        else (ctxBefore ctx).getLast? = some pParent) := by
  obtain ⟨ctx, c, l, v, r, rfl⟩ := Tr.exists_plug_of_mem T pParent hp
  obtain ⟨-, -, hrec, -, hl, hr, -, -⟩ := h.at_node
  cases insert_left with
  | true =>
    have hl0 : l = Tr.nil := TreeAt_nil_of_ptr hl (by simpa [hrec] using hnull)
    subst hl0
    exact ⟨Frame.L c pParent v r :: ctx, rfl, rfl, rfl, by simp [ctxAfter]⟩
  | false =>
    have hr0 : r = Tr.nil := TreeAt_nil_of_ptr hr (by simpa [hrec] using hnull)
    subst hr0
    exact ⟨Frame.R c l pParent v :: ctx, rfl, rfl, rfl, by simp [ctxBefore]⟩

theorem MemHolds_inorder {m : Mem} {val : Ptr → Option α} {hdr : Ptr} {T : Tr α}
    (h : MemHolds m val hdr T) (fuel : Nat) (hf : T.ptrs.length + 1 ≤ fuel) :
    inorder m fuel (m hdr).mParent = some T.ptrs := by
  rw [h.hdr]
  exact inorder_spec T _ h.tree fuel hf

end attachment


/-! ## `count` of the multi containers -/

set_option autoImplicit false

section multi_count_lemmas

variable {α κ β : Type} (KeyOfT : α → κ) (KeyCompare : κ → κ → Bool)

theorem multimap_count_eq (mT : rbtree (κ × β)) (fuel : Nat) (x : κ) :
    multimap_count KeyCompare mT fuel x = multiset_count Prod.fst KeyCompare mT fuel x := rfl

/-- `count(k)` on a well-formed ordered tree is 0 when no stored key is equivalent to `k`
and 1 otherwise. -/
theorem count_zero_or_one (hswo : StrictWeakOrder KeyCompare) {t : rbtree α} {T : Tr α}
    (h : t.Holds T) (ho : Ordered KeyOfT KeyCompare T.vals) (k : κ) (fuel : Nat)
    (hf : T.ptrs.length < fuel) :
    multiset_count KeyOfT KeyCompare t fuel k
      = some (if (T.vals.filter (fun v =>
          !KeyCompare (KeyOfT v) k && !KeyCompare k (KeyOfT v))).length = 0 then 0 else 1) := by
  have hfind := find_first hswo h ho k fuel hf
  rw [firstNode_eq h] at hfind
  simp only [multiset_count, hfind, Option.bind_eq_bind, Option.some_bind, Option.pure_def]
  cases hq : T.elems.find? (fun e => !KeyCompare (KeyOfT e.2) k && !KeyCompare k (KeyOfT e.2))
    with
  | none =>
    have hall := List.find?_eq_none.1 hq
    have hnil : T.vals.filter (fun v =>
        !KeyCompare (KeyOfT v) k && !KeyCompare k (KeyOfT v)) = [] := by
      rw [List.filter_eq_nil_iff, Tr.vals_eq_map_elems]
      intro v hv
      obtain ⟨e, he, rfl⟩ := List.mem_map.1 hv
      exact hall e he
    simp [hnil]
  | some e =>
    have he := List.mem_of_find?_eq_some hq
    have hP := List.find?_some hq
    have hne : e.1 ≠ t.mEnd := by
      intro e2
      apply h.mem.hdr_notin
      rw [Tr.ptrs_eq_map_elems]
      exact List.mem_map.2 ⟨e, he, e2⟩
    have hmem : e.2 ∈ T.vals.filter (fun v =>
        !KeyCompare (KeyOfT v) k && !KeyCompare k (KeyOfT v)) := by
      rw [List.mem_filter, Tr.vals_eq_map_elems]
      exact ⟨List.mem_map.2 ⟨e, he, rfl⟩, hP⟩
    have hlen : (T.vals.filter (fun v =>
        !KeyCompare (KeyOfT v) k && !KeyCompare k (KeyOfT v))).length ≠ 0 := by
      intro h0
      rw [List.length_eq_zero.1 h0] at hmem
      simp at hmem
    simp [hne, hlen]

theorem multi_fold_valid : ∀ (l : List Nat) (t : rbtree Nat) (T : Tr Nat), t.Holds T →
    Ordered id natLess T.vals → RedBlack T → T.ptrs.length + l.length + 1 ≤ 40 →
    (l.foldl (fun t v => match t.DoInsertMulti id natLess 40 v with
      | some (_, t2) => t2
      | none => t) t).Valid id natLess := by
  intro l
  induction l with
  | nil =>
    intro t T h ho hrb _
    exact ⟨T, h, ho, hrb⟩
  | cons v l ih =>
    intro t T h ho hrb hlen
    simp only [List.length_cons] at hlen
    rw [List.foldl_cons]
    obtain ⟨r, t2, T2, he, h2, ho2, hrb2, -, -, hl2⟩ :=
      DoInsertMulti_keeps id natLess natLess_swo h ho hrb v 40 (by omega)
    rw [he]
    exact ih t2 T2 h2 ho2 hrb2 (by omega)

/-- The multiset built by at most 39 insertions with fuel 40 is valid. -/
theorem multisetOfList_valid (l : List Nat) (hl : l.length ≤ 39) :
    (multisetOfList l).Valid id natLess :=
  multi_fold_valid l rbtree.init Tr.nil init_holds (by simp [Ordered, Tr.vals]) RedBlack_nil
    (by simp only [Tr.ptrs, List.length_nil]; omega)

end multi_count_lemmas


/-! ## `equal` on list iterators -/

set_option autoImplicit false

section list_equal

variable {α : Type}

/-- `equal(first1, last1, first2)` when `last1` is reached from `first1` after `n` steps:
the result is whether the values met on the way agree with the values met in `n` steps
from `first2`, whatever nodes those steps pass. -/
theorem equal_walk (eq : α → α → Bool) (m : ListMem α) (last1 : Ptr) :
    ∀ (n : Nat) (first1 first2 : Ptr) (w1 w2 : List (Ptr × α)) (e2 : Ptr) (fuel : Nat),
      walk m n first1 = some (w1, last1) → last1 ∉ w1.map Prod.fst →
      walk m n first2 = some (w2, e2) → n < fuel →
      equal eq m fuel first1 last1 first2
        = some ((List.zipWith eq (w1.map Prod.snd) (w2.map Prod.snd)).all id) := by
  intro n
  induction n with
  | zero =>
    intro first1 first2 w1 w2 e2 fuel h1 _ h2 hf
    simp only [walk, Option.some.injEq, Prod.mk.injEq] at h1 h2
    obtain ⟨rfl, rfl⟩ := h1
    obtain ⟨rfl, rfl⟩ := h2
    obtain ⟨f, rfl⟩ : ∃ f, fuel = f + 1 := ⟨fuel - 1, by omega⟩
    simp [equal]
  | succ n ih =>
    intro first1 first2 w1 w2 e2 fuel h1 hn h2 hf
    obtain ⟨f, rfl⟩ : ∃ f, fuel = f + 1 := ⟨fuel - 1, by omega⟩
    simp only [walk, Option.bind_eq_bind, Option.pure_def] at h1 h2
    cases hr1 : lrd m first1 with
    | none => simp [hr1] at h1
    | some n1 =>
      cases hr2 : lrd m first2 with
      | none => simp [hr2] at h2
      | some n2 =>
        rw [hr1] at h1
        rw [hr2] at h2
        simp only [Option.some_bind] at h1 h2
        cases hw1 : walk m n n1.mNext with
        | none => simp [hw1] at h1
        | some r1 =>
          cases hw2 : walk m n n2.mNext with
          | none => simp [hw2] at h2
          | some r2 =>
            obtain ⟨u1, x1⟩ := r1
            obtain ⟨u2, x2⟩ := r2
            rw [hw1] at h1
            rw [hw2] at h2
            simp only [Option.some_bind, Option.some.injEq, Prod.mk.injEq] at h1 h2
            obtain ⟨rfl, rfl⟩ := h1
            obtain ⟨rfl, rfl⟩ := h2
            have hne : first1 ≠ x1 := by
              intro e
              apply hn
              simp [e]
            have hn2 : x1 ∉ u1.map Prod.fst := by
              intro hm
              apply hn
              simp only [List.map_cons, List.mem_cons]
              exact Or.inr hm
            have := ih n1.mNext n2.mNext u1 u2 x2 f hw1 hn2 hw2 (by omega)
            simp only [equal, ne_eq, hne, not_false_eq_true, ↓reduceIte, hr1, hr2,
              Option.bind_eq_bind, Option.some_bind, this, List.map_cons, List.zipWith_cons_cons,
              List.all_cons, id_eq, Option.pure_def]
            cases eq n1.mValue n2.mValue <;> simp

end list_equal


/-! ## `list::merge` when the argument list runs out first -/

set_option autoImplicit false

section list_merge

theorem merge_cycle : ∀ (fuel : Nat) (m : ListMem Int) (r s : List Ptr),
    (m 1 = { mNext := 2, mPrev := 11, mValue := 0 } →
      m 2 = { mNext := 30, mPrev := 1, mValue := 0 } →
      m 10 = { mNext := 11, mPrev := 30, mValue := 2 } →
      m 30 = { mNext := 10, mPrev := 2, mValue := 1 } →
      list.merge_loop intLess fuel m 10 1 2 r s = none) ∧
    (m 1 = { mNext := 30, mPrev := 11, mValue := 0 } →
      m 2 = { mNext := 10, mPrev := 30, mValue := 0 } →
      m 10 = { mNext := 11, mPrev := 2, mValue := 2 } →
      m 30 = { mNext := 2, mPrev := 1, mValue := 1 } →
      list.merge_loop intLess fuel m 10 1 30 r s = none) := by
  intro fuel
  induction fuel with
  | zero => intro m r s; exact ⟨fun _ _ _ _ => rfl, fun _ _ _ _ => rfl⟩
  | succ f ih =>
    intro m r s
    constructor
    · intro h1 h2 h10 h30
      simp only [list.merge_loop, lrd, list.splice, ListNode.splice, lsetNext, lsetPrev,
        Function.update_apply, h1, h2, h10, h30, intLess, ne_eq, OfNat.ofNat_ne_one,
        not_false_eq_true, and_self, ↓reduceIte, Option.bind_eq_bind, Option.some_bind,
        Option.pure_def, OfNat.ofNat_ne_zero, Nat.reduceEqDiff, Int.reduceLT, decide_True,
        decide_False]
      refine (ih _ _ _).2 ?_ ?_ ?_ ?_ <;>
        simp [Function.update_apply, h1, h2, h10, h30]
    · intro h1 h2 h10 h30
      simp only [list.merge_loop, lrd, list.splice, ListNode.splice, lsetNext, lsetPrev,
        Function.update_apply, h1, h2, h10, h30, intLess, ne_eq, OfNat.ofNat_ne_one,
        not_false_eq_true, and_self, ↓reduceIte, Option.bind_eq_bind, Option.some_bind,
        Option.pure_def, OfNat.ofNat_ne_zero, Nat.reduceEqDiff, Int.reduceLT, decide_True,
        decide_False]
      refine (ih _ _ _).1 ?_ ?_ ?_ ?_ <;>
        simp [Function.update_apply, h1, h2, h10, h30]

theorem merge_run_in2 (fuel : Nat) (m : ListMem Int) (r s : List Ptr)
    (h1 : m 1 = { mNext := 30, mPrev := 11, mValue := 0 })
    (h2 : m 2 = { mNext := 2, mPrev := 30, mValue := 0 })
    (h10 : m 10 = { mNext := 11, mPrev := 2, mValue := 2 })
    (h30 : m 30 = { mNext := 2, mPrev := 1, mValue := 1 }) :
    list.merge_loop intLess fuel m 10 1 2 r s = none := by
  cases fuel with
  | zero => rfl
  | succ f =>
    simp only [list.merge_loop, lrd, list.splice, ListNode.splice, lsetNext, lsetPrev,
      Function.update_apply, h1, h2, h10, h30, intLess, ne_eq, OfNat.ofNat_ne_one,
      not_false_eq_true, and_self, ↓reduceIte, Option.bind_eq_bind, Option.some_bind,
      Option.pure_def, OfNat.ofNat_ne_zero, Nat.reduceEqDiff, Int.reduceLT, decide_True,
      decide_False]
    refine (merge_cycle f _ _ _).1 ?_ ?_ ?_ ?_ <;>
      simp [Function.update_apply, h1, h2, h10, h30]

theorem merge_run_in1 (fuel : Nat) (m : ListMem Int) (r s : List Ptr)
    (h1 : m 1 = { mNext := 30, mPrev := 11, mValue := 0 })
    (h2 : m 2 = { mNext := 2, mPrev := 2, mValue := 0 })
    (h10 : m 10 = { mNext := 11, mPrev := 30, mValue := 2 })
    (h30 : m 30 = { mNext := 10, mPrev := 1, mValue := 1 }) :
    list.merge_loop intLess fuel m 10 1 2 r s = none := by
  cases fuel with
  | zero => rfl
  | succ f =>
    simp only [list.merge_loop, lrd, list.splice, ListNode.splice, lsetNext, lsetPrev,
      Function.update_apply, h1, h2, h10, h30, intLess, ne_eq, OfNat.ofNat_ne_one,
      not_false_eq_true, and_self, ↓reduceIte, Option.bind_eq_bind, Option.some_bind,
      Option.pure_def, OfNat.ofNat_ne_zero, Nat.reduceEqDiff, Int.reduceLT, decide_True,
      decide_False]
    refine merge_run_in2 f _ _ _ ?_ ?_ ?_ ?_ <;>
      simp [Function.update_apply, h1, h2, h10, h30]

/-- The loop of `merge` on the list 2, 4 (nodes 10, 11, end node 1) and the list 1 (node
30, end node 2) never ends: after the node 30 has been moved, the end node 2 of the
argument is read, linked into the first list, and the loop moves the nodes 2 and 30 in
front of the node 10 in turn for ever. -/
theorem merge_run_in0 (fuel : Nat) (m : ListMem Int) (r s : List Ptr)
    (h1 : m 1 = { mNext := 10, mPrev := 11, mValue := 0 })
    (h2 : m 2 = { mNext := 30, mPrev := 30, mValue := 0 })
    (h10 : m 10 = { mNext := 11, mPrev := 1, mValue := 2 })
    (h30 : m 30 = { mNext := 2, mPrev := 2, mValue := 1 }) :
    list.merge_loop intLess fuel m 10 1 30 r s = none := by
  cases fuel with
  | zero => rfl
  | succ f =>
    simp only [list.merge_loop, lrd, list.splice, ListNode.splice, lsetNext, lsetPrev,
      Function.update_apply, h1, h2, h10, h30, intLess, ne_eq, OfNat.ofNat_ne_one,
      not_false_eq_true, and_self, ↓reduceIte, Option.bind_eq_bind, Option.some_bind,
      Option.pure_def, OfNat.ofNat_ne_zero, Nat.reduceEqDiff, Int.reduceLT, decide_True,
      decide_False]
    refine merge_run_in1 f _ _ _ ?_ ?_ ?_ ?_ <;>
      simp [Function.update_apply, h1, h2, h10, h30]

theorem merge_never_returns (fuel : Nat) :
    list.merge intLess fuel (twoLists [2, 4] [1]) 1 2 = none := by
  have e1 : list.begin (twoLists [2, 4] [1]) 1 = some 10 := by decide
  have e2 : list.begin (twoLists [2, 4] [1]) 2 = some 30 := by decide
  have h := merge_run_in0 fuel (twoLists [2, 4] [1]) [] [] rfl rfl rfl rfl
  simp only [list.merge, e1, e2, Option.bind_eq_bind, Option.some_bind, ne_eq,
    OfNat.one_ne_ofNat, not_false_eq_true, ↓reduceIte, h, Option.none_bind]

/-- The two logs of the loop of `merge` only grow. -/
theorem merge_loop_logs {α : Type} (compare : α → α → Bool) :
    ∀ (fuel : Nat) (m : ListMem α) (first last xfirst : Ptr) (reads spliced : List Ptr)
      (r : ListMem α × Ptr × Ptr × List Ptr × List Ptr),
      list.merge_loop compare fuel m first last xfirst reads spliced = some r →
      (∀ p ∈ reads, p ∈ r.2.2.2.1) ∧ (∀ p ∈ spliced, p ∈ r.2.2.2.2) := by
  intro fuel
  induction fuel with
  | zero =>
    intro m first last xfirst reads spliced r h
    simp [list.merge_loop] at h
  | succ f ih =>
    intro m first last xfirst reads spliced r h
    unfold list.merge_loop at h
    by_cases hc : first ≠ last ∧ xfirst ≠ last
    · rw [if_pos hc] at h
      cases hx : lrd m xfirst with
      | none => simp [hx] at h
      | some xn =>
        cases hf : lrd m first with
        | none => simp [hx, hf] at h
        | some fn =>
          simp only [hx, hf, Option.bind_eq_bind, Option.some_bind] at h
          by_cases hcmp : compare xn.mValue fn.mValue = true
          · rw [if_pos hcmp] at h
            cases hx2 : lrd m xn.mNext with
            | none => simp [hx2] at h
            | some xn2 =>
              cases hs : list.splice m first xn2.mPrev with
              | none => simp [hx2, hs] at h
              | some m2 =>
                simp only [hx2, hs, Option.some_bind] at h
                obtain ⟨a, b⟩ := ih _ _ _ _ _ _ _ h
                exact ⟨fun p hp => a p (by simp [hp]), fun p hp => b p (by simp [hp])⟩
          · rw [if_neg hcmp] at h
            obtain ⟨a, b⟩ := ih _ _ _ _ _ _ _ h
            exact ⟨fun p hp => a p (by simp [hp]), b⟩
    · rw [if_neg hc] at h
      cases h
      exact ⟨fun p hp => hp, fun p hp => hp⟩

/-- A pass of the loop of `merge` that starts with `xfirst` at a node other than `last`
while `first` is not `last` reads the value of that node; if the node is linked to itself
and its value compares less than the value at `first`, it is handed to `splice`. -/
theorem merge_loop_reads {α : Type} (compare : α → α → Bool) (fuel : Nat) (m : ListMem α)
    (first last x : Ptr) (reads spliced : List Ptr)
    (r : ListMem α × Ptr × Ptr × List Ptr × List Ptr)
    (h1 : first ≠ last) (h2 : x ≠ last)
    (h : list.merge_loop compare fuel m first last x reads spliced = some r) :
    x ∈ r.2.2.2.1 ∧
    ((m x).mNext = x → (m x).mPrev = x → compare (m x).mValue (m first).mValue = true →
      x ∈ r.2.2.2.2) := by
  cases fuel with
  | zero => simp [list.merge_loop] at h
  | succ f =>
    unfold list.merge_loop at h
    rw [if_pos ⟨h1, h2⟩] at h
    cases hx : lrd m x with
    | none => simp [hx] at h
    | some xn =>
      cases hf : lrd m first with
      | none => simp [hx, hf] at h
      | some fn =>
        have hxn : xn = m x := by
          unfold lrd at hx
          split at hx
          · cases hx
          · exact (Option.some.inj hx).symm
        have hfn : fn = m first := by
          unfold lrd at hf
          split at hf
          · cases hf
          · exact (Option.some.inj hf).symm
        simp only [hx, hf, Option.bind_eq_bind, Option.some_bind] at h
        by_cases hcmp : compare xn.mValue fn.mValue = true
        · rw [if_pos hcmp] at h
          cases hx2 : lrd m xn.mNext with
          | none => simp [hx2] at h
          | some xn2 =>
            cases hs : list.splice m first xn2.mPrev with
            | none => simp [hx2, hs] at h
            | some m2 =>
              simp only [hx2, hs, Option.some_bind] at h
              obtain ⟨a, b⟩ := merge_loop_logs compare _ _ _ _ _ _ _ _ h
              refine ⟨a x (by simp), fun e1 e2 _ => b x ?_⟩
              rw [hxn, e1, hx] at hx2
              cases hx2
              rw [hxn, e2]
              simp
        · rw [if_neg hcmp] at h
          obtain ⟨a, -⟩ := merge_loop_logs compare _ _ _ _ _ _ _ _ h
          refine ⟨a x (by simp), fun _ _ e3 => ?_⟩
          rw [hxn, hfn] at hcmp
          exact absurd e3 hcmp

end list_merge


/-! ## The partition step inside a larger array

The functions of the partition step, run on a range that is an array of its own, do the
same when the range lies inside a larger array. On the range alone every read outside the
range fails, so a run that succeeds there stays inside the range. -/

set_option autoImplicit false

section partition_frame

variable {α : Type} (comp : α → α → Bool)

theorem getElem?_middle (p s q : List α) (i : Nat) (x : α) (h : s[i]? = some x) :
    (p ++ s ++ q)[p.length + i]? = some x := by
  have hi : i < s.length := by
    by_contra hc
    rw [List.getElem?_eq_none (by omega)] at h
    cases h
  rw [List.append_assoc, List.getElem?_append_right (by omega),
    show p.length + i - p.length = i by omega, List.getElem?_append_left hi]
  exact h

theorem wr_middle (p s q : List α) (i : Nat) (v : α) (s2 : List α)
    (h : wr s i v = some s2) : wr (p ++ s ++ q) (p.length + i) v = some (p ++ s2 ++ q) := by
  unfold wr at h ⊢
  by_cases hi : i < s.length
  · rw [if_pos hi] at h
    cases h
    rw [if_pos (by simp only [List.length_append]; omega)]
    congr 1
    rw [List.append_assoc, List.set_append_right _ _ (by omega),
      show p.length + i - p.length = i by omega, List.set_append_left _ _ hi,
      List.append_assoc]
  · rw [if_neg hi] at h
    cases h

theorem iter_swap_middle (p s q : List α) (a b : Nat) (s2 : List α)
    (h : iter_swap s a b = some s2) :
    iter_swap (p ++ s ++ q) (p.length + a) (p.length + b) = some (p ++ s2 ++ q) := by
  unfold iter_swap at h ⊢
  cases ha : s[a]? with
  | none => simp [ha] at h
  | some xa =>
    cases hb : s[b]? with
    | none => simp [ha, hb] at h
    | some xb =>
      simp only [ha, hb, Option.bind_eq_bind, Option.some_bind] at h
      cases hw : wr s a xb with
      | none => simp [hw] at h
      | some s1 =>
        simp only [hw, Option.some_bind] at h
        simp only [getElem?_middle p s q a xa ha, getElem?_middle p s q b xb hb,
          Option.bind_eq_bind, Option.some_bind, wr_middle p s q a xb s1 hw,
          wr_middle p s1 q b xa s2 h]

theorem move_median_to_first_middle (p s q : List α) (first a b c : Nat) (s2 : List α)
    (h : move_median_to_first comp s first a b c = some s2) :
    move_median_to_first comp (p ++ s ++ q) (p.length + first) (p.length + a) (p.length + b)
      (p.length + c) = some (p ++ s2 ++ q) := by
  unfold move_median_to_first at h ⊢
  cases ha : s[a]? with
  | none => simp [ha] at h
  | some xa =>
    cases hb : s[b]? with
    | none => simp [ha, hb] at h
    | some xb =>
      cases hc : s[c]? with
      | none => simp [ha, hb, hc] at h
      | some xc =>
        simp only [ha, hb, hc, Option.bind_eq_bind, Option.some_bind] at h
        simp only [getElem?_middle p s q a xa ha, getElem?_middle p s q b xb hb,
          getElem?_middle p s q c xc hc, Option.bind_eq_bind, Option.some_bind]
        split at h <;> (try split at h) <;> (try split at h) <;>
          simp only [*, ↓reduceIte, Bool.false_eq_true] <;>
          exact iter_swap_middle p s q _ _ s2 h

theorem partition_up_middle (p s q : List α) (pivot : Nat) :
    ∀ (fuel : Nat) (first r : Nat) (fuel2 : Nat), fuel ≤ fuel2 →
      partition_up comp fuel s first pivot = some r →
      partition_up comp fuel2 (p ++ s ++ q) (p.length + first) (p.length + pivot)
        = some (p.length + r) := by
  intro fuel
  induction fuel with
  | zero => intro first r fuel2 _ h; simp [partition_up] at h
  | succ f ih =>
    intro first r fuel2 hf h
    obtain ⟨g, rfl⟩ : ∃ g, fuel2 = g + 1 := ⟨fuel2 - 1, by omega⟩
    unfold partition_up at h ⊢
    cases hx : s[first]? with
    | none => simp [hx] at h
    | some x =>
      cases hp : s[pivot]? with
      | none => simp [hx, hp] at h
      | some pv =>
        simp only [hx, hp, Option.bind_eq_bind, Option.some_bind] at h
        simp only [getElem?_middle p s q first x hx, getElem?_middle p s q pivot pv hp,
          Option.bind_eq_bind, Option.some_bind]
        by_cases hc : comp x pv = true
        · rw [if_pos hc] at h ⊢
          exact ih (first + 1) r g (by omega) h
        · rw [if_neg hc] at h ⊢
          cases h
          rfl

theorem partition_down_middle (p s q : List α) (pivot : Nat) :
    ∀ (fuel : Nat) (last r : Nat) (fuel2 : Nat), fuel ≤ fuel2 →
      partition_down comp fuel s last pivot = some r →
      partition_down comp fuel2 (p ++ s ++ q) (p.length + last) (p.length + pivot)
        = some (p.length + r) := by
  intro fuel
  induction fuel with
  | zero => intro last r fuel2 _ h; simp [partition_down] at h
  | succ f ih =>
    intro last r fuel2 hf h
    obtain ⟨g, rfl⟩ : ∃ g, fuel2 = g + 1 := ⟨fuel2 - 1, by omega⟩
    unfold partition_down at h ⊢
    cases hp : s[pivot]? with
    | none => simp [hp] at h
    | some pv =>
      cases hx : s[last]? with
      | none => simp [hx, hp] at h
      | some x =>
        simp only [hx, hp, Option.bind_eq_bind, Option.some_bind] at h
        simp only [getElem?_middle p s q last x hx, getElem?_middle p s q pivot pv hp,
          Option.bind_eq_bind, Option.some_bind]
        by_cases hc : comp pv x = true
        · rw [if_pos hc] at h ⊢
          by_cases h0 : last = 0
          · rw [if_pos h0] at h
            cases h
          · rw [if_neg h0] at h
            rw [if_neg (by omega)]
            have := ih (last - 1) r g (by omega) h
            rw [show p.length + last - 1 = p.length + (last - 1) by omega]
            exact this
        · rw [if_neg hc] at h ⊢
          cases h
          rfl

theorem iter_swap_length (s : List α) (a b : Nat) (s2 : List α)
    (h : iter_swap s a b = some s2) : s2.length = s.length := by
  unfold iter_swap at h
  cases ha : s[a]? with
  | none => simp [ha] at h
  | some xa =>
    cases hb : s[b]? with
    | none => simp [ha, hb] at h
    | some xb =>
      simp only [ha, hb, Option.bind_eq_bind, Option.some_bind] at h
      unfold wr at h
      by_cases h1 : a < s.length
      · rw [if_pos h1] at h
        simp only [Option.some_bind, List.length_set] at h
        by_cases h2 : b < s.length
        · rw [if_pos h2] at h
          cases h
          simp
        · rw [if_neg h2] at h
          cases h
      · rw [if_neg h1] at h
        cases h

theorem unsafe_partition_middle (p q : List α) (pivot : Nat) :
    ∀ (fuel : Nat) (s1 : List α) (first last : Nat) (b : List α) (cut : Nat),
      unsafe_partition comp fuel s1 first last pivot = some (b, cut) →
      unsafe_partition comp fuel (p ++ s1 ++ q) (p.length + first) (p.length + last)
        (p.length + pivot) = some (p ++ b ++ q, p.length + cut) := by
  intro fuel
  induction fuel with
  | zero => intro s1 first last b cut h; simp [unsafe_partition] at h
  | succ f ih =>
    intro s1 first last b cut h
    unfold unsafe_partition at h ⊢
    cases hu : partition_up comp (s1.length + 1) s1 first pivot with
    | none => simp [hu] at h
    | some r1 =>
      simp only [hu, Option.bind_eq_bind, Option.some_bind] at h
      have hu2 := partition_up_middle comp p s1 q pivot (s1.length + 1) first r1
        ((p ++ s1 ++ q).length + 1) (by simp only [List.length_append]; omega) hu
      simp only [hu2, Option.bind_eq_bind, Option.some_bind]
      by_cases h0 : last = 0
      · rw [if_pos h0] at h
        cases h
      · rw [if_neg h0] at h
        rw [if_neg (by omega)]
        cases hd : partition_down comp (s1.length + 1) s1 (last - 1) pivot with
        | none => simp [hd] at h
        | some r2 =>
          simp only [hd, Option.some_bind] at h
          have hd2 := partition_down_middle comp p s1 q pivot (s1.length + 1) (last - 1) r2
            ((p ++ s1 ++ q).length + 1) (by simp only [List.length_append]; omega) hd
          rw [show p.length + last - 1 = p.length + (last - 1) by omega]
          simp only [hd2, Option.some_bind]
          by_cases hlt : r1 < r2
          · rw [if_pos hlt] at h
            rw [if_pos (by omega)]
            cases hs : iter_swap s1 r1 r2 with
            | none => simp [hs] at h
            | some s2 =>
              simp only [hs, Option.some_bind] at h
              simp only [iter_swap_middle p s1 q r1 r2 s2 hs, Option.some_bind]
              have := ih s2 (r1 + 1) r2 b cut h
              rw [show p.length + r1 + 1 = p.length + (r1 + 1) by omega]
              exact this
          · rw [if_neg hlt] at h
            rw [if_neg (by omega)]
            cases h
            rfl

/-- `unsafe_partition_pivot` that succeeds on a range taken as an array of its own does the
same on the range inside a larger array. -/
theorem unsafe_partition_pivot_middle (p s q : List α) (b : List α) (cut : Nat)
    (h : unsafe_partition_pivot comp s 0 s.length = some (b, cut)) :
    unsafe_partition_pivot comp (p ++ s ++ q) p.length (p.length + s.length)
      = some (p ++ b ++ q, p.length + cut) := by
  unfold unsafe_partition_pivot at h ⊢
  by_cases h0 : s.length = 0
  · rw [if_pos h0] at h
    cases h
  · rw [if_neg h0] at h
    rw [if_neg (by omega)]
    simp only [Nat.sub_zero, Nat.zero_add] at h
    cases hm : move_median_to_first comp s 0 1 (s.length / 2) (s.length - 1) with
    | none => simp [hm] at h
    | some s1 =>
      simp only [hm, Option.bind_eq_bind, Option.some_bind] at h
      have hm2 := move_median_to_first_middle comp p s q 0 1 (s.length / 2) (s.length - 1)
        s1 hm
      have e1 : p.length + s.length - p.length = s.length := by omega
      have e2 : p.length + s.length - 1 = p.length + (s.length - 1) := by omega
      simp only [e1, e2, Nat.add_zero] at hm2 ⊢
      simp only [hm2, Option.bind_eq_bind, Option.some_bind]
      have := unsafe_partition_middle comp p q 0 (s.length + 1) s1 1 s.length b cut h
      simpa using this

end partition_frame


/-! ## The pivot of the partition step -/

set_option autoImplicit false

section pivot_median

variable {α : Type} (comp : α → α → Bool)

theorem perm132 (a b c : α) : [a, c, b].Perm [a, b, c] := (List.Perm.swap b c []).cons a

theorem perm213 (a b c : α) : [b, a, c].Perm [a, b, c] := List.Perm.swap a b [c]

theorem perm231 (a b c : α) : [b, c, a].Perm [a, b, c] :=
  ((List.Perm.swap a c []).cons b).trans (List.Perm.swap a b [c])

theorem perm312 (a b c : α) : [c, a, b].Perm [a, b, c] :=
  (List.Perm.swap a c [b]).trans ((List.Perm.swap b c []).cons a)

theorem perm321 (a b c : α) : [c, b, a].Perm [a, b, c] :=
  ((List.Perm.swap a b []).cons c).trans (perm312 a b c)

/-- `move_median_to_first` exchanges the place `first` with one of the three places `ia`,
`ib`, `ic`, and the element of that place is a median of the three elements. -/
theorem move_median_to_first_median (hswo : StrictWeakOrder comp) (d : α) (arr : List α)
    (first ia ib ic : Nat) (h2 : ia < arr.length) (h3 : ib < arr.length)
    (h4 : ic < arr.length) :
    ∃ im, (im = ia ∨ im = ib ∨ im = ic) ∧
      move_median_to_first comp arr first ia ib ic = iter_swap arr first im ∧
      IsMedian comp (gv d arr im) (gv d arr ia) (gv d arr ib) (gv d arr ic) := by
  simp only [move_median_to_first, getElem?_eq_gv d arr ia h2,
    getElem?_eq_gv d arr ib h3, getElem?_eq_gv d arr ic h4, Option.bind_eq_bind,
    Option.some_bind]
  cases hab : comp (gv d arr ia) (gv d arr ib) with
  | true =>
    cases hbc : comp (gv d arr ib) (gv d arr ic) with
    | true =>
      simp only [↓reduceIte]
      exact ⟨ib, Or.inr (Or.inl rfl), rfl, _, _, List.Perm.refl _, hswo.asymm comp hab,
        hswo.asymm comp hbc⟩
    | false =>
      cases hac : comp (gv d arr ia) (gv d arr ic) with
      | true =>
        simp only [↓reduceIte, Bool.false_eq_true]
        exact ⟨ic, Or.inr (Or.inr rfl), rfl, gv d arr ia, gv d arr ib, perm132 _ _ _,
          hswo.asymm comp hac, hbc⟩
      | false =>
        simp only [↓reduceIte, Bool.false_eq_true]
        exact ⟨ia, Or.inl rfl, rfl, gv d arr ic, gv d arr ib, perm312 _ _ _, hac,
          hswo.asymm comp hab⟩
  | false =>
    cases hac : comp (gv d arr ia) (gv d arr ic) with
    | true =>
      simp only [↓reduceIte, Bool.false_eq_true]
      exact ⟨ia, Or.inl rfl, rfl, gv d arr ib, gv d arr ic, perm213 _ _ _, hab,
        hswo.asymm comp hac⟩
    | false =>
      cases hbc : comp (gv d arr ib) (gv d arr ic) with
      | true =>
        simp only [↓reduceIte, Bool.false_eq_true]
        exact ⟨ic, Or.inr (Or.inr rfl), rfl, gv d arr ib, gv d arr ia, perm231 _ _ _,
          hswo.asymm comp hbc, hac⟩
      | false =>
        simp only [↓reduceIte, Bool.false_eq_true]
        exact ⟨ib, Or.inr (Or.inl rfl), rfl, gv d arr ic, gv d arr ia, perm321 _ _ _, hbc,
          hab⟩

/-- `unsafe_partition_pivot` on a range of more than `S_threshold` elements: it returns a
rearrangement of the range and a cut strictly inside it; the element it leaves at `first`,
the pivot, is a median of the elements that were at `first + 1`, in the middle and at
`last - 1`; no element before the cut is greater than the pivot and no element from the cut
on is less. -/
theorem partition_step_spec (hswo : StrictWeakOrder comp) (d : α) (arr : List α)
    (first last : Nat) (hn : S_threshold < last - first) (hl : last ≤ arr.length) :
    ∃ b cut, unsafe_partition_pivot comp arr first last = some (b, cut) ∧
      b.length = arr.length ∧ b.Perm arr ∧ (∀ j, j < first ∨ last ≤ j → b[j]? = arr[j]?) ∧
      first < cut ∧ cut < last ∧
      IsMedian comp (gv d b first) (gv d arr (first + 1))
        (gv d arr (first + (last - first) / 2)) (gv d arr (last - 1)) ∧
      (∀ j, first ≤ j → j < cut → comp (gv d b first) (gv d b j) = false) ∧
      (∀ j, cut ≤ j → j < last → comp (gv d b j) (gv d b first) = false) := by
  have hn2 : 16 < last - first := hn
  have hl0 : last ≠ 0 := by omega
  obtain ⟨a1, e1, hl1, hp1, ho1, u, hu1, hu2, hu3⟩ := move_median_to_first_spec comp hswo d
    arr first (first + 1) (first + (last - first) / 2) (last - 1) (by omega) (by omega)
    (by omega) (by omega)
  obtain ⟨im, him, e2, hmed⟩ := move_median_to_first_median comp hswo d arr first (first + 1)
    (first + (last - first) / 2) (last - 1) (by omega) (by omega) (by omega)
  have himl : im < arr.length ∧ first < im := by
    rcases him with rfl | rfl | rfl <;> constructor <;> omega
  rw [e2, iter_swap_spec d arr first im (by omega) himl.1] at e1
  have ha1 : gv d a1 first = gv d arr im := by
    rw [← Option.some.inj e1]
    exact gv_swap_left d arr first im _ _ (by omega) (by omega)
  obtain ⟨b, cut, e, hbl, hbp, hbo, hc1, hc2, hc3, hc4⟩ := unsafe_partition_spec comp hswo d
    first (first + 1) last rfl (last - first + 1) a1 (first + 1) last (le_refl _) (by omega)
    (le_refl _) (by omega) (fun j hj hjf => by omega) (fun j hj hjf => by omega)
    ⟨u, by omega, by omega, by omega, hu3⟩ (by omega)
  have hbf : gv d b first = gv d arr im := by
    rw [← ha1]
    simp only [gv, hbo first (Or.inl (by omega))]
  refine ⟨b, cut, ?_, by omega, hbp.trans hp1, ?_, by omega, hc2, ?_, ?_, hc4⟩
  · simp only [unsafe_partition_pivot, hl0, ↓reduceIte, e2,
      iter_swap_spec d arr first im (by omega) himl.1, e1, Option.bind_eq_bind,
      Option.some_bind, e]
  · intro j hj
    rw [hbo j (by omega), ho1 j (by omega)]
  · rw [hbf]
    exact hmed
  · intro j hj hjc
    by_cases hjf : j = first
    · rw [hjf]
      exact hswo.irrefl _
    · exact hc3 j (by omega) hjc

end pivot_median


/-! ## The calls of `unsafe_linear_insert` in the last pass of `sort` -/

set_option autoImplicit false

section unsafe_pass

variable {α : Type} (comp : α → α → Bool)

/-- The loop of `unsafe_insertion_sort` for `k + r` turns is the loop for `k` turns followed
by the loop for `r` turns. -/
theorem unsafe_insertion_sort_loop_add : ∀ (k r : Nat) (arr : List α) (it : Nat),
    unsafe_insertion_sort_loop comp (k + r) arr it
      = (unsafe_insertion_sort_loop comp k arr it).bind
          (fun c => unsafe_insertion_sort_loop comp r c (it + k)) := by
  intro k
  induction k with
  | zero =>
    intro r arr it
    simp [unsafe_insertion_sort_loop]
  | succ k ih =>
    intro r arr it
    rw [show k + 1 + r = (k + r) + 1 by omega]
    simp only [unsafe_insertion_sort_loop, Option.bind_eq_bind]
    cases unsafe_linear_insert comp arr it with
    | none => rfl
    | some a2 =>
      simp only [Option.some_bind]
      rw [ih r a2 (it + 1), show it + 1 + k = it + (k + 1) by omega]

/-- The pass of `unsafe_insertion_sort` over `[it, it + n)` seen at its call number `k`:
`k` calls, then the call at `it + k`, then the remaining calls. -/
theorem unsafe_insertion_sort_loop_at (n k : Nat) (hk : k < n) (arr : List α) (it : Nat) :
    unsafe_insertion_sort_loop comp n arr it
      = (unsafe_insertion_sort_loop comp k arr it).bind (fun c =>
          (unsafe_linear_insert comp c (it + k)).bind (fun c2 =>
            unsafe_insertion_sort_loop comp (n - k - 1) c2 (it + k + 1))) := by
  have e : n = k + ((n - k - 1) + 1) := by omega
  conv_lhs => rw [e]
  rw [unsafe_insertion_sort_loop_add]
  rfl

/-- After `introsort_loop` has left an element that no element is less than among the first
`S_threshold` places, `insertion_sort` of these places returns, and every call of
`unsafe_linear_insert` in the pass over the rest returns: below the place of the inserted
value there is an element that is not greater than it. -/
theorem unsafe_pass_calls (hswo : StrictWeakOrder comp) (d : α) (b : List α)
    (hn : S_threshold < b.length)
    (hmin : ∃ m, m < S_threshold ∧ m < b.length ∧
      ∀ j, j < b.length → comp (gv d b j) (gv d b m) = false) :
    ∃ b2, insertion_sort comp b 0 (0 + S_threshold) = some b2 ∧
      ∀ k, k < b.length - S_threshold →
        ∃ a1 a2 v j g, unsafe_insertion_sort_loop comp k b2 S_threshold = some a1 ∧
          a1[S_threshold + k]? = some v ∧
          unsafe_linear_insert comp a1 (S_threshold + k) = some a2 ∧
          j < S_threshold + k ∧ a1[j]? = some g ∧ comp v g = false := by
  obtain ⟨m, hm1, hm2, hm3⟩ := hmin
  have hm16 : m < 16 := hm1
  have hn16 : 16 < b.length := hn
  cases b with
  | nil => simp at hn16
  | cons b0 t =>
    have hsingle : [b0].Pairwise (fun x y => comp y x = false) := List.pairwise_singleton _ _
    have hn2 : 16 < t.length + 1 := by simpa using hn16
    obtain ⟨L2, e2, hs2, hp2⟩ := insertion_sort_loop_spec comp hswo 15 [b0] t (by simp)
      hsingle (by omega)
    have hl2 : L2.length = 16 := by
      have := hp2.length_eq
      simp only [List.length_append, List.length_singleton, List.length_take] at this
      omega
    have hmem : gv d (b0 :: t) m ∈ L2 := by
      rw [hp2.mem_iff]
      have h1 : gv d (b0 :: t) m ∈ (b0 :: t).take 16 := by
        rw [List.mem_iff_getElem?]
        exact ⟨m, by
          rw [List.getElem?_take_of_lt hm16]
          exact getElem?_eq_gv d _ m hm2⟩
      simpa using h1
    have hall : ∀ x ∈ b0 :: t, comp x (gv d (b0 :: t) m) = false := by
      intro x hx
      obtain ⟨j, hj, rfl⟩ := List.mem_iff_getElem.1 hx
      have := hm3 j hj
      simpa [gv, List.getElem?_eq_getElem hj] using this
    have hi : insertion_sort comp (b0 :: t) 0 (0 + S_threshold)
        = insertion_sort_loop comp 15 (b0 :: t) 0 1 := by
      unfold insertion_sort
      rw [if_neg (by simp [S_threshold]), if_pos (by simp [S_threshold])]
      rfl
    have e2b : insertion_sort_loop comp 15 (b0 :: t) 0 1 = some (L2 ++ t.drop 15) := e2
    refine ⟨L2 ++ t.drop 15, by rw [hi, e2b], ?_⟩
    intro k hk
    have hk2 : k < t.length + 1 - 16 := by simpa [S_threshold] using hk
    have hRl : (t.drop 15).length = t.length - 15 := List.length_drop _ _
    obtain ⟨L3, e3, hs3, hp3⟩ := unsafe_insertion_sort_loop_spec comp hswo
      (gv d (b0 :: t) m) k L2 (t.drop 15) hmem hs2 (by omega)
      (fun x hx => hall x (List.mem_cons_of_mem _ (List.mem_of_mem_drop
        (List.mem_of_mem_take hx))))
    have hl3 : L3.length = 16 + k := by
      have := hp3.length_eq
      simp only [List.length_append, List.length_take, hl2, hRl] at this
      omega
    cases hR : (t.drop 15).drop k with
    | nil =>
      have := congrArg List.length hR
      simp only [List.length_drop, List.length_nil] at this
      omega
    | cons v R2 =>
      rw [hR, hl2] at e3
      have hv : v ∈ b0 :: t := by
        have : v ∈ (t.drop 15).drop k := by rw [hR]; simp
        exact List.mem_cons_of_mem _ (List.mem_of_mem_drop (List.mem_of_mem_drop this))
      have hm3b : gv d (b0 :: t) m ∈ L3 := hp3.mem_iff.2 (List.mem_append_left _ hmem)
      have hg : ∃ g ∈ L3.reverse, comp v g = false :=
        ⟨_, by simpa using hm3b, hall v hv⟩
      have hu := unsafe_linear_insert_spec comp L3.reverse v R2 hg
      rw [List.reverse_reverse, List.length_reverse, hl3] at hu
      obtain ⟨j, hj⟩ := List.mem_iff_getElem?.1 hm3b
      have hjl : j < L3.length := by
        by_contra hc
        rw [List.getElem?_eq_none (by omega)] at hj
        cases hj
      refine ⟨L3 ++ v :: R2, _, v, j, gv d (b0 :: t) m, e3, ?_, hu,
        (by show j < 16 + k; omega), ?_, hall v hv⟩
      · have := getElem?_mid L3 v R2
        rw [hl3] at this
        exact this
      · rw [List.getElem?_append_left hjl]
        exact hj

end unsafe_pass


/-! ## The depth counter of `introsort_loop` -/

set_option autoImplicit false

section depth_counter

variable {σ : Type} (val : σ → ℚ) (isZero : σ → Bool) (dec : σ → σ)

theorem counter_stays_negative (hd2 : ∀ x, val x < 1 → val (dec x) < 0) :
    ∀ (k : Nat) (y : σ), val y < 0 → val (dec^[k] y) < 0 := by
  intro k
  induction k with
  | zero => intro y hy; exact hy
  | succ k ih =>
    intro y hy
    rw [Function.iterate_succ_apply]
    exact ih (dec y) (hd2 y (by linarith))

/-- A counter whose value lies strictly between two consecutive natural numbers never
becomes zero, however often it is decremented. -/
theorem counter_never_zero (hd1 : ∀ x, 1 ≤ val x → val (dec x) = val x - 1)
    (hd2 : ∀ x, val x < 1 → val (dec x) < 0) :
    ∀ (k0 : Nat) (x : σ), (k0 : ℚ) < val x → val x < k0 + 1 →
      ∀ k, val (dec^[k] x) ≠ 0 := by
  intro k0
  induction k0 with
  | zero =>
    intro x hlo hhi k
    cases k with
    | zero =>
      simp only [Function.iterate_zero, id_eq]
      simp only [Nat.cast_zero] at hlo
      exact ne_of_gt hlo
    | succ k =>
      rw [Function.iterate_succ_apply]
      simp only [Nat.cast_zero, zero_add] at hhi
      exact ne_of_lt (counter_stays_negative val dec hd2 k (dec x) (hd2 x hhi))
  | succ j ih =>
    intro x hlo hhi k
    have hj : (0 : ℚ) ≤ j := Nat.cast_nonneg j
    push_cast at hlo hhi
    cases k with
    | zero =>
      simp only [Function.iterate_zero, id_eq]
      exact ne_of_gt (by linarith)
    | succ k =>
      rw [Function.iterate_succ_apply]
      have h1 := hd1 x (by linarith)
      exact ih (dec x) (by rw [h1]; linarith) (by rw [h1]; linarith) k

theorem isZero_never (hz : ∀ x, isZero x = true ↔ val x = 0)
    (hd1 : ∀ x, 1 ≤ val x → val (dec x) = val x - 1)
    (hd2 : ∀ x, val x < 1 → val (dec x) < 0)
    (k0 : Nat) (x : σ) (hlo : (k0 : ℚ) < val x) (hhi : val x < k0 + 1) (k : Nat) :
    isZero (dec^[k] x) = false := by
  cases h : isZero (dec^[k] x) with
  | false => rfl
  | true => exact absurd ((hz _).1 h) (counter_never_zero val dec hd1 hd2 k0 x hlo hhi k)

variable {α : Type} (comp : α → α → Bool)

/-- With a counter that never becomes zero `introsort_loop` never takes the heap path. -/
theorem introsort_loop_no_fallback :
    ∀ (fuel : Nat) (arr : List α) (first last : Nat) (c : σ),
      (∀ k, isZero (dec^[k] c) = false) →
      introsort_loop comp isZero dec fuel arr first last c
        = introsort_loop comp (fun _ => false) dec fuel arr first last c := by
  intro fuel
  induction fuel with
  | zero => intro arr first last c _; rfl
  | succ f ih =>
    intro arr first last c hc
    have h0 : isZero c = false := hc 0
    have hdec : ∀ k, isZero (dec^[k] (dec c)) = false := by
      intro k
      have := hc (k + 1)
      rwa [Function.iterate_succ_apply] at this
    unfold introsort_loop
    by_cases hn : last - first > S_threshold
    · rw [if_pos hn, if_pos hn, h0]
      simp only [Bool.false_eq_true, ↓reduceIte, Option.bind_eq_bind]
      cases unsafe_partition_pivot comp arr first last with
      | none => rfl
      | some r =>
        obtain ⟨a1, cut⟩ := r
        simp only [Option.some_bind]
        rw [ih a1 cut last (dec c) hdec]
        cases introsort_loop comp (fun _ => false) dec f a1 cut last (dec c) with
        | none => rfl
        | some a2 =>
          simp only [Option.some_bind]
          exact ih a2 first cut (dec c) hdec
    · rw [if_neg hn, if_neg hn]

/-- The array that `introsort_loop_steps` returns is the array of `introsort_loop`. -/
theorem introsort_loop_steps_fst :
    ∀ (fuel : Nat) (arr : List α) (first last : Nat) (c : σ) (steps : Nat),
      (introsort_loop_steps comp isZero dec fuel arr first last c steps).map Prod.fst
        = introsort_loop comp isZero dec fuel arr first last c := by
  intro fuel
  induction fuel with
  | zero => intro arr first last c steps; rfl
  | succ f ih =>
    intro arr first last c steps
    unfold introsort_loop introsort_loop_steps
    by_cases hn : last - first > S_threshold
    · rw [if_pos hn, if_pos hn]
      cases isZero c with
      | true =>
        simp only [↓reduceIte, Option.bind_eq_bind, Option.pure_def]
        cases partial_sort_impl comp arr first last last <;> rfl
      | false =>
        simp only [Bool.false_eq_true, ↓reduceIte, Option.bind_eq_bind, Option.pure_def]
        cases unsafe_partition_pivot comp arr first last with
        | none => rfl
        | some r =>
          obtain ⟨a1, cut⟩ := r
          simp only [Option.some_bind]
          rw [← ih a1 cut last (dec c) (steps + 1)]
          cases introsort_loop_steps comp isZero dec f a1 cut last (dec c) (steps + 1) with
          | none => rfl
          | some r2 =>
            obtain ⟨a2, d1⟩ := r2
            simp only [Option.some_bind, Option.map_some']
            rw [← ih a2 first cut (dec c) (steps + 1)]
            cases introsort_loop_steps comp isZero dec f a2 first cut (dec c) (steps + 1) with
            | none => rfl
            | some r3 => rfl
    · rw [if_neg hn, if_neg hn]
      rfl

end depth_counter

/-- The natural logarithm of 64, doubled, lies between 8 and 9. -/
theorem two_log_64 : (8 : ℝ) < 2 * Real.log 64 ∧ 2 * Real.log 64 < 9 := by
  have e : Real.log 64 = 6 * Real.log 2 := by
    rw [show (64 : ℝ) = 2 ^ 6 by norm_num, Real.log_pow]
    norm_num
  have h1 := Real.log_two_gt_d9
  have h2 := Real.log_two_lt_d9
  rw [e]
  constructor <;> linarith

/-- For every `n` above 16 the natural logarithm of `n`, doubled, is smaller than
`2 * floor(log2(n))` by more than 1/5. -/
theorem two_log_lt_two_log2 (n : Nat) (hn : 16 < n) :
    2 * Real.log n + 1 / 5 < 2 * (Nat.log 2 n : ℝ) := by
  have hm : 4 ≤ Nat.log 2 n := Nat.le_log_of_pow_le (by norm_num) (by omega)
  have hlt : n < 2 ^ (Nat.log 2 n + 1) := Nat.lt_pow_succ_log_self (by norm_num) n
  have hn0 : (0 : ℝ) < n := by
    have : 0 < n := by omega
    exact_mod_cast this
  have hcast : (n : ℝ) < (2 : ℝ) ^ (Nat.log 2 n + 1) := by exact_mod_cast hlt
  have h1 : Real.log n < Real.log ((2 : ℝ) ^ (Nat.log 2 n + 1)) := Real.log_lt_log hn0 hcast
  rw [Real.log_pow] at h1
  have h2 := Real.log_two_lt_d9
  have hm4 : (4 : ℝ) ≤ (Nat.log 2 n : ℝ) := by exact_mod_cast hm
  have h3 : ((Nat.log 2 n + 1 : ℕ) : ℝ) * Real.log 2
      ≤ ((Nat.log 2 n + 1 : ℕ) : ℝ) * 0.6931471808 :=
    mul_le_mul_of_nonneg_left (le_of_lt h2) (by positivity)
  push_cast at h1 h3
  nlinarith


/-! ## Reasoning about calls that can throw -/

set_option autoImplicit false

section sat_rules

variable {α : Type}

theorem Sat_ret {σ β : Type} {P : β → Prop} {Q : σ → Prop} {x : β} (h : P x) :
    Outcome.Sat P Q (Outcome.ret x) := h

end sat_rules

section one_off

variable {α : Type}

theorem OneOff_refl (a : List α) : OneOff a a := Or.inl (List.Perm.refl a)

end one_off


/-! ## The heap functions under a comparator that throws: what the range holds -/

set_option autoImplicit false

section throwing_heap

variable {α : Type} (comp : α → α → Option Bool)

end throwing_heap


/-! ## `sort` under a comparator that throws: what the range holds -/

set_option autoImplicit false

section throwing_sort

variable {α : Type} (comp : α → α → Option Bool)

end throwing_sort


/-! ## A comparator that throws changes nothing before it throws -/

set_option autoImplicit false

section thrown_or_rules

variable {α : Type}

end thrown_or_rules

section thrown_or_heap

variable {α : Type} {compT : α → α → Option Bool} {comp : α → α → Bool}

end thrown_or_heap


/-! ## `sort` under a comparator that throws, before it throws -/

set_option autoImplicit false

section thrown_or_sort

variable {α : Type} {compT : α → α → Option Bool} {comp : α → α → Bool}

end thrown_or_sort


/-! ## The two ways a call under a comparator that throws ends -/

set_option autoImplicit false

section rearr_outcomes

variable {α : Type}

end rearr_outcomes


/-! ## Lookup claims -/

section lookup_claims

variable {α κ : Type}

/-- C9. For every valid tree and key `k`, with `ns` the nodes visited from `begin()` to
`end()`: `find(k)` returns the first node of `ns` whose key is equivalent to `k` (neither
`comp(key, k)` nor `comp(k, key)`), and `end()` when `ns` has no such node; `end()` is not
one of the visited nodes, so the result is `end()` exactly when no stored key is equivalent
to `k`. -/
theorem find_spec (KeyOfT : α → κ) (KeyCompare : κ → κ → Bool)
    (hswo : StrictWeakOrder KeyCompare) (t : rbtree α) (hv : t.Valid KeyOfT KeyCompare)
    (k : κ) :
    ∃ ns : List Ptr, ∃ N : Nat, ∀ fuel, N ≤ fuel →
      t.nodes fuel = some ns ∧ t.mEnd ∉ ns ∧
      t.find KeyOfT KeyCompare fuel k =
        some ((ns.find? (fun p => (sKey KeyOfT t p).any
          (fun kp => !KeyCompare kp k && !KeyCompare k kp))).getD t.mEnd) := by
  obtain ⟨T, h, ho, -⟩ := hv
  refine ⟨T.ptrs, T.ptrs.length + 2, fun fuel hf => ⟨nodes_spec h fuel hf, h.mem.hdr_notin, ?_⟩⟩
  exact find_first hswo h ho k fuel (by omega)

/-- Witness for C9 on the set `{1, 2, 3}` built by inserting 2, 1, 3: the hypotheses hold
there and, with fuel 40, `find(3)` is the node holding 3 while `find(7)` is `end()`. -/
theorem find_spec_witness :
    StrictWeakOrder natLess ∧ (treeOfList [2, 1, 3]).Valid id natLess ∧
    (∃ ns : List Ptr, ∃ N : Nat, ∀ fuel, N ≤ fuel →
      (treeOfList [2, 1, 3]).nodes fuel = some ns ∧ (treeOfList [2, 1, 3]).mEnd ∉ ns ∧
      (treeOfList [2, 1, 3]).find id natLess fuel 3 =
        some ((ns.find? (fun p => (sKey id (treeOfList [2, 1, 3]) p).any
          (fun kp => !natLess kp 3 && !natLess 3 kp))).getD (treeOfList [2, 1, 3]).mEnd)) ∧
    (treeOfList [2, 1, 3]).find id natLess 40 3 = some 4 ∧
    (treeOfList [2, 1, 3]).find id natLess 40 7 = some (treeOfList [2, 1, 3]).mEnd :=
  ⟨natLess_swo, treeOfList_213_valid,
    find_spec id natLess natLess_swo (treeOfList [2, 1, 3]) treeOfList_213_valid 3,
    by decide!, by decide!⟩

/-- C10. For every valid tree and key `k`, with `ns` the nodes visited from `begin()` to
`end()`: `lower_bound(k)` returns the first node of `ns` whose key is not less than `k`
(`comp(key, k)` false) and `upper_bound(k)` the first node of `ns` whose key is greater than
`k` (`comp(k, key)` true); each returns `end()` when `ns` has no such node. -/
theorem lower_upper_bound_spec (KeyOfT : α → κ) (KeyCompare : κ → κ → Bool)
    (hswo : StrictWeakOrder KeyCompare) (t : rbtree α) (hv : t.Valid KeyOfT KeyCompare)
    (k : κ) :
    ∃ ns : List Ptr, ∃ N : Nat, ∀ fuel, N ≤ fuel →
      t.nodes fuel = some ns ∧ t.mEnd ∉ ns ∧
      t.lower_bound KeyOfT KeyCompare fuel k =
        some ((ns.find? (fun p => (sKey KeyOfT t p).any (fun kp => !KeyCompare kp k))).getD
          t.mEnd) ∧
      t.upper_bound KeyOfT KeyCompare fuel k =
        some ((ns.find? (fun p => (sKey KeyOfT t p).any (fun kp => KeyCompare k kp))).getD
          t.mEnd) := by
  obtain ⟨T, h, ho, -⟩ := hv
  refine ⟨T.ptrs, T.ptrs.length + 2, fun fuel hf => ⟨nodes_spec h fuel hf, h.mem.hdr_notin, ?_, ?_⟩⟩
  · exact lower_bound_first hswo h ho k fuel (by omega)
  · exact upper_bound_first hswo h ho k fuel (by omega)

/-- Witness for C10 on the set `{1, 2, 3}` built by inserting 2, 1, 3: the hypotheses hold
there and, with fuel 40, `lower_bound(2)` is the node holding 2 (the root, address 2) and
`upper_bound(2)` the node holding 3 (address 4). -/
theorem lower_upper_bound_spec_witness :
    StrictWeakOrder natLess ∧ (treeOfList [2, 1, 3]).Valid id natLess ∧
    (∃ ns : List Ptr, ∃ N : Nat, ∀ fuel, N ≤ fuel →
      (treeOfList [2, 1, 3]).nodes fuel = some ns ∧ (treeOfList [2, 1, 3]).mEnd ∉ ns ∧
      (treeOfList [2, 1, 3]).lower_bound id natLess fuel 2 =
        some ((ns.find? (fun p => (sKey id (treeOfList [2, 1, 3]) p).any
          (fun kp => !natLess kp 2))).getD (treeOfList [2, 1, 3]).mEnd) ∧
      (treeOfList [2, 1, 3]).upper_bound id natLess fuel 2 =
        some ((ns.find? (fun p => (sKey id (treeOfList [2, 1, 3]) p).any
          (fun kp => natLess 2 kp))).getD (treeOfList [2, 1, 3]).mEnd)) ∧
    (treeOfList [2, 1, 3]).lower_bound id natLess 40 2 = some 2 ∧
    (treeOfList [2, 1, 3]).upper_bound id natLess 40 2 = some 4 :=
  ⟨natLess_swo, treeOfList_213_valid,
    lower_upper_bound_spec id natLess natLess_swo (treeOfList [2, 1, 3]) treeOfList_213_valid 2,
    by decide!, by decide!⟩

end lookup_claims


/-! ## Insertion claims -/

section insert_claims

variable {α κ : Type}

/-- C7. For every valid tree and value, with `old` the in-order traversal before the call
and enough fuel for the loops: if some stored element has a key equivalent to the key of
`value`, `DoInsertUnique(value)` returns the position of such an element with `false` and
the tree object is unchanged; otherwise it returns the position of a node holding `value`
with `true`, the tree is valid again, `size()` has grown by one and the new traversal is
`old` with `value` put after the elements with a smaller key and before the others. -/
theorem DoInsertUnique_spec (KeyOfT : α → κ) (KeyCompare : κ → κ → Bool)
    (hswo : StrictWeakOrder KeyCompare) (t : rbtree α) (hv : t.Valid KeyOfT KeyCompare)
    (value : α) (fuel : Nat) (hf : t.size + 3 ≤ fuel) :
    ∃ old, t.toList fuel = some old ∧
      ((∃ e ∈ old, KeyCompare (KeyOfT value) (KeyOfT e) = false ∧
          KeyCompare (KeyOfT e) (KeyOfT value) = false) →
        ∃ y e, t.DoInsertUnique KeyOfT KeyCompare fuel value = some ((y, false), t) ∧
          sValue t y = some e ∧ e ∈ old ∧ KeyCompare (KeyOfT value) (KeyOfT e) = false ∧
          KeyCompare (KeyOfT e) (KeyOfT value) = false) ∧
      ((¬ ∃ e ∈ old, KeyCompare (KeyOfT value) (KeyOfT e) = false ∧
          KeyCompare (KeyOfT e) (KeyOfT value) = false) →
        ∃ pNew t2, t.DoInsertUnique KeyOfT KeyCompare fuel value = some ((pNew, true), t2) ∧
          t2.Valid KeyOfT KeyCompare ∧ t2.size = t.size + 1 ∧ sValue t2 pNew = some value ∧
          t2.toList fuel = some
            (old.takeWhile (fun e => KeyCompare (KeyOfT e) (KeyOfT value)) ++
              value :: old.dropWhile (fun e => KeyCompare (KeyOfT e) (KeyOfT value)))) := by
  obtain ⟨T, h, ho, hrb⟩ := hv
  have hsz : t.size = T.ptrs.length := h.size
  refine ⟨T.vals, toList_spec h fuel (by omega), ?_, ?_⟩
  · intro hex
    rcases DoInsertUnique_holds KeyOfT KeyCompare hswo h ho hrb value fuel (by omega) with
      ⟨e, he, h1, h2, h3⟩ | ⟨hno, -⟩
    · exact ⟨e.1, e.2, h3, TreeAt_sValue_elems h.mem.tree e he, Tr.mem_vals_of_mem_elems he,
        h1, h2⟩
    · obtain ⟨e, he, h1, h2⟩ := hex
      rcases hno e he with h4 | h4
      · rw [h1] at h4; exact absurd h4 (by simp)
      · rw [h2] at h4; exact absurd h4 (by simp)
  · intro hno
    rcases DoInsertUnique_holds KeyOfT KeyCompare hswo h ho hrb value fuel (by omega) with
      ⟨e, he, h1, h2, -⟩ | ⟨hall, t2, T2, e2, h2, ho2, hrb2, hv2, hvals⟩
    · exact absurd ⟨e.2, Tr.mem_vals_of_mem_elems he, h1, h2⟩ hno
    · obtain ⟨c1, c2⟩ := takeWhile_lt_eq KeyOfT KeyCompare hswo value T.vals hall
      rw [c1, c2] at hvals
      have hlen : T2.ptrs.length = T.ptrs.length + 1 := by
        rw [← Tr.vals_length, hvals, takeWhile_dropWhile_length, Tr.vals_length]
      refine ⟨t.brk, t2, e2, ⟨T2, h2, ho2, hrb2⟩, ?_, hv2, ?_⟩
      · show t2.mSize = t.mSize + 1
        rw [h2.size, hlen, ← h.size]
      · rw [toList_spec h2 fuel (by omega), hvals]

/-- Witness for C7 on the set `{1, 2, 3}` built by inserting 2, 1, 3: the hypotheses hold
there; with fuel 40, inserting 3 again returns the node holding 3 (address 4) with `false`,
and inserting 0 gives the traversal 0, 1, 2, 3. -/
theorem DoInsertUnique_spec_witness :
    StrictWeakOrder natLess ∧ (treeOfList [2, 1, 3]).Valid id natLess ∧
    (∃ old, (treeOfList [2, 1, 3]).toList 40 = some old ∧
      ((∃ e ∈ old, natLess (id 0) (id e) = false ∧ natLess (id e) (id 0) = false) →
        ∃ y e, (treeOfList [2, 1, 3]).DoInsertUnique id natLess 40 0
            = some ((y, false), treeOfList [2, 1, 3]) ∧
          sValue (treeOfList [2, 1, 3]) y = some e ∧ e ∈ old ∧ natLess (id 0) (id e) = false ∧
          natLess (id e) (id 0) = false) ∧
      ((¬ ∃ e ∈ old, natLess (id 0) (id e) = false ∧ natLess (id e) (id 0) = false) →
        ∃ pNew t2, (treeOfList [2, 1, 3]).DoInsertUnique id natLess 40 0
            = some ((pNew, true), t2) ∧
          t2.Valid id natLess ∧ t2.size = (treeOfList [2, 1, 3]).size + 1 ∧
          sValue t2 pNew = some 0 ∧
          t2.toList 40 = some
            (old.takeWhile (fun e => natLess (id e) (id 0)) ++
              0 :: old.dropWhile (fun e => natLess (id e) (id 0))))) ∧
    ((treeOfList [2, 1, 3]).DoInsertUnique id natLess 40 3).map Prod.fst = some (4, false) ∧
    ((treeOfList [2, 1, 3]).DoInsertUnique id natLess 40 0).bind (fun r => r.2.toList 40)
      = some [0, 1, 2, 3] :=
  ⟨natLess_swo, treeOfList_213_valid,
    DoInsertUnique_spec id natLess natLess_swo (treeOfList [2, 1, 3]) treeOfList_213_valid 0 40
      (by decide!),
    by decide!, by decide!⟩

/-- C8. For every valid tree and value, with `old` the in-order traversal before the call
and enough fuel for the loops: `DoInsertMulti(value)` succeeds, the returned position holds
`value`, the tree is valid again, `size()` has grown by one, and the new traversal is `old`
with `value` put after every element whose key is not greater than its key (so after all
the equivalent ones) and before the elements with a greater key. -/
theorem DoInsertMulti_spec (KeyOfT : α → κ) (KeyCompare : κ → κ → Bool)
    (hswo : StrictWeakOrder KeyCompare) (t : rbtree α) (hv : t.Valid KeyOfT KeyCompare)
    (value : α) (fuel : Nat) (hf : t.size + 3 ≤ fuel) :
    ∃ old pNew t2, t.toList fuel = some old ∧
      t.DoInsertMulti KeyOfT KeyCompare fuel value = some (pNew, t2) ∧
      t2.Valid KeyOfT KeyCompare ∧ t2.size = t.size + 1 ∧ sValue t2 pNew = some value ∧
      t2.toList fuel = some
        (old.takeWhile (fun e => !KeyCompare (KeyOfT value) (KeyOfT e)) ++
          value :: old.dropWhile (fun e => !KeyCompare (KeyOfT value) (KeyOfT e))) := by
  obtain ⟨T, h, ho, hrb⟩ := hv
  have hsz : t.size = T.ptrs.length := h.size
  obtain ⟨t2, T2, e2, h2, ho2, hrb2, hv2, hvals⟩ :=
    DoInsertMulti_holds KeyOfT KeyCompare hswo h ho hrb value fuel (by omega)
  have hlen : T2.ptrs.length = T.ptrs.length + 1 := by
    rw [← Tr.vals_length, hvals, takeWhile_dropWhile_length, Tr.vals_length]
  refine ⟨T.vals, t.brk, t2, toList_spec h fuel (by omega), e2, ⟨T2, h2, ho2, hrb2⟩, ?_, hv2, ?_⟩
  · show t2.mSize = t.mSize + 1
    rw [h2.size, hlen, ← h.size]
  · rw [toList_spec h2 fuel (by omega), hvals]

/-- Witness for C8 on the set `{1, 2, 3}` built by inserting 2, 1, 3: the hypotheses hold
there and, with fuel 40, `DoInsertMulti(2)` gives the traversal 1, 2, 2, 3 with the new
node (address 5) right after the node that held 2 before (address 2). -/
theorem DoInsertMulti_spec_witness :
    StrictWeakOrder natLess ∧ (treeOfList [2, 1, 3]).Valid id natLess ∧
    (∃ old pNew t2, (treeOfList [2, 1, 3]).toList 40 = some old ∧
      (treeOfList [2, 1, 3]).DoInsertMulti id natLess 40 2 = some (pNew, t2) ∧
      t2.Valid id natLess ∧ t2.size = (treeOfList [2, 1, 3]).size + 1 ∧
      sValue t2 pNew = some 2 ∧
      t2.toList 40 = some
        (old.takeWhile (fun e => !natLess (id 2) (id e)) ++
          2 :: old.dropWhile (fun e => !natLess (id 2) (id e)))) ∧
    ((treeOfList [2, 1, 3]).DoInsertMulti id natLess 40 2).bind (fun r => r.2.toList 40)
      = some [1, 2, 2, 3] ∧
    ((treeOfList [2, 1, 3]).DoInsertMulti id natLess 40 2).bind (fun r => r.2.nodes 40)
      = some [3, 2, 5, 4] :=
  ⟨natLess_swo, treeOfList_213_valid,
    DoInsertMulti_spec id natLess natLess_swo (treeOfList [2, 1, 3]) treeOfList_213_valid 2 40
      (by decide!),
    by decide!, by decide!⟩

end insert_claims


/-! ## The hinted multi insertion -/

/-- The set `{1, 2}` built by inserting 1, 2 is a valid tree: the black root 1 at address 2
with the red right child 2 at address 3. -/
theorem treeOfList_12_valid : (treeOfList [1, 2]).Valid id natLess := by
  refine ⟨Tr.node rbtree_color.mBlack Tr.nil 2 1 (Tr.node rbtree_color.mRed Tr.nil 3 2 Tr.nil),
    ⟨⟨by decide!, ?_, by decide!, by decide!, by decide!⟩, by decide!, by decide!, ?_,
      by decide!, by decide!⟩, ?_, ?_⟩
  · exact ⟨by decide!, by decide!, by decide!, trivial,
      ⟨by decide!, by decide!, by decide!, trivial, trivial⟩⟩
  · intro p hp
    have hb : (treeOfList [1, 2]).brk = 4 := by decide!
    rw [hb]
    simp only [Tr.ptrs, List.nil_append, List.cons_append, List.mem_cons,
      List.mem_nil_iff, or_false] at hp
    rcases hp with rfl | rfl <;> decide
  · simp [Ordered, Tr.vals, natLess]
  · refine ⟨rfl, ?_, 1, ?_⟩
    · simp [Tr.noRedRed, Tr.color]
    · simp [Tr.blackHeight]

/-- C4, the failing input. On the valid tree holding 1, 2 (built by inserting 1, then 2),
`DoInsertMulti(begin(), 1)` with the hint at the element 1 links the new node as the right
child of the hint and so overwrites the link to the node holding 2: afterwards the
traversal from `begin()` to `end()` is 1, 1 while `size()` is 3, and `validate()` is
false. -/
theorem DoInsertMulti_hint_unlinks_element :
    (treeOfList [1, 2]).Valid id natLess ∧
    (treeOfList [1, 2]).toList 40 = some [1, 2] ∧
    (treeOfList [1, 2]).begin = 2 ∧ sValue (treeOfList [1, 2]) 2 = some 1 ∧
    ((treeOfList [1, 2]).DoInsertMulti_hint id natLess 40 (treeOfList [1, 2]).begin 1).map
        (fun r => (r.2.toList 40, r.2.size, r.2.validate id natLess 40))
      = some (some [1, 1], 3, some false) :=
  ⟨treeOfList_12_valid, by decide!, by decide!, by decide!, by decide!⟩


/-! ## Sequences of insertions: the traversal stays sorted -/

section sequence_claims

variable {α κ : Type}

/-- C1. For every finite sequence `ops` of insertions (`DoInsertUnique` or `DoInsertMulti`
of a value, one at a time) into an initially empty tree under a strict weak order, with
enough fuel for the loops, after each of them (after the first `n`, for every `n`): the
insertions have succeeded, the tree is valid, and the traversal from `begin()` to `end()`
is in non-decreasing key order and is a rearrangement of the values accepted so far; when
the inserted values have pairwise inequivalent keys, all of them are accepted and the
traversal is the one arrangement of them in key order. -/
theorem insert_sequence_sorted (KeyOfT : α → κ) (KeyCompare : κ → κ → Bool)
    (hswo : StrictWeakOrder KeyCompare) (ops : List (Bool × α)) (fuel : Nat)
    (hf : ops.length + 2 ≤ fuel) (n : Nat) :
    ∃ t l, insertSeq KeyOfT KeyCompare fuel (ops.take n) rbtree.init = some t ∧
      t.Valid KeyOfT KeyCompare ∧ t.toList fuel = some l ∧ t.size = l.length ∧
      Ordered KeyOfT KeyCompare l ∧
      l.Perm (accepted KeyOfT KeyCompare (ops.take n) []) ∧
      (((ops.take n).map Prod.snd).Pairwise (fun a b =>
          KeyCompare (KeyOfT a) (KeyOfT b) = true ∨ KeyCompare (KeyOfT b) (KeyOfT a) = true) →
        l.Perm ((ops.take n).map Prod.snd) ∧
        ∀ l2, Ordered KeyOfT KeyCompare l2 → l2.Perm ((ops.take n).map Prod.snd) → l2 = l) := by
  have hlen : (ops.take n).length ≤ ops.length := by
    rw [List.length_take]; exact Nat.min_le_right _ _
  obtain ⟨t, T, e, h, ho, hrb, hp, hl⟩ := insertSeq_spec KeyOfT KeyCompare hswo (ops.take n)
    init_holds (by simp [Ordered, Tr.vals]) RedBlack_nil fuel
    (by simp only [Tr.ptrs, List.length_nil]; omega) [] (by simp [Tr.vals])
  simp only [Tr.ptrs, List.length_nil, Nat.zero_add] at hl
  refine ⟨t, T.vals, e, ⟨T, h, ho, hrb⟩, toList_spec h fuel (by omega), ?_, ho, hp, ?_⟩
  · show t.mSize = _
    rw [h.size, Tr.vals_length]
  · intro hpw
    have hacc := accepted_of_pairwise KeyOfT KeyCompare (ops.take n) [] (by simpa using hpw)
    rw [hacc, List.nil_append] at hp
    exact ⟨hp, fun l2 ho2 hp2 => ordered_perm_unique KeyOfT KeyCompare _ _ _ hpw hp ho hp2 ho2⟩

/-- Witness for C1 on the sequence 5, 3, 8, 1, 4, 7, 9, 2, 6 of unique insertions of
numbers with fuel 40: the hypotheses hold, and the traversals after 0, 1, ..., 9
insertions are the sorted prefixes, the last one 1, 2, ..., 9. -/
theorem insert_sequence_sorted_witness :
    StrictWeakOrder natLess ∧
    ([5, 3, 8, 1, 4, 7, 9, 2, 6].map (fun v => (true, v))).length + 2 ≤ 40 ∧
    (∃ t l, insertSeq id natLess 40
        (([5, 3, 8, 1, 4, 7, 9, 2, 6].map (fun v => (true, v))).take 9) rbtree.init = some t ∧
      t.Valid id natLess ∧ t.toList 40 = some l ∧ t.size = l.length ∧
      Ordered id natLess l ∧
      l.Perm (accepted id natLess
        (([5, 3, 8, 1, 4, 7, 9, 2, 6].map (fun v => (true, v))).take 9) []) ∧
      (((([5, 3, 8, 1, 4, 7, 9, 2, 6].map (fun v => (true, v))).take 9).map Prod.snd).Pairwise
          (fun a b => natLess (id a) (id b) = true ∨ natLess (id b) (id a) = true) →
        l.Perm ((([5, 3, 8, 1, 4, 7, 9, 2, 6].map (fun v => (true, v))).take 9).map Prod.snd) ∧
        ∀ l2, Ordered id natLess l2 →
          l2.Perm ((([5, 3, 8, 1, 4, 7, 9, 2, 6].map (fun v => (true, v))).take 9).map
            Prod.snd) → l2 = l)) ∧
    (List.range 10).map (fun n => (insertSeq id natLess 40
        (([5, 3, 8, 1, 4, 7, 9, 2, 6].map (fun v => (true, v))).take n) rbtree.init).bind
        (fun t => t.toList 40)) =
      [some [], some [5], some [3, 5], some [3, 5, 8], some [1, 3, 5, 8], some [1, 3, 4, 5, 8],
        some [1, 3, 4, 5, 7, 8], some [1, 3, 4, 5, 7, 8, 9], some [1, 2, 3, 4, 5, 7, 8, 9],
        some [1, 2, 3, 4, 5, 6, 7, 8, 9]] :=
  ⟨natLess_swo, by decide,
    insert_sequence_sorted id natLess natLess_swo
      ([5, 3, 8, 1, 4, 7, 9, 2, 6].map (fun v => (true, v))) 40 (by decide) 9,
    by decide!⟩

end sequence_claims


/-! ## `equal_range` -/

section equal_range_claims

variable {α κ : Type}

/-- C11. For every valid tree and key `k`, with `ns` the nodes visited from `begin()` to
`end()` and enough fuel: `equal_range(k)` returns the pair of the results of
`lower_bound(k)` and `upper_bound(k)`; `ns` splits as `l1 ++ l2 ++ l3` where `l2` holds
nodes with a key equivalent to `k`, the first position of the pair is the first node of
`l2 ++ l3` and the second the first node of `l3` (`end()` when there is none), so `l2` is
the range between them; and when the tree was built from the empty tree by unique
insertions only, `l2` has at most one node. -/
theorem equal_range_spec (KeyOfT : α → κ) (KeyCompare : κ → κ → Bool)
    (hswo : StrictWeakOrder KeyCompare) (t : rbtree α) (hv : t.Valid KeyOfT KeyCompare)
    (k : κ) :
    ∃ ns : List Ptr, ∃ N : Nat, ∀ fuel, N ≤ fuel →
      t.nodes fuel = some ns ∧
      ∃ lb ub, t.lower_bound KeyOfT KeyCompare fuel k = some lb ∧
        t.upper_bound KeyOfT KeyCompare fuel k = some ub ∧
        t.equal_range KeyOfT KeyCompare fuel k = some (lb, ub) ∧
        ∃ l1 l2 l3, ns = l1 ++ l2 ++ l3 ∧ lb = firstD (l2 ++ l3) t.mEnd ∧
          ub = firstD l3 t.mEnd ∧
          (∀ p ∈ l2, (sKey KeyOfT t p).any
            (fun kp => !KeyCompare kp k && !KeyCompare k kp) = true) ∧
          ((∃ ops fuel0, (∀ op ∈ ops, op.1 = true) ∧ ops.length + 2 ≤ fuel0 ∧
              insertSeq KeyOfT KeyCompare fuel0 ops rbtree.init = some t) →
            l2.length ≤ 1) := by
  obtain ⟨T, h, ho, -⟩ := hv
  obtain ⟨E1, E2, E3, hE, h2, hfu⟩ := equal_range_split KeyOfT KeyCompare hswo h ho k
  refine ⟨T.ptrs, T.ptrs.length + 2, fun fuel hf => ⟨nodes_spec h fuel hf, ?_⟩⟩
  obtain ⟨e1, e2, e3⟩ := hfu fuel (by omega)
  refine ⟨_, _, e1, e2, e3, E1.map Prod.fst, E2.map Prod.fst, E3.map Prod.fst, ?_, ?_, rfl,
    ?_, ?_⟩
  · rw [Tr.ptrs_eq_map_elems, hE, List.map_append, List.map_append]
  · rw [List.map_append]
  · intro p hp
    obtain ⟨e, he, rfl⟩ := List.mem_map.1 hp
    have hk := TreeAt_sKey_elems KeyOfT h.mem.tree e (by rw [hE]; simp [he])
    rw [hk]
    simp [(h2 e he).1, (h2 e he).2]
  · rintro ⟨ops, fuel0, hu, hf0, hseq⟩
    have hpw := unique_built_pairwise KeyOfT KeyCompare hswo ops hu fuel0 hf0 h hseq
    rw [Tr.vals_eq_map_elems, hE, List.map_append, List.map_append] at hpw
    have hpw2 := (List.pairwise_append.1 (List.pairwise_append.1 hpw).1).2.1
    have := equiv_run_le_one KeyOfT KeyCompare hswo k (E2.map Prod.snd) hpw2 (by
      intro e he
      obtain ⟨x, hx, rfl⟩ := List.mem_map.1 he
      exact h2 x hx)
    simpa using this

/-- Witness for C11 on the set `{1, 2, 3}` built by inserting 2, 1, 3: the hypotheses hold
there and, with fuel 40, `equal_range(2)` is the pair of the node holding 2 (address 2) and
the node holding 3 (address 4), and `equal_range(7)` is `(end(), end())`. -/
theorem equal_range_spec_witness :
    StrictWeakOrder natLess ∧ (treeOfList [2, 1, 3]).Valid id natLess ∧
    (∃ ns : List Ptr, ∃ N : Nat, ∀ fuel, N ≤ fuel →
      (treeOfList [2, 1, 3]).nodes fuel = some ns ∧
      ∃ lb ub, (treeOfList [2, 1, 3]).lower_bound id natLess fuel 2 = some lb ∧
        (treeOfList [2, 1, 3]).upper_bound id natLess fuel 2 = some ub ∧
        (treeOfList [2, 1, 3]).equal_range id natLess fuel 2 = some (lb, ub) ∧
        ∃ l1 l2 l3, ns = l1 ++ l2 ++ l3 ∧ lb = firstD (l2 ++ l3) (treeOfList [2, 1, 3]).mEnd ∧
          ub = firstD l3 (treeOfList [2, 1, 3]).mEnd ∧
          (∀ p ∈ l2, (sKey id (treeOfList [2, 1, 3]) p).any
            (fun kp => !natLess kp 2 && !natLess 2 kp) = true) ∧
          ((∃ ops fuel0, (∀ op ∈ ops, op.1 = true) ∧ ops.length + 2 ≤ fuel0 ∧
              insertSeq id natLess fuel0 ops rbtree.init = some (treeOfList [2, 1, 3])) →
            l2.length ≤ 1)) ∧
    (treeOfList [2, 1, 3]).equal_range id natLess 40 2 = some (2, 4) ∧
    (treeOfList [2, 1, 3]).equal_range id natLess 40 7 = some (1, 1) ∧
    insertSeq id natLess 40 [(true, 2), (true, 1), (true, 3)] rbtree.init
      = some (treeOfList [2, 1, 3]) :=
  ⟨natLess_swo, treeOfList_213_valid,
    equal_range_spec id natLess natLess_swo (treeOfList [2, 1, 3]) treeOfList_213_valid 2,
    by decide!, by decide!, by
      simp only [insertSeq, insertStep, treeOfList, List.foldl, ↓reduceIte]
      rfl⟩

end equal_range_claims


/-! ## `validate()` and the size after a hinted insertion -/

theorem skewedTree_holds : skewedTree.Holds skewedShape := by
  refine ⟨⟨by decide, ?_, by decide, by decide, by decide⟩, by decide, by decide, ?_,
    by decide, by decide⟩
  · refine ⟨by decide, rfl, rfl, ⟨by decide, rfl, rfl, ⟨by decide, rfl, rfl, trivial, trivial⟩,
      trivial⟩, ⟨by decide, rfl, rfl, trivial, ⟨by decide, rfl, rfl, trivial, trivial⟩⟩⟩
  · intro p hp
    have hb : skewedTree.brk = 7 := rfl
    rw [hb]
    simp only [skewedShape, Tr.ptrs, List.nil_append, List.cons_append, List.mem_cons,
      List.mem_nil_iff, or_false] at hp
    rcases hp with rfl | rfl | rfl | rfl | rfl <;> decide

/-- C14, the failing input. The constructed state `skewedTree` is a well-formed layout of
five black nodes in key order, with correct leftmost and rightmost links and the correct
size, in which the null right link of the node holding 2 is reached through two black nodes
and the null links of the node holding 1 through three; no shape with equal black heights
is held by it, so it is not a valid tree, yet `validate()` returns true: the black count is
compared only at the leftmost node, the rightmost node and the nodes without children. -/
theorem validate_accepts_unequal_black_heights :
    skewedTree.Holds skewedShape ∧ Ordered id natLess skewedShape.vals ∧
    skewedShape.noRedRed ∧ skewedShape.color = rbtree_color.mBlack ∧
    (¬ ∃ n, skewedShape.blackHeight n) ∧ ¬ skewedTree.Valid id natLess ∧
    skewedTree.toList 40 = some [1, 2, 4, 9, 10] ∧
    skewedTree.validate id natLess 40 = some true := by
  have hbh : ¬ ∃ n, skewedShape.blackHeight n := by
    rintro ⟨n, hn⟩
    match n, hn with
    | 0, hn => exact hn
    | 1, hn => exact hn.1
    | n + 2, hn =>
      have h2 : n = 0 := hn.1.2
      subst h2
      exact hn.1.1
  refine ⟨skewedTree_holds, ?_, ?_, rfl, hbh, ?_, by decide!, by decide!⟩
  · simp [Ordered, skewedShape, Tr.vals, natLess]
  · simp [skewedShape, Tr.noRedRed, Tr.color]
  · rintro ⟨T, h, -, -, -, hb⟩
    rw [Holds_unique h skewedTree_holds] at hb
    exact hbh hb

/-- The set `{1, 2, 3, 4}` built by inserting 1, 2, 3, 4 is a valid tree: the black root 2
(address 3) with the black children 1 (address 2) and 3 (address 4), the latter with the
red right child 4 (address 5). -/
theorem treeOfList_1234_valid : (treeOfList [1, 2, 3, 4]).Valid id natLess := by
  refine ⟨Tr.node rbtree_color.mBlack (Tr.node rbtree_color.mBlack Tr.nil 2 1 Tr.nil) 3 2
      (Tr.node rbtree_color.mBlack Tr.nil 4 3 (Tr.node rbtree_color.mRed Tr.nil 5 4 Tr.nil)),
    ⟨⟨by decide!, ?_, by decide!, by decide!, by decide!⟩, by decide!, by decide!, ?_,
      by decide!, by decide!⟩, ?_, ?_⟩
  · exact ⟨by decide!, by decide!, by decide!,
      ⟨by decide!, by decide!, by decide!, trivial, trivial⟩,
      ⟨by decide!, by decide!, by decide!, trivial,
        ⟨by decide!, by decide!, by decide!, trivial, trivial⟩⟩⟩
  · intro p hp
    have hb : (treeOfList [1, 2, 3, 4]).brk = 6 := by decide!
    rw [hb]
    simp only [Tr.ptrs, List.nil_append, List.cons_append, List.mem_cons,
      List.mem_nil_iff, or_false] at hp
    rcases hp with rfl | rfl | rfl | rfl <;> decide
  · simp [Ordered, Tr.vals, natLess]
  · refine ⟨rfl, ?_, 2, ?_⟩
    · simp [Tr.noRedRed, Tr.color]
    · simp [Tr.blackHeight]

/-- C15, the failing input. On the valid tree holding 1, 2, 3, 4 (built by inserting them
in this order), `DoInsertMulti(begin(), 3)` with the hint at the element 1 links the new
node (address 6) as the right child of the node holding 3 and so overwrites its link to the
node holding 4: afterwards `size()` is 5 while the traversal from `begin()` to `end()`
visits 4 nodes. -/
theorem DoInsertMulti_hint_size_mismatch :
    (treeOfList [1, 2, 3, 4]).Valid id natLess ∧
    (treeOfList [1, 2, 3, 4]).nodes 40 = some [2, 3, 4, 5] ∧
    (treeOfList [1, 2, 3, 4]).size = 4 ∧ (treeOfList [1, 2, 3, 4]).begin = 2 ∧
    ((treeOfList [1, 2, 3, 4]).DoInsertMulti_hint id natLess 40
        (treeOfList [1, 2, 3, 4]).begin 3).map
        (fun r => (r.1, r.2.size, r.2.nodes 40, r.2.toList 40))
      = some (6, 5, some [2, 3, 4, 6], some [1, 2, 3, 3]) :=
  ⟨treeOfList_1234_valid, by decide!, by decide!, by decide!, by decide!⟩


/-! ## Heap operations -/

section heap_claims

variable {α : Type}

/-- C20. For every non-empty range whose prefix without the last element is a max-heap
under a strict weak order `comp`, `push_heap` returns, and afterwards the whole range is a
max-heap and a permutation of its previous contents. -/
theorem push_heap_spec (comp : α → α → Bool) (hswo : StrictWeakOrder comp) (a : List α)
    (hne : a ≠ []) (hheap : IsHeapUpTo comp a (a.length - 1)) :
    ∃ b, push_heap comp a = some b ∧ b.Perm a ∧ IsHeapUpTo comp b b.length :=
  push_heap_holds comp hswo a hne hheap

/-- Witness for C20: `[9, 5, 8, 2, 4, 7]` is a max-heap, and pushing the last element of
`[9, 5, 8, 2, 4, 7, 10]` gives `[10, 5, 9, 2, 4, 7, 8]`. -/
theorem push_heap_spec_witness :
    StrictWeakOrder natLess ∧ [9, 5, 8, 2, 4, 7, 10] ≠ [] ∧
    IsHeapUpTo natLess [9, 5, 8, 2, 4, 7, 10] ([9, 5, 8, 2, 4, 7, 10].length - 1) ∧
    (∃ b, push_heap natLess [9, 5, 8, 2, 4, 7, 10] = some b ∧
      b.Perm [9, 5, 8, 2, 4, 7, 10] ∧ IsHeapUpTo natLess b b.length) ∧
    push_heap natLess [9, 5, 8, 2, 4, 7, 10] = some [10, 5, 9, 2, 4, 7, 8] :=
  have hh : IsHeapUpTo natLess [9, 5, 8, 2, 4, 7, 10] ([9, 5, 8, 2, 4, 7, 10].length - 1) :=
    (IsHeapUpTo_iff_gv natLess 0 _ _ (by decide)).2 (by
      intro i hi hin
      have hin6 : i < 6 := hin
      interval_cases i <;> rfl)
  ⟨natLess_swo, by decide, hh,
    push_heap_spec natLess natLess_swo [9, 5, 8, 2, 4, 7, 10] (by decide) hh, by decide⟩

/-- C19. For every range and strict weak order `comp`, `make_heap` returns, and afterwards
the range is a permutation of the input and a max-heap: for every index `i >= 1`,
`comp(a[(i-1)/2], a[i])` is false; and `is_heap` returns true on it. -/
theorem make_heap_spec (comp : α → α → Bool) (hswo : StrictWeakOrder comp) (a : List α) :
    ∃ b, make_heap comp a = some b ∧ b.Perm a ∧ IsHeapUpTo comp b b.length ∧
      (∀ i, 1 ≤ i → i < b.length →
        ∃ x y, b[(i - 1) / 2]? = some x ∧ b[i]? = some y ∧ comp x y = false) ∧
      is_heap comp b = some true := by
  cases a with
  | nil =>
    refine ⟨[], rfl, List.Perm.refl _, ?_, ?_, rfl⟩
    · intro i x y _ hi
      simp at hi
    · intro i _ hi
      simp at hi
  | cons d t =>
    obtain ⟨b, e, hl, hp, -, hh⟩ := make_heap_impl_spec comp hswo d (d :: t).length (d :: t)
      (le_refl _)
    have hh2 : IsHeapUpTo comp b b.length :=
      (IsHeapUpTo_iff_gv comp d b b.length (le_refl _)).2 (by rw [hl]; exact hh)
    refine ⟨b, e, hp, hh2, ?_, is_heap_of_heap comp b hh2⟩
    intro i hi hin
    exact ⟨gv d b ((i - 1) / 2), gv d b i, getElem?_eq_gv d b _ (by omega),
      getElem?_eq_gv d b _ hin, hh i hi (by omega)⟩

/-- Witness for C19: `make_heap` turns `[5, 3, 8, 1, 4, 7, 9, 2, 6]` into the max-heap
`[9, 6, 8, 3, 4, 7, 5, 2, 1]`, on which `is_heap` is true, while `is_heap` is false on the
input. -/
theorem make_heap_spec_witness :
    StrictWeakOrder natLess ∧
    (∃ b, make_heap natLess [5, 3, 8, 1, 4, 7, 9, 2, 6] = some b ∧
      b.Perm [5, 3, 8, 1, 4, 7, 9, 2, 6] ∧ IsHeapUpTo natLess b b.length ∧
      (∀ i, 1 ≤ i → i < b.length →
        ∃ x y, b[(i - 1) / 2]? = some x ∧ b[i]? = some y ∧ natLess x y = false) ∧
      is_heap natLess b = some true) ∧
    make_heap natLess [5, 3, 8, 1, 4, 7, 9, 2, 6] = some [9, 6, 8, 3, 4, 7, 5, 2, 1] ∧
    is_heap natLess [9, 6, 8, 3, 4, 7, 5, 2, 1] = some true ∧
    is_heap natLess [5, 3, 8, 1, 4, 7, 9, 2, 6] = some false :=
  ⟨natLess_swo, make_heap_spec natLess natLess_swo [5, 3, 8, 1, 4, 7, 9, 2, 6], by decide,
    by decide, by decide⟩

end heap_claims


/-! ## `partial_sort` -/

section partial_sort_claims

variable {α : Type}

/-- C18. For every range, every `middle` inside it and every strict weak order `comp`,
`partial_sort` returns, and afterwards the whole range is a permutation of the input, the
part before `middle` is in non-decreasing order (no element of it is less than an earlier
one), and no element from `middle` on is less than any element before `middle`. -/
theorem partial_sort_spec (comp : α → α → Bool) (hswo : StrictWeakOrder comp) (a : List α)
    (middle : Nat) (hm : middle ≤ a.length) :
    ∃ b, partial_sort comp a middle = some b ∧ b.Perm a ∧
      (b.take middle).Pairwise (fun x y => comp y x = false) ∧
      (∀ x ∈ b.take middle, ∀ y ∈ b.drop middle, comp y x = false) := by
  cases a with
  | nil =>
    have h0 : middle = 0 := by simpa using hm
    subst h0
    exact ⟨[], rfl, List.Perm.refl _, by simp, by simp⟩
  | cons d t =>
    obtain ⟨b, e, hl, hp, hs, hc⟩ := partial_sort_holds comp hswo d (d :: t) middle hm
    refine ⟨b, e, hp, ?_, ?_⟩
    · rw [List.pairwise_iff_getElem]
      intro i j hi hj hij
      have hj2 : j < middle ∧ j < b.length := by simpa [List.length_take] using hj
      have h1 := hs i j hij hj2.1
      simpa [gv, List.getElem?_eq_getElem hj2.2,
        List.getElem?_eq_getElem (show i < b.length by omega), List.getElem_take] using h1
    · intro x hx y hy
      obtain ⟨i, hi, rfl⟩ := List.mem_iff_getElem.1 hx
      obtain ⟨j, hj, rfl⟩ := List.mem_iff_getElem.1 hy
      have hi2 : i < middle ∧ i < b.length := by simpa [List.length_take] using hi
      have hj2 : middle + j < b.length := by
        simp only [List.length_drop] at hj
        omega
      have h1 := hc i (middle + j) hi2.1 (by omega) hj2
      simpa [gv, List.getElem?_eq_getElem hj2, List.getElem?_eq_getElem hi2.2,
        List.getElem_take, List.getElem_drop] using h1

/-- Witness for C18: with `middle = first + 3` on `[5, 3, 8, 1, 4, 7, 9, 2, 6]` the result
is `[1, 2, 3, 8, 5, 7, 9, 4, 6]`: the prefix is `[1, 2, 3]` and the rest holds
`{4, 5, 6, 7, 8, 9}`. -/
theorem partial_sort_spec_witness :
    StrictWeakOrder natLess ∧ 3 ≤ [5, 3, 8, 1, 4, 7, 9, 2, 6].length ∧
    (∃ b, partial_sort natLess [5, 3, 8, 1, 4, 7, 9, 2, 6] 3 = some b ∧
      b.Perm [5, 3, 8, 1, 4, 7, 9, 2, 6] ∧
      (b.take 3).Pairwise (fun x y => natLess y x = false) ∧
      (∀ x ∈ b.take 3, ∀ y ∈ b.drop 3, natLess y x = false)) ∧
    partial_sort natLess [5, 3, 8, 1, 4, 7, 9, 2, 6] 3 = some [1, 2, 3, 8, 5, 7, 9, 4, 6] :=
  ⟨natLess_swo, by decide,
    partial_sort_spec natLess natLess_swo [5, 3, 8, 1, 4, 7, 9, 2, 6] 3 (by decide),
    by decide⟩

end partial_sort_claims


/-! ## Erasing at a position -/

set_option autoImplicit false

section erase_claims

variable {α κ : Type}

/-- C3. For every valid tree, with `ns` the nodes visited from `begin()` to `end()` and
`vs` their values: for every position `p` of the traversal (`ns = pre ++ p :: suf`, so the
tree is not empty and `p` is not `end()`), `erase(p)` returns the node after `p` in the
traversal, `end()` when `p` was the last one, and leaves a valid tree with the same `end()`
whose traversal visits `pre ++ suf`, every node with the value it had, so that the
sequence of values is `vs` without the entry at the place of `p`, and `size()` is one
less. -/
theorem erase_position_spec (KeyOfT : α → κ) (KeyCompare : κ → κ → Bool) (t : rbtree α)
    (hv : t.Valid KeyOfT KeyCompare) :
    ∃ ns : List Ptr, ∃ vs : List α, ∃ N : Nat, ∀ fuel, N ≤ fuel →
      t.nodes fuel = some ns ∧ t.toList fuel = some vs ∧ t.mEnd ∉ ns ∧
      ∀ pre p suf, ns = pre ++ p :: suf →
        ∃ t2, t.erase fuel p = some (firstD suf t.mEnd, t2) ∧
          t2.Valid KeyOfT KeyCompare ∧ t2.mEnd = t.mEnd ∧
          t2.nodes fuel = some (pre ++ suf) ∧
          (∀ q ∈ pre ++ suf, sValue t2 q = sValue t q) ∧
          t2.toList fuel = some (vs.eraseIdx pre.length) ∧
          t2.size + 1 = t.size := by
  obtain ⟨T, h, ho, hrb⟩ := hv
  refine ⟨T.ptrs, T.vals, T.ptrs.length + 2, fun fuel hf =>
    ⟨nodes_spec h fuel hf, toList_spec h fuel hf, h.mem.hdr_notin, ?_⟩⟩
  intro pre p suf hsplit
  obtain ⟨t2, T2, he, h2, ho2, hrb2, hp2, hv2, -, hh, -, hval⟩ :=
    erase_nodes_spec KeyOfT KeyCompare h ho hrb pre p suf hsplit fuel hf
  have hlen : T2.ptrs.length + 1 = T.ptrs.length := by
    rw [hp2, hsplit]
    simp only [List.length_append, List.length_cons]
    omega
  refine ⟨t2, he, ⟨T2, h2, ho2, hrb2⟩, hh, ?_, hval, ?_, ?_⟩
  · rw [← hp2]
    exact nodes_spec h2 fuel (by omega)
  · rw [← hv2]
    exact toList_spec h2 fuel (by omega)
  · show t2.mSize + 1 = t.mSize
    rw [h2.size, h.size, hlen]

/-- Witness for C3 on the set built by inserting 5, 3, 8, 1, 4, 7, 9, 2, 6: the tree is
valid, and erasing the node of 5 (address 2, the root, with two children) with fuel 40
returns the node of 6 (address 10) and leaves the traversal 1, 2, 3, 4, 6, 7, 8, 9;
erasing the node of 9 (address 8), the last one, returns `end()`. -/
theorem erase_position_spec_witness :
    (treeOfList [5, 3, 8, 1, 4, 7, 9, 2, 6]).Valid id natLess ∧
    (∃ ns : List Ptr, ∃ vs : List Nat, ∃ N : Nat, ∀ fuel, N ≤ fuel →
      (treeOfList [5, 3, 8, 1, 4, 7, 9, 2, 6]).nodes fuel = some ns ∧
      (treeOfList [5, 3, 8, 1, 4, 7, 9, 2, 6]).toList fuel = some vs ∧
      (treeOfList [5, 3, 8, 1, 4, 7, 9, 2, 6]).mEnd ∉ ns ∧
      ∀ pre p suf, ns = pre ++ p :: suf →
        ∃ t2, (treeOfList [5, 3, 8, 1, 4, 7, 9, 2, 6]).erase fuel p
            = some (firstD suf (treeOfList [5, 3, 8, 1, 4, 7, 9, 2, 6]).mEnd, t2) ∧
          t2.Valid id natLess ∧ t2.mEnd = (treeOfList [5, 3, 8, 1, 4, 7, 9, 2, 6]).mEnd ∧
          t2.nodes fuel = some (pre ++ suf) ∧
          (∀ q ∈ pre ++ suf,
            sValue t2 q = sValue (treeOfList [5, 3, 8, 1, 4, 7, 9, 2, 6]) q) ∧
          t2.toList fuel = some (vs.eraseIdx pre.length) ∧
          t2.size + 1 = (treeOfList [5, 3, 8, 1, 4, 7, 9, 2, 6]).size) ∧
    (treeOfList [5, 3, 8, 1, 4, 7, 9, 2, 6]).nodes 40 = some [5, 9, 3, 6, 2, 10, 7, 4, 8] ∧
    ((treeOfList [5, 3, 8, 1, 4, 7, 9, 2, 6]).erase 40 2).map
        (fun r => (r.1, r.2.toList 40, r.2.size))
      = some (10, some [1, 2, 3, 4, 6, 7, 8, 9], 8) ∧
    ((treeOfList [5, 3, 8, 1, 4, 7, 9, 2, 6]).erase 40 8).map
        (fun r => (r.1, r.2.toList 40, r.2.size))
      = some ((treeOfList [5, 3, 8, 1, 4, 7, 9, 2, 6]).mEnd,
          some [1, 2, 3, 4, 5, 6, 7, 8], 8) :=
  ⟨treeOfList_valid _ (by decide),
    erase_position_spec id natLess (treeOfList [5, 3, 8, 1, 4, 7, 9, 2, 6])
      (treeOfList_valid _ (by decide)),
    by decide!, by decide!, by decide!⟩

end erase_claims


/-! ## The cached links of the header; nodes and payloads stay in place -/

set_option autoImplicit false

section header_claims

variable {α κ : Type}

/-- C16. For every valid tree under a strict weak order, with `ns` the nodes visited from
`begin()` to `end()` and enough fuel: `DoInsertUnique(value)`, `DoInsertMulti(value)` and
`erase(p)` for a node `p` of `ns` all return, and for the tree `t2` that any of them leaves
(valid again), with `ns2` the nodes of the reference in-order traversal from the root:
when `ns2` is empty the left and the right link of the header point to the header and the
root link is null; otherwise the left link of the header, `begin()` and the descent from
the root along the left links give the first node of `ns2`, and the right link of the
header, the descent along the right links and the step back from `end()` give its last
node. -/
theorem header_links_spec (KeyOfT : α → κ) (KeyCompare : κ → κ → Bool)
    (hswo : StrictWeakOrder KeyCompare) (t : rbtree α) (hv : t.Valid KeyOfT KeyCompare) :
    ∃ ns : List Ptr, ∃ N : Nat, ∀ fuel, N ≤ fuel →
      t.nodes fuel = some ns ∧
      (∀ value, (t.DoInsertUnique KeyOfT KeyCompare fuel value).isSome ∧
        (t.DoInsertMulti KeyOfT KeyCompare fuel value).isSome) ∧
      (∀ p ∈ ns, (t.erase fuel p).isSome) ∧
      ∀ t2 : rbtree α,
        ((∃ value r, t.DoInsertUnique KeyOfT KeyCompare fuel value = some (r, t2)) ∨
         (∃ value r, t.DoInsertMulti KeyOfT KeyCompare fuel value = some (r, t2)) ∨
         (∃ p r, p ∈ ns ∧ t.erase fuel p = some (r, t2))) →
        t2.Valid KeyOfT KeyCompare ∧
        ∃ ns2, inorder t2.mem fuel t2.mRoot = some ns2 ∧ t2.nodes fuel = some ns2 ∧
          t2.mEnd ∉ ns2 ∧
          (ns2 = [] → t2.mLeftMost = t2.mEnd ∧ t2.mRightMost = t2.mEnd ∧ t2.mRoot = 0 ∧
            t2.begin = t2.mEnd) ∧
          (ns2 ≠ [] → some t2.mLeftMost = ns2.head? ∧ some t2.begin = ns2.head? ∧
            sMinimum t2.mem fuel t2.mRoot = ns2.head? ∧
            some t2.mRightMost = ns2.getLast? ∧
            sMaximum t2.mem fuel t2.mRoot = ns2.getLast? ∧
            RBTreeDecrement t2.mem fuel t2.mEnd = ns2.getLast?) := by
  obtain ⟨T, h, ho, hrb⟩ := hv
  refine ⟨T.ptrs, T.ptrs.length + 3, fun fuel hf => ⟨nodes_spec h fuel (by omega), ?_, ?_, ?_⟩⟩
  · intro value
    obtain ⟨r, t2, T2, he, -⟩ :=
      DoInsertUnique_keeps KeyOfT KeyCompare hswo h ho hrb value fuel (by omega)
    obtain ⟨r3, t3, T3, he3, -⟩ :=
      DoInsertMulti_keeps KeyOfT KeyCompare hswo h ho hrb value fuel (by omega)
    rw [he, he3]
    exact ⟨rfl, rfl⟩
  · intro p hp
    obtain ⟨pre, suf, hsplit⟩ := List.append_of_mem hp
    obtain ⟨t2, T2, he, -⟩ :=
      erase_nodes_spec KeyOfT KeyCompare h ho hrb pre p suf hsplit fuel (by omega)
    rw [he]
    rfl
  · intro t2 hop
    have key : ∃ T2, t2.Holds T2 ∧ Ordered KeyOfT KeyCompare T2.vals ∧ RedBlack T2 ∧
        T2.ptrs.length ≤ T.ptrs.length + 1 := by
      rcases hop with ⟨value, r, e⟩ | ⟨value, r, e⟩ | ⟨p, r, hp, e⟩
      · obtain ⟨r3, t3, T3, he, h3, ho3, hrb3, -, -, hl3⟩ :=
          DoInsertUnique_keeps KeyOfT KeyCompare hswo h ho hrb value fuel (by omega)
        rw [he] at e
        cases e
        exact ⟨T3, h3, ho3, hrb3, hl3⟩
      · obtain ⟨r3, t3, T3, he, h3, ho3, hrb3, -, -, hl3⟩ :=
          DoInsertMulti_keeps KeyOfT KeyCompare hswo h ho hrb value fuel (by omega)
        rw [he] at e
        cases e
        exact ⟨T3, h3, ho3, hrb3, hl3⟩
      · obtain ⟨pre, suf, hsplit⟩ := List.append_of_mem hp
        obtain ⟨t3, T3, he, h3, ho3, hrb3, hp3, -⟩ :=
          erase_nodes_spec KeyOfT KeyCompare h ho hrb pre p suf hsplit fuel (by omega)
        rw [he] at e
        cases e
        refine ⟨T3, h3, ho3, hrb3, ?_⟩
        rw [hp3, hsplit]
        simp only [List.length_append, List.length_cons]
        omega
    obtain ⟨T2, h2, ho2, hrb2, hl2⟩ := key
    obtain ⟨hn, hend, hempty, hfull⟩ := Holds_header h2 fuel (by omega)
    exact ⟨⟨T2, h2, ho2, hrb2⟩, T2.ptrs, Holds_inorder h2 fuel (by omega), hn, hend, hempty,
      hfull⟩

/-- Witness for C16 on the set built by inserting 5, 3, 8, 1, 4, 7, 9, 2, 6 (node of the
value `v` in the order of insertion: addresses 2, 3, ..., 10; header at address 1): the
hypotheses hold; erasing the first node (value 1, address 5) with fuel 40 leaves the left
link at the node of 2 (address 9), erasing the last node (value 9, address 8) leaves the
right link at the node of 8 (address 4), inserting 0 moves the left link to the new node
(address 11); and erasing the one node of the set built from 7 leaves both links at the
header and a null root link. -/
theorem header_links_spec_witness :
    StrictWeakOrder natLess ∧ (treeOfList [5, 3, 8, 1, 4, 7, 9, 2, 6]).Valid id natLess ∧
    (∃ ns : List Ptr, ∃ N : Nat, ∀ fuel, N ≤ fuel →
      (treeOfList [5, 3, 8, 1, 4, 7, 9, 2, 6]).nodes fuel = some ns ∧
      (∀ value,
        ((treeOfList [5, 3, 8, 1, 4, 7, 9, 2, 6]).DoInsertUnique id natLess fuel value).isSome ∧
        ((treeOfList [5, 3, 8, 1, 4, 7, 9, 2, 6]).DoInsertMulti id natLess fuel value).isSome) ∧
      (∀ p ∈ ns, ((treeOfList [5, 3, 8, 1, 4, 7, 9, 2, 6]).erase fuel p).isSome) ∧
      ∀ t2 : rbtree Nat,
        ((∃ value r, (treeOfList [5, 3, 8, 1, 4, 7, 9, 2, 6]).DoInsertUnique id natLess fuel
            value = some (r, t2)) ∨
         (∃ value r, (treeOfList [5, 3, 8, 1, 4, 7, 9, 2, 6]).DoInsertMulti id natLess fuel
            value = some (r, t2)) ∨
         (∃ p r, p ∈ ns ∧ (treeOfList [5, 3, 8, 1, 4, 7, 9, 2, 6]).erase fuel p
            = some (r, t2))) →
        t2.Valid id natLess ∧
        ∃ ns2, inorder t2.mem fuel t2.mRoot = some ns2 ∧ t2.nodes fuel = some ns2 ∧
          t2.mEnd ∉ ns2 ∧
          (ns2 = [] → t2.mLeftMost = t2.mEnd ∧ t2.mRightMost = t2.mEnd ∧ t2.mRoot = 0 ∧
            t2.begin = t2.mEnd) ∧
          (ns2 ≠ [] → some t2.mLeftMost = ns2.head? ∧ some t2.begin = ns2.head? ∧
            sMinimum t2.mem fuel t2.mRoot = ns2.head? ∧
            some t2.mRightMost = ns2.getLast? ∧
            sMaximum t2.mem fuel t2.mRoot = ns2.getLast? ∧
            RBTreeDecrement t2.mem fuel t2.mEnd = ns2.getLast?)) ∧
    ((treeOfList [5, 3, 8, 1, 4, 7, 9, 2, 6]).erase 40 5).map
        (fun r => (r.2.mLeftMost, r.2.mRightMost, inorder r.2.mem 40 r.2.mRoot))
      = some (9, 8, some [9, 3, 6, 2, 10, 7, 4, 8]) ∧
    ((treeOfList [5, 3, 8, 1, 4, 7, 9, 2, 6]).erase 40 8).map
        (fun r => (r.2.mLeftMost, r.2.mRightMost, inorder r.2.mem 40 r.2.mRoot))
      = some (5, 4, some [5, 9, 3, 6, 2, 10, 7, 4]) ∧
    ((treeOfList [5, 3, 8, 1, 4, 7, 9, 2, 6]).DoInsertUnique id natLess 40 0).map
        (fun r => (r.2.mLeftMost, r.2.mRightMost, inorder r.2.mem 40 r.2.mRoot))
      = some (11, 8, some [11, 5, 9, 3, 6, 2, 10, 7, 4, 8]) ∧
    ((treeOfList [7]).erase 40 2).map
        (fun r => (r.2.mLeftMost, r.2.mRightMost, r.2.mRoot, r.2.mHeader))
      = some (1, 1, 0, 1) :=
  ⟨natLess_swo, treeOfList_valid _ (by decide),
    header_links_spec id natLess natLess_swo (treeOfList [5, 3, 8, 1, 4, 7, 9, 2, 6])
      (treeOfList_valid _ (by decide)),
    by decide!, by decide!, by decide!, by decide!⟩

end header_claims

/-- C17, the failing input. On the valid tree holding 1, 2 (built by inserting 1, then 2;
the node of 1 at address 2 is the root, the node of 2 at address 3 its right child),
`DoInsertMulti(begin(), 1)` with the hint at the element 1 links the new node (address 4)
as the right child of the hint in place of the node of 2: afterwards the traversal from
`begin()` to `end()` and the reference traversal from the root visit the nodes 2 and 4
only. The node at address 3 still holds the payload 2 and still names the node of 1 as its
parent, but it is no longer in the tree. -/
theorem DoInsertMulti_hint_drops_node :
    (treeOfList [1, 2]).Valid id natLess ∧
    (treeOfList [1, 2]).nodes 40 = some [2, 3] ∧
    (treeOfList [1, 2]).begin = 2 ∧
    sValue (treeOfList [1, 2]) 3 = some 2 ∧
    ((treeOfList [1, 2]).DoInsertMulti_hint id natLess 40 (treeOfList [1, 2]).begin 1).map
        (fun r => (r.1, r.2.nodes 40, inorder r.2.mem 40 r.2.mRoot))
      = some (4, some [2, 4], some [2, 4]) ∧
    ((treeOfList [1, 2]).DoInsertMulti_hint id natLess 40 (treeOfList [1, 2]).begin 1).map
        (fun r => (sValue r.2 3, (r.2.mem 3).mParent, (r.2.mem 2).mRight))
      = some (some 2, 2, 4) :=
  ⟨treeOfList_valid _ (by decide), by decide!, by decide!, by decide!, by decide!, by decide!⟩


/-! ## Erasing a key -/

set_option autoImplicit false

section erase_key_claims

variable {α κ : Type}

/-- C12. For every valid tree under a strict weak order and every key `k`, with `ns` the
nodes visited from `begin()` to `end()`, `vs` their values and enough fuel: `erase(k)`
returns the number of the values of `vs` whose key is equivalent to `k` (neither
`comp(key, k)` nor `comp(k, key)`) and leaves a valid tree whose `size()` is smaller by
that number, in which `find(k)` is `end()`, whose sequence of values is `vs` without the
values with a key equivalent to `k`, and whose traversal visits nodes of `ns`, in their
order, each with the value it had. -/
theorem erase_key_spec (KeyOfT : α → κ) (KeyCompare : κ → κ → Bool)
    (hswo : StrictWeakOrder KeyCompare) (t : rbtree α) (hv : t.Valid KeyOfT KeyCompare)
    (k : κ) :
    ∃ ns : List Ptr, ∃ vs : List α, ∃ N : Nat, ∀ fuel, N ≤ fuel →
      t.nodes fuel = some ns ∧ t.toList fuel = some vs ∧
      ∃ t2, t.erase_key KeyOfT KeyCompare fuel k
          = some ((vs.filter (fun v =>
              !KeyCompare (KeyOfT v) k && !KeyCompare k (KeyOfT v))).length, t2) ∧
        t2.Valid KeyOfT KeyCompare ∧
        t2.size + (vs.filter (fun v =>
              !KeyCompare (KeyOfT v) k && !KeyCompare k (KeyOfT v))).length = t.size ∧
        t2.find KeyOfT KeyCompare fuel k = some t2.mEnd ∧
        t2.toList fuel = some (vs.filter (fun v =>
              !(!KeyCompare (KeyOfT v) k && !KeyCompare k (KeyOfT v)))) ∧
        ∃ ns2, t2.nodes fuel = some ns2 ∧ ns2.Sublist ns ∧
          ∀ q ∈ ns2, sValue t2 q = sValue t q := by
  obtain ⟨T, h, ho, hrb⟩ := hv
  refine ⟨T.ptrs, T.vals, T.ptrs.length + 2, fun fuel hf =>
    ⟨nodes_spec h fuel hf, toList_spec h fuel hf, ?_⟩⟩
  obtain ⟨E1, E2, E3, t2, T2, hE, h2, h1, h3, he, hh2, ho2, hrb2, hel, -⟩ :=
    erase_key_holds KeyOfT KeyCompare hswo h ho hrb k fuel hf
  obtain ⟨f1, f2⟩ := filter_three
    (fun v => !KeyCompare (KeyOfT v) k && !KeyCompare k (KeyOfT v))
    (E1.map Prod.snd) (E2.map Prod.snd) (E3.map Prod.snd)
    (by
      intro e hm
      obtain ⟨x, hx, rfl⟩ := List.mem_map.1 hm
      simp [h1 x hx])
    (by
      intro e hm
      obtain ⟨x, hx, rfl⟩ := List.mem_map.1 hm
      simp [(h2 x hx).1, (h2 x hx).2])
    (by
      intro e hm
      obtain ⟨x, hx, rfl⟩ := List.mem_map.1 hm
      simp [h3 x hx])
  have hvs : T.vals = E1.map Prod.snd ++ E2.map Prod.snd ++ E3.map Prod.snd := by
    rw [Tr.vals_eq_map_elems, hE, List.map_append, List.map_append]
  have hvs2 : T2.vals = E1.map Prod.snd ++ E3.map Prod.snd := by
    rw [Tr.vals_eq_map_elems, hel, List.map_append]
  have hlen : T2.ptrs.length + E2.length = T.ptrs.length := by
    rw [Tr.ptrs_eq_map_elems, Tr.ptrs_eq_map_elems, hel, hE]
    simp only [List.map_append, List.length_append, List.length_map]
    omega
  have hsub : T2.elems.Sublist T.elems := by
    rw [hel, hE, List.append_assoc]
    exact List.Sublist.append_left (List.sublist_append_right _ _) _
  rw [hvs, f1, f2, List.length_map]
  refine ⟨t2, he, ⟨T2, hh2, ho2, hrb2⟩, ?_, ?_, ?_, T2.ptrs, nodes_spec hh2 fuel (by omega),
    (Holds_sublist hh2 h hsub).1, fun q hq => ((Holds_sublist hh2 h hsub).2 q hq).symm⟩
  · show t2.mSize + _ = t.mSize
    rw [hh2.size, h.size, hlen]
  · rw [find_first hswo hh2 ho2 k fuel (by omega)]
    have hnone : T2.ptrs.find? (fun p => (sKey KeyOfT t2 p).any
        (fun kp => !KeyCompare kp k && !KeyCompare k kp)) = none := by
      rw [List.find?_eq_none]
      intro p hp
      rw [Tr.ptrs_eq_map_elems] at hp
      obtain ⟨e, hem, rfl⟩ := List.mem_map.1 hp
      rw [TreeAt_sKey_elems KeyOfT hh2.mem.tree e hem]
      rw [hel] at hem
      rcases List.mem_append.1 hem with hm | hm
      · simp [h1 e hm]
      · simp [h3 e hm]
    rw [hnone]
    rfl
  · rw [← hvs2]
    exact toList_spec hh2 fuel (by omega)

/-- Witness for C12 on the set built by inserting 5, 3, 8, 1, 4, 7, 9, 2, 6: the
hypotheses hold; with fuel 40, `erase(5)` returns 1 and leaves 1, 2, 3, 4, 6, 7, 8, 9 and
`erase(10)` returns 0 and leaves the nine values; and on the multiset built by
`DoInsertMulti` of 2, 1, 2, 3, 2, `erase(2)` returns 3 and leaves 1, 3 with `find(2)` at
`end()`. -/
theorem erase_key_spec_witness :
    StrictWeakOrder natLess ∧ (treeOfList [5, 3, 8, 1, 4, 7, 9, 2, 6]).Valid id natLess ∧
    (∃ ns : List Ptr, ∃ vs : List Nat, ∃ N : Nat, ∀ fuel, N ≤ fuel →
      (treeOfList [5, 3, 8, 1, 4, 7, 9, 2, 6]).nodes fuel = some ns ∧
      (treeOfList [5, 3, 8, 1, 4, 7, 9, 2, 6]).toList fuel = some vs ∧
      ∃ t2, (treeOfList [5, 3, 8, 1, 4, 7, 9, 2, 6]).erase_key id natLess fuel 5
          = some ((vs.filter (fun v => !natLess (id v) 5 && !natLess 5 (id v))).length, t2) ∧
        t2.Valid id natLess ∧
        t2.size + (vs.filter (fun v => !natLess (id v) 5 && !natLess 5 (id v))).length
          = (treeOfList [5, 3, 8, 1, 4, 7, 9, 2, 6]).size ∧
        t2.find id natLess fuel 5 = some t2.mEnd ∧
        t2.toList fuel = some (vs.filter (fun v =>
              !(!natLess (id v) 5 && !natLess 5 (id v)))) ∧
        ∃ ns2, t2.nodes fuel = some ns2 ∧ ns2.Sublist ns ∧
          ∀ q ∈ ns2, sValue t2 q = sValue (treeOfList [5, 3, 8, 1, 4, 7, 9, 2, 6]) q) ∧
    ((treeOfList [5, 3, 8, 1, 4, 7, 9, 2, 6]).erase_key id natLess 40 5).map
        (fun r => (r.1, r.2.toList 40, r.2.size))
      = some (1, some [1, 2, 3, 4, 6, 7, 8, 9], 8) ∧
    ((treeOfList [5, 3, 8, 1, 4, 7, 9, 2, 6]).erase_key id natLess 40 10).map
        (fun r => (r.1, r.2.toList 40, r.2.size))
      = some (0, some [1, 2, 3, 4, 5, 6, 7, 8, 9], 9) ∧
    ((insertSeq id natLess 40 [(false, 2), (false, 1), (false, 2), (false, 3), (false, 2)]
        rbtree.init).bind (fun t => (t.erase_key id natLess 40 2).map
          (fun r => (r.1, r.2.toList 40, r.2.find id natLess 40 2 == some r.2.mEnd))))
      = some (3, some [1, 3], true) :=
  ⟨natLess_swo, treeOfList_valid _ (by decide),
    erase_key_spec id natLess natLess_swo (treeOfList [5, 3, 8, 1, 4, 7, 9, 2, 6])
      (treeOfList_valid _ (by decide)) 5,
    by decide!, by decide!, by decide!⟩

end erase_key_claims


/-! ## `validate()` after every operation -/

set_option autoImplicit false

section validate_claims

variable {α κ : Type}

/-- C2. For every finite sequence `ops` of `DoInsertUnique(value)`, `DoInsertMulti(value)`,
`erase(position)` (the position named by its place in the traversal) and `erase(key)`
applied to an initially empty tree under a strict weak order, with enough fuel for the
loops, after each operation (after the first `n`, for every `n`): the operations have
returned, the tree is valid, and `validate()` returns `true`. -/
theorem validate_after_ops (KeyOfT : α → κ) (KeyCompare : κ → κ → Bool)
    (hswo : StrictWeakOrder KeyCompare) (ops : List (Op α κ)) (fuel : Nat)
    (hf : ops.length + 2 ≤ fuel) (n : Nat) :
    ∃ t, opSeq KeyOfT KeyCompare fuel (ops.take n) rbtree.init = some t ∧
      t.Valid KeyOfT KeyCompare ∧ t.validate KeyOfT KeyCompare fuel = some true := by
  have hlen : (ops.take n).length ≤ ops.length := by
    rw [List.length_take]
    exact Nat.min_le_right _ _
  obtain ⟨t, T, e, h, ho, hrb, hl⟩ := opSeq_spec KeyOfT KeyCompare hswo (ops.take n)
    init_holds (by simp [Ordered, Tr.vals]) RedBlack_nil fuel
    (by simp only [Tr.ptrs, List.length_nil]; omega)
  simp only [Tr.ptrs, List.length_nil, Nat.zero_add] at hl
  exact ⟨t, e, ⟨T, h, ho, hrb⟩, validate_spec KeyOfT KeyCompare h ho hrb fuel (by omega)⟩

/-- Witness for C2 on the sequence of the unique insertions of 5, 3, 8, 1, 4, 7, 9, 2, 6
followed by `erase(5)` (the root, a node with two children), `DoInsertMulti(4)` and the
erasure of the first position, with fuel 40: the hypotheses hold, `validate()` is `true`
after each of the twelve operations, and the traversal after `erase(5)` is
1, 2, 3, 4, 6, 7, 8, 9. -/
theorem validate_after_ops_witness :
    StrictWeakOrder natLess ∧
    (([5, 3, 8, 1, 4, 7, 9, 2, 6].map (fun v => (Op.insertUnique v : Op Nat Nat)) ++
      [Op.eraseKey 5, Op.insertMulti 4, Op.erasePosition 0]).length + 2 ≤ 40) ∧
    (∃ t, opSeq id natLess 40
        (([5, 3, 8, 1, 4, 7, 9, 2, 6].map (fun v => (Op.insertUnique v : Op Nat Nat)) ++
          [Op.eraseKey 5, Op.insertMulti 4, Op.erasePosition 0]).take 10) rbtree.init
          = some t ∧
      t.Valid id natLess ∧ t.validate id natLess 40 = some true) ∧
    (List.range 13).map (fun n => (opSeq id natLess 40
        (([5, 3, 8, 1, 4, 7, 9, 2, 6].map (fun v => (Op.insertUnique v : Op Nat Nat)) ++
          [Op.eraseKey 5, Op.insertMulti 4, Op.erasePosition 0]).take n) rbtree.init).bind
        (fun t => t.validate id natLess 40)) = List.replicate 13 (some true) ∧
    (opSeq id natLess 40
        (([5, 3, 8, 1, 4, 7, 9, 2, 6].map (fun v => (Op.insertUnique v : Op Nat Nat)) ++
          [Op.eraseKey 5, Op.insertMulti 4, Op.erasePosition 0]).take 10) rbtree.init).bind
        (fun t => t.toList 40) = some [1, 2, 3, 4, 6, 7, 8, 9] ∧
    (opSeq id natLess 40
        ([5, 3, 8, 1, 4, 7, 9, 2, 6].map (fun v => (Op.insertUnique v : Op Nat Nat)) ++
          [Op.eraseKey 5, Op.insertMulti 4, Op.erasePosition 0]) rbtree.init).bind
        (fun t => t.toList 40) = some [2, 3, 4, 4, 6, 7, 8, 9] :=
  ⟨natLess_swo, by decide,
    validate_after_ops id natLess natLess_swo
      ([5, 3, 8, 1, 4, 7, 9, 2, 6].map (fun v => (Op.insertUnique v : Op Nat Nat)) ++
        [Op.eraseKey 5, Op.insertMulti 4, Op.erasePosition 0]) 40 (by decide) 10,
    by decide!, by decide!, by decide!⟩

end validate_claims


/-! ## The hinted unique insertion -/

set_option autoImplicit false

section hint_claims

variable {α κ : Type}

/-- C13. For every valid tree under a strict weak order whose stored keys are pairwise
inequivalent, with `ns` the nodes visited from `begin()` to `end()`, `vs` their values and
enough fuel: for every hint that is `end()` or a node of `ns` and every value, both
`DoInsertUnique(value)` and `DoInsertUnique(hint, value)` return; they return the same
position `r`, leave trees with the same sequence of values and the same `size()`, the tree
left by the hinted call is valid, and `r` is a node of its traversal whose key is
equivalent to the key of `value` (the new node when `DoInsertUnique(value)` reports an
insertion, otherwise a node of `ns`, and then the tree is returned as it was). -/
theorem DoInsertUnique_hint_spec (KeyOfT : α → κ) (KeyCompare : κ → κ → Bool)
    (hswo : StrictWeakOrder KeyCompare) (t : rbtree α) (hv : t.Valid KeyOfT KeyCompare) :
    ∃ ns : List Ptr, ∃ vs : List α, ∃ N : Nat, ∀ fuel, N ≤ fuel →
      t.nodes fuel = some ns ∧ t.toList fuel = some vs ∧
      (vs.Pairwise (fun a b => KeyCompare (KeyOfT a) (KeyOfT b) = true ∨
          KeyCompare (KeyOfT b) (KeyOfT a) = true) →
        ∀ hint, (hint = t.mEnd ∨ hint ∈ ns) → ∀ value,
          ∃ r b t1 t2 l ns2,
            t.DoInsertUnique KeyOfT KeyCompare fuel value = some ((r, b), t1) ∧
            t.DoInsertUnique_hint KeyOfT KeyCompare fuel hint value = some (r, t2) ∧
            t1.toList fuel = some l ∧ t2.toList fuel = some l ∧ t2.size = t1.size ∧
            t2.Valid KeyOfT KeyCompare ∧
            t2.nodes fuel = some ns2 ∧ r ∈ ns2 ∧
            (sKey KeyOfT t2 r).any (fun k =>
              !KeyCompare k (KeyOfT value) && !KeyCompare (KeyOfT value) k) = true ∧
            (b = false → r ∈ ns ∧ t2 = t) ∧ (b = true → r ∉ ns)) := by
  obtain ⟨T, h, ho, hrb⟩ := hv
  refine ⟨T.ptrs, T.vals, T.ptrs.length + 3, fun fuel hf =>
    ⟨nodes_spec h fuel (by omega), toList_spec h fuel (by omega), ?_⟩⟩
  intro hpw hint hhint value
  have hcontra : ∀ e ∈ T.elems, KeyCompare (KeyOfT value) (KeyOfT e.2) = false →
      KeyCompare (KeyOfT e.2) (KeyOfT value) = false →
      (∀ e ∈ T.vals, KeyCompare (KeyOfT value) (KeyOfT e) = true ∨
        KeyCompare (KeyOfT e) (KeyOfT value) = true) → False := by
    intro e he h1 h2 hall
    rcases hall e.2 (Tr.mem_vals_of_mem_elems he) with h3 | h3
    · rw [h1] at h3
      cases h3
    · rw [h2] at h3
      cases h3
  rcases DoInsertUnique_frame KeyOfT KeyCompare hswo h ho hrb value fuel (by omega) with
    ⟨e, hem, h1, h2, he⟩ | ⟨hall, t1, T1, he, hh1, ho1, hrb1, hv1, hvals1, -, -⟩
  · rcases DoInsertUnique_hint_holds KeyOfT KeyCompare hswo h ho hrb hint hhint value fuel
        (by omega) with
      ⟨e2, hem2, h3, h4, he2⟩ | ⟨hall, -⟩
    · have hee : e2 = e := by
        have hpwE : T.elems.Pairwise (fun a b =>
            KeyCompare (KeyOfT a.2) (KeyOfT b.2) = true ∨
              KeyCompare (KeyOfT b.2) (KeyOfT a.2) = true) := by
          rw [Tr.vals_eq_map_elems] at hpw
          exact List.pairwise_map.1 hpw
        obtain ⟨q1, q2⟩ := hswo.incomp_trans (KeyOfT e2.2) (KeyOfT value) (KeyOfT e.2) h4 h3
          h1 h2
        rcases pairwise_mem_cases hpwE hem2 hem with h5 | h5 | h5
        · exact h5
        · rcases h5 with h5 | h5
          · rw [q1] at h5
            cases h5
          · rw [q2] at h5
            cases h5
        · rcases h5 with h5 | h5
          · rw [q2] at h5
            cases h5
          · rw [q1] at h5
            cases h5
      subst hee
      have hmem : e2.1 ∈ T.ptrs := by
        rw [Tr.ptrs_eq_map_elems]
        exact List.mem_map_of_mem _ hem
      refine ⟨e2.1, false, t, t, T.vals, T.ptrs, he, he2, toList_spec h fuel (by omega),
        toList_spec h fuel (by omega), rfl, ⟨T, h, ho, hrb⟩, nodes_spec h fuel (by omega),
        hmem, ?_, fun _ => ⟨hmem, rfl⟩, fun hb => (by cases hb)⟩
      rw [TreeAt_sKey_elems KeyOfT h.mem.tree e2 hem]
      simp [h1, h2]
    · exact absurd (hcontra e hem h1 h2 hall) id
  · rcases DoInsertUnique_hint_holds KeyOfT KeyCompare hswo h ho hrb hint hhint value fuel
        (by omega) with
      ⟨e2, hem2, h3, h4, -⟩ | ⟨-, t2, T2, he2, hh2, ho2, hrb2, hv2, hvals2, hmem2⟩
    · exact absurd (hcontra e2 hem2 h3 h4 hall) id
    · have hl1 : T1.ptrs.length = T.ptrs.length + 1 := by
        rw [← Tr.vals_length, hvals1, takeWhile_dropWhile_length, Tr.vals_length]
      have hl2 : T2.ptrs.length = T.ptrs.length + 1 := by
        rw [← Tr.vals_length, hvals2, takeWhile_dropWhile_length, Tr.vals_length]
      have hmem : t.brk ∈ T2.ptrs := by
        rw [Tr.ptrs_eq_map_elems]
        exact List.mem_map.2 ⟨_, hmem2, rfl⟩
      refine ⟨t.brk, true, t1, t2, T1.vals, T2.ptrs, he, he2, toList_spec hh1 fuel (by omega),
        ?_, ?_, ⟨T2, hh2, ho2, hrb2⟩, nodes_spec hh2 fuel (by omega), hmem, ?_,
        fun hb => (by cases hb), fun _ hm => Nat.lt_irrefl _ (h.fresh _ hm)⟩
      · rw [hvals1, ← hvals2]
        exact toList_spec hh2 fuel (by omega)
      · show t2.mSize = t1.mSize
        rw [hh2.size, hh1.size, hl1, hl2]
      · simp [sKey, hv2, hswo.irrefl]

/-- Witness for C13 on the set built by inserting 5, 3, 8, 1, 4, 7, 9, 2, 6 (nodes at the
addresses 2, ..., 10 in the order of insertion; header at address 1): the hypotheses hold;
with fuel 40, the insertion of 10 with the hint `end()`, of 0 with the hint `begin()`, of
10 with the useless hint `begin()` and of 5 with the hint at the node of 8 give the same
position, traversal and size as the insertion without a hint. -/
theorem DoInsertUnique_hint_spec_witness :
    StrictWeakOrder natLess ∧ (treeOfList [5, 3, 8, 1, 4, 7, 9, 2, 6]).Valid id natLess ∧
    (∃ ns : List Ptr, ∃ vs : List Nat, ∃ N : Nat, ∀ fuel, N ≤ fuel →
      (treeOfList [5, 3, 8, 1, 4, 7, 9, 2, 6]).nodes fuel = some ns ∧
      (treeOfList [5, 3, 8, 1, 4, 7, 9, 2, 6]).toList fuel = some vs ∧
      (vs.Pairwise (fun a b => natLess (id a) (id b) = true ∨ natLess (id b) (id a) = true) →
        ∀ hint, (hint = (treeOfList [5, 3, 8, 1, 4, 7, 9, 2, 6]).mEnd ∨ hint ∈ ns) →
          ∀ value, ∃ r b t1 t2 l ns2,
            (treeOfList [5, 3, 8, 1, 4, 7, 9, 2, 6]).DoInsertUnique id natLess fuel value
              = some ((r, b), t1) ∧
            (treeOfList [5, 3, 8, 1, 4, 7, 9, 2, 6]).DoInsertUnique_hint id natLess fuel hint
              value = some (r, t2) ∧
            t1.toList fuel = some l ∧ t2.toList fuel = some l ∧ t2.size = t1.size ∧
            t2.Valid id natLess ∧
            t2.nodes fuel = some ns2 ∧ r ∈ ns2 ∧
            (sKey id t2 r).any (fun k => !natLess k (id value) && !natLess (id value) k)
              = true ∧
            (b = false → r ∈ ns ∧ t2 = treeOfList [5, 3, 8, 1, 4, 7, 9, 2, 6]) ∧
            (b = true → r ∉ ns))) ∧
    ((treeOfList [5, 3, 8, 1, 4, 7, 9, 2, 6]).toList 40).map
        (fun vs => decide (vs.Pairwise (fun a b => natLess (id a) (id b) = true ∨
          natLess (id b) (id a) = true))) = some true ∧
    [((treeOfList [5, 3, 8, 1, 4, 7, 9, 2, 6]).mEnd, 10), (5, 0), (5, 10), (4, 5)].map
        (fun hv => ((treeOfList [5, 3, 8, 1, 4, 7, 9, 2, 6]).DoInsertUnique_hint id natLess 40
          hv.1 hv.2).map (fun r => (r.1, r.2.toList 40, r.2.size)))
      = [(10, 10), (5, 0), (5, 10), (4, 5)].map
        (fun hv => ((treeOfList [5, 3, 8, 1, 4, 7, 9, 2, 6]).DoInsertUnique id natLess 40
          hv.2).map (fun r => (r.1.1, r.2.toList 40, r.2.size))) ∧
    ((treeOfList [5, 3, 8, 1, 4, 7, 9, 2, 6]).DoInsertUnique_hint id natLess 40
        (treeOfList [5, 3, 8, 1, 4, 7, 9, 2, 6]).mEnd 10).map
        (fun r => (r.1, r.2.toList 40, r.2.size))
      = some (11, some [1, 2, 3, 4, 5, 6, 7, 8, 9, 10], 10) :=
  ⟨natLess_swo, treeOfList_valid _ (by decide),
    DoInsertUnique_hint_spec id natLess natLess_swo (treeOfList [5, 3, 8, 1, 4, 7, 9, 2, 6])
      (treeOfList_valid _ (by decide)),
    by decide!, by decide!, by decide!⟩

end hint_claims


/-! ## `stable_sort` -/

set_option autoImplicit false

section stable_sort_claims

variable {α : Type}

/-- C6. For every array `a`, every strict weak order `comp` and every buffer `buf` of the
length of `a` (whatever it holds), `stable_sort` returns an array `b` that is a
rearrangement of `a` in non-decreasing order (no element is followed, anywhere later, by a
smaller one; in particular no `i` has `comp(b[i+1], b[i])`) in which, for every `x`, the
elements equivalent to `x` come in the order they have in `a`; and `b` is the only list
with these three properties. -/
theorem stable_sort_spec (comp : α → α → Bool) (hswo : StrictWeakOrder comp)
    (a buf : List α) (hbuf : buf.length = a.length) :
    ∃ b, stable_sort comp a buf = some b ∧ b.Perm a ∧
      b.Pairwise (fun x y => comp y x = false) ∧
      (∀ i x y, b[i]? = some x → b[i + 1]? = some y → comp y x = false) ∧
      (∀ x, b.filter (fun y => !comp x y && !comp y x)
        = a.filter (fun y => !comp x y && !comp y x)) ∧
      ∀ b2 : List α, b2.Perm a → b2.Pairwise (fun x y => comp y x = false) →
        (∀ x, b2.filter (fun y => !comp x y && !comp y x)
          = a.filter (fun y => !comp x y && !comp y x)) → b2 = b := by
  obtain ⟨b, e, hp, hs, hf⟩ := stable_sort_holds comp hswo a buf hbuf
  refine ⟨b, e, hp, hs, ?_, hf, ?_⟩
  · intro i x y hx hy
    have h1 := List.getElem?_eq_some.1 hx
    have h2 := List.getElem?_eq_some.1 hy
    obtain ⟨hi, rfl⟩ := h1
    obtain ⟨hj, rfl⟩ := h2
    exact List.pairwise_iff_getElem.1 hs i (i + 1) hi hj (Nat.lt_succ_self _)
  · intro b2 hp2 hs2 hf2
    exact stable_sorted_unique comp hswo b2 b (hp2.trans hp.symm) hs2 hs
      (fun x => (hf2 x).trans (hf x).symm)

/-- Witness for C6 on nine pairs (key, original index) ordered by the key alone, with the
keys 5, 3, 8, 3, 5, 1, 3, 8, 0 and a buffer of nine pairs: the hypotheses hold, and the
result has the keys in order with the original indices increasing among equal keys. -/
theorem stable_sort_spec_witness :
    StrictWeakOrder keyLess ∧
    (List.replicate 9 ((0 : Nat), (0 : Nat))).length
      = [(5, 0), (3, 1), (8, 2), (3, 3), (5, 4), (1, 5), (3, 6), (8, 7), (0, 8)].length ∧
    (∃ b, stable_sort keyLess
        [(5, 0), (3, 1), (8, 2), (3, 3), (5, 4), (1, 5), (3, 6), (8, 7), (0, 8)]
        (List.replicate 9 (0, 0)) = some b ∧
      b.Perm [(5, 0), (3, 1), (8, 2), (3, 3), (5, 4), (1, 5), (3, 6), (8, 7), (0, 8)] ∧
      b.Pairwise (fun x y => keyLess y x = false) ∧
      (∀ i x y, b[i]? = some x → b[i + 1]? = some y → keyLess y x = false) ∧
      (∀ x, b.filter (fun y => !keyLess x y && !keyLess y x)
        = [(5, 0), (3, 1), (8, 2), (3, 3), (5, 4), (1, 5), (3, 6), (8, 7), (0, 8)].filter
            (fun y => !keyLess x y && !keyLess y x)) ∧
      ∀ b2 : List (Nat × Nat),
        b2.Perm [(5, 0), (3, 1), (8, 2), (3, 3), (5, 4), (1, 5), (3, 6), (8, 7), (0, 8)] →
        b2.Pairwise (fun x y => keyLess y x = false) →
        (∀ x, b2.filter (fun y => !keyLess x y && !keyLess y x)
          = [(5, 0), (3, 1), (8, 2), (3, 3), (5, 4), (1, 5), (3, 6), (8, 7), (0, 8)].filter
              (fun y => !keyLess x y && !keyLess y x)) → b2 = b) ∧
    stable_sort keyLess
        [(5, 0), (3, 1), (8, 2), (3, 3), (5, 4), (1, 5), (3, 6), (8, 7), (0, 8)]
        (List.replicate 9 (0, 0))
      = some [(0, 8), (1, 5), (3, 1), (3, 3), (3, 6), (5, 0), (5, 4), (8, 2), (8, 7)] ∧
    stable_sort natLess [5, 3, 8, 1, 4, 7, 9, 2, 6] (List.replicate 9 0)
      = some [1, 2, 3, 4, 5, 6, 7, 8, 9] ∧
    stable_sort natLess ([] : List Nat) [] = some [] :=
  ⟨keyLess_swo, by decide,
    stable_sort_spec keyLess keyLess_swo
      [(5, 0), (3, 1), (8, 2), (3, 3), (5, 4), (1, 5), (3, 6), (8, 7), (0, 8)]
      (List.replicate 9 (0, 0)) (by decide),
    by decide!, by decide!, by decide!⟩

end stable_sort_claims


/-! ## `pop_heap` and `sort_heap` -/

set_option autoImplicit false

section pop_sort_heap_claims

variable {α : Type}

/-- C21. For every non-empty max-heap under a strict weak order `comp`, `pop_heap` returns,
and afterwards the last position holds the former front, which no element of the heap is
greater than, the range without its last position is a max-heap, and the whole range is a
rearrangement of its previous contents. The sizes at which the last internal node has only
a left child are included. -/
theorem pop_heap_spec (comp : α → α → Bool) (hswo : StrictWeakOrder comp) (a : List α)
    (hne : a ≠ []) (hheap : IsHeapUpTo comp a a.length) :
    ∃ b top, pop_heap comp a = some b ∧ b.Perm a ∧ b.length = a.length ∧
      a[0]? = some top ∧ b[a.length - 1]? = some top ∧ (∀ x ∈ a, comp top x = false) ∧
      IsHeapUpTo comp b (a.length - 1) := by
  cases a with
  | nil => exact absurd rfl hne
  | cons d t =>
    have hg := (IsHeapUpTo_iff_gv comp d (d :: t) (d :: t).length (le_refl _)).1 hheap
    have hmax := heap_top_max comp hswo d (d :: t) (d :: t).length hg
    have htop : ∀ x ∈ d :: t, comp d x = false := by
      intro x hx
      obtain ⟨i, hi, rfl⟩ := List.mem_iff_getElem.1 hx
      have h1 := hmax i hi
      simpa [gv, List.getElem?_eq_getElem hi] using h1
    by_cases h0 : t.length = 0
    · have ht : t = [] := List.length_eq_zero.1 h0
      subst ht
      refine ⟨[d], d, ?_, List.Perm.refl _, rfl, by simp, by simp, htop, ?_⟩
      · have := pop_heap_impl_zero comp d [d] 0 (by simp)
        simpa [pop_heap, gv] using this
      · intro i x y hi hin
        simp at hin
    · obtain ⟨b, e, hl, hp, hh, hr, -, -⟩ := pop_heap_impl_spec comp hswo d (d :: t) t.length
        t.length (by omega) (le_refl _) (by simp) (fun i hi hin => hg i hi (by simp; omega))
      have hlen : (d :: t).length - 1 = t.length := by simp
      refine ⟨b, d, ?_, hp, hl, by simp, ?_, htop, ?_⟩
      · simp only [pop_heap, ne_eq, List.length_cons, Nat.add_one_ne_zero,
          not_false_eq_true, ↓reduceIte, Nat.add_sub_cancel, e]
      · rw [hlen, getElem?_eq_gv d b t.length (by rw [hl]; simp), hr]
        simp [gv]
      · rw [hlen]
        exact (IsHeapUpTo_iff_gv comp d b t.length (by rw [hl]; simp)).2 hh

/-- Witness for C21: `[9, 6, 8, 3, 4, 7, 5]` is a max-heap; popping leaves a heap of six
elements, in which the last internal node (index 2) has only a left child, and gives
`[8, 6, 7, 3, 4, 5, 9]`. -/
theorem pop_heap_spec_witness :
    StrictWeakOrder natLess ∧ [9, 6, 8, 3, 4, 7, 5] ≠ [] ∧
    IsHeapUpTo natLess [9, 6, 8, 3, 4, 7, 5] [9, 6, 8, 3, 4, 7, 5].length ∧
    (∃ b top, pop_heap natLess [9, 6, 8, 3, 4, 7, 5] = some b ∧
      b.Perm [9, 6, 8, 3, 4, 7, 5] ∧ b.length = [9, 6, 8, 3, 4, 7, 5].length ∧
      [9, 6, 8, 3, 4, 7, 5][0]? = some top ∧
      b[[9, 6, 8, 3, 4, 7, 5].length - 1]? = some top ∧
      (∀ x ∈ [9, 6, 8, 3, 4, 7, 5], natLess top x = false) ∧
      IsHeapUpTo natLess b ([9, 6, 8, 3, 4, 7, 5].length - 1)) ∧
    pop_heap natLess [9, 6, 8, 3, 4, 7, 5] = some [8, 6, 7, 3, 4, 5, 9] :=
  have hh : IsHeapUpTo natLess [9, 6, 8, 3, 4, 7, 5] [9, 6, 8, 3, 4, 7, 5].length :=
    (IsHeapUpTo_iff_gv natLess 0 _ _ (by decide)).2 (by
      intro i hi hin
      have hin7 : i < 7 := hin
      interval_cases i <;> rfl)
  ⟨natLess_swo, by decide, hh,
    pop_heap_spec natLess natLess_swo [9, 6, 8, 3, 4, 7, 5] (by decide) hh, by decide⟩

/-- C22. For every range that is a max-heap under a strict weak order `comp`, `sort_heap`
returns, and afterwards the range is a rearrangement of its previous contents in
non-decreasing order: no element is less than an earlier one. -/
theorem sort_heap_sorted (comp : α → α → Bool) (hswo : StrictWeakOrder comp) (a : List α)
    (hheap : IsHeapUpTo comp a a.length) :
    ∃ b, sort_heap comp a.length a = some b ∧ b.Perm a ∧
      b.Pairwise (fun x y => comp y x = false) := by
  cases a with
  | nil => exact ⟨[], rfl, List.Perm.refl _, List.Pairwise.nil⟩
  | cons d t =>
    have hg := (IsHeapUpTo_iff_gv comp d (d :: t) (d :: t).length (le_refl _)).1 hheap
    obtain ⟨b, e, hl, hp, -, hs⟩ := sort_heap_spec comp hswo d (d :: t).length
      (d :: t).length (d :: t) (le_refl _) (le_refl _) hg (fun i j hij hj hjm => by omega)
    refine ⟨b, e, hp, ?_⟩
    rw [List.pairwise_iff_getElem]
    intro i j hi hj hij
    have h1 := hs i j hij (by omega)
    simpa [gv, List.getElem?_eq_getElem hj, List.getElem?_eq_getElem hi] using h1

/-- Witness for C22: the max-heap `[9, 6, 8, 3, 4, 7, 5]` is turned into
`[3, 4, 5, 6, 7, 8, 9]`. -/
theorem sort_heap_sorted_witness :
    StrictWeakOrder natLess ∧
    IsHeapUpTo natLess [9, 6, 8, 3, 4, 7, 5] [9, 6, 8, 3, 4, 7, 5].length ∧
    (∃ b, sort_heap natLess [9, 6, 8, 3, 4, 7, 5].length [9, 6, 8, 3, 4, 7, 5] = some b ∧
      b.Perm [9, 6, 8, 3, 4, 7, 5] ∧ b.Pairwise (fun x y => natLess y x = false)) ∧
    sort_heap natLess 7 [9, 6, 8, 3, 4, 7, 5] = some [3, 4, 5, 6, 7, 8, 9] :=
  have hh : IsHeapUpTo natLess [9, 6, 8, 3, 4, 7, 5] [9, 6, 8, 3, 4, 7, 5].length :=
    (IsHeapUpTo_iff_gv natLess 0 _ _ (by decide)).2 (by
      intro i hi hin
      have hin7 : i < 7 := hin
      interval_cases i <;> rfl)
  ⟨natLess_swo, hh, sort_heap_sorted natLess natLess_swo [9, 6, 8, 3, 4, 7, 5] hh, by decide⟩

end pop_sort_heap_claims


/-! ## `is_heap_until` and `is_heap` -/

set_option autoImplicit false

section is_heap_claims

variable {α : Type}

/-- C23. For every range and every comparator, `is_heap_until` returns the index `r` that
ends the largest prefix that is a max-heap: the prefix of length `r` is a max-heap (no index
`i` with `1 <= i < r` has `comp(a[(i-1)/2], a[i])`), and when `r` is not the end of the
range then `r >= 1`, `comp(a[(r-1)/2], a[r])` holds and the prefix of length `r + 1` is not
a max-heap; `is_heap` is true exactly when `r` is the end of the range. -/
theorem is_heap_until_spec (comp : α → α → Bool) (a : List α) :
    ∃ r, is_heap_until comp a = some r ∧ r ≤ a.length ∧ IsHeapUpTo comp a r ∧
      (∀ i, 1 ≤ i → i < r →
        ∃ x y, a[(i - 1) / 2]? = some x ∧ a[i]? = some y ∧ comp x y = false) ∧
      (r < a.length → 1 ≤ r ∧
        (∃ x y, a[(r - 1) / 2]? = some x ∧ a[r]? = some y ∧ comp x y = true) ∧
        ¬ IsHeapUpTo comp a (r + 1)) ∧
      is_heap comp a = some (r == a.length) := by
  cases a with
  | nil =>
    refine ⟨0, rfl, le_refl _, ?_, ?_, ?_, rfl⟩
    · intro i x y _ hi
      omega
    · intro i _ hi
      omega
    · intro h
      simp at h
  | cons d t =>
    obtain ⟨r, e, hr, hb, hf⟩ := is_heap_until_loop_spec comp d (d :: t)
      ((d :: t).length + 1) 1 (by omega) (by omega) (by omega)
    have e2 : is_heap_until comp (d :: t) = some r := e
    have hheap : IsHeapUpTo comp (d :: t) r :=
      (IsHeapUpTo_iff_gv comp d (d :: t) r hr).2 (fun i hi hir => hb i hi hir)
    refine ⟨r, e2, hr, hheap, ?_, ?_, ?_⟩
    · intro i hi hir
      exact ⟨gv d (d :: t) ((i - 1) / 2), gv d (d :: t) i,
        getElem?_eq_gv d (d :: t) _ (by omega), getElem?_eq_gv d (d :: t) _ (by omega),
        hb i hi hir⟩
    · intro h
      obtain ⟨h1, h2⟩ := hf h
      refine ⟨h1, ⟨gv d (d :: t) ((r - 1) / 2), gv d (d :: t) r,
        getElem?_eq_gv d (d :: t) _ (by omega), getElem?_eq_gv d (d :: t) _ h, h2⟩, ?_⟩
      intro hh
      have h3 := hh r _ _ (by omega) (by omega) (getElem?_eq_gv d (d :: t) _ (by omega))
        (getElem?_eq_gv d (d :: t) _ h)
      rw [h2] at h3
      exact absurd h3 (by simp)
    · simp only [is_heap, e2, Option.map_some']

/-- An instance of C23: in `[9, 6, 8, 3, 4, 10, 5, 11]` the element of index 5 is greater
than its parent (index 2), so the result is `first + 5` and `is_heap` is false; on the heap
`[9, 6, 8, 3, 4, 7, 5]` the result is the end of the range and `is_heap` is true. -/
theorem is_heap_until_examples :
    is_heap_until natLess [9, 6, 8, 3, 4, 10, 5, 11] = some 5 ∧
    is_heap natLess [9, 6, 8, 3, 4, 10, 5, 11] = some false ∧
    is_heap_until natLess [9, 6, 8, 3, 4, 7, 5] = some 7 ∧
    is_heap natLess [9, 6, 8, 3, 4, 7, 5] = some true := by
  decide

end is_heap_claims


/-! ## `merge` -/

set_option autoImplicit false

section merge_claims

variable {α : Type}

/-- C24. For every two input ranges holding the lists `l1` and `l2`, both in non-decreasing
order under a strict weak order `comp`, and an output range of their total length in another
array, `merge` returns, writes over the output range a list `out` and leaves the rest of the
output array alone; `out` is in non-decreasing order and a rearrangement of `l1 ++ l2`, the
elements of each input keep their relative order in it, among the elements equivalent to any
`x` those of `l1` come first and those of `l2` after them, and the iterator returned is
`d_first` advanced by the total length. -/
theorem merge_stable_spec (comp : α → α → Bool) (hswo : StrictWeakOrder comp)
    (src l1 l2 : List α) (first1 last1 first2 last2 : Nat) (dp dj dq : List α)
    (hs1 : Seg src first1 l1) (hs2 : Seg src first2 l2)
    (h1 : last1 = first1 + l1.length) (h2 : last2 = first2 + l2.length)
    (hd : dj.length = l1.length + l2.length)
    (ho1 : l1.Pairwise (fun x y => comp y x = false))
    (ho2 : l2.Pairwise (fun x y => comp y x = false)) :
    ∃ out, merge comp src (dp ++ dj ++ dq) first1 last1 first2 last2 dp.length
        = some (dp ++ out ++ dq, dp.length + (l1.length + l2.length)) ∧
      out.Perm (l1 ++ l2) ∧ out.Pairwise (fun x y => comp y x = false) ∧
      l1.Sublist out ∧ l2.Sublist out ∧
      ∀ x, out.filter (fun y => !comp x y && !comp y x)
        = l1.filter (fun y => !comp x y && !comp y x)
          ++ l2.filter (fun y => !comp x y && !comp y x) := by
  have hm := StableSorted.merge comp hswo
    (⟨List.Perm.refl _, ho1, fun _ => rfl⟩ : StableSorted comp l1 l1)
    (⟨List.Perm.refl _, ho2, fun _ => rfl⟩ : StableSorted comp l2 l2)
  refine ⟨List.merge l1 l2 (fun a b => !comp b a),
    merge_spec comp src l1 l2 first1 last1 first2 last2 dp dj dq hs1 hs2 h1 h2 hd,
    hm.1, hm.2.1, merge_sublist_left _ l1 l2, merge_sublist_right _ l1 l2, ?_⟩
  intro x
  exact filter_merge comp hswo x l1 l2 ho1

/-- Witness for C24 on pairs (key, tag) ordered by the key: the ranges
`(1,0) (3,1) (3,2) (7,3)` and `(2,4) (3,5) (8,6)` of one array are merged into the seven
places after the first one of an array of nine; the three elements of key 3 come out as
`(3,1) (3,2) (3,5)` and the result is the index 8. -/
theorem merge_stable_spec_witness :
    StrictWeakOrder keyLess ∧
    Seg [(1, 0), (3, 1), (3, 2), (7, 3), (2, 4), (3, 5), (8, 6)] 0
      [(1, 0), (3, 1), (3, 2), (7, 3)] ∧
    Seg [(1, 0), (3, 1), (3, 2), (7, 3), (2, 4), (3, 5), (8, 6)] 4
      [(2, 4), (3, 5), (8, 6)] ∧
    [(1, 0), (3, 1), (3, 2), (7, 3)].Pairwise (fun x y => keyLess y x = false) ∧
    [(2, 4), (3, 5), (8, 6)].Pairwise (fun x y => keyLess y x = false) ∧
    (∃ out, merge keyLess [(1, 0), (3, 1), (3, 2), (7, 3), (2, 4), (3, 5), (8, 6)]
        ([(9, 9)] ++ List.replicate 7 (0, 0) ++ [(9, 9)]) 0 4 4 7 [(9, 9)].length
        = some ([(9, 9)] ++ out ++ [(9, 9)],
            [(9, 9)].length
              + ([(1, 0), (3, 1), (3, 2), (7, 3)].length + [(2, 4), (3, 5), (8, 6)].length)) ∧
      out.Perm ([(1, 0), (3, 1), (3, 2), (7, 3)] ++ [(2, 4), (3, 5), (8, 6)]) ∧
      out.Pairwise (fun x y => keyLess y x = false) ∧
      [(1, 0), (3, 1), (3, 2), (7, 3)].Sublist out ∧ [(2, 4), (3, 5), (8, 6)].Sublist out ∧
      ∀ x, out.filter (fun y => !keyLess x y && !keyLess y x)
        = [(1, 0), (3, 1), (3, 2), (7, 3)].filter (fun y => !keyLess x y && !keyLess y x)
          ++ [(2, 4), (3, 5), (8, 6)].filter (fun y => !keyLess x y && !keyLess y x)) ∧
    merge keyLess [(1, 0), (3, 1), (3, 2), (7, 3), (2, 4), (3, 5), (8, 6)]
        ([(9, 9)] ++ List.replicate 7 (0, 0) ++ [(9, 9)]) 0 4 4 7 1
      = some ([(9, 9), (1, 0), (2, 4), (3, 1), (3, 2), (3, 5), (7, 3), (8, 6), (9, 9)], 8) :=
  have hs1 : Seg [(1, 0), (3, 1), (3, 2), (7, 3), (2, 4), (3, 5), (8, 6)] 0
      [(1, 0), (3, 1), (3, 2), (7, 3)] := ⟨[], [(2, 4), (3, 5), (8, 6)], rfl, rfl⟩
  have hs2 : Seg [(1, 0), (3, 1), (3, 2), (7, 3), (2, 4), (3, 5), (8, 6)] 4
      [(2, 4), (3, 5), (8, 6)] := ⟨[(1, 0), (3, 1), (3, 2), (7, 3)], [], rfl, rfl⟩
  have ho1 : [(1, 0), (3, 1), (3, 2), (7, 3)].Pairwise (fun x y => keyLess y x = false) := by
    decide
  have ho2 : [(2, 4), (3, 5), (8, 6)].Pairwise (fun x y => keyLess y x = false) := by
    decide
  ⟨keyLess_swo, hs1, hs2, ho1, ho2,
    merge_stable_spec keyLess keyLess_swo [(1, 0), (3, 1), (3, 2), (7, 3), (2, 4), (3, 5), (8, 6)]
      [(1, 0), (3, 1), (3, 2), (7, 3)] [(2, 4), (3, 5), (8, 6)] 0 4 4 7 [(9, 9)]
      (List.replicate 7 (0, 0)) [(9, 9)] hs1 hs2 rfl rfl rfl ho1 ho2,
    by decide⟩

end merge_claims


/-! ## `stable_sort` and its temporary buffer -/

set_option autoImplicit false

section tempbuf_claims

variable {α : Type}

/-- C25 (the code diverges from the claim). On a range of two or more elements
`get_temporary_buffer` always returns a length `len` not above the length of the range,
smaller than it whenever the request for the whole range is refused; and whenever `len` is
smaller than the range, `stable_sort` called with that buffer makes an access outside the
buffer (the model returns `none`) instead of sorting: `merge_sort_buffer` is handed
`buffer.begin()` and uses as many buffer elements as the range has. -/
theorem stable_sort_tmp_short_buffer (comp : α → α → Bool) (malloc : Nat → Bool)
    (sizeofT : Nat) (fill : Nat → α) (a : List α) (ha : 2 ≤ a.length) :
    ∃ len, get_temporary_buffer malloc sizeofT a.length = some len ∧ len ≤ a.length ∧
      (malloc (a.length * sizeofT) = false → len < a.length) ∧
      (len < a.length → stable_sort_tmp comp malloc sizeofT fill a = none) := by
  by_cases hmax : a.length > ptrdiff_max / sizeofT
  · obtain ⟨r, e, hr, -, -⟩ := get_temporary_buffer_loop_spec malloc sizeofT
      (ptrdiff_max / sizeofT + 1) (ptrdiff_max / sizeofT) (by omega)
    have e2 : get_temporary_buffer malloc sizeofT a.length = some r := by
      simp only [get_temporary_buffer, hmax, ↓reduceIte, e]
    refine ⟨r, e2, by omega, fun _ => by omega, fun hlt => ?_⟩
    simp only [stable_sort_tmp, temporary_buffer, e2, Option.map_some', Option.bind_eq_bind,
      Option.some_bind]
    exact stable_sort_short_buffer comp a _ ha (by simpa using hlt)
  · obtain ⟨r, e, hr, -, hhalf⟩ := get_temporary_buffer_loop_spec malloc sizeofT
      (a.length + 1) a.length (by omega)
    have e2 : get_temporary_buffer malloc sizeofT a.length = some r := by
      simp only [get_temporary_buffer, hmax, ↓reduceIte, e]
    refine ⟨r, e2, hr, fun hm => ?_, fun hlt => ?_⟩
    · have := hhalf hm
      omega
    · simp only [stable_sort_tmp, temporary_buffer, e2, Option.map_some', Option.bind_eq_bind,
        Option.some_bind]
      exact stable_sort_short_buffer comp a _ ha (by simpa using hlt)

/-- Witness for C25 on the range `[2, 1]` of elements of four bytes: when `malloc` grants
four bytes but not eight, the buffer has one element and `stable_sort` leaves it (the store
`*(buffer + mid) = *middle` with `mid = 1`); when `malloc` grants nothing, the buffer is
null and `stable_sort` writes through it; with a buffer of two elements the range is
sorted. -/
theorem stable_sort_tmp_short_buffer_witness :
    2 ≤ [2, 1].length ∧
    (∃ len, get_temporary_buffer (fun n => decide (n ≤ 4)) 4 [2, 1].length = some len ∧
      len ≤ [2, 1].length ∧
      ((fun n => decide (n ≤ 4)) ([2, 1].length * 4) = false → len < [2, 1].length) ∧
      (len < [2, 1].length →
        stable_sort_tmp natLess (fun n => decide (n ≤ 4)) 4 (fun _ => 0) [2, 1] = none)) ∧
    get_temporary_buffer (fun n => decide (n ≤ 4)) 4 2 = some 1 ∧
    temporary_buffer (fun n => decide (n ≤ 4)) 4 (fun _ => 0) 2 = some [0] ∧
    stable_sort_tmp natLess (fun n => decide (n ≤ 4)) 4 (fun _ => 0) [2, 1] = none ∧
    get_temporary_buffer (fun _ => false) 4 2 = some 0 ∧
    stable_sort_tmp natLess (fun _ => false) 4 (fun _ => 0) [2, 1] = none ∧
    stable_sort_tmp natLess (fun _ => true) 4 (fun _ => 0) [2, 1] = some [1, 2] :=
  ⟨by decide,
    stable_sort_tmp_short_buffer natLess (fun n => decide (n ≤ 4)) 4 (fun _ => 0) [2, 1]
      (by decide),
    by decide, by decide, by decide, by decide, by decide, by decide⟩

end tempbuf_claims


/-! ## `min` and `max` -/

set_option autoImplicit false

/-- C29 (the code diverges from the claim). `min(a, b)` evaluates `b < a ? a : b`: it
returns `a` when `b` is less than `a` and `b` otherwise, which is what `max(b, a)` returns;
on natural numbers it is the greater of the two for all `a` and `b`, so `min(1, 2)` is `2`
and `min(2, 1)` is `2`. `max(a, b)` returns the greater of the two. -/
theorem min_returns_greater :
    (∀ {α : Type} (lt : α → α → Bool) (a b : α), jnstl.min lt a b = jnstl.max lt b a) ∧
    (∀ {α : Type} (lt : α → α → Bool) (a b : α), lt b a = true → jnstl.min lt a b = a) ∧
    (∀ a b : Nat, jnstl.min natLess a b = Max.max a b) ∧
    (∀ a b : Nat, jnstl.max natLess a b = Max.max a b) ∧
    jnstl.min natLess 1 2 = 2 ∧ jnstl.min natLess 2 1 = 2 := by
  refine ⟨fun _ _ _ => rfl, ?_, ?_, ?_, by decide, by decide⟩
  · intro α lt a b h
    simp [jnstl.min, h]
  · intro a b
    simp only [jnstl.min, natLess, decide_eq_true_eq]
    split
    · exact (Nat.max_eq_left (by omega)).symm
    · exact (Nat.max_eq_right (by omega)).symm
  · intro a b
    simp only [jnstl.max, natLess, decide_eq_true_eq]
    split
    · exact (Nat.max_eq_right (by omega)).symm
    · exact (Nat.max_eq_left (by omega)).symm


/-! ## A comparator that throws -/

set_option autoImplicit false

set_option autoImplicit false

section allocation_claims

variable {α κ : Type}

/-- C27 (the code diverges from the claim). When `malloc` has no storage left,
`DoAllocateNode` returns the null pointer and `DoCreateNode` constructs the payload through
it without a test (the model returns `none`, undefined behaviour): so does every `DoInsert`
and every `DoInsertMulti`, and `DoInsertUnique` too unless it finds an equivalent key and
allocates nothing. No call reports the failure and returns with the tree as it was. -/
theorem DoCreateNode_dereferences_null (KeyOfT : α → κ) (KeyCompare : κ → κ → Bool)
    (t : rbtree α) (value : α) (hoom : t.oom = true) :
    DoAllocateNode t = (0, t) ∧ DoCreateNode t value = none ∧
    (∀ fuel pParent x, DoInsert KeyOfT KeyCompare t fuel pParent x value = none) ∧
    (∀ fuel, t.DoInsertMulti KeyOfT KeyCompare fuel value = none) ∧
    (∀ fuel, t.DoInsertUnique KeyOfT KeyCompare fuel value = none ∨
      ∃ child, child ≠ 0 ∧
        t.DoInsertUnique KeyOfT KeyCompare fuel value = some ((child, false), t)) := by
  have h1 : DoAllocateNode t = (0, t) := by simp [DoAllocateNode, hoom]
  have h2 : DoCreateNode t value = none := by simp [DoCreateNode, h1]
  have h3 : ∀ fuel pParent x, DoInsert KeyOfT KeyCompare t fuel pParent x value = none := by
    intro fuel pParent x
    unfold DoInsert
    by_cases hx : x ≠ 0 ∨ pParent = t.mEnd
    · simp [hx, h2]
    · cases hk : sKey KeyOfT t pParent <;> simp [hx, hk, h2]
  refine ⟨h1, h2, h3, fun fuel => ?_, fun fuel => ?_⟩
  · unfold rbtree.DoInsertMulti
    cases FindMulti KeyOfT KeyCompare t fuel (KeyOfT value) with
    | none => rfl
    | some r => simp [h3]
  · unfold rbtree.DoInsertUnique
    cases FindEqual KeyOfT KeyCompare t fuel (KeyOfT value) with
    | none => exact Or.inl rfl
    | some r =>
      obtain ⟨child, parent⟩ := r
      by_cases hc : child = 0
      · left
        simp [hc, h3]
      · right
        exact ⟨child, hc, by simp [hc]⟩

/-- Witness for C27: the tree built from 1 and 2, once with `malloc` out of storage and
once not; inserting 3 dereferences the null pointer in the first and succeeds in the
second. -/
theorem DoCreateNode_dereferences_null_witness :
    ({ treeOfList [1, 2] with oom := true } : rbtree Nat).oom = true ∧
    (DoAllocateNode ({ treeOfList [1, 2] with oom := true } : rbtree Nat)
        = (0, { treeOfList [1, 2] with oom := true }) ∧
      DoCreateNode ({ treeOfList [1, 2] with oom := true } : rbtree Nat) 3 = none ∧
      (∀ fuel pParent x,
        DoInsert id natLess ({ treeOfList [1, 2] with oom := true } : rbtree Nat) fuel pParent x 3
          = none) ∧
      (∀ fuel, ({ treeOfList [1, 2] with oom := true } : rbtree Nat).DoInsertMulti id natLess
          fuel 3 = none) ∧
      (∀ fuel, ({ treeOfList [1, 2] with oom := true } : rbtree Nat).DoInsertUnique id natLess
            fuel 3 = none ∨
        ∃ child, child ≠ 0 ∧
          ({ treeOfList [1, 2] with oom := true } : rbtree Nat).DoInsertUnique id natLess fuel 3
            = some ((child, false), { treeOfList [1, 2] with oom := true }))) ∧
    (({ treeOfList [1, 2] with oom := true } : rbtree Nat).DoInsertUnique id natLess 10
      3).isSome = false ∧
    ((treeOfList [1, 2]).DoInsertUnique id natLess 10 3).isSome = true ∧
    ((treeOfList [1, 2]).DoInsertMulti id natLess 10 3).isSome = true :=
  ⟨rfl,
    DoCreateNode_dereferences_null id natLess { treeOfList [1, 2] with oom := true } 3 rfl,
    by decide, by decide, by decide⟩

end allocation_claims


/-! ## `map::at` -/

set_option autoImplicit false

section map_at_claims

variable {κ β : Type}

/-- C28 (the code diverges from the claim). On every valid map with the pairs `l` in key
order: when some pair has a key equivalent to `k`, `at(k)` returns the mapped value of such
a pair, in both configurations. When no pair has one: compiled with
`JNSTL_EXCEPTIONS_ENABLED`, `at(k)` executes `throw;` with no exception in flight, which
ends the program through `std::terminate` instead of signalling an error that the caller
can handle; compiled without it, `at(k)` makes no test and returns the mapped value of the
first pair whose key is greater than `k`, or reads the payload of `end()` when there is
none (the model returns `none`). -/
theorem map_at_spec (KeyCompare : κ → κ → Bool) (hswo : StrictWeakOrder KeyCompare)
    (t : rbtree (κ × β)) (hv : t.Valid Prod.fst KeyCompare) (k : κ) :
    ∃ l N, ∀ fuel, N ≤ fuel → t.toList fuel = some l ∧
      ((∃ v ∈ l, KeyCompare v.1 k = false ∧ KeyCompare k v.1 = false) →
        ∀ exceptions, ∃ v ∈ l, KeyCompare v.1 k = false ∧ KeyCompare k v.1 = false ∧
          map_at KeyCompare exceptions t fuel k = some (at_result.value v.2)) ∧
      ((∀ v ∈ l, KeyCompare v.1 k = true ∨ KeyCompare k v.1 = true) →
        map_at KeyCompare true t fuel k = some at_result.rethrow_terminate ∧
        (∀ v, l.find? (fun v => !KeyCompare v.1 k) = some v → KeyCompare k v.1 = true ∧
          map_at KeyCompare false t fuel k = some (at_result.value v.2)) ∧
        (l.find? (fun v => !KeyCompare v.1 k) = none →
          map_at KeyCompare false t fuel k = none)) := by
  obtain ⟨T, h, ho, -⟩ := hv
  refine ⟨T.vals, T.ptrs.length + 2, fun fuel hf => ⟨toList_spec h fuel hf, ?_, ?_⟩⟩
  · rintro ⟨v, hvl, hv1, hv2⟩ exceptions
    have hfirst := map_at_first KeyCompare hswo h ho k fuel (by omega) exceptions
    cases hfind : T.vals.find? (fun v => !KeyCompare v.1 k) with
    | none =>
      have := List.find?_eq_none.1 hfind v hvl
      simp [hv1] at this
    | some v0 =>
      obtain ⟨hP, as, bs, hsplit, has⟩ := List.find?_eq_some.1 hfind
      have hP2 : KeyCompare v0.1 k = false := by simpa using hP
      have hk0 : KeyCompare k v0.1 = false := by
        rw [hsplit] at hvl
        simp only [List.mem_append, List.mem_cons] at hvl
        rcases hvl with hm | rfl | hm
        · have := has v hm
          simp [hv1] at this
        · exact hv2
        · rw [hsplit] at ho
          have h1 : KeyCompare v.1 v0.1 = false := ho.of_split v hm
          cases hc : KeyCompare k v0.1 with
          | false => rfl
          | true =>
            rw [hswo.lt_of_le_of_lt hv2 hc] at h1
            exact absurd h1 (by simp)
      refine ⟨v0, by rw [hsplit]; simp, hP2, hk0, ?_⟩
      rw [hfirst, hfind]
      simp [hk0]
  · intro habs
    have ht := map_at_first KeyCompare hswo h ho k fuel (by omega) true
    have hf2 := map_at_first KeyCompare hswo h ho k fuel (by omega) false
    cases hfind : T.vals.find? (fun v => !KeyCompare v.1 k) with
    | none =>
      rw [hfind] at ht hf2
      exact ⟨by simpa using ht, fun v hv => (by cases hv), fun _ => (by simpa using hf2)⟩
    | some v0 =>
      rw [hfind] at ht hf2
      have hP : KeyCompare v0.1 k = false := by
        simpa using (List.find?_eq_some.1 hfind).1
      have hgt : KeyCompare k v0.1 = true := by
        rcases habs v0 (List.mem_of_find?_eq_some hfind) with h1 | h1
        · rw [hP] at h1
          exact absurd h1 (by simp)
        · exact h1
      refine ⟨by simpa [hgt] using ht, fun v hv => ?_, fun hn => (by cases hn)⟩
      cases hv
      exact ⟨hgt, by simpa using hf2⟩

/-- Witness for C28 on the map `{1 -> 10, 3 -> 30}`: `at(3)` returns 30; `at(2)` ends in
`std::terminate` with exceptions enabled and returns 30, the value mapped to 3, without
them; `at(7)` reads the payload of `end()` without them. -/
theorem map_at_spec_witness :
    StrictWeakOrder natLess ∧ (mapOfList [(1, 10), (3, 30)]).Valid Prod.fst natLess ∧
    (∃ l N, ∀ fuel, N ≤ fuel → (mapOfList [(1, 10), (3, 30)]).toList fuel = some l ∧
      ((∃ v ∈ l, natLess v.1 2 = false ∧ natLess 2 v.1 = false) →
        ∀ exceptions, ∃ v ∈ l, natLess v.1 2 = false ∧ natLess 2 v.1 = false ∧
          map_at natLess exceptions (mapOfList [(1, 10), (3, 30)]) fuel 2
            = some (at_result.value v.2)) ∧
      ((∀ v ∈ l, natLess v.1 2 = true ∨ natLess 2 v.1 = true) →
        map_at natLess true (mapOfList [(1, 10), (3, 30)]) fuel 2
          = some at_result.rethrow_terminate ∧
        (∀ v, l.find? (fun v => !natLess v.1 2) = some v → natLess 2 v.1 = true ∧
          map_at natLess false (mapOfList [(1, 10), (3, 30)]) fuel 2
            = some (at_result.value v.2)) ∧
        (l.find? (fun v => !natLess v.1 2) = none →
          map_at natLess false (mapOfList [(1, 10), (3, 30)]) fuel 2 = none))) ∧
    (mapOfList [(1, 10), (3, 30)]).toList 40 = some [(1, 10), (3, 30)] ∧
    map_at natLess false (mapOfList [(1, 10), (3, 30)]) 40 3 = some (at_result.value 30) ∧
    map_at natLess true (mapOfList [(1, 10), (3, 30)]) 40 3 = some (at_result.value 30) ∧
    map_at natLess true (mapOfList [(1, 10), (3, 30)]) 40 2
      = some at_result.rethrow_terminate ∧
    map_at natLess false (mapOfList [(1, 10), (3, 30)]) 40 2 = some (at_result.value 30) ∧
    map_at natLess true (mapOfList [(1, 10), (3, 30)]) 40 7
      = some at_result.rethrow_terminate ∧
    map_at natLess false (mapOfList [(1, 10), (3, 30)]) 40 7 = none :=
  ⟨natLess_swo, mapOfList_valid _ (by decide),
    map_at_spec natLess natLess_swo (mapOfList [(1, 10), (3, 30)])
      (mapOfList_valid _ (by decide)) 2,
    by decide, by decide, by decide, by decide, by decide, by decide, by decide⟩

end map_at_claims


/-! ## `swap` -/

set_option autoImplicit false

/-- C30 (the code diverges from the claim). `DoSwap` on two distinct tree objects exchanges
the sizes and writes to the two headers only. A tree that receives a non-empty tree gets the
other header's leftmost and rightmost links, but its root link is set to its own header
(lines 1485-1486, 1491 and 1500 assign `mHeader.mParent = &mHeader`) and the parent link of
the former root is not written, so it still names the other header. -/
theorem DoSwap_root_link (m : Mem) (hdr xhdr : Ptr) (mSize xSize : Nat) (hne : hdr ≠ xhdr) :
    (DoSwap m hdr xhdr mSize xSize).2 = (xSize, mSize) ∧
    (∀ p, p ≠ hdr → p ≠ xhdr → (DoSwap m hdr xhdr mSize xSize).1 p = m p) ∧
    ((m xhdr).mParent ≠ 0 →
      ((DoSwap m hdr xhdr mSize xSize).1 hdr).mParent = hdr ∧
      ((DoSwap m hdr xhdr mSize xSize).1 hdr).mLeft = (m xhdr).mLeft ∧
      ((DoSwap m hdr xhdr mSize xSize).1 hdr).mRight = (m xhdr).mRight) ∧
    ((m hdr).mParent ≠ 0 →
      ((DoSwap m hdr xhdr mSize xSize).1 xhdr).mParent = xhdr ∧
      ((DoSwap m hdr xhdr mSize xSize).1 xhdr).mLeft = (m hdr).mLeft ∧
      ((DoSwap m hdr xhdr mSize xSize).1 xhdr).mRight = (m hdr).mRight) := by
  have hne2 : xhdr ≠ hdr := fun e => hne e.symm
  unfold DoSwap
  by_cases h1 : (m hdr).mParent ≠ 0
  · by_cases h2 : (m xhdr).mParent ≠ 0
    · rw [if_pos ⟨h1, h2⟩]
      refine ⟨rfl, fun p hp hq => ?_, fun _ => ⟨?_, ?_, ?_⟩, fun _ => ⟨?_, ?_, ?_⟩⟩ <;>
        simp [hdrSetRight, hdrSetLeft, hdrSetParent, Function.update, hne, hne2, *]
    · rw [if_neg (fun h => h2 h.2), if_pos h1]
      refine ⟨rfl, fun p hp hq => ?_, fun h => absurd h h2, fun _ => ⟨?_, ?_, ?_⟩⟩ <;>
        simp [hdrSetRight, hdrSetLeft, hdrSetParent, Function.update, hne, hne2, *]
  · by_cases h2 : (m xhdr).mParent ≠ 0
    · rw [if_neg (fun h => h1 h.1), if_neg h1, if_pos h2]
      refine ⟨rfl, fun p hp hq => ?_, fun _ => ⟨?_, ?_, ?_⟩, fun h => absurd h h1⟩ <;>
        simp [hdrSetRight, hdrSetLeft, hdrSetParent, Function.update, hne, hne2, *]
    · rw [if_neg (fun h => h1 h.1), if_neg h1, if_neg h2]
      exact ⟨rfl, fun _ _ _ => rfl, fun h => absurd h h2, fun h => absurd h h1⟩

/-- Witness for C30 on the sets `a = {10}` (header 1, root 2) and `b = {20}` (header 3,
root 4) in one memory, both accepted by `validate`: after `a.swap(b)` the root link of `a`
is its own header 1 instead of the node 4, the node 4 still has the header 3 as its parent,
and neither `validate` nor the traversal of `a` or `b` returns a result with fuel 40 (the
walk dereferences a null link or does not come back to `end()`); the same holds for the
tree that the move constructor builds from `a`. -/
theorem DoSwap_root_link_witness :
    (1 : Ptr) ≠ 3 ∧
    ((DoSwap twoSets.mem 1 3 1 1).2 = (1, 1) ∧
      (∀ p, p ≠ 1 → p ≠ 3 → (DoSwap twoSets.mem 1 3 1 1).1 p = twoSets.mem p) ∧
      ((twoSets.mem 3).mParent ≠ 0 →
        ((DoSwap twoSets.mem 1 3 1 1).1 1).mParent = 1 ∧
        ((DoSwap twoSets.mem 1 3 1 1).1 1).mLeft = (twoSets.mem 3).mLeft ∧
        ((DoSwap twoSets.mem 1 3 1 1).1 1).mRight = (twoSets.mem 3).mRight) ∧
      ((twoSets.mem 1).mParent ≠ 0 →
        ((DoSwap twoSets.mem 1 3 1 1).1 3).mParent = 3 ∧
        ((DoSwap twoSets.mem 1 3 1 1).1 3).mLeft = (twoSets.mem 1).mLeft ∧
        ((DoSwap twoSets.mem 1 3 1 1).1 3).mRight = (twoSets.mem 1).mRight)) ∧
    ((treeAtHeader twoSets twoSets.mem 1 1).validate id natLess 40 = some true ∧
      (treeAtHeader twoSets twoSets.mem 3 1).validate id natLess 40 = some true ∧
      (treeAtHeader twoSets twoSets.mem 1 1).toList 40 = some [10] ∧
      (treeAtHeader twoSets twoSets.mem 3 1).toList 40 = some [20] ∧
      (treeAtHeader twoSets twoSets.mem 1 1).mRoot = 2 ∧
      (treeAtHeader twoSets twoSets.mem 3 1).mRoot = 4) ∧
    ((treeAtHeader twoSets twoSetsSwapped.1 1 twoSetsSwapped.2.1).mRoot = 1 ∧
      (treeAtHeader twoSets twoSetsSwapped.1 3 twoSetsSwapped.2.2).mRoot = 3 ∧
      (twoSetsSwapped.1 4).mParent = 3 ∧ (twoSetsSwapped.1 2).mParent = 1 ∧
      (treeAtHeader twoSets twoSetsSwapped.1 1 twoSetsSwapped.2.1).validate id natLess 40
        = none ∧
      (treeAtHeader twoSets twoSetsSwapped.1 3 twoSetsSwapped.2.2).validate id natLess 40
        = none ∧
      (treeAtHeader twoSets twoSetsSwapped.1 1 twoSetsSwapped.2.1).toList 40 = none ∧
      (treeAtHeader twoSets twoSetsSwapped.1 3 twoSetsSwapped.2.2).toList 40 = none) ∧
    ((treeAtHeader twoSets twoSetsMoved.1 5 twoSetsMoved.2.1).mRoot = 5 ∧
      (treeAtHeader twoSets twoSetsMoved.1 5 twoSetsMoved.2.1).size = 1 ∧
      (treeAtHeader twoSets twoSetsMoved.1 5 twoSetsMoved.2.1).validate id natLess 40 = none ∧
      (treeAtHeader twoSets twoSetsMoved.1 5 twoSetsMoved.2.1).toList 40 = none) :=
  ⟨by decide, DoSwap_root_link twoSets.mem 1 3 1 1 (by decide),
    ⟨by decide!, by decide!, by decide!, by decide!, by decide!, by decide!⟩,
    ⟨by decide!, by decide!, by decide!, by decide!, by decide!, by decide!, by decide!,
      by decide!⟩,
    ⟨by decide!, by decide!, by decide!, by decide!⟩⟩


/-! ## `sort` -/

set_option autoImplicit false

section sort_claims

variable {α : Type}

/-- C5. For every array `a` (of any length, 0 and 1 included, up to `S_threshold` elements
or more) and every strict weak order `comp`, `sort` returns an array `b` that is a
rearrangement of `a` in non-decreasing order: no element is less than an earlier one, in
particular no `i` has `comp(b[i+1], b[i])`. The counter `depth_limit` of `introsort_loop`
(a `double` in the source) is arbitrary: the statement holds whenever and however often the
counter is found to be zero. -/
theorem sort_spec (comp : α → α → Bool) (hswo : StrictWeakOrder comp) {σ : Type}
    (isZero : σ → Bool) (dec : σ → σ) (limit : Nat → σ) (a : List α) :
    ∃ b, sort comp isZero dec limit a = some b ∧ b.Perm a ∧
      b.Pairwise (fun x y => comp y x = false) ∧
      ∀ i x y, b[i]? = some x → b[i + 1]? = some y → comp y x = false := by
  obtain ⟨b, e, hp, hs⟩ := sort_holds comp hswo isZero dec limit a
  refine ⟨b, e, hp, hs, ?_⟩
  intro i x y hx hy
  obtain ⟨hi, rfl⟩ := List.getElem?_eq_some.1 hx
  obtain ⟨hj, rfl⟩ := List.getElem?_eq_some.1 hy
  exact List.pairwise_iff_getElem.1 hs i (i + 1) hi hj (Nat.lt_succ_self _)

/-- Witness for C5: `[5, 3, 8, 1, 4, 7, 9, 2, 6]` becomes `[1, 2, ..., 9]`; twenty numbers
are sorted both with a counter that is never zero (partition steps only) and with a counter
that is zero at once (the heap path); so are twenty equal numbers, the empty array and an
array of one element. -/
theorem sort_spec_witness :
    StrictWeakOrder natLess ∧
    (∃ b, sort natLess (fun (_ : Unit) => false) id (fun _ => ())
        [5, 3, 8, 1, 4, 7, 9, 2, 6] = some b ∧
      b.Perm [5, 3, 8, 1, 4, 7, 9, 2, 6] ∧ b.Pairwise (fun x y => natLess y x = false) ∧
      ∀ i x y, b[i]? = some x → b[i + 1]? = some y → natLess y x = false) ∧
    sort natLess (fun (_ : Unit) => false) id (fun _ => ()) [5, 3, 8, 1, 4, 7, 9, 2, 6]
      = some [1, 2, 3, 4, 5, 6, 7, 8, 9] ∧
    sort natLess (fun (_ : Unit) => false) id (fun _ => ())
        [12, 5, 19, 3, 8, 17, 1, 14, 7, 20, 2, 16, 9, 4, 18, 11, 6, 13, 10, 15]
      = some [1, 2, 3, 4, 5, 6, 7, 8, 9, 10, 11, 12, 13, 14, 15, 16, 17, 18, 19, 20] ∧
    sort natLess (fun (_ : Unit) => true) id (fun _ => ())
        [12, 5, 19, 3, 8, 17, 1, 14, 7, 20, 2, 16, 9, 4, 18, 11, 6, 13, 10, 15]
      = some [1, 2, 3, 4, 5, 6, 7, 8, 9, 10, 11, 12, 13, 14, 15, 16, 17, 18, 19, 20] ∧
    sort natLess (fun (_ : Unit) => false) id (fun _ => ()) (List.replicate 20 7)
      = some (List.replicate 20 7) ∧
    sort natLess (fun (_ : Unit) => false) id (fun _ => ()) [] = some [] ∧
    sort natLess (fun (_ : Unit) => false) id (fun _ => ()) [4] = some [4] :=
  ⟨natLess_swo,
    sort_spec natLess natLess_swo (fun (_ : Unit) => false) id (fun _ => ())
      [5, 3, 8, 1, 4, 7, 9, 2, 6],
    by decide, by decide, by decide, by decide, by decide, by decide⟩

end sort_claims


/-! ## `RBTreeInsert` keeps the red-black invariants -/

set_option autoImplicit false

section insert_invariants

variable {α κ : Type}

/-- C34. For every valid tree, with `ns` the nodes visited from `begin()` to `end()` and
enough fuel: for every attachment point (the header with the left side when the tree has
no node, otherwise a node of `ns` whose link on the chosen side is null) and every fresh
node `pNew` with payload `v`, `RBTreeInsert` returns, and the memory it leaves holds below
the header a shape `T2` with a black root, no red node with a red child and the same number
of black nodes on every path from the root to a null link; the in-order sequence of `T2`,
which the traversal by the child links from the root link of the header reads off, is `ns`
with `pNew` inserted just before the parent for a left attachment and just after it for a
right one. -/
theorem RBTreeInsert_preserves (KeyOfT : α → κ) (KeyCompare : κ → κ → Bool)
    (t : rbtree α) (hv : t.Valid KeyOfT KeyCompare) :
    ∃ ns : List Ptr, ∃ N : Nat, ∀ fuel, N ≤ fuel →
      t.nodes fuel = some ns ∧
      ∀ (pParent : Ptr) (insert_left : Bool) (pNew : Ptr) (v : α),
        ((ns = [] ∧ pParent = t.mHeader ∧ insert_left = true) ∨
          (pParent ∈ ns ∧
            (if insert_left then (t.mem pParent).mLeft else (t.mem pParent).mRight) = 0)) →
        pNew ≠ 0 → pNew ≠ t.mHeader → pNew ∉ ns →
        ∃ m2 T2 pre suf,
          RBTreeInsert t.mem fuel pNew pParent t.mHeader insert_left = some m2 ∧
          MemHolds m2 (Function.update t.mValue pNew (some v)) t.mHeader T2 ∧
          T2.color = rbtree_color.mBlack ∧ T2.noRedRed ∧ (∃ n, T2.blackHeight n) ∧
          ns = pre ++ suf ∧ T2.ptrs = pre ++ pNew :: suf ∧
          inorder m2 fuel (m2 t.mHeader).mParent = some (pre ++ pNew :: suf) ∧
          (pParent ≠ t.mHeader →
            if insert_left then suf.head? = some pParent
            else pre.getLast? = some pParent) := by
  obtain ⟨T, h, -, hrb⟩ := hv
  refine ⟨T.ptrs, T.ptrs.length + 3, fun fuel hf => ⟨nodes_spec h fuel (by omega), ?_⟩⟩
  intro pParent insert_left pNew v hatt h0 hh hfresh
  have key : ∃ ctx : List (Frame α), T = plug ctx Tr.nil ∧
      ctxParent t.mHeader ctx = pParent ∧ holeIsLeft ctx = insert_left ∧
      (pParent ≠ t.mHeader →
        if insert_left then (ctxAfter ctx).head? = some pParent
        else (ctxBefore ctx).getLast? = some pParent) := by
    rcases hatt with ⟨hn, rfl, rfl⟩ | ⟨hp, hnull⟩
    · have hT : T = Tr.nil := by
        cases T with
        | nil => rfl
        | node c l p v r => simp [Tr.ptrs] at hn
      exact ⟨[], hT, rfl, rfl, fun hne => absurd rfl hne⟩
    · obtain ⟨ctx, e1, e2, e3, e4⟩ := attach_point_ctx h.mem pParent insert_left hp hnull
      exact ⟨ctx, e1, e2, e3, fun _ => e4⟩
  obtain ⟨ctx, rfl, rfl, rfl, hpos⟩ := key
  obtain ⟨hroot, hrb2⟩ := insFix_RedBlack ctx pNew v hrb
  have hlen := ctx_length_le ctx
  have hpl : (plug ctx (Tr.nil : Tr α)).ptrs = ctxBefore ctx ++ ctxAfter ctx := by
    rw [Tr.ptrs_plug]
    simp [Tr.ptrs]
  have hl2 : (plug ctx (Tr.nil : Tr α)).ptrs.length
      = (ctxBefore ctx).length + (ctxAfter ctx).length := by
    rw [hpl, List.length_append]
  obtain ⟨m2, e2, h2⟩ := RBTreeInsert_spec ctx pNew v h.mem h0 hh hfresh hroot fuel
    (by omega)
  have hp2 := insFix_ptrs ctx pNew v
  refine ⟨m2, _, ctxBefore ctx, ctxAfter ctx, e2, h2, hrb2.1, hrb2.2.1, hrb2.2.2, hpl, hp2,
    ?_, hpos⟩
  rw [← hp2]
  refine MemHolds_inorder h2 fuel ?_
  rw [hp2]
  simp only [List.length_append, List.length_cons]
  omega

/-- Witness for C34: in the tree built from 5, 3, 8, 1, 4, 7, 9, 2, 6 (nodes
5, 9, 3, 6, 2, 10, 7, 4, 8 in in-order) the right link of the red node 9 is null; attaching
node 11 there rotates at the parent of 9 and gives the in-order sequence
5, 9, 11, 3, 6, 2, 10, 7, 4, 8, and attaching it at the left link of node 5 puts it
first. -/
theorem RBTreeInsert_preserves_witness :
    (treeOfList [5, 3, 8, 1, 4, 7, 9, 2, 6]).Valid id natLess ∧
    (∃ ns : List Ptr, ∃ N : Nat, ∀ fuel, N ≤ fuel →
      (treeOfList [5, 3, 8, 1, 4, 7, 9, 2, 6]).nodes fuel = some ns ∧
      ∀ (pParent : Ptr) (insert_left : Bool) (pNew : Ptr) (v : Nat),
        ((ns = [] ∧ pParent = (treeOfList [5, 3, 8, 1, 4, 7, 9, 2, 6]).mHeader ∧
            insert_left = true) ∨
          (pParent ∈ ns ∧
            (if insert_left then ((treeOfList [5, 3, 8, 1, 4, 7, 9, 2, 6]).mem pParent).mLeft
              else ((treeOfList [5, 3, 8, 1, 4, 7, 9, 2, 6]).mem pParent).mRight) = 0)) →
        pNew ≠ 0 → pNew ≠ (treeOfList [5, 3, 8, 1, 4, 7, 9, 2, 6]).mHeader → pNew ∉ ns →
        ∃ m2 T2 pre suf,
          RBTreeInsert (treeOfList [5, 3, 8, 1, 4, 7, 9, 2, 6]).mem fuel pNew pParent
            (treeOfList [5, 3, 8, 1, 4, 7, 9, 2, 6]).mHeader insert_left = some m2 ∧
          MemHolds m2
            (Function.update (treeOfList [5, 3, 8, 1, 4, 7, 9, 2, 6]).mValue pNew (some v))
            (treeOfList [5, 3, 8, 1, 4, 7, 9, 2, 6]).mHeader T2 ∧
          T2.color = rbtree_color.mBlack ∧ T2.noRedRed ∧ (∃ n, T2.blackHeight n) ∧
          ns = pre ++ suf ∧ T2.ptrs = pre ++ pNew :: suf ∧
          inorder m2 fuel (m2 (treeOfList [5, 3, 8, 1, 4, 7, 9, 2, 6]).mHeader).mParent
            = some (pre ++ pNew :: suf) ∧
          (pParent ≠ (treeOfList [5, 3, 8, 1, 4, 7, 9, 2, 6]).mHeader →
            if insert_left then suf.head? = some pParent
            else pre.getLast? = some pParent)) ∧
    (treeOfList [5, 3, 8, 1, 4, 7, 9, 2, 6]).nodes 40 = some [5, 9, 3, 6, 2, 10, 7, 4, 8] ∧
    ((treeOfList [5, 3, 8, 1, 4, 7, 9, 2, 6]).mem 9).mRight = 0 ∧
    ((RBTreeInsert (treeOfList [5, 3, 8, 1, 4, 7, 9, 2, 6]).mem 40 11 9 1 false).bind
        fun m2 => inorder m2 40 (m2 1).mParent)
      = some [5, 9, 11, 3, 6, 2, 10, 7, 4, 8] ∧
    ((RBTreeInsert (treeOfList [5, 3, 8, 1, 4, 7, 9, 2, 6]).mem 40 11 5 1 true).bind
        fun m2 => inorder m2 40 (m2 1).mParent)
      = some [11, 5, 9, 3, 6, 2, 10, 7, 4, 8] :=
  ⟨treeOfList_valid _ (by decide),
    RBTreeInsert_preserves id natLess (treeOfList [5, 3, 8, 1, 4, 7, 9, 2, 6])
      (treeOfList_valid _ (by decide)),
    by decide!, by decide!, by decide!, by decide!⟩

end insert_invariants


/-! ## `RBTreeErase` keeps the red-black invariants -/

set_option autoImplicit false

section erase_invariants

variable {α κ : Type}

/-- C35. For every valid tree, with `ns` the nodes visited from `begin()` to `end()` and
enough fuel: for every node `z` of `ns`, whatever its colour, the number of its children,
the colour of its successor and the child that moves up, `RBTreeErase(z)` returns, and the
memory it leaves holds below the header a shape `T2` with a black root, no red node with a
red child and the same number of black nodes on every path from the root to a null link;
the in-order sequence of `T2`, which the traversal by the child links from the root link
of the header reads off, is `ns` without `z`. -/
theorem RBTreeErase_preserves (KeyOfT : α → κ) (KeyCompare : κ → κ → Bool)
    (t : rbtree α) (hv : t.Valid KeyOfT KeyCompare) :
    ∃ ns : List Ptr, ∃ N : Nat, ∀ fuel, N ≤ fuel →
      t.nodes fuel = some ns ∧
      ∀ pre z suf, ns = pre ++ z :: suf →
        ∃ m2 T2,
          RBTreeErase t.mem fuel z t.mHeader = some m2 ∧
          MemHolds m2 t.mValue t.mHeader T2 ∧
          T2.color = rbtree_color.mBlack ∧ T2.noRedRed ∧ (∃ n, T2.blackHeight n) ∧
          T2.ptrs = pre ++ suf ∧
          inorder m2 fuel (m2 t.mHeader).mParent = some (pre ++ suf) := by
  obtain ⟨T, h, -, hrb⟩ := hv
  refine ⟨T.ptrs, T.ptrs.length + 3, fun fuel hf => ⟨nodes_spec h fuel (by omega), ?_⟩⟩
  intro pre z suf hsplit
  have hzT : z ∈ T.ptrs := by rw [hsplit]; simp
  obtain ⟨ctx, c, l, v, r, rfl⟩ := Tr.exists_plug_of_mem T z hzT
  have hnd := h.mem.nodup
  have hTp : (plug ctx (Tr.node c l z v r)).ptrs
      = (ctxBefore ctx ++ l.ptrs) ++ z :: (r.ptrs ++ ctxAfter ctx) := by
    rw [Tr.ptrs_plug]
    simp [Tr.ptrs]
  have hu := nodup_split_unique pre suf (ctxBefore ctx ++ l.ptrs) (r.ptrs ++ ctxAfter ctx)
    (by rw [← hsplit, hTp]) (by rw [← hsplit]; exact hnd)
  obtain ⟨m2, e2, h2⟩ := RBTreeErase_spec ctx c l z v r h.mem hrb fuel (by omega)
  have hrb2 := eraseAt_RedBlack ctx c l z v r hrb
  have hT2p : (eraseAt ctx c l z v r).ptrs = pre ++ suf := by
    rw [Tr.ptrs_eq_map_elems, eraseAt_elems, hu.1, hu.2]
    simp [Tr.ptrs_eq_map_elems, ctxBefore_eq_map, ctxAfter_eq_map]
  refine ⟨m2, _, e2, h2, hrb2.1, hrb2.2.1, hrb2.2.2, hT2p, ?_⟩
  rw [← hT2p]
  refine MemHolds_inorder h2 fuel ?_
  have : (pre ++ z :: suf).length = (pre ++ suf).length + 1 := by
    simp only [List.length_append, List.length_cons]
    omega
  rw [hT2p]
  rw [hsplit] at hf
  omega

/-- Witness for C35: in the tree built from 5, 3, 8, 1, 4, 7, 9, 2, 6 (nodes
5, 9, 3, 6, 2, 10, 7, 4, 8 in in-order), erasing node 2 (the black root, with two children
and the red successor 10), node 6 (a black leaf), node 9 (a red leaf), node 5 (black, with
the right child 9 only) and node 7 (black, with the left child 10 only) each leave the
other nodes in order. -/
theorem RBTreeErase_preserves_witness :
    (treeOfList [5, 3, 8, 1, 4, 7, 9, 2, 6]).Valid id natLess ∧
    (∃ ns : List Ptr, ∃ N : Nat, ∀ fuel, N ≤ fuel →
      (treeOfList [5, 3, 8, 1, 4, 7, 9, 2, 6]).nodes fuel = some ns ∧
      ∀ pre z suf, ns = pre ++ z :: suf →
        ∃ m2 T2,
          RBTreeErase (treeOfList [5, 3, 8, 1, 4, 7, 9, 2, 6]).mem fuel z
            (treeOfList [5, 3, 8, 1, 4, 7, 9, 2, 6]).mHeader = some m2 ∧
          MemHolds m2 (treeOfList [5, 3, 8, 1, 4, 7, 9, 2, 6]).mValue
            (treeOfList [5, 3, 8, 1, 4, 7, 9, 2, 6]).mHeader T2 ∧
          T2.color = rbtree_color.mBlack ∧ T2.noRedRed ∧ (∃ n, T2.blackHeight n) ∧
          T2.ptrs = pre ++ suf ∧
          inorder m2 fuel (m2 (treeOfList [5, 3, 8, 1, 4, 7, 9, 2, 6]).mHeader).mParent
            = some (pre ++ suf)) ∧
    (treeOfList [5, 3, 8, 1, 4, 7, 9, 2, 6]).nodes 40 = some [5, 9, 3, 6, 2, 10, 7, 4, 8] ∧
    ([2, 6, 9, 5, 7].map fun z =>
      (RBTreeErase (treeOfList [5, 3, 8, 1, 4, 7, 9, 2, 6]).mem 40 z 1).bind
        fun m2 => inorder m2 40 (m2 1).mParent)
      = [some [5, 9, 3, 6, 10, 7, 4, 8], some [5, 9, 3, 2, 10, 7, 4, 8],
         some [5, 3, 6, 2, 10, 7, 4, 8], some [9, 3, 6, 2, 10, 7, 4, 8],
         some [5, 9, 3, 6, 2, 10, 4, 8]] :=
  ⟨treeOfList_valid _ (by decide),
    RBTreeErase_preserves id natLess (treeOfList [5, 3, 8, 1, 4, 7, 9, 2, 6])
      (treeOfList_valid _ (by decide)),
    by decide!, by decide!⟩

end erase_invariants


/-! ## `RBTreeIncrement` and `RBTreeDecrement` -/

set_option autoImplicit false

section stepping

variable {α κ : Type}

/-- C40. For every valid tree with at least one node, with `ns` the in-order sequence of
its nodes (read off by the traversal along the child links from the root) and enough fuel:
stepping with `RBTreeIncrement` from `begin()` until `end()` visits exactly `ns`, every
node once and never the header; `RBTreeIncrement` maps every node to the next one of `ns`
and the last one to the header; `RBTreeDecrement` maps the header to the last node and
every node but the first to the one before it; and `RBTreeDecrement` applied to the result
of `RBTreeIncrement` at a node gives that node back. -/
theorem increment_decrement_spec (KeyOfT : α → κ) (KeyCompare : κ → κ → Bool)
    (t : rbtree α) (hv : t.Valid KeyOfT KeyCompare) (hne : t.mRoot ≠ 0) :
    ∃ ns : List Ptr, ∃ N : Nat, ns ≠ [] ∧ ns.Nodup ∧ t.mEnd ∉ ns ∧ ∀ fuel, N ≤ fuel →
      inorder t.mem fuel t.mRoot = some ns ∧
      t.nodes fuel = some ns ∧
      RBTreeDecrement t.mem fuel t.mEnd = ns.getLast? ∧
      ∀ pre x suf, ns = pre ++ x :: suf →
        RBTreeIncrement t.mem fuel x = some (firstD suf t.mEnd) ∧
        (suf = [] → RBTreeIncrement t.mem fuel x = some t.mEnd) ∧
        (pre ≠ [] → RBTreeDecrement t.mem fuel x = pre.getLast?) ∧
        (RBTreeIncrement t.mem fuel x).bind (RBTreeDecrement t.mem fuel) = some x := by
  obtain ⟨T, h, -, hrb⟩ := hv
  have hT : T.ptrs ≠ [] := by
    intro he
    exact hne ((Holds_links h).2.2.2 he).1
  have hlast : ∀ (l : List Ptr) (d : Ptr), l ≠ [] → some (lastD l d) = l.getLast? := by
    intro l
    induction l with
    | nil => intro d hl; exact absurd rfl hl
    | cons a l ih =>
      intro d _
      cases l with
      | nil => rfl
      | cons b l2 =>
        have := ih a (by simp)
        simpa [lastD, List.getLast?_cons_cons] using this
  refine ⟨T.ptrs, T.ptrs.length + 3, hT, h.mem.nodup, h.mem.hdr_notin, fun fuel hf => ?_⟩
  have hdec := (Holds_extremes h hT fuel (by omega)).2.2.2
  refine ⟨Holds_inorder h fuel (by omega), nodes_spec h fuel (by omega), ?_, ?_⟩
  · rw [hdec]
    exact hlast _ _ hT
  · intro pre x suf hsplit
    have hinc := RBTreeIncrement_next h.mem pre suf x hsplit fuel (by omega)
    have hprev : pre ≠ [] → RBTreeDecrement t.mem fuel x = pre.getLast? := by
      intro hp
      rw [RBTreeDecrement_prev h.mem hrb.1 pre suf x hsplit hp fuel (by omega)]
      exact hlast _ _ hp
    refine ⟨hinc, ?_, hprev, ?_⟩
    · rintro rfl
      exact hinc
    · rw [hinc]
      cases suf with
      | nil =>
        show RBTreeDecrement t.mem fuel t.mEnd = some x
        rw [hdec, hsplit]
        simp [lastD_append_cons, lastD]
      | cons y suf2 =>
        show RBTreeDecrement t.mem fuel y = some x
        have hs2 : T.ptrs = (pre ++ [x]) ++ y :: suf2 := by simp [hsplit]
        rw [RBTreeDecrement_prev h.mem hrb.1 (pre ++ [x]) suf2 y hs2 (by simp) fuel
          (by omega)]
        simp [lastD_append_cons, lastD]

/-- Witness for C40: the tree built from 5, 3, 8, 1, 4, 7, 9, 2, 6 has the nodes
5, 9, 3, 6, 2, 10, 7, 4, 8 in in-order and the header 1; each node steps forward to the
next one and the last one to the header, and the header and each node but the first step
back to the one before. -/
theorem increment_decrement_spec_witness :
    (treeOfList [5, 3, 8, 1, 4, 7, 9, 2, 6]).Valid id natLess ∧
    (treeOfList [5, 3, 8, 1, 4, 7, 9, 2, 6]).mRoot ≠ 0 ∧
    (∃ ns : List Ptr, ∃ N : Nat, ns ≠ [] ∧ ns.Nodup ∧
      (treeOfList [5, 3, 8, 1, 4, 7, 9, 2, 6]).mEnd ∉ ns ∧ ∀ fuel, N ≤ fuel →
      inorder (treeOfList [5, 3, 8, 1, 4, 7, 9, 2, 6]).mem fuel
        (treeOfList [5, 3, 8, 1, 4, 7, 9, 2, 6]).mRoot = some ns ∧
      (treeOfList [5, 3, 8, 1, 4, 7, 9, 2, 6]).nodes fuel = some ns ∧
      RBTreeDecrement (treeOfList [5, 3, 8, 1, 4, 7, 9, 2, 6]).mem fuel
        (treeOfList [5, 3, 8, 1, 4, 7, 9, 2, 6]).mEnd = ns.getLast? ∧
      ∀ pre x suf, ns = pre ++ x :: suf →
        RBTreeIncrement (treeOfList [5, 3, 8, 1, 4, 7, 9, 2, 6]).mem fuel x
          = some (firstD suf (treeOfList [5, 3, 8, 1, 4, 7, 9, 2, 6]).mEnd) ∧
        (suf = [] → RBTreeIncrement (treeOfList [5, 3, 8, 1, 4, 7, 9, 2, 6]).mem fuel x
          = some (treeOfList [5, 3, 8, 1, 4, 7, 9, 2, 6]).mEnd) ∧
        (pre ≠ [] → RBTreeDecrement (treeOfList [5, 3, 8, 1, 4, 7, 9, 2, 6]).mem fuel x
          = pre.getLast?) ∧
        (RBTreeIncrement (treeOfList [5, 3, 8, 1, 4, 7, 9, 2, 6]).mem fuel x).bind
          (RBTreeDecrement (treeOfList [5, 3, 8, 1, 4, 7, 9, 2, 6]).mem fuel) = some x) ∧
    (treeOfList [5, 3, 8, 1, 4, 7, 9, 2, 6]).nodes 40 = some [5, 9, 3, 6, 2, 10, 7, 4, 8] ∧
    ([5, 9, 3, 6, 2, 10, 7, 4, 8].map
        (RBTreeIncrement (treeOfList [5, 3, 8, 1, 4, 7, 9, 2, 6]).mem 40))
      = [some 9, some 3, some 6, some 2, some 10, some 7, some 4, some 8, some 1] ∧
    ([1, 8, 4, 7, 10, 2, 6, 3, 9].map
        (RBTreeDecrement (treeOfList [5, 3, 8, 1, 4, 7, 9, 2, 6]).mem 40))
      = [some 8, some 4, some 7, some 10, some 2, some 6, some 3, some 9, some 5] :=
  ⟨treeOfList_valid _ (by decide), by decide!,
    increment_decrement_spec id natLess (treeOfList [5, 3, 8, 1, 4, 7, 9, 2, 6])
      (treeOfList_valid _ (by decide)) (by decide!),
    by decide!, by decide!, by decide!⟩

end stepping


/-! ## `count` of `multiset` and `multimap` -/

set_option autoImplicit false

section count_claims

variable {α κ : Type}

/-- C31 (the code differs). For every valid tree under a strict weak order, with `vs` its
sequence of values and enough fuel, and every key `k`, with `n` the number of the values
of `vs` whose key is equivalent to `k`: `erase(k)` returns `n`, but `count(k)`, which is
`find(k) == end() ? 0 : 1`, returns 0 when `n` is 0 and 1 otherwise, so it is not `n`
whenever two or more stored keys are equivalent to `k`. -/
theorem count_zero_or_one_spec (KeyOfT : α → κ) (KeyCompare : κ → κ → Bool)
    (hswo : StrictWeakOrder KeyCompare) (t : rbtree α) (hv : t.Valid KeyOfT KeyCompare) :
    ∃ vs : List α, ∃ N : Nat, ∀ fuel, N ≤ fuel →
      t.toList fuel = some vs ∧
      ∀ k : κ,
        multiset_count KeyOfT KeyCompare t fuel k
          = some (if (vs.filter (fun v =>
              !KeyCompare (KeyOfT v) k && !KeyCompare k (KeyOfT v))).length = 0
            then 0 else 1) ∧
        ∃ t2, t.erase_key KeyOfT KeyCompare fuel k
          = some ((vs.filter (fun v =>
              !KeyCompare (KeyOfT v) k && !KeyCompare k (KeyOfT v))).length, t2) := by
  obtain ⟨T, h, ho, hrb⟩ := hv
  refine ⟨T.vals, T.ptrs.length + 2, fun fuel hf => ⟨toList_spec h fuel hf, fun k => ?_⟩⟩
  refine ⟨count_zero_or_one KeyOfT KeyCompare hswo h ho k fuel (by omega), ?_⟩
  obtain ⟨E1, E2, E3, t2, T2, hE, h2, h1, h3, he, -⟩ :=
    erase_key_holds KeyOfT KeyCompare hswo h ho hrb k fuel hf
  obtain ⟨f1, -⟩ := filter_three
    (fun v => !KeyCompare (KeyOfT v) k && !KeyCompare k (KeyOfT v))
    (E1.map Prod.snd) (E2.map Prod.snd) (E3.map Prod.snd)
    (by
      intro e hm
      obtain ⟨x, hx, rfl⟩ := List.mem_map.1 hm
      simp [h1 x hx])
    (by
      intro e hm
      obtain ⟨x, hx, rfl⟩ := List.mem_map.1 hm
      simp [(h2 x hx).1, (h2 x hx).2])
    (by
      intro e hm
      obtain ⟨x, hx, rfl⟩ := List.mem_map.1 hm
      simp [h3 x hx])
  have hvs : T.vals = E1.map Prod.snd ++ E2.map Prod.snd ++ E3.map Prod.snd := by
    rw [Tr.vals_eq_map_elems, hE, List.map_append, List.map_append]
  refine ⟨t2, ?_⟩
  rw [he, hvs, f1, List.length_map]

/-- Witness for C31: the multiset built by inserting 2, 1, 2, 3, 2 holds 1, 2, 2, 2, 3;
with fuel 40, `count(2)` returns 1 although `equal_range(2)` spans 3 positions and
`erase(2)` returns 3. In the multimap built from the pairs (7, 1) and (7, 2), `count(7)`
returns 1 and `erase(7)` returns 2. -/
theorem count_zero_or_one_spec_witness :
    StrictWeakOrder natLess ∧ (multisetOfList [2, 1, 2, 3, 2]).Valid id natLess ∧
    (∃ vs : List Nat, ∃ N : Nat, ∀ fuel, N ≤ fuel →
      (multisetOfList [2, 1, 2, 3, 2]).toList fuel = some vs ∧
      ∀ k : Nat,
        multiset_count id natLess (multisetOfList [2, 1, 2, 3, 2]) fuel k
          = some (if (vs.filter (fun v =>
              !natLess (id v) k && !natLess k (id v))).length = 0
            then 0 else 1) ∧
        ∃ t2, (multisetOfList [2, 1, 2, 3, 2]).erase_key id natLess fuel k
          = some ((vs.filter (fun v =>
              !natLess (id v) k && !natLess k (id v))).length, t2)) ∧
    (multisetOfList [2, 1, 2, 3, 2]).toList 40 = some [1, 2, 2, 2, 3] ∧
    multiset_count id natLess (multisetOfList [2, 1, 2, 3, 2]) 40 2 = some 1 ∧
    ((multisetOfList [2, 1, 2, 3, 2]).erase_key id natLess 40 2).map Prod.fst = some 3 ∧
    (((multisetOfList [2, 1, 2, 3, 2]).equal_range id natLess 40 2).bind
      fun r => distance_impl (multisetOfList [2, 1, 2, 3, 2]) 40 r.1 r.2) = some 3 ∧
    multimap_count natLess (multimapOfList [(7, 1), (7, 2)]) 40 7 = some 1 ∧
    ((multimapOfList [(7, 1), (7, 2)]).erase_key Prod.fst natLess 40 7).map Prod.fst
      = some 2 :=
  ⟨natLess_swo, multisetOfList_valid _ (by decide),
    count_zero_or_one_spec id natLess natLess_swo (multisetOfList [2, 1, 2, 3, 2])
      (multisetOfList_valid _ (by decide)),
    by decide!, by decide!, by decide!, by decide!, by decide!, by decide!⟩

end count_claims


/-! ## `operator==` of two lists -/

set_option autoImplicit false

section list_eq_claims

variable {α : Type}

/-- C33 (the code differs). `a == b` is `equal(a.begin(), a.end(), b.begin())`, and the
lengths are not compared: when `end()` of `a` is reached after `n` steps from `a.begin()`,
the call returns whether the `n` values of `a` agree with the values met in `n` steps from
`b.begin()`, whatever nodes those steps pass. So `a == b` holds when `b` is longer and
starts with the elements of `a`, and the steps run over the end node of `b` when `b` is
shorter. -/
theorem list_eq_ignores_length (eq : α → α → Bool) (m : ListMem α) (a b : Ptr) (n : Nat)
    (w1 w2 : List (Ptr × α)) (e2 : Ptr) (fuel : Nat)
    (h1 : (list.begin m a).bind (walk m n) = some (w1, a)) (hn : a ∉ w1.map Prod.fst)
    (h2 : (list.begin m b).bind (walk m n) = some (w2, e2)) (hf : n < fuel) :
    list_eq eq m fuel a b
      = some ((List.zipWith eq (w1.map Prod.snd) (w2.map Prod.snd)).all id) := by
  cases ha : list.begin m a with
  | none => simp [ha] at h1
  | some pa =>
    cases hb : list.begin m b with
    | none => simp [hb] at h2
    | some pb =>
      rw [ha] at h1
      rw [hb] at h2
      simp only [Option.bind_eq_bind, Option.some_bind] at h1 h2
      simp only [list_eq, ha, hb, Option.bind_eq_bind, Option.some_bind]
      exact equal_walk eq m a n pa pb w1 w2 e2 fuel h1 hn h2 hf

/-- Witness for C33: with `a` holding 1 and `b` holding 1, 2, `a == b` is true and
`a != b` false, while `b == a` is false (the second step from `a.begin()` reads the value 0
of the end node of `a`); with `a` holding 1, 0, 1 and `b` holding 1, `a == b` is true (the
steps pass the end node of `b` and its first node again); equal lists compare equal. -/
theorem list_eq_ignores_length_witness :
    (list.begin (twoLists [1] [1, 2]) 1).bind (walk (twoLists [1] [1, 2]) 1)
      = some ([(10, 1)], 1) ∧
    1 ∉ [((10 : Ptr), (1 : Int))].map Prod.fst ∧
    (list.begin (twoLists [1] [1, 2]) 2).bind (walk (twoLists [1] [1, 2]) 1)
      = some ([(30, 1)], 31) ∧
    list_eq intEq (twoLists [1] [1, 2]) 50 1 2
      = some ((List.zipWith intEq ([((10 : Ptr), (1 : Int))].map Prod.snd)
          ([((30 : Ptr), (1 : Int))].map Prod.snd)).all id) ∧
    list.toList (twoLists [1] [1, 2]) 50 1 = some [1] ∧
    list.toList (twoLists [1] [1, 2]) 50 2 = some [1, 2] ∧
    list_eq intEq (twoLists [1] [1, 2]) 50 1 2 = some true ∧
    list_ne intEq (twoLists [1] [1, 2]) 50 1 2 = some false ∧
    list_eq intEq (twoLists [1] [1, 2]) 50 2 1 = some false ∧
    list_eq intEq (twoLists [1, 0, 1] [1]) 50 1 2 = some true ∧
    list_eq intEq (twoLists [1, 2] [1, 2]) 50 1 2 = some true :=
  ⟨by decide, by decide, by decide,
    list_eq_ignores_length intEq (twoLists [1] [1, 2]) 1 2 1 [(10, 1)] [(30, 1)] 31 50
      (by decide) (by decide) (by decide) (by decide),
    by decide, by decide, by decide, by decide, by decide, by decide, by decide⟩

end list_eq_claims


/-! ## `list::merge` -/

set_option autoImplicit false

section list_merge_claims

variable {α : Type}

/-- C32 (the code differs). The loop of `merge` runs while `first != last && xfirst != last`,
where `last` is `end()` of this list, not of the argument. So in every state of the loop in
which this list is not exhausted (`first` is not `last`) and the iterator `xfirst` of the
argument stands at a node `x` other than `last`, the end node of the argument included,
every run of the loop that returns has read the value of `x` as `*xfirst`; and when `x` is
linked to itself, as the end node of an emptied list is, and its value compares less than
the value at `first`, the run has handed `x` to `splice`. -/
theorem merge_loop_reads_end_node (compare : α → α → Bool) (fuel : Nat) (m : ListMem α)
    (first last x : Ptr) (reads spliced : List Ptr) (h1 : first ≠ last) (h2 : x ≠ last) :
    ∀ r, list.merge_loop compare fuel m first last x reads spliced = some r →
      x ∈ r.2.2.2.1 ∧
      ((m x).mNext = x → (m x).mPrev = x →
        compare (m x).mValue (m first).mValue = true → x ∈ r.2.2.2.2) :=
  fun r h => merge_loop_reads compare fuel m first last x reads spliced r h1 h2 h

/-- Witness for C32, with this list at address 1 and the argument at address 2 (end node
value 0). Merging the empty list into -3: the loop returns and has read the end node 2.
Merging -4 into -5, -3: the result is -5, -4, -3 and the argument is empty, but after the
node 30 was moved the loop read the end node 2. Merging the empty list into 1, 2: the end
nodes 2 and 1 are spliced, this list is left empty and the argument is no longer a ring
that an iteration can walk. Merging 1 into 2, 4: the call never returns. Merging 2, 7 into
1, 5, where this list runs out first, gives 1, 2, 5, 7 and reads only the nodes 30 and 31
of the argument. -/
theorem merge_loop_reads_end_node_witness :
    (10 : Ptr) ≠ 1 ∧ (2 : Ptr) ≠ 1 ∧
    (∀ r, list.merge_loop intLess 50 (twoLists [-3] []) 10 1 2 [] [] = some r →
      2 ∈ r.2.2.2.1 ∧
      (((twoLists [-3] []) 2).mNext = 2 → ((twoLists [-3] []) 2).mPrev = 2 →
        intLess ((twoLists [-3] []) 2).mValue ((twoLists [-3] []) 10).mValue = true →
        2 ∈ r.2.2.2.2)) ∧
    (list.merge intLess 50 (twoLists [-3] []) 1 2).map
        (fun r => (list.toList r.1 50 1, list.toList r.1 50 2, r.2.1, r.2.2))
      = some (some [-3], some [], [2], []) ∧
    (list.merge intLess 50 (twoLists [-5, -3] [-4]) 1 2).map
        (fun r => (list.toList r.1 50 1, list.toList r.1 50 2, r.2.1, r.2.2))
      = some (some [-5, -4, -3], some [], [30, 30, 2], [30]) ∧
    (list.merge intLess 50 (twoLists [1, 2] []) 1 2).map
        (fun r => (list.toList r.1 50 1, list.toList r.1 50 2, r.2.1, r.2.2))
      = some (some [], none, [2, 2, 2], [2, 1, 2]) ∧
    (∀ fuel, list.merge intLess fuel (twoLists [2, 4] [1]) 1 2 = none) ∧
    (list.merge intLess 50 (twoLists [1, 5] [2, 7]) 1 2).map
        (fun r => (list.toList r.1 50 1, list.toList r.1 50 2, r.2.1, r.2.2))
      = some (some [1, 2, 5, 7], some [], [30, 30, 31], [30]) :=
  ⟨by decide, by decide,
    merge_loop_reads_end_node intLess 50 (twoLists [-3] []) 10 1 2 [] [] (by decide)
      (by decide),
    by decide, by decide, by decide!, merge_never_returns, by decide!⟩

end list_merge_claims


/-! ## The partition step of `introsort_loop` -/

set_option autoImplicit false

section partition_claims

variable {α : Type}

/-- C38. For every strict weak order `comp` and every array `p ++ s ++ q` whose range `s`,
from `first = p.length` up to `last = p.length + s.length`, has more than 16 elements:
`unsafe_partition_pivot` on the range taken as an array of its own returns (there every
read outside the range and every step below its first element fails, so the two unchecked
scans stay inside the range and the partition terminates), and on the range inside the
array it returns the same rearrangement `b` of the range, the rest of the array left alone,
and the same cut. The cut lies strictly inside the range, so both parts are shorter than
the range; with the pivot the element left at `first`, no element before the cut is
greater than the pivot and no element from the cut on is less. -/
theorem unsafe_partition_pivot_in_range (comp : α → α → Bool)
    (hswo : StrictWeakOrder comp) (p s q : List α) (hn : S_threshold < s.length) :
    ∃ b cut pivot,
      unsafe_partition_pivot comp s 0 s.length = some (b, cut) ∧
      unsafe_partition_pivot comp (p ++ s ++ q) p.length (p.length + s.length)
        = some (p ++ b ++ q, p.length + cut) ∧
      b.Perm s ∧ 0 < cut ∧ cut < s.length ∧
      cut - 0 < s.length ∧ s.length - cut < s.length ∧
      b[0]? = some pivot ∧
      (∀ j x, j < cut → b[j]? = some x → comp pivot x = false) ∧
      (∀ j x, cut ≤ j → b[j]? = some x → comp x pivot = false) := by
  cases s with
  | nil => simp [S_threshold] at hn
  | cons d t =>
    obtain ⟨b, cut, e, hbl, hbp, -, hc1, hc2, -, h3, h4⟩ := partition_step_spec comp hswo d
      (d :: t) 0 (d :: t).length (by simpa using hn) (le_refl _)
    have hb0 : 0 < b.length := by rw [hbl]; simp
    refine ⟨b, cut, gv d b 0, e, unsafe_partition_pivot_middle comp p (d :: t) q b cut e,
      hbp, hc1, hc2, by omega, by omega, getElem?_eq_gv d b 0 hb0, ?_, ?_⟩
    · intro j x hj hx
      have := h3 j (Nat.zero_le _) hj
      simpa [gv, hx] using this
    · intro j x hj hx
      have hjl : j < (d :: t).length := by
        by_contra hc
        rw [List.getElem?_eq_none (by omega)] at hx
        cases hx
      have := h4 j hj hjl
      simpa [gv, hx] using this

/-- Witness for C38: a range of 18 numbers, alone and inside an array with two elements
before it and one after it. The pivot is 3 and the cut is 4: the range becomes
3, 0, 2, 1 followed by fourteen numbers that are not less than 3. -/
theorem unsafe_partition_pivot_in_range_witness :
    StrictWeakOrder natLess ∧
    S_threshold < [12, 3, 17, 8, 1, 15, 6, 11, 9, 14, 2, 16, 5, 10, 4, 13, 7, 0].length ∧
    (∃ b cut pivot,
      unsafe_partition_pivot natLess
          [12, 3, 17, 8, 1, 15, 6, 11, 9, 14, 2, 16, 5, 10, 4, 13, 7, 0] 0
          [12, 3, 17, 8, 1, 15, 6, 11, 9, 14, 2, 16, 5, 10, 4, 13, 7, 0].length
        = some (b, cut) ∧
      unsafe_partition_pivot natLess
          ([100, 50] ++ [12, 3, 17, 8, 1, 15, 6, 11, 9, 14, 2, 16, 5, 10, 4, 13, 7, 0] ++ [3])
          [100, 50].length
          ([100, 50].length
            + [12, 3, 17, 8, 1, 15, 6, 11, 9, 14, 2, 16, 5, 10, 4, 13, 7, 0].length)
        = some ([100, 50] ++ b ++ [3], [100, 50].length + cut) ∧
      b.Perm [12, 3, 17, 8, 1, 15, 6, 11, 9, 14, 2, 16, 5, 10, 4, 13, 7, 0] ∧ 0 < cut ∧
      cut < [12, 3, 17, 8, 1, 15, 6, 11, 9, 14, 2, 16, 5, 10, 4, 13, 7, 0].length ∧
      cut - 0 < [12, 3, 17, 8, 1, 15, 6, 11, 9, 14, 2, 16, 5, 10, 4, 13, 7, 0].length ∧
      [12, 3, 17, 8, 1, 15, 6, 11, 9, 14, 2, 16, 5, 10, 4, 13, 7, 0].length - cut
        < [12, 3, 17, 8, 1, 15, 6, 11, 9, 14, 2, 16, 5, 10, 4, 13, 7, 0].length ∧
      b[0]? = some pivot ∧
      (∀ j x, j < cut → b[j]? = some x → natLess pivot x = false) ∧
      (∀ j x, cut ≤ j → b[j]? = some x → natLess x pivot = false)) ∧
    unsafe_partition_pivot natLess
        [12, 3, 17, 8, 1, 15, 6, 11, 9, 14, 2, 16, 5, 10, 4, 13, 7, 0] 0 18
      = some ([3, 0, 2, 1, 8, 15, 6, 11, 9, 14, 17, 16, 5, 10, 4, 13, 7, 12], 4) ∧
    unsafe_partition_pivot natLess
        [100, 50, 12, 3, 17, 8, 1, 15, 6, 11, 9, 14, 2, 16, 5, 10, 4, 13, 7, 0, 3] 2 20
      = some ([100, 50, 3, 0, 2, 1, 8, 15, 6, 11, 9, 14, 17, 16, 5, 10, 4, 13, 7, 12, 3],
          6) :=
  ⟨natLess_swo, by decide,
    unsafe_partition_pivot_in_range natLess natLess_swo [100, 50]
      [12, 3, 17, 8, 1, 15, 6, 11, 9, 14, 2, 16, 5, 10, 4, 13, 7, 0] [3] (by decide),
    by decide, by decide⟩

end partition_claims


/-! ## The pivot of the partition step -/

set_option autoImplicit false

section pivot_claims

variable {α : Type}

/-- C37 (as stated it fails). On the range 5, 1, 10, 11, 12, 13, 14, 15, 9, 16, 17, 18, 19,
20, 21, 22, 0 of 17 numbers the elements at `first`, in the middle and at `last - 1` are
5, 9 and 0, with median 5, but the partition step leaves 1 at `first`: the pivot is chosen
among the elements at `first + 1`, in the middle and at `last - 1`. -/
theorem pivot_not_median_of_first :
    ∃ b cut pivot x y z,
      unsafe_partition_pivot natLess
        [5, 1, 10, 11, 12, 13, 14, 15, 9, 16, 17, 18, 19, 20, 21, 22, 0] 0 17
          = some (b, cut) ∧
      b[0]? = some pivot ∧
      [5, 1, 10, 11, 12, 13, 14, 15, 9, 16, 17, 18, 19, 20, 21, 22, 0][0]? = some x ∧
      [5, 1, 10, 11, 12, 13, 14, 15, 9, 16, 17, 18, 19, 20, 21, 22, 0][0 + (17 - 0) / 2]?
        = some y ∧
      [5, 1, 10, 11, 12, 13, 14, 15, 9, 16, 17, 18, 19, 20, 21, 22, 0][17 - 1]? = some z ∧
      pivot = 1 ∧ x = 5 ∧ y = 9 ∧ z = 0 ∧ IsMedian natLess 5 x y z ∧
      ¬ IsMedian natLess pivot x y z := by
  refine ⟨[1, 0, 10, 11, 12, 13, 14, 15, 9, 16, 17, 18, 19, 20, 21, 22, 5], 2, 1, 5, 9, 0,
    by decide, rfl, rfl, rfl, rfl, rfl, rfl, rfl, rfl, ?_, ?_⟩
  · exact ⟨0, 9, perm312 _ _ _, by decide, by decide⟩
  · rintro ⟨lo, hi, hp, -, -⟩
    have : (1 : Nat) ∈ [5, 9, 0] := hp.subset (by simp)
    simp at this

/-- C37 (amended). For every strict weak order `comp` and every array `p ++ s ++ q` whose
range `s`, from `first = p.length` up to `last = p.length + s.length`, has more than 16
elements: the partition step returns, rearranges the range only (the array becomes
`p ++ b ++ q` with `b` a rearrangement of `s`), and the pivot it leaves at `first` is a
median under `comp` of the three elements that were at `first + 1`, at
`middle = first + (last - first) / 2` and at `last - 1` before the step. -/
theorem partition_pivot_is_median (comp : α → α → Bool) (hswo : StrictWeakOrder comp)
    (p s q : List α) (hn : S_threshold < s.length) :
    ∃ b cut x y z pivot,
      unsafe_partition_pivot comp (p ++ s ++ q) p.length (p.length + s.length)
        = some (p ++ b ++ q, cut) ∧
      b.Perm s ∧
      (p ++ s ++ q)[p.length + 1]? = some x ∧
      (p ++ s ++ q)[p.length + (p.length + s.length - p.length) / 2]? = some y ∧
      (p ++ s ++ q)[p.length + s.length - 1]? = some z ∧
      (p ++ b ++ q)[p.length]? = some pivot ∧
      IsMedian comp pivot x y z := by
  have hn2 : 16 < s.length := hn
  cases s with
  | nil => simp at hn2
  | cons d t =>
    obtain ⟨b, cut, e, hbl, hbp, -, -, -, hmed, -, -⟩ := partition_step_spec comp hswo d
      (d :: t) 0 (d :: t).length (by simpa using hn) (le_refl _)
    simp only [Nat.zero_add, Nat.sub_zero] at hmed
    have hb0 : 0 < b.length := by rw [hbl]; simp
    refine ⟨b, p.length + cut, gv d (d :: t) 1, gv d (d :: t) ((d :: t).length / 2),
      gv d (d :: t) ((d :: t).length - 1), gv d b 0,
      unsafe_partition_pivot_middle comp p (d :: t) q b cut e, hbp, ?_, ?_, ?_, ?_, hmed⟩
    · exact getElem?_middle p (d :: t) q 1 _ (getElem?_eq_gv d _ 1 (by omega))
    · rw [show p.length + (d :: t).length - p.length = (d :: t).length by omega]
      exact getElem?_middle p (d :: t) q _ _ (getElem?_eq_gv d _ _ (by omega))
    · rw [show p.length + (d :: t).length - 1 = p.length + ((d :: t).length - 1) by omega]
      exact getElem?_middle p (d :: t) q _ _ (getElem?_eq_gv d _ _ (by omega))
    · have := getElem?_middle p b q 0 _ (getElem?_eq_gv d b 0 hb0)
      simpa using this

/-- Witness for the amended C37: in the range 12, 3, 17, 8, 1, 15, 6, 11, 9, 14, 2, 16, 5,
10, 4, 13, 7, 0 inside an array, the elements at `first + 1`, in the middle and at
`last - 1` are 3, 14 and 0, and the step leaves their median 3 at `first`. -/
theorem partition_pivot_is_median_witness :
    StrictWeakOrder natLess ∧
    S_threshold < [12, 3, 17, 8, 1, 15, 6, 11, 9, 14, 2, 16, 5, 10, 4, 13, 7, 0].length ∧
    (∃ b cut x y z pivot,
      unsafe_partition_pivot natLess
          ([100, 50] ++ [12, 3, 17, 8, 1, 15, 6, 11, 9, 14, 2, 16, 5, 10, 4, 13, 7, 0] ++ [3])
          [100, 50].length
          ([100, 50].length
            + [12, 3, 17, 8, 1, 15, 6, 11, 9, 14, 2, 16, 5, 10, 4, 13, 7, 0].length)
        = some ([100, 50] ++ b ++ [3], cut) ∧
      b.Perm [12, 3, 17, 8, 1, 15, 6, 11, 9, 14, 2, 16, 5, 10, 4, 13, 7, 0] ∧
      ([100, 50] ++ [12, 3, 17, 8, 1, 15, 6, 11, 9, 14, 2, 16, 5, 10, 4, 13, 7, 0] ++ [3])[
        [100, 50].length + 1]? = some x ∧
      ([100, 50] ++ [12, 3, 17, 8, 1, 15, 6, 11, 9, 14, 2, 16, 5, 10, 4, 13, 7, 0] ++ [3])[
        [100, 50].length + ([100, 50].length
          + [12, 3, 17, 8, 1, 15, 6, 11, 9, 14, 2, 16, 5, 10, 4, 13, 7, 0].length
          - [100, 50].length) / 2]? = some y ∧
      ([100, 50] ++ [12, 3, 17, 8, 1, 15, 6, 11, 9, 14, 2, 16, 5, 10, 4, 13, 7, 0] ++ [3])[
        [100, 50].length
          + [12, 3, 17, 8, 1, 15, 6, 11, 9, 14, 2, 16, 5, 10, 4, 13, 7, 0].length - 1]?
        = some z ∧
      ([100, 50] ++ b ++ [3])[[100, 50].length]? = some pivot ∧
      IsMedian natLess pivot x y z) ∧
    unsafe_partition_pivot natLess
        [100, 50, 12, 3, 17, 8, 1, 15, 6, 11, 9, 14, 2, 16, 5, 10, 4, 13, 7, 0, 3] 2 20
      = some ([100, 50, 3, 0, 2, 1, 8, 15, 6, 11, 9, 14, 17, 16, 5, 10, 4, 13, 7, 12, 3],
          6) ∧
    IsMedian natLess 3 3 14 0 :=
  ⟨natLess_swo, by decide,
    partition_pivot_is_median natLess natLess_swo [100, 50]
      [12, 3, 17, 8, 1, 15, 6, 11, 9, 14, 2, 16, 5, 10, 4, 13, 7, 0] [3] (by decide),
    by decide, ⟨0, 14, perm312 _ _ _, by decide, by decide⟩⟩

end pivot_claims


/-! ## The unchecked pass of `final_insertion_sort` inside `sort` -/

set_option autoImplicit false

section unsafe_pass_claims

variable {α : Type}

/-- C39. For every strict weak order `comp`, every array `a` of more than 16 elements and
whatever the depth counter does: `sort` returns, through `introsort_loop` (leaving `b1`),
`insertion_sort` of the first 16 places (leaving `b2`) and the unchecked pass
`unsafe_insertion_sort` over the places from 16 on. The pass is, for each `k` below the
number of its calls, `k` calls of `unsafe_linear_insert`, then the call at the place
`16 + k`, then the others; that call, on the array `a1` left by the calls before it, returns
(in the model a scan that steps below the first place of the array fails), and a place `j`
below `16 + k` holds an element `g` that is not greater than the inserted value `v`
(`comp v g` is false), at which the backward scan stops at the latest. -/
theorem unsafe_linear_insert_stops_in_range (comp : α → α → Bool)
    (hswo : StrictWeakOrder comp) {σ : Type} (isZero : σ → Bool) (dec : σ → σ)
    (limit : Nat → σ) (a : List α) (hn : S_threshold < a.length) :
    ∃ b1 b2 b3,
      introsort_loop comp isZero dec (a.length + 1) a 0 a.length (limit a.length) = some b1 ∧
      b1.length = a.length ∧
      insertion_sort comp b1 0 (0 + S_threshold) = some b2 ∧
      unsafe_insertion_sort comp b2 (0 + S_threshold) a.length = some b3 ∧
      sort comp isZero dec limit a = some b3 ∧
      ∀ k, k < a.length - S_threshold →
        unsafe_insertion_sort comp b2 (0 + S_threshold) a.length
          = (unsafe_insertion_sort_loop comp k b2 S_threshold).bind (fun a1 =>
              (unsafe_linear_insert comp a1 (S_threshold + k)).bind (fun a2 =>
                unsafe_insertion_sort_loop comp (a.length - S_threshold - k - 1) a2
                  (S_threshold + k + 1))) ∧
        ∃ a1 a2 v j g, unsafe_insertion_sort_loop comp k b2 S_threshold = some a1 ∧
          a1[S_threshold + k]? = some v ∧
          unsafe_linear_insert comp a1 (S_threshold + k) = some a2 ∧
          j < S_threshold + k ∧ a1[j]? = some g ∧ comp v g = false := by
  have hn16 : 16 < a.length := hn
  cases a with
  | nil => simp at hn16
  | cons d t =>
    obtain ⟨b1, e, hbl, -, -, m, -, hm2, hm3, hmin⟩ := introsort_loop_spec comp hswo isZero
      dec d ((d :: t).length + 1) (d :: t) 0 (d :: t).length (limit (d :: t).length)
      (by simp) (le_refl _) (by omega)
    obtain ⟨b2, e2, hcalls⟩ := unsafe_pass_calls comp hswo d b1 (by rw [hbl]; exact hn)
      ⟨m, by simpa using hm2, by omega, fun j hj => hmin j (Nat.zero_le _) (by omega)⟩
    obtain ⟨b3, e3, -, -⟩ := sort_holds comp hswo isZero dec limit (d :: t)
    have hu : ∀ x : List α, unsafe_insertion_sort comp x (0 + S_threshold) (d :: t).length
        = unsafe_insertion_sort_loop comp ((d :: t).length - S_threshold) x S_threshold := by
      intro x
      unfold unsafe_insertion_sort
      rw [if_neg (by simp only [S_threshold]; omega)]
      simp
    have hfin : unsafe_insertion_sort comp b2 (0 + S_threshold) (d :: t).length = some b3 := by
      have h1 : (d :: t).length ≠ 0 := by simp
      have hgt : b1.length - 0 > S_threshold := by
        rw [hbl]
        simpa using hn
      simp only [sort, h1, ne_eq, not_false_eq_true, ↓reduceIte, e, Option.bind_eq_bind,
        Option.some_bind] at e3
      unfold final_insertion_sort at e3
      rw [if_pos hgt, hbl] at e3
      simp only [e2, Option.bind_eq_bind, Option.some_bind] at e3
      exact e3
    refine ⟨b1, b2, b3, e, hbl, e2, hfin, e3, ?_⟩
    intro k hk
    refine ⟨?_, hcalls k (by rw [hbl]; exact hk)⟩
    rw [hu b2]
    exact unsafe_insertion_sort_loop_at comp _ k hk b2 S_threshold

/-- Witness for C39: twenty numbers, with the natural numbers as the counter (zero test and
predecessor) and the budget 8; `sort` gives 0, ..., 19. -/
theorem unsafe_linear_insert_stops_in_range_witness :
    StrictWeakOrder natLess ∧
    S_threshold
      < [12, 3, 17, 8, 19, 1, 15, 6, 11, 18, 9, 14, 2, 16, 5, 10, 4, 13, 7, 0].length ∧
    (∃ b1 b2 b3,
      introsort_loop natLess (fun n => n == 0) (fun n => n - 1)
          ([12, 3, 17, 8, 19, 1, 15, 6, 11, 18, 9, 14, 2, 16, 5, 10, 4, 13, 7, 0].length + 1)
          [12, 3, 17, 8, 19, 1, 15, 6, 11, 18, 9, 14, 2, 16, 5, 10, 4, 13, 7, 0] 0
          [12, 3, 17, 8, 19, 1, 15, 6, 11, 18, 9, 14, 2, 16, 5, 10, 4, 13, 7, 0].length
          ((fun _ => 8)
            [12, 3, 17, 8, 19, 1, 15, 6, 11, 18, 9, 14, 2, 16, 5, 10, 4, 13, 7, 0].length)
        = some b1 ∧
      b1.length
        = [12, 3, 17, 8, 19, 1, 15, 6, 11, 18, 9, 14, 2, 16, 5, 10, 4, 13, 7, 0].length ∧
      insertion_sort natLess b1 0 (0 + S_threshold) = some b2 ∧
      unsafe_insertion_sort natLess b2 (0 + S_threshold)
          [12, 3, 17, 8, 19, 1, 15, 6, 11, 18, 9, 14, 2, 16, 5, 10, 4, 13, 7, 0].length
        = some b3 ∧
      sort natLess (fun n => n == 0) (fun n => n - 1) (fun _ => 8)
          [12, 3, 17, 8, 19, 1, 15, 6, 11, 18, 9, 14, 2, 16, 5, 10, 4, 13, 7, 0] = some b3 ∧
      ∀ k, k < [12, 3, 17, 8, 19, 1, 15, 6, 11, 18, 9, 14, 2, 16, 5, 10, 4, 13, 7, 0].length
            - S_threshold →
        unsafe_insertion_sort natLess b2 (0 + S_threshold)
            [12, 3, 17, 8, 19, 1, 15, 6, 11, 18, 9, 14, 2, 16, 5, 10, 4, 13, 7, 0].length
          = (unsafe_insertion_sort_loop natLess k b2 S_threshold).bind (fun a1 =>
              (unsafe_linear_insert natLess a1 (S_threshold + k)).bind (fun a2 =>
                unsafe_insertion_sort_loop natLess
                  ([12, 3, 17, 8, 19, 1, 15, 6, 11, 18, 9, 14, 2, 16, 5, 10, 4, 13, 7, 0].length
                    - S_threshold - k - 1) a2 (S_threshold + k + 1))) ∧
        ∃ a1 a2 v j g, unsafe_insertion_sort_loop natLess k b2 S_threshold = some a1 ∧
          a1[S_threshold + k]? = some v ∧
          unsafe_linear_insert natLess a1 (S_threshold + k) = some a2 ∧
          j < S_threshold + k ∧ a1[j]? = some g ∧ natLess v g = false) ∧
    sort natLess (fun n => n == 0) (fun n => n - 1) (fun _ => 8)
        [12, 3, 17, 8, 19, 1, 15, 6, 11, 18, 9, 14, 2, 16, 5, 10, 4, 13, 7, 0]
      = some [0, 1, 2, 3, 4, 5, 6, 7, 8, 9, 10, 11, 12, 13, 14, 15, 16, 17, 18, 19] :=
  ⟨natLess_swo, by decide,
    unsafe_linear_insert_stops_in_range natLess natLess_swo (fun n => n == 0)
      (fun n => n - 1) (fun _ => 8)
      [12, 3, 17, 8, 19, 1, 15, 6, 11, 18, 9, 14, 2, 16, 5, 10, 4, 13, 7, 0] (by decide),
    by decide⟩

end unsafe_pass_claims


/-! ## The depth budget of `sort` -/

set_option autoImplicit false

section depth_budget_claims

variable {α σ : Type}

/-- C36 (the code differs). `sort` passes `std::log(last - first) * 2` to `introsort_loop`,
so the counter `depth_limit` is a `double` that starts at twice the natural logarithm of the
length, not at `2 * floor(log2(n))`. For every counter with rational values `val` whose zero
test is exact, whose decrement is exact from 1 upwards and gives a negative value below 1
(as `== 0` and `--` on a `double` are), and whose starting value for the arrays of `n`
elements lies strictly between two consecutive natural numbers (as twice the natural
logarithm of `n` does): the counter is never zero, however often it is decremented, and on
every array of `n` elements `sort` and `introsort_loop` run as they do with the zero test
always false, that is without the heap fallback, so that the counter does not bound the
nesting of the partition steps. -/
theorem depth_limit_never_zero (val : σ → ℚ) (isZero : σ → Bool) (dec : σ → σ)
    (limit : Nat → σ) (n k0 : Nat)
    (hz : ∀ x, isZero x = true ↔ val x = 0)
    (hd1 : ∀ x, 1 ≤ val x → val (dec x) = val x - 1)
    (hd2 : ∀ x, val x < 1 → val (dec x) < 0)
    (hlo : (k0 : ℚ) < val (limit n)) (hhi : val (limit n) < k0 + 1) :
    (∀ k, isZero (dec^[k] (limit n)) = false) ∧
    ∀ (comp : α → α → Bool) (arr : List α), arr.length = n →
      sort comp isZero dec limit arr = sort comp (fun _ => false) dec limit arr ∧
      introsort_loop comp isZero dec (n + 1) arr 0 n (limit n)
        = (introsort_loop_steps comp (fun _ => false) dec (n + 1) arr 0 n (limit n) 0).map
            Prod.fst := by
  have hnever := isZero_never val isZero dec hz hd1 hd2 k0 (limit n) hlo hhi
  refine ⟨hnever, fun comp arr hlen => ⟨?_, ?_⟩⟩
  · unfold sort
    by_cases h0 : arr.length ≠ 0
    · rw [if_pos h0, if_pos h0, hlen,
        introsort_loop_no_fallback isZero dec comp (n + 1) arr 0 n (limit n) hnever]
    · rw [if_neg h0, if_neg h0]
  · rw [introsort_loop_steps_fst,
      introsort_loop_no_fallback isZero dec comp (n + 1) arr 0 n (limit n) hnever]

/-- Witness for C36, for arrays of 64 elements, with the rational numbers as the counter
and 8.318 for `std::log(64) * 2`: twice the natural logarithm of 64 lies between 8 and 9,
while `2 * floor(log2(64))` is 12, and for every length above 16 twice the natural logarithm
is the smaller number. On the array `killer64` the run nests 24 partition steps and never
takes the heap path; with the whole number 12 as the budget the nesting stops at 12 and the
array left by `introsort_loop` is another one. -/
theorem depth_limit_never_zero_witness :
    (∀ x : ℚ, (fun y : ℚ => decide (y = 0)) x = true ↔ id x = 0) ∧
    (∀ x : ℚ, 1 ≤ id x → id ((fun y : ℚ => y - 1) x) = id x - 1) ∧
    (∀ x : ℚ, id x < 1 → id ((fun y : ℚ => y - 1) x) < 0) ∧
    ((8 : Nat) : ℚ) < id ((fun _ : Nat => (8318 / 1000 : ℚ)) 64) ∧
    id ((fun _ : Nat => (8318 / 1000 : ℚ)) 64) < (8 : Nat) + 1 ∧
    ((∀ k, (fun y : ℚ => decide (y = 0))
        ((fun y : ℚ => y - 1)^[k] ((fun _ : Nat => (8318 / 1000 : ℚ)) 64)) = false) ∧
      ∀ (comp : Nat → Nat → Bool) (arr : List Nat), arr.length = 64 →
        sort comp (fun y : ℚ => decide (y = 0)) (fun y : ℚ => y - 1)
            (fun _ : Nat => (8318 / 1000 : ℚ)) arr
          = sort comp (fun _ => false) (fun y : ℚ => y - 1)
              (fun _ : Nat => (8318 / 1000 : ℚ)) arr ∧
        introsort_loop comp (fun y : ℚ => decide (y = 0)) (fun y : ℚ => y - 1) (64 + 1) arr
            0 64 ((fun _ : Nat => (8318 / 1000 : ℚ)) 64)
          = (introsort_loop_steps comp (fun _ => false) (fun y : ℚ => y - 1) (64 + 1) arr
              0 64 ((fun _ : Nat => (8318 / 1000 : ℚ)) 64) 0).map Prod.fst) ∧
    ((8 : ℝ) < 2 * Real.log 64 ∧ 2 * Real.log 64 < 9) ∧
    2 * Nat.log 2 64 = 12 ∧
    (∀ n : Nat, 16 < n → 2 * Real.log n + 1 / 5 < 2 * (Nat.log 2 n : ℝ)) ∧
    killer64.length = 64 ∧
    (introsort_loop_steps natLess (fun y : ℚ => decide (y = 0)) (fun y : ℚ => y - 1) 65
        killer64 0 64 (8318 / 1000 : ℚ) 0).map Prod.snd = some 24 ∧
    (introsort_loop_steps natLess (fun y : Nat => y == 0) (fun y : Nat => y - 1) 65
        killer64 0 64 12 0).map Prod.snd = some 12 ∧
    introsort_loop natLess (fun y : Nat => y == 0) (fun y : Nat => y - 1) 65 killer64 0 64 12
      ≠ introsort_loop natLess (fun y : ℚ => decide (y = 0)) (fun y : ℚ => y - 1) 65
          killer64 0 64 (8318 / 1000 : ℚ) :=
  ⟨by intro x; simp, fun _ _ => rfl, by intro x hx; simp only [id_eq] at hx ⊢; linarith,
    by norm_num, by norm_num,
    depth_limit_never_zero id (fun y : ℚ => decide (y = 0)) (fun y : ℚ => y - 1)
      (fun _ : Nat => (8318 / 1000 : ℚ)) 64 8 (by intro x; simp) (fun _ _ => rfl)
      (by intro x hx; simp only [id_eq] at hx ⊢; linarith) (by norm_num) (by norm_num),
    two_log_64,
    by rw [show 64 = 2 ^ 6 by norm_num, Nat.log_pow (by norm_num)],
    two_log_lt_two_log2, by decide, by decide!, by decide!, by decide!⟩

end depth_budget_claims


/-! ## What a comparator that throws leaves in the range -/

set_option autoImplicit false

